import Mathlib

/-!
# jsonL: a shallow embedding of the JSON value model, serializer and parser

The definitions below follow `src/jsonL.hpp` and `src/jsonL.cpp` function by
function.  A `std::string` is a list of bytes (`List Nat`, each byte below 256);
`str[i]` is `List.getD str i 0`, since `std::string::operator[]` yields the
terminating NUL at `i == size()`.  `char` is taken to be signed, as on the
x86-64 targets the library is built for; this only shows in `toLong`, that is in
`in_range` and in the digits printed by `esc`.

The C library is not part of the repository.  `snprintf("%d")`, `atoi` and
`strtol(_, _, 16)` are modelled directly; `strtod` and `snprintf("%.17g")`
round and are kept as the two fields of `Libc`.
-/

namespace jsonL

/-! ## Bytes and text -/

/-- The bytes of an ASCII literal. -/
def bytes (s : String) : List Nat := s.toList.map Char.toNat

/-- Integer promotion of a (signed) `char` holding the byte `c`: a byte from
0x80 on is negative.  On a number that is not a byte the result is negative
too, so that it is never taken for an ASCII character. -/
def toLong (c : Nat) : Int := if c < 128 then (c : Int) else ((c % 256 : Nat) : Int) - 256

/-- The helper `in_range(long x, long lower, long upper)`. -/
def in_range (x lower upper : Int) : Bool := decide (x ≥ lower) && decide (x ≤ upper)

/-- The loop behind `snprintf("%u")`: the decimal digits of `n` are pushed in front of `acc`. -/
def natToDec_loop : Nat → Nat → List Nat → List Nat
  | 0, _, acc => acc
  | fuel + 1, n, acc =>
    if n < 10 then (48 + n) :: acc
    else natToDec_loop fuel (n / 10) ((48 + n % 10) :: acc)

/-- Decimal digits of a natural number, most significant first. -/
def natToDec (n : Nat) : List Nat := natToDec_loop (n + 1) n []

/-- The text `snprintf(buf, sizeof buf, "%d", value)` produces. -/
def intToDec (n : Int) : List Nat :=
  if n < 0 then 45 :: natToDec (-n).toNat else natToDec n.toNat

/-- One lower-case hexadecimal digit. -/
def hexDigit (d : Nat) : Nat := if d < 10 then 48 + d else 87 + d

/-- The text `snprintf(buf, sizeof buf, "%04x", n)` produces for `n < 0x10000`. -/
def hex4 (n : Nat) : List Nat :=
  [hexDigit (n / 4096 % 16), hexDigit (n / 256 % 16), hexDigit (n / 16 % 16), hexDigit (n % 16)]

/-- The C string starting at offset `pos` of `s`, as `s.c_str() + pos`: it ends at the first NUL. -/
def c_str (s : List Nat) (pos : Nat) : List Nat := (s.drop pos).takeWhile (fun c => c ≠ 0)

/-- The predicate `isspace` of the C locale. -/
def isspace (c : Nat) : Bool := c = 32 || (9 ≤ c && c ≤ 13)

/-- The digit loop of `atoi`. -/
def atoi_digits : List Nat → Nat → Nat
  | [], acc => acc
  | c :: cs, acc => if 48 ≤ c ∧ c ≤ 57 then atoi_digits cs (acc * 10 + (c - 48)) else acc

/-- The function `atoi`: leading white space, an optional sign, then decimal digits.
The parser only calls it on at most nine characters, so the `int` result never overflows. -/
def atoi (s : List Nat) : Int :=
  match s.dropWhile isspace with
  | 45 :: cs => - (atoi_digits cs 0 : Int)
  | 43 :: cs => (atoi_digits cs 0 : Int)
  | cs => (atoi_digits cs 0 : Int)

/-- Value of a hexadecimal digit character, if it is one. -/
def hexVal (c : Nat) : Option Nat :=
  if 48 ≤ c ∧ c ≤ 57 then some (c - 48)
  else if 97 ≤ c ∧ c ≤ 102 then some (c - 87)
  else if 65 ≤ c ∧ c ≤ 70 then some (c - 55)
  else none

/-- The digit loop of `strtol(_, nullptr, 16)`. -/
def strtol16_loop : List Nat → Nat → Nat
  | [], acc => acc
  | c :: cs, acc =>
    match hexVal c with
    | some d => strtol16_loop cs (acc * 16 + d)
    | none => acc

/-- The call `strtol(esc.data(), nullptr, 16)`; the parser only makes it on four
validated hexadecimal digits, so neither the sign nor the `0x` prefix of `strtol` can occur. -/
def strtol16 (s : List Nat) : Nat := strtol16_loop s 0

/-! ## Doubles -/

/-- A `double`, by the value it denotes.  Which rationals are binary64 values is
not recorded: no definition below rounds. -/
inductive Double where
  | finite (q : ℚ)
  | negZero
  | posInf
  | negInf
  | nan
  deriving DecidableEq

/-- Conversion `int → double`; exact for every 32-bit `int`. -/
def Double.ofInt (n : Int) : Double := Double.finite (n : ℚ)

/-- The predicate `std::isfinite`. -/
def Double.isfinite : Double → Bool
  | .finite _ => true
  | .negZero => true
  | _ => false

/-- IEEE comparison `a == b` of two doubles. -/
def Double.eq : Double → Double → Bool
  | .nan, _ => false
  | _, .nan => false
  | .finite a, .finite b => decide (a = b)
  | .finite a, .negZero => decide (a = 0)
  | .negZero, .finite b => decide (b = 0)
  | .negZero, .negZero => true
  | .posInf, .posInf => true
  | .negInf, .negInf => true
  | _, _ => false

/-- IEEE comparison `a < b` of two doubles. -/
def Double.lt : Double → Double → Bool
  | .nan, _ => false
  | _, .nan => false
  | .finite a, .finite b => decide (a < b)
  | .finite a, .negZero => decide (a < 0)
  | .negZero, .finite b => decide (0 < b)
  | .negInf, .finite _ => true
  | .negInf, .negZero => true
  | .negInf, .posInf => true
  | .finite _, .posInf => true
  | .negZero, .posInf => true
  | _, _ => false

/-- The two rounding functions of the C library the code calls. -/
structure Libc where
  /-- The call `std::strtod(s, nullptr)` on a C string. -/
  strtod : List Nat → Double
  /-- The text `snprintf(buf, sizeof buf, "%.17g", value)` produces. -/
  fmt17g : Double → List Nat

/-! ## The value model -/

/-- The enumeration `Json::Type`. -/
inductive JsonType where
  | NUL | NUMBER | BOOL | STRING | ARRAY | OBJECT
  deriving DecidableEq, Repr

/-- The enumeration `JsonParse`. -/
inductive JsonParse where
  | STANDARD | COMMENTS
  deriving DecidableEq, Repr

/-- A `Json` value: one constructor per `JsonValue` subclass.  An object is the
`std::map<string, Json>` in iteration order, that is by ascending key. -/
inductive Json where
  | null
  | bool (b : Bool)
  | int (n : Int)
  | double (d : Double)
  | string (s : List Nat)
  | array (xs : List Json)
  | object (m : List (List Nat × Json))

/-- The comparison `std::string::operator<`: lexicographic on unsigned bytes. -/
def string_lt : List Nat → List Nat → Bool
  | [], [] => false
  | [], _ :: _ => true
  | _ :: _, [] => false
  | a :: as, b :: bs => if a < b then true else if b < a then false else string_lt as bs

/-- The assignment `data[key] = value` on a `std::map<string, T>`. -/
def map_assign {α : Type} (key : List Nat) (value : α) : List (List Nat × α) → List (List Nat × α)
  | [] => [(key, value)]
  | (k, v) :: rest =>
    if string_lt key k then (key, value) :: (k, v) :: rest
    else if string_lt k key then (k, v) :: map_assign key value rest
    else (k, value) :: rest

/-- The lookup `m.find(key)` on a `std::map<string, T>`; `none` stands for `end()`. -/
def map_find {α : Type} (key : List Nat) : List (List Nat × α) → Option α
  | [] => none
  | (k, v) :: rest => if k = key then some v else map_find key rest

/-- The accessor `Json::type`. -/
def Json.type : Json → JsonType
  | .null => .NUL
  | .bool _ => .BOOL
  | .int _ => .NUMBER
  | .double _ => .NUMBER
  | .string _ => .STRING
  | .array _ => .ARRAY
  | .object _ => .OBJECT

/-- The accessor `Json::is_object`. -/
def Json.is_object (j : Json) : Bool := decide (j.type = JsonType.OBJECT)

/-- The accessor `Json::number_value`. -/
def Json.number_value : Json → Double
  | .int n => Double.ofInt n
  | .double d => d
  | _ => Double.finite 0

/-- The conversion `static_cast<int>(double)`: the fraction is dropped.  It is
defined in C++ only when the result is an `int`; here a double that is not
finite gives 0. -/
def Double.toInt : Double → Int
  | .finite q => Int.tdiv q.num q.den
  | _ => 0

/-- The accessor `Json::int_value`. -/
def Json.int_value : Json → Int
  | .int n => n
  | .double d => d.toInt
  | _ => 0

/-- The accessor `Json::object_items`. -/
def Json.object_items : Json → List (List Nat × Json)
  | .object m => m
  | _ => []

/-- The accessor `Json::array_items`. -/
def Json.array_items : Json → List Json
  | .array xs => xs
  | _ => []

/-- The accessor `Json::string_value`. -/
def Json.string_value : Json → List Nat
  | .string s => s
  | _ => []

/-- The indexing `Json::operator[](const string &)`. -/
def Json.at_key (j : Json) (key : List Nat) : Json :=
  match j with
  | .object m => (map_find key m).getD Json.null
  | _ => Json.null

/-- The accessor `Json::bool_value`. -/
def Json.bool_value : Json → Bool
  | .bool b => b
  | _ => false

/-- The indexing `Json::operator[](size_t)`; `static_null()` is Null. -/
def Json.at_index (j : Json) (i : Nat) : Json :=
  match j with
  | .array xs => if i ≥ xs.length then Json.null else xs.getD i Json.null
  | _ => Json.null

/-! ## Serialization -/

/-- The overload `dump(NullStruct, string &)`. -/
def dump_null (out : List Nat) : List Nat := out ++ bytes "null"

/-- The overload `dump(bool, string &)`. -/
def dump_bool (value : Bool) (out : List Nat) : List Nat :=
  out ++ (if value then bytes "true" else bytes "false")

/-- The overload `dump(int, string &)`. -/
def dump_int (value : Int) (out : List Nat) : List Nat := out ++ intToDec value

/-- The overload `dump(double, string &)`. -/
def dump_double (L : Libc) (value : Double) (out : List Nat) : List Nat :=
  if value.isfinite then out ++ L.fmt17g value else out ++ bytes "null"

/-- The loop of `dump(const string &, string &)`, from index `i` on.  The fuel is
the number of bytes left, so it never runs out before `i` reaches the length. -/
def dump_string_loop (value : List Nat) : Nat → Nat → List Nat → List Nat
  | 0, _, out => out
  | fuel + 1, i, out =>
    if i < value.length then
      let ch := value.getD i 0
      if ch = 92 then dump_string_loop value fuel (i + 1) (out ++ [92, 92])
      else if ch = 34 then dump_string_loop value fuel (i + 1) (out ++ [92, 34])
      else if ch = 8 then dump_string_loop value fuel (i + 1) (out ++ [92, 98])
      else if ch = 12 then dump_string_loop value fuel (i + 1) (out ++ [92, 102])
      else if ch = 10 then dump_string_loop value fuel (i + 1) (out ++ [92, 110])
      else if ch = 13 then dump_string_loop value fuel (i + 1) (out ++ [92, 114])
      else if ch = 9 then dump_string_loop value fuel (i + 1) (out ++ [92, 116])
      else if ch ≤ 0x1f then dump_string_loop value fuel (i + 1) (out ++ [92, 117] ++ hex4 ch)
      else if ch = 0xe2 ∧ value.getD (i + 1) 0 = 0x80 ∧ value.getD (i + 2) 0 = 0xa8 then
        dump_string_loop value fuel (i + 1 + 2) (out ++ bytes "\\u2028")
      else if ch = 0xe2 ∧ value.getD (i + 1) 0 = 0x80 ∧ value.getD (i + 2) 0 = 0xa9 then
        dump_string_loop value fuel (i + 1 + 2) (out ++ bytes "\\u2029")
      else dump_string_loop value fuel (i + 1) (out ++ [ch])
    else out

/-- The overload `dump(const string &, string &)`. -/
def dump_string (value : List Nat) (out : List Nat) : List Nat :=
  dump_string_loop value value.length 0 (out ++ [34]) ++ [34]

mutual
/-- The method `Json::dump(string &)`, dispatching on the kind of value. -/
def Json.dump (L : Libc) : Json → List Nat → List Nat
  | .null, out => dump_null out
  | .bool b, out => dump_bool b out
  | .int n, out => dump_int n out
  | .double d, out => dump_double L d out
  | .string s, out => dump_string s out
  | .array xs, out => Json.dump_array L xs true (out ++ [91]) ++ [93]
  | .object m, out => Json.dump_object L m true (out ++ [123]) ++ [125]
/-- The loop of `dump(const Json::array &, string &)`. -/
def Json.dump_array (L : Libc) : List Json → Bool → List Nat → List Nat
  | [], _, out => out
  | value :: rest, first, out =>
    Json.dump_array L rest false (Json.dump L value (if !first then out ++ [44, 32] else out))
/-- The loop of `dump(const Json::object &, string &)`. -/
def Json.dump_object (L : Libc) : List (List Nat × Json) → Bool → List Nat → List Nat
  | [], _, out => out
  | value :: rest, first, out =>
    Json.dump_object L rest false
      (Json.dump L value.2 (dump_string value.1 (if !first then out ++ [44, 32] else out) ++ [58, 32]))
end

/-- The method `Json::dump()` returning a fresh string. -/
def Json.dumps (L : Libc) (j : Json) : List Nat := Json.dump L j []

/-! ## Comparison -/

mutual
/-- The operator `Json::operator==`: different kinds are unequal, equal kinds go
to `equals` of the left operand.  Two numbers are compared as doubles
(`JsonInt::equals`, `JsonDouble::equals`), the other kinds by `operator==` of the
wrapped value.  The shortcut on identical pointers is not modelled: it only
differs from this comparison on a value holding a NaN. -/
def Json.eq : Json → Json → Bool
  | .null, .null => true
  | .bool a, .bool b => a == b
  | .int a, .int b => Double.eq (Double.ofInt a) (Double.ofInt b)
  | .int a, .double b => Double.eq (Double.ofInt a) b
  | .double a, .int b => Double.eq a (Double.ofInt b)
  | .double a, .double b => Double.eq a b
  | .string a, .string b => decide (a = b)
  | .array a, .array b => Json.eq_array a b
  | .object a, .object b => Json.eq_object a b
  | _, _ => false
/-- The comparison `operator==` of two `std::vector<Json>`. -/
def Json.eq_array : List Json → List Json → Bool
  | [], [] => true
  | a :: as, b :: bs => Json.eq a b && Json.eq_array as bs
  | _, _ => false
/-- The comparison `operator==` of two `std::map<string, Json>`. -/
def Json.eq_object : List (List Nat × Json) → List (List Nat × Json) → Bool
  | [], [] => true
  | a :: as, b :: bs => (decide (a.1 = b.1) && Json.eq a.2 b.2) && Json.eq_object as bs
  | _, _ => false
end

/-- The value of an enumerator of `Json::Type`, which `operator<` compares. -/
def JsonType.rank : JsonType → Nat
  | .NUL => 0
  | .NUMBER => 1
  | .BOOL => 2
  | .STRING => 3
  | .ARRAY => 4
  | .OBJECT => 5

mutual
/-- The operator `Json::operator<` after its test of the pointers: values of
different kinds compare by their kind, values of one kind by `less` of the left
operand.  Two numbers are compared as doubles (`JsonInt::less`,
`JsonDouble::less`), the other kinds by `operator<` of the wrapped value. -/
def Json.lt : Json → Json → Bool
  | .null, .null => false
  | .bool a, .bool b => !a && b
  | .int a, .int b => Double.lt (Double.ofInt a) (Double.ofInt b)
  | .int a, .double b => Double.lt (Double.ofInt a) b
  | .double a, .int b => Double.lt a (Double.ofInt b)
  | .double a, .double b => Double.lt a b
  | .string a, .string b => string_lt a b
  | .array a, .array b => Json.lt_array a b
  | .object a, .object b => Json.lt_object a b
  | a, b => decide (a.type.rank < b.type.rank)
termination_by structural a => a
/-- The comparison `b < a`, by recursion on `a`: the second comparison of each
round of `std::lexicographical_compare` (`Json.gt_eq`). -/
def Json.gt : Json → Json → Bool
  | .null, .null => false
  | .bool a, .bool b => !b && a
  | .int a, .int b => Double.lt (Double.ofInt b) (Double.ofInt a)
  | .int a, .double b => Double.lt b (Double.ofInt a)
  | .double a, .int b => Double.lt (Double.ofInt b) a
  | .double a, .double b => Double.lt b a
  | .string a, .string b => string_lt b a
  | .array a, .array b => Json.gt_array a b
  | .object a, .object b => Json.gt_object a b
  | a, b => decide (b.type.rank < a.type.rank)
termination_by structural a => a
/-- The comparison `operator<` of two `std::vector<Json>`:
`std::lexicographical_compare`. -/
def Json.lt_array : List Json → List Json → Bool
  | [], [] => false
  | [], _ :: _ => true
  | _ :: _, [] => false
  | a :: as, b :: bs =>
    if Json.lt a b then true else if Json.gt a b then false else Json.lt_array as bs
termination_by structural a => a
/-- The comparison `bs < as` of two `std::vector<Json>`, by recursion on `as`. -/
def Json.gt_array : List Json → List Json → Bool
  | [], [] => false
  | [], _ :: _ => false
  | _ :: _, [] => true
  | a :: as, b :: bs =>
    if Json.gt a b then true else if Json.lt a b then false else Json.gt_array as bs
termination_by structural a => a
/-- The comparison `operator<` of two `std::map<string, Json>`:
`std::lexicographical_compare` with `operator<` of `std::pair`. -/
def Json.lt_object : List (List Nat × Json) → List (List Nat × Json) → Bool
  | [], [] => false
  | [], _ :: _ => true
  | _ :: _, [] => false
  | a :: as, b :: bs =>
    if string_lt a.1 b.1 || (!string_lt b.1 a.1 && Json.lt a.2 b.2) then true
    else if string_lt b.1 a.1 || (!string_lt a.1 b.1 && Json.gt a.2 b.2) then false
    else Json.lt_object as bs
termination_by structural a => a
/-- The comparison `bs < as` of two `std::map<string, Json>`, by recursion on `as`. -/
def Json.gt_object : List (List Nat × Json) → List (List Nat × Json) → Bool
  | [], [] => false
  | [], _ :: _ => false
  | _ :: _, [] => true
  | a :: as, b :: bs =>
    if string_lt b.1 a.1 || (!string_lt a.1 b.1 && Json.gt a.2 b.2) then true
    else if string_lt a.1 b.1 || (!string_lt b.1 a.1 && Json.lt a.2 b.2) then false
    else Json.gt_object as bs
termination_by structural a => a
end

/-- The operator `Json::operator==`; `same_ptr` is the outcome of its first
test, `m_ptr == other.m_ptr`. -/
def Json.op_eq (same_ptr : Bool) (a b : Json) : Bool :=
  if same_ptr then true else Json.eq a b

/-- The operator `Json::operator<`; `same_ptr` is the outcome of its first test,
`m_ptr == other.m_ptr`. -/
def Json.op_lt (same_ptr : Bool) (a b : Json) : Bool :=
  if same_ptr then false else Json.lt a b

mutual
/-- Structural equality of two values, for the `DecidableEq` instance. -/
def Json.beq : Json → Json → Bool
  | .null, .null => true
  | .bool a, .bool b => decide (a = b)
  | .int a, .int b => decide (a = b)
  | .double a, .double b => decide (a = b)
  | .string a, .string b => decide (a = b)
  | .array a, .array b => Json.beq_array a b
  | .object a, .object b => Json.beq_object a b
  | _, _ => false
/-- Structural equality of two arrays. -/
def Json.beq_array : List Json → List Json → Bool
  | [], [] => true
  | a :: as, b :: bs => Json.beq a b && Json.beq_array as bs
  | _, _ => false
/-- Structural equality of two objects. -/
def Json.beq_object : List (List Nat × Json) → List (List Nat × Json) → Bool
  | [], [] => true
  | (k, a) :: as, (k', b) :: bs => (decide (k = k') && Json.beq a b) && Json.beq_object as bs
  | _, _ => false
end

/-! ## The parser -/

/-- The constant `max_depth`. -/
def max_depth : Nat := 200

/-- The helper `esc(char c)`. -/
def esc (c : Nat) : List Nat :=
  if c ≥ 0x20 ∧ c ≤ 0x7f then [39, c, 39, 32, 40] ++ intToDec (toLong c) ++ [41]
  else [40] ++ intToDec (toLong c) ++ [41]

/-- The state of `struct JsonParser`. -/
structure JsonParser where
  /-- The input text. -/
  str : List Nat
  /-- The cursor. -/
  i : Nat
  /-- The error message slot of the caller. -/
  err : List Nat
  /-- The flag set by the first failure. -/
  failed : Bool
  /-- The dialect. -/
  strategy : JsonParse
  deriving DecidableEq

/-- The byte `str[k]`. -/
def JsonParser.at (p : JsonParser) (k : Nat) : Nat := p.str.getD k 0

/-- The byte `str[i]` under the cursor. -/
def JsonParser.cur (p : JsonParser) : Nat := p.str.getD p.i 0

/-- The step `i += n`. -/
def JsonParser.adv (p : JsonParser) (n : Nat) : JsonParser := { p with i := p.i + n }

/-- The step `i--`. -/
def JsonParser.back (p : JsonParser) : JsonParser := { p with i := p.i - 1 }

/-- The state change of `JsonParser::fail`: the message is stored unless a
failure was recorded before. -/
def JsonParser.fail (p : JsonParser) (msg : List Nat) : JsonParser :=
  { p with err := if !p.failed then msg else p.err, failed := true }

/-- The loop of `consume_whitespace`; the fuel is the number of bytes left. -/
def consume_whitespace_loop : Nat → JsonParser → JsonParser
  | 0, p => p
  | fuel + 1, p =>
    if p.cur = 32 ∨ p.cur = 9 ∨ p.cur = 10 ∨ p.cur = 13 then consume_whitespace_loop fuel (p.adv 1)
    else p

/-- The method `consume_whitespace`. -/
def consume_whitespace (p : JsonParser) : JsonParser :=
  consume_whitespace_loop (p.str.length - p.i) p

/-- The loop of an inline comment: advance until the next line or the end of input. -/
def line_comment_loop : Nat → JsonParser → JsonParser
  | 0, p => p
  | fuel + 1, p =>
    if p.i < p.str.length ∧ p.cur ≠ 10 then line_comment_loop fuel (p.adv 1) else p

/-- The loop of a multi-line comment: advance until the closing tokens. -/
def block_comment_loop : Nat → JsonParser → Bool × JsonParser
  | 0, p => (false, p)
  | fuel + 1, p =>
    if ¬ (p.cur = 42 ∧ p.at (p.i + 1) = 47) then
      let p := p.adv 1
      if p.i > p.str.length - 2 then
        (false, p.fail (bytes "unexpected end of input inside multi-line comment"))
      else block_comment_loop fuel p
    else (true, p.adv 2)

/-- The method `consume_comment`. -/
def consume_comment (p : JsonParser) : Bool × JsonParser :=
  if p.cur = 47 then
    let p := p.adv 1
    if p.i = p.str.length then
      (false, p.fail (bytes "unexpected end of input after start of comment"))
    else if p.cur = 47 then
      let p := p.adv 1
      (true, line_comment_loop (p.str.length - p.i) p)
    else if p.cur = 42 then
      let p := p.adv 1
      if p.i > p.str.length - 2 then
        (false, p.fail (bytes "unexpected end of input inside multi-line comment"))
      else block_comment_loop (p.str.length - p.i) p
    else (false, p.fail (bytes "malformed comment"))
  else (false, p)

/-- The do-while loop of `consume_garbage`; every round that goes on has consumed a comment. -/
def consume_garbage_loop : Nat → JsonParser → JsonParser
  | 0, p => p
  | fuel + 1, p =>
    let r := consume_comment p
    if r.2.failed then r.2
    else
      let p := consume_whitespace r.2
      if r.1 then consume_garbage_loop fuel p else p

/-- The method `consume_garbage`. -/
def consume_garbage (p : JsonParser) : JsonParser :=
  let p := consume_whitespace p
  if p.strategy = JsonParse.COMMENTS then consume_garbage_loop (p.str.length - p.i + 1) p
  else p

/-- The method `get_next_token`. -/
def get_next_token (p : JsonParser) : Nat × JsonParser :=
  let p := consume_garbage p
  if p.failed then (0, p)
  else if p.i = p.str.length then (0, p.fail (bytes "unexpected end of input"))
  else (p.cur, p.adv 1)

/-- The loops `while (in_range(str[i], '0', '9')) i++` of `parse_number`. -/
def digits_loop : Nat → JsonParser → JsonParser
  | 0, p => p
  | fuel + 1, p =>
    if in_range (toLong p.cur) 48 57 then digits_loop fuel (p.adv 1) else p

/-- The exponent part of `parse_number` and its final `strtod`. -/
def parse_number_exp (L : Libc) (start_pos : Nat) (p : JsonParser) : Json × JsonParser :=
  if p.cur = 101 ∨ p.cur = 69 then
    let p := p.adv 1
    let p := if p.cur = 43 ∨ p.cur = 45 then p.adv 1 else p
    if !in_range (toLong p.cur) 48 57 then
      (Json.null, p.fail (bytes "at least one digit required in exponent"))
    else
      let p := digits_loop (p.str.length - p.i) p
      (Json.double (L.strtod (c_str p.str start_pos)), p)
  else (Json.double (L.strtod (c_str p.str start_pos)), p)

/-- The part of `parse_number` after the integer part, which began at `start_pos`:
the integer fast path (`std::numeric_limits<int>::digits10` is 9), else the
fractional part. -/
def parse_number_tail (L : Libc) (start_pos : Nat) (p : JsonParser) : Json × JsonParser :=
  if p.cur ≠ 46 ∧ p.cur ≠ 101 ∧ p.cur ≠ 69 ∧ p.i - start_pos ≤ 9 then
    (Json.int (atoi (c_str p.str start_pos)), p)
  else if p.cur = 46 then
    let p := p.adv 1
    if !in_range (toLong p.cur) 48 57 then
      (Json.null, p.fail (bytes "at least one digit required in fractional part"))
    else parse_number_exp L start_pos (digits_loop (p.str.length - p.i) p)
  else parse_number_exp L start_pos p

/-- The method `parse_number`. -/
def parse_number (L : Libc) (p : JsonParser) : Json × JsonParser :=
  let start_pos := p.i
  let p := if p.cur = 45 then p.adv 1 else p
  if p.cur = 48 then
    let p := p.adv 1
    if in_range (toLong p.cur) 48 57 then
      (Json.null, p.fail (bytes "leading 0s not permitted in numbers"))
    else parse_number_tail L start_pos p
  else if in_range (toLong p.cur) 49 57 then
    let p := p.adv 1
    let p := digits_loop (p.str.length - p.i) p
    parse_number_tail L start_pos p
  else (Json.null, p.fail (bytes "invalid " ++ esc p.cur ++ bytes "in number"))

/-- The method `encode_utf8`; `static_cast<char>` keeps the low eight bits. -/
def encode_utf8 (pt : Int) (out : List Nat) : List Nat :=
  if pt < 0 then out
  else
    let n := pt.toNat
    if pt < 0x80 then out ++ [n % 256]
    else if pt < 0x800 then out ++ [((n >>> 6) ||| 0xC0) % 256, ((n &&& 0x3F) ||| 0x80) % 256]
    else if pt < 0x10000 then
      out ++ [((n >>> 12) ||| 0xE0) % 256, (((n >>> 6) &&& 0x3F) ||| 0x80) % 256,
              ((n &&& 0x3F) ||| 0x80) % 256]
    else
      out ++ [((n >>> 18) ||| 0xF0) % 256, (((n >>> 12) &&& 0x3F) ||| 0x80) % 256,
              (((n >>> 6) &&& 0x3F) ||| 0x80) % 256, ((n &&& 0x3F) ||| 0x80) % 256]

/-- The test of one character of a `\u` escape. -/
def is_hex (c : Nat) : Bool :=
  in_range (toLong c) 97 102 || in_range (toLong c) 65 70 || in_range (toLong c) 48 57

/-- The loop `while (true)` of `parse_string`, with the locals `out` and
`last_escaped_codepoint`.  Every round that goes on has consumed a byte, so the
fuel, one more than the number of bytes left, never runs out. -/
def parse_string_loop : Nat → List Nat → Int → JsonParser → List Nat × JsonParser
  | 0, _, _, p => ([], p)
  | fuel + 1, out, last_escaped_codepoint, p =>
    if p.i = p.str.length then ([], p.fail (bytes "unexpected end of input in string"))
    else
      let ch := p.cur
      let p := p.adv 1
      if ch = 34 then (encode_utf8 last_escaped_codepoint out, p)
      else if in_range (toLong ch) 0 0x1f then
        ([], p.fail (bytes "unescaped " ++ esc ch ++ bytes " in string"))
      else if ch ≠ 92 then
        parse_string_loop fuel (encode_utf8 last_escaped_codepoint out ++ [ch]) (-1) p
      else if p.i = p.str.length then ([], p.fail (bytes "unexpected end of input in string"))
      else
        let ch := p.cur
        let p := p.adv 1
        if ch = 117 then
          let esc := (p.str.drop p.i).take 4
          if esc.length < 4 then ([], p.fail (bytes "bad \\u escape: " ++ esc))
          else if !esc.all is_hex then ([], p.fail (bytes "bad \\u escape: " ++ esc))
          else
            let codepoint : Int := strtol16 esc
            if in_range last_escaped_codepoint 0xD800 0xDBFF ∧ in_range codepoint 0xDC00 0xDFFF then
              parse_string_loop fuel
                (encode_utf8
                  ((((((last_escaped_codepoint - 0xD800).toNat <<< 10) |||
                    (codepoint - 0xDC00).toNat) : Nat) : Int) + 0x10000) out)
                (-1) (p.adv 4)
            else
              parse_string_loop fuel (encode_utf8 last_escaped_codepoint out) codepoint (p.adv 4)
        else
          let out := encode_utf8 last_escaped_codepoint out
          if ch = 98 then parse_string_loop fuel (out ++ [8]) (-1) p
          else if ch = 102 then parse_string_loop fuel (out ++ [12]) (-1) p
          else if ch = 110 then parse_string_loop fuel (out ++ [10]) (-1) p
          else if ch = 114 then parse_string_loop fuel (out ++ [13]) (-1) p
          else if ch = 116 then parse_string_loop fuel (out ++ [9]) (-1) p
          else if ch = 34 ∨ ch = 92 ∨ ch = 47 then parse_string_loop fuel (out ++ [ch]) (-1) p
          else ([], p.fail (bytes "invalid escape character " ++ esc ch))

/-- The method `parse_string`. -/
def parse_string (p : JsonParser) : List Nat × JsonParser :=
  parse_string_loop (p.str.length - p.i + 1) [] (-1) p

/-- The method `expect`. -/
def expect (expected : List Nat) (res : Json) (p : JsonParser) : Json × JsonParser :=
  let len := expected.length
  let p := p.back
  if (p.str.drop p.i).take len = expected then (res, p.adv len)
  else
    (Json.null,
      p.fail (bytes "parse error : expected " ++ expected ++ bytes ", got " ++
        (p.str.drop p.i).take len))

/-- The loop `while (1)` of the object branch of `parse_json`, entered with the
members read so far and the token just read.  The recursive call
`parse_json(depth + 1)` is the argument `value`; the fuel counts the rounds. -/
def parse_object_loop (value : JsonParser → Option (Json × JsonParser)) :
    Nat → List (List Nat × Json) → Nat → JsonParser → Option (Json × JsonParser)
  | 0, _, _, _ => none
  | fuel + 1, data, ch, p =>
    if ch ≠ 34 then
      some (Json.null, p.fail (bytes "expected '\"' in object, got " ++ esc ch))
    else
      let r := parse_string p
      let key := r.1
      let p := r.2
      if p.failed then some (Json.null, p)
      else
        let t := get_next_token p
        if t.1 ≠ 58 then
          some (Json.null, t.2.fail (bytes "expected ':' in object, got " ++ esc t.1))
        else
          match value t.2 with
          | none => none
          | some v =>
            let data := map_assign key v.1 data
            let p := v.2
            if p.failed then some (Json.null, p)
            else
              let t := get_next_token p
              if t.1 = 125 then some (Json.object data, t.2)
              else if t.1 ≠ 44 then
                some (Json.null, t.2.fail (bytes "expected ',' in object, got " ++ esc t.1))
              else
                let t := get_next_token t.2
                parse_object_loop value fuel data t.1 t.2

/-- The loop `while (1)` of the array branch of `parse_json`, entered with the
elements read so far.  The recursive call `parse_json(depth + 1)` is the
argument `value`; the fuel counts the rounds. -/
def parse_array_loop (value : JsonParser → Option (Json × JsonParser)) :
    Nat → List Json → JsonParser → Option (Json × JsonParser)
  | 0, _, _ => none
  | fuel + 1, data, p =>
    let p := p.back
    match value p with
    | none => none
    | some v =>
      let data := data ++ [v.1]
      let p := v.2
      if p.failed then some (Json.null, p)
      else
        let t := get_next_token p
        if t.1 = 93 then some (Json.array data, t.2)
        else if t.1 ≠ 44 then
          some (Json.null, t.2.fail (bytes "expected ',' in list, got " ++ esc t.1))
        else
          let t := get_next_token t.2
          parse_array_loop value fuel data t.2

/-- The method `parse_json`.  The first argument is fuel for the recursion and
for the two loops, and `none` means it ran out; the calls of `Json::parse` and
`Json::parse_multi` give enough (`parse_json_fuel`). -/
def parse_json (L : Libc) : Nat → Nat → JsonParser → Option (Json × JsonParser)
  | 0, _, _ => none
  | fuel + 1, depth, p =>
    if depth > max_depth then some (Json.null, p.fail (bytes "exceeded maximum nesting depth"))
    else
      let t := get_next_token p
      let ch := t.1
      let p := t.2
      if p.failed then some (Json.null, p)
      else if ch = 45 ∨ (ch ≥ 48 ∧ ch ≤ 57) then some (parse_number L p.back)
      else if ch = 110 then some (expect (bytes "null") Json.null p)
      else if ch = 116 then some (expect (bytes "true") (Json.bool true) p)
      else if ch = 102 then some (expect (bytes "false") (Json.bool false) p)
      else if ch = 34 then
        let r := parse_string p
        some (Json.string r.1, r.2)
      else if ch = 123 then
        let t := get_next_token p
        if t.1 = 125 then some (Json.object [], t.2)
        else parse_object_loop (parse_json L fuel (depth + 1)) fuel [] t.1 t.2
      else if ch = 91 then
        let t := get_next_token p
        if t.1 = 93 then some (Json.array [], t.2)
        else parse_array_loop (parse_json L fuel (depth + 1)) fuel [] t.2
      else some (Json.null, p.fail (bytes "expected value, got " ++ esc ch))

/-- Fuel that `parse_json` never exhausts on the input `s`. -/
def parse_json_fuel (s : List Nat) : Nat := 2 * s.length + 4

/-- The body of `Json::parse`: the value returned and the parser state at the return. -/
def Json.parse_state (L : Libc) (inp : List Nat) (err : List Nat) (strategy : JsonParse) :
    Option (Json × JsonParser) :=
  match parse_json L (parse_json_fuel inp) 0 ⟨inp, 0, err, false, strategy⟩ with
  | none => none
  | some r =>
    let result := r.1
    let p := consume_garbage r.2
    if p.failed then some (Json.null, p)
    else if p.i ≠ inp.length then
      some (Json.null, p.fail (bytes "unexpected trailing " ++ esc (p.at p.i)))
    else some (result, p)

/-- The function `Json::parse`: the value returned and the final content of `err`. -/
def Json.parse (L : Libc) (inp : List Nat) (err : List Nat) (strategy : JsonParse) :
    Option (Json × List Nat) :=
  (Json.parse_state L inp err strategy).map (fun r => (r.1, r.2.err))

/-- The loop of `Json::parse_multi`, with the locals `json_vec` and
`parser_stop_pos`; the fuel counts the rounds. -/
def parse_multi_loop (L : Libc) :
    Nat → List Json → Nat → JsonParser → Option (List Json × Nat × JsonParser)
  | 0, _, _, _ => none
  | fuel + 1, json_vec, parser_stop_pos, p =>
    if p.i ≠ p.str.length ∧ !p.failed then
      match parse_json L (parse_json_fuel p.str) 0 p with
      | none => none
      | some r =>
        let json_vec := json_vec ++ [r.1]
        if r.2.failed then some (json_vec, parser_stop_pos, r.2)
        else
          let p := consume_garbage r.2
          if p.failed then some (json_vec, parser_stop_pos, p)
          else parse_multi_loop L fuel json_vec p.i p
    else some (json_vec, parser_stop_pos, p)

/-- The body of `Json::parse_multi`: the vector returned, the final
`parser_stop_pos` and the parser state at the return. -/
def Json.parse_multi_state (L : Libc) (inp : List Nat) (err : List Nat) (strategy : JsonParse) :
    Option (List Json × Nat × JsonParser) :=
  parse_multi_loop L (inp.length + 1) [] 0 ⟨inp, 0, err, false, strategy⟩

/-- The function `Json::parse_multi`: the vector returned and the final contents
of `parser_stop_pos` and `err`. -/
def Json.parse_multi (L : Libc) (inp : List Nat) (err : List Nat) (strategy : JsonParse) :
    Option (List Json × Nat × List Nat) :=
  (Json.parse_multi_state L inp err strategy).map (fun r => (r.1, r.2.1, r.2.2.err))

/-! ## Shape check -/

/-- The loop of `Json::has_shape` over the expected members. -/
def has_shape_loop (L : Libc) (j : Json) :
    List (List Nat × JsonType) → List Nat → Bool × List Nat
  | [], err => (true, err)
  | item :: rest, err =>
    match map_find item.1 j.object_items with
    | none => (false, bytes "bad type for " ++ item.1 ++ bytes "in" ++ j.dumps L)
    | some v =>
      if v.type ≠ item.2 then (false, bytes "bad type for " ++ item.1 ++ bytes "in" ++ j.dumps L)
      else has_shape_loop L j rest err

/-- The method `Json::has_shape`: the Boolean returned and the final content of `err`. -/
def Json.has_shape (L : Libc) (j : Json) (types : List (List Nat × JsonType)) (err : List Nat) :
    Bool × List Nat :=
  if !j.is_object then (false, bytes "expected JSON object, got " ++ j.dumps L)
  else has_shape_loop L j types err

/-! ## Predicates used in the proofs -/

/-- The state `q` was reached from `p`: same text and dialect, a failure is
never cleared, and the message is written by the first failure only. -/
structure Ext (p q : JsonParser) : Prop where
  str : q.str = p.str
  strategy : q.strategy = p.strategy
  latch : p.failed = true → q.failed = true ∧ q.err = p.err
  keep : q.failed = false → q.err = p.err
  msg : p.failed = false → q.failed = true → q.err ≠ []

/-- The states a value parser returns were reached from the state it was given. -/
def ValueExt (value : JsonParser → Option (Json × JsonParser)) : Prop :=
  ∀ p r, value p = some r → Ext p r.2

/-- A value parser that did not fail moved the cursor on, inside the text. -/
def ValueAdv (value : JsonParser → Option (Json × JsonParser)) : Prop :=
  ∀ p r, value p = some r → r.2.failed = false → p.i ≤ p.str.length →
    p.i < r.2.i ∧ r.2.i ≤ p.str.length

/-- A value parser returns on every failed state and on every state of the text
`s` whose cursor is between `lo` and the end. -/
def ValueTotal (value : JsonParser → Option (Json × JsonParser)) (s : List Nat) (lo : Nat) :
    Prop :=
  ∀ q, q.str = s → (q.failed = true ∨ (lo ≤ q.i ∧ q.i ≤ s.length)) → ∃ r, value q = some r

/-- The name of `item` is a member of `j` and its value has the kind `item` expects. -/
def MemberOk (j : Json) (item : List Nat × JsonType) : Prop :=
  ∃ v, map_find item.1 j.object_items = some v ∧ v.type = item.2

mutual
/-- The value with every double replaced by NaN: what is left does not depend on
the C library. -/
def Json.erase : Json → Json
  | .double _ => .double Double.nan
  | .array xs => .array (Json.erase_array xs)
  | .object m => .object (Json.erase_object m)
  | v => v
/-- The elements of an array with every double replaced. -/
def Json.erase_array : List Json → List Json
  | [] => []
  | x :: xs => Json.erase x :: Json.erase_array xs
/-- The members of an object with every double replaced. -/
def Json.erase_object : List (List Nat × Json) → List (List Nat × Json)
  | [] => []
  | (k, v) :: m => (k, Json.erase v) :: Json.erase_object m
end

mutual
/-- No Number of the value is in the double representation. -/
def Json.double_free : Json → Bool
  | .double _ => false
  | .array xs => Json.double_free_array xs
  | .object m => Json.double_free_object m
  | _ => true
/-- No Number of the elements is in the double representation. -/
def Json.double_free_array : List Json → Bool
  | [] => true
  | x :: xs => Json.double_free x && Json.double_free_array xs
/-- No Number of the members is in the double representation. -/
def Json.double_free_object : List (List Nat × Json) → Bool
  | [] => true
  | (_, v) :: m => Json.double_free v && Json.double_free_object m
end

/-- A result of `parse_json` with the doubles of its value replaced. -/
def erase_result (r : Json × JsonParser) : Json × JsonParser := (r.1.erase, r.2)

/-- The documents of `inp` from the cursor `i` to the cursor `j`: each is read
by `parse_json(0)` without a failure, and so is the garbage after it. -/
inductive Docs (L : Libc) (inp err : List Nat) (strategy : JsonParse) :
    Nat → List Json → Nat → Prop where
  | nil (i : Nat) : Docs L inp err strategy i [] i
  | cons (i : Nat) (v : Json) (p : JsonParser) (vs : List Json) (j : Nat) :
      i ≠ inp.length →
      parse_json L (parse_json_fuel inp) 0 ⟨inp, i, err, false, strategy⟩ = some (v, p) →
      p.failed = false → (consume_garbage p).failed = false →
      Docs L inp err strategy (consume_garbage p).i vs j →
      Docs L inp err strategy i (v :: vs) j

/-- A text that does not go on with a digit. -/
def NoDigit (r : List Nat) : Prop := ∀ c cs, r = c :: cs → ¬ (48 ≤ c ∧ c ≤ 57)

/-- What one round of the loop of `dump(const string &)` does at index `i`: the
number of bytes of the value it consumes and the text it appends. -/
def dump_item (value : List Nat) (i : Nat) : Nat × List Nat :=
  if value.getD i 0 = 92 then (1, [92, 92])
  else if value.getD i 0 = 34 then (1, [92, 34])
  else if value.getD i 0 = 8 then (1, [92, 98])
  else if value.getD i 0 = 12 then (1, [92, 102])
  else if value.getD i 0 = 10 then (1, [92, 110])
  else if value.getD i 0 = 13 then (1, [92, 114])
  else if value.getD i 0 = 9 then (1, [92, 116])
  else if value.getD i 0 ≤ 0x1f then (1, [92, 117] ++ hex4 (value.getD i 0))
  else if value.getD i 0 = 0xe2 ∧ value.getD (i + 1) 0 = 0x80 ∧ value.getD (i + 2) 0 = 0xa8 then
    (3, bytes "\\u2028")
  else if value.getD i 0 = 0xe2 ∧ value.getD (i + 1) 0 = 0x80 ∧ value.getD (i + 2) 0 = 0xa9 then
    (3, bytes "\\u2029")
  else (1, [value.getD i 0])

/-- The text the loop of `dump(const string &)` appends from index `i` on. -/
def dump_string_body (value : List Nat) (i : Nat) : List Nat :=
  dump_string_loop value (value.length - i) i []

/-- The text `dump(const Json::array &)` writes after the first element: each
further element after ", ", and the closing bracket. -/
def arr_tail (L : Libc) : List Json → List Nat
  | [] => [93]
  | x :: xs => 44 :: 32 :: (Json.dumps L x ++ arr_tail L xs)

/-- The text `dump(const Json::object &)` writes for one member. -/
def member_text (L : Libc) (kv : List Nat × Json) : List Nat :=
  34 :: (dump_string_body kv.1 0 ++ 34 :: 58 :: 32 :: Json.dumps L kv.2)

/-- The text `dump(const Json::object &)` writes after the first member: each
further member after ", ", and the closing brace. -/
def obj_tail (L : Libc) : List (List Nat × Json) → List Nat
  | [] => [125]
  | kv :: m => 44 :: 32 :: (member_text L kv ++ obj_tail L m)

/-- The text after a dumped value inside a dumped document: nothing, or a comma,
a closing bracket or a closing brace. -/
def EndsValue (post : List Nat) : Prop :=
  ∀ c cs, post = c :: cs → c = 44 ∨ c = 93 ∨ c = 125

/-- A 32-bit `int`. -/
def IsInt32 (n : Int) : Prop := -2147483648 ≤ n ∧ n ≤ 2147483647

/-- The assumption on `strtod` the round trip of integers uses: the decimal text
of a 32-bit integer, followed by nothing or by a comma, a bracket or a brace, is
read as that integer (every such integer is a binary64 value). -/
def StrtodInt (L : Libc) : Prop :=
  ∀ (n : Int) (rest : List Nat), IsInt32 n → EndsValue rest →
    L.strtod (intToDec n ++ rest) = Double.ofInt n

/-- The assumption on `%.17g` the second dump of a re-read integer uses: a double
that is a 32-bit integer is printed by its decimal digits (it has at most ten). -/
def FmtInt (L : Libc) : Prop :=
  ∀ (n : Int), IsInt32 n → L.fmt17g (Double.ofInt n) = intToDec n

/-- The test of the fast path of `parse_number` on the whole text of a number:
no `.`, `e` or `E` in it, and at most nine characters. -/
def short_integer (t : List Nat) : Bool :=
  t.all (fun c => decide (c ≠ 46 ∧ c ≠ 101 ∧ c ≠ 69)) && decide (t.length ≤ 9)

mutual
/-- The value `parse` returns for the dump of a value: an integer whose text is
longer than nine characters has gone through `strtod`, a finite double whose
text passes the test of the fast path has gone through `atoi`, and a double
that is not finite was written as `null`. -/
def Json.reparsed (L : Libc) : Json → Json
  | .int n => if (intToDec n).length ≤ 9 then .int n else .double (Double.ofInt n)
  | .double x =>
    if x.isfinite then
      if short_integer (L.fmt17g x) then .int (atoi (L.fmt17g x)) else .double x
    else .null
  | .array xs => .array (Json.reparsed_array L xs)
  | .object m => .object (Json.reparsed_object L m)
  | v => v
/-- The elements of an array as `parse` returns them. -/
def Json.reparsed_array (L : Libc) : List Json → List Json
  | [] => []
  | x :: xs => Json.reparsed L x :: Json.reparsed_array L xs
/-- The members of an object as `parse` returns them. -/
def Json.reparsed_object (L : Libc) : List (List Nat × Json) → List (List Nat × Json)
  | [] => []
  | (k, v) :: m => (k, Json.reparsed L v) :: Json.reparsed_object L m
end

/-- A value built from the native constructors that holds no double, placed
under `d` arrays and objects, with no node under more than `max_depth` of them:
integers are 32-bit and the members of an object are in ascending key order, as
`std::map` keeps them. -/
inductive Json.Plain : Nat → Json → Prop where
  | null (d : Nat) : d ≤ max_depth → Json.Plain d Json.null
  | bool (d : Nat) (b : Bool) : d ≤ max_depth → Json.Plain d (Json.bool b)
  | int (d : Nat) (n : Int) : d ≤ max_depth → IsInt32 n → Json.Plain d (Json.int n)
  | string (d : Nat) (s : List Nat) : d ≤ max_depth → Json.Plain d (Json.string s)
  | array (d : Nat) (xs : List Json) : d ≤ max_depth →
      (∀ x ∈ xs, Json.Plain (d + 1) x) → Json.Plain d (Json.array xs)
  | object (d : Nat) (m : List (List Nat × Json)) : d ≤ max_depth →
      (∀ kv ∈ m, Json.Plain (d + 1) kv.2) →
      List.Pairwise (fun a b => string_lt a.1 b.1 = true) m → Json.Plain d (Json.object m)

/-- The part of `parse_number` after the optional sign. -/
def parse_number_body (L : Libc) (start_pos : Nat) (p : JsonParser) : Json × JsonParser :=
  if p.cur = 48 then
    if in_range (toLong (p.adv 1).cur) 48 57 then
      (Json.null, (p.adv 1).fail (bytes "leading 0s not permitted in numbers"))
    else parse_number_tail L start_pos (p.adv 1)
  else if in_range (toLong p.cur) 49 57 then
    parse_number_tail L start_pos (digits_loop ((p.adv 1).str.length - (p.adv 1).i) (p.adv 1))
  else (Json.null, p.fail (bytes "invalid " ++ esc p.cur ++ bytes "in number"))

/-- The call `value` reads back the dump of `y` wherever it stands in a text
read under the standard dialect, and stops right after it: `q` is the state of
the call, whose first token is the first byte of the dump, read at `r`. -/
def ReadsBack (L : Libc) (value : JsonParser → Option (Json × JsonParser)) (y : Json) : Prop :=
  ∀ (q r : JsonParser) (post : List Nat), r.failed = false → r.strategy = JsonParse.STANDARD →
    EndsValue post → r.str.drop r.i = Json.dumps L y ++ post →
    get_next_token q = ((Json.dumps L y).getD 0 0, r.adv 1) →
    value q = some (Json.reparsed L y, r.adv (Json.dumps L y).length)

/-- The assignments `data[key] = value` of the members `m`, in their order. -/
def assign_all (data m : List (List Nat × Json)) : List (List Nat × Json) :=
  m.foldl (fun acc e => map_assign e.1 e.2 acc) data

/-- A text that begins with a byte other than white space. -/
def NoWsHead (t : List Nat) : Prop :=
  ∃ c rest, t = c :: rest ∧ ¬ (c = 32 ∨ c = 9 ∨ c = 10 ∨ c = 13)

/-- The members the loop of the object branch of `parse_json` reads, in the
order of the text: the rounds of `parse_object_loop`, with each assignment
`data[key] = value` recorded instead of performed. -/
def object_members_loop (value : JsonParser → Option (Json × JsonParser)) :
    Nat → Nat → JsonParser → List (List Nat × Json)
  | 0, _, _ => []
  | fuel + 1, ch, p =>
    if ch ≠ 34 then []
    else
      let r := parse_string p
      if r.2.failed then []
      else
        let t := get_next_token r.2
        if t.1 ≠ 58 then []
        else
          match value t.2 with
          | none => []
          | some v =>
            if v.2.failed then []
            else
              let t := get_next_token v.2
              if t.1 = 125 then [(r.1, v.1)]
              else if t.1 ≠ 44 then []
              else
                let t := get_next_token t.2
                (r.1, v.1) :: object_members_loop value fuel t.1 t.2

/-- The members `Json::parse` reads for an input whose value is an object, in
the order of the text: the members of the object branch of the call
`parse_json(0)`, entered after the opening brace and the token that follows it. -/
def Json.parse_members (L : Libc) (inp : List Nat) (err : List Nat) (strategy : JsonParse) :
    List (List Nat × Json) :=
  let p : JsonParser := ⟨inp, 0, err, false, strategy⟩
  let t := get_next_token (get_next_token p).2
  object_members_loop (parse_json L (2 * inp.length + 3) 1) (2 * inp.length + 3) t.1 t.2

/-- The value of the last member with the key `key` in a list of members. -/
def last_value (key : List Nat) : List (List Nat × Json) → Option Json
  | [] => none
  | (k, v) :: rest =>
    match last_value key rest with
    | some w => some w
    | none => if k = key then some v else none

/-- The state `p` on the text of `p` followed by the byte `sep` and `u`, read
under the dialect `s`. -/
def JsonParser.extend (p : JsonParser) (sep : Nat) (u : List Nat) (s : JsonParse) : JsonParser :=
  { p with str := p.str ++ sep :: u, strategy := s }

/-- The assumption on `strtod` the comparison of a text with an extension of it
uses: on a text that begins with a sign or a digit, a space and what follows it
do not change the number read. -/
def StrtodLocal (L : Libc) : Prop :=
  ∀ (d : Nat) (s u : List Nat), (d = 45 ∨ (48 ≤ d ∧ d ≤ 57)) →
    L.strtod (d :: (s ++ 32 :: u)) = L.strtod (d :: s)

/-- The same assumption for the byte `sep` in the place of the space. -/
def StrtodLocalAt (sep : Nat) (L : Libc) : Prop :=
  ∀ (d : Nat) (s u : List Nat), (d = 45 ∨ (48 ≤ d ∧ d ≤ 57)) →
    L.strtod (d :: (s ++ sep :: u)) = L.strtod (d :: s)

/-- The call `value'` on the extension of a text returns what the call `value`
returned on the text under the standard dialect, when that was no failure. -/
def ValueExtends (sep : Nat) (u : List Nat) (s : JsonParse)
    (value value' : JsonParser → Option (Json × JsonParser)) : Prop :=
  ∀ (p : JsonParser) (v : Json) (q : JsonParser), p.strategy = JsonParse.STANDARD →
    p.i ≤ p.str.length → value p = some (v, q) → q.failed = false →
    value' (p.extend sep u s) = some (v, q.extend sep u s)

/-- A value parser that did not fail began with a token that is no slash. -/
def ValueToken (value : JsonParser → Option (Json × JsonParser)) : Prop :=
  ∀ (p : JsonParser) (r : Json × JsonParser), value p = some r → r.2.failed = false →
    (get_next_token p).1 ≠ 47 ∧ (get_next_token p).2.failed = false

/-- The escape of one byte of a string as the specification of the serializer
words it: the two-character escapes, `\u00XX` for the other bytes below 0x20,
and the byte itself otherwise. -/
def spec_escape_byte (c : Nat) : List Nat :=
  if c = 92 then [92, 92]
  else if c = 34 then [92, 34]
  else if c = 8 then [92, 98]
  else if c = 12 then [92, 102]
  else if c = 10 then [92, 110]
  else if c = 13 then [92, 114]
  else if c = 9 then [92, 116]
  else if c < 0x20 then [92, 117] ++ hex4 c
  else [c]

/-- The body of a serialized string as the specification words it: position by
position, `\u2028` and `\u2029` for the sequences E2 80 A8 and E2 80 A9, which
are consumed whole, and the escape of the byte otherwise. -/
def spec_escape_string : List Nat → List Nat
  | [] => []
  | [c] => spec_escape_byte c
  | [c, d] => spec_escape_byte c ++ spec_escape_string [d]
  | c :: d :: e :: rest =>
    if c = 0xe2 ∧ d = 0x80 ∧ e = 0xa8 then bytes "\\u2028" ++ spec_escape_string rest
    else if c = 0xe2 ∧ d = 0x80 ∧ e = 0xa9 then bytes "\\u2029" ++ spec_escape_string rest
    else spec_escape_byte c ++ spec_escape_string (d :: e :: rest)

/-- The texts `parts` joined by the separator `sep`, as the specification of the
serializer words the body of an array and of an object. -/
def spec_join (sep : List Nat) : List (List Nat) → List Nat
  | [] => []
  | [a] => a
  | a :: b :: rest => a ++ sep ++ spec_join sep (b :: rest)

/-- The entry of a member in a serialized object as the specification words it:
the dump of the key, a colon and a space, and the dump of the value. -/
def spec_entry (L : Libc) (kv : List Nat × Json) : List Nat :=
  Json.dumps L (Json.string kv.1) ++ bytes ": " ++ Json.dumps L kv.2

mutual
/-- A value that holds no NaN. -/
def Json.nan_free : Json → Bool
  | .double d => decide (d ≠ Double.nan)
  | .array xs => Json.nan_free_array xs
  | .object m => Json.nan_free_object m
  | _ => true
/-- The elements of an array hold no NaN. -/
def Json.nan_free_array : List Json → Bool
  | [] => true
  | x :: xs => Json.nan_free x && Json.nan_free_array xs
/-- The members of an object hold no NaN. -/
def Json.nan_free_object : List (List Nat × Json) → Bool
  | [] => true
  | (_, v) :: m => Json.nan_free v && Json.nan_free_object m
end

/-! ### The grammar of number literals, as the specification words it -/

/-- A text of decimal digits. -/
def AllDigits (ds : List Nat) : Prop := ∀ c ∈ ds, 48 ≤ c ∧ c ≤ 57

instance (ds : List Nat) : Decidable (AllDigits ds) := by
  unfold AllDigits
  exact inferInstance

/-- The integer part of a number literal: a single `0`, or a digit other than
`0` followed by any digits. -/
def IntPart (t : List Nat) : Prop :=
  t = [48] ∨ ∃ d ds, 49 ≤ d ∧ d ≤ 57 ∧ AllDigits ds ∧ t = d :: ds

/-- The optional fraction of a number literal: `.` and one or more digits. -/
def FracPart (t : List Nat) : Prop :=
  t = [] ∨ ∃ ds, ds ≠ [] ∧ AllDigits ds ∧ t = 46 :: ds

/-- The optional exponent of a number literal: `e` or `E`, an optional sign, and
one or more digits. -/
def ExpPart (t : List Nat) : Prop :=
  t = [] ∨ ∃ e sg ds, (e = 101 ∨ e = 69) ∧ (sg = [] ∨ sg = [43] ∨ sg = [45]) ∧ ds ≠ [] ∧
    AllDigits ds ∧ t = e :: (sg ++ ds)

/-- The JSON number grammar: an optional `-`, the integer part, the optional
fraction and the optional exponent. -/
def NumberGrammar (t : List Nat) : Prop :=
  ∃ sg ip fp ep, (sg = [] ∨ sg = [45]) ∧ IntPart ip ∧ FracPart fp ∧ ExpPart ep ∧
    t = sg ++ (ip ++ (fp ++ ep))

/-- The number a text of decimal digits denotes. -/
def spec_decimal (ds : List Nat) : Nat := ds.foldl (fun acc c => acc * 10 + (c - 48)) 0

/-- A text that does not go on a number literal: it does not begin with a digit,
a `.`, an `e` or an `E`. -/
def EndsNumber (post : List Nat) : Prop :=
  ¬ (48 ≤ post.getD 0 0 ∧ post.getD 0 0 ≤ 57) ∧ post.getD 0 0 ≠ 46 ∧ post.getD 0 0 ≠ 101 ∧
    post.getD 0 0 ≠ 69

/-- The assumption on `%.17g` and `strtod` the round trip of the finite double
`x` uses.  The text `%.17g` prints for `x` is a number literal.  When that text
passes the test of the fast path of `parse_number` (an integer of at most nine
characters, which `%.17g` prints exactly), the integer it denotes compares equal
to `x`.  Otherwise `strtod` reads the text, followed by nothing or by a comma, a
bracket or a brace, back as `x`: seventeen significant digits determine a
binary64 value. -/
def PrintsBack (L : Libc) (x : Double) : Prop :=
  NumberGrammar (L.fmt17g x) ∧
  (short_integer (L.fmt17g x) = true →
    Double.eq (Double.ofInt (atoi (L.fmt17g x))) x = true) ∧
  (short_integer (L.fmt17g x) = false →
    ∀ rest : List Nat, EndsValue rest → L.strtod (L.fmt17g x ++ rest) = x)

mutual
/-- The doubles a value holds. -/
def Json.doubles : Json → List Double
  | .double x => [x]
  | .array xs => Json.doubles_array xs
  | .object m => Json.doubles_object m
  | _ => []
/-- The doubles the elements of an array hold. -/
def Json.doubles_array : List Json → List Double
  | [] => []
  | x :: xs => Json.doubles x ++ Json.doubles_array xs
/-- The doubles the members of an object hold. -/
def Json.doubles_object : List (List Nat × Json) → List Double
  | [] => []
  | (_, v) :: m => Json.doubles v ++ Json.doubles_object m
end

/-- A value built from the native constructors, placed under `d` arrays and
objects, with no node under more than `max_depth` of them: integers are 32-bit
and the members of an object are in ascending key order, as `std::map` keeps
them; a double Number is any double. -/
inductive Json.Native : Nat → Json → Prop where
  | null (d : Nat) : d ≤ max_depth → Json.Native d Json.null
  | bool (d : Nat) (b : Bool) : d ≤ max_depth → Json.Native d (Json.bool b)
  | int (d : Nat) (n : Int) : d ≤ max_depth → IsInt32 n → Json.Native d (Json.int n)
  | double (d : Nat) (x : Double) : d ≤ max_depth → Json.Native d (Json.double x)
  | string (d : Nat) (s : List Nat) : d ≤ max_depth → Json.Native d (Json.string s)
  | array (d : Nat) (xs : List Json) : d ≤ max_depth →
      (∀ x ∈ xs, Json.Native (d + 1) x) → Json.Native d (Json.array xs)
  | object (d : Nat) (m : List (List Nat × Json)) : d ≤ max_depth →
      (∀ kv ∈ m, Json.Native (d + 1) kv.2) →
      List.Pairwise (fun a b => string_lt a.1 b.1 = true) m → Json.Native d (Json.object m)

/-- A native value each of whose finite doubles is printed and read back by the
C library `L` as `PrintsBack` says. -/
inductive Json.Printable (L : Libc) : Nat → Json → Prop where
  | null (d : Nat) : d ≤ max_depth → Json.Printable L d Json.null
  | bool (d : Nat) (b : Bool) : d ≤ max_depth → Json.Printable L d (Json.bool b)
  | int (d : Nat) (n : Int) : d ≤ max_depth → IsInt32 n → Json.Printable L d (Json.int n)
  | double (d : Nat) (x : Double) : d ≤ max_depth → (x.isfinite = true → PrintsBack L x) →
      Json.Printable L d (Json.double x)
  | string (d : Nat) (s : List Nat) : d ≤ max_depth → Json.Printable L d (Json.string s)
  | array (d : Nat) (xs : List Json) : d ≤ max_depth →
      (∀ x ∈ xs, Json.Printable L (d + 1) x) → Json.Printable L d (Json.array xs)
  | object (d : Nat) (m : List (List Nat × Json)) : d ≤ max_depth →
      (∀ kv ∈ m, Json.Printable L (d + 1) kv.2) →
      List.Pairwise (fun a b => string_lt a.1 b.1 = true) m →
      Json.Printable L d (Json.object m)

/-- A hexadecimal digit of either case. -/
def IsHexDigit (c : Nat) : Prop :=
  (48 ≤ c ∧ c ≤ 57) ∨ (97 ≤ c ∧ c ≤ 102) ∨ (65 ≤ c ∧ c ≤ 70)

instance (c : Nat) : Decidable (IsHexDigit c) := by
  unfold IsHexDigit
  exact inferInstance

/-- Exactly four hexadecimal digits. -/
def HexQuad (h : List Nat) : Prop := h.length = 4 ∧ ∀ c ∈ h, IsHexDigit c

instance (h : List Nat) : Decidable (HexQuad h) := by
  unfold HexQuad
  exact inferInstance

/-- A character that makes a two-character escape with the backslash before it:
the double quote, the backslash, `/`, `b`, `f`, `n`, `r` or `t`. -/
def IsEscapeChar (e : Nat) : Prop :=
  e = 34 ∨ e = 92 ∨ e = 47 ∨ e = 98 ∨ e = 102 ∨ e = 110 ∨ e = 114 ∨ e = 116

instance (e : Nat) : Decidable (IsEscapeChar e) := by
  unfold IsEscapeChar
  exact inferInstance

/-- The body of a string literal: a sequence of items, each a single byte other
than the double quote, the backslash and the bytes 0x00..0x1F, or a
two-character escape, or a backslash, `u` and exactly four hexadecimal digits. -/
inductive StringBody : List Nat → Prop where
  | nil : StringBody []
  | raw (c : Nat) (rest : List Nat) : c ≠ 34 → c ≠ 92 → 0x1f < c → StringBody rest →
      StringBody (c :: rest)
  | escape (e : Nat) (rest : List Nat) : IsEscapeChar e → StringBody rest →
      StringBody (92 :: e :: rest)
  | unicode (h rest : List Nat) : HexQuad h → StringBody rest →
      StringBody (92 :: 117 :: (h ++ rest))

/-- The grammar of a string literal: a double quote, a body and a closing
double quote. -/
def StringGrammar (t : List Nat) : Prop := ∃ body, StringBody body ∧ t = 34 :: (body ++ [34])

/-- The white space of JSON: space, tab, line feed, carriage return. -/
def IsJsonSpace (c : Nat) : Prop := c = 32 ∨ c = 9 ∨ c = 10 ∨ c = 13

/-- The body of a string literal whose `\u` escapes denote surrogates only in
pairs: a high surrogate (U+D800..U+DBFF) with a low one (U+DC00..U+DFFF) right
after it. -/
inductive PairedBody : List Nat → Prop where
  | nil : PairedBody []
  | raw (c : Nat) (rest : List Nat) : c ≠ 34 → c ≠ 92 → 0x1f < c → PairedBody rest →
      PairedBody (c :: rest)
  | escape (e : Nat) (rest : List Nat) : IsEscapeChar e → PairedBody rest →
      PairedBody (92 :: e :: rest)
  | unicode (h rest : List Nat) : HexQuad h →
      ¬ (0xD800 ≤ strtol16 h ∧ strtol16 h ≤ 0xDFFF) → PairedBody rest →
      PairedBody (92 :: 117 :: (h ++ rest))
  | pair (h l rest : List Nat) : HexQuad h → HexQuad l →
      0xD800 ≤ strtol16 h ∧ strtol16 h ≤ 0xDBFF → 0xDC00 ≤ strtol16 l ∧ strtol16 l ≤ 0xDFFF →
      PairedBody rest → PairedBody (92 :: 117 :: (h ++ 92 :: 117 :: (l ++ rest)))

/-- One byte of a UTF-8 text, by the table of well-formed byte sequences of the
standard (RFC 3629, Unicode table 3-7).  The state is the list of the ranges the
continuation bytes still to come must lie in; it is empty between two
sequences.  The lead bytes C0, C1 and F5..FF, the overlong forms after E0 and
F0, the surrogates after ED and the code points above U+10FFFF after F4 are
refused. -/
def utf8_step (st : List (Nat × Nat)) (c : Nat) : Option (List (Nat × Nat)) :=
  match st with
  | (lo, hi) :: rest => if lo ≤ c ∧ c ≤ hi then some rest else none
  | [] =>
    if c < 0x80 then some []
    else if 0xC2 ≤ c ∧ c ≤ 0xDF then some [(0x80, 0xBF)]
    else if c = 0xE0 then some [(0xA0, 0xBF), (0x80, 0xBF)]
    else if (0xE1 ≤ c ∧ c ≤ 0xEC) ∨ c = 0xEE ∨ c = 0xEF then some [(0x80, 0xBF), (0x80, 0xBF)]
    else if c = 0xED then some [(0x80, 0x9F), (0x80, 0xBF)]
    else if c = 0xF0 then some [(0x90, 0xBF), (0x80, 0xBF), (0x80, 0xBF)]
    else if 0xF1 ≤ c ∧ c ≤ 0xF3 then some [(0x80, 0xBF), (0x80, 0xBF), (0x80, 0xBF)]
    else if c = 0xF4 then some [(0x80, 0x8F), (0x80, 0xBF), (0x80, 0xBF)]
    else none

/-- The state after the bytes of a text, when none of them is refused. -/
def utf8_run : List Nat → List (Nat × Nat) → Option (List (Nat × Nat))
  | [], st => some st
  | c :: cs, st =>
    match utf8_step st c with
    | some st' => utf8_run cs st'
    | none => none

/-- A text is valid UTF-8 when it is a sequence of well-formed byte sequences. -/
def valid_utf8 (s : List Nat) : Bool := decide (utf8_run s [] = some [])

/-- The number of bytes of the UTF-8 sequence of a code point, by its magnitude. -/
def spec_utf8_length (cp : Nat) : Nat :=
  if cp < 0x80 then 1 else if cp < 0x800 then 2 else if cp < 0x10000 then 3 else 4

/-- The four-byte UTF-8 sequence of a code point from U+10000 on, by the
standard (RFC 3629): 11110xxx 10xxxxxx 10xxxxxx 10xxxxxx. -/
def utf8_four (cp : Nat) : List Nat :=
  [0xF0 + cp / 262144, 0x80 + cp / 4096 % 64, 0x80 + cp / 64 % 64, 0x80 + cp % 64]

/-- The text of `n` opening brackets followed by `n` closing brackets. -/
def brackets (n : Nat) : List Nat := List.replicate n 91 ++ List.replicate n 93

/-- The empty array inside `n` arrays of one element each. -/
def nested_array : Nat → Json
  | 0 => Json.array []
  | n + 1 => Json.array [nested_array n]

/-- The text `t` between `n` opening and `n` closing brackets. -/
def bracketed (n : Nat) (t : List Nat) : List Nat :=
  List.replicate n 91 ++ (t ++ List.replicate n 93)

/-- The value `v` inside `n` arrays of one element each. -/
def nested_value : Nat → Json → Json
  | 0, v => v
  | n + 1, v => Json.array [nested_value n v]

/-- A C library for the closed examples: `strtod` reads a decimal integer
exactly and `%.17g` prints a double that is an integer by its digits. -/
def sample_libc : Libc where
  strtod := fun s => Double.ofInt (atoi s)
  fmt17g := fun d =>
    match d with
    | Double.finite q => if q.den = 1 then intToDec q.num else []
    | _ => []

/-- A C library for the closed examples with doubles: `strtod` reads the text
`0.5` as one half and a decimal integer exactly, and `%.17g` prints a double
that is an integer by its digits, one half as `0.5` and negative zero as `-0`,
as the C library does. -/
def decimal_libc : Libc where
  strtod := fun s => if s.take 3 = bytes "0.5" then Double.finite (1 / 2) else Double.ofInt (atoi s)
  fmt17g := fun d =>
    match d with
    | Double.finite q =>
      if q.den = 1 then intToDec q.num else if q = 1 / 2 then bytes "0.5" else []
    | Double.negZero => bytes "-0"
    | _ => []

/-- A value for the closed examples of the round trip: an object that holds an
array with one half, a double printed as a short integer, a double printed as
the largest `int`, negative zero and an integer of eleven characters, and a
string with an escape. -/
def sample_finite : Json :=
  Json.object
    [(bytes "a", Json.array [Json.double (Double.finite (1 / 2)), Json.double (Double.ofInt 5),
        Json.double (Double.ofInt 2147483647), Json.double Double.negZero,
        Json.int (-1234567890)]),
     (bytes "b", Json.string (bytes "x\n"))]

/-- A value for the closed examples of the second dump: an array that holds a
NaN, an infinity, one half, a double printed as a short integer, a double
printed as the largest `int`, that `int` and a string with an escape. -/
def sample_mixed : Json :=
  Json.array [Json.double Double.nan, Json.double Double.posInf,
    Json.double (Double.finite (1 / 2)), Json.double (Double.ofInt 5),
    Json.double (Double.ofInt 2147483647), Json.int 2147483647, Json.string (bytes "a\"b")]

/-- A value parser leaves the cursor inside the text, whether it fails or not. -/
def ValueBound (value : JsonParser → Option (Json × JsonParser)) : Prop :=
  ∀ p r, value p = some r → p.i ≤ p.str.length → r.2.i ≤ p.str.length

/-- Exactly one of the three holds: the test `l`, the statement `e`, the test `g`. -/
def ExactlyOne (l : Bool) (e : Prop) (g : Bool) : Prop :=
  (l = true ∧ ¬ e ∧ g = false) ∨ (l = false ∧ e ∧ g = false) ∨ (l = false ∧ ¬ e ∧ g = true)

/-- The state `p` read under the dialect `s`. -/
def JsonParser.under (p : JsonParser) (s : JsonParse) : JsonParser := { p with strategy := s }

/-- The state `p` moved to the text of `p` written after the text `pre`. -/
def JsonParser.shift (pre : List Nat) (p : JsonParser) : JsonParser :=
  { p with str := pre ++ p.str, i := pre.length + p.i }

/-- The call `value'` under the dialect `s` returns what the call `value`
returned under the standard dialect, when that was no failure. -/
def ValueUnder (s : JsonParse) (value value' : JsonParser → Option (Json × JsonParser)) :
    Prop :=
  ∀ (p : JsonParser) (v : Json) (q : JsonParser), p.strategy = JsonParse.STANDARD →
    p.i ≤ p.str.length → value p = some (v, q) → q.failed = false →
    value' (p.under s) = some (v, q.under s)

/-- The call `value'` after the text `pre` returns what the call `value` returns
without it, with the state moved. -/
def ValueShift (pre : List Nat) (value value' : JsonParser → Option (Json × JsonParser)) :
    Prop :=
  ∀ (p : JsonParser), p.i ≤ p.str.length →
    value' (p.shift pre) = (value p).map (fun r => (r.1, r.2.shift pre))

/-- The text `t` inside the frames `fs`, outermost first, the way `dump` writes
them: `none` is an array of one element, `some k` an object whose one member has
the key `k`. -/
def framed : List (Option (List Nat)) → List Nat → List Nat
  | [], t => t
  | none :: fs, t => 91 :: (framed fs t ++ [93])
  | some k :: fs, t => 123 :: (dump_string k [] ++ 58 :: 32 :: (framed fs t ++ [125]))

/-- The value `v` inside the frames `fs`, outermost first. -/
def framed_value : List (Option (List Nat)) → Json → Json
  | [], v => v
  | none :: fs, v => Json.array [framed_value fs v]
  | some k :: fs, v => Json.object [(k, framed_value fs v)]

/-- A text that begins with an opening bracket, an opening brace or the digit 0. -/
def Opens (u : List Nat) : Prop := ∃ c rest, u = c :: rest ∧ (c = 91 ∨ c = 123 ∨ c = 48)

/-! ## Decidable equality of values -/

mutual
theorem Json.beq_iff : ∀ (a b : Json), Json.beq a b = true ↔ a = b
  | .null, b => by cases b <;> simp [Json.beq]
  | .bool a, b => by cases b <;> simp [Json.beq]
  | .int a, b => by cases b <;> simp [Json.beq]
  | .double a, b => by cases b <;> simp [Json.beq]
  | .string a, b => by cases b <;> simp [Json.beq]
  | .array a, b => by
    cases b <;> simp [Json.beq]
    exact Json.beq_array_iff a _
  | .object a, b => by
    cases b <;> simp [Json.beq]
    exact Json.beq_object_iff a _
theorem Json.beq_array_iff : ∀ (a b : List Json), Json.beq_array a b = true ↔ a = b
  | [], b => by cases b <;> simp [Json.beq_array]
  | a :: as, b => by
    cases b with
    | nil => simp [Json.beq_array]
    | cons b bs => simp [Json.beq_array, Json.beq_iff a b, Json.beq_array_iff as bs]
theorem Json.beq_object_iff :
    ∀ (a b : List (List Nat × Json)), Json.beq_object a b = true ↔ a = b
  | [], b => by cases b <;> simp [Json.beq_object]
  | (k, a) :: as, b => by
    cases b with
    | nil => simp [Json.beq_object]
    | cons b bs =>
      obtain ⟨k', b⟩ := b
      simp [Json.beq_object, Json.beq_iff a b, Json.beq_object_iff as bs, and_assoc]
end

instance : DecidableEq Json := fun a b => decidable_of_iff _ (Json.beq_iff a b)

/-! ## Basic facts about the parser state -/

@[simp] theorem adv_str (p : JsonParser) (n : Nat) : (p.adv n).str = p.str := rfl
@[simp] theorem adv_i (p : JsonParser) (n : Nat) : (p.adv n).i = p.i + n := rfl
@[simp] theorem adv_err (p : JsonParser) (n : Nat) : (p.adv n).err = p.err := rfl
@[simp] theorem adv_failed (p : JsonParser) (n : Nat) : (p.adv n).failed = p.failed := rfl
@[simp] theorem adv_strategy (p : JsonParser) (n : Nat) : (p.adv n).strategy = p.strategy := rfl
@[simp] theorem back_str (p : JsonParser) : p.back.str = p.str := rfl
@[simp] theorem back_i (p : JsonParser) : p.back.i = p.i - 1 := rfl
@[simp] theorem back_err (p : JsonParser) : p.back.err = p.err := rfl
@[simp] theorem back_failed (p : JsonParser) : p.back.failed = p.failed := rfl
@[simp] theorem back_strategy (p : JsonParser) : p.back.strategy = p.strategy := rfl
@[simp] theorem fail_str (p : JsonParser) (m : List Nat) : (p.fail m).str = p.str := rfl
@[simp] theorem fail_i (p : JsonParser) (m : List Nat) : (p.fail m).i = p.i := rfl
@[simp] theorem fail_failed (p : JsonParser) (m : List Nat) : (p.fail m).failed = true := rfl
@[simp] theorem fail_strategy (p : JsonParser) (m : List Nat) :
    (p.fail m).strategy = p.strategy := rfl

theorem fail_err (p : JsonParser) (m : List Nat) :
    (p.fail m).err = if p.failed = true then p.err else m := by
  cases h : p.failed <;> simp [JsonParser.fail, h]

theorem cur_eq_at (p : JsonParser) : p.cur = p.at p.i := rfl

/-- A byte other than NUL under the cursor lies inside the text. -/
theorem lt_length_of_at_ne_zero (p : JsonParser) (k : Nat) (h : p.at k ≠ 0) :
    k < p.str.length := by
  by_contra hk
  apply h
  simp only [JsonParser.at]
  exact List.getD_eq_default _ _ (by omega)

theorem lt_length_of_cur_ne_zero (p : JsonParser) (h : p.cur ≠ 0) : p.i < p.str.length :=
  lt_length_of_at_ne_zero p p.i h

theorem Ext.refl (p : JsonParser) : Ext p p :=
  ⟨rfl, rfl, fun h => ⟨h, rfl⟩, fun _ => rfl, fun h h' => by simp [h] at h'⟩

theorem Ext.trans {p q r : JsonParser} (h₁ : Ext p q) (h₂ : Ext q r) : Ext p r := by
  refine ⟨h₂.str.trans h₁.str, h₂.strategy.trans h₁.strategy, ?_, ?_, ?_⟩
  · intro hp
    obtain ⟨hq, hqe⟩ := h₁.latch hp
    obtain ⟨hr, hre⟩ := h₂.latch hq
    exact ⟨hr, hre.trans hqe⟩
  · intro hr
    have hq : q.failed = false := by
      cases hq : q.failed
      · rfl
      · have := (h₂.latch hq).1
        simp [hr] at this
    exact (h₂.keep hr).trans (h₁.keep hq)
  · intro hp hr
    cases hq : q.failed
    · exact h₂.msg hq hr
    · rw [(h₂.latch hq).2]
      exact h₁.msg hp hq

theorem Ext.adv (p : JsonParser) (n : Nat) : Ext p (p.adv n) :=
  ⟨rfl, rfl, fun h => ⟨h, rfl⟩, fun _ => rfl, fun h h' => by simp [h] at h'⟩

theorem Ext.back (p : JsonParser) : Ext p p.back :=
  ⟨rfl, rfl, fun h => ⟨h, rfl⟩, fun _ => rfl, fun h h' => by simp [h] at h'⟩

theorem Ext.fail (p : JsonParser) (m : List Nat) (hm : m ≠ []) : Ext p (p.fail m) := by
  refine ⟨rfl, rfl, ?_, ?_, ?_⟩
  · intro h
    simp [fail_err, h]
  · intro h
    simp at h
  · intro h _
    simp [fail_err, h, hm]

theorem Ext.failed_of_failed {p q : JsonParser} (h : Ext p q) (hp : p.failed = true) :
    q.failed = true := (h.latch hp).1

theorem Ext.not_failed {p q : JsonParser} (h : Ext p q) (hq : q.failed = false) :
    p.failed = false := by
  cases hp : p.failed
  · rfl
  · have := (h.latch hp).1
    simp [hq] at this

theorem bytes_ne_nil_append (a b : List Nat) (h : a ≠ []) : a ++ b ≠ [] := by
  cases a with
  | nil => exact absurd rfl h
  | cons x xs => simp

/-! ## White space, comments and tokens -/

theorem consume_whitespace_loop_ext (fuel : Nat) (p : JsonParser) :
    Ext p (consume_whitespace_loop fuel p) := by
  induction fuel generalizing p with
  | zero => exact Ext.refl p
  | succ n ih =>
    simp only [consume_whitespace_loop]
    split
    · exact (Ext.adv p 1).trans (ih _)
    · exact Ext.refl p

theorem consume_whitespace_loop_failed (fuel : Nat) (p : JsonParser) :
    (consume_whitespace_loop fuel p).failed = p.failed := by
  induction fuel generalizing p with
  | zero => rfl
  | succ n ih =>
    simp only [consume_whitespace_loop]
    split
    · rw [ih]; rfl
    · rfl

theorem consume_whitespace_loop_err (fuel : Nat) (p : JsonParser) :
    (consume_whitespace_loop fuel p).err = p.err := by
  induction fuel generalizing p with
  | zero => rfl
  | succ n ih =>
    simp only [consume_whitespace_loop]
    split
    · rw [ih]; rfl
    · rfl

theorem consume_whitespace_loop_i (fuel : Nat) (p : JsonParser) (h : p.i ≤ p.str.length) :
    p.i ≤ (consume_whitespace_loop fuel p).i ∧
      (consume_whitespace_loop fuel p).i ≤ p.str.length := by
  induction fuel generalizing p with
  | zero => exact ⟨le_refl _, h⟩
  | succ n ih =>
    simp only [consume_whitespace_loop]
    split
    · rename_i hc
      have hlt : p.i < p.str.length := lt_length_of_cur_ne_zero p (by omega)
      have := ih (p.adv 1) (by simp; omega)
      simp at this
      omega
    · exact ⟨le_refl _, h⟩

/-- The white-space loop stops on a byte that is not white space. -/
theorem consume_whitespace_loop_stop (fuel : Nat) (p : JsonParser)
    (hf : p.str.length - p.i ≤ fuel) :
    ¬ ((consume_whitespace_loop fuel p).cur = 32 ∨ (consume_whitespace_loop fuel p).cur = 9 ∨
      (consume_whitespace_loop fuel p).cur = 10 ∨ (consume_whitespace_loop fuel p).cur = 13) := by
  induction fuel generalizing p with
  | zero =>
    simp only [consume_whitespace_loop]
    have : p.cur = 0 := List.getD_eq_default _ _ (by omega)
    omega
  | succ n ih =>
    simp only [consume_whitespace_loop]
    split
    · exact ih _ (by simp; omega)
    · assumption

theorem consume_whitespace_ext (p : JsonParser) : Ext p (consume_whitespace p) :=
  consume_whitespace_loop_ext _ p

@[simp] theorem consume_whitespace_str (p : JsonParser) : (consume_whitespace p).str = p.str :=
  (consume_whitespace_ext p).str

@[simp] theorem consume_whitespace_strategy (p : JsonParser) :
    (consume_whitespace p).strategy = p.strategy :=
  (consume_whitespace_ext p).strategy

@[simp] theorem consume_whitespace_failed (p : JsonParser) :
    (consume_whitespace p).failed = p.failed :=
  consume_whitespace_loop_failed _ p

@[simp] theorem consume_whitespace_err (p : JsonParser) : (consume_whitespace p).err = p.err :=
  consume_whitespace_loop_err _ p

theorem consume_whitespace_i (p : JsonParser) (h : p.i ≤ p.str.length) :
    p.i ≤ (consume_whitespace p).i ∧ (consume_whitespace p).i ≤ p.str.length :=
  consume_whitespace_loop_i _ p h

theorem consume_whitespace_stop (p : JsonParser) :
    ¬ ((consume_whitespace p).cur = 32 ∨ (consume_whitespace p).cur = 9 ∨
      (consume_whitespace p).cur = 10 ∨ (consume_whitespace p).cur = 13) :=
  consume_whitespace_loop_stop _ p (le_refl _)

theorem line_comment_loop_ext (fuel : Nat) (p : JsonParser) :
    Ext p (line_comment_loop fuel p) := by
  induction fuel generalizing p with
  | zero => exact Ext.refl p
  | succ n ih =>
    simp only [line_comment_loop]
    split
    · exact (Ext.adv p 1).trans (ih _)
    · exact Ext.refl p

theorem line_comment_loop_failed (fuel : Nat) (p : JsonParser) :
    (line_comment_loop fuel p).failed = p.failed := by
  induction fuel generalizing p with
  | zero => rfl
  | succ n ih =>
    simp only [line_comment_loop]
    split
    · rw [ih]; rfl
    · rfl

theorem line_comment_loop_i (fuel : Nat) (p : JsonParser) (h : p.i ≤ p.str.length) :
    p.i ≤ (line_comment_loop fuel p).i ∧ (line_comment_loop fuel p).i ≤ p.str.length := by
  induction fuel generalizing p with
  | zero => exact ⟨le_refl _, h⟩
  | succ n ih =>
    simp only [line_comment_loop]
    split
    · rename_i hc
      have := ih (p.adv 1) (by simp; omega)
      simp at this
      omega
    · exact ⟨le_refl _, h⟩

theorem msg_block_ne : bytes "unexpected end of input inside multi-line comment" ≠ [] := by
  decide

theorem block_comment_loop_ext (fuel : Nat) (p : JsonParser) :
    Ext p (block_comment_loop fuel p).2 := by
  induction fuel generalizing p with
  | zero => exact Ext.refl p
  | succ n ih =>
    simp only [block_comment_loop]
    split
    · split
      · exact (Ext.adv p 1).trans (Ext.fail _ _ msg_block_ne)
      · exact (Ext.adv p 1).trans (ih _)
    · exact Ext.adv p 2

theorem block_comment_loop_i (fuel : Nat) (p : JsonParser) (h : p.i + 2 ≤ p.str.length)
    (hf : (block_comment_loop fuel p).2.failed = false) :
    p.i ≤ (block_comment_loop fuel p).2.i ∧ (block_comment_loop fuel p).2.i ≤ p.str.length ∧
      ((block_comment_loop fuel p).1 = true → p.i + 2 ≤ (block_comment_loop fuel p).2.i) := by
  induction fuel generalizing p with
  | zero => simp [block_comment_loop]; omega
  | succ n ih =>
    simp only [block_comment_loop] at hf ⊢
    split at hf
    · split at hf
      · simp at hf
      · rename_i hc hle
        rw [if_pos hc, if_neg hle]
        simp only [adv_i, adv_str, gt_iff_lt, not_lt] at hle
        have := ih (p.adv 1) (by simp only [adv_i, adv_str]; omega) hf
        simp only [adv_i, adv_str] at this
        refine ⟨by omega, by omega, fun hb => ?_⟩
        have := this.2.2 hb
        omega
    · rename_i hc
      rw [if_neg hc]
      simp
      omega

theorem consume_comment_ext (p : JsonParser) : Ext p (consume_comment p).2 := by
  simp only [consume_comment]
  split
  · split
    · exact (Ext.adv p 1).trans (Ext.fail _ _ (by decide))
    · split
      · exact ((Ext.adv p 1).trans (Ext.adv _ 1)).trans (line_comment_loop_ext _ _)
      · split
        · split
          · exact ((Ext.adv p 1).trans (Ext.adv _ 1)).trans (Ext.fail _ _ msg_block_ne)
          · exact ((Ext.adv p 1).trans (Ext.adv _ 1)).trans (block_comment_loop_ext _ _)
        · exact (Ext.adv p 1).trans (Ext.fail _ _ (by decide))
  · exact Ext.refl p

/-- Without a slash under the cursor `consume_comment` does nothing. -/
theorem consume_comment_of_ne (p : JsonParser) (h : p.cur ≠ 47) :
    consume_comment p = (false, p) := by
  simp [consume_comment, h]

theorem consume_comment_i (p : JsonParser) (h : p.i ≤ p.str.length)
    (hf : (consume_comment p).2.failed = false) :
    p.i ≤ (consume_comment p).2.i ∧ (consume_comment p).2.i ≤ p.str.length ∧
      ((consume_comment p).1 = true → p.i + 2 ≤ (consume_comment p).2.i) := by
  simp only [consume_comment] at hf ⊢
  split at hf
  · rename_i h47
    have hlt : p.i < p.str.length := lt_length_of_cur_ne_zero p (by omega)
    rw [if_pos h47]
    split at hf
    · simp at hf
    · rename_i hne
      rw [if_neg hne]
      split at hf
      · rename_i h2
        rw [if_pos h2]
        have h2' : (p.adv 1).i < (p.adv 1).str.length :=
          lt_length_of_cur_ne_zero (p.adv 1) (by omega)
        have := line_comment_loop_i (((p.adv 1).adv 1).str.length - ((p.adv 1).adv 1).i)
          ((p.adv 1).adv 1) (by simp at h2' ⊢; omega)
        simp at this ⊢
        omega
      · rename_i h2
        rw [if_neg h2]
        split at hf
        · rename_i h3
          rw [if_pos h3]
          split at hf
          · simp at hf
          · rename_i h4
            rw [if_neg h4]
            simp at h4
            have := block_comment_loop_i (((p.adv 1).adv 1).str.length - ((p.adv 1).adv 1).i)
              ((p.adv 1).adv 1) (by simp; omega) hf
            simp at this ⊢
            omega
        · simp at hf
  · rename_i h47
    rw [if_neg h47]
    simp
    exact h

theorem consume_garbage_loop_ext (fuel : Nat) (p : JsonParser) :
    Ext p (consume_garbage_loop fuel p) := by
  induction fuel generalizing p with
  | zero => exact Ext.refl p
  | succ n ih =>
    simp only [consume_garbage_loop]
    split
    · exact consume_comment_ext p
    · split
      · exact ((consume_comment_ext p).trans (consume_whitespace_ext _)).trans (ih _)
      · exact (consume_comment_ext p).trans (consume_whitespace_ext _)

theorem consume_garbage_loop_i (fuel : Nat) (p : JsonParser) (h : p.i ≤ p.str.length)
    (hf : (consume_garbage_loop fuel p).failed = false) :
    p.i ≤ (consume_garbage_loop fuel p).i ∧ (consume_garbage_loop fuel p).i ≤ p.str.length := by
  induction fuel generalizing p with
  | zero => exact ⟨le_refl _, h⟩
  | succ n ih =>
    simp only [consume_garbage_loop] at hf ⊢
    split at hf
    · rename_i hc
      simp [hc] at hf
    · rename_i hc
      rw [if_neg hc]
      simp at hc
      have h1 := consume_comment_i p h hc
      have hs := (consume_comment_ext p).str
      have h2 := consume_whitespace_i (consume_comment p).2 (by rw [hs]; exact h1.2.1)
      rw [hs] at h2
      split at hf
      · rename_i hb
        rw [if_pos hb]
        have := ih (consume_whitespace (consume_comment p).2) (by simp [hs]; exact h2.2) hf
        simp [hs] at this
        omega
      · rename_i hb
        rw [if_neg hb]
        omega

theorem consume_garbage_ext (p : JsonParser) : Ext p (consume_garbage p) := by
  simp only [consume_garbage]
  split
  · exact (consume_whitespace_ext p).trans (consume_garbage_loop_ext _ _)
  · exact consume_whitespace_ext p

theorem consume_garbage_i (p : JsonParser) (h : p.i ≤ p.str.length)
    (hf : (consume_garbage p).failed = false) :
    p.i ≤ (consume_garbage p).i ∧ (consume_garbage p).i ≤ p.str.length := by
  have h1 := consume_whitespace_i p h
  simp only [consume_garbage] at hf ⊢
  split at hf
  · rename_i hc
    rw [if_pos hc]
    generalize (consume_whitespace p).str.length - (consume_whitespace p).i + 1 = fuel at hf ⊢
    have := consume_garbage_loop_i fuel (consume_whitespace p)
      (by rw [consume_whitespace_str]; exact h1.2) hf
    rw [consume_whitespace_str] at this
    omega
  · rename_i hc
    rw [if_neg hc]
    exact h1

/-- Under STANDARD `consume_garbage` is `consume_whitespace`. -/
theorem consume_garbage_standard (p : JsonParser) (h : p.strategy = JsonParse.STANDARD) :
    consume_garbage p = consume_whitespace p := by
  simp [consume_garbage, h]

theorem get_next_token_ext (p : JsonParser) : Ext p (get_next_token p).2 := by
  simp only [get_next_token]
  split
  · exact consume_garbage_ext p
  · split
    · exact (consume_garbage_ext p).trans (Ext.fail _ _ (by decide))
    · exact (consume_garbage_ext p).trans (Ext.adv _ 1)

/-- A token that was read is the byte before the new cursor, which has moved on. -/
theorem get_next_token_i (p : JsonParser) (h : p.i ≤ p.str.length)
    (hf : (get_next_token p).2.failed = false) :
    p.i < (get_next_token p).2.i ∧ (get_next_token p).2.i ≤ p.str.length ∧
      (get_next_token p).1 = p.at ((get_next_token p).2.i - 1) := by
  simp only [get_next_token] at hf ⊢
  split at hf
  · rename_i hc
    simp [hc] at hf
  · rename_i hc
    rw [if_neg hc]
    simp at hc
    have h1 := consume_garbage_i p h hc
    have hs := (consume_garbage_ext p).str
    split at hf
    · simp at hf
    · rename_i hne
      rw [if_neg hne]
      rw [hs] at hne
      simp [JsonParser.cur, JsonParser.at, hs]
      omega

/-- In a failed state `get_next_token` returns NUL and stays failed. -/
theorem get_next_token_failed (p : JsonParser) (h : p.failed = true) :
    (get_next_token p).1 = 0 ∧ (get_next_token p).2.failed = true := by
  have := (consume_garbage_ext p).failed_of_failed h
  simp [get_next_token, this]

theorem get_next_token_fst_of_failed (p : JsonParser) (h : (get_next_token p).2.failed = true) :
    (get_next_token p).1 = 0 := by
  simp only [get_next_token] at h ⊢
  split
  · rfl
  · split
    · rfl
    · rename_i h1 h2
      rw [if_neg h1, if_neg h2] at h
      simp at h
      simp [h] at h1

/-! ## Numbers, strings and literals -/

theorem digits_loop_ext (fuel : Nat) (p : JsonParser) : Ext p (digits_loop fuel p) := by
  induction fuel generalizing p with
  | zero => exact Ext.refl p
  | succ n ih =>
    simp only [digits_loop]
    split
    · exact (Ext.adv p 1).trans (ih _)
    · exact Ext.refl p

@[simp] theorem digits_loop_failed (fuel : Nat) (p : JsonParser) :
    (digits_loop fuel p).failed = p.failed := by
  induction fuel generalizing p with
  | zero => rfl
  | succ n ih =>
    simp only [digits_loop]
    split
    · rw [ih]; rfl
    · rfl

@[simp] theorem digits_loop_str (fuel : Nat) (p : JsonParser) :
    (digits_loop fuel p).str = p.str := (digits_loop_ext fuel p).str

theorem in_range_toLong (c : Nat) (lo hi : Int) (hlo : 0 ≤ lo) :
    in_range (toLong c) lo hi = true ↔ lo ≤ (c : Int) ∧ (c : Int) ≤ hi ∧ c < 128 := by
  simp only [in_range, toLong, Bool.and_eq_true, decide_eq_true_eq]
  split <;> omega

theorem in_range_digit (c : Nat) (lo : Int) (h : in_range (toLong c) lo 57 = true)
    (hlo : 1 ≤ lo) : c ≠ 0 ∧ c ≤ 57 := by
  rw [in_range_toLong _ _ _ (by omega)] at h
  omega

theorem digits_loop_i (fuel : Nat) (p : JsonParser) (h : p.i ≤ p.str.length) :
    p.i ≤ (digits_loop fuel p).i ∧ (digits_loop fuel p).i ≤ p.str.length := by
  induction fuel generalizing p with
  | zero => exact ⟨le_refl _, h⟩
  | succ n ih =>
    simp only [digits_loop]
    split
    · rename_i hc
      have hlt : p.i < p.str.length :=
        lt_length_of_cur_ne_zero p (in_range_digit _ _ hc (by decide)).1
      have := ih (p.adv 1) (by simp; omega)
      simp at this
      omega
    · exact ⟨le_refl _, h⟩

theorem parse_number_exp_ext (L : Libc) (s : Nat) (p : JsonParser) :
    Ext p (parse_number_exp L s p).2 := by
  have h0 : Ext p (if (p.adv 1).cur = 43 ∨ (p.adv 1).cur = 45 then (p.adv 1).adv 1
      else p.adv 1) := by
    split
    · exact (Ext.adv p 1).trans (Ext.adv _ 1)
    · exact Ext.adv p 1
  simp only [parse_number_exp]
  generalize (if (p.adv 1).cur = 43 ∨ (p.adv 1).cur = 45 then (p.adv 1).adv 1 else p.adv 1) = q
    at h0 ⊢
  split
  · split
    · exact h0.trans (Ext.fail _ _ (by decide))
    · exact h0.trans (digits_loop_ext _ _)
  · exact Ext.refl p

theorem parse_number_tail_ext (L : Libc) (s : Nat) (p : JsonParser) :
    Ext p (parse_number_tail L s p).2 := by
  simp only [parse_number_tail]
  split
  · exact Ext.refl p
  · split
    · split
      · exact (Ext.adv p 1).trans (Ext.fail _ _ (by decide))
      · exact ((Ext.adv p 1).trans (digits_loop_ext _ _)).trans (parse_number_exp_ext _ _ _)
    · exact parse_number_exp_ext _ _ _

theorem parse_number_ext (L : Libc) (p : JsonParser) : Ext p (parse_number L p).2 := by
  have h0 : Ext p (if p.cur = 45 then p.adv 1 else p) := by
    split
    · exact Ext.adv p 1
    · exact Ext.refl p
  simp only [parse_number]
  generalize (if p.cur = 45 then p.adv 1 else p) = q at h0 ⊢
  split
  · split
    · exact (h0.trans (Ext.adv _ 1)).trans (Ext.fail _ _ (by decide))
    · exact (h0.trans (Ext.adv _ 1)).trans (parse_number_tail_ext _ _ _)
  · split
    · exact ((h0.trans (Ext.adv _ 1)).trans (digits_loop_ext _ _)).trans
        (parse_number_tail_ext _ _ _)
    · exact h0.trans (Ext.fail _ _ (bytes_ne_nil_append _ _
        (bytes_ne_nil_append _ _ (by decide))))

theorem parse_number_exp_i (L : Libc) (s : Nat) (p : JsonParser) (h : p.i ≤ p.str.length)
    (hf : (parse_number_exp L s p).2.failed = false) :
    p.i ≤ (parse_number_exp L s p).2.i ∧ (parse_number_exp L s p).2.i ≤ p.str.length := by
  simp only [parse_number_exp] at hf ⊢
  split at hf
  · rename_i hc
    rw [if_pos hc]
    have h1 : p.i < p.str.length := lt_length_of_cur_ne_zero p (by omega)
    have h2 : (p.adv 1).i ≤ (if (p.adv 1).cur = 43 ∨ (p.adv 1).cur = 45 then (p.adv 1).adv 1
          else p.adv 1).i ∧
        (if (p.adv 1).cur = 43 ∨ (p.adv 1).cur = 45 then (p.adv 1).adv 1 else p.adv 1).i
          ≤ p.str.length ∧
        (if (p.adv 1).cur = 43 ∨ (p.adv 1).cur = 45 then (p.adv 1).adv 1 else p.adv 1).str
          = p.str := by
      split
      · rename_i hs
        have := lt_length_of_cur_ne_zero (p.adv 1) (by omega)
        simp at this ⊢
        omega
      · simp
        omega
    generalize (if (p.adv 1).cur = 43 ∨ (p.adv 1).cur = 45 then (p.adv 1).adv 1 else p.adv 1) = q
      at hf h2 ⊢
    split at hf
    · simp at hf
    · rename_i hd
      rw [if_neg hd]
      have := digits_loop_i (q.str.length - q.i) q (by rw [h2.2.2]; exact h2.2.1)
      simp only [adv_i, h2.2.2] at this h2 ⊢
      omega
  · rename_i hc
    rw [if_neg hc]
    exact ⟨le_refl _, h⟩

theorem parse_number_tail_i (L : Libc) (s : Nat) (p : JsonParser) (h : p.i ≤ p.str.length)
    (hf : (parse_number_tail L s p).2.failed = false) :
    p.i ≤ (parse_number_tail L s p).2.i ∧ (parse_number_tail L s p).2.i ≤ p.str.length := by
  simp only [parse_number_tail] at hf ⊢
  split at hf
  · rename_i hc
    rw [if_pos hc]
    exact ⟨le_refl _, h⟩
  · rename_i hc
    rw [if_neg hc]
    split at hf
    · rename_i hdot
      rw [if_pos hdot]
      have h1 : p.i < p.str.length := lt_length_of_cur_ne_zero p (by omega)
      split at hf
      · simp at hf
      · rename_i hd
        rw [if_neg hd]
        have h2 := digits_loop_i ((p.adv 1).str.length - (p.adv 1).i) (p.adv 1)
          (by simp; omega)
        have h3 := parse_number_exp_i L s _ (by simp at h2 ⊢; exact h2.2) hf
        simp at h2 h3 ⊢
        omega
    · rename_i hdot
      rw [if_neg hdot]
      exact parse_number_exp_i L s p h hf

/-- A number that was read moved the cursor on, inside the text. -/
theorem parse_number_i (L : Libc) (p : JsonParser) (h : p.i ≤ p.str.length)
    (hf : (parse_number L p).2.failed = false) :
    p.i < (parse_number L p).2.i ∧ (parse_number L p).2.i ≤ p.str.length := by
  have h0 : p.i ≤ (if p.cur = 45 then p.adv 1 else p).i ∧
      (if p.cur = 45 then p.adv 1 else p).i ≤ p.str.length ∧
      (if p.cur = 45 then p.adv 1 else p).str = p.str := by
    split
    · rename_i hs
      have := lt_length_of_cur_ne_zero p (by omega)
      simp
      omega
    · simp
      omega
  simp only [parse_number] at hf ⊢
  generalize (if p.cur = 45 then p.adv 1 else p) = q at hf h0 ⊢
  split at hf
  · rename_i hz
    rw [if_pos hz]
    have h1 : q.i < q.str.length := lt_length_of_cur_ne_zero q (by omega)
    split at hf
    · simp at hf
    · rename_i hd
      rw [if_neg hd]
      have := parse_number_tail_i L p.i (q.adv 1) (by simp; omega) hf
      simp only [adv_i, adv_str, h0.2.2] at this h1 ⊢
      omega
  · rename_i hz
    rw [if_neg hz]
    split at hf
    · rename_i hd
      rw [if_pos hd]
      have h1 : q.i < q.str.length :=
        lt_length_of_cur_ne_zero q (in_range_digit _ _ hd (by decide)).1
      have h2 := digits_loop_i ((q.adv 1).str.length - (q.adv 1).i) (q.adv 1) (by simp; omega)
      have := parse_number_tail_i L p.i _ (by simp at h2 ⊢; exact h2.2) hf
      simp only [adv_i, adv_str, digits_loop_str, h0.2.2] at this h1 h2 ⊢
      omega
    · simp at hf

theorem expect_ext (e : List Nat) (res : Json) (p : JsonParser) : Ext p (expect e res p).2 := by
  simp only [expect]
  split
  · exact (Ext.back p).trans (Ext.adv _ _)
  · exact (Ext.back p).trans (Ext.fail _ _ (by
      rw [List.append_assoc, List.append_assoc]
      exact bytes_ne_nil_append _ _ (by decide)))

/-- A literal that was matched moved the cursor to its end, inside the text. -/
theorem expect_i (e : List Nat) (res : Json) (p : JsonParser) (he : 2 ≤ e.length)
    (hi : 1 ≤ p.i) (hf : (expect e res p).2.failed = false) :
    p.i < (expect e res p).2.i ∧ (expect e res p).2.i ≤ p.str.length ∧
      (expect e res p).1 = res := by
  simp only [expect] at hf ⊢
  split at hf
  · rename_i hc
    rw [if_pos hc]
    have hl := congrArg List.length hc
    simp only [back_str, back_i, List.length_take, List.length_drop] at hl
    simp
    omega
  · simp at hf

/-- The three outcomes of the exponent part of `parse_number`; the state does not
depend on the C library. -/
theorem parse_number_exp_shape (s : Nat) (p : JsonParser) :
    ∃ q, (q.failed = true ∧ ∀ L, parse_number_exp L s p = (Json.null, q)) ∨
      (q.failed = p.failed ∧
        ∀ L, parse_number_exp L s p = (Json.double (L.strtod (c_str p.str s)), q)) := by
  simp only [parse_number_exp]
  by_cases h1 : p.cur = 101 ∨ p.cur = 69
  · simp only [if_pos h1]
    generalize hq : (if (p.adv 1).cur = 43 ∨ (p.adv 1).cur = 45 then (p.adv 1).adv 1
      else p.adv 1) = q
    have hqf : q.failed = p.failed ∧ q.str = p.str := by
      rw [← hq]
      split <;> exact ⟨rfl, rfl⟩
    by_cases h2 : (!in_range (toLong q.cur) 48 57) = true
    · simp only [if_pos h2]
      exact ⟨_, Or.inl ⟨rfl, fun _ => rfl⟩⟩
    · simp only [if_neg h2]
      refine ⟨digits_loop (q.str.length - q.i) q,
        Or.inr ⟨by rw [digits_loop_failed, hqf.1], fun L => ?_⟩⟩
      rw [digits_loop_str, hqf.2]
  · simp only [if_neg h1]
    exact ⟨_, Or.inr ⟨rfl, fun _ => rfl⟩⟩

theorem parse_number_tail_shape (s : Nat) (p : JsonParser) :
    ∃ q, (q.failed = true ∧ ∀ L, parse_number_tail L s p = (Json.null, q)) ∨
      (q.failed = p.failed ∧
        ∀ L, parse_number_tail L s p = (Json.int (atoi (c_str p.str s)), q)) ∨
      (q.failed = p.failed ∧
        ∀ L, parse_number_tail L s p = (Json.double (L.strtod (c_str p.str s)), q)) := by
  simp only [parse_number_tail]
  by_cases h1 : p.cur ≠ 46 ∧ p.cur ≠ 101 ∧ p.cur ≠ 69 ∧ p.i - s ≤ 9
  · simp only [if_pos h1]
    exact ⟨_, Or.inr (Or.inl ⟨rfl, fun _ => rfl⟩)⟩
  simp only [if_neg h1]
  by_cases h2 : p.cur = 46
  · simp only [if_pos h2]
    by_cases h3 : (!in_range (toLong (p.adv 1).cur) 48 57) = true
    · simp only [if_pos h3]
      exact ⟨_, Or.inl ⟨rfl, fun _ => rfl⟩⟩
    · simp only [if_neg h3]
      obtain ⟨q, hq⟩ := parse_number_exp_shape s
        (digits_loop ((p.adv 1).str.length - (p.adv 1).i) (p.adv 1))
      simp only [digits_loop_failed, digits_loop_str, adv_failed, adv_str] at hq ⊢
      rcases hq with hq | hq
      · exact ⟨q, Or.inl hq⟩
      · exact ⟨q, Or.inr (Or.inr hq)⟩
  · simp only [if_neg h2]
    obtain ⟨q, hq⟩ := parse_number_exp_shape s p
    rcases hq with hq | hq
    · exact ⟨q, Or.inl hq⟩
    · exact ⟨q, Or.inr (Or.inr hq)⟩

/-- The three outcomes of `parse_number`: a failure with Null, the integer `atoi`
reads, or the double `strtod` reads; the state does not depend on the C library. -/
theorem parse_number_shape (p : JsonParser) :
    ∃ q, (q.failed = true ∧ ∀ L, parse_number L p = (Json.null, q)) ∨
      (q.failed = p.failed ∧
        ∀ L, parse_number L p = (Json.int (atoi (c_str p.str p.i)), q)) ∨
      (q.failed = p.failed ∧
        ∀ L, parse_number L p = (Json.double (L.strtod (c_str p.str p.i)), q)) := by
  simp only [parse_number]
  generalize hq : (if p.cur = 45 then p.adv 1 else p) = q
  have hqf : q.failed = p.failed ∧ q.str = p.str := by
    rw [← hq]
    split <;> exact ⟨rfl, rfl⟩
  by_cases h1 : q.cur = 48
  · simp only [if_pos h1]
    by_cases h2 : in_range (toLong (q.adv 1).cur) 48 57 = true
    · simp only [if_pos h2]
      exact ⟨_, Or.inl ⟨rfl, fun _ => rfl⟩⟩
    · simp only [if_neg h2]
      obtain ⟨r, hr⟩ := parse_number_tail_shape p.i (q.adv 1)
      simp only [adv_failed, adv_str, hqf.1, hqf.2] at hr ⊢
      exact ⟨r, hr⟩
  simp only [if_neg h1]
  by_cases h2 : in_range (toLong q.cur) 49 57 = true
  · simp only [if_pos h2]
    obtain ⟨r, hr⟩ := parse_number_tail_shape p.i
      (digits_loop ((q.adv 1).str.length - (q.adv 1).i) (q.adv 1))
    simp only [digits_loop_failed, digits_loop_str, adv_failed, adv_str, hqf.1, hqf.2] at hr ⊢
    exact ⟨r, hr⟩
  · simp only [if_neg h2]
    exact ⟨_, Or.inl ⟨rfl, fun _ => rfl⟩⟩

theorem parse_number_failed_value (L : Libc) (p : JsonParser) (hp : p.failed = false)
    (hf : (parse_number L p).2.failed = true) : (parse_number L p).1 = Json.null := by
  obtain ⟨q, h | h | h⟩ := parse_number_shape p
  · rw [h.2 L]
  · rw [h.2 L] at hf
    simp only at hf
    rw [h.1, hp] at hf
    cases hf
  · rw [h.2 L] at hf
    simp only at hf
    rw [h.1, hp] at hf
    cases hf

theorem expect_failed_value (e : List Nat) (res : Json) (p : JsonParser) (hp : p.failed = false)
    (hf : (expect e res p).2.failed = true) : (expect e res p).1 = Json.null := by
  simp only [expect] at hf ⊢
  split
  · rename_i h
    rw [if_pos h] at hf
    simp [hp] at hf
  · rfl

theorem Ext.fail2 (p : JsonParser) (a b : List Nat) (h : a ≠ []) : Ext p (p.fail (a ++ b)) :=
  Ext.fail _ _ (bytes_ne_nil_append _ _ h)

theorem Ext.fail3 (p : JsonParser) (a b c : List Nat) (h : a ≠ []) :
    Ext p (p.fail (a ++ b ++ c)) :=
  Ext.fail _ _ (bytes_ne_nil_append _ _ (bytes_ne_nil_append _ _ h))

/-- One round of the loop of `parse_string`, with the local bindings unfolded. -/
theorem parse_string_loop_succ (fuel : Nat) (out : List Nat) (last : Int) (p : JsonParser) :
    parse_string_loop (fuel + 1) out last p =
      if p.i = p.str.length then ([], p.fail (bytes "unexpected end of input in string"))
      else if p.cur = 34 then (encode_utf8 last out, p.adv 1)
      else if in_range (toLong p.cur) 0 0x1f then
        ([], (p.adv 1).fail (bytes "unescaped " ++ esc p.cur ++ bytes " in string"))
      else if p.cur ≠ 92 then
        parse_string_loop fuel (encode_utf8 last out ++ [p.cur]) (-1) (p.adv 1)
      else if (p.adv 1).i = (p.adv 1).str.length then
        ([], (p.adv 1).fail (bytes "unexpected end of input in string"))
      else if (p.adv 1).cur = 117 then
        if ((((p.adv 1).adv 1).str.drop ((p.adv 1).adv 1).i).take 4).length < 4 then
          ([], ((p.adv 1).adv 1).fail (bytes "bad \\u escape: " ++
            (((p.adv 1).adv 1).str.drop ((p.adv 1).adv 1).i).take 4))
        else if !((((p.adv 1).adv 1).str.drop ((p.adv 1).adv 1).i).take 4).all is_hex then
          ([], ((p.adv 1).adv 1).fail (bytes "bad \\u escape: " ++
            (((p.adv 1).adv 1).str.drop ((p.adv 1).adv 1).i).take 4))
        else if in_range last 0xD800 0xDBFF ∧
            in_range (strtol16 ((((p.adv 1).adv 1).str.drop ((p.adv 1).adv 1).i).take 4) : Int)
              0xDC00 0xDFFF then
          parse_string_loop fuel
            (encode_utf8
              ((((((last - 0xD800).toNat <<< 10) |||
                ((strtol16 ((((p.adv 1).adv 1).str.drop ((p.adv 1).adv 1).i).take 4) : Int)
                  - 0xDC00).toNat) : Nat) : Int) + 0x10000) out)
            (-1) (((p.adv 1).adv 1).adv 4)
        else
          parse_string_loop fuel (encode_utf8 last out)
            (strtol16 ((((p.adv 1).adv 1).str.drop ((p.adv 1).adv 1).i).take 4) : Int)
            (((p.adv 1).adv 1).adv 4)
      else if (p.adv 1).cur = 98 then
        parse_string_loop fuel (encode_utf8 last out ++ [8]) (-1) ((p.adv 1).adv 1)
      else if (p.adv 1).cur = 102 then
        parse_string_loop fuel (encode_utf8 last out ++ [12]) (-1) ((p.adv 1).adv 1)
      else if (p.adv 1).cur = 110 then
        parse_string_loop fuel (encode_utf8 last out ++ [10]) (-1) ((p.adv 1).adv 1)
      else if (p.adv 1).cur = 114 then
        parse_string_loop fuel (encode_utf8 last out ++ [13]) (-1) ((p.adv 1).adv 1)
      else if (p.adv 1).cur = 116 then
        parse_string_loop fuel (encode_utf8 last out ++ [9]) (-1) ((p.adv 1).adv 1)
      else if (p.adv 1).cur = 34 ∨ (p.adv 1).cur = 92 ∨ (p.adv 1).cur = 47 then
        parse_string_loop fuel (encode_utf8 last out ++ [(p.adv 1).cur]) (-1) ((p.adv 1).adv 1)
      else ([], ((p.adv 1).adv 1).fail (bytes "invalid escape character " ++ esc (p.adv 1).cur)) :=
  rfl

/-- The shape of one round of the loop of `parse_string`: it fails with a
message, or it returns after the closing quote, or it goes on after consuming
`k` bytes of the text. -/
theorem parse_string_loop_cases (fuel : Nat) (out : List Nat) (last : Int) (p : JsonParser)
    (h : p.i ≤ p.str.length) :
    (∃ m k, m ≠ [] ∧ parse_string_loop (fuel + 1) out last p = ([], (p.adv k).fail m)) ∨
    (p.i < p.str.length ∧ ∃ o, parse_string_loop (fuel + 1) out last p = (o, p.adv 1)) ∨
    (∃ out' last' k, 1 ≤ k ∧ p.i + k ≤ p.str.length ∧
      parse_string_loop (fuel + 1) out last p = parse_string_loop fuel out' last' (p.adv k)) := by
  have adv2 : (p.adv 1).adv 1 = p.adv 2 := rfl
  have adv6 : ((p.adv 1).adv 1).adv 4 = p.adv 6 := rfl
  rw [parse_string_loop_succ]
  by_cases h1 : p.i = p.str.length
  · rw [if_pos h1]
    exact Or.inl ⟨_, 0, by decide, rfl⟩
  rw [if_neg h1]
  have hlt : p.i < p.str.length := by omega
  by_cases h2 : p.cur = 34
  · rw [if_pos h2]
    exact Or.inr (Or.inl ⟨hlt, _, rfl⟩)
  rw [if_neg h2]
  by_cases h3 : in_range (toLong p.cur) 0 0x1f = true
  · rw [if_pos h3]
    exact Or.inl ⟨_, 1, bytes_ne_nil_append _ _ (bytes_ne_nil_append _ _ (by decide)), rfl⟩
  rw [if_neg h3]
  by_cases h4 : p.cur ≠ 92
  · rw [if_pos h4]
    exact Or.inr (Or.inr ⟨_, _, 1, le_refl _, by omega, rfl⟩)
  rw [if_neg h4]
  by_cases h5 : (p.adv 1).i = (p.adv 1).str.length
  · rw [if_pos h5]
    exact Or.inl ⟨_, 1, by decide, rfl⟩
  rw [if_neg h5]
  simp only [adv_i, adv_str] at h5
  by_cases h6 : (p.adv 1).cur = 117
  · rw [if_pos h6]
    by_cases h7 : ((((p.adv 1).adv 1).str.drop ((p.adv 1).adv 1).i).take 4).length < 4
    · rw [if_pos h7]
      exact Or.inl ⟨_, 2, bytes_ne_nil_append _ _ (by decide), rfl⟩
    rw [if_neg h7]
    by_cases h8 : (!((((p.adv 1).adv 1).str.drop ((p.adv 1).adv 1).i).take 4).all is_hex) = true
    · rw [if_pos h8]
      exact Or.inl ⟨_, 2, bytes_ne_nil_append _ _ (by decide), rfl⟩
    rw [if_neg h8]
    simp only [adv_i, adv_str, List.length_take, List.length_drop, not_lt] at h7
    by_cases h9 : in_range last 0xD800 0xDBFF ∧
        in_range (strtol16 ((((p.adv 1).adv 1).str.drop ((p.adv 1).adv 1).i).take 4) : Int)
          0xDC00 0xDFFF
    · rw [if_pos h9]
      exact Or.inr (Or.inr ⟨_, _, 6, by omega, by omega, by rw [adv6]⟩)
    · rw [if_neg h9]
      exact Or.inr (Or.inr ⟨_, _, 6, by omega, by omega, by rw [adv6]⟩)
  rw [if_neg h6]
  by_cases h7 : (p.adv 1).cur = 98
  · rw [if_pos h7]
    exact Or.inr (Or.inr ⟨_, _, 2, by omega, by omega, by rw [adv2]⟩)
  rw [if_neg h7]
  by_cases h8 : (p.adv 1).cur = 102
  · rw [if_pos h8]
    exact Or.inr (Or.inr ⟨_, _, 2, by omega, by omega, by rw [adv2]⟩)
  rw [if_neg h8]
  by_cases h9 : (p.adv 1).cur = 110
  · rw [if_pos h9]
    exact Or.inr (Or.inr ⟨_, _, 2, by omega, by omega, by rw [adv2]⟩)
  rw [if_neg h9]
  by_cases h10 : (p.adv 1).cur = 114
  · rw [if_pos h10]
    exact Or.inr (Or.inr ⟨_, _, 2, by omega, by omega, by rw [adv2]⟩)
  rw [if_neg h10]
  by_cases h11 : (p.adv 1).cur = 116
  · rw [if_pos h11]
    exact Or.inr (Or.inr ⟨_, _, 2, by omega, by omega, by rw [adv2]⟩)
  rw [if_neg h11]
  by_cases h12 : (p.adv 1).cur = 34 ∨ (p.adv 1).cur = 92 ∨ (p.adv 1).cur = 47
  · rw [if_pos h12]
    exact Or.inr (Or.inr ⟨_, _, 2, by omega, by omega, by rw [adv2]⟩)
  rw [if_neg h12]
  exact Or.inl ⟨_, 2, bytes_ne_nil_append _ _ (by decide), rfl⟩

/-- The same shape without a bound on the cursor. -/
theorem parse_string_loop_cases_ext (fuel : Nat) (out : List Nat) (last : Int) (p : JsonParser) :
    (∃ m k, m ≠ [] ∧ parse_string_loop (fuel + 1) out last p = ([], (p.adv k).fail m)) ∨
    (∃ o, parse_string_loop (fuel + 1) out last p = (o, p.adv 1)) ∨
    (∃ out' last' k, parse_string_loop (fuel + 1) out last p =
      parse_string_loop fuel out' last' (p.adv k)) := by
  by_cases h : p.i ≤ p.str.length
  · rcases parse_string_loop_cases fuel out last p h with h1 | ⟨_, h2⟩ | ⟨o, l, k, _, _, h3⟩
    · exact Or.inl h1
    · exact Or.inr (Or.inl h2)
    · exact Or.inr (Or.inr ⟨o, l, k, h3⟩)
  · have e : p.str.length - p.i = 0 := by omega
    have hc : p.cur = 0 := List.getD_eq_default _ _ (by omega)
    have hc1 : (p.adv 1).cur = 0 := List.getD_eq_default _ _ (by simp; omega)
    rw [parse_string_loop_succ]
    by_cases h1 : p.i = p.str.length
    · omega
    rw [if_neg h1, if_neg (by rw [hc]; decide)]
    rw [if_pos (by rw [hc]; decide)]
    exact Or.inl ⟨_, 1, bytes_ne_nil_append _ _ (bytes_ne_nil_append _ _ (by decide)), rfl⟩

theorem parse_string_loop_ext (fuel : Nat) (out : List Nat) (last : Int) (p : JsonParser) :
    Ext p (parse_string_loop fuel out last p).2 := by
  induction fuel generalizing out last p with
  | zero => exact Ext.refl p
  | succ n ih =>
    rcases parse_string_loop_cases_ext n out last p with ⟨m, k, hm, e⟩ | ⟨o, e⟩ | ⟨o, l, k, e⟩
    · rw [e]
      exact (Ext.adv p k).trans (Ext.fail _ _ hm)
    · rw [e]
      exact Ext.adv p 1
    · rw [e]
      exact (Ext.adv p k).trans (ih _ _ _)

theorem parse_string_ext (p : JsonParser) : Ext p (parse_string p).2 :=
  parse_string_loop_ext _ _ _ p

/-- A string that was read moved the cursor on, inside the text. -/
theorem parse_string_loop_i (fuel : Nat) (out : List Nat) (last : Int) (p : JsonParser)
    (h : p.i ≤ p.str.length) (h1 : 1 ≤ fuel)
    (hf : (parse_string_loop fuel out last p).2.failed = false) :
    p.i < (parse_string_loop fuel out last p).2.i ∧
      (parse_string_loop fuel out last p).2.i ≤ p.str.length := by
  induction fuel generalizing out last p with
  | zero => omega
  | succ n ih =>
    rcases parse_string_loop_cases n out last p h with ⟨m, k, hm, e⟩ | ⟨hlt, o, e⟩ |
      ⟨o, l, k, hk, hle, e⟩
    · rw [e] at hf
      simp at hf
    · rw [e]
      simp
      omega
    · rw [e] at hf ⊢
      cases n with
      | zero => simp only [parse_string_loop, adv_i]; omega
      | succ m =>
        have := ih o l (p.adv k) (by simp; omega) (by omega) hf
        simp only [adv_i, adv_str] at this
        omega

theorem parse_string_i (p : JsonParser) (h : p.i ≤ p.str.length)
    (hf : (parse_string p).2.failed = false) :
    p.i < (parse_string p).2.i ∧ (parse_string p).2.i ≤ p.str.length :=
  parse_string_loop_i _ _ _ p h (by omega) hf

theorem parse_string_loop_failed_value (fuel : Nat) (out : List Nat) (last : Int)
    (p : JsonParser) (hp : p.failed = false)
    (hf : (parse_string_loop fuel out last p).2.failed = true) :
    (parse_string_loop fuel out last p).1 = [] := by
  induction fuel generalizing out last p with
  | zero => rfl
  | succ n ih =>
    rcases parse_string_loop_cases_ext n out last p with ⟨m, k, hm, e⟩ | ⟨o, e⟩ | ⟨o, l, k, e⟩
    · rw [e]
    · rw [e] at hf
      simp [hp] at hf
    · rw [e] at hf ⊢
      exact ih _ _ _ hp hf

theorem parse_string_failed_value (p : JsonParser) (hp : p.failed = false)
    (hf : (parse_string p).2.failed = true) : (parse_string p).1 = [] :=
  parse_string_loop_failed_value _ _ _ p hp hf

/-! ## The rounds of the string loop, one kind of item each -/

theorem adv_cur (p : JsonParser) (n : Nat) : (p.adv n).cur = p.at (p.i + n) := rfl

theorem adv_adv (p : JsonParser) (m n : Nat) : (p.adv m).adv n = p.adv (m + n) := by
  simp [JsonParser.adv, Nat.add_assoc]

/-- The closing quote ends the loop. -/
theorem parse_string_loop_quote (fuel : Nat) (out : List Nat) (last : Int) (p : JsonParser)
    (h : p.cur = 34) :
    parse_string_loop (fuel + 1) out last p = (encode_utf8 last out, p.adv 1) := by
  have hlt := lt_length_of_cur_ne_zero p (by omega)
  rw [parse_string_loop_succ, if_neg (by omega), if_pos h]

/-- A byte that is neither a quote, a backslash nor a control byte is copied. -/
theorem parse_string_loop_plain (fuel : Nat) (out : List Nat) (last : Int) (p : JsonParser)
    (hlt : p.i < p.str.length) (h1 : p.cur ≠ 34) (h2 : p.cur ≠ 92)
    (h3 : in_range (toLong p.cur) 0 0x1f = false) :
    parse_string_loop (fuel + 1) out last p =
      parse_string_loop fuel (encode_utf8 last out ++ [p.cur]) (-1) (p.adv 1) := by
  rw [parse_string_loop_succ, if_neg (by omega), if_neg h1, if_neg (by simp [h3]), if_pos h2]

/-- A backslash and one of `b f n r t` give the control byte `x`. -/
theorem parse_string_loop_ctrl (fuel : Nat) (out : List Nat) (last : Int) (p : JsonParser)
    (c x : Nat) (h1 : p.cur = 92) (h2 : p.at (p.i + 1) = c)
    (hc : (c = 98 ∧ x = 8) ∨ (c = 102 ∧ x = 12) ∨ (c = 110 ∧ x = 10) ∨ (c = 114 ∧ x = 13) ∨
      (c = 116 ∧ x = 9)) :
    parse_string_loop (fuel + 1) out last p =
      parse_string_loop fuel (encode_utf8 last out ++ [x]) (-1) (p.adv 2) := by
  have hlt := lt_length_of_cur_ne_zero p (by omega)
  have hlt2 := lt_length_of_at_ne_zero p (p.i + 1) (by omega)
  have h2' : (p.adv 1).cur = c := h2
  rw [parse_string_loop_succ, if_neg (by omega), if_neg (by omega),
    if_neg (by rw [h1]; decide), if_neg (by simp [h1]),
    if_neg (by simp only [adv_i, adv_str]; omega), if_neg (by omega), adv_adv]
  rcases hc with ⟨hc, hx⟩ | ⟨hc, hx⟩ | ⟨hc, hx⟩ | ⟨hc, hx⟩ | ⟨hc, hx⟩
  · rw [if_pos (by omega), hx]
  · rw [if_neg (by omega), if_pos (by omega), hx]
  · rw [if_neg (by omega), if_neg (by omega), if_pos (by omega), hx]
  · rw [if_neg (by omega), if_neg (by omega), if_neg (by omega), if_pos (by omega), hx]
  · rw [if_neg (by omega), if_neg (by omega), if_neg (by omega), if_neg (by omega),
      if_pos (by omega), hx]

/-- A backslash and one of the quote, the backslash and the slash give that byte. -/
theorem parse_string_loop_self (fuel : Nat) (out : List Nat) (last : Int) (p : JsonParser)
    (c : Nat) (h1 : p.cur = 92) (h2 : p.at (p.i + 1) = c) (hc : c = 34 ∨ c = 92 ∨ c = 47) :
    parse_string_loop (fuel + 1) out last p =
      parse_string_loop fuel (encode_utf8 last out ++ [c]) (-1) (p.adv 2) := by
  have hlt := lt_length_of_cur_ne_zero p (by omega)
  have hlt2 := lt_length_of_at_ne_zero p (p.i + 1) (by omega)
  have h2' : (p.adv 1).cur = c := h2
  rw [parse_string_loop_succ, if_neg (by omega), if_neg (by omega),
    if_neg (by rw [h1]; decide), if_neg (by simp [h1]),
    if_neg (by simp only [adv_i, adv_str]; omega), if_neg (by omega), adv_adv,
    if_neg (by omega), if_neg (by omega), if_neg (by omega), if_neg (by omega),
    if_neg (by omega), if_pos (by omega), h2']

/-- A backslash, `u` and four hexadecimal digits: the code point is kept back,
or combined with the high surrogate kept back before it. -/
theorem parse_string_loop_u (fuel : Nat) (out : List Nat) (last : Int) (p : JsonParser)
    (esc : List Nat) (h1 : p.cur = 92) (h2 : p.at (p.i + 1) = 117)
    (h3 : (p.str.drop (p.i + 2)).take 4 = esc) (h4 : esc.length = 4)
    (h5 : esc.all is_hex = true) :
    parse_string_loop (fuel + 1) out last p =
      if in_range last 0xD800 0xDBFF ∧ in_range (strtol16 esc : Int) 0xDC00 0xDFFF then
        parse_string_loop fuel
          (encode_utf8 ((((((last - 0xD800).toNat <<< 10) |||
            ((strtol16 esc : Int) - 0xDC00).toNat) : Nat) : Int) + 0x10000) out) (-1) (p.adv 6)
      else parse_string_loop fuel (encode_utf8 last out) (strtol16 esc : Int) (p.adv 6) := by
  have hlt := lt_length_of_cur_ne_zero p (by omega)
  have hlt2 := lt_length_of_at_ne_zero p (p.i + 1) (by omega)
  have h2' : (p.adv 1).cur = 117 := h2
  have h3' : (((p.adv 1).adv 1).str.drop ((p.adv 1).adv 1).i).take 4 = esc := h3
  rw [parse_string_loop_succ, if_neg (by omega), if_neg (by omega),
    if_neg (by rw [h1]; decide), if_neg (by simp [h1]),
    if_neg (by simp only [adv_i, adv_str]; omega), if_pos h2', h3',
    if_neg (by omega), if_neg (by simp [h5])]
  rfl

/-! ## Values -/

/-- One round of the array loop, with the local bindings unfolded. -/
theorem parse_array_loop_succ (value : JsonParser → Option (Json × JsonParser)) (fuel : Nat)
    (data : List Json) (p : JsonParser) :
    parse_array_loop value (fuel + 1) data p =
      match value p.back with
      | none => none
      | some v =>
        if v.2.failed then some (Json.null, v.2)
        else if (get_next_token v.2).1 = 93 then
          some (Json.array (data ++ [v.1]), (get_next_token v.2).2)
        else if (get_next_token v.2).1 ≠ 44 then
          some (Json.null, (get_next_token v.2).2.fail
            (bytes "expected ',' in list, got " ++ esc (get_next_token v.2).1))
        else
          parse_array_loop value fuel (data ++ [v.1])
            (get_next_token (get_next_token v.2).2).2 := rfl

/-- One round of the object loop, with the local bindings unfolded. -/
theorem parse_object_loop_succ (value : JsonParser → Option (Json × JsonParser)) (fuel : Nat)
    (data : List (List Nat × Json)) (ch : Nat) (p : JsonParser) :
    parse_object_loop value (fuel + 1) data ch p =
      if ch ≠ 34 then
        some (Json.null, p.fail (bytes "expected '\"' in object, got " ++ esc ch))
      else if (parse_string p).2.failed then some (Json.null, (parse_string p).2)
      else if (get_next_token (parse_string p).2).1 ≠ 58 then
        some (Json.null, (get_next_token (parse_string p).2).2.fail
          (bytes "expected ':' in object, got " ++ esc (get_next_token (parse_string p).2).1))
      else
        match value (get_next_token (parse_string p).2).2 with
        | none => none
        | some v =>
          if v.2.failed then some (Json.null, v.2)
          else if (get_next_token v.2).1 = 125 then
            some (Json.object (map_assign (parse_string p).1 v.1 data), (get_next_token v.2).2)
          else if (get_next_token v.2).1 ≠ 44 then
            some (Json.null, (get_next_token v.2).2.fail
              (bytes "expected ',' in object, got " ++ esc (get_next_token v.2).1))
          else
            parse_object_loop value fuel (map_assign (parse_string p).1 v.1 data)
              (get_next_token (get_next_token v.2).2).1
              (get_next_token (get_next_token v.2).2).2 := rfl

/-- One call of `parse_json`, with the local bindings unfolded. -/
theorem parse_json_succ (L : Libc) (fuel depth : Nat) (p : JsonParser) :
    parse_json L (fuel + 1) depth p =
      if depth > max_depth then
        some (Json.null, p.fail (bytes "exceeded maximum nesting depth"))
      else if (get_next_token p).2.failed then some (Json.null, (get_next_token p).2)
      else if (get_next_token p).1 = 45 ∨
          ((get_next_token p).1 ≥ 48 ∧ (get_next_token p).1 ≤ 57) then
        some (parse_number L (get_next_token p).2.back)
      else if (get_next_token p).1 = 110 then
        some (expect (bytes "null") Json.null (get_next_token p).2)
      else if (get_next_token p).1 = 116 then
        some (expect (bytes "true") (Json.bool true) (get_next_token p).2)
      else if (get_next_token p).1 = 102 then
        some (expect (bytes "false") (Json.bool false) (get_next_token p).2)
      else if (get_next_token p).1 = 34 then
        some (Json.string (parse_string (get_next_token p).2).1,
          (parse_string (get_next_token p).2).2)
      else if (get_next_token p).1 = 123 then
        if (get_next_token (get_next_token p).2).1 = 125 then
          some (Json.object [], (get_next_token (get_next_token p).2).2)
        else
          parse_object_loop (parse_json L fuel (depth + 1)) fuel []
            (get_next_token (get_next_token p).2).1 (get_next_token (get_next_token p).2).2
      else if (get_next_token p).1 = 91 then
        if (get_next_token (get_next_token p).2).1 = 93 then
          some (Json.array [], (get_next_token (get_next_token p).2).2)
        else
          parse_array_loop (parse_json L fuel (depth + 1)) fuel []
            (get_next_token (get_next_token p).2).2
      else
        some (Json.null,
          (get_next_token p).2.fail (bytes "expected value, got " ++ esc (get_next_token p).1)) :=
  rfl

theorem parse_array_loop_ext (value : JsonParser → Option (Json × JsonParser))
    (hv : ValueExt value) (fuel : Nat) (data : List Json) (p : JsonParser)
    (r : Json × JsonParser) (h : parse_array_loop value fuel data p = some r) : Ext p r.2 := by
  induction fuel generalizing data p with
  | zero => simp [parse_array_loop] at h
  | succ n ih =>
    rw [parse_array_loop_succ] at h
    cases hval : value p.back with
    | none => simp [hval] at h
    | some v =>
      simp only [hval] at h
      have e1 : Ext p v.2 := (Ext.back p).trans (hv _ _ hval)
      by_cases h1 : v.2.failed = true
      · rw [if_pos h1] at h
        cases h
        exact e1
      rw [if_neg h1] at h
      have e2 := e1.trans (get_next_token_ext v.2)
      by_cases h2 : (get_next_token v.2).1 = 93
      · rw [if_pos h2] at h
        cases h
        exact e2
      rw [if_neg h2] at h
      by_cases h3 : (get_next_token v.2).1 ≠ 44
      · rw [if_pos h3] at h
        cases h
        exact e2.trans (Ext.fail2 _ _ _ (by decide))
      rw [if_neg h3] at h
      exact (e2.trans (get_next_token_ext _)).trans (ih _ _ h)

theorem parse_object_loop_ext (value : JsonParser → Option (Json × JsonParser))
    (hv : ValueExt value) (fuel : Nat) (data : List (List Nat × Json)) (ch : Nat)
    (p : JsonParser) (r : Json × JsonParser)
    (h : parse_object_loop value fuel data ch p = some r) : Ext p r.2 := by
  induction fuel generalizing data ch p with
  | zero => simp [parse_object_loop] at h
  | succ n ih =>
    rw [parse_object_loop_succ] at h
    by_cases h0 : ch ≠ 34
    · rw [if_pos h0] at h
      cases h
      exact Ext.fail2 _ _ _ (by decide)
    rw [if_neg h0] at h
    have e0 := parse_string_ext p
    by_cases h1 : (parse_string p).2.failed = true
    · rw [if_pos h1] at h
      cases h
      exact e0
    rw [if_neg h1] at h
    have e1 := e0.trans (get_next_token_ext _)
    by_cases h2 : (get_next_token (parse_string p).2).1 ≠ 58
    · rw [if_pos h2] at h
      cases h
      exact e1.trans (Ext.fail2 _ _ _ (by decide))
    rw [if_neg h2] at h
    cases hval : value (get_next_token (parse_string p).2).2 with
    | none => simp [hval] at h
    | some v =>
      simp only [hval] at h
      have e2 : Ext p v.2 := e1.trans (hv _ _ hval)
      by_cases h3 : v.2.failed = true
      · rw [if_pos h3] at h
        cases h
        exact e2
      rw [if_neg h3] at h
      have e3 := e2.trans (get_next_token_ext v.2)
      by_cases h4 : (get_next_token v.2).1 = 125
      · rw [if_pos h4] at h
        cases h
        exact e3
      rw [if_neg h4] at h
      by_cases h5 : (get_next_token v.2).1 ≠ 44
      · rw [if_pos h5] at h
        cases h
        exact e3.trans (Ext.fail2 _ _ _ (by decide))
      rw [if_neg h5] at h
      exact (e3.trans (get_next_token_ext _)).trans (ih _ _ _ h)

theorem parse_json_ext (L : Libc) (fuel depth : Nat) : ValueExt (parse_json L fuel depth) := by
  induction fuel generalizing depth with
  | zero =>
    intro p r h
    simp [parse_json] at h
  | succ n ih =>
    intro p r h
    rw [parse_json_succ] at h
    by_cases h0 : depth > max_depth
    · rw [if_pos h0] at h
      cases h
      exact Ext.fail _ _ (by decide)
    rw [if_neg h0] at h
    have e0 := get_next_token_ext p
    by_cases h1 : (get_next_token p).2.failed = true
    · rw [if_pos h1] at h
      cases h
      exact e0
    rw [if_neg h1] at h
    by_cases h2 : (get_next_token p).1 = 45 ∨
        ((get_next_token p).1 ≥ 48 ∧ (get_next_token p).1 ≤ 57)
    · rw [if_pos h2] at h
      cases h
      exact (e0.trans (Ext.back _)).trans (parse_number_ext _ _)
    rw [if_neg h2] at h
    by_cases h3 : (get_next_token p).1 = 110
    · rw [if_pos h3] at h
      cases h
      exact e0.trans (expect_ext _ _ _)
    rw [if_neg h3] at h
    by_cases h4 : (get_next_token p).1 = 116
    · rw [if_pos h4] at h
      cases h
      exact e0.trans (expect_ext _ _ _)
    rw [if_neg h4] at h
    by_cases h5 : (get_next_token p).1 = 102
    · rw [if_pos h5] at h
      cases h
      exact e0.trans (expect_ext _ _ _)
    rw [if_neg h5] at h
    by_cases h6 : (get_next_token p).1 = 34
    · rw [if_pos h6] at h
      cases h
      exact e0.trans (parse_string_ext _)
    rw [if_neg h6] at h
    have e1 := e0.trans (get_next_token_ext _)
    by_cases h7 : (get_next_token p).1 = 123
    · rw [if_pos h7] at h
      by_cases h8 : (get_next_token (get_next_token p).2).1 = 125
      · rw [if_pos h8] at h
        cases h
        exact e1
      rw [if_neg h8] at h
      exact e1.trans (parse_object_loop_ext _ (ih _) _ _ _ _ _ h)
    rw [if_neg h7] at h
    by_cases h9 : (get_next_token p).1 = 91
    · rw [if_pos h9] at h
      by_cases h8 : (get_next_token (get_next_token p).2).1 = 93
      · rw [if_pos h8] at h
        cases h
        exact e1
      rw [if_neg h8] at h
      exact e1.trans (parse_array_loop_ext _ (ih _) _ _ _ _ h)
    rw [if_neg h9] at h
    cases h
    exact e0.trans (Ext.fail2 _ _ _ (by decide))

theorem Ext.length {p q : JsonParser} (h : Ext p q) : q.str.length = p.str.length := by
  rw [h.str]

theorem parse_array_loop_adv (value : JsonParser → Option (Json × JsonParser))
    (hv : ValueExt value) (ha : ValueAdv value) (fuel : Nat) (data : List Json)
    (p : JsonParser) (r : Json × JsonParser)
    (h : parse_array_loop value fuel data p = some r) (hf : r.2.failed = false)
    (h1 : 1 ≤ p.i) (hle : p.i ≤ p.str.length) :
    p.i ≤ r.2.i ∧ r.2.i ≤ p.str.length := by
  induction fuel generalizing data p with
  | zero => simp [parse_array_loop] at h
  | succ n ih =>
    rw [parse_array_loop_succ] at h
    cases hval : value p.back with
    | none => simp [hval] at h
    | some v =>
      simp only [hval] at h
      have e1 := hv _ _ hval
      by_cases hf1 : v.2.failed = true
      · rw [if_pos hf1] at h
        cases h
        simp [hf1] at hf
      rw [if_neg hf1] at h
      simp only [Bool.not_eq_true] at hf1
      have a1 := ha _ _ hval hf1 (by simp; omega)
      simp only [back_i, back_str] at a1
      have l1 : v.2.str.length = p.str.length := e1.length
      have e2 := get_next_token_ext v.2
      have l2 := e2.length
      by_cases h2 : (get_next_token v.2).1 = 93
      · rw [if_pos h2] at h
        cases h
        have := get_next_token_i v.2 (by omega) hf
        simp only at this ⊢
        omega
      rw [if_neg h2] at h
      by_cases h3 : (get_next_token v.2).1 ≠ 44
      · rw [if_pos h3] at h
        cases h
        simp at hf
      rw [if_neg h3] at h
      have e3 := get_next_token_ext (get_next_token v.2).2
      have e4 := parse_array_loop_ext value hv _ _ _ _ h
      have f3 := e4.not_failed hf
      have f2 := e3.not_failed f3
      have l3 := e3.length
      have a2 := get_next_token_i v.2 (by omega) f2
      have a3 := get_next_token_i (get_next_token v.2).2 (by omega) f3
      have := ih _ _ h (by omega) (by omega)
      omega

theorem parse_object_loop_adv (value : JsonParser → Option (Json × JsonParser))
    (hv : ValueExt value) (ha : ValueAdv value) (fuel : Nat)
    (data : List (List Nat × Json)) (ch : Nat) (p : JsonParser) (r : Json × JsonParser)
    (h : parse_object_loop value fuel data ch p = some r) (hf : r.2.failed = false)
    (hle : p.i ≤ p.str.length) :
    p.i ≤ r.2.i ∧ r.2.i ≤ p.str.length := by
  induction fuel generalizing data ch p with
  | zero => simp [parse_object_loop] at h
  | succ n ih =>
    rw [parse_object_loop_succ] at h
    by_cases h0 : ch ≠ 34
    · rw [if_pos h0] at h
      cases h
      simp at hf
    rw [if_neg h0] at h
    have e0 := parse_string_ext p
    by_cases hf0 : (parse_string p).2.failed = true
    · rw [if_pos hf0] at h
      cases h
      simp [hf0] at hf
    rw [if_neg hf0] at h
    simp only [Bool.not_eq_true] at hf0
    have a0 := parse_string_i p hle hf0
    have e1 := get_next_token_ext (parse_string p).2
    by_cases h2 : (get_next_token (parse_string p).2).1 ≠ 58
    · rw [if_pos h2] at h
      cases h
      simp at hf
    rw [if_neg h2] at h
    cases hval : value (get_next_token (parse_string p).2).2 with
    | none => simp [hval] at h
    | some v =>
      simp only [hval] at h
      have e2 := hv _ _ hval
      by_cases hf1 : v.2.failed = true
      · rw [if_pos hf1] at h
        cases h
        simp [hf1] at hf
      rw [if_neg hf1] at h
      simp only [Bool.not_eq_true] at hf1
      have f1 := e2.not_failed hf1
      have l0 := e0.length
      have l1 := e1.length
      have l2 := e2.length
      have a1 := get_next_token_i (parse_string p).2 (by omega) f1
      have a2 := ha _ _ hval hf1 (by omega)
      have e3 := get_next_token_ext v.2
      have l3 := e3.length
      by_cases h4 : (get_next_token v.2).1 = 125
      · rw [if_pos h4] at h
        cases h
        have := get_next_token_i v.2 (by omega) hf
        simp only
        omega
      rw [if_neg h4] at h
      by_cases h5 : (get_next_token v.2).1 ≠ 44
      · rw [if_pos h5] at h
        cases h
        simp at hf
      rw [if_neg h5] at h
      have e4 := get_next_token_ext (get_next_token v.2).2
      have e5 := parse_object_loop_ext value hv _ _ _ _ _ h
      have f4 := e5.not_failed hf
      have f3 := e4.not_failed f4
      have l4 := e4.length
      have a3 := get_next_token_i v.2 (by omega) f3
      have a4 := get_next_token_i (get_next_token v.2).2 (by omega) f4
      have := ih _ _ _ h (by omega)
      omega

theorem parse_json_adv (L : Libc) (fuel depth : Nat) : ValueAdv (parse_json L fuel depth) := by
  induction fuel generalizing depth with
  | zero =>
    intro p r h
    simp [parse_json] at h
  | succ n ih =>
    intro p r h hf hle
    rw [parse_json_succ] at h
    by_cases h0 : depth > max_depth
    · rw [if_pos h0] at h
      cases h
      simp at hf
    rw [if_neg h0] at h
    have e0 := get_next_token_ext p
    by_cases hf0 : (get_next_token p).2.failed = true
    · rw [if_pos hf0] at h
      cases h
      simp [hf0] at hf
    rw [if_neg hf0] at h
    simp only [Bool.not_eq_true] at hf0
    have a0 := get_next_token_i p hle hf0
    have l0 := e0.length
    have e1 := get_next_token_ext (get_next_token p).2
    have l1 := e1.length
    by_cases h2 : (get_next_token p).1 = 45 ∨
        ((get_next_token p).1 ≥ 48 ∧ (get_next_token p).1 ≤ 57)
    · rw [if_pos h2] at h
      cases h
      have := parse_number_i L (get_next_token p).2.back (by simp; omega) hf
      simp only [back_i, back_str] at this
      omega
    rw [if_neg h2] at h
    by_cases h3 : (get_next_token p).1 = 110
    · rw [if_pos h3] at h
      cases h
      have := expect_i _ _ _ (by decide) (by omega) hf
      omega
    rw [if_neg h3] at h
    by_cases h4 : (get_next_token p).1 = 116
    · rw [if_pos h4] at h
      cases h
      have := expect_i _ _ _ (by decide) (by omega) hf
      omega
    rw [if_neg h4] at h
    by_cases h5 : (get_next_token p).1 = 102
    · rw [if_pos h5] at h
      cases h
      have := expect_i _ _ _ (by decide) (by omega) hf
      omega
    rw [if_neg h5] at h
    by_cases h6 : (get_next_token p).1 = 34
    · rw [if_pos h6] at h
      cases h
      have := parse_string_i (get_next_token p).2 (by omega) hf
      simp only
      omega
    rw [if_neg h6] at h
    by_cases h7 : (get_next_token p).1 = 123
    · rw [if_pos h7] at h
      by_cases h8 : (get_next_token (get_next_token p).2).1 = 125
      · rw [if_pos h8] at h
        cases h
        have := get_next_token_i (get_next_token p).2 (by omega) hf
        simp only
        omega
      rw [if_neg h8] at h
      have e2 := parse_object_loop_ext _ (parse_json_ext L n (depth + 1)) _ _ _ _ _ h
      have f1 := e2.not_failed hf
      have a1 := get_next_token_i (get_next_token p).2 (by omega) f1
      have := parse_object_loop_adv _ (parse_json_ext L n (depth + 1)) (ih _) _ _ _ _ _ h hf
        (by omega)
      omega
    rw [if_neg h7] at h
    by_cases h9 : (get_next_token p).1 = 91
    · rw [if_pos h9] at h
      by_cases h8 : (get_next_token (get_next_token p).2).1 = 93
      · rw [if_pos h8] at h
        cases h
        have := get_next_token_i (get_next_token p).2 (by omega) hf
        simp only
        omega
      rw [if_neg h8] at h
      have e2 := parse_array_loop_ext _ (parse_json_ext L n (depth + 1)) _ _ _ _ h
      have f1 := e2.not_failed hf
      have a1 := get_next_token_i (get_next_token p).2 (by omega) f1
      have := parse_array_loop_adv _ (parse_json_ext L n (depth + 1)) (ih _) _ _ _ _ h hf
        (by omega) (by omega)
      omega
    rw [if_neg h9] at h
    cases h
    simp at hf

/-! ## The fuel is enough -/

theorem parse_array_loop_some (value : JsonParser → Option (Json × JsonParser))
    (hv : ValueExt value) (ha : ValueAdv value) (s : List Nat) (lo : Nat)
    (ht : ValueTotal value s lo) (fuel : Nat) (data : List Json) (p : JsonParser)
    (hs : p.str = s)
    (h : (p.failed = true ∧ 1 ≤ fuel) ∨
      (lo + 1 ≤ p.i ∧ p.i ≤ s.length ∧ s.length - p.i + 1 ≤ fuel)) :
    ∃ r, parse_array_loop value fuel data p = some r := by
  induction fuel generalizing data p with
  | zero => omega
  | succ n ih =>
    rw [parse_array_loop_succ]
    have hq : p.back.failed = true ∨ (lo ≤ p.back.i ∧ p.back.i ≤ s.length) := by
      rcases h with h | h
      · exact Or.inl h.1
      · exact Or.inr (by simp; omega)
    obtain ⟨v, hval⟩ := ht p.back hs hq
    simp only [hval]
    have e1 := hv _ _ hval
    by_cases hf1 : v.2.failed = true
    · rw [if_pos hf1]
      exact ⟨_, rfl⟩
    rw [if_neg hf1]
    simp only [Bool.not_eq_true] at hf1
    by_cases h2 : (get_next_token v.2).1 = 93
    · rw [if_pos h2]
      exact ⟨_, rfl⟩
    rw [if_neg h2]
    by_cases h3 : (get_next_token v.2).1 ≠ 44
    · rw [if_pos h3]
      exact ⟨_, rfl⟩
    rw [if_neg h3]
    have hp : p.failed = false := by
      have := e1.not_failed hf1
      simpa using this
    have h' : lo + 1 ≤ p.i ∧ p.i ≤ s.length ∧ s.length - p.i + 1 ≤ n + 1 := by
      rcases h with h | h
      · simp [hp] at h
      · exact h
    have f2 : (get_next_token v.2).2.failed = false := by
      cases hc : (get_next_token v.2).2.failed
      · rfl
      · have := get_next_token_fst_of_failed v.2 hc
        omega
    have l1 : v.2.str.length = s.length := by rw [e1.length, back_str, hs]
    have a1 := ha _ _ hval hf1 (by simp [hs]; omega)
    simp only [back_i, back_str, hs] at a1
    have e2 := get_next_token_ext v.2
    have l2 := e2.length
    have a2 := get_next_token_i v.2 (by omega) f2
    have e3 := get_next_token_ext (get_next_token v.2).2
    have l3 := e3.length
    apply ih
    · rw [e3.str, e2.str, e1.str, back_str, hs]
    · cases hc : (get_next_token (get_next_token v.2).2).2.failed
      · right
        have a3 := get_next_token_i (get_next_token v.2).2 (by omega) hc
        omega
      · left
        exact ⟨rfl, by omega⟩

theorem parse_object_loop_some (value : JsonParser → Option (Json × JsonParser))
    (hv : ValueExt value) (ha : ValueAdv value) (s : List Nat) (lo : Nat)
    (ht : ValueTotal value s lo) (fuel : Nat) (data : List (List Nat × Json)) (ch : Nat)
    (p : JsonParser) (hs : p.str = s)
    (h : (p.failed = true ∧ 1 ≤ fuel) ∨
      (lo ≤ p.i ∧ p.i ≤ s.length ∧ s.length - p.i + 1 ≤ fuel)) :
    ∃ r, parse_object_loop value fuel data ch p = some r := by
  induction fuel generalizing data ch p with
  | zero => omega
  | succ n ih =>
    rw [parse_object_loop_succ]
    by_cases h0 : ch ≠ 34
    · rw [if_pos h0]
      exact ⟨_, rfl⟩
    rw [if_neg h0]
    have e0 := parse_string_ext p
    by_cases hf0 : (parse_string p).2.failed = true
    · rw [if_pos hf0]
      exact ⟨_, rfl⟩
    rw [if_neg hf0]
    simp only [Bool.not_eq_true] at hf0
    by_cases h2 : (get_next_token (parse_string p).2).1 ≠ 58
    · rw [if_pos h2]
      exact ⟨_, rfl⟩
    rw [if_neg h2]
    have hp : p.failed = false := e0.not_failed hf0
    have h' : lo ≤ p.i ∧ p.i ≤ s.length ∧ s.length - p.i + 1 ≤ n + 1 := by
      rcases h with h | h
      · simp [hp] at h
      · exact h
    have l0 : (parse_string p).2.str.length = s.length := by rw [e0.length, hs]
    have a0 := parse_string_i p (by rw [hs]; omega) hf0
    rw [hs] at a0
    have e1 := get_next_token_ext (parse_string p).2
    have l1 := e1.length
    have f1 : (get_next_token (parse_string p).2).2.failed = false := by
      cases hc : (get_next_token (parse_string p).2).2.failed
      · rfl
      · have := get_next_token_fst_of_failed _ hc
        omega
    have a1 := get_next_token_i (parse_string p).2 (by omega) f1
    obtain ⟨v, hval⟩ := ht (get_next_token (parse_string p).2).2
      (by rw [e1.str, e0.str, hs]) (Or.inr (by omega))
    simp only [hval]
    have e2 := hv _ _ hval
    have l2 := e2.length
    by_cases hf1 : v.2.failed = true
    · rw [if_pos hf1]
      exact ⟨_, rfl⟩
    rw [if_neg hf1]
    simp only [Bool.not_eq_true] at hf1
    by_cases h4 : (get_next_token v.2).1 = 125
    · rw [if_pos h4]
      exact ⟨_, rfl⟩
    rw [if_neg h4]
    by_cases h5 : (get_next_token v.2).1 ≠ 44
    · rw [if_pos h5]
      exact ⟨_, rfl⟩
    rw [if_neg h5]
    have a2 := ha _ _ hval hf1 (by omega)
    have e3 := get_next_token_ext v.2
    have l3 := e3.length
    have f3 : (get_next_token v.2).2.failed = false := by
      cases hc : (get_next_token v.2).2.failed
      · rfl
      · have := get_next_token_fst_of_failed v.2 hc
        omega
    have a3 := get_next_token_i v.2 (by omega) f3
    have e4 := get_next_token_ext (get_next_token v.2).2
    have l4 := e4.length
    apply ih
    · rw [e4.str, e3.str, e2.str, e1.str, e0.str, hs]
    · cases hc : (get_next_token (get_next_token v.2).2).2.failed
      · right
        have a4 := get_next_token_i (get_next_token v.2).2 (by omega) hc
        omega
      · left
        exact ⟨rfl, by omega⟩

/-- The call `parse_json` returns when the fuel exceeds the number of bytes left by one. -/
theorem parse_json_some (L : Libc) (fuel depth : Nat) (p : JsonParser)
    (h : (p.failed = true ∧ 1 ≤ fuel) ∨
      (p.i ≤ p.str.length ∧ p.str.length - p.i + 2 ≤ fuel)) :
    ∃ r, parse_json L fuel depth p = some r := by
  induction fuel generalizing depth p with
  | zero => omega
  | succ n ih =>
    rw [parse_json_succ]
    by_cases h0 : depth > max_depth
    · rw [if_pos h0]
      exact ⟨_, rfl⟩
    rw [if_neg h0]
    have e0 := get_next_token_ext p
    by_cases hf0 : (get_next_token p).2.failed = true
    · rw [if_pos hf0]
      exact ⟨_, rfl⟩
    rw [if_neg hf0]
    simp only [Bool.not_eq_true] at hf0
    by_cases h2 : (get_next_token p).1 = 45 ∨
        ((get_next_token p).1 ≥ 48 ∧ (get_next_token p).1 ≤ 57)
    · rw [if_pos h2]
      exact ⟨_, rfl⟩
    rw [if_neg h2]
    by_cases h3 : (get_next_token p).1 = 110
    · rw [if_pos h3]
      exact ⟨_, rfl⟩
    rw [if_neg h3]
    by_cases h4 : (get_next_token p).1 = 116
    · rw [if_pos h4]
      exact ⟨_, rfl⟩
    rw [if_neg h4]
    by_cases h5 : (get_next_token p).1 = 102
    · rw [if_pos h5]
      exact ⟨_, rfl⟩
    rw [if_neg h5]
    by_cases h6 : (get_next_token p).1 = 34
    · rw [if_pos h6]
      exact ⟨_, rfl⟩
    rw [if_neg h6]
    have hp : p.failed = false := e0.not_failed hf0
    have h' : p.i ≤ p.str.length ∧ p.str.length - p.i + 2 ≤ n + 1 := by
      rcases h with h | h
      · simp [hp] at h
      · exact h
    have a0 := get_next_token_i p h'.1 hf0
    have l0 := e0.length
    have e1 := get_next_token_ext (get_next_token p).2
    have l1 := e1.length
    have ht : ValueTotal (parse_json L n (depth + 1)) p.str (p.i + 1) := by
      intro q hq hc
      apply ih
      rcases hc with hc | hc
      · exact Or.inl ⟨hc, by omega⟩
      · right
        rw [hq]
        omega
    have hloop : ((get_next_token (get_next_token p).2).2.failed = true ∧ 1 ≤ n) ∨
        (p.i + 1 + 1 ≤ (get_next_token (get_next_token p).2).2.i ∧
          (get_next_token (get_next_token p).2).2.i ≤ p.str.length ∧
          p.str.length - (get_next_token (get_next_token p).2).2.i + 1 ≤ n) := by
      cases hc : (get_next_token (get_next_token p).2).2.failed
      · right
        have a1 := get_next_token_i (get_next_token p).2 (by omega) hc
        omega
      · left
        exact ⟨rfl, by omega⟩
    by_cases h7 : (get_next_token p).1 = 123
    · rw [if_pos h7]
      by_cases h8 : (get_next_token (get_next_token p).2).1 = 125
      · rw [if_pos h8]
        exact ⟨_, rfl⟩
      rw [if_neg h8]
      apply parse_object_loop_some _ (parse_json_ext L n _) (parse_json_adv L n _) p.str
        (p.i + 1) ht
      · rw [e1.str, e0.str]
      · rcases hloop with hl | hl
        · exact Or.inl hl
        · exact Or.inr (by omega)
    rw [if_neg h7]
    by_cases h9 : (get_next_token p).1 = 91
    · rw [if_pos h9]
      by_cases h8 : (get_next_token (get_next_token p).2).1 = 93
      · rw [if_pos h8]
        exact ⟨_, rfl⟩
      rw [if_neg h8]
      apply parse_array_loop_some _ (parse_json_ext L n _) (parse_json_adv L n _) p.str
        (p.i + 1) ht
      · rw [e1.str, e0.str]
      · exact hloop
    rw [if_neg h9]
    exact ⟨_, rfl⟩

/-- The fuel `Json::parse` and `Json::parse_multi` give is enough at every cursor. -/
theorem parse_json_fuel_some (L : Libc) (depth : Nat) (p : JsonParser)
    (h : p.i ≤ p.str.length) :
    ∃ r, parse_json L (parse_json_fuel p.str) depth p = some r :=
  parse_json_some L _ depth p (Or.inr ⟨h, by simp only [parse_json_fuel]; omega⟩)

/-! ## The entry points return -/

theorem Json.parse_state_some (L : Libc) (inp err : List Nat) (strategy : JsonParse) :
    ∃ r, Json.parse_state L inp err strategy = some r := by
  obtain ⟨r, hr⟩ := parse_json_fuel_some L 0 ⟨inp, 0, err, false, strategy⟩ (Nat.zero_le _)
  simp only [Json.parse_state]
  simp only at hr
  rw [hr]
  simp only
  split
  · exact ⟨_, rfl⟩
  · split <;> exact ⟨_, rfl⟩

/-- What `Json::parse` returns, by the state of the parser after the trailing garbage. -/
theorem Json.parse_state_eq (L : Libc) (inp err : List Nat) (strategy : JsonParse)
    (r : Json × JsonParser)
    (hr : parse_json L (parse_json_fuel inp) 0 ⟨inp, 0, err, false, strategy⟩ = some r) :
    Json.parse_state L inp err strategy =
      if (consume_garbage r.2).failed then some (Json.null, consume_garbage r.2)
      else if (consume_garbage r.2).i ≠ inp.length then
        some (Json.null, (consume_garbage r.2).fail
          (bytes "unexpected trailing " ++ esc ((consume_garbage r.2).at (consume_garbage r.2).i)))
      else some (r.1, consume_garbage r.2) := by
  simp only [Json.parse_state, hr]

/-- The state `Json::parse` ends in was reached from its initial state. -/
theorem Json.parse_state_ext (L : Libc) (inp err : List Nat) (strategy : JsonParse)
    (v : Json) (p : JsonParser) (h : Json.parse_state L inp err strategy = some (v, p)) :
    Ext ⟨inp, 0, err, false, strategy⟩ p := by
  obtain ⟨r, hr⟩ := parse_json_fuel_some L 0 ⟨inp, 0, err, false, strategy⟩ (Nat.zero_le _)
  simp only at hr
  rw [Json.parse_state_eq L inp err strategy r hr] at h
  have e := (parse_json_ext L _ _ _ _ hr).trans (consume_garbage_ext r.2)
  by_cases h1 : (consume_garbage r.2).failed = true
  · rw [if_pos h1] at h
    cases h
    exact e
  rw [if_neg h1] at h
  by_cases h2 : (consume_garbage r.2).i ≠ inp.length
  · rw [if_pos h2] at h
    cases h
    exact e.trans (Ext.fail2 _ _ _ (by decide))
  rw [if_neg h2] at h
  cases h
  exact e

/-- A failed `Json::parse` returns Null. -/
theorem Json.parse_state_failed (L : Libc) (inp err : List Nat) (strategy : JsonParse)
    (v : Json) (p : JsonParser) (h : Json.parse_state L inp err strategy = some (v, p))
    (hf : p.failed = true) : v = Json.null := by
  obtain ⟨r, hr⟩ := parse_json_fuel_some L 0 ⟨inp, 0, err, false, strategy⟩ (Nat.zero_le _)
  simp only at hr
  rw [Json.parse_state_eq L inp err strategy r hr] at h
  by_cases h1 : (consume_garbage r.2).failed = true
  · rw [if_pos h1] at h
    cases h
    rfl
  rw [if_neg h1] at h
  by_cases h2 : (consume_garbage r.2).i ≠ inp.length
  · rw [if_pos h2] at h
    cases h
    rfl
  rw [if_neg h2] at h
  cases h
  exact absurd hf h1

/-! ## Claims -/

/-- C3: `Json::parse` returns on every input and dialect; whenever the parser has
failed at the return, the value returned is Null and the message in `err` is not
empty; a value other than Null is only returned with `err` as the caller passed it. -/
theorem parse_failure_contract (L : Libc) (inp err : List Nat) (strategy : JsonParse) :
    ∃ v p, Json.parse_state L inp err strategy = some (v, p) ∧
      Json.parse L inp err strategy = some (v, p.err) ∧
      (p.failed = true → v = Json.null ∧ p.err ≠ []) ∧
      (p.failed = false → p.err = err) ∧
      (v ≠ Json.null → p.failed = false ∧ p.err = err) := by
  obtain ⟨⟨v, p⟩, h⟩ := Json.parse_state_some L inp err strategy
  have e := Json.parse_state_ext L inp err strategy v p h
  refine ⟨v, p, h, by simp [Json.parse, h], ?_, ?_, ?_⟩
  · intro hf
    exact ⟨Json.parse_state_failed L inp err strategy v p h hf, e.msg rfl hf⟩
  · intro hf
    exact e.keep hf
  · intro hv
    cases hf : p.failed
    · exact ⟨rfl, e.keep hf⟩
    · exact absurd (Json.parse_state_failed L inp err strategy v p h hf) hv

/-! ## The value returned with a failure -/

theorem get_next_token_not_failed_of_ne (p : JsonParser) (h : (get_next_token p).1 ≠ 0) :
    (get_next_token p).2.failed = false := by
  cases hc : (get_next_token p).2.failed
  · rfl
  · exact absurd (get_next_token_fst_of_failed p hc) h

theorem parse_array_loop_failed_value (value : JsonParser → Option (Json × JsonParser))
    (fuel : Nat) (data : List Json) (p : JsonParser) (r : Json × JsonParser)
    (h : parse_array_loop value fuel data p = some r) (hf : r.2.failed = true) :
    r.1 = Json.null := by
  induction fuel generalizing data p with
  | zero => simp [parse_array_loop] at h
  | succ n ih =>
    rw [parse_array_loop_succ] at h
    cases hval : value p.back with
    | none => simp [hval] at h
    | some v =>
      simp only [hval] at h
      by_cases h1 : v.2.failed = true
      · rw [if_pos h1] at h
        cases h
        rfl
      rw [if_neg h1] at h
      by_cases h2 : (get_next_token v.2).1 = 93
      · rw [if_pos h2] at h
        cases h
        have := get_next_token_not_failed_of_ne v.2 (by omega)
        simp [this] at hf
      rw [if_neg h2] at h
      by_cases h3 : (get_next_token v.2).1 ≠ 44
      · rw [if_pos h3] at h
        cases h
        rfl
      rw [if_neg h3] at h
      exact ih _ _ h

theorem parse_object_loop_failed_value (value : JsonParser → Option (Json × JsonParser))
    (fuel : Nat) (data : List (List Nat × Json)) (ch : Nat) (p : JsonParser)
    (r : Json × JsonParser) (h : parse_object_loop value fuel data ch p = some r)
    (hf : r.2.failed = true) : r.1 = Json.null := by
  induction fuel generalizing data ch p with
  | zero => simp [parse_object_loop] at h
  | succ n ih =>
    rw [parse_object_loop_succ] at h
    by_cases h0 : ch ≠ 34
    · rw [if_pos h0] at h
      cases h
      rfl
    rw [if_neg h0] at h
    by_cases h1 : (parse_string p).2.failed = true
    · rw [if_pos h1] at h
      cases h
      rfl
    rw [if_neg h1] at h
    by_cases h2 : (get_next_token (parse_string p).2).1 ≠ 58
    · rw [if_pos h2] at h
      cases h
      rfl
    rw [if_neg h2] at h
    cases hval : value (get_next_token (parse_string p).2).2 with
    | none => simp [hval] at h
    | some v =>
      simp only [hval] at h
      by_cases h3 : v.2.failed = true
      · rw [if_pos h3] at h
        cases h
        rfl
      rw [if_neg h3] at h
      by_cases h4 : (get_next_token v.2).1 = 125
      · rw [if_pos h4] at h
        cases h
        have := get_next_token_not_failed_of_ne v.2 (by omega)
        simp [this] at hf
      rw [if_neg h4] at h
      by_cases h5 : (get_next_token v.2).1 ≠ 44
      · rw [if_pos h5] at h
        cases h
        rfl
      rw [if_neg h5] at h
      exact ih _ _ _ h

/-- A failed `parse_json` returns Null, or the empty String when the failure was
inside a string literal at the top of the value. -/
theorem parse_json_failed_value (L : Libc) (fuel depth : Nat) (p : JsonParser)
    (r : Json × JsonParser) (h : parse_json L fuel depth p = some r)
    (hf : r.2.failed = true) : r.1 = Json.null ∨ r.1 = Json.string [] := by
  cases fuel with
  | zero => simp [parse_json] at h
  | succ n =>
    rw [parse_json_succ] at h
    by_cases h0 : depth > max_depth
    · rw [if_pos h0] at h
      cases h
      exact Or.inl rfl
    rw [if_neg h0] at h
    by_cases hf0 : (get_next_token p).2.failed = true
    · rw [if_pos hf0] at h
      cases h
      exact Or.inl rfl
    rw [if_neg hf0] at h
    simp only [Bool.not_eq_true] at hf0
    by_cases h2 : (get_next_token p).1 = 45 ∨
        ((get_next_token p).1 ≥ 48 ∧ (get_next_token p).1 ≤ 57)
    · rw [if_pos h2] at h
      cases h
      exact Or.inl (parse_number_failed_value L _ hf0 hf)
    rw [if_neg h2] at h
    by_cases h3 : (get_next_token p).1 = 110
    · rw [if_pos h3] at h
      cases h
      exact Or.inl (expect_failed_value _ _ _ hf0 hf)
    rw [if_neg h3] at h
    by_cases h4 : (get_next_token p).1 = 116
    · rw [if_pos h4] at h
      cases h
      exact Or.inl (expect_failed_value _ _ _ hf0 hf)
    rw [if_neg h4] at h
    by_cases h5 : (get_next_token p).1 = 102
    · rw [if_pos h5] at h
      cases h
      exact Or.inl (expect_failed_value _ _ _ hf0 hf)
    rw [if_neg h5] at h
    by_cases h6 : (get_next_token p).1 = 34
    · rw [if_pos h6] at h
      cases h
      right
      simp only at hf ⊢
      rw [parse_string_failed_value _ hf0 hf]
    rw [if_neg h6] at h
    by_cases h7 : (get_next_token p).1 = 123
    · rw [if_pos h7] at h
      by_cases h8 : (get_next_token (get_next_token p).2).1 = 125
      · rw [if_pos h8] at h
        cases h
        have := get_next_token_not_failed_of_ne (get_next_token p).2 (by omega)
        simp [this] at hf
      rw [if_neg h8] at h
      exact Or.inl (parse_object_loop_failed_value _ _ _ _ _ _ h hf)
    rw [if_neg h7] at h
    by_cases h9 : (get_next_token p).1 = 91
    · rw [if_pos h9] at h
      by_cases h8 : (get_next_token (get_next_token p).2).1 = 93
      · rw [if_pos h8] at h
        cases h
        have := get_next_token_not_failed_of_ne (get_next_token p).2 (by omega)
        simp [this] at hf
      rw [if_neg h8] at h
      exact Or.inl (parse_array_loop_failed_value _ _ _ _ _ h hf)
    rw [if_neg h9] at h
    cases h
    exact Or.inl rfl

/-! ## Several documents -/

theorem JsonParser.eq_mk (q : JsonParser) (s : List Nat) (i : Nat) (e : List Nat)
    (st : JsonParse) (h1 : q.str = s) (h2 : q.i = i) (h3 : q.err = e) (h4 : q.failed = false)
    (h5 : q.strategy = st) : q = ⟨s, i, e, false, st⟩ := by
  cases q
  simp only at h1 h2 h3 h4 h5
  subst h1 h2 h3 h4 h5
  rfl

/-- What the loop of `parse_multi` returns, from a state that has not failed. -/
theorem parse_multi_loop_spec (L : Libc) (inp err : List Nat) (strategy : JsonParse)
    (fuel : Nat) (vec : List Json) (i : Nat) (hi : i ≤ inp.length)
    (hfuel : inp.length - i + 1 ≤ fuel) :
    ∃ vs stop q, parse_multi_loop L fuel vec i ⟨inp, i, err, false, strategy⟩ =
        some (vec ++ vs, stop, q) ∧ Ext ⟨inp, i, err, false, strategy⟩ q ∧
      ((q.failed = false ∧ stop = inp.length ∧ q.i = inp.length ∧
          Docs L inp err strategy i vs inp.length) ∨
        (q.failed = true ∧ ∃ ok j v r, Docs L inp err strategy i ok j ∧ stop = j ∧
          j ≠ inp.length ∧
          parse_json L (parse_json_fuel inp) 0 ⟨inp, j, err, false, strategy⟩ = some (v, r) ∧
          vs = ok ++ [v] ∧
          ((r.failed = true ∧ q = r) ∨
            (r.failed = false ∧ (consume_garbage r).failed = true ∧ q = consume_garbage r)))) := by
  induction fuel generalizing vec i with
  | zero => omega
  | succ n ih =>
    simp only [parse_multi_loop]
    by_cases hend : i = inp.length
    · subst hend
      refine ⟨[], inp.length, _, ?_, Ext.refl _, Or.inl ⟨rfl, rfl, rfl, Docs.nil _⟩⟩
      simp
    · obtain ⟨⟨v, r⟩, hr⟩ := parse_json_fuel_some L 0 ⟨inp, i, err, false, strategy⟩ hi
      simp only at hr
      have e1 := parse_json_ext L _ _ _ _ hr
      simp only at e1
      rw [if_pos (by simp [hend])]
      simp only [hr]
      by_cases hf : r.failed = true
      · rw [if_pos hf]
        exact ⟨[v], i, r, rfl, e1, Or.inr ⟨hf, [], i, v, r, Docs.nil _, rfl, hend, hr, rfl,
          Or.inl ⟨hf, rfl⟩⟩⟩
      rw [if_neg hf]
      simp only [Bool.not_eq_true] at hf
      have e2 := consume_garbage_ext r
      by_cases hg : (consume_garbage r).failed = true
      · rw [if_pos hg]
        exact ⟨[v], i, _, rfl, e1.trans e2, Or.inr ⟨hg, [], i, v, r, Docs.nil _, rfl, hend, hr,
          rfl, Or.inr ⟨hf, hg, rfl⟩⟩⟩
      rw [if_neg hg]
      simp only [Bool.not_eq_true] at hg
      have a1 := parse_json_adv L _ _ _ _ hr hf hi
      simp only at a1
      have l1 : r.str.length = inp.length := e1.length
      have a2 := consume_garbage_i r (by omega) hg
      have hq : consume_garbage r =
          ⟨inp, (consume_garbage r).i, err, false, strategy⟩ :=
        JsonParser.eq_mk _ _ _ _ _ (e1.trans e2).str rfl
          ((e1.trans e2).keep hg) hg (e1.trans e2).strategy
      obtain ⟨vs, stop, q, h1, h2, h3⟩ := ih (vec ++ [v]) (consume_garbage r).i (by omega)
        (by omega)
      rw [← hq] at h1 h2
      refine ⟨v :: vs, stop, q, ?_, (e1.trans e2).trans h2, ?_⟩
      · rw [h1]
        simp
      · rcases h3 with ⟨h31, h32, h33, h34⟩ | ⟨h31, ok, j, v', r', h32, h33, h34, h35, h36, h37⟩
        · exact Or.inl ⟨h31, h32, h33, Docs.cons i v r vs _ hend hr hf hg h34⟩
        · refine Or.inr ⟨h31, v :: ok, j, v', r', Docs.cons i v r ok _ hend hr hf hg h32, h33,
            h34, h35, ?_, h37⟩
          rw [h36]
          rfl

theorem Json.parse_multi_state_spec (L : Libc) (inp err : List Nat) (strategy : JsonParse) :
    ∃ vs stop q, Json.parse_multi_state L inp err strategy = some (vs, stop, q) ∧
      Ext ⟨inp, 0, err, false, strategy⟩ q ∧
      ((q.failed = false ∧ stop = inp.length ∧ q.i = inp.length ∧
          Docs L inp err strategy 0 vs inp.length) ∨
        (q.failed = true ∧ ∃ ok j v r, Docs L inp err strategy 0 ok j ∧ stop = j ∧
          j ≠ inp.length ∧
          parse_json L (parse_json_fuel inp) 0 ⟨inp, j, err, false, strategy⟩ = some (v, r) ∧
          vs = ok ++ [v] ∧
          ((r.failed = true ∧ q = r) ∨
            (r.failed = false ∧ (consume_garbage r).failed = true ∧ q = consume_garbage r)))) := by
  have := parse_multi_loop_spec L inp err strategy (inp.length + 1) [] 0 (Nat.zero_le _)
    (by omega)
  simpa [Json.parse_multi_state] using this

/-- One round of the loop of `parse_multi`, with the local bindings unfolded. -/
theorem parse_multi_loop_succ (L : Libc) (fuel : Nat) (vec : List Json) (stop : Nat)
    (p : JsonParser) :
    parse_multi_loop L (fuel + 1) vec stop p =
      if p.i ≠ p.str.length ∧ (!p.failed) = true then
        match parse_json L (parse_json_fuel p.str) 0 p with
        | none => none
        | some r =>
          if r.2.failed then some (vec ++ [r.1], stop, r.2)
          else if (consume_garbage r.2).failed then some (vec ++ [r.1], stop, consume_garbage r.2)
          else parse_multi_loop L fuel (vec ++ [r.1]) (consume_garbage r.2).i (consume_garbage r.2)
      else some (vec, stop, p) := rfl

/-- The first document of a run of documents, and the run after it. -/
theorem Docs.cons_inv {L : Libc} {inp err : List Nat} {strategy : JsonParse} {i j : Nat}
    {v : Json} {vs : List Json} (h : Docs L inp err strategy i (v :: vs) j) :
    i ≠ inp.length ∧ ∃ p,
      parse_json L (parse_json_fuel inp) 0 ⟨inp, i, err, false, strategy⟩ = some (v, p) ∧
      p.failed = false ∧ (consume_garbage p).failed = false ∧
      Docs L inp err strategy (consume_garbage p).i vs j := by
  cases h with
  | cons _ _ p _ _ h0 hr hf hg hrest => exact ⟨h0, p, hr, hf, hg, hrest⟩

/-- A run of no document stays where it is. -/
theorem Docs.nil_inv {L : Libc} {inp err : List Nat} {strategy : JsonParse} {i j : Nat}
    (h : Docs L inp err strategy i [] j) : i = j := by
  cases h
  rfl

/-! ## The C library only matters for doubles -/

mutual
theorem Json.eq_of_erase : ∀ (v w : Json), w.erase = v → v.double_free = true → w = v
  | v, .null => by intro h _; simpa [Json.erase] using h
  | v, .bool b => by intro h _; simpa [Json.erase] using h
  | v, .int n => by intro h _; simpa [Json.erase] using h
  | v, .string s => by intro h _; simpa [Json.erase] using h
  | v, .double d => by
    intro h hv
    simp only [Json.erase] at h
    subst h
    simp [Json.double_free] at hv
  | v, .array xs => by
    intro h hv
    simp only [Json.erase] at h
    subst h
    simp only [Json.double_free] at hv
    exact congrArg Json.array (Json.eq_of_erase_array _ xs rfl hv)
  | v, .object m => by
    intro h hv
    simp only [Json.erase] at h
    subst h
    simp only [Json.double_free] at hv
    exact congrArg Json.object (Json.eq_of_erase_object _ m rfl hv)
theorem Json.eq_of_erase_array : ∀ (vs ws : List Json), Json.erase_array ws = vs →
    Json.double_free_array vs = true → ws = vs
  | vs, [] => by intro h _; simpa [Json.erase_array] using h
  | vs, w :: ws => by
    intro h hv
    simp only [Json.erase_array] at h
    subst h
    simp only [Json.double_free_array, Bool.and_eq_true] at hv
    exact congrArg₂ List.cons (Json.eq_of_erase _ w rfl hv.1) (Json.eq_of_erase_array _ ws rfl hv.2)
theorem Json.eq_of_erase_object : ∀ (vs ws : List (List Nat × Json)),
    Json.erase_object ws = vs → Json.double_free_object vs = true → ws = vs
  | vs, [] => by intro h _; simpa [Json.erase_object] using h
  | vs, (k, w) :: ws => by
    intro h hv
    simp only [Json.erase_object] at h
    subst h
    simp only [Json.double_free_object, Bool.and_eq_true] at hv
    exact congrArg₂ List.cons (congrArg (Prod.mk k) (Json.eq_of_erase _ w rfl hv.1))
      (Json.eq_of_erase_object _ ws rfl hv.2)
end

mutual
theorem Json.erase_double_free : ∀ (v : Json), v.double_free = true → v = v.erase
  | .null, _ => rfl
  | .bool _, _ => rfl
  | .int _, _ => rfl
  | .string _, _ => rfl
  | .double _, h => by simp [Json.double_free] at h
  | .array xs, h => by
    simp only [Json.double_free] at h
    exact congrArg Json.array (Json.erase_double_free_array xs h)
  | .object m, h => by
    simp only [Json.double_free] at h
    exact congrArg Json.object (Json.erase_double_free_object m h)
theorem Json.erase_double_free_array : ∀ (vs : List Json),
    Json.double_free_array vs = true → vs = Json.erase_array vs
  | [], _ => rfl
  | v :: vs, h => by
    simp only [Json.double_free_array, Bool.and_eq_true] at h
    exact congrArg₂ List.cons (Json.erase_double_free v h.1)
      (Json.erase_double_free_array vs h.2)
theorem Json.erase_double_free_object : ∀ (vs : List (List Nat × Json)),
    Json.double_free_object vs = true → vs = Json.erase_object vs
  | [], _ => rfl
  | (k, v) :: vs, h => by
    simp only [Json.double_free_object, Bool.and_eq_true] at h
    exact congrArg₂ List.cons (congrArg (Prod.mk k) (Json.erase_double_free v h.1))
      (Json.erase_double_free_object vs h.2)
end

theorem erase_array_append (xs ys : List Json) :
    Json.erase_array (xs ++ ys) = Json.erase_array xs ++ Json.erase_array ys := by
  induction xs with
  | nil => rfl
  | cons x xs ih => simp [Json.erase_array, ih]

theorem erase_object_assign (k : List Nat) (v : Json) (m : List (List Nat × Json)) :
    Json.erase_object (map_assign k v m) = map_assign k v.erase (Json.erase_object m) := by
  induction m with
  | nil => rfl
  | cons kv m ih =>
    obtain ⟨k', v'⟩ := kv
    simp only [map_assign, Json.erase_object]
    split
    · rfl
    · split
      · simp [Json.erase_object, ih]
      · rfl

theorem parse_number_erase (L L' : Libc) (p : JsonParser) :
    erase_result (parse_number L p) = erase_result (parse_number L' p) := by
  obtain ⟨q, h | h | h⟩ := parse_number_shape p
  · rw [h.2 L, h.2 L']
  · rw [h.2 L, h.2 L']
  · rw [h.2 L, h.2 L']
    rfl

theorem parse_array_loop_erase (value value' : JsonParser → Option (Json × JsonParser))
    (hv : ∀ p, (value p).map erase_result = (value' p).map erase_result)
    (fuel : Nat) (data data' : List Json) (p : JsonParser)
    (hd : Json.erase_array data = Json.erase_array data') :
    (parse_array_loop value fuel data p).map erase_result =
      (parse_array_loop value' fuel data' p).map erase_result := by
  induction fuel generalizing data data' p with
  | zero => rfl
  | succ n ih =>
    rw [parse_array_loop_succ, parse_array_loop_succ]
    have h := hv p.back
    cases hval : value p.back with
    | none =>
      cases hval' : value' p.back with
      | none => rfl
      | some w => simp [hval, hval'] at h
    | some v =>
      cases hval' : value' p.back with
      | none => simp [hval, hval'] at h
      | some w =>
        simp only [hval, hval', Option.map_some', Option.some.injEq, erase_result,
          Prod.mk.injEq] at h
        obtain ⟨h1, h2⟩ := h
        simp only [← h2]
        by_cases c1 : v.2.failed = true
        · simp only [if_pos c1]
        simp only [if_neg c1]
        by_cases c2 : (get_next_token v.2).1 = 93
        · simp only [if_pos c2, Option.map_some', erase_result, Json.erase, erase_array_append,
            hd, Json.erase_array, h1]
        simp only [if_neg c2]
        by_cases c3 : (get_next_token v.2).1 ≠ 44
        · simp only [if_pos c3]
        simp only [if_neg c3]
        apply ih
        simp only [erase_array_append, hd, Json.erase_array, h1]

theorem parse_object_loop_erase (value value' : JsonParser → Option (Json × JsonParser))
    (hv : ∀ p, (value p).map erase_result = (value' p).map erase_result)
    (fuel : Nat) (data data' : List (List Nat × Json)) (ch : Nat) (p : JsonParser)
    (hd : Json.erase_object data = Json.erase_object data') :
    (parse_object_loop value fuel data ch p).map erase_result =
      (parse_object_loop value' fuel data' ch p).map erase_result := by
  induction fuel generalizing data data' ch p with
  | zero => rfl
  | succ n ih =>
    rw [parse_object_loop_succ, parse_object_loop_succ]
    by_cases c0 : ch ≠ 34
    · simp only [if_pos c0]
    simp only [if_neg c0]
    by_cases c1 : (parse_string p).2.failed = true
    · simp only [if_pos c1]
    simp only [if_neg c1]
    by_cases c2 : (get_next_token (parse_string p).2).1 ≠ 58
    · simp only [if_pos c2]
    simp only [if_neg c2]
    have h := hv (get_next_token (parse_string p).2).2
    cases hval : value (get_next_token (parse_string p).2).2 with
    | none =>
      cases hval' : value' (get_next_token (parse_string p).2).2 with
      | none => rfl
      | some w => simp [hval, hval'] at h
    | some v =>
      cases hval' : value' (get_next_token (parse_string p).2).2 with
      | none => simp [hval, hval'] at h
      | some w =>
        simp only [hval, hval', Option.map_some', Option.some.injEq, erase_result,
          Prod.mk.injEq] at h
        obtain ⟨h1, h2⟩ := h
        simp only [← h2]
        by_cases c3 : v.2.failed = true
        · simp only [if_pos c3]
        simp only [if_neg c3]
        by_cases c4 : (get_next_token v.2).1 = 125
        · simp only [if_pos c4, Option.map_some', erase_result, Json.erase,
            erase_object_assign, hd, h1]
        simp only [if_neg c4]
        by_cases c5 : (get_next_token v.2).1 ≠ 44
        · simp only [if_pos c5]
        simp only [if_neg c5]
        apply ih
        simp only [erase_object_assign, hd, h1]

/-- Two C libraries give `parse_json` the same state and, up to the doubles, the same value. -/
theorem parse_json_erase (L L' : Libc) (fuel depth : Nat) (p : JsonParser) :
    (parse_json L fuel depth p).map erase_result =
      (parse_json L' fuel depth p).map erase_result := by
  induction fuel generalizing depth p with
  | zero => rfl
  | succ n ih =>
    rw [parse_json_succ, parse_json_succ]
    by_cases c0 : depth > max_depth
    · simp only [if_pos c0]
    simp only [if_neg c0]
    by_cases c1 : (get_next_token p).2.failed = true
    · simp only [if_pos c1]
    simp only [if_neg c1]
    by_cases c2 : (get_next_token p).1 = 45 ∨
        ((get_next_token p).1 ≥ 48 ∧ (get_next_token p).1 ≤ 57)
    · simp only [if_pos c2, Option.map_some', parse_number_erase L L']
    simp only [if_neg c2]
    by_cases c3 : (get_next_token p).1 = 110
    · simp only [if_pos c3]
    simp only [if_neg c3]
    by_cases c4 : (get_next_token p).1 = 116
    · simp only [if_pos c4]
    simp only [if_neg c4]
    by_cases c5 : (get_next_token p).1 = 102
    · simp only [if_pos c5]
    simp only [if_neg c5]
    by_cases c6 : (get_next_token p).1 = 34
    · simp only [if_pos c6]
    simp only [if_neg c6]
    by_cases c7 : (get_next_token p).1 = 123
    · simp only [if_pos c7]
      by_cases c8 : (get_next_token (get_next_token p).2).1 = 125
      · simp only [if_pos c8]
      simp only [if_neg c8]
      exact parse_object_loop_erase _ _ (ih _) _ _ _ _ _ rfl
    simp only [if_neg c7]
    by_cases c9 : (get_next_token p).1 = 91
    · simp only [if_pos c9]
      by_cases c8 : (get_next_token (get_next_token p).2).1 = 93
      · simp only [if_pos c8]
      simp only [if_neg c8]
      exact parse_array_loop_erase _ _ (ih _) _ _ _ _ rfl
    simp only [if_neg c9]

/-- A result of `parse_json` without a double is the result for every C library. -/
theorem parse_json_libc (L L' : Libc) (fuel depth : Nat) (p : JsonParser) (v : Json)
    (q : JsonParser) (h : parse_json L fuel depth p = some (v, q))
    (hv : v.double_free = true) : parse_json L' fuel depth p = some (v, q) := by
  have e := parse_json_erase L L' fuel depth p
  rw [h] at e
  cases h' : parse_json L' fuel depth p with
  | none => simp [h'] at e
  | some r =>
    simp only [h', Option.map_some', Option.some.injEq, erase_result, Prod.mk.injEq] at e
    obtain ⟨e1, e2⟩ := e
    obtain ⟨r1, r2⟩ := r
    simp only at e1 e2
    subst e2
    rw [Json.eq_of_erase v.erase r1 e1.symm (by rw [← Json.erase_double_free v hv]; exact hv),
      ← Json.erase_double_free v hv]

theorem some_of_erase_result (x y : Option (Json × JsonParser))
    (e : x.map erase_result = y.map erase_result) (v : Json) (q : JsonParser)
    (h : x = some (v, q)) (hv : v.double_free = true) : y = some (v, q) := by
  subst h
  cases y with
  | none => simp at e
  | some r =>
    obtain ⟨r1, r2⟩ := r
    simp only [Option.map_some', Option.some.injEq, erase_result, Prod.mk.injEq] at e
    obtain ⟨e1, e2⟩ := e
    subst e2
    rw [Json.eq_of_erase v.erase r1 e1.symm (by rw [← Json.erase_double_free v hv]; exact hv),
      ← Json.erase_double_free v hv]

theorem Json.parse_state_erase (L L' : Libc) (inp err : List Nat) (strategy : JsonParse) :
    (Json.parse_state L inp err strategy).map erase_result =
      (Json.parse_state L' inp err strategy).map erase_result := by
  have e := parse_json_erase L L' (parse_json_fuel inp) 0 ⟨inp, 0, err, false, strategy⟩
  simp only [Json.parse_state]
  cases h : parse_json L (parse_json_fuel inp) 0 ⟨inp, 0, err, false, strategy⟩ with
  | none =>
    cases h' : parse_json L' (parse_json_fuel inp) 0 ⟨inp, 0, err, false, strategy⟩ with
    | none => rfl
    | some w => simp [h, h'] at e
  | some v =>
    cases h' : parse_json L' (parse_json_fuel inp) 0 ⟨inp, 0, err, false, strategy⟩ with
    | none => simp [h, h'] at e
    | some w =>
      simp only [h, h', Option.map_some', Option.some.injEq, erase_result, Prod.mk.injEq] at e
      obtain ⟨e1, e2⟩ := e
      simp only [← e2]
      by_cases c1 : (consume_garbage v.2).failed = true
      · simp only [if_pos c1]
      simp only [if_neg c1]
      by_cases c2 : (consume_garbage v.2).i ≠ inp.length
      · simp only [if_pos c2]
      simp only [if_neg c2, Option.map_some', erase_result, e1]

/-- What `Json::parse` returns with one C library it returns with every other,
when the value holds no double. -/
theorem Json.parse_libc (L L' : Libc) (inp err : List Nat) (strategy : JsonParse) (v : Json)
    (e : List Nat) (h : Json.parse L inp err strategy = some (v, e))
    (hv : v.double_free = true) : Json.parse L' inp err strategy = some (v, e) := by
  simp only [Json.parse] at h ⊢
  cases hs : Json.parse_state L inp err strategy with
  | none => simp [hs] at h
  | some r =>
    obtain ⟨r1, r2⟩ := r
    simp only [hs, Option.map_some', Option.some.injEq, Prod.mk.injEq] at h
    obtain ⟨h1, h2⟩ := h
    subst h1 h2
    rw [some_of_erase_result _ _ (Json.parse_state_erase L L' inp err strategy) r1 r2 hs hv]
    rfl

/-! ## UTF-8 and the serialization of strings -/

theorem or_128 : ∀ y < 64, (y ||| 0x80) % 256 = 0x80 + y := by decide

theorem or_240 : ∀ y < 8, (y ||| 0xF0) % 256 = 0xF0 + y := by decide

theorem and_63 (x : Nat) : x &&& 0x3F = x % 64 :=
  Nat.and_pow_two_sub_one_eq_mod x 6

/-- From U+10000 on `encode_utf8` appends the four-byte sequence of the standard. -/
theorem encode_utf8_four (n : Nat) (out : List Nat) (h1 : 0x10000 ≤ n) (h2 : n < 0x200000) :
    encode_utf8 (n : Int) out = out ++ utf8_four n := by
  have e1 : ¬ ((n : Int) < 0) := by omega
  have e2 : ¬ ((n : Int) < 0x80) := by omega
  have e3 : ¬ ((n : Int) < 0x800) := by omega
  have e4 : ¬ ((n : Int) < 0x10000) := by omega
  simp only [encode_utf8, if_neg e1, if_neg e2, if_neg e3, if_neg e4, Int.toNat_ofNat,
    utf8_four, and_63, Nat.shiftRight_eq_div_pow]
  rw [or_240 _ (by omega), or_128 _ (Nat.mod_lt _ (by decide)),
    or_128 _ (Nat.mod_lt _ (by decide)), or_128 _ (Nat.mod_lt _ (by decide))]

theorem encode_utf8_neg (out : List Nat) : encode_utf8 (-1) out = out := rfl

/-- One round of the loop of `dump(const string &)`. -/
theorem dump_string_loop_succ (value : List Nat) (fuel i : Nat) (out : List Nat) :
    dump_string_loop value (fuel + 1) i out =
      if i < value.length then
        if value.getD i 0 = 92 then dump_string_loop value fuel (i + 1) (out ++ [92, 92])
        else if value.getD i 0 = 34 then dump_string_loop value fuel (i + 1) (out ++ [92, 34])
        else if value.getD i 0 = 8 then dump_string_loop value fuel (i + 1) (out ++ [92, 98])
        else if value.getD i 0 = 12 then dump_string_loop value fuel (i + 1) (out ++ [92, 102])
        else if value.getD i 0 = 10 then dump_string_loop value fuel (i + 1) (out ++ [92, 110])
        else if value.getD i 0 = 13 then dump_string_loop value fuel (i + 1) (out ++ [92, 114])
        else if value.getD i 0 = 9 then dump_string_loop value fuel (i + 1) (out ++ [92, 116])
        else if value.getD i 0 ≤ 0x1f then
          dump_string_loop value fuel (i + 1) (out ++ [92, 117] ++ hex4 (value.getD i 0))
        else if value.getD i 0 = 0xe2 ∧ value.getD (i + 1) 0 = 0x80 ∧
            value.getD (i + 2) 0 = 0xa8 then
          dump_string_loop value fuel (i + 1 + 2) (out ++ bytes "\\u2028")
        else if value.getD i 0 = 0xe2 ∧ value.getD (i + 1) 0 = 0x80 ∧
            value.getD (i + 2) 0 = 0xa9 then
          dump_string_loop value fuel (i + 1 + 2) (out ++ bytes "\\u2029")
        else dump_string_loop value fuel (i + 1) (out ++ [value.getD i 0])
      else out := rfl

/-- A byte from 0x20 on that is not a quote, a backslash or 0xE2 is copied. -/
theorem dump_string_loop_plain (value : List Nat) (fuel i : Nat) (out : List Nat)
    (hi : i < value.length) (h1 : value.getD i 0 ≠ 92) (h2 : value.getD i 0 ≠ 34)
    (h3 : 0x1f < value.getD i 0) (h4 : value.getD i 0 ≠ 0xe2) :
    dump_string_loop value (fuel + 1) i out =
      dump_string_loop value fuel (i + 1) (out ++ [value.getD i 0]) := by
  rw [dump_string_loop_succ, if_pos hi, if_neg h1, if_neg h2, if_neg (by omega),
    if_neg (by omega), if_neg (by omega), if_neg (by omega), if_neg (by omega),
    if_neg (by omega), if_neg (fun h => h4 h.1), if_neg (fun h => h4 h.1)]

/-- The dump of a string of four bytes of a four-byte UTF-8 sequence is the four
bytes between quotes. -/
theorem dump_string_utf8_four (cp : Nat) (out : List Nat) (h : cp < 0x200000) :
    dump_string (utf8_four cp) out = out ++ [34] ++ utf8_four cp ++ [34] := by
  have b0 : 0xF0 + cp / 262144 < 0xF8 := by omega
  have hl : (utf8_four cp).length = 4 := rfl
  simp only [dump_string, hl]
  rw [dump_string_loop_plain _ _ _ _ (by rw [hl]; omega)
        (by simp [utf8_four]; omega) (by simp [utf8_four]; omega)
        (by simp [utf8_four]; omega) (by simp [utf8_four]; omega),
      dump_string_loop_plain _ _ _ _ (by rw [hl]; omega)
        (by simp [utf8_four]; omega) (by simp [utf8_four]; omega)
        (by simp [utf8_four]; omega) (by simp [utf8_four]; omega),
      dump_string_loop_plain _ _ _ _ (by rw [hl]; omega)
        (by simp [utf8_four]; omega) (by simp [utf8_four]; omega)
        (by simp [utf8_four]; omega) (by simp [utf8_four]; omega),
      dump_string_loop_plain _ _ _ _ (by rw [hl]; omega)
        (by simp [utf8_four]; omega) (by simp [utf8_four]; omega)
        (by simp [utf8_four]; omega) (by simp [utf8_four]; omega)]
  simp [dump_string_loop, utf8_four]

theorem surrogate_bound (h l : Nat) (hh : 0xD800 ≤ h ∧ h ≤ 0xDBFF) (hl : 0xDC00 ≤ l ∧ l ≤ 0xDFFF) :
    ((h - 0xD800) <<< 10 ||| (l - 0xDC00)) < 0x100000 := by
  have h1 : (h - 0xD800) <<< 10 < 2 ^ 20 := by
    rw [Nat.shiftLeft_eq]
    omega
  have h2 : l - 0xDC00 < 2 ^ 20 := by omega
  exact Nat.or_lt_two_pow h1 h2

/-! ## Decimal text of integers -/

theorem natToDec_loop_eq (n : Nat) : ∀ (fuel : Nat) (acc : List Nat), n < fuel →
    natToDec_loop fuel n acc = natToDec n ++ acc := by
  induction n using Nat.strong_induction_on with
  | _ n ih =>
    intro fuel acc hf
    obtain ⟨f, rfl⟩ : ∃ f, fuel = f + 1 := ⟨fuel - 1, by omega⟩
    by_cases h : n < 10
    · simp [natToDec, natToDec_loop, h]
    · have h1 : n / 10 < n := by omega
      simp only [natToDec, natToDec_loop, if_neg h]
      rw [ih (n / 10) h1 f _ (by omega), ih (n / 10) h1 n _ h1]
      simp

/-- The digits of `n`: one digit below ten, else the digits of `n / 10` and the last digit. -/
theorem natToDec_eq (n : Nat) :
    natToDec n = if n < 10 then [48 + n] else natToDec (n / 10) ++ [48 + n % 10] := by
  by_cases h : n < 10
  · simp [natToDec, natToDec_loop, h]
  · rw [if_neg h]
    have h1 : n / 10 < n := by omega
    conv_lhs => rw [natToDec]
    simp only [natToDec_loop, if_neg h]
    rw [natToDec_loop_eq (n / 10) n _ h1]

theorem natToDec_digits (n : Nat) : ∀ c ∈ natToDec n, 48 ≤ c ∧ c ≤ 57 := by
  induction n using Nat.strong_induction_on with
  | _ n ih =>
    rw [natToDec_eq]
    by_cases h : n < 10
    · rw [if_pos h]
      intro c hc
      simp only [List.mem_singleton] at hc
      omega
    · rw [if_neg h]
      intro c hc
      rcases List.mem_append.mp hc with hc | hc
      · exact ih (n / 10) (by omega) c hc
      · simp only [List.mem_singleton] at hc
        omega

theorem natToDec_ne_nil (n : Nat) : natToDec n ≠ [] := by
  rw [natToDec_eq]
  split <;> simp

/-- The first digit of a positive number is not `0`. -/
theorem natToDec_head (n : Nat) (hn : 0 < n) :
    ∃ c cs, natToDec n = c :: cs ∧ 49 ≤ c ∧ c ≤ 57 := by
  induction n using Nat.strong_induction_on with
  | _ n ih =>
    rw [natToDec_eq]
    by_cases h : n < 10
    · rw [if_pos h]
      exact ⟨48 + n, [], rfl, by omega, by omega⟩
    · rw [if_neg h]
      obtain ⟨c, cs, e, h1, h2⟩ := ih (n / 10) (by omega) (by omega)
      exact ⟨c, cs ++ [48 + n % 10], by rw [e]; rfl, h1, h2⟩

theorem natToDec_zero : natToDec 0 = [48] := rfl

/-- The digit loop of `atoi` reads the digits `natToDec` printed. -/
theorem atoi_digits_natToDec (n : Nat) : ∀ (r : List Nat) (acc : Nat),
    atoi_digits (natToDec n ++ r) acc =
      atoi_digits r (acc * 10 ^ (natToDec n).length + n) := by
  induction n using Nat.strong_induction_on with
  | _ n ih =>
    intro r acc
    rw [natToDec_eq]
    by_cases h : n < 10
    · rw [if_pos h]
      simp only [List.singleton_append, atoi_digits, List.length_singleton, pow_one]
      rw [if_pos (by omega)]
      congr 1
      omega
    · rw [if_neg h]
      rw [List.append_assoc, ih (n / 10) (by omega)]
      simp only [List.singleton_append, atoi_digits, List.length_append, List.length_singleton]
      rw [if_pos (by omega)]
      congr 1
      rw [pow_succ]
      have : 48 + n % 10 - 48 = n % 10 := by omega
      rw [this]
      have h2 : n = 10 * (n / 10) + n % 10 := (Nat.div_add_mod n 10).symm
      generalize 10 ^ (natToDec (n / 10)).length = k at *
      generalize n / 10 = q at *
      generalize n % 10 = m at *
      subst h2
      ring

theorem atoi_digits_stop (r : List Nat) (acc : Nat) (h : NoDigit r) :
    atoi_digits r acc = acc := by
  cases r with
  | nil => rfl
  | cons c cs =>
    simp only [atoi_digits]
    rw [if_neg (h c cs rfl)]

/-- The function `atoi` reads back the text `%d` printed, whatever follows it
that is not a digit. -/
theorem atoi_intToDec (n : Int) (r : List Nat) (h : NoDigit r) :
    atoi (intToDec n ++ r) = n := by
  simp only [intToDec]
  by_cases hn : n < 0
  · rw [if_pos hn]
    simp only [atoi, List.cons_append]
    have hs : List.dropWhile isspace (45 :: (natToDec (-n).toNat ++ r)) =
        45 :: (natToDec (-n).toNat ++ r) := by
      rw [List.dropWhile_cons_of_neg (by decide)]
    rw [hs]
    simp only
    rw [atoi_digits_natToDec, atoi_digits_stop _ _ h]
    simp only [Nat.zero_mul, Nat.zero_add]
    omega
  · rw [if_neg hn]
    obtain ⟨c, cs, e⟩ : ∃ c cs, natToDec n.toNat = c :: cs := by
      cases hd : natToDec n.toNat with
      | nil => exact absurd hd (natToDec_ne_nil _)
      | cons c cs => exact ⟨c, cs, rfl⟩
    have hc := natToDec_digits n.toNat c (by rw [e]; exact List.mem_cons_self _ _)
    have hv := atoi_digits_natToDec n.toNat r 0
    rw [atoi_digits_stop _ _ h] at hv
    simp only [Nat.zero_mul, Nat.zero_add] at hv
    simp only [atoi]
    rw [e] at hv ⊢
    have hs : List.dropWhile isspace (c :: cs ++ r) = c :: (cs ++ r) := by
      rw [List.cons_append, List.dropWhile_cons_of_neg]
      simp only [isspace, Bool.or_eq_true, decide_eq_true_eq, Bool.and_eq_true, not_or, not_and]
      omega
    rw [hs]
    split
    · rename_i h45
      simp only [List.cons.injEq] at h45
      omega
    · rename_i h43
      simp only [List.cons.injEq] at h43
      omega
    · rename_i x hx1 hx2
      rw [← List.cons_append, hv]
      omega

/-! ## The text of a dumped string -/

theorem dump_string_loop_item (value : List Nat) (fuel i : Nat) (out : List Nat) :
    dump_string_loop value (fuel + 1) i out =
      if i < value.length then
        dump_string_loop value fuel (i + (dump_item value i).1) (out ++ (dump_item value i).2)
      else out := by
  rw [dump_string_loop_succ]
  by_cases hi : i < value.length
  · simp only [if_pos hi, dump_item]
    by_cases h1 : value.getD i 0 = 92
    · simp only [if_pos h1]
    simp only [if_neg h1]
    by_cases h2 : value.getD i 0 = 34
    · simp only [if_pos h2]
    simp only [if_neg h2]
    by_cases h3 : value.getD i 0 = 8
    · simp only [if_pos h3]
    simp only [if_neg h3]
    by_cases h4 : value.getD i 0 = 12
    · simp only [if_pos h4]
    simp only [if_neg h4]
    by_cases h5 : value.getD i 0 = 10
    · simp only [if_pos h5]
    simp only [if_neg h5]
    by_cases h6 : value.getD i 0 = 13
    · simp only [if_pos h6]
    simp only [if_neg h6]
    by_cases h7 : value.getD i 0 = 9
    · simp only [if_pos h7]
    simp only [if_neg h7]
    by_cases h8 : value.getD i 0 ≤ 0x1f
    · simp only [if_pos h8, List.append_assoc]
    simp only [if_neg h8]
    by_cases h9 : value.getD i 0 = 0xe2 ∧ value.getD (i + 1) 0 = 0x80 ∧
        value.getD (i + 2) 0 = 0xa8
    · simp only [if_pos h9]
    simp only [if_neg h9]
    by_cases h10 : value.getD i 0 = 0xe2 ∧ value.getD (i + 1) 0 = 0x80 ∧
        value.getD (i + 2) 0 = 0xa9
    · simp only [if_pos h10]
    simp only [if_neg h10]
  · simp only [if_neg hi]

theorem dump_item_pos (value : List Nat) (i : Nat) : 1 ≤ (dump_item value i).1 := by
  simp only [dump_item]
  repeat' split
  all_goals simp

/-- The loop appends the body from `i` on to what it was given. -/
theorem dump_string_loop_body (value : List Nat) (n : Nat) : ∀ (fuel i : Nat) (out : List Nat),
    value.length - i ≤ n → value.length - i ≤ fuel →
    dump_string_loop value fuel i out = out ++ dump_string_body value i := by
  induction n with
  | zero =>
    intro fuel i out hn _
    have hi : ¬ i < value.length := by omega
    have hb : dump_string_body value i = [] := by
      simp only [dump_string_body, show value.length - i = 0 by omega, dump_string_loop]
    rw [hb]
    cases fuel with
    | zero => simp [dump_string_loop]
    | succ f => rw [dump_string_loop_item, if_neg hi]; simp
  | succ n ih =>
    intro fuel i out hn hf
    by_cases hi : i < value.length
    · obtain ⟨f, rfl⟩ : ∃ f, fuel = f + 1 := ⟨fuel - 1, by omega⟩
      obtain ⟨g, hg⟩ : ∃ g, value.length - i = g + 1 := ⟨value.length - i - 1, by omega⟩
      have hw := dump_item_pos value i
      have hb : dump_string_body value i =
          (dump_item value i).2 ++ dump_string_body value (i + (dump_item value i).1) := by
        rw [dump_string_body, hg, dump_string_loop_item, if_pos hi,
          ih _ _ _ (by omega) (by omega)]
        simp
      rw [dump_string_loop_item, if_pos hi, ih _ _ _ (by omega) (by omega), hb]
      simp
    · have hb : dump_string_body value i = [] := by
        simp only [dump_string_body, show value.length - i = 0 by omega, dump_string_loop]
      rw [hb]
      cases fuel with
      | zero => simp [dump_string_loop]
      | succ f => rw [dump_string_loop_item, if_neg hi]; simp

/-- The body from `i` on is the item at `i` and the body after it. -/
theorem dump_string_body_eq (value : List Nat) (i : Nat) :
    dump_string_body value i =
      if i < value.length then
        (dump_item value i).2 ++ dump_string_body value (i + (dump_item value i).1)
      else [] := by
  by_cases hi : i < value.length
  · obtain ⟨g, hg⟩ : ∃ g, value.length - i = g + 1 := ⟨value.length - i - 1, by omega⟩
    have hw := dump_item_pos value i
    rw [if_pos hi]
    conv_lhs => rw [dump_string_body, hg, dump_string_loop_item, if_pos hi]
    rw [dump_string_loop_body value g _ _ _ (by omega) (by omega)]
    simp
  · rw [if_neg hi]
    simp only [dump_string_body, show value.length - i = 0 by omega, dump_string_loop]

/-- The overload `dump(const string &)` appends a quote, the body and a quote. -/
theorem dump_string_eq (value out : List Nat) :
    dump_string value out = out ++ 34 :: (dump_string_body value 0 ++ [34]) := by
  simp only [dump_string]
  rw [dump_string_loop_body value value.length _ _ _ (by omega) (by omega)]
  simp

/-! ## The text under the cursor -/

theorem getD_drop (l : List Nat) (i k : Nat) : (l.drop i).getD k 0 = l.getD (i + k) 0 := by
  simp [List.getD_eq_getElem?_getD, List.getElem?_drop]

theorem at_of_drop (p : JsonParser) (k : Nat) : p.at (p.i + k) = (p.str.drop p.i).getD k 0 := by
  rw [getD_drop]
  rfl

theorem cur_of_drop (p : JsonParser) (c : Nat) (rest : List Nat)
    (h : p.str.drop p.i = c :: rest) : p.cur = c := by
  have := at_of_drop p 0
  rw [h] at this
  exact this

theorem at1_of_drop (p : JsonParser) (c d : Nat) (rest : List Nat)
    (h : p.str.drop p.i = c :: d :: rest) : p.at (p.i + 1) = d := by
  have := at_of_drop p 1
  rw [h] at this
  exact this

theorem drop_adv (p : JsonParser) (n : Nat) :
    (p.adv n).str.drop (p.adv n).i = (p.str.drop p.i).drop n := by
  simp only [adv_str, adv_i, List.drop_drop]

theorem lt_of_drop (p : JsonParser) (c : Nat) (rest : List Nat)
    (h : p.str.drop p.i = c :: rest) : p.i < p.str.length := by
  by_contra hc
  rw [List.drop_of_length_le (by omega)] at h
  cases h

theorem length_of_drop (p : JsonParser) (x : List Nat) (h : p.str.drop p.i = x) :
    p.str.length - p.i = x.length := by
  rw [← h, List.length_drop]

theorem take_succ_getD (l : List Nat) (i : Nat) (h : i < l.length) :
    l.take (i + 1) = l.take i ++ [l.getD i 0] := by
  rw [List.take_succ, List.getD_eq_getElem?_getD, List.getElem?_eq_getElem h]
  rfl

theorem take_three_getD (l : List Nat) (i : Nat) (h : i + 2 < l.length) :
    l.take (i + 3) = l.take i ++ [l.getD i 0, l.getD (i + 1) 0, l.getD (i + 2) 0] := by
  rw [take_succ_getD l (i + 2) h, take_succ_getD l (i + 1) (by omega),
    take_succ_getD l i (by omega)]
  simp

/-! ## Reading back a dumped string -/

theorem encode_utf8_ascii (c : Nat) (out : List Nat) (h : c < 0x80) :
    encode_utf8 (c : Int) out = out ++ [c] := by
  have e1 : ¬ ((c : Int) < 0) := by omega
  have e2 : (c : Int) < 0x80 := by omega
  simp only [encode_utf8, if_neg e1, if_pos e2, Int.toNat_ofNat]
  rw [Nat.mod_eq_of_lt (by omega)]

theorem encode_utf8_2028 (out : List Nat) :
    encode_utf8 0x2028 out = out ++ [0xe2, 0x80, 0xa8] := by
  simp [encode_utf8]
  decide

theorem encode_utf8_2029 (out : List Nat) :
    encode_utf8 0x2029 out = out ++ [0xe2, 0x80, 0xa9] := by
  simp [encode_utf8]
  decide

theorem hex4_ctrl : ∀ c < 32, strtol16 (hex4 c) = c ∧ (hex4 c).all is_hex = true := by
  decide

/-- The kinds of item the loop of `dump(const string &)` writes. -/
theorem dump_item_cases (value : List Nat) (i : Nat) :
    (∃ c, dump_item value i = (1, [92, c]) ∧ value.getD i 0 = c ∧ (c = 92 ∨ c = 34)) ∨
    (∃ c x, dump_item value i = (1, [92, c]) ∧ value.getD i 0 = x ∧
      ((c = 98 ∧ x = 8) ∨ (c = 102 ∧ x = 12) ∨ (c = 110 ∧ x = 10) ∨ (c = 114 ∧ x = 13) ∨
        (c = 116 ∧ x = 9))) ∨
    (dump_item value i = (1, [92, 117] ++ hex4 (value.getD i 0)) ∧ value.getD i 0 ≤ 0x1f) ∨
    (∃ x y, dump_item value i = (3, [92, 117, 50, 48, 50, x]) ∧ value.getD i 0 = 0xe2 ∧
      value.getD (i + 1) 0 = 0x80 ∧ value.getD (i + 2) 0 = y ∧
      ((x = 56 ∧ y = 0xa8) ∨ (x = 57 ∧ y = 0xa9))) ∨
    (dump_item value i = (1, [value.getD i 0]) ∧ value.getD i 0 ≠ 34 ∧ value.getD i 0 ≠ 92 ∧
      0x1f < value.getD i 0) := by
  simp only [dump_item]
  by_cases h1 : value.getD i 0 = 92
  · exact Or.inl ⟨92, by rw [if_pos h1], h1, Or.inl rfl⟩
  by_cases h2 : value.getD i 0 = 34
  · exact Or.inl ⟨34, by rw [if_neg h1, if_pos h2], h2, Or.inr rfl⟩
  by_cases h3 : value.getD i 0 = 8
  · exact Or.inr (Or.inl ⟨98, 8, by rw [if_neg h1, if_neg h2, if_pos h3], h3, by simp⟩)
  by_cases h4 : value.getD i 0 = 12
  · exact Or.inr (Or.inl ⟨102, 12, by rw [if_neg h1, if_neg h2, if_neg h3, if_pos h4], h4,
      by simp⟩)
  by_cases h5 : value.getD i 0 = 10
  · exact Or.inr (Or.inl ⟨110, 10,
      by rw [if_neg h1, if_neg h2, if_neg h3, if_neg h4, if_pos h5], h5, by simp⟩)
  by_cases h6 : value.getD i 0 = 13
  · exact Or.inr (Or.inl ⟨114, 13,
      by rw [if_neg h1, if_neg h2, if_neg h3, if_neg h4, if_neg h5, if_pos h6], h6, by simp⟩)
  by_cases h7 : value.getD i 0 = 9
  · exact Or.inr (Or.inl ⟨116, 9,
      by rw [if_neg h1, if_neg h2, if_neg h3, if_neg h4, if_neg h5, if_neg h6, if_pos h7], h7,
      by simp⟩)
  by_cases h8 : value.getD i 0 ≤ 0x1f
  · exact Or.inr (Or.inr (Or.inl ⟨by
      rw [if_neg h1, if_neg h2, if_neg h3, if_neg h4, if_neg h5, if_neg h6, if_neg h7,
        if_pos h8], h8⟩))
  by_cases h9 : value.getD i 0 = 0xe2 ∧ value.getD (i + 1) 0 = 0x80 ∧
      value.getD (i + 2) 0 = 0xa8
  · refine Or.inr (Or.inr (Or.inr (Or.inl ⟨56, 0xa8, ?_, h9.1, h9.2.1, h9.2.2, Or.inl ⟨rfl, rfl⟩⟩)))
    rw [if_neg h1, if_neg h2, if_neg h3, if_neg h4, if_neg h5, if_neg h6, if_neg h7, if_neg h8,
      if_pos h9]
    rfl
  by_cases h10 : value.getD i 0 = 0xe2 ∧ value.getD (i + 1) 0 = 0x80 ∧
      value.getD (i + 2) 0 = 0xa9
  · refine Or.inr (Or.inr (Or.inr (Or.inl ⟨57, 0xa9, ?_, h10.1, h10.2.1, h10.2.2,
      Or.inr ⟨rfl, rfl⟩⟩)))
    rw [if_neg h1, if_neg h2, if_neg h3, if_neg h4, if_neg h5, if_neg h6, if_neg h7, if_neg h8,
      if_neg h9, if_pos h10]
    rfl
  · refine Or.inr (Or.inr (Or.inr (Or.inr ⟨?_, h2, h1, by omega⟩)))
    rw [if_neg h1, if_neg h2, if_neg h3, if_neg h4, if_neg h5, if_neg h6, if_neg h7, if_neg h8,
      if_neg h9, if_neg h10]

/-- The loop of `parse_string` reads the body `dump` wrote for `value` from the
index `i` on and the closing quote, and returns `value`. -/
theorem parse_string_loop_dump (value : List Nat) (n : Nat) :
    ∀ (i fuel : Nat) (out : List Nat) (last : Int) (p : JsonParser) (post : List Nat),
    value.length - i ≤ n → i ≤ value.length →
    (dump_string_body value i).length + 1 ≤ fuel →
    p.str.drop p.i = dump_string_body value i ++ 34 :: post →
    encode_utf8 last out = value.take i →
    parse_string_loop fuel out last p =
      (value, p.adv ((dump_string_body value i).length + 1)) := by
  induction n with
  | zero =>
    intro i fuel out last p post hn hi hf hsuf henc
    have hi' : i = value.length := by omega
    have hb : dump_string_body value i = [] := by
      rw [dump_string_body_eq, if_neg (by omega)]
    rw [hb] at hsuf hf ⊢
    obtain ⟨f, rfl⟩ : ∃ f, fuel = f + 1 := ⟨fuel - 1, by simp at hf; omega⟩
    rw [parse_string_loop_quote _ _ _ _ (cur_of_drop p _ _ hsuf), henc, hi', List.take_length]
    rfl
  | succ n ih =>
    intro i fuel out last p post hn hi hf hsuf henc
    by_cases hlt : i < value.length
    · have hb := dump_string_body_eq value i
      rw [if_pos hlt] at hb
      rw [hb] at hsuf hf ⊢
      obtain ⟨f, rfl⟩ : ∃ f, fuel = f + 1 := ⟨fuel - 1, by omega⟩
      rcases dump_item_cases value i with ⟨c, hd, hv, hc⟩ | ⟨c, x, hd, hv, hc⟩ | ⟨hd, hv⟩ |
        ⟨x, y, hd, hv0, hv1, hv2, hxy⟩ | ⟨hd, hv1, hv2, hv3⟩
      · -- a quote or a backslash, escaped
        rw [hd] at hsuf hf ⊢
        simp only [List.cons_append, List.nil_append, List.length_cons] at hsuf hf ⊢
        rw [parse_string_loop_self _ _ _ _ c (cur_of_drop p _ _ hsuf) (at1_of_drop p _ _ _ hsuf)
          (by omega)]
        rw [ih (i + 1) f _ _ (p.adv 2) post (by omega) (by omega) (by omega)
          (by rw [drop_adv, hsuf]; rfl)
          (by rw [encode_utf8_neg, henc, take_succ_getD _ _ hlt, hv])]
        rw [adv_adv]
        congr 2
        omega
      · -- a control byte with a short escape
        rw [hd] at hsuf hf ⊢
        simp only [List.cons_append, List.nil_append, List.length_cons] at hsuf hf ⊢
        rw [parse_string_loop_ctrl _ _ _ _ c x (cur_of_drop p _ _ hsuf)
          (at1_of_drop p _ _ _ hsuf) hc]
        rw [ih (i + 1) f _ _ (p.adv 2) post (by omega) (by omega) (by omega)
          (by rw [drop_adv, hsuf]; rfl)
          (by rw [encode_utf8_neg, henc, take_succ_getD _ _ hlt, hv])]
        rw [adv_adv]
        congr 2
        omega
      · -- another control byte, as four hexadecimal digits
        rw [hd] at hsuf hf ⊢
        have hx := hex4_ctrl (value.getD i 0) (by omega)
        have h4 : (hex4 (value.getD i 0)).length = 4 := rfl
        simp only [List.cons_append, List.nil_append, List.length_cons, List.length_append,
          h4, List.append_assoc] at hsuf hf ⊢
        have hesc : (p.str.drop (p.i + 2)).take 4 = hex4 (value.getD i 0) := by
          rw [← List.drop_drop, hsuf]
          simp only [List.drop_succ_cons, List.drop_zero]
          rw [List.take_append_of_le_length (by rw [h4])]
          rw [List.take_of_length_le (by rw [h4])]
        rw [parse_string_loop_u _ _ _ _ _ (cur_of_drop p _ _ hsuf) (at1_of_drop p _ _ _ hsuf)
          hesc h4 hx.2, hx.1]
        rw [if_neg (by
          intro hc
          have := hc.2
          simp only [in_range, Bool.and_eq_true, decide_eq_true_eq] at this
          omega)]
        rw [ih (i + 1) f _ _ (p.adv 6) post (by omega) (by omega) (by omega)
          (by
            rw [drop_adv, hsuf]
            simp only [List.drop_succ_cons]
            rw [show (4 : Nat) = (hex4 (value.getD i 0)).length from rfl,
              List.drop_left])
          (by rw [henc, encode_utf8_ascii _ _ (by omega), take_succ_getD _ _ hlt])]
        rw [adv_adv]
        congr 2
        omega
      · -- the line or paragraph separator
        rw [hd] at hsuf hf ⊢
        simp only [List.cons_append, List.nil_append, List.length_cons] at hsuf hf ⊢
        have hlen : i + 2 < value.length := by
          by_contra hc
          have : value.getD (i + 2) 0 = 0 := List.getD_eq_default _ _ (by omega)
          omega
        have hesc : (p.str.drop (p.i + 2)).take 4 = [50, 48, 50, x] := by
          rw [← List.drop_drop, hsuf]
          rfl
        have hxv : strtol16 [50, 48, 50, x] = 0x2020 + (x - 48) ∧
            [50, 48, 50, x].all is_hex = true := by
          rcases hxy with ⟨hx, _⟩ | ⟨hx, _⟩ <;> subst hx <;> decide
        rw [parse_string_loop_u _ _ _ _ _ (cur_of_drop p _ _ hsuf) (at1_of_drop p _ _ _ hsuf)
          hesc rfl hxv.2, hxv.1]
        rw [if_neg (by
          intro hc
          have := hc.2
          simp only [in_range, Bool.and_eq_true, decide_eq_true_eq] at this
          omega)]
        rw [ih (i + 3) f _ _ (p.adv 6) post (by omega) (by omega) (by omega)
          (by rw [drop_adv, hsuf]; rfl)
          (by
            rw [henc, take_three_getD _ _ hlen, hv0, hv1, hv2]
            rcases hxy with ⟨hx, hy⟩ | ⟨hx, hy⟩
            · subst hx hy
              exact encode_utf8_2028 _
            · subst hx hy
              exact encode_utf8_2029 _)]
        rw [adv_adv]
        congr 2
        omega
      · -- any other byte, copied
        rw [hd] at hsuf hf ⊢
        simp only [List.cons_append, List.nil_append, List.length_cons] at hsuf hf ⊢
        have hcur := cur_of_drop p _ _ hsuf
        rw [parse_string_loop_plain _ _ _ _ (lt_of_drop p _ _ hsuf) (by rw [hcur]; exact hv1)
          (by rw [hcur]; exact hv2)
          (by
            rw [hcur]
            cases hr : in_range (toLong (value.getD i 0)) 0 0x1f
            · rfl
            · rw [in_range_toLong _ _ _ (by omega)] at hr
              omega)]
        rw [hcur, ih (i + 1) f _ _ (p.adv 1) post (by omega) (by omega) (by omega)
          (by rw [drop_adv, hsuf]; rfl)
          (by rw [encode_utf8_neg, henc, take_succ_getD _ _ hlt])]
        rw [adv_adv]
        congr 2
        omega
    · have hi' : i = value.length := by omega
      have hb : dump_string_body value i = [] := by
        rw [dump_string_body_eq, if_neg (by omega)]
      rw [hb] at hsuf hf ⊢
      obtain ⟨f, rfl⟩ : ∃ f, fuel = f + 1 := ⟨fuel - 1, by simp at hf; omega⟩
      rw [parse_string_loop_quote _ _ _ _ (cur_of_drop p _ _ hsuf), henc, hi', List.take_length]
      rfl

/-- The method `parse_string`, entered after the opening quote of a dumped
string, returns the string and stops after the closing quote. -/
theorem parse_string_dump (value : List Nat) (p : JsonParser) (post : List Nat)
    (hsuf : p.str.drop p.i = dump_string_body value 0 ++ 34 :: post) :
    parse_string p = (value, p.adv ((dump_string_body value 0).length + 1)) := by
  have hl := length_of_drop p _ hsuf
  simp only [parse_string]
  exact parse_string_loop_dump value value.length 0 _ [] (-1) p post (by omega) (by omega)
    (by rw [hl]; simp) hsuf rfl

/-! ## The text of a dumped value -/

mutual
theorem Json.dump_eq (L : Libc) : ∀ (v : Json) (out : List Nat),
    Json.dump L v out = out ++ Json.dumps L v
  | .null, out => by simp [Json.dumps, Json.dump, dump_null]
  | .bool b, out => by simp [Json.dumps, Json.dump, dump_bool]
  | .int n, out => by simp [Json.dumps, Json.dump, dump_int]
  | .double d, out => by
    simp only [Json.dumps, Json.dump, dump_double]
    split <;> simp
  | .string s, out => by
    simp only [Json.dumps, Json.dump]
    rw [dump_string_eq, dump_string_eq]
    simp
  | .array xs, out => by
    simp only [Json.dumps, Json.dump]
    rw [Json.dump_array_eq L xs true (out ++ [91]), Json.dump_array_eq L xs true ([] ++ [91])]
    simp
  | .object m, out => by
    simp only [Json.dumps, Json.dump]
    rw [Json.dump_object_eq L m true (out ++ [123]), Json.dump_object_eq L m true ([] ++ [123])]
    simp
theorem Json.dump_array_eq (L : Libc) : ∀ (xs : List Json) (first : Bool) (out : List Nat),
    Json.dump_array L xs first out = out ++ Json.dump_array L xs first []
  | [], first, out => by simp [Json.dump_array]
  | x :: xs, first, out => by
    simp only [Json.dump_array]
    rw [Json.dump_array_eq L xs false (Json.dump L x _),
      Json.dump_array_eq L xs false (Json.dump L x (if (!first) = true then [] ++ [44, 32]
        else [])),
      Json.dump_eq L x (if (!first) = true then out ++ [44, 32] else out),
      Json.dump_eq L x (if (!first) = true then [] ++ [44, 32] else [])]
    cases first <;> simp
theorem Json.dump_object_eq (L : Libc) :
    ∀ (m : List (List Nat × Json)) (first : Bool) (out : List Nat),
    Json.dump_object L m first out = out ++ Json.dump_object L m first []
  | [], first, out => by simp [Json.dump_object]
  | kv :: m, first, out => by
    simp only [Json.dump_object]
    rw [Json.dump_object_eq L m false (Json.dump L kv.2 _),
      Json.dump_object_eq L m false (Json.dump L kv.2
        (dump_string kv.1 (if (!first) = true then [] ++ [44, 32] else []) ++ [58, 32])),
      Json.dump_eq L kv.2 (dump_string kv.1 (if (!first) = true then out ++ [44, 32] else out)
        ++ [58, 32]),
      Json.dump_eq L kv.2 (dump_string kv.1 (if (!first) = true then [] ++ [44, 32] else [])
        ++ [58, 32]),
      dump_string_eq, dump_string_eq]
    cases first <;> simp
end

theorem dumps_null (L : Libc) : Json.dumps L Json.null = [110, 117, 108, 108] := rfl

theorem dumps_bool (L : Libc) (b : Bool) :
    Json.dumps L (Json.bool b) = if b then [116, 114, 117, 101] else [102, 97, 108, 115, 101] := by
  cases b <;> rfl

theorem dumps_int (L : Libc) (n : Int) : Json.dumps L (Json.int n) = intToDec n := by
  simp [Json.dumps, Json.dump, dump_int]

theorem dumps_string (L : Libc) (s : List Nat) :
    Json.dumps L (Json.string s) = 34 :: (dump_string_body s 0 ++ [34]) := by
  simp only [Json.dumps, Json.dump]
  rw [dump_string_eq]
  simp

theorem dump_array_false (L : Libc) (xs : List Json) :
    Json.dump_array L xs false [] ++ [93] = arr_tail L xs := by
  induction xs with
  | nil => rfl
  | cons x xs ih =>
    simp only [Json.dump_array, arr_tail]
    rw [Json.dump_array_eq, Json.dump_eq, List.append_assoc, ih]
    simp

theorem dumps_array_nil (L : Libc) : Json.dumps L (Json.array []) = [91, 93] := rfl

theorem dumps_array_cons (L : Libc) (x : Json) (xs : List Json) :
    Json.dumps L (Json.array (x :: xs)) = 91 :: (Json.dumps L x ++ arr_tail L xs) := by
  simp only [Json.dumps, Json.dump, Json.dump_array]
  rw [Json.dump_array_eq, Json.dump_eq, List.append_assoc, dump_array_false]
  simp [Json.dumps]

theorem dump_object_false (L : Libc) (m : List (List Nat × Json)) :
    Json.dump_object L m false [] ++ [125] = obj_tail L m := by
  induction m with
  | nil => rfl
  | cons kv m ih =>
    simp only [Json.dump_object, obj_tail, member_text]
    rw [Json.dump_object_eq, Json.dump_eq, dump_string_eq, List.append_assoc, ih]
    simp

theorem dumps_object_nil (L : Libc) : Json.dumps L (Json.object []) = [123, 125] := rfl

theorem dumps_object_cons (L : Libc) (kv : List Nat × Json) (m : List (List Nat × Json)) :
    Json.dumps L (Json.object (kv :: m)) = 123 :: (member_text L kv ++ obj_tail L m) := by
  simp only [Json.dumps, Json.dump, Json.dump_object, member_text]
  rw [Json.dump_object_eq, Json.dump_eq, dump_string_eq, List.append_assoc, dump_object_false]
  simp [Json.dumps]

/-! ## Tokens of a dumped text -/

theorem consume_whitespace_stay (p : JsonParser) (c : Nat) (rest : List Nat)
    (h : p.str.drop p.i = c :: rest) (hc : ¬ (c = 32 ∨ c = 9 ∨ c = 10 ∨ c = 13)) :
    consume_whitespace p = p := by
  have hl := length_of_drop p _ h
  have hcur := cur_of_drop p c rest h
  simp only [consume_whitespace, hl, List.length_cons, consume_whitespace_loop, hcur]
  rw [if_neg hc]

theorem consume_whitespace_end (p : JsonParser) (h : p.str.drop p.i = []) :
    consume_whitespace p = p := by
  have hl := length_of_drop p _ h
  simp only [consume_whitespace, hl, List.length_nil, consume_whitespace_loop]

theorem consume_whitespace_space (p : JsonParser) (c : Nat) (rest : List Nat)
    (h : p.str.drop p.i = 32 :: c :: rest) (hc : ¬ (c = 32 ∨ c = 9 ∨ c = 10 ∨ c = 13)) :
    consume_whitespace p = p.adv 1 := by
  have hl := length_of_drop p _ h
  have hcur := cur_of_drop p 32 _ h
  have h1 : (p.adv 1).str.drop (p.adv 1).i = c :: rest := by
    rw [drop_adv, h]
    rfl
  have hcur1 := cur_of_drop (p.adv 1) c rest h1
  simp only [consume_whitespace, hl, List.length_cons, consume_whitespace_loop, hcur, hcur1]
  rw [if_pos (by simp), if_neg hc]

theorem get_next_token_head (p : JsonParser) (c : Nat) (rest : List Nat)
    (hf : p.failed = false) (hs : p.strategy = JsonParse.STANDARD)
    (h : p.str.drop p.i = c :: rest) (hc : ¬ (c = 32 ∨ c = 9 ∨ c = 10 ∨ c = 13)) :
    get_next_token p = (c, p.adv 1) := by
  have hlt := lt_of_drop p c rest h
  simp only [get_next_token]
  rw [consume_garbage_standard p hs, consume_whitespace_stay p c rest h hc, hf,
    cur_of_drop p c rest h]
  rw [if_neg (by simp), if_neg (by omega)]

theorem get_next_token_space (p : JsonParser) (c : Nat) (rest : List Nat)
    (hf : p.failed = false) (hs : p.strategy = JsonParse.STANDARD)
    (h : p.str.drop p.i = 32 :: c :: rest) (hc : ¬ (c = 32 ∨ c = 9 ∨ c = 10 ∨ c = 13)) :
    get_next_token p = (c, p.adv 2) := by
  have h1 : (p.adv 1).str.drop (p.adv 1).i = c :: rest := by
    rw [drop_adv, h]
    rfl
  have hlt := lt_of_drop (p.adv 1) c rest h1
  simp only [get_next_token]
  rw [consume_garbage_standard p hs, consume_whitespace_space p c rest h hc,
    cur_of_drop (p.adv 1) c rest h1, adv_failed, hf, adv_adv]
  rw [if_neg (by simp), if_neg (by omega)]

theorem get_next_token_end (p : JsonParser)
    (hs : p.strategy = JsonParse.STANDARD) (h : p.str.drop p.i = []) (hi : p.i ≤ p.str.length) :
    consume_garbage p = p ∧ p.i = p.str.length := by
  rw [consume_garbage_standard p hs, consume_whitespace_end p h]
  have hl := length_of_drop p _ h
  simp at hl
  exact ⟨rfl, by omega⟩

theorem back_adv (p : JsonParser) (n : Nat) : (p.adv (n + 1)).back = p.adv n := by
  simp [JsonParser.adv, JsonParser.back]

theorem adv_zero (p : JsonParser) : p.adv 0 = p := rfl

/-- The first byte of a dumped value without doubles is no white space, and it
selects the branch of `parse_json` for the kind of the value. -/
theorem intToDec_head (n : Int) :
    ∃ c rest, intToDec n = c :: rest ∧ (c = 45 ∨ (48 ≤ c ∧ c ≤ 57)) := by
  simp only [intToDec]
  split
  · exact ⟨45, _, rfl, Or.inl rfl⟩
  · have hne := natToDec_ne_nil n.toNat
    have hd := natToDec_digits n.toNat
    cases hx : natToDec n.toNat with
    | nil => exact absurd hx hne
    | cons c rest =>
      rw [hx] at hd
      have := hd c (by simp)
      exact ⟨c, rest, rfl, Or.inr this⟩

/-! ## Reading back a dumped literal or integer -/

theorem cur_of_suffix (p : JsonParser) (x : List Nat) (h : p.str.drop p.i = x) :
    p.cur = x.getD 0 0 := by
  have := at_of_drop p 0
  rw [h] at this
  exact this

theorem EndsValue.first_byte {post : List Nat} (h : EndsValue post) :
    post.getD 0 0 = 0 ∨ post.getD 0 0 = 44 ∨ post.getD 0 0 = 93 ∨ post.getD 0 0 = 125 := by
  cases post with
  | nil => exact Or.inl rfl
  | cons c cs => exact Or.inr (h c cs rfl)

theorem EndsValue.takeWhile {post : List Nat} (h : EndsValue post) :
    EndsValue (post.takeWhile (fun c => c ≠ 0)) := by
  cases post with
  | nil => exact h
  | cons c cs =>
    intro d ds hd
    by_cases hc : c = 0
    · rw [List.takeWhile_cons_of_neg (by simp [hc])] at hd
      cases hd
    · rw [List.takeWhile_cons_of_pos (by simp [hc])] at hd
      cases hd
      exact h c cs rfl

theorem EndsValue.noDigit {post : List Nat} (h : EndsValue post) : NoDigit post := by
  intro c cs hc
  have := h c cs hc
  omega

theorem EndsValue.nil : EndsValue [] := by
  intro c cs h
  cases h

theorem EndsValue.cons (c : Nat) (cs : List Nat) (h : c = 44 ∨ c = 93 ∨ c = 125) :
    EndsValue (c :: cs) := by
  intro d ds hd
  cases hd
  exact h

theorem expect_dump (expected : List Nat) (res : Json) (p : JsonParser) (post : List Nat)
    (h : p.str.drop p.i = expected ++ post) :
    expect expected res (p.adv 1) = (res, p.adv expected.length) := by
  simp only [expect]
  rw [back_adv p 0, adv_zero, h, List.take_left, if_pos rfl]

theorem digits_loop_dump : ∀ (ds : List Nat) (fuel : Nat) (p : JsonParser) (post : List Nat),
    (∀ c ∈ ds, 48 ≤ c ∧ c ≤ 57) → in_range (toLong (post.getD 0 0)) 48 57 = false →
    ds.length ≤ fuel → p.str.drop p.i = ds ++ post →
    digits_loop fuel p = p.adv ds.length
  | [], 0, p, _, _, _, _, _ => rfl
  | [], fuel + 1, p, post, _, hpost, _, h => by
    simp only [digits_loop]
    rw [cur_of_suffix p _ h, List.nil_append, hpost]
    rfl
  | c :: ds, 0, _, _, _, _, hf, _ => by simp at hf
  | c :: ds, fuel + 1, p, post, hd, hpost, hf, h => by
    have hc := hd c (by simp)
    have hin : in_range (toLong c) 48 57 = true := by
      rw [in_range_toLong _ _ _ (by omega)]
      omega
    have h1 : (p.adv 1).str.drop (p.adv 1).i = ds ++ post := by
      rw [drop_adv, h]
      rfl
    simp only [digits_loop]
    rw [cur_of_suffix p _ h]
    simp only [List.cons_append, List.getD_cons_zero, hin, if_true]
    rw [digits_loop_dump ds fuel (p.adv 1) post (fun x hx => hd x (by simp [hx])) hpost
      (by simpa using hf) h1, adv_adv, List.length_cons, Nat.add_comm]

theorem intToDec_ne_zero (n : Int) : ∀ c ∈ intToDec n, (decide (c ≠ 0)) = true := by
  intro c hc
  simp only [intToDec] at hc
  split at hc
  · rcases List.mem_cons.1 hc with h | h
    · simp [h]
    · have := natToDec_digits _ c h
      simp
      omega
  · have := natToDec_digits _ c hc
    simp
    omega

theorem c_str_dump (p : JsonParser) (n : Int) (post : List Nat)
    (h : p.str.drop p.i = intToDec n ++ post) :
    c_str p.str p.i = intToDec n ++ post.takeWhile (fun c => c ≠ 0) := by
  simp only [c_str]
  rw [h, List.takeWhile_append_of_pos (intToDec_ne_zero n)]

theorem parse_number_eq_body (L : Libc) (p : JsonParser) :
    parse_number L p = parse_number_body L p.i (if p.cur = 45 then p.adv 1 else p) := rfl

theorem parse_number_body_dump (L : Libc) (s m : Nat) (p : JsonParser) (post : List Nat)
    (hpost : EndsValue post) (h : p.str.drop p.i = natToDec m ++ post) :
    parse_number_body L s p = parse_number_tail L s (p.adv (natToDec m).length) := by
  have hend : in_range (toLong (post.getD 0 0)) 48 57 = false := by
    rw [← Bool.not_eq_true, in_range_toLong _ _ _ (by omega)]
    have := hpost.first_byte
    omega
  have hd := natToDec_digits m
  by_cases hm : m = 0
  · subst hm
    rw [natToDec_zero] at h ⊢
    have h1 : (p.adv 1).str.drop (p.adv 1).i = post := by
      rw [drop_adv, h]
      rfl
    simp only [parse_number_body]
    rw [cur_of_suffix p _ h, cur_of_suffix _ _ h1, hend]
    rfl
  · obtain ⟨c, cs, hcs, hc1, hc2⟩ := natToDec_head m (by omega)
    rw [hcs] at h hd ⊢
    have h1 : (p.adv 1).str.drop (p.adv 1).i = cs ++ post := by
      rw [drop_adv, h]
      rfl
    have hin : in_range (toLong c) 49 57 = true := by
      rw [in_range_toLong _ _ _ (by omega)]
      omega
    have hl := length_of_drop _ _ h1
    simp only [parse_number_body]
    rw [cur_of_suffix p _ h]
    simp only [List.cons_append, List.getD_cons_zero]
    rw [if_neg (by omega), hin, if_pos rfl,
      digits_loop_dump cs _ (p.adv 1) post (fun x hx => hd x (by simp [hx])) hend
        (by rw [hl]; simp) h1, adv_adv, List.length_cons, Nat.add_comm]

theorem parse_number_tail_dump (L : Libc) (hL : StrtodInt L) (n : Int) (hn : IsInt32 n)
    (p : JsonParser) (post : List Nat) (hpost : EndsValue post)
    (h : p.str.drop p.i = intToDec n ++ post) :
    parse_number_tail L p.i (p.adv (intToDec n).length) =
      (Json.reparsed L (Json.int n), p.adv (intToDec n).length) := by
  have h1 : (p.adv (intToDec n).length).str.drop (p.adv (intToDec n).length).i = post := by
    rw [drop_adv, h, List.drop_left]
  have hcur := cur_of_suffix _ _ h1
  have hh := hpost.first_byte
  have hc := c_str_dump p n post h
  simp only [parse_number_tail, parse_number_exp, adv_str, adv_i, Json.reparsed]
  rw [hcur, hc, atoi_intToDec n _ hpost.takeWhile.noDigit, hL n _ hn hpost.takeWhile]
  by_cases hlen : (intToDec n).length ≤ 9
  · rw [if_pos (by omega), if_pos hlen]
  · rw [if_neg (by omega), if_neg (by omega), if_neg (by omega), if_neg hlen]

theorem parse_number_dump (L : Libc) (hL : StrtodInt L) (n : Int) (hn : IsInt32 n)
    (p : JsonParser) (post : List Nat) (hpost : EndsValue post)
    (h : p.str.drop p.i = intToDec n ++ post) :
    parse_number L p = (Json.reparsed L (Json.int n), p.adv (intToDec n).length) := by
  rw [parse_number_eq_body, ← parse_number_tail_dump L hL n hn p post hpost h]
  by_cases hneg : n < 0
  · have e : intToDec n = 45 :: natToDec (-n).toNat := by simp [intToDec, hneg]
    rw [e] at h ⊢
    have h1 : (p.adv 1).str.drop (p.adv 1).i = natToDec (-n).toNat ++ post := by
      rw [drop_adv, h]
      rfl
    rw [cur_of_suffix p _ h]
    simp only [List.cons_append, List.getD_cons_zero, if_true]
    rw [parse_number_body_dump L p.i _ (p.adv 1) post hpost h1, adv_adv, List.length_cons,
      Nat.add_comm]
  · have e : intToDec n = natToDec n.toNat := by simp [intToDec, hneg]
    rw [e] at h ⊢
    have hd := natToDec_digits n.toNat
    have hne := natToDec_ne_nil n.toNat
    have h45 : p.cur ≠ 45 := by
      rw [cur_of_suffix p _ h]
      cases hx : natToDec n.toNat with
      | nil => exact absurd hx hne
      | cons c cs =>
        rw [hx] at hd
        have := hd c (by simp)
        simp only [List.cons_append, List.getD_cons_zero]
        omega
    rw [if_neg h45, parse_number_body_dump L p.i _ p post hpost h]

theorem drop_adv_append (q : JsonParser) (a b : List Nat) (h : q.str.drop q.i = a ++ b) :
    (q.adv a.length).str.drop (q.adv a.length).i = b := by
  rw [drop_adv, h, List.drop_left]

/-! ## Number literals: the grammar is accepted -/

theorem not_digit_in_range (c : Nat) (lo : Int) (hlo : 48 ≤ lo) (h : ¬ (48 ≤ c ∧ c ≤ 57)) :
    in_range (toLong c) lo 57 = false := by
  rw [← Bool.not_eq_true, in_range_toLong _ _ _ (by omega)]
  omega

theorem digit_in_range (c : Nat) (h : 48 ≤ c ∧ c ≤ 57) : in_range (toLong c) 48 57 = true := by
  rw [in_range_toLong _ _ _ (by omega)]
  omega

theorem getD_append_ne_nil (a b : List Nat) (h : a ≠ []) : (a ++ b).getD 0 0 = a.getD 0 0 := by
  cases a with
  | nil => exact absurd rfl h
  | cons x xs => rfl

theorem ExpPart.head_not_digit {ep : List Nat} (h : ExpPart ep) (post : List Nat)
    (hp : EndsNumber post) : ¬ (48 ≤ (ep ++ post).getD 0 0 ∧ (ep ++ post).getD 0 0 ≤ 57) := by
  rcases h with rfl | ⟨e, sg, ds, he, _, _, _, rfl⟩
  · exact hp.1
  · simp only [List.cons_append, List.getD_cons_zero]
    omega

/-- The exponent of the grammar is read by `parse_number_exp`. -/
theorem parse_number_exp_grammar (L : Libc) (s0 : Nat) (p : JsonParser) (ep post : List Nat)
    (hep : ExpPart ep) (hpost : EndsNumber post) (h : p.str.drop p.i = ep ++ post) :
    parse_number_exp L s0 p = (Json.double (L.strtod (c_str p.str s0)), p.adv ep.length) := by
  rcases hep with rfl | ⟨e, sg, ds, he, hsg, hne, hds, rfl⟩
  · have hc := cur_of_suffix p _ h
    simp only [List.nil_append] at hc
    simp only [parse_number_exp]
    rw [if_neg (by rw [hc]; have := hpost.2.2; omega)]
    rfl
  · have hc := cur_of_suffix p _ h
    simp only [List.cons_append, List.getD_cons_zero] at hc
    have h1 : (p.adv 1).str.drop (p.adv 1).i = sg ++ (ds ++ post) := by
      rw [drop_adv, h]
      simp
    obtain ⟨d, ds', rfl⟩ : ∃ d ds', ds = d :: ds' := by
      cases ds with
      | nil => exact absurd rfl hne
      | cons d ds' => exact ⟨d, ds', rfl⟩
    have hd := hds d (by simp)
    have hend : in_range (toLong (post.getD 0 0)) 48 57 = false :=
      not_digit_in_range _ 48 (le_refl _) hpost.1
    simp only [parse_number_exp]
    rw [if_pos (by rw [hc]; exact he)]
    have key : ∀ (q : JsonParser), q.str = p.str → q.str.drop q.i = d :: ds' ++ post →
        (if (!in_range (toLong q.cur) 48 57) = true then
          (Json.null, q.fail (bytes "at least one digit required in exponent"))
        else
          (Json.double (L.strtod (c_str (digits_loop (q.str.length - q.i) q).str s0)),
            digits_loop (q.str.length - q.i) q)) =
        (Json.double (L.strtod (c_str p.str s0)), q.adv (d :: ds').length) := by
      intro q hq hdrop
      have hl := length_of_drop q _ hdrop
      rw [cur_of_suffix q _ hdrop]
      simp only [List.cons_append, List.getD_cons_zero, digit_in_range d hd, Bool.not_true,
        Bool.false_eq_true, if_false]
      rw [digits_loop_dump (d :: ds') _ q post hds hend (by rw [hl]; simp) hdrop, adv_str, hq]
    rcases hsg with rfl | rfl | rfl
    · have hc1 := cur_of_suffix (p.adv 1) _ h1
      simp only [List.nil_append, List.cons_append, List.getD_cons_zero] at hc1
      have hsign : (if (p.adv 1).cur = 43 ∨ (p.adv 1).cur = 45 then (p.adv 1).adv 1
          else p.adv 1) = p.adv 1 := if_neg (by rw [hc1]; omega)
      rw [hsign, key (p.adv 1) rfl (by rw [h1]; rfl), adv_adv]
      simp only [List.nil_append, List.length_cons]
      congr 2
      omega
    · have hc1 := cur_of_suffix (p.adv 1) _ h1
      simp only [List.cons_append, List.getD_cons_zero] at hc1
      have hsign : (if (p.adv 1).cur = 43 ∨ (p.adv 1).cur = 45 then (p.adv 1).adv 1
          else p.adv 1) = (p.adv 1).adv 1 := if_pos (by rw [hc1]; exact Or.inl rfl)
      rw [hsign, key ((p.adv 1).adv 1) rfl (by rw [drop_adv, h1]; rfl), adv_adv, adv_adv]
      simp only [List.length_cons, List.length_append, List.length_singleton, List.length_nil]
      congr 2
      omega
    · have hc1 := cur_of_suffix (p.adv 1) _ h1
      simp only [List.cons_append, List.getD_cons_zero] at hc1
      have hsign : (if (p.adv 1).cur = 43 ∨ (p.adv 1).cur = 45 then (p.adv 1).adv 1
          else p.adv 1) = (p.adv 1).adv 1 := if_pos (by rw [hc1]; exact Or.inr rfl)
      rw [hsign, key ((p.adv 1).adv 1) rfl (by rw [drop_adv, h1]; rfl), adv_adv, adv_adv]
      simp only [List.length_cons, List.length_append, List.length_singleton, List.length_nil]
      congr 2
      omega

/-- The fraction and the exponent of the grammar are read by `parse_number_tail`,
which takes the integer path when there is neither and the text read so far has
at most nine characters. -/
theorem parse_number_tail_grammar (L : Libc) (s0 : Nat) (p : JsonParser)
    (fp ep post : List Nat) (hfp : FracPart fp) (hep : ExpPart ep) (hpost : EndsNumber post)
    (h : p.str.drop p.i = fp ++ (ep ++ post)) :
    parse_number_tail L s0 p =
      (if fp = [] ∧ ep = [] ∧ p.i - s0 ≤ 9 then Json.int (atoi (c_str p.str s0))
        else Json.double (L.strtod (c_str p.str s0)), p.adv (fp.length + ep.length)) := by
  have hc := cur_of_suffix p _ h
  rcases hfp with rfl | ⟨ds, hne, hds, rfl⟩
  · simp only [List.nil_append] at h hc
    rcases hep with rfl | ⟨e, sg, ds, he, hsg, hne, hds, rfl⟩
    · simp only [List.nil_append] at h hc
      have h46 : p.cur ≠ 46 := by rw [hc]; exact hpost.2.1
      have h101 : p.cur ≠ 101 := by rw [hc]; exact hpost.2.2.1
      have h69 : p.cur ≠ 69 := by rw [hc]; exact hpost.2.2.2
      simp only [parse_number_tail]
      by_cases h9 : p.i - s0 ≤ 9
      · rw [if_pos ⟨h46, h101, h69, h9⟩, if_pos (by simp [h9])]
        rfl
      · rw [if_neg (fun x => h9 x.2.2.2), if_neg h46, if_neg (fun x => h9 x.2.2),
          parse_number_exp_grammar L s0 p [] post (Or.inl rfl) hpost h]
        rfl
    · simp only [List.cons_append, List.getD_cons_zero] at hc
      simp only [parse_number_tail]
      rw [if_neg (by rw [hc]; omega), if_neg (by rw [hc]; omega), if_neg (by simp),
        parse_number_exp_grammar L s0 p _ post (Or.inr ⟨e, sg, ds, he, hsg, hne, hds, rfl⟩)
          hpost h]
      simp
  · simp only [List.cons_append, List.getD_cons_zero] at hc
    obtain ⟨d, ds', rfl⟩ : ∃ d ds', ds = d :: ds' := by
      cases ds with
      | nil => exact absurd rfl hne
      | cons d ds' => exact ⟨d, ds', rfl⟩
    have hd := hds d (by simp)
    have h1 : (p.adv 1).str.drop (p.adv 1).i = d :: ds' ++ (ep ++ post) := by
      rw [drop_adv, h]
      rfl
    have hl := length_of_drop _ _ h1
    have hc1 := cur_of_suffix (p.adv 1) _ h1
    simp only [List.cons_append, List.getD_cons_zero] at hc1
    have hend : in_range (toLong ((ep ++ post).getD 0 0)) 48 57 = false :=
      not_digit_in_range _ 48 (le_refl _) (hep.head_not_digit post hpost)
    have hdl := digits_loop_dump (d :: ds') ((p.adv 1).str.length - (p.adv 1).i) (p.adv 1)
      (ep ++ post) hds hend (by rw [hl]; simp) h1
    have h2 : ((p.adv 1).adv (d :: ds').length).str.drop ((p.adv 1).adv (d :: ds').length).i =
        ep ++ post := drop_adv_append _ _ _ h1
    simp only [parse_number_tail]
    rw [if_neg (by rw [hc]; simp), if_pos hc, hc1]
    simp only [digit_in_range d hd, Bool.not_true, Bool.false_eq_true, if_false]
    rw [hdl, parse_number_exp_grammar L s0 _ ep post hep hpost h2, if_neg (by simp)]
    simp only [adv_str, adv_adv, List.length_cons]
    congr 2
    omega

/-- The integer part, the fraction and the exponent of the grammar are read by
the part of `parse_number` after the sign. -/
theorem parse_number_body_grammar (L : Libc) (s0 : Nat) (p : JsonParser)
    (ip fp ep post : List Nat) (hip : IntPart ip) (hfp : FracPart fp) (hep : ExpPart ep)
    (hpost : EndsNumber post) (h : p.str.drop p.i = ip ++ (fp ++ (ep ++ post))) :
    parse_number_body L s0 p =
      (if fp = [] ∧ ep = [] ∧ p.i + ip.length - s0 ≤ 9 then Json.int (atoi (c_str p.str s0))
        else Json.double (L.strtod (c_str p.str s0)),
        p.adv (ip.length + (fp.length + ep.length))) := by
  have hc := cur_of_suffix p _ h
  have hnd : ¬ (48 ≤ (fp ++ (ep ++ post)).getD 0 0 ∧ (fp ++ (ep ++ post)).getD 0 0 ≤ 57) := by
    rcases hfp with rfl | ⟨ds, _, _, rfl⟩
    · exact hep.head_not_digit post hpost
    · simp
  have hend : in_range (toLong ((fp ++ (ep ++ post)).getD 0 0)) 48 57 = false :=
    not_digit_in_range _ 48 (le_refl _) hnd
  rcases hip with rfl | ⟨d, ds, hd1, hd2, hds, rfl⟩
  · simp only [List.cons_append, List.nil_append, List.getD_cons_zero] at hc h
    have h1 : (p.adv 1).str.drop (p.adv 1).i = fp ++ (ep ++ post) := by
      rw [drop_adv, h]
      rfl
    simp only [parse_number_body]
    rw [if_pos hc, cur_of_suffix _ _ h1, hend]
    simp only [Bool.false_eq_true, if_false]
    rw [parse_number_tail_grammar L s0 (p.adv 1) fp ep post hfp hep hpost h1, adv_adv]
    simp only [adv_i, adv_str, List.length_singleton]
  · simp only [List.cons_append, List.getD_cons_zero] at hc h
    have h1 : (p.adv 1).str.drop (p.adv 1).i = ds ++ (fp ++ (ep ++ post)) := by
      rw [drop_adv, h]
      rfl
    have hl := length_of_drop _ _ h1
    have hdl := digits_loop_dump ds ((p.adv 1).str.length - (p.adv 1).i) (p.adv 1)
      (fp ++ (ep ++ post)) hds hend (by rw [hl]; simp) h1
    have h2 : ((p.adv 1).adv ds.length).str.drop ((p.adv 1).adv ds.length).i =
        fp ++ (ep ++ post) := drop_adv_append _ _ _ h1
    have hin : in_range (toLong d) 49 57 = true := by
      rw [in_range_toLong _ _ _ (by omega)]
      omega
    simp only [parse_number_body]
    rw [if_neg (by rw [hc]; omega), hc, hin]
    simp only [if_true]
    rw [hdl, parse_number_tail_grammar L s0 _ fp ep post hfp hep hpost h2]
    simp only [adv_str, adv_adv, adv_i, List.length_cons]
    have e1 : p.i + (1 + ds.length) - s0 = p.i + (ds.length + 1) - s0 := by omega
    have e2 : 1 + ds.length + (fp.length + ep.length) =
        ds.length + 1 + (fp.length + ep.length) := by omega
    rw [e1, e2]

/-- A text of the number grammar is read by `parse_number`, as an integer when it
has neither fraction nor exponent and at most nine characters with the sign. -/
theorem parse_number_grammar (L : Libc) (p : JsonParser) (sg ip fp ep post : List Nat)
    (hsg : sg = [] ∨ sg = [45]) (hip : IntPart ip) (hfp : FracPart fp) (hep : ExpPart ep)
    (hpost : EndsNumber post) (h : p.str.drop p.i = sg ++ (ip ++ (fp ++ (ep ++ post)))) :
    parse_number L p =
      (if fp = [] ∧ ep = [] ∧ sg.length + ip.length ≤ 9 then
          Json.int (atoi (c_str p.str p.i))
        else Json.double (L.strtod (c_str p.str p.i)),
        p.adv (sg.length + (ip.length + (fp.length + ep.length)))) := by
  rw [parse_number_eq_body]
  rcases hsg with rfl | rfl
  · simp only [List.nil_append] at h
    have hc : p.cur ≠ 45 := by
      rw [cur_of_suffix p _ h]
      rcases hip with rfl | ⟨d, ds, hd1, hd2, _, rfl⟩
      · simp
      · simp only [List.cons_append, List.getD_cons_zero]
        omega
    rw [if_neg hc, parse_number_body_grammar L p.i p ip fp ep post hip hfp hep hpost h]
    simp only [List.length_nil, Nat.zero_add, Nat.add_sub_cancel_left]
  · simp only [List.cons_append, List.nil_append] at h
    have hc : p.cur = 45 := cur_of_suffix p _ h
    have h1 : (p.adv 1).str.drop (p.adv 1).i = ip ++ (fp ++ (ep ++ post)) := by
      rw [drop_adv, h]
      rfl
    rw [if_pos hc, parse_number_body_grammar L p.i (p.adv 1) ip fp ep post hip hfp hep hpost h1,
      adv_adv]
    simp only [adv_i, adv_str, List.length_singleton]
    have e1 : p.i + 1 + ip.length - p.i = 1 + ip.length := by omega
    rw [e1]

/-! ### The integer a literal denotes -/

theorem atoi_digits_decimal : ∀ (ds r : List Nat) (acc : Nat), AllDigits ds →
    ¬ (48 ≤ r.getD 0 0 ∧ r.getD 0 0 ≤ 57) →
    atoi_digits (ds ++ r) acc = ds.foldl (fun a c => a * 10 + (c - 48)) acc := by
  intro ds
  induction ds with
  | nil =>
    intro r acc _ hr
    cases r with
    | nil => rfl
    | cons c cs =>
      simp only [List.getD_cons_zero] at hr
      simp only [List.nil_append, atoi_digits, List.foldl_nil]
      rw [if_neg hr]
  | cons d ds ih =>
    intro r acc hd hr
    have h1 := hd d (by simp)
    simp only [List.cons_append, atoi_digits, List.foldl_cons]
    rw [if_pos h1]
    exact ih r _ (fun c hc => hd c (List.mem_cons_of_mem _ hc)) hr

theorem takeWhile_digits (ds post : List Nat) (hd : AllDigits ds) :
    (ds ++ post).takeWhile (fun c => c ≠ 0) = ds ++ post.takeWhile (fun c => c ≠ 0) := by
  apply List.takeWhile_append_of_pos
  intro c hc
  have := hd c hc
  simp only [ne_eq, decide_not, Bool.not_eq_true', decide_eq_false_iff_not]
  omega

theorem takeWhile_head_not_digit (post : List Nat)
    (h : ¬ (48 ≤ post.getD 0 0 ∧ post.getD 0 0 ≤ 57)) :
    ¬ (48 ≤ (post.takeWhile (fun c => c ≠ 0)).getD 0 0 ∧
      (post.takeWhile (fun c => c ≠ 0)).getD 0 0 ≤ 57) := by
  cases post with
  | nil => simp
  | cons c cs =>
    simp only [List.getD_cons_zero] at h
    simp only [List.takeWhile_cons]
    split
    · simpa using h
    · simp

theorem IntPart.allDigits {ip : List Nat} (h : IntPart ip) : AllDigits ip := by
  rcases h with rfl | ⟨d, ds, h1, h2, h3, rfl⟩
  · intro c hc
    simp only [List.mem_singleton] at hc
    omega
  · intro c hc
    rcases List.mem_cons.1 hc with rfl | hc
    · omega
    · exact h3 c hc

/-- The integer `atoi` reads from a literal of the integer grammar that a byte
other than a digit follows. -/
theorem atoi_literal (p : JsonParser) (sg ip post : List Nat) (hsg : sg = [] ∨ sg = [45])
    (hip : IntPart ip) (hpost : ¬ (48 ≤ post.getD 0 0 ∧ post.getD 0 0 ≤ 57))
    (h : p.str.drop p.i = sg ++ (ip ++ post)) :
    atoi (c_str p.str p.i) =
      if sg = [] then (spec_decimal ip : Int) else - (spec_decimal ip : Int) := by
  have hd := hip.allDigits
  have hp := takeWhile_head_not_digit post hpost
  obtain ⟨d, ds, hd1, hd2, rfl⟩ : ∃ d ds, 48 ≤ d ∧ d ≤ 57 ∧ ip = d :: ds := by
    rcases hip with rfl | ⟨d, ds, h1, h2, _, rfl⟩
    · exact ⟨48, [], by omega, by omega, rfl⟩
    · exact ⟨d, ds, by omega, h2, rfl⟩
  have hsp : isspace d = false := by
    simp only [isspace, Bool.or_eq_false_iff, decide_eq_false_iff_not, Bool.and_eq_false_iff]
    omega
  simp only [c_str, h]
  rcases hsg with rfl | rfl
  · rw [List.nil_append, takeWhile_digits _ post hd, if_pos rfl]
    have hdw : List.dropWhile isspace (d :: ds ++ List.takeWhile (fun c => decide (c ≠ 0)) post) =
        d :: ds ++ List.takeWhile (fun c => decide (c ≠ 0)) post := by
      rw [List.cons_append, List.dropWhile_cons, hsp]
      rfl
    have h45 : d ≠ 45 := by omega
    have h43 : d ≠ 43 := by omega
    simp only [atoi, hdw]
    rw [List.cons_append]
    split
    · rename_i heq
      simp only [List.cons.injEq] at heq
      exact absurd heq.1 h45
    · rename_i heq
      simp only [List.cons.injEq] at heq
      exact absurd heq.1 h43
    · rw [← List.cons_append, atoi_digits_decimal _ _ 0 hd hp]
      rfl
  · have e : ([45] ++ (d :: ds ++ post)).takeWhile (fun c => c ≠ 0) =
        45 :: (d :: ds ++ post.takeWhile (fun c => c ≠ 0)) := by
      rw [List.singleton_append, List.takeWhile_cons, if_pos (by decide),
        takeWhile_digits _ post hd]
    rw [e, if_neg (by simp)]
    have hdw : List.dropWhile isspace
        (45 :: (d :: ds ++ List.takeWhile (fun c => decide (c ≠ 0)) post)) =
        45 :: (d :: ds ++ List.takeWhile (fun c => decide (c ≠ 0)) post) := by
      rw [List.dropWhile_cons, if_neg (by decide)]
    simp only [atoi, hdw]
    rw [atoi_digits_decimal _ _ 0 hd hp]
    rfl

theorem c_str_literal (sg ip : List Nat) (hsg : sg = [] ∨ sg = [45]) (hip : IntPart ip) :
    c_str (sg ++ ip) 0 = sg ++ ip := by
  have h := takeWhile_digits ip [] hip.allDigits
  simp only [List.append_nil, List.takeWhile_nil] at h
  simp only [c_str, List.drop_zero]
  rcases hsg with rfl | rfl
  · exact h
  · rw [List.singleton_append, List.takeWhile_cons, if_pos (by decide), h]

/-! ## Reading back a dumped double -/

theorem NumberGrammar.head {t : List Nat} (h : NumberGrammar t) :
    ∃ c rest, t = c :: rest ∧ (c = 45 ∨ (48 ≤ c ∧ c ≤ 57)) := by
  obtain ⟨sg, ip, fp, ep, hsg, hip, _, _, rfl⟩ := h
  rcases hsg with rfl | rfl
  · rcases hip with rfl | ⟨d, ds, h1, h2, _, rfl⟩
    · exact ⟨48, _, rfl, by omega⟩
    · exact ⟨d, _, rfl, by omega⟩
  · exact ⟨45, _, rfl, Or.inl rfl⟩

theorem FracPart.frac_ne_zero {fp : List Nat} (h : FracPart fp) : ∀ c ∈ fp, c ≠ 0 := by
  rcases h with rfl | ⟨ds, _, hds, rfl⟩
  · simp
  · intro c hc
    rcases List.mem_cons.1 hc with rfl | hc
    · omega
    · have := hds c hc
      omega

theorem ExpPart.exp_ne_zero {ep : List Nat} (h : ExpPart ep) : ∀ c ∈ ep, c ≠ 0 := by
  rcases h with rfl | ⟨e, sg, ds, he, hsg, _, hds, rfl⟩
  · simp
  · intro c hc
    rcases List.mem_cons.1 hc with rfl | hc
    · omega
    · rcases List.mem_append.1 hc with hc | hc
      · rcases hsg with rfl | rfl | rfl
        · simp at hc
        · simp at hc
          omega
        · simp at hc
          omega
      · have := hds c hc
        omega

theorem NumberGrammar.text_ne_zero {t : List Nat} (h : NumberGrammar t) :
    ∀ c ∈ t, (decide (c ≠ 0)) = true := by
  obtain ⟨sg, ip, fp, ep, hsg, hip, hfp, hep, rfl⟩ := h
  intro c hc
  simp only [List.mem_append] at hc
  simp only [ne_eq, decide_not, Bool.not_eq_true', decide_eq_false_iff_not]
  rcases hc with hc | hc | hc | hc
  · rcases hsg with rfl | rfl
    · simp at hc
    · simp at hc
      omega
  · have := hip.allDigits c hc
    omega
  · exact hfp.frac_ne_zero c hc
  · exact hep.exp_ne_zero c hc

/-- The test of the fast path on a number literal, by its parts. -/
theorem short_integer_parts (sg ip fp ep : List Nat) (hsg : sg = [] ∨ sg = [45])
    (hip : IntPart ip) (hfp : FracPart fp) (hep : ExpPart ep) :
    short_integer (sg ++ (ip ++ (fp ++ ep))) = true ↔
      fp = [] ∧ ep = [] ∧ sg.length + ip.length ≤ 9 := by
  have hd := hip.allDigits
  simp only [short_integer, Bool.and_eq_true, List.all_eq_true, decide_eq_true_eq,
    List.mem_append, List.length_append]
  constructor
  · rintro ⟨hall, hlen⟩
    have h1 : fp = [] := by
      rcases hfp with rfl | ⟨ds, _, _, rfl⟩
      · rfl
      · have := hall 46 (by simp)
        omega
    have h2 : ep = [] := by
      rcases hep with rfl | ⟨e, s, ds, he, _, _, _, rfl⟩
      · rfl
      · have := hall e (by simp)
        omega
    subst h1 h2
    simp only [List.length_nil, Nat.add_zero] at hlen
    exact ⟨rfl, rfl, hlen⟩
  · rintro ⟨rfl, rfl, hlen⟩
    refine ⟨?_, by simpa using hlen⟩
    intro c hc
    rcases hc with hc | hc | hc | hc
    · rcases hsg with rfl | rfl
      · simp at hc
      · simp at hc
        omega
    · have := hd c hc
      omega
    · simp at hc
    · simp at hc

/-- The integer `atoi` reads from the text of an integer literal. -/
theorem atoi_text (sg ip : List Nat) (hsg : sg = [] ∨ sg = [45]) (hip : IntPart ip) :
    atoi (sg ++ ip) = if sg = [] then (spec_decimal ip : Int) else - (spec_decimal ip : Int) := by
  have h := atoi_literal ⟨sg ++ ip, 0, [], false, JsonParse.STANDARD⟩ sg ip [] hsg hip
    (by simp) (by simp)
  rw [c_str_literal sg ip hsg hip] at h
  exact h

theorem foldl_decimal_lt : ∀ (ds : List Nat) (acc : Nat), AllDigits ds →
    ds.foldl (fun a c => a * 10 + (c - 48)) acc < (acc + 1) * 10 ^ ds.length
  | [], acc, _ => by simp
  | d :: ds, acc, h => by
    have hd := h d (by simp)
    have ih := foldl_decimal_lt ds (acc * 10 + (d - 48)) (fun c hc => h c (by simp [hc]))
    simp only [List.foldl_cons, List.length_cons]
    refine lt_of_lt_of_le ih ?_
    rw [pow_succ, Nat.mul_comm (10 ^ ds.length) 10, ← Nat.mul_assoc]
    apply Nat.mul_le_mul_right
    omega

theorem spec_decimal_lt (ds : List Nat) (h : AllDigits ds) : spec_decimal ds < 10 ^ ds.length := by
  have := foldl_decimal_lt ds 0 h
  simpa [spec_decimal] using this

/-- The integer of a literal that passes the test of the fast path is a 32-bit `int`. -/
theorem isInt32_atoi_short {t : List Nat} (h : NumberGrammar t) (hs : short_integer t = true) :
    IsInt32 (atoi t) := by
  obtain ⟨sg, ip, fp, ep, hsg, hip, hfp, hep, rfl⟩ := h
  obtain ⟨rfl, rfl, hl⟩ := (short_integer_parts sg ip fp ep hsg hip hfp hep).1 hs
  simp only [List.append_nil]
  rw [atoi_text sg ip hsg hip]
  have h1 := spec_decimal_lt ip hip.allDigits
  have h2 : 10 ^ ip.length ≤ 10 ^ 9 := Nat.pow_le_pow_right (by decide) (by omega)
  unfold IsInt32
  split <;> omega

/-- The text `%.17g` printed for a finite double is read back by `parse_number`:
through `atoi` when it passes the test of the fast path, through `strtod`
otherwise. -/
theorem parse_number_printed (L : Libc) (x : Double) (hx : PrintsBack L x) (p : JsonParser)
    (post : List Nat) (hpost : EndsValue post) (h : p.str.drop p.i = L.fmt17g x ++ post) :
    parse_number L p =
      (if short_integer (L.fmt17g x) = true then Json.int (atoi (L.fmt17g x)) else Json.double x,
        p.adv (L.fmt17g x).length) := by
  obtain ⟨hg, _, hlong⟩ := hx
  have hz := hg.text_ne_zero
  obtain ⟨sg, ip, fp, ep, hsg, hip, hfp, hep, ht⟩ := hg
  have hen : EndsNumber post := by
    have := hpost.first_byte
    unfold EndsNumber
    omega
  have h' : p.str.drop p.i = sg ++ (ip ++ (fp ++ (ep ++ post))) := by
    rw [h, ht]
    simp
  have hsi := short_integer_parts sg ip fp ep hsg hip hfp hep
  rw [← ht] at hsi
  have hlen : sg.length + (ip.length + (fp.length + ep.length)) = (L.fmt17g x).length := by
    rw [ht]
    simp
  rw [parse_number_grammar L p sg ip fp ep post hsg hip hfp hep hen h', hlen]
  by_cases hs : short_integer (L.fmt17g x) = true
  · obtain ⟨rfl, rfl, hl⟩ := hsi.1 hs
    simp only [List.append_nil, List.nil_append] at ht h'
    rw [if_pos ⟨rfl, rfl, hl⟩, if_pos hs, atoi_literal p sg ip post hsg hip hen.1 h', ht,
      atoi_text sg ip hsg hip]
  · rw [if_neg (fun hc => hs (hsi.2 hc)), if_neg hs]
    have hc : c_str p.str p.i = L.fmt17g x ++ post.takeWhile (fun c => c ≠ 0) := by
      simp only [c_str]
      rw [h, List.takeWhile_append_of_pos hz]
    rw [hc, hlong (by simpa using hs) _ hpost.takeWhile]

/-! ## Reading back a dumped array -/

theorem parse_array_loop_dump (L : Libc) (value : JsonParser → Option (Json × JsonParser)) :
    ∀ (xs : List Json) (x : Json) (fuel : Nat) (data : List Json) (q : JsonParser)
      (post : List Nat),
    (∀ y ∈ x :: xs, ReadsBack L value y ∧ NoWsHead (Json.dumps L y)) →
    q.failed = false → q.strategy = JsonParse.STANDARD →
    q.str.drop q.i = Json.dumps L x ++ (arr_tail L xs ++ post) →
    xs.length + 1 ≤ fuel →
    parse_array_loop value fuel data (q.adv 1) =
      some (Json.array (data ++ Json.reparsed L x :: Json.reparsed_array L xs),
        q.adv ((Json.dumps L x).length + (arr_tail L xs).length))
  | _, _, 0, _, _, _, _, _, _, _, hf => by omega
  | [], x, fuel + 1, data, q, post, hv, hq, hs, h, _ => by
    obtain ⟨cx, restx, hcx, hwx⟩ := (hv x (by simp)).2
    have hval := (hv x (by simp)).1 q q (arr_tail L [] ++ post) hq hs
      (EndsValue.cons 93 post (by simp)) h
      (by rw [get_next_token_head q cx _ hq hs (by rw [h, hcx]; rfl) hwx, hcx]; rfl)
    have h1 : (q.adv (Json.dumps L x).length).str.drop (q.adv (Json.dumps L x).length).i =
        93 :: post := drop_adv_append q _ _ h
    rw [parse_array_loop_succ, back_adv q 0, adv_zero]
    simp only [hval, adv_failed, hq, Bool.false_eq_true, if_false]
    rw [get_next_token_head (q.adv (Json.dumps L x).length) 93 post hq hs h1 (by decide)]
    simp only [if_true, adv_adv, arr_tail, List.length_singleton, Json.reparsed_array]
  | y :: ys, x, fuel + 1, data, q, post, hv, hq, hs, h, hf => by
    obtain ⟨cx, restx, hcx, hwx⟩ := (hv x (by simp)).2
    have hval := (hv x (by simp)).1 q q (arr_tail L (y :: ys) ++ post) hq hs
      (EndsValue.cons 44 _ (by simp)) h
      (by rw [get_next_token_head q cx _ hq hs (by rw [h, hcx]; rfl) hwx, hcx]; rfl)
    obtain ⟨c, rest, hc, hws⟩ := (hv y (by simp)).2
    have h1 : (q.adv (Json.dumps L x).length).str.drop (q.adv (Json.dumps L x).length).i =
        44 :: 32 :: c :: (rest ++ (arr_tail L ys ++ post)) := by
      rw [drop_adv_append q _ _ h]
      simp [arr_tail, hc]
    have h2 : ((q.adv (Json.dumps L x).length).adv 1).str.drop
        ((q.adv (Json.dumps L x).length).adv 1).i =
        32 :: c :: (rest ++ (arr_tail L ys ++ post)) := by
      rw [drop_adv, h1]
      rfl
    have h3 : (q.adv ((Json.dumps L x).length + 2)).str.drop
        (q.adv ((Json.dumps L x).length + 2)).i =
        Json.dumps L y ++ (arr_tail L ys ++ post) := by
      rw [← adv_adv q _ 2, drop_adv, h1, hc]
      simp
    rw [parse_array_loop_succ, back_adv q 0, adv_zero]
    simp only [hval, adv_failed, hq, Bool.false_eq_true, if_false]
    rw [get_next_token_head (q.adv (Json.dumps L x).length) 44 _ hq hs h1 (by decide)]
    simp only [if_false, ne_eq, not_true_eq_false, Nat.reduceEqDiff]
    rw [get_next_token_space ((q.adv (Json.dumps L x).length).adv 1) c _ hq hs h2 hws]
    have e : ((q.adv (Json.dumps L x).length).adv 1).adv 2 =
        (q.adv ((Json.dumps L x).length + 2)).adv 1 := by
      simp only [adv_adv]
    simp only [e]
    rw [parse_array_loop_dump L value ys y fuel (data ++ [Json.reparsed L x])
      (q.adv ((Json.dumps L x).length + 2)) post
      (fun z hz => hv z (by simp at hz ⊢; tauto)) hq hs h3 (by simpa using hf)]
    simp only [adv_adv, arr_tail, Json.reparsed_array, List.append_assoc, List.singleton_append,
      List.length_cons, List.length_append]
    congr 3
    omega

/-! ## Reading back a dumped object -/

theorem member_text_length (L : Libc) (kv : List Nat × Json) :
    (member_text L kv).length =
      (dump_string_body kv.1 0).length + 4 + (Json.dumps L kv.2).length := by
  simp only [member_text, List.length_cons, List.length_append]
  omega

theorem parse_object_loop_dump (L : Libc) (value : JsonParser → Option (Json × JsonParser)) :
    ∀ (m : List (List Nat × Json)) (kv : List Nat × Json) (fuel : Nat)
      (data : List (List Nat × Json)) (q : JsonParser) (post : List Nat),
    (∀ e ∈ kv :: m, ReadsBack L value e.2 ∧ NoWsHead (Json.dumps L e.2)) →
    q.failed = false → q.strategy = JsonParse.STANDARD →
    q.str.drop q.i = member_text L kv ++ (obj_tail L m ++ post) →
    m.length + 1 ≤ fuel →
    parse_object_loop value fuel data 34 (q.adv 1) =
      some (Json.object (assign_all data (Json.reparsed_object L (kv :: m))),
        q.adv ((member_text L kv).length + (obj_tail L m).length))
  | _, _, 0, _, _, _, _, _, _, _, hf => by omega
  | m, (k, v), fuel + 1, data, q, post, hv, hq, hs, h, hf => by
    obtain ⟨c, rest, hc, hws⟩ := (hv (k, v) (by simp)).2
    have hlen := member_text_length L (k, v)
    have h0 : (q.adv 1).str.drop (q.adv 1).i = dump_string_body k 0 ++
        34 :: 58 :: 32 :: (Json.dumps L v ++ (obj_tail L m ++ post)) := by
      rw [drop_adv, h]
      simp [member_text]
    have hstr := parse_string_dump k (q.adv 1) _ h0
    rw [adv_adv] at hstr
    have h1 : (q.adv (1 + ((dump_string_body k 0).length + 1))).str.drop
        (q.adv (1 + ((dump_string_body k 0).length + 1))).i =
        58 :: 32 :: c :: (rest ++ (obj_tail L m ++ post)) := by
      rw [← adv_adv, ← adv_adv, drop_adv, drop_adv_append _ _ _ h0, hc]
      rfl
    have h2 : ((q.adv (1 + ((dump_string_body k 0).length + 1))).adv 1).str.drop
        ((q.adv (1 + ((dump_string_body k 0).length + 1))).adv 1).i =
        32 :: c :: (rest ++ (obj_tail L m ++ post)) := by
      rw [drop_adv, h1]
      rfl
    have h3 : (q.adv ((dump_string_body k 0).length + 4)).str.drop
        (q.adv ((dump_string_body k 0).length + 4)).i =
        Json.dumps L v ++ (obj_tail L m ++ post) := by
      have e : q.adv ((dump_string_body k 0).length + 4) =
          ((q.adv (1 + ((dump_string_body k 0).length + 1))).adv 1).adv 1 := by
        simp only [adv_adv]
        congr 1
        omega
      rw [e, drop_adv, h2, hc]
      rfl
    have htok : get_next_token ((q.adv (1 + ((dump_string_body k 0).length + 1))).adv 1) =
        ((Json.dumps L v).getD 0 0, (q.adv ((dump_string_body k 0).length + 4)).adv 1) := by
      rw [get_next_token_space ((q.adv (1 + ((dump_string_body k 0).length + 1))).adv 1) c _
        hq hs h2 hws, hc]
      simp only [adv_adv, List.getD_cons_zero]
      congr 2
      omega
    have hends : EndsValue (obj_tail L m ++ post) := by
      cases m with
      | nil => exact EndsValue.cons 125 _ (by simp)
      | cons e m => exact EndsValue.cons 44 _ (by simp)
    have hval : value ((q.adv (1 + ((dump_string_body k 0).length + 1))).adv 1) =
        some (Json.reparsed L v, q.adv (member_text L (k, v)).length) := by
      rw [(hv (k, v) (by simp)).1
        ((q.adv (1 + ((dump_string_body k 0).length + 1))).adv 1)
        (q.adv ((dump_string_body k 0).length + 4)) _ hq hs hends h3 htok, adv_adv, hlen]
    have h4 : (q.adv (member_text L (k, v)).length).str.drop
        (q.adv (member_text L (k, v)).length).i = obj_tail L m ++ post :=
      drop_adv_append q _ _ h
    rw [parse_object_loop_succ, if_neg (by simp), hstr]
    simp only [adv_failed, hq, Bool.false_eq_true, if_false]
    rw [get_next_token_head (q.adv (1 + ((dump_string_body k 0).length + 1))) 58 _ hq hs h1
      (by decide)]
    simp only [ne_eq, not_true_eq_false, if_false, hval, adv_failed, hq, Bool.false_eq_true]
    cases m with
    | nil =>
      rw [get_next_token_head (q.adv (member_text L (k, v)).length) 125 post hq hs h4
        (by decide)]
      simp only [if_true, adv_adv, obj_tail, List.length_singleton, Json.reparsed_object,
        assign_all, List.foldl_cons, List.foldl_nil]
    | cons e m =>
      obtain ⟨k', v'⟩ := e
      have h5 : (q.adv (member_text L (k, v)).length).str.drop
          (q.adv (member_text L (k, v)).length).i =
          44 :: 32 :: 34 :: (dump_string_body k' 0 ++ 34 :: 58 :: 32 :: Json.dumps L v' ++
            (obj_tail L m ++ post)) := by
        rw [h4]
        simp [obj_tail, member_text]
      have h6 : ((q.adv (member_text L (k, v)).length).adv 1).str.drop
          ((q.adv (member_text L (k, v)).length).adv 1).i =
          32 :: 34 :: (dump_string_body k' 0 ++ 34 :: 58 :: 32 :: Json.dumps L v' ++
            (obj_tail L m ++ post)) := by
        rw [drop_adv, h5]
        rfl
      have h7 : (q.adv ((member_text L (k, v)).length + 2)).str.drop
          (q.adv ((member_text L (k, v)).length + 2)).i =
          member_text L (k', v') ++ (obj_tail L m ++ post) := by
        rw [← adv_adv q _ 2, drop_adv, h5]
        simp [member_text]
      rw [get_next_token_head (q.adv (member_text L (k, v)).length) 44 _ hq hs h5 (by decide)]
      simp only [if_false, ne_eq, not_true_eq_false, Nat.reduceEqDiff]
      rw [get_next_token_space ((q.adv (member_text L (k, v)).length).adv 1) 34 _ hq hs h6
        (by decide)]
      have e : ((q.adv (member_text L (k, v)).length).adv 1).adv 2 =
          (q.adv ((member_text L (k, v)).length + 2)).adv 1 := by
        simp only [adv_adv]
      simp only [e]
      rw [parse_object_loop_dump L value m (k', v') fuel _
        (q.adv ((member_text L (k, v)).length + 2)) post
        (fun z hz => hv z (by simp at hz ⊢; tauto)) hq hs h7 (by simpa using hf)]
      simp only [adv_adv, obj_tail, Json.reparsed_object, assign_all, List.foldl_cons,
        List.length_cons, List.length_append]
      congr 3
      omega

/-! ## Reading back a dumped value -/

theorem Json.Plain.depth {d : Nat} {V : Json} (h : Json.Plain d V) : d ≤ max_depth := by
  cases h <;> assumption

theorem Json.Plain.printable (L : Libc) {d : Nat} {V : Json} (h : Json.Plain d V) :
    Json.Printable L d V := by
  induction h with
  | null d h => exact Json.Printable.null d h
  | bool d b h => exact Json.Printable.bool d b h
  | int d n h hn => exact Json.Printable.int d n h hn
  | string d s h => exact Json.Printable.string d s h
  | array d xs h _ ih => exact Json.Printable.array d xs h ih
  | object d m h _ hs ih => exact Json.Printable.object d m h ih hs

theorem Json.Printable.depth_le {L : Libc} {d : Nat} {V : Json} (h : Json.Printable L d V) :
    d ≤ max_depth := by
  cases h <;> assumption

theorem dumps_double (L : Libc) (x : Double) :
    Json.dumps L (Json.double x) = if x.isfinite = true then L.fmt17g x else bytes "null" := by
  simp only [Json.dumps, Json.dump, dump_double]
  split <;> simp

/-- The first byte of the dump of a value. -/
theorem Json.Printable.dump_first (L : Libc) {d : Nat} {V : Json} (h : Json.Printable L d V) :
    ∃ c rest, Json.dumps L V = c :: rest ∧
      (c = 110 ∨ c = 116 ∨ c = 102 ∨ c = 45 ∨ c = 34 ∨ c = 91 ∨ c = 123 ∨ (48 ≤ c ∧ c ≤ 57)) := by
  cases h with
  | null _ _ => exact ⟨110, _, rfl, by simp⟩
  | bool _ b _ =>
    cases b
    · exact ⟨102, _, rfl, by simp⟩
    · exact ⟨116, _, rfl, by simp⟩
  | int _ n _ _ =>
    obtain ⟨c, rest, hc, h⟩ := intToDec_head n
    refine ⟨c, rest, by rw [dumps_int, hc], ?_⟩
    omega
  | double _ x _ hx =>
    by_cases hf : x.isfinite = true
    · obtain ⟨c, rest, hc, h⟩ := (hx hf).1.head
      refine ⟨c, rest, by rw [dumps_double, if_pos hf, hc], ?_⟩
      omega
    · exact ⟨110, _, by rw [dumps_double, if_neg hf]; rfl, by simp⟩
  | string _ s _ => exact ⟨34, _, dumps_string L s, by simp⟩
  | array _ xs _ _ =>
    cases xs with
    | nil => exact ⟨91, _, rfl, by simp⟩
    | cons x xs => exact ⟨91, _, dumps_array_cons L x xs, by simp⟩
  | object _ m _ _ _ =>
    cases m with
    | nil => exact ⟨123, _, rfl, by simp⟩
    | cons kv m => exact ⟨123, _, dumps_object_cons L kv m, by simp⟩

theorem Json.Printable.dump_noWs (L : Libc) {d : Nat} {V : Json} (h : Json.Printable L d V) :
    NoWsHead (Json.dumps L V) := by
  obtain ⟨c, rest, hc, h⟩ := h.dump_first L
  exact ⟨c, rest, hc, by omega⟩

/-- The first byte of the dump of a value without doubles. -/
theorem Json.Plain.dump_head (L : Libc) {d : Nat} {V : Json} (h : Json.Plain d V) :
    ∃ c rest, Json.dumps L V = c :: rest ∧
      (c = 110 ∨ c = 116 ∨ c = 102 ∨ c = 45 ∨ c = 34 ∨ c = 91 ∨ c = 123 ∨ (48 ≤ c ∧ c ≤ 57)) :=
  (h.printable L).dump_first L

theorem Json.Plain.noWsHead (L : Libc) {d : Nat} {V : Json} (h : Json.Plain d V) :
    NoWsHead (Json.dumps L V) :=
  (h.printable L).dump_noWs L

theorem arr_tail_length_mem (L : Libc) (xs : List Json) (y : Json) (h : y ∈ xs) :
    (Json.dumps L y).length + 3 ≤ (arr_tail L xs).length := by
  induction xs with
  | nil => simp at h
  | cons x xs ih =>
    simp only [arr_tail, List.length_cons, List.length_append]
    rcases List.mem_cons.1 h with e | e
    · subst e
      have : 1 ≤ (arr_tail L xs).length := by cases xs <;> simp [arr_tail]
      omega
    · have := ih e
      omega

theorem arr_tail_length_count (L : Libc) (xs : List Json) :
    xs.length + 1 ≤ (arr_tail L xs).length := by
  induction xs with
  | nil => simp [arr_tail]
  | cons x xs ih =>
    simp only [arr_tail, List.length_cons, List.length_append]
    omega

theorem obj_tail_length_mem (L : Libc) (m : List (List Nat × Json)) (e : List Nat × Json)
    (h : e ∈ m) : (Json.dumps L e.2).length + 3 ≤ (obj_tail L m).length := by
  induction m with
  | nil => simp at h
  | cons x xs ih =>
    simp only [obj_tail, List.length_cons, List.length_append]
    rcases List.mem_cons.1 h with e' | e'
    · subst e'
      have := member_text_length L e
      omega
    · have := ih e'
      omega

theorem obj_tail_length_count (L : Libc) (m : List (List Nat × Json)) :
    m.length + 1 ≤ (obj_tail L m).length := by
  induction m with
  | nil => simp [obj_tail]
  | cons x xs ih =>
    simp only [obj_tail, List.length_cons, List.length_append]
    omega

/-! ### Members written in key order are stored in that order -/

theorem string_lt_asymm : ∀ (a b : List Nat), string_lt a b = true → string_lt b a = false
  | [], [], h => by simp [string_lt] at h
  | [], _ :: _, _ => by simp [string_lt]
  | _ :: _, [], h => by simp [string_lt] at h
  | a :: as, b :: bs, h => by
    simp only [string_lt] at h ⊢
    by_cases h1 : a < b
    · rw [if_neg (by omega), if_pos h1]
    · rw [if_neg h1] at h
      by_cases h2 : b < a
      · rw [if_pos h2] at h
        cases h
      · rw [if_neg h2] at h
        rw [if_neg h2, if_neg h1]
        exact string_lt_asymm as bs h

theorem map_assign_append (k : List Nat) (v : Json) :
    ∀ (data : List (List Nat × Json)), (∀ e ∈ data, string_lt e.1 k = true) →
      map_assign k v data = data ++ [(k, v)]
  | [], _ => rfl
  | (k', v') :: rest, h => by
    have h1 := h (k', v') (by simp)
    simp only [map_assign]
    rw [if_neg (by rw [string_lt_asymm _ _ h1]; simp), if_pos h1,
      map_assign_append k v rest (fun e he => h e (by simp [he]))]
    rfl

theorem assign_all_sorted : ∀ (m data : List (List Nat × Json)),
    List.Pairwise (fun a b => string_lt a.1 b.1 = true) (data ++ m) →
    assign_all data m = data ++ m
  | [], data, _ => by simp [assign_all]
  | (k, v) :: m, data, h => by
    have h1 : ∀ e ∈ data, string_lt e.1 k = true := by
      intro e he
      rw [List.pairwise_append] at h
      exact h.2.2 e he (k, v) (by simp)
    have h2 := assign_all_sorted m (data ++ [(k, v)]) (by simpa using h)
    simp only [assign_all, List.foldl_cons] at h2 ⊢
    rw [map_assign_append k v data h1, h2]
    simp

theorem reparsed_object_keys (L : Libc) : ∀ (m : List (List Nat × Json)) (e : List Nat × Json),
    e ∈ Json.reparsed_object L m → ∃ e' ∈ m, e'.1 = e.1
  | [], e, h => by simp [Json.reparsed_object] at h
  | (k, v) :: m, e, h => by
    simp only [Json.reparsed_object, List.mem_cons] at h
    rcases h with h | h
    · exact ⟨(k, v), by simp, by rw [h]⟩
    · obtain ⟨e', he', hk⟩ := reparsed_object_keys L m e h
      exact ⟨e', by simp [he'], hk⟩

theorem reparsed_object_sorted (L : Libc) : ∀ (m : List (List Nat × Json)),
    List.Pairwise (fun a b => string_lt a.1 b.1 = true) m →
    List.Pairwise (fun a b => string_lt a.1 b.1 = true) (Json.reparsed_object L m)
  | [], _ => by simp [Json.reparsed_object]
  | (k, v) :: m, h => by
    rw [List.pairwise_cons] at h
    simp only [Json.reparsed_object, List.pairwise_cons]
    refine ⟨?_, reparsed_object_sorted L m h.2⟩
    intro e he
    obtain ⟨e', he', hk⟩ := reparsed_object_keys L m e he
    rw [← hk]
    exact h.1 e' he'

theorem assign_all_reparsed (L : Libc) (m : List (List Nat × Json))
    (h : List.Pairwise (fun a b => string_lt a.1 b.1 = true) m) :
    assign_all [] (Json.reparsed_object L m) = Json.reparsed_object L m := by
  rw [assign_all_sorted _ [] (by simpa using reparsed_object_sorted L m h)]
  rfl

/-! ## The round trip of `parse_json` -/

theorem parse_json_dump (L : Libc) (hL : StrtodInt L) :
    ∀ (fuel : Nat) (V : Json) (d : Nat), (Json.dumps L V).length ≤ fuel → Json.Printable L d V →
      ReadsBack L (parse_json L fuel d) V
  | 0, V, d, hlen, hP => by
    obtain ⟨c, rest, hc, _⟩ := hP.dump_first L
    rw [hc] at hlen
    simp at hlen
  | fuel + 1, V, d, hlen, hP => by
    intro q r post hr hs hends hsuf htok
    have hd : ¬ d > max_depth := by
      have := hP.depth_le
      omega
    rw [parse_json_succ, if_neg hd, htok]
    simp only [adv_failed, hr, Bool.false_eq_true, if_false]
    cases hP with
    | null _ _ =>
      rw [dumps_null] at hsuf ⊢
      simp only [List.getD_cons_zero]
      rw [if_neg (by decide), if_pos (by decide), expect_dump (bytes "null") Json.null r post hsuf]
      rfl
    | bool _ b _ =>
      cases b
      · rw [dumps_bool] at hsuf ⊢
        simp only [Bool.false_eq_true, if_false, List.getD_cons_zero] at hsuf ⊢
        rw [if_neg (by decide), if_neg (by decide), if_neg (by decide), if_pos (by decide),
          expect_dump (bytes "false") (Json.bool false) r post hsuf]
        rfl
      · rw [dumps_bool] at hsuf ⊢
        simp only [if_true, List.getD_cons_zero] at hsuf ⊢
        rw [if_neg (by decide), if_neg (by decide),
          expect_dump (bytes "true") (Json.bool true) r post hsuf]
        rfl
    | int _ n _ hn =>
      rw [dumps_int] at hsuf ⊢
      obtain ⟨c, rest, hc, h⟩ := intToDec_head n
      have hg : (intToDec n).getD 0 0 = c := by
        rw [hc]
        rfl
      rw [hg, if_pos (by omega), back_adv r 0, adv_zero, parse_number_dump L hL n hn r post
        hends hsuf]
    | double _ x _ hx =>
      by_cases hf : x.isfinite = true
      · have hx := hx hf
        obtain ⟨c, rest, hc, h⟩ := hx.1.head
        rw [dumps_double, if_pos hf] at hsuf ⊢
        have hg : (L.fmt17g x).getD 0 0 = c := by
          rw [hc]
          rfl
        rw [hg, if_pos (by omega), back_adv r 0, adv_zero,
          parse_number_printed L x hx r post hends hsuf]
        simp only [Json.reparsed, hf, if_true]
      · have e : Json.dumps L (Json.double x) = [110, 117, 108, 108] := by
          rw [dumps_double, if_neg hf]
          rfl
        have er : Json.reparsed L (Json.double x) = Json.null := by
          simp only [Json.reparsed]
          rw [if_neg hf]
        rw [e] at hsuf ⊢
        rw [er]
        simp only [List.getD_cons_zero]
        rw [if_neg (by decide), if_pos (by decide), expect_dump (bytes "null") Json.null r post hsuf]
        rfl
    | string _ s _ =>
      rw [dumps_string] at hsuf ⊢
      have h1 : (r.adv 1).str.drop (r.adv 1).i = dump_string_body s 0 ++ 34 :: post := by
        rw [drop_adv, hsuf]
        simp
      simp only [List.getD_cons_zero]
      rw [if_neg (by decide), if_neg (by decide), if_neg (by decide), if_neg (by decide),
        if_pos (by decide), parse_string_dump s (r.adv 1) post h1, adv_adv]
      simp only [Json.reparsed, List.length_cons, List.length_append, List.length_singleton,
        List.length_nil]
      congr 3
      omega
    | array _ xs _ hxs =>
      cases xs with
      | nil =>
        rw [dumps_array_nil] at hsuf ⊢
        have h1 : (r.adv 1).str.drop (r.adv 1).i = 93 :: post := by
          rw [drop_adv, hsuf]
          rfl
        simp only [List.getD_cons_zero]
        rw [if_neg (by decide), if_neg (by decide), if_neg (by decide), if_neg (by decide),
          if_neg (by decide), if_neg (by decide), if_pos (by decide),
          get_next_token_head (r.adv 1) 93 post hr hs h1 (by decide), if_pos (by rfl), adv_adv]
        rfl
      | cons x xs =>
        rw [dumps_array_cons] at hsuf hlen ⊢
        obtain ⟨c, rest, hc, hh⟩ := (hxs x (by simp)).dump_first L
        have h1 : (r.adv 1).str.drop (r.adv 1).i =
            Json.dumps L x ++ (arr_tail L xs ++ post) := by
          rw [drop_adv, hsuf]
          simp
        have h1' : (r.adv 1).str.drop (r.adv 1).i = c :: (rest ++ (arr_tail L xs ++ post)) := by
          rw [h1, hc]
          rfl
        have hcount := arr_tail_length_count L xs
        simp only [List.length_cons, List.length_append] at hlen
        simp only [List.getD_cons_zero]
        rw [if_neg (by decide), if_neg (by decide), if_neg (by decide), if_neg (by decide),
          if_neg (by decide), if_neg (by decide), if_pos (by decide),
          get_next_token_head (r.adv 1) c _ hr hs h1' (by omega), if_neg (by simp; omega)]
        simp only []
        rw [parse_array_loop_dump L _ xs x fuel [] (r.adv 1) post ?_ hr hs h1 (by omega), adv_adv]
        · simp only [Json.reparsed, Json.reparsed_array, List.nil_append, List.length_cons,
            List.length_append]
          congr 3
          omega
        · intro y hy
          have hy' : (Json.dumps L y).length ≤ fuel := by
            rcases List.mem_cons.1 hy with e | e
            · subst e
              omega
            · have := arr_tail_length_mem L xs y e
              omega
          exact ⟨parse_json_dump L hL fuel y (d + 1) hy' (hxs y hy), (hxs y hy).dump_noWs L⟩
    | object _ m _ hm hsorted =>
      cases m with
      | nil =>
        rw [dumps_object_nil] at hsuf ⊢
        have h1 : (r.adv 1).str.drop (r.adv 1).i = 125 :: post := by
          rw [drop_adv, hsuf]
          rfl
        simp only [List.getD_cons_zero]
        rw [if_neg (by decide), if_neg (by decide), if_neg (by decide), if_neg (by decide),
          if_neg (by decide), if_pos (by decide),
          get_next_token_head (r.adv 1) 125 post hr hs h1 (by decide), if_pos (by rfl), adv_adv]
        rfl
      | cons kv m =>
        rw [dumps_object_cons] at hsuf hlen ⊢
        have h1 : (r.adv 1).str.drop (r.adv 1).i =
            member_text L kv ++ (obj_tail L m ++ post) := by
          rw [drop_adv, hsuf]
          simp
        have h1' : (r.adv 1).str.drop (r.adv 1).i =
            34 :: (dump_string_body kv.1 0 ++ 34 :: 58 :: 32 :: Json.dumps L kv.2 ++
              (obj_tail L m ++ post)) := by
          rw [h1]
          simp [member_text]
        have hcount := obj_tail_length_count L m
        have hmt := member_text_length L kv
        simp only [List.length_cons, List.length_append] at hlen
        simp only [List.getD_cons_zero]
        rw [if_neg (by decide), if_neg (by decide), if_neg (by decide), if_neg (by decide),
          if_neg (by decide), if_pos (by decide),
          get_next_token_head (r.adv 1) 34 _ hr hs h1' (by decide), if_neg (by simp)]
        simp only []
        rw [parse_object_loop_dump L _ m kv fuel [] (r.adv 1) post ?_ hr hs h1 (by omega),
          adv_adv, assign_all_reparsed L _ hsorted]
        · simp only [Json.reparsed, List.length_cons, List.length_append]
          congr 3
          omega
        · intro e he
          have he' : (Json.dumps L e.2).length ≤ fuel := by
            rcases List.mem_cons.1 he with h | h
            · subst h
              omega
            · have := obj_tail_length_mem L m e h
              omega
          exact ⟨parse_json_dump L hL fuel e.2 (d + 1) he' (hm e he), (hm e he).dump_noWs L⟩

/-! ## The round trip of `Json::parse` -/

theorem Json.parse_printed (L : Libc) (hL : StrtodInt L) (V : Json) (hP : Json.Printable L 0 V)
    (err : List Nat) :
    Json.parse L (Json.dumps L V) err JsonParse.STANDARD = some (Json.reparsed L V, err) := by
  obtain ⟨c, rest, hc, hws⟩ := hP.dump_noWs L
  have hsuf : (JsonParser.mk (Json.dumps L V) 0 err false JsonParse.STANDARD).str.drop
      (JsonParser.mk (Json.dumps L V) 0 err false JsonParse.STANDARD).i =
      Json.dumps L V ++ [] := by simp
  have htok : get_next_token (JsonParser.mk (Json.dumps L V) 0 err false JsonParse.STANDARD) =
      ((Json.dumps L V).getD 0 0,
        (JsonParser.mk (Json.dumps L V) 0 err false JsonParse.STANDARD).adv 1) := by
    rw [get_next_token_head _ c rest rfl rfl (by simp [hc]) hws, hc]
    rfl
  have hj := parse_json_dump L hL (parse_json_fuel (Json.dumps L V)) V 0
    (by simp only [parse_json_fuel]; omega) hP _ _ [] rfl rfl EndsValue.nil hsuf htok
  have hend := get_next_token_end
    ((JsonParser.mk (Json.dumps L V) 0 err false JsonParse.STANDARD).adv (Json.dumps L V).length)
    rfl (by simp [JsonParser.adv]) (by simp [JsonParser.adv])
  simp only [Json.parse]
  rw [Json.parse_state_eq L _ _ _ _ hj]
  simp only [hend.1]
  rw [if_neg (by simp [JsonParser.adv]), if_neg (by simp [JsonParser.adv])]
  rfl

theorem Json.parse_dump (L : Libc) (hL : StrtodInt L) (V : Json) (hP : Json.Plain 0 V)
    (err : List Nat) :
    Json.parse L (Json.dumps L V) err JsonParse.STANDARD = some (Json.reparsed L V, err) :=
  Json.parse_printed L hL V (hP.printable L) err

theorem Double.eq_ofInt (n : Int) : Double.eq (Double.ofInt n) (Double.ofInt n) = true := by
  simp [Double.eq, Double.ofInt]

theorem Double.eq_finite_self (x : Double) (h : x.isfinite = true) : Double.eq x x = true := by
  cases x <;> simp [Double.eq, Double.isfinite] at h ⊢

theorem mem_doubles_array : ∀ (xs : List Json) (x : Json) (y : Double), x ∈ xs →
    y ∈ x.doubles → y ∈ Json.doubles_array xs
  | [], _, _, h, _ => by simp at h
  | a :: xs, x, y, h, hy => by
    simp only [Json.doubles_array, List.mem_append]
    rcases List.mem_cons.1 h with rfl | h
    · exact Or.inl hy
    · exact Or.inr (mem_doubles_array xs x y h hy)

theorem mem_doubles_object : ∀ (m : List (List Nat × Json)) (e : List Nat × Json) (y : Double),
    e ∈ m → y ∈ e.2.doubles → y ∈ Json.doubles_object m
  | [], _, _, h, _ => by simp at h
  | (k, v) :: m, e, y, h, hy => by
    simp only [Json.doubles_object, List.mem_append]
    rcases List.mem_cons.1 h with rfl | h
    · exact Or.inl hy
    · exact Or.inr (mem_doubles_object m e y h hy)

theorem Json.Plain.doubles_nil {d : Nat} {V : Json} (h : Json.Plain d V) : V.doubles = [] := by
  induction h with
  | null _ _ => rfl
  | bool _ _ _ => rfl
  | int _ _ _ _ => rfl
  | string _ _ _ => rfl
  | array _ xs _ _ ih =>
    simp only [Json.doubles]
    clear * - ih
    induction xs with
    | nil => rfl
    | cons x xs ihx =>
      simp only [Json.doubles_array]
      rw [ih x (by simp), ihx (fun y hy => ih y (by simp [hy]))]
      rfl
  | object _ m _ _ _ ih =>
    simp only [Json.doubles]
    clear * - ih
    induction m with
    | nil => rfl
    | cons e m ihm =>
      obtain ⟨k, v⟩ := e
      simp only [Json.doubles_object]
      rw [ih (k, v) (by simp), ihm (fun y hy => ih y (by simp [hy]))]
      rfl

/-- A native value is printable when the C library prints and reads back each of
its finite doubles. -/
theorem Json.Native.printable_of (L : Libc) {d : Nat} {V : Json} (h : Json.Native d V) :
    (∀ x ∈ V.doubles, x.isfinite = true → PrintsBack L x) → Json.Printable L d V := by
  induction h with
  | null d h => exact fun _ => Json.Printable.null d h
  | bool d b h => exact fun _ => Json.Printable.bool d b h
  | int d n h hn => exact fun _ => Json.Printable.int d n h hn
  | double d x h => exact fun hp => Json.Printable.double d x h (hp x (by simp [Json.doubles]))
  | string d s h => exact fun _ => Json.Printable.string d s h
  | array d xs h _ ih =>
    intro hp
    exact Json.Printable.array d xs h
      (fun x hx => ih x hx (fun y hy => hp y (mem_doubles_array xs x y hx hy)))
  | object d m h _ hs ih =>
    intro hp
    exact Json.Printable.object d m h
      (fun e he => ih e he (fun y hy => hp y (mem_doubles_object m e y he hy))) hs

/-- The value read back from the dump of a value whose doubles are all finite
is equal to it. -/
theorem Json.eq_reprinted (L : Libc) {d : Nat} {V : Json} (h : Json.Printable L d V) :
    (∀ x ∈ V.doubles, x.isfinite = true) → Json.eq (Json.reparsed L V) V = true := by
  induction h with
  | null _ _ => exact fun _ => rfl
  | bool _ b _ => cases b <;> exact fun _ => rfl
  | int _ n _ _ =>
    intro _
    simp only [Json.reparsed]
    split <;> simp [Json.eq, Double.eq_ofInt]
  | double _ x _ hx =>
    intro hfin
    have hf := hfin x (by simp [Json.doubles])
    simp only [Json.reparsed, hf, if_true]
    by_cases hs : short_integer (L.fmt17g x) = true
    · rw [if_pos hs]
      simp only [Json.eq]
      exact (hx hf).2.1 hs
    · rw [if_neg hs]
      simp only [Json.eq]
      exact Double.eq_finite_self x hf
  | string _ s _ => exact fun _ => by simp [Json.reparsed, Json.eq]
  | array _ xs _ _ ih =>
    intro hfin
    have ih' : ∀ x ∈ xs, Json.eq (Json.reparsed L x) x = true :=
      fun x hx => ih x hx (fun y hy => hfin y (mem_doubles_array xs x y hx hy))
    simp only [Json.reparsed, Json.eq]
    clear * - ih'
    induction xs with
    | nil => rfl
    | cons x xs ihx =>
      simp only [Json.reparsed_array, Json.eq_array, Bool.and_eq_true]
      exact ⟨ih' x (by simp), ihx (fun y hy => ih' y (by simp [hy]))⟩
  | object _ m _ _ _ ih =>
    intro hfin
    have ih' : ∀ e ∈ m, Json.eq (Json.reparsed L e.2) e.2 = true :=
      fun e he => ih e he (fun y hy => hfin y (mem_doubles_object m e y he hy))
    simp only [Json.reparsed, Json.eq]
    clear * - ih'
    induction m with
    | nil => rfl
    | cons e m ihm =>
      obtain ⟨k, v⟩ := e
      simp only [Json.reparsed_object, Json.eq_object, Bool.and_eq_true, decide_eq_true_eq]
      exact ⟨⟨trivial, ih' (k, v) (by simp)⟩, ihm (fun y hy => ih' y (by simp [hy]))⟩

theorem Json.eq_reparsed (L : Libc) {d : Nat} {V : Json} (h : Json.Plain d V) :
    Json.eq (Json.reparsed L V) V = true :=
  Json.eq_reprinted L (h.printable L) (by rw [h.doubles_nil]; simp)

theorem arr_tail_reparsed (L : Libc) : ∀ (xs : List Json),
    (∀ x ∈ xs, Json.dumps L (Json.reparsed L x) = Json.dumps L x) →
    arr_tail L (Json.reparsed_array L xs) = arr_tail L xs
  | [], _ => rfl
  | x :: xs, h => by
    simp only [Json.reparsed_array, arr_tail]
    rw [h x (by simp), arr_tail_reparsed L xs (fun y hy => h y (by simp [hy]))]

theorem obj_tail_reparsed (L : Libc) : ∀ (m : List (List Nat × Json)),
    (∀ e ∈ m, Json.dumps L (Json.reparsed L e.2) = Json.dumps L e.2) →
    obj_tail L (Json.reparsed_object L m) = obj_tail L m
  | [], _ => rfl
  | (k, v) :: m, h => by
    simp only [Json.reparsed_object, obj_tail, member_text]
    rw [h (k, v) (by simp), obj_tail_reparsed L m (fun y hy => h y (by simp [hy]))]

/-- A double that an integer compares equal to, and that is not negative zero,
is that integer. -/
theorem Double.eq_ofInt_inv (n : Int) (x : Double) (h : Double.eq (Double.ofInt n) x = true)
    (hz : x ≠ Double.negZero) : Double.ofInt n = x := by
  cases x with
  | finite q =>
    simp only [Double.eq, Double.ofInt, decide_eq_true_eq] at h
    rw [Double.ofInt, h]
  | negZero => exact absurd rfl hz
  | posInf => simp [Double.eq, Double.ofInt] at h
  | negInf => simp [Double.eq, Double.ofInt] at h
  | nan => simp [Double.eq, Double.ofInt] at h

/-- The value read back from the dump of a value that holds no negative zero is
dumped as the value was. -/
theorem Json.dumps_reprinted (L : Libc) (hF : FmtInt L) {d : Nat} {V : Json}
    (h : Json.Printable L d V) :
    Double.negZero ∉ V.doubles → Json.dumps L (Json.reparsed L V) = Json.dumps L V := by
  induction h with
  | null _ _ => exact fun _ => rfl
  | bool _ b _ => exact fun _ => rfl
  | int _ n _ hn =>
    intro _
    simp only [Json.reparsed]
    split
    · rfl
    · simp only [Json.dumps, Json.dump, dump_double, dump_int, Double.ofInt, Double.isfinite,
        if_true]
      rw [← Double.ofInt, hF n hn]
  | double _ x _ hx =>
    intro hz
    have hz' : x ≠ Double.negZero := by
      intro e
      apply hz
      simp [Json.doubles, e]
    by_cases hf : x.isfinite = true
    · simp only [Json.reparsed, hf, if_true]
      by_cases hs : short_integer (L.fmt17g x) = true
      · rw [if_pos hs, dumps_int, dumps_double, if_pos hf]
        have hxe := Double.eq_ofInt_inv _ x ((hx hf).2.1 hs) hz'
        have e := hF _ (isInt32_atoi_short (hx hf).1 hs)
        rw [hxe] at e
        exact e.symm
      · rw [if_neg hs]
    · simp only [Json.reparsed]
      rw [if_neg hf, dumps_double, if_neg hf]
      rfl
  | string _ s _ => exact fun _ => rfl
  | array _ xs _ _ ih =>
    intro hz
    have ih' : ∀ x ∈ xs, Json.dumps L (Json.reparsed L x) = Json.dumps L x :=
      fun x hx => ih x hx (fun hy => hz (mem_doubles_array xs x _ hx hy))
    simp only [Json.reparsed]
    cases xs with
    | nil => rfl
    | cons x xs =>
      simp only [Json.reparsed_array]
      rw [dumps_array_cons, dumps_array_cons, ih' x (by simp),
        arr_tail_reparsed L xs (fun y hy => ih' y (by simp [hy]))]
  | object _ m _ _ _ ih =>
    intro hz
    have ih' : ∀ e ∈ m, Json.dumps L (Json.reparsed L e.2) = Json.dumps L e.2 :=
      fun e he => ih e he (fun hy => hz (mem_doubles_object m e _ he hy))
    simp only [Json.reparsed]
    cases m with
    | nil => rfl
    | cons e m =>
      obtain ⟨k, v⟩ := e
      simp only [Json.reparsed_object]
      rw [dumps_object_cons, dumps_object_cons, member_text, member_text, ih' (k, v) (by simp),
        obj_tail_reparsed L m (fun y hy => ih' y (by simp [hy]))]

theorem Json.dumps_reparsed (L : Libc) (hF : FmtInt L) {d : Nat} {V : Json}
    (h : Json.Plain d V) : Json.dumps L (Json.reparsed L V) = Json.dumps L V :=
  Json.dumps_reprinted L hF (h.printable L) (by rw [h.doubles_nil]; simp)

theorem strtodInt_sample : StrtodInt sample_libc := by
  intro n rest _ hrest
  simp only [sample_libc]
  rw [atoi_intToDec n rest hrest.noDigit]

theorem fmtInt_sample : FmtInt sample_libc := by
  intro n _
  simp [sample_libc, Double.ofInt]

/-! ## The C library of the examples with doubles -/

theorem intToDec_take_ne (n : Int) (rest : List Nat) (hrest : EndsValue rest) :
    (intToDec n ++ rest).take 3 ≠ bytes "0.5" := by
  by_cases h0 : n = 0
  · subst h0
    have e : intToDec 0 = [48] := by decide
    rw [e]
    cases rest with
    | nil => decide
    | cons c cs =>
      have := hrest c cs rfl
      intro h
      simp only [List.singleton_append, List.take_succ_cons, bytes] at h
      have h2 : c = 46 := by
        have := congrArg (fun l => l.getD 1 0) h
        simpa using this
      omega
  · have hh : ∃ c r, intToDec n = c :: r ∧ c ≠ 48 := by
      simp only [intToDec]
      by_cases hn : n < 0
      · rw [if_pos hn]
        exact ⟨45, _, rfl, by decide⟩
      · rw [if_neg hn]
        obtain ⟨c, cs, hc, h1, _⟩ := natToDec_head n.toNat (by omega)
        exact ⟨c, cs, hc, by omega⟩
    obtain ⟨c, r, hc, hne⟩ := hh
    rw [hc]
    intro h
    have h2 : c = 48 := by
      have := congrArg (fun l => l.getD 0 0) h
      simpa using this
    exact hne h2

theorem strtodInt_decimal : StrtodInt decimal_libc := by
  intro n rest _ hrest
  simp only [decimal_libc]
  rw [if_neg (intToDec_take_ne n rest hrest), atoi_intToDec n rest hrest.noDigit]

theorem fmtInt_decimal : FmtInt decimal_libc := by
  intro n _
  simp [decimal_libc, Double.ofInt]

theorem fmt_decimal_int (n : Int) : decimal_libc.fmt17g (Double.ofInt n) = intToDec n := by
  simp [decimal_libc, Double.ofInt]

theorem fmt_decimal_half : decimal_libc.fmt17g (Double.finite (1 / 2)) = bytes "0.5" := by
  simp [decimal_libc]

/-- One half is printed as `0.5` and read back by `strtod`. -/
theorem printsBack_half : PrintsBack decimal_libc (Double.finite (1 / 2)) := by
  rw [PrintsBack, fmt_decimal_half]
  refine ⟨⟨[], [48], [46, 53], [], Or.inl rfl, Or.inl rfl,
    Or.inr ⟨[53], by decide, by decide, rfl⟩, Or.inl rfl, by decide⟩, ?_, ?_⟩
  · intro h
    revert h
    decide
  · intro _ rest _
    simp [decimal_libc, bytes]

/-- A double that is a short integer is printed by its digits and read back by `atoi`. -/
theorem printsBack_five : PrintsBack decimal_libc (Double.ofInt 5) := by
  rw [PrintsBack, fmt_decimal_int]
  refine ⟨⟨[], [53], [], [], Or.inl rfl, Or.inr ⟨53, [], by decide, by decide, by decide, rfl⟩,
    Or.inl rfl, Or.inl rfl, by decide⟩, ?_, ?_⟩
  · intro _
    have e : atoi (intToDec 5) = 5 := by decide
    rw [e]
    exact Double.eq_ofInt 5
  · intro h
    have hf : short_integer (intToDec 5) = true := by decide
    rw [hf] at h
    cases h

/-- The largest `int` held as a double is printed by its ten digits and read
back by `strtod`. -/
theorem printsBack_largest : PrintsBack decimal_libc (Double.ofInt 2147483647) := by
  rw [PrintsBack, fmt_decimal_int]
  refine ⟨⟨[], bytes "2147483647", [], [], Or.inl rfl,
    Or.inr ⟨50, bytes "147483647", by decide, by decide, by decide, by decide⟩,
    Or.inl rfl, Or.inl rfl, by decide!⟩, ?_, ?_⟩
  · intro h
    have hf : short_integer (intToDec 2147483647) = false := by decide!
    rw [hf] at h
    cases h
  · intro _ rest hrest
    exact strtodInt_decimal 2147483647 rest (by unfold IsInt32; decide) hrest

/-- Negative zero is printed as `-0` and read back by `atoi` as the integer 0,
which compares equal to it. -/
theorem printsBack_negZero : PrintsBack decimal_libc Double.negZero := by
  have e : decimal_libc.fmt17g Double.negZero = bytes "-0" := rfl
  rw [PrintsBack, e]
  refine ⟨⟨[45], [48], [], [], Or.inr rfl, Or.inl rfl, Or.inl rfl, Or.inl rfl, by decide⟩, ?_, ?_⟩
  · intro _
    have e : atoi (bytes "-0") = 0 := by decide
    rw [e]
    simp [Double.eq, Double.ofInt]
  · intro h
    have hf : short_integer (bytes "-0") = true := by decide
    rw [hf] at h
    cases h

theorem native_sample_finite : Json.Native 0 sample_finite := by
  refine Json.Native.object 0 _ (by decide) ?_ (by decide)
  intro kv hkv
  simp only [List.mem_cons, List.mem_singleton, List.not_mem_nil, or_false] at hkv
  rcases hkv with rfl | rfl
  · refine Json.Native.array 1 _ (by decide) ?_
    intro x hx
    simp only [List.mem_cons, List.mem_singleton, List.not_mem_nil, or_false] at hx
    rcases hx with rfl | rfl | rfl | rfl | rfl
    · exact Json.Native.double 2 _ (by decide)
    · exact Json.Native.double 2 _ (by decide)
    · exact Json.Native.double 2 _ (by decide)
    · exact Json.Native.double 2 _ (by decide)
    · exact Json.Native.int 2 _ (by decide) (by unfold IsInt32; decide)
  · exact Json.Native.string 1 _ (by decide)

theorem doubles_sample_finite : sample_finite.doubles =
    [Double.finite (1 / 2), Double.ofInt 5, Double.ofInt 2147483647, Double.negZero] := by
  simp [sample_finite, Json.doubles, Json.doubles_array, Json.doubles_object]

theorem finite_sample_finite : ∀ x ∈ sample_finite.doubles, x.isfinite = true := by
  rw [doubles_sample_finite]
  intro x hx
  simp only [List.mem_cons, List.mem_singleton, List.not_mem_nil, or_false] at hx
  rcases hx with rfl | rfl | rfl | rfl <;> rfl

theorem printsBack_sample_finite : ∀ x ∈ sample_finite.doubles, PrintsBack decimal_libc x := by
  rw [doubles_sample_finite]
  intro x hx
  simp only [List.mem_cons, List.mem_singleton, List.not_mem_nil, or_false] at hx
  rcases hx with rfl | rfl | rfl | rfl
  · exact printsBack_half
  · exact printsBack_five
  · exact printsBack_largest
  · exact printsBack_negZero

theorem native_sample_mixed : Json.Native 0 sample_mixed := by
  refine Json.Native.array 0 _ (by decide) ?_
  intro x hx
  simp only [List.mem_cons, List.mem_singleton, List.not_mem_nil, or_false] at hx
  rcases hx with rfl | rfl | rfl | rfl | rfl | rfl | rfl
  · exact Json.Native.double 1 _ (by decide)
  · exact Json.Native.double 1 _ (by decide)
  · exact Json.Native.double 1 _ (by decide)
  · exact Json.Native.double 1 _ (by decide)
  · exact Json.Native.double 1 _ (by decide)
  · exact Json.Native.int 1 _ (by decide) (by unfold IsInt32; decide)
  · exact Json.Native.string 1 _ (by decide)

theorem doubles_sample_mixed : sample_mixed.doubles =
    [Double.nan, Double.posInf, Double.finite (1 / 2), Double.ofInt 5,
      Double.ofInt 2147483647] := by
  simp [sample_mixed, Json.doubles, Json.doubles_array]

theorem negZero_sample_mixed : Double.negZero ∉ sample_mixed.doubles := by
  rw [doubles_sample_mixed]
  simp [Double.ofInt]

theorem printsBack_sample_mixed :
    ∀ x ∈ sample_mixed.doubles, x.isfinite = true → PrintsBack decimal_libc x := by
  rw [doubles_sample_mixed]
  intro x hx hf
  simp only [List.mem_cons, List.mem_singleton, List.not_mem_nil, or_false] at hx
  rcases hx with rfl | rfl | rfl | rfl | rfl
  · cases hf
  · cases hf
  · exact printsBack_half
  · exact printsBack_five
  · exact printsBack_largest

/-! ## The members of a parsed object -/

/-- One round of the recorded object loop, with the local bindings unfolded. -/
theorem object_members_loop_succ (value : JsonParser → Option (Json × JsonParser)) (fuel : Nat)
    (ch : Nat) (p : JsonParser) :
    object_members_loop value (fuel + 1) ch p =
      if ch ≠ 34 then []
      else if (parse_string p).2.failed then []
      else if (get_next_token (parse_string p).2).1 ≠ 58 then []
      else
        match value (get_next_token (parse_string p).2).2 with
        | none => []
        | some v =>
          if v.2.failed then []
          else if (get_next_token v.2).1 = 125 then [((parse_string p).1, v.1)]
          else if (get_next_token v.2).1 ≠ 44 then []
          else
            ((parse_string p).1, v.1) :: object_members_loop value fuel
              (get_next_token (get_next_token v.2).2).1
              (get_next_token (get_next_token v.2).2).2 := rfl

theorem assign_all_cons (data : List (List Nat × Json)) (e : List Nat × Json)
    (m : List (List Nat × Json)) :
    assign_all data (e :: m) = assign_all (map_assign e.1 e.2 data) m := rfl

theorem parse_object_loop_members (value : JsonParser → Option (Json × JsonParser)) :
    ∀ (fuel : Nat) (data : List (List Nat × Json)) (ch : Nat) (p : JsonParser)
      (m : List (List Nat × Json)) (pe : JsonParser),
    parse_object_loop value fuel data ch p = some (Json.object m, pe) →
    m = assign_all data (object_members_loop value fuel ch p)
  | 0, _, _, _, _, _, h => by simp [parse_object_loop] at h
  | fuel + 1, data, ch, p, m, pe, h => by
    rw [parse_object_loop_succ] at h
    rw [object_members_loop_succ]
    by_cases h1 : ch ≠ 34
    · rw [if_pos h1] at h
      cases h
    rw [if_neg h1] at h ⊢
    by_cases h2 : (parse_string p).2.failed = true
    · rw [if_pos h2] at h
      cases h
    rw [if_neg h2] at h ⊢
    by_cases h3 : (get_next_token (parse_string p).2).1 ≠ 58
    · rw [if_pos h3] at h
      cases h
    rw [if_neg h3] at h ⊢
    cases hval : value (get_next_token (parse_string p).2).2 with
    | none => simp [hval] at h
    | some v =>
      simp only [hval] at h ⊢
      by_cases h4 : v.2.failed = true
      · rw [if_pos h4] at h
        cases h
      rw [if_neg h4] at h ⊢
      by_cases h5 : (get_next_token v.2).1 = 125
      · rw [if_pos h5] at h ⊢
        cases h
        rfl
      rw [if_neg h5] at h ⊢
      by_cases h6 : (get_next_token v.2).1 ≠ 44
      · rw [if_pos h6] at h
        cases h
      rw [if_neg h6] at h ⊢
      rw [assign_all_cons]
      exact parse_object_loop_members value fuel _ _ _ m pe h

theorem parse_array_loop_not_object (value : JsonParser → Option (Json × JsonParser)) :
    ∀ (fuel : Nat) (data : List Json) (p : JsonParser) (m : List (List Nat × Json))
      (pe : JsonParser), parse_array_loop value fuel data p ≠ some (Json.object m, pe)
  | 0, _, _, _, _, h => by simp [parse_array_loop] at h
  | fuel + 1, data, p, m, pe, h => by
    rw [parse_array_loop_succ] at h
    cases hval : value p.back with
    | none => simp [hval] at h
    | some v =>
      simp only [hval] at h
      by_cases h1 : v.2.failed = true
      · rw [if_pos h1] at h
        cases h
      rw [if_neg h1] at h
      by_cases h2 : (get_next_token v.2).1 = 93
      · rw [if_pos h2] at h
        cases h
      rw [if_neg h2] at h
      by_cases h3 : (get_next_token v.2).1 ≠ 44
      · rw [if_pos h3] at h
        cases h
      rw [if_neg h3] at h
      exact parse_array_loop_not_object value fuel _ _ m pe h

theorem expect_not_object (e : List Nat) (res : Json) (p : JsonParser)
    (m : List (List Nat × Json)) (pe : JsonParser) (hres : ∀ m, res ≠ Json.object m) :
    expect e res p ≠ (Json.object m, pe) := by
  intro h
  simp only [expect] at h
  split at h
  · cases h
    exact hres m rfl
  · cases h

theorem parse_number_not_object (L : Libc) (p : JsonParser) (m : List (List Nat × Json))
    (pe : JsonParser) : parse_number L p ≠ (Json.object m, pe) := by
  intro h
  obtain ⟨q, hq | hq | hq⟩ := parse_number_shape p
  · rw [hq.2 L] at h
    cases h
  · rw [hq.2 L] at h
    cases h
  · rw [hq.2 L] at h
    cases h

/-- An object returned by `parse_json` holds the members its object branch
read, assigned in the order of the text. -/
theorem parse_json_members (L : Libc) (fuel depth : Nat) (p : JsonParser)
    (m : List (List Nat × Json)) (pe : JsonParser)
    (h : parse_json L (fuel + 1) depth p = some (Json.object m, pe)) :
    m = assign_all [] (object_members_loop (parse_json L fuel (depth + 1)) fuel
      (get_next_token (get_next_token p).2).1 (get_next_token (get_next_token p).2).2) := by
  rw [parse_json_succ] at h
  by_cases h0 : depth > max_depth
  · rw [if_pos h0] at h
    cases h
  rw [if_neg h0] at h
  by_cases h1 : (get_next_token p).2.failed = true
  · rw [if_pos h1] at h
    cases h
  rw [if_neg h1] at h
  by_cases h2 : (get_next_token p).1 = 45 ∨
      ((get_next_token p).1 ≥ 48 ∧ (get_next_token p).1 ≤ 57)
  · rw [if_pos h2] at h
    exact absurd (Option.some.inj h) (parse_number_not_object L _ m pe)
  rw [if_neg h2] at h
  by_cases h3 : (get_next_token p).1 = 110
  · rw [if_pos h3] at h
    exact absurd (Option.some.inj h) (expect_not_object _ _ _ m pe (fun _ e => by cases e))
  rw [if_neg h3] at h
  by_cases h4 : (get_next_token p).1 = 116
  · rw [if_pos h4] at h
    exact absurd (Option.some.inj h) (expect_not_object _ _ _ m pe (fun _ e => by cases e))
  rw [if_neg h4] at h
  by_cases h5 : (get_next_token p).1 = 102
  · rw [if_pos h5] at h
    exact absurd (Option.some.inj h) (expect_not_object _ _ _ m pe (fun _ e => by cases e))
  rw [if_neg h5] at h
  by_cases h6 : (get_next_token p).1 = 34
  · rw [if_pos h6] at h
    cases h
  rw [if_neg h6] at h
  by_cases h7 : (get_next_token p).1 = 123
  · rw [if_pos h7] at h
    by_cases h8 : (get_next_token (get_next_token p).2).1 = 125
    · rw [if_pos h8] at h
      cases h
      rw [h8]
      cases fuel <;> rfl
    rw [if_neg h8] at h
    exact parse_object_loop_members _ fuel [] _ _ m pe h
  rw [if_neg h7] at h
  by_cases h9 : (get_next_token p).1 = 91
  · rw [if_pos h9] at h
    by_cases h10 : (get_next_token (get_next_token p).2).1 = 93
    · rw [if_pos h10] at h
      cases h
    rw [if_neg h10] at h
    exact absurd h (parse_array_loop_not_object _ fuel [] _ m pe)
  rw [if_neg h9] at h
  cases h

theorem Json.parse_state_members (L : Libc) (inp err : List Nat) (strategy : JsonParse)
    (m : List (List Nat × Json)) (pe : JsonParser)
    (h : Json.parse_state L inp err strategy = some (Json.object m, pe)) :
    m = assign_all [] (Json.parse_members L inp err strategy) := by
  obtain ⟨r, hr⟩ := parse_json_fuel_some L 0 ⟨inp, 0, err, false, strategy⟩ (Nat.zero_le _)
  rw [Json.parse_state_eq L inp err strategy r hr] at h
  by_cases h1 : (consume_garbage r.2).failed = true
  · rw [if_pos h1] at h
    cases h
  rw [if_neg h1] at h
  by_cases h2 : (consume_garbage r.2).i ≠ inp.length
  · rw [if_pos h2] at h
    cases h
  rw [if_neg h2] at h
  obtain ⟨v, q⟩ := r
  have hv : v = Json.object m := by
    cases h
    rfl
  subst hv
  have hfuel : parse_json_fuel inp = (2 * inp.length + 3) + 1 := rfl
  rw [hfuel] at hr
  have hm := parse_json_members L (2 * inp.length + 3) 0 _ m q hr
  simp only [Json.parse_members]
  exact hm

theorem Json.parse_members_eq (L : Libc) (inp err : List Nat) (strategy : JsonParse)
    (m : List (List Nat × Json)) (e : List Nat)
    (h : Json.parse L inp err strategy = some (Json.object m, e)) :
    m = assign_all [] (Json.parse_members L inp err strategy) := by
  simp only [Json.parse] at h
  cases hs : Json.parse_state L inp err strategy with
  | none => simp [hs] at h
  | some r =>
    rw [hs] at h
    obtain ⟨v, q⟩ := r
    simp only [Option.map_some', Option.some.injEq, Prod.mk.injEq] at h
    rw [h.1] at hs
    exact Json.parse_state_members L inp err strategy m q hs

/-! ## The map of an object -/

theorem string_lt_irrefl : ∀ (a : List Nat), string_lt a a = false
  | [] => rfl
  | a :: as => by
    simp only [string_lt]
    rw [if_neg (by omega), if_neg (by omega)]
    exact string_lt_irrefl as

theorem string_lt_connex : ∀ (a b : List Nat), string_lt a b = false → string_lt b a = false →
    a = b
  | [], [], _, _ => rfl
  | [], _ :: _, h, _ => by simp [string_lt] at h
  | _ :: _, [], _, h => by simp [string_lt] at h
  | a :: as, b :: bs, h1, h2 => by
    simp only [string_lt] at h1 h2
    by_cases hab : a < b
    · rw [if_pos hab] at h1
      cases h1
    rw [if_neg hab] at h1
    by_cases hba : b < a
    · rw [if_pos hba] at h2
      cases h2
    rw [if_neg hba] at h1 h2
    rw [if_neg hab] at h2
    have e : a = b := by omega
    rw [e, string_lt_connex as bs h1 h2]

theorem string_lt_trans : ∀ (a b c : List Nat), string_lt a b = true → string_lt b c = true →
    string_lt a c = true
  | [], [], _, h, _ => by simp [string_lt] at h
  | [], _ :: _, [], _, h => by simp [string_lt] at h
  | [], _ :: _, _ :: _, _, _ => rfl
  | _ :: _, [], _, h, _ => by simp [string_lt] at h
  | _ :: _, _ :: _, [], _, h => by simp [string_lt] at h
  | a :: as, b :: bs, c :: cs, h1, h2 => by
    simp only [string_lt] at h1 h2 ⊢
    by_cases hab : a < b
    · by_cases hbc : b < c
      · rw [if_pos (by omega)]
      · rw [if_neg hbc] at h2
        by_cases hcb : c < b
        · rw [if_pos hcb] at h2
          cases h2
        · rw [if_pos (by omega)]
    · rw [if_neg hab] at h1
      by_cases hba : b < a
      · rw [if_pos hba] at h1
        cases h1
      rw [if_neg hba] at h1
      by_cases hbc : b < c
      · rw [if_pos (by omega)]
      · rw [if_neg hbc] at h2
        by_cases hcb : c < b
        · rw [if_pos hcb] at h2
          cases h2
        · rw [if_neg hcb] at h2
          rw [if_neg (by omega), if_neg (by omega)]
          exact string_lt_trans as bs cs h1 h2

/-- The lookup after an assignment. -/
theorem map_find_assign (key k : List Nat) (v : Json) : ∀ (data : List (List Nat × Json)),
    map_find key (map_assign k v data) = if k = key then some v else map_find key data
  | [] => by simp [map_assign, map_find]
  | (a, w) :: rest => by
    simp only [map_assign]
    by_cases h1 : string_lt k a = true
    · rw [if_pos h1]
      simp only [map_find]
    rw [if_neg h1]
    by_cases h2 : string_lt a k = true
    · rw [if_pos h2]
      simp only [map_find]
      rw [map_find_assign key k v rest]
      by_cases ha : a = key
      · have hk : k ≠ key := by
          intro e
          rw [ha, e, string_lt_irrefl] at h2
          cases h2
        rw [if_pos ha, if_neg hk, if_pos ha]
      · rw [if_neg ha, if_neg ha]
    rw [if_neg h2]
    have e : k = a := string_lt_connex k a (by simpa using h1) (by simpa using h2)
    subst e
    simp only [map_find]
    by_cases hk : k = key
    · rw [if_pos hk, if_pos hk]
    · rw [if_neg hk, if_neg hk, if_neg hk]

/-- The lookup after the assignments of a list of members: the last member with
the key wins over the earlier ones and over the map. -/
theorem map_find_assign_all (key : List Nat) : ∀ (ms data : List (List Nat × Json)),
    map_find key (assign_all data ms) =
      match last_value key ms with
      | some w => some w
      | none => map_find key data
  | [], data => rfl
  | (k, v) :: ms, data => by
    rw [assign_all_cons, map_find_assign_all key ms, map_find_assign]
    simp only [last_value]
    cases last_value key ms with
    | some w => rfl
    | none =>
      simp only
      by_cases hk : k = key
      · rw [if_pos hk, if_pos hk]
      · rw [if_neg hk, if_neg hk]

theorem map_find_assign_all_nil (key : List Nat) (ms : List (List Nat × Json)) :
    map_find key (assign_all [] ms) = last_value key ms := by
  rw [map_find_assign_all]
  cases last_value key ms <;> rfl

theorem map_assign_keys (k : List Nat) (v : Json) : ∀ (data : List (List Nat × Json))
    (key : List Nat), key ∈ (map_assign k v data).map Prod.fst ↔
      key = k ∨ key ∈ data.map Prod.fst
  | [], key => by simp [map_assign]
  | (a, w) :: rest, key => by
    simp only [map_assign]
    by_cases h1 : string_lt k a = true
    · rw [if_pos h1]
      simp
    rw [if_neg h1]
    by_cases h2 : string_lt a k = true
    · rw [if_pos h2]
      simp only [List.map_cons, List.mem_cons]
      rw [map_assign_keys k v rest key]
      tauto
    rw [if_neg h2]
    have e : k = a := string_lt_connex k a (by simpa using h1) (by simpa using h2)
    subst e
    simp

theorem map_assign_sorted (k : List Nat) (v : Json) : ∀ (data : List (List Nat × Json)),
    List.Pairwise (fun a b => string_lt a.1 b.1 = true) data →
    List.Pairwise (fun a b => string_lt a.1 b.1 = true) (map_assign k v data)
  | [], _ => by simp [map_assign]
  | (a, w) :: rest, h => by
    rw [List.pairwise_cons] at h
    simp only [map_assign]
    by_cases h1 : string_lt k a = true
    · rw [if_pos h1]
      refine List.pairwise_cons.2 ⟨?_, List.pairwise_cons.2 h⟩
      intro e he
      rcases List.mem_cons.1 he with rfl | he
      · exact h1
      · exact string_lt_trans _ _ _ h1 (h.1 e he)
    rw [if_neg h1]
    by_cases h2 : string_lt a k = true
    · rw [if_pos h2]
      refine List.pairwise_cons.2 ⟨?_, map_assign_sorted k v rest h.2⟩
      intro e he
      have hk := (map_assign_keys k v rest e.1).1 (List.mem_map_of_mem Prod.fst he)
      rcases hk with hk | hk
      · rw [hk]
        exact h2
      · obtain ⟨e', he', hfst⟩ := List.mem_map.1 hk
        rw [← hfst]
        exact h.1 e' he'
    rw [if_neg h2]
    exact List.pairwise_cons.2 ⟨h.1, h.2⟩

theorem assign_all_sorted_keys : ∀ (ms data : List (List Nat × Json)),
    List.Pairwise (fun a b => string_lt a.1 b.1 = true) data →
    List.Pairwise (fun a b => string_lt a.1 b.1 = true) (assign_all data ms)
  | [], _, h => h
  | (k, v) :: ms, data, h => by
    rw [assign_all_cons]
    exact assign_all_sorted_keys ms _ (map_assign_sorted k v data h)

theorem assign_all_keys : ∀ (ms data : List (List Nat × Json)) (key : List Nat),
    key ∈ (assign_all data ms).map Prod.fst ↔
      key ∈ ms.map Prod.fst ∨ key ∈ data.map Prod.fst
  | [], data, key => by simp [assign_all]
  | (k, v) :: ms, data, key => by
    rw [assign_all_cons, assign_all_keys ms, map_assign_keys]
    simp only [List.map_cons, List.mem_cons]
    tauto

theorem sorted_keys_nodup (m : List (List Nat × Json))
    (h : List.Pairwise (fun a b => string_lt a.1 b.1 = true) m) : (m.map Prod.fst).Nodup := by
  rw [List.Nodup, List.pairwise_map]
  refine h.imp ?_
  intro a b hab e
  rw [e, string_lt_irrefl] at hab
  cases hab

/-! ## A text and its extension by a separator and more text -/

@[simp] theorem extend_str (p : JsonParser) (sep : Nat) (u : List Nat) (s : JsonParse) :
    (p.extend sep u s).str = p.str ++ sep :: u := rfl
@[simp] theorem extend_i (p : JsonParser) (sep : Nat) (u : List Nat) (s : JsonParse) :
    (p.extend sep u s).i = p.i := rfl
@[simp] theorem extend_err (p : JsonParser) (sep : Nat) (u : List Nat) (s : JsonParse) :
    (p.extend sep u s).err = p.err := rfl
@[simp] theorem extend_failed (p : JsonParser) (sep : Nat) (u : List Nat) (s : JsonParse) :
    (p.extend sep u s).failed = p.failed := rfl
@[simp] theorem extend_strategy (p : JsonParser) (sep : Nat) (u : List Nat) (s : JsonParse) :
    (p.extend sep u s).strategy = s := rfl

theorem extend_adv (p : JsonParser) (sep : Nat) (u : List Nat) (s : JsonParse) (n : Nat) :
    (p.extend sep u s).adv n = (p.adv n).extend sep u s := rfl

theorem extend_back (p : JsonParser) (sep : Nat) (u : List Nat) (s : JsonParse) :
    (p.extend sep u s).back = p.back.extend sep u s := rfl

theorem extend_length (p : JsonParser) (sep : Nat) (u : List Nat) (s : JsonParse) :
    (p.extend sep u s).str.length = p.str.length + 1 + u.length := by
  simp only [extend_str, List.length_append, List.length_cons]
  omega

theorem extend_at_lt (p : JsonParser) (sep : Nat) (u : List Nat) (s : JsonParse) (k : Nat)
    (h : k < p.str.length) : (p.extend sep u s).at k = p.at k := by
  simp only [JsonParser.at, extend_str, List.getD_eq_getElem?_getD]
  rw [List.getElem?_append_left h]

theorem extend_cur_lt (p : JsonParser) (sep : Nat) (u : List Nat) (s : JsonParse)
    (h : p.i < p.str.length) : (p.extend sep u s).cur = p.cur :=
  extend_at_lt p sep u s p.i h

theorem extend_cur_end (p : JsonParser) (sep : Nat) (u : List Nat) (s : JsonParse)
    (h : p.i = p.str.length) : p.cur = 0 ∧ (p.extend sep u s).cur = sep := by
  constructor
  · simp only [JsonParser.cur, List.getD_eq_getElem?_getD]
    rw [List.getElem?_eq_none (by omega)]
    rfl
  · simp only [JsonParser.cur, extend_str, extend_i, List.getD_eq_getElem?_getD]
    rw [List.getElem?_append_right (by omega), h]
    simp

/-- A test that does not tell a NUL from the separator has the same outcome on
the byte under the cursor in the text and in its extension. -/
theorem extend_cur_cases (p : JsonParser) (sep : Nat) (u : List Nat) (s : JsonParse)
    (h : p.i ≤ p.str.length) :
    (p.extend sep u s).cur = p.cur ∨ (p.cur = 0 ∧ (p.extend sep u s).cur = sep) := by
  by_cases hlt : p.i < p.str.length
  · exact Or.inl (extend_cur_lt p sep u s hlt)
  · exact Or.inr (extend_cur_end p sep u s (by omega))

theorem extend_cur_eq (p : JsonParser) (sep : Nat) (u : List Nat) (s : JsonParse)
    (h : p.i ≤ p.str.length) (c : Nat) (h0 : c ≠ 0) (h32 : c ≠ sep) :
    (p.extend sep u s).cur = c ↔ p.cur = c := by
  rcases extend_cur_cases p sep u s h with e | ⟨e1, e2⟩
  · rw [e]
  · rw [e1, e2]
    constructor
    · intro x
      exact absurd x.symm h32
    · intro x
      exact absurd x.symm h0

theorem extend_cur_digit (p : JsonParser) (sep : Nat) (hsep : sep = 32 ∨ sep = 44)
    (u : List Nat) (s : JsonParse) (h : p.i ≤ p.str.length) (lo : Int) (hlo : 45 ≤ lo) :
    in_range (toLong (p.extend sep u s).cur) lo 57 = in_range (toLong p.cur) lo 57 := by
  rcases extend_cur_cases p sep u s h with e | ⟨e1, e2⟩
  · rw [e]
  · rw [e1, e2]
    have a : in_range (toLong sep) lo 57 = false := by
      rw [← Bool.not_eq_true, in_range_toLong _ _ _ (by omega)]
      omega
    have b : in_range (toLong 0) lo 57 = false := by
      rw [← Bool.not_eq_true, in_range_toLong _ _ _ (by omega)]
      omega
    rw [a, b]

theorem cur_ne_zero_lt (p : JsonParser) (h : p.cur ≠ 0) : p.i < p.str.length :=
  lt_length_of_cur_ne_zero p h

/-! ### White space and tokens -/

theorem consume_whitespace_loop_extend (sep : Nat) (u : List Nat) (s : JsonParse) :
    ∀ (fuel fuel' : Nat) (p : JsonParser), p.str.length - p.i ≤ fuel →
      p.str.length - p.i ≤ fuel' →
      (consume_whitespace_loop fuel p).i < p.str.length →
      consume_whitespace_loop fuel' (p.extend sep u s) =
        (consume_whitespace_loop fuel p).extend sep u s
  | 0, _, p, h, _, hlt => by
    simp only [consume_whitespace_loop] at hlt
    omega
  | fuel + 1, fuel', p, h, h', hlt => by
    simp only [consume_whitespace_loop] at hlt ⊢
    by_cases hws : p.cur = 32 ∨ p.cur = 9 ∨ p.cur = 10 ∨ p.cur = 13
    · rw [if_pos hws] at hlt ⊢
      have hi : p.i < p.str.length := cur_ne_zero_lt p (by omega)
      cases fuel' with
      | zero => omega
      | succ f' =>
        simp only [consume_whitespace_loop]
        rw [extend_cur_lt p sep u s hi, if_pos hws, extend_adv]
        exact consume_whitespace_loop_extend sep u s fuel f' (p.adv 1)
          (by simp only [adv_str, adv_i]; omega) (by simp only [adv_str, adv_i]; omega) hlt
    · rw [if_neg hws] at hlt ⊢
      cases fuel' with
      | zero => omega
      | succ f' =>
        simp only [consume_whitespace_loop]
        rw [extend_cur_lt p sep u s hlt, if_neg hws]

theorem consume_whitespace_extend (sep : Nat) (u : List Nat) (s : JsonParse) (p : JsonParser)
    (hlt : (consume_whitespace p).i < p.str.length) :
    consume_whitespace (p.extend sep u s) = (consume_whitespace p).extend sep u s := by
  simp only [consume_whitespace] at hlt ⊢
  exact consume_whitespace_loop_extend sep u s _ _ p (le_refl _)
    (by rw [extend_length]; simp only [extend_i]; omega) hlt

theorem consume_whitespace_of_not_ws (p : JsonParser)
    (h : ¬ (p.cur = 32 ∨ p.cur = 9 ∨ p.cur = 10 ∨ p.cur = 13)) : consume_whitespace p = p := by
  simp only [consume_whitespace]
  cases p.str.length - p.i with
  | zero => rfl
  | succ n =>
    simp only [consume_whitespace_loop]
    rw [if_neg h]

/-- A token read under the standard dialect that is no slash is read the same
way in the extension of the text, under either dialect. -/
theorem get_next_token_extend (sep : Nat) (u : List Nat) (s : JsonParse) (p : JsonParser)
    (hs : p.strategy = JsonParse.STANDARD) (hle : p.i ≤ p.str.length)
    (hf : (get_next_token p).2.failed = false) (h47 : (get_next_token p).1 ≠ 47) :
    get_next_token (p.extend sep u s) = ((get_next_token p).1, (get_next_token p).2.extend sep u s) := by
  have hi := consume_whitespace_i p hle
  have hstop := consume_whitespace_stop p
  simp only [get_next_token] at hf h47 ⊢
  rw [consume_garbage_standard p hs] at hf h47 ⊢
  by_cases h1 : (consume_whitespace p).failed = true
  · rw [if_pos h1] at hf
    rw [h1] at hf
    cases hf
  rw [if_neg h1] at hf h47 ⊢
  by_cases h2 : (consume_whitespace p).i = (consume_whitespace p).str.length
  · rw [if_pos h2] at hf
    simp at hf
  rw [if_neg h2] at hf h47 ⊢
  rw [consume_whitespace_str] at h2
  have hlt : (consume_whitespace p).i < p.str.length := by omega
  have hlt' : (consume_whitespace p).i < (consume_whitespace p).str.length := by
    rw [consume_whitespace_str]
    exact hlt
  have hcur := extend_cur_lt (consume_whitespace p) sep u s hlt'
  have hg : consume_garbage (p.extend sep u s) = (consume_whitespace p).extend sep u s := by
    simp only [consume_garbage]
    rw [consume_whitespace_extend sep u s p hlt]
    cases s with
    | STANDARD =>
      rw [if_neg (by simp)]
    | COMMENTS =>
      rw [if_pos (by simp)]
      simp only [consume_garbage_loop]
      rw [consume_comment_of_ne _ (by rw [hcur]; exact h47)]
      simp only [extend_failed]
      rw [if_neg h1, consume_whitespace_of_not_ws ((consume_whitespace p).extend sep u JsonParse.COMMENTS)
        (by rw [hcur]; exact hstop)]
      simp
  rw [hg]
  simp only [extend_failed, extend_i]
  rw [if_neg h1, if_neg (by rw [extend_length, consume_whitespace_str]; omega), hcur, extend_adv]

/-! ### Numbers -/

theorem not_digit_sep (sep : Nat) (hsep : sep = 32 ∨ sep = 44) :
    in_range (toLong sep) 48 57 = false := by
  rcases hsep with rfl | rfl <;> rfl

theorem digits_loop_extend (sep : Nat) (hsep : sep = 32 ∨ sep = 44) (u : List Nat)
    (s : JsonParse) :
    ∀ (fuel fuel' : Nat) (p : JsonParser), p.i ≤ p.str.length → p.str.length - p.i ≤ fuel →
      p.str.length - p.i ≤ fuel' →
      digits_loop fuel' (p.extend sep u s) = (digits_loop fuel p).extend sep u s
  | 0, fuel', p, hle, h, _ => by
    have hi : p.i = p.str.length := by omega
    have hc := extend_cur_end p sep u s hi
    simp only [digits_loop]
    cases fuel' with
    | zero => rfl
    | succ f' =>
      simp only [digits_loop]
      rw [hc.2, not_digit_sep sep hsep]
      rfl
  | fuel + 1, fuel', p, hle, h, h' => by
    simp only [digits_loop]
    by_cases hd : in_range (toLong p.cur) 48 57 = true
    · rw [if_pos hd]
      have hi : p.i < p.str.length := cur_ne_zero_lt p (in_range_digit _ _ hd (by omega)).1
      cases fuel' with
      | zero => omega
      | succ f' =>
        simp only [digits_loop]
        rw [extend_cur_lt p sep u s hi, if_pos hd, extend_adv]
        exact digits_loop_extend sep hsep u s fuel f' (p.adv 1) (by simp only [adv_str, adv_i]; omega)
          (by simp only [adv_str, adv_i]; omega) (by simp only [adv_str, adv_i]; omega)
    · rw [if_neg hd]
      cases fuel' with
      | zero => rfl
      | succ f' =>
        simp only [digits_loop]
        rw [extend_cur_digit p sep hsep u s hle 48 (by omega), if_neg hd]

theorem digits_loop_extend_len (sep : Nat) (hsep : sep = 32 ∨ sep = 44) (u : List Nat)
    (s : JsonParse) (p : JsonParser)
    (hle : p.i ≤ p.str.length) :
    digits_loop ((p.extend sep u s).str.length - (p.extend sep u s).i) (p.extend sep u s) =
      (digits_loop (p.str.length - p.i) p).extend sep u s :=
  digits_loop_extend sep hsep u s _ _ p hle (le_refl _)
    (by rw [extend_length]; simp only [extend_i]; omega)

theorem atoi_digits_space (sep : Nat) (hsep : sep = 32 ∨ sep = 44) (u : List Nat) :
    ∀ (s : List Nat) (acc : Nat), atoi_digits (s ++ sep :: u) acc = atoi_digits s acc
  | [], acc => by
    simp only [List.nil_append, atoi_digits]
    rw [if_neg (by omega)]
  | c :: cs, acc => by
    simp only [List.cons_append, atoi_digits, List.append_eq]
    rw [atoi_digits_space sep hsep u cs]

theorem atoi_space (sep : Nat) (hsep : sep = 32 ∨ sep = 44) (d : Nat) (s u : List Nat)
    (hd : d = 45 ∨ (48 ≤ d ∧ d ≤ 57)) : atoi (d :: (s ++ sep :: u)) = atoi (d :: s) := by
  have hsp : isspace d = false := by
    simp only [isspace]
    rcases hd with h | h
    · subst h
      rfl
    · simp
      omega
  simp only [atoi]
  rw [List.dropWhile_cons_of_neg (by simp [hsp]), List.dropWhile_cons_of_neg (by simp [hsp])]
  rcases hd with h | h
  · subst h
    simp only
    rw [atoi_digits_space sep hsep]
  · have h45 : d ≠ 45 := by omega
    have h43 : d ≠ 43 := by omega
    split
    · rename_i e
      cases e
      exact absurd rfl h45
    · rename_i e
      cases e
      exact absurd rfl h43
    · rename_i cs e1 e2
      split
      · rename_i e
        cases e
        exact absurd rfl h45
      · rename_i e
        cases e
        exact absurd rfl h43
      · rw [← List.cons_append, atoi_digits_space sep hsep]

theorem c_str_extend (sep : Nat) (hsep : sep ≠ 0) (t u : List Nat) (k : Nat) (d : Nat)
    (hk : k < t.length)
    (hd : t.getD k 0 = d) (h0 : d ≠ 0) :
    ∃ s0, c_str t k = d :: s0 ∧
      (c_str (t ++ sep :: u) k = d :: s0 ∨ ∃ u0, c_str (t ++ sep :: u) k = d :: (s0 ++ sep :: u0)) := by
  have hdrop : t.drop k = d :: t.drop (k + 1) := by
    rw [List.drop_eq_getElem_cons hk]
    congr 1
    rw [← hd, List.getD_eq_getElem?_getD, List.getElem?_eq_getElem hk]
    rfl
  refine ⟨(t.drop (k + 1)).takeWhile (fun c => c ≠ 0), ?_, ?_⟩
  · simp only [c_str]
    rw [hdrop, List.takeWhile_cons_of_pos (by simp [h0])]
  · simp only [c_str]
    rw [List.drop_append_of_le_length (by omega), hdrop, List.cons_append,
      List.takeWhile_cons_of_pos (by simp [h0])]
    by_cases hall : ∀ c ∈ t.drop (k + 1), (decide (c ≠ 0)) = true
    · right
      refine ⟨u.takeWhile (fun c => c ≠ 0), ?_⟩
      rw [List.takeWhile_append_of_pos hall, List.takeWhile_cons_of_pos (by simp [hsep]),
        List.takeWhile_eq_self_iff.2 hall]
    · left
      congr 1
      push_neg at hall
      obtain ⟨c, hc, hc0⟩ := hall
      obtain ⟨a, b, hab⟩ := List.append_of_mem hc
      rw [hab, List.append_assoc]
      have : ∀ (a : List Nat) (x y : List Nat), (∀ z ∈ a, True) →
          (a ++ c :: x).takeWhile (fun c => decide (c ≠ 0)) =
            (a ++ c :: y).takeWhile (fun c => decide (c ≠ 0)) := by
        intro a x y _
        induction a with
        | nil =>
          simp only [List.nil_append]
          rw [List.takeWhile_cons_of_neg (by simpa using hc0),
            List.takeWhile_cons_of_neg (by simpa using hc0)]
        | cons z zs ih =>
          simp only [List.cons_append, List.takeWhile_cons]
          rw [ih (fun _ _ => trivial)]
      exact this a (b ++ sep :: u) b (fun _ _ => trivial)

theorem parse_number_exp_extend (L : Libc) (sep : Nat) (hsep : sep = 32 ∨ sep = 44)
    (u : List Nat) (s : JsonParse) (s0 : Nat)
    (p : JsonParser) (hle : p.i ≤ p.str.length)
    (hS : L.strtod (c_str (p.str ++ sep :: u) s0) = L.strtod (c_str p.str s0))
    (hf : (parse_number_exp L s0 p).2.failed = false) :
    parse_number_exp L s0 (p.extend sep u s) =
      ((parse_number_exp L s0 p).1, (parse_number_exp L s0 p).2.extend sep u s) := by
  simp only [parse_number_exp] at hf ⊢
  have t1 : ((p.extend sep u s).cur = 101 ∨ (p.extend sep u s).cur = 69) ↔
      (p.cur = 101 ∨ p.cur = 69) := by
    rw [extend_cur_eq p sep u s hle 101 (by decide) (by omega),
      extend_cur_eq p sep u s hle 69 (by decide) (by omega)]
  by_cases h1 : p.cur = 101 ∨ p.cur = 69
  · have hi : p.i < p.str.length := cur_ne_zero_lt p (by omega)
    have hle1 : (p.adv 1).i ≤ (p.adv 1).str.length := by
      simp only [adv_i, adv_str]
      omega
    rw [if_pos h1] at hf
    rw [if_pos (t1.2 h1), if_pos h1]
    simp only [extend_adv]
    have t2 : (((p.adv 1).extend sep u s).cur = 43 ∨ ((p.adv 1).extend sep u s).cur = 45) ↔
        ((p.adv 1).cur = 43 ∨ (p.adv 1).cur = 45) := by
      rw [extend_cur_eq (p.adv 1) sep u s hle1 43 (by decide) (by omega),
        extend_cur_eq (p.adv 1) sep u s hle1 45 (by decide) (by omega)]
    by_cases h2 : (p.adv 1).cur = 43 ∨ (p.adv 1).cur = 45
    · have hi2 : (p.adv 1).i < (p.adv 1).str.length := cur_ne_zero_lt (p.adv 1) (by omega)
      have hle2 : ((p.adv 1).adv 1).i ≤ ((p.adv 1).adv 1).str.length := by
        simp only [adv_i, adv_str] at hi2 ⊢
        omega
      rw [if_pos h2] at hf
      rw [if_pos (t2.2 h2), if_pos h2]
      rw [extend_cur_digit _ sep hsep u s hle2 48 (by omega)]
      by_cases h3 : in_range (toLong ((p.adv 1).adv 1).cur) 48 57 = true
      · rw [h3] at hf ⊢
        simp only [Bool.not_true, Bool.false_eq_true, if_false] at hf ⊢
        rw [digits_loop_extend_len sep hsep u s _ hle2]
        simp only [extend_str, digits_loop_str, adv_str]
        rw [hS]
      · rw [Bool.not_eq_true] at h3
        rw [h3] at hf
        simp at hf
    · rw [if_neg h2] at hf
      rw [if_neg (fun x => h2 (t2.1 x)), if_neg h2]
      rw [extend_cur_digit _ sep hsep u s hle1 48 (by omega)]
      by_cases h3 : in_range (toLong (p.adv 1).cur) 48 57 = true
      · rw [h3] at hf ⊢
        simp only [Bool.not_true, Bool.false_eq_true, if_false] at hf ⊢
        rw [digits_loop_extend_len sep hsep u s _ hle1]
        simp only [extend_str, digits_loop_str, adv_str]
        rw [hS]
      · rw [Bool.not_eq_true] at h3
        rw [h3] at hf
        simp at hf
  · rw [if_neg (fun x => h1 (t1.1 x)), if_neg h1]
    simp only [extend_str]
    rw [hS]

theorem parse_number_tail_extend (L : Libc) (sep : Nat) (hsep : sep = 32 ∨ sep = 44)
    (u : List Nat) (s : JsonParse) (s0 : Nat)
    (p : JsonParser) (hle : p.i ≤ p.str.length)
    (hS : L.strtod (c_str (p.str ++ sep :: u) s0) = L.strtod (c_str p.str s0))
    (hA : atoi (c_str (p.str ++ sep :: u) s0) = atoi (c_str p.str s0))
    (hf : (parse_number_tail L s0 p).2.failed = false) :
    parse_number_tail L s0 (p.extend sep u s) =
      ((parse_number_tail L s0 p).1, (parse_number_tail L s0 p).2.extend sep u s) := by
  simp only [parse_number_tail] at hf ⊢
  have e46 := extend_cur_eq p sep u s hle 46 (by decide) (by omega)
  have e101 := extend_cur_eq p sep u s hle 101 (by decide) (by omega)
  have e69 := extend_cur_eq p sep u s hle 69 (by decide) (by omega)
  simp only [ne_eq, e46, e101, e69, extend_i, extend_str]
  by_cases h1 : ¬ p.cur = 46 ∧ ¬ p.cur = 101 ∧ ¬ p.cur = 69 ∧ p.i - s0 ≤ 9
  · rw [if_pos h1, if_pos h1, hA]
  rw [if_neg h1, if_neg h1]
  simp only [ne_eq] at hf
  rw [if_neg h1] at hf
  by_cases h2 : p.cur = 46
  · have hi : p.i < p.str.length := cur_ne_zero_lt p (by omega)
    have hle1 : (p.adv 1).i ≤ (p.adv 1).str.length := by
      simp only [adv_i, adv_str]
      omega
    rw [if_pos h2] at hf ⊢
    rw [if_pos h2]
    simp only [extend_adv]
    rw [extend_cur_digit _ sep hsep u s hle1 48 (by omega)]
    by_cases h3 : in_range (toLong (p.adv 1).cur) 48 57 = true
    · rw [h3] at hf ⊢
      simp only [Bool.not_true, Bool.false_eq_true, if_false] at hf ⊢
      have hd := digits_loop_extend_len sep hsep u s _ hle1
      simp only [extend_str, extend_i, adv_str, adv_i] at hd ⊢
      rw [hd]
      exact parse_number_exp_extend L sep hsep u s s0 _
        (by rw [digits_loop_str]; exact (digits_loop_i _ _ hle1).2)
        (by rw [digits_loop_str]; exact hS) hf
    · rw [Bool.not_eq_true] at h3
      rw [h3] at hf
      simp at hf
  · rw [if_neg h2] at hf ⊢
    rw [if_neg h2]
    exact parse_number_exp_extend L sep hsep u s s0 p hle hS hf


theorem parse_number_body_extend (L : Libc) (sep : Nat) (hsep : sep = 32 ∨ sep = 44)
    (u : List Nat) (s : JsonParse) (s0 : Nat)
    (p : JsonParser) (hle : p.i ≤ p.str.length)
    (hS : L.strtod (c_str (p.str ++ sep :: u) s0) = L.strtod (c_str p.str s0))
    (hA : atoi (c_str (p.str ++ sep :: u) s0) = atoi (c_str p.str s0))
    (hf : (parse_number_body L s0 p).2.failed = false) :
    parse_number_body L s0 (p.extend sep u s) =
      ((parse_number_body L s0 p).1, (parse_number_body L s0 p).2.extend sep u s) := by
  simp only [parse_number_body] at hf ⊢
  simp only [extend_cur_eq p sep u s hle 48 (by decide) (by omega),
    extend_cur_digit p sep hsep u s hle 49 (by omega), extend_adv]
  by_cases h1 : p.cur = 48
  · have hi : p.i < p.str.length := cur_ne_zero_lt p (by omega)
    have hle1 : (p.adv 1).i ≤ (p.adv 1).str.length := by
      simp only [adv_i, adv_str]
      omega
    rw [if_pos h1] at hf ⊢
    rw [if_pos h1]
    rw [extend_cur_digit _ sep hsep u s hle1 48 (by omega)]
    by_cases h2 : in_range (toLong (p.adv 1).cur) 48 57 = true
    · rw [if_pos h2] at hf
      simp at hf
    · rw [if_neg h2] at hf ⊢
      rw [if_neg h2]
      exact parse_number_tail_extend L sep hsep u s s0 _ hle1 hS hA hf
  · rw [if_neg h1] at hf ⊢
    rw [if_neg h1]
    by_cases h2 : in_range (toLong p.cur) 49 57 = true
    · have hi : p.i < p.str.length := cur_ne_zero_lt p (in_range_digit _ _ h2 (by omega)).1
      have hle1 : (p.adv 1).i ≤ (p.adv 1).str.length := by
        simp only [adv_i, adv_str]
        omega
      rw [if_pos h2] at hf ⊢
      rw [if_pos h2]
      have hd := digits_loop_extend_len sep hsep u s _ hle1
      simp only [extend_str, extend_i, adv_str, adv_i] at hd hf ⊢
      rw [hd]
      exact parse_number_tail_extend L sep hsep u s s0 _
        (by rw [digits_loop_str]; exact (digits_loop_i _ _ hle1).2)
        (by rw [digits_loop_str]; exact hS) (by rw [digits_loop_str]; exact hA) hf
    · rw [if_neg h2] at hf
      simp at hf

theorem parse_number_first (L : Libc) (p : JsonParser)
    (hf : (parse_number L p).2.failed = false) :
    p.cur = 45 ∨ (48 ≤ p.cur ∧ p.cur ≤ 57) := by
  by_cases h45 : p.cur = 45
  · exact Or.inl h45
  right
  rw [parse_number_eq_body, if_neg h45] at hf
  simp only [parse_number_body] at hf
  by_cases h1 : p.cur = 48
  · omega
  rw [if_neg h1] at hf
  by_cases h2 : in_range (toLong p.cur) 49 57 = true
  · rw [in_range_toLong _ _ _ (by omega)] at h2
    omega
  · rw [if_neg h2] at hf
    simp at hf

/-- A number read in a text is read the same way in the extension of the text. -/
theorem parse_number_extend (L : Libc) (sep : Nat) (hsep : sep = 32 ∨ sep = 44)
    (hL : StrtodLocalAt sep L) (u : List Nat) (s : JsonParse)
    (p : JsonParser) (hle : p.i ≤ p.str.length) (hf : (parse_number L p).2.failed = false) :
    parse_number L (p.extend sep u s) =
      ((parse_number L p).1, (parse_number L p).2.extend sep u s) := by
  have hd := parse_number_first L p hf
  have hi : p.i < p.str.length := cur_ne_zero_lt p (by omega)
  obtain ⟨s0, hc, hc'⟩ := c_str_extend sep (by omega) p.str u p.i p.cur hi rfl (by omega)
  have hS : L.strtod (c_str (p.str ++ sep :: u) p.i) = L.strtod (c_str p.str p.i) := by
    rcases hc' with e | ⟨u0, e⟩
    · rw [e, hc]
    · rw [e, hc, hL _ _ _ hd]
  have hA : atoi (c_str (p.str ++ sep :: u) p.i) = atoi (c_str p.str p.i) := by
    rcases hc' with e | ⟨u0, e⟩
    · rw [e, hc]
    · rw [e, hc, atoi_space sep hsep _ _ _ hd]
  rw [parse_number_eq_body] at hf ⊢
  rw [parse_number_eq_body]
  simp only [extend_cur_eq p sep u s hle 45 (by decide) (by omega), extend_i, extend_adv]
  by_cases h45 : p.cur = 45
  · rw [if_pos h45] at hf ⊢
    rw [if_pos h45]
    exact parse_number_body_extend L sep hsep u s p.i (p.adv 1)
      (by simp only [adv_i, adv_str]; omega) hS hA hf
  · rw [if_neg h45] at hf ⊢
    rw [if_neg h45]
    exact parse_number_body_extend L sep hsep u s p.i p hle hS hA hf

/-- A literal read in a text is read the same way in the extension of the text. -/
theorem expect_extend (sep : Nat) (u : List Nat) (s : JsonParse) (e : List Nat) (res : Json)
    (p : JsonParser) (hle : p.i ≤ p.str.length) (h1 : 1 ≤ p.i)
    (hf : (expect e res p).2.failed = false) :
    expect e res (p.extend sep u s) = ((expect e res p).1, (expect e res p).2.extend sep u s) := by
  simp only [expect] at hf ⊢
  by_cases h : List.take e.length (List.drop p.back.i p.back.str) = e
  · rw [if_pos h] at hf ⊢
    have hlen : e.length ≤ (List.drop p.back.i p.back.str).length := by
      have := congrArg List.length h
      rw [List.length_take] at this
      omega
    have h' : List.take e.length (List.drop (p.extend sep u s).back.i (p.extend sep u s).back.str) = e := by
      rw [extend_back, extend_str, extend_i, List.drop_append_of_le_length
        (by simp only [back_i, back_str]; omega), List.take_append_of_le_length hlen]
      exact h
    rw [if_pos h']
    rfl
  · rw [if_neg h] at hf
    simp at hf

/-! ### Strings -/

theorem extend_take_drop (p : JsonParser) (sep : Nat) (u : List Nat) (s : JsonParse) (n : Nat)
    (hn : 0 < n) (h : ¬ ((p.str.drop p.i).take n).length < n) :
    ((p.extend sep u s).str.drop (p.extend sep u s).i).take n = (p.str.drop p.i).take n := by
  rw [List.length_take, List.length_drop] at h
  rw [extend_str, extend_i, List.drop_append_of_le_length (by omega),
    List.take_append_of_le_length (by rw [List.length_drop]; omega)]

theorem parse_string_loop_extend (sep : Nat) (u : List Nat) (s : JsonParse) :
    ∀ (fuel fuel' : Nat) (out : List Nat) (last : Int) (p : JsonParser) (o : List Nat)
      (q : JsonParser), p.i ≤ p.str.length → fuel ≤ fuel' → p.str.length - p.i + 1 ≤ fuel →
      parse_string_loop fuel out last p = (o, q) → q.failed = false →
      parse_string_loop fuel' out last (p.extend sep u s) = (o, q.extend sep u s)
  | 0, _, _, _, _, _, _, _, _, h, _, _ => by omega
  | _ + 1, 0, _, _, _, _, _, _, h, _, _, _ => by omega
  | fuel + 1, f' + 1, out, last, p, o, q, hle, hff, hfuel, h, hq => by
    have IH : ∀ (out' : List Nat) (last' : Int) (k : Nat), 1 ≤ k → p.i + k ≤ p.str.length →
        parse_string_loop fuel out' last' (p.adv k) = (o, q) →
        parse_string_loop f' out' last' ((p.adv k).extend sep u s) = (o, q.extend sep u s) := by
      intro out' last' k hk hkl hr
      exact parse_string_loop_extend sep u s fuel f' out' last' (p.adv k) o q
        (by simp only [adv_i, adv_str]; omega) (by omega)
        (by simp only [adv_i, adv_str]; omega) hr hq
    rw [parse_string_loop_succ] at h ⊢
    by_cases h1 : p.i = p.str.length
    · rw [if_pos h1] at h
      cases h
      simp at hq
    rw [if_neg h1] at h
    have hlt : p.i < p.str.length := by omega
    have hc := extend_cur_lt p sep u s hlt
    rw [if_neg (by rw [extend_length, extend_i]; omega)]
    simp only [hc, extend_adv]
    by_cases h2 : p.cur = 34
    · rw [if_pos h2] at h ⊢
      cases h
      rfl
    rw [if_neg h2] at h ⊢
    by_cases h3 : in_range (toLong p.cur) 0 0x1f = true
    · rw [if_pos h3] at h
      cases h
      simp at hq
    rw [if_neg h3] at h ⊢
    by_cases h4 : p.cur ≠ 92
    · rw [if_pos h4] at h ⊢
      exact IH _ _ 1 (le_refl _) (by omega) h
    rw [if_neg h4] at h ⊢
    by_cases h5 : (p.adv 1).i = (p.adv 1).str.length
    · rw [if_pos h5] at h
      cases h
      simp at hq
    rw [if_neg h5] at h
    simp only [adv_i, adv_str] at h5
    have hlt1 : (p.adv 1).i < (p.adv 1).str.length := by
      simp only [adv_i, adv_str]
      omega
    have hc1 := extend_cur_lt (p.adv 1) sep u s hlt1
    rw [if_neg (by rw [extend_length, extend_i, adv_i, adv_str]; omega)]
    simp only [hc1]
    by_cases h6 : (p.adv 1).cur = 117
    · rw [if_pos h6] at h ⊢
      by_cases h7 : ((((p.adv 1).adv 1).str.drop ((p.adv 1).adv 1).i).take 4).length < 4
      · rw [if_pos h7] at h
        cases h
        simp at hq
      rw [if_neg h7] at h
      have ht := extend_take_drop ((p.adv 1).adv 1) sep u s 4 (by decide) h7
      have hlen : p.i + 6 ≤ p.str.length := by
        rw [List.length_take, List.length_drop] at h7
        simp only [adv_i, adv_str] at h7
        omega
      simp only [ht]
      rw [if_neg h7]
      by_cases h8 : (!((((p.adv 1).adv 1).str.drop ((p.adv 1).adv 1).i).take 4).all is_hex) = true
      · rw [if_pos h8] at h
        cases h
        simp at hq
      rw [if_neg h8] at h ⊢
      by_cases h9 : in_range last 0xD800 0xDBFF = true ∧
          in_range (strtol16 ((((p.adv 1).adv 1).str.drop ((p.adv 1).adv 1).i).take 4) : Int)
            0xDC00 0xDFFF = true
      · rw [if_pos h9] at h ⊢
        exact IH _ _ 6 (by omega) hlen h
      · rw [if_neg h9] at h ⊢
        exact IH _ _ 6 (by omega) hlen h
    rw [if_neg h6] at h ⊢
    by_cases h10 : (p.adv 1).cur = 98
    · rw [if_pos h10] at h ⊢
      exact IH _ _ 2 (by omega) (by omega) h
    rw [if_neg h10] at h ⊢
    by_cases h11 : (p.adv 1).cur = 102
    · rw [if_pos h11] at h ⊢
      exact IH _ _ 2 (by omega) (by omega) h
    rw [if_neg h11] at h ⊢
    by_cases h12 : (p.adv 1).cur = 110
    · rw [if_pos h12] at h ⊢
      exact IH _ _ 2 (by omega) (by omega) h
    rw [if_neg h12] at h ⊢
    by_cases h13 : (p.adv 1).cur = 114
    · rw [if_pos h13] at h ⊢
      exact IH _ _ 2 (by omega) (by omega) h
    rw [if_neg h13] at h ⊢
    by_cases h14 : (p.adv 1).cur = 116
    · rw [if_pos h14] at h ⊢
      exact IH _ _ 2 (by omega) (by omega) h
    rw [if_neg h14] at h ⊢
    by_cases h15 : (p.adv 1).cur = 34 ∨ (p.adv 1).cur = 92 ∨ (p.adv 1).cur = 47
    · rw [if_pos h15] at h ⊢
      exact IH _ _ 2 (by omega) (by omega) h
    rw [if_neg h15] at h
    cases h
    simp at hq

/-- A string literal read in a text is read the same way in the extension of the text. -/
theorem parse_string_extend (sep : Nat) (u : List Nat) (s : JsonParse) (p : JsonParser)
    (hle : p.i ≤ p.str.length) (hf : (parse_string p).2.failed = false) :
    parse_string (p.extend sep u s) = ((parse_string p).1, (parse_string p).2.extend sep u s) := by
  simp only [parse_string] at hf ⊢
  exact parse_string_loop_extend sep u s _ _ [] (-1) p _ _ hle
    (by rw [extend_length, extend_i]; omega) (le_refl _) rfl hf

/-! ### Values -/

theorem get_next_token_back (p : JsonParser) (hs : p.strategy = JsonParse.STANDARD)
    (hf : (get_next_token p).2.failed = false) :
    get_next_token (get_next_token p).2.back = get_next_token p := by
  have hstop := consume_whitespace_stop p
  have hst : (consume_whitespace p).strategy = JsonParse.STANDARD := by
    rw [(consume_whitespace_ext p).strategy, hs]
  have e : get_next_token p = ((consume_whitespace p).cur, (consume_whitespace p).adv 1) := by
    simp only [get_next_token] at hf ⊢
    rw [consume_garbage_standard p hs] at hf ⊢
    by_cases h1 : (consume_whitespace p).failed = true
    · rw [if_pos h1] at hf
      rw [h1] at hf
      cases hf
    rw [if_neg h1] at hf ⊢
    by_cases h2 : (consume_whitespace p).i = (consume_whitespace p).str.length
    · rw [if_pos h2] at hf
      simp at hf
    rw [if_neg h2]
  have e2 : get_next_token (consume_whitespace p) = get_next_token p := by
    simp only [get_next_token]
    rw [consume_garbage_standard p hs, consume_garbage_standard _ hst,
      consume_whitespace_of_not_ws _ hstop]
  rw [e, back_adv _ 0, adv_zero, ← e, e2]

theorem parse_json_token (L : Libc) (fuel depth : Nat) : ValueToken (parse_json L fuel depth) := by
  intro p r h hq
  cases fuel with
  | zero => simp [parse_json] at h
  | succ n =>
    rw [parse_json_succ] at h
    by_cases h0 : depth > max_depth
    · rw [if_pos h0] at h
      cases h
      simp at hq
    rw [if_neg h0] at h
    by_cases h1 : (get_next_token p).2.failed = true
    · rw [if_pos h1] at h
      cases h
      rw [h1] at hq
      cases hq
    refine ⟨?_, by simpa using h1⟩
    intro h47
    rw [if_neg h1, h47] at h
    rw [if_neg (by decide), if_neg (by decide), if_neg (by decide), if_neg (by decide),
      if_neg (by decide), if_neg (by decide), if_neg (by decide)] at h
    cases h
    simp at hq

theorem parse_array_loop_first (value : JsonParser → Option (Json × JsonParser))
    (fuel : Nat) (data : List Json) (p : JsonParser) (r : Json × JsonParser)
    (h : parse_array_loop value fuel data p = some r) (hq : r.2.failed = false) :
    ∃ w, value p.back = some w ∧ w.2.failed = false := by
  cases fuel with
  | zero => simp [parse_array_loop] at h
  | succ n =>
    rw [parse_array_loop_succ] at h
    cases hval : value p.back with
    | none => simp [hval] at h
    | some w =>
      refine ⟨w, rfl, ?_⟩
      simp only [hval] at h
      by_cases h1 : w.2.failed = true
      · rw [if_pos h1] at h
        cases h
        rw [h1] at hq
        cases hq
      · simpa using h1

theorem parse_object_loop_first (value : JsonParser → Option (Json × JsonParser))
    (fuel : Nat) (data : List (List Nat × Json)) (ch : Nat) (p : JsonParser)
    (r : Json × JsonParser)
    (h : parse_object_loop value fuel data ch p = some r) (hq : r.2.failed = false) :
    ch = 34 := by
  cases fuel with
  | zero => simp [parse_object_loop] at h
  | succ n =>
    rw [parse_object_loop_succ] at h
    by_cases h1 : ch ≠ 34
    · rw [if_pos h1] at h
      cases h
      simp at hq
    · simpa using h1

theorem parse_array_loop_extend (sep : Nat) (u : List Nat) (s : JsonParse)
    (value value' : JsonParser → Option (Json × JsonParser))
    (hv : ValueExtends sep u s value value') (hve : ValueExt value) (hva : ValueAdv value)
    (hvt : ValueToken value) :
    ∀ (fuel fuel' : Nat) (data : List Json) (p : JsonParser) (v : Json) (q : JsonParser),
      fuel ≤ fuel' → p.strategy = JsonParse.STANDARD → 1 ≤ p.i → p.i ≤ p.str.length →
      parse_array_loop value fuel data p = some (v, q) → q.failed = false →
      parse_array_loop value' fuel' data (p.extend sep u s) = some (v, q.extend sep u s)
  | 0, _, _, _, _, _, _, _, _, _, h, _ => by simp [parse_array_loop] at h
  | _ + 1, 0, _, _, _, _, hff, _, _, _, _, _ => by omega
  | fuel + 1, f' + 1, data, p, v, q, hff, hs, h1i, hle, h, hq => by
    rw [parse_array_loop_succ] at h ⊢
    cases hval : value p.back with
    | none => simp [hval] at h
    | some w =>
      obtain ⟨wv, wq⟩ := w
      simp only [hval] at h
      by_cases h1 : wq.failed = true
      · rw [if_pos h1] at h
        cases h
        rw [h1] at hq
        cases hq
      rw [if_neg h1] at h
      have hwf : wq.failed = false := by simpa using h1
      have hback : p.back.i ≤ p.back.str.length := by
        simp only [back_i, back_str]
        omega
      have hval' := hv p.back wv wq hs hback hval hwf
      have hwe := hve p.back (wv, wq) hval
      have hws : wq.strategy = JsonParse.STANDARD := by
        rw [hwe.strategy]
        exact hs
      have hwi := hva p.back (wv, wq) hval hwf hback
      simp only [back_i, back_str] at hwi
      have hwle : wq.i ≤ wq.str.length := by
        rw [hwe.str]
        exact hwi.2
      rw [extend_back, hval']
      simp only [extend_failed]
      rw [if_neg h1]
      by_cases h2 : (get_next_token wq).1 = 93
      · rw [if_pos h2] at h
        cases h
        rw [get_next_token_extend sep u s wq hws hwle hq (by omega)]
        simp only
        rw [if_pos h2]
      rw [if_neg h2] at h
      by_cases h3 : (get_next_token wq).1 ≠ 44
      · rw [if_pos h3] at h
        cases h
        simp at hq
      rw [if_neg h3] at h
      have h44 : (get_next_token wq).1 = 44 := by simpa using h3
      have ht1 : (get_next_token wq).2.failed = false :=
        get_next_token_not_failed_of_ne wq (by omega)
      have ht1s : (get_next_token wq).2.strategy = JsonParse.STANDARD := by
        rw [(get_next_token_ext wq).strategy]
        exact hws
      have ht1i := get_next_token_i wq hwle ht1
      have ht1le : (get_next_token wq).2.i ≤ (get_next_token wq).2.str.length := by
        rw [(get_next_token_ext wq).str]
        exact ht1i.2.1
      have hloop := parse_array_loop_ext value hve fuel _ _ _ h
      have ht2 : (get_next_token (get_next_token wq).2).2.failed = false :=
        hloop.not_failed hq
      have ht2s : (get_next_token (get_next_token wq).2).2.strategy = JsonParse.STANDARD := by
        rw [(get_next_token_ext _).strategy]
        exact ht1s
      have ht2i := get_next_token_i _ ht1le ht2
      have ht2le : (get_next_token (get_next_token wq).2).2.i ≤
          (get_next_token (get_next_token wq).2).2.str.length := by
        rw [(get_next_token_ext _).str]
        exact ht2i.2.1
      obtain ⟨w2, hw2, hw2f⟩ := parse_array_loop_first value fuel _ _ _ h hq
      have h47 := (hvt _ _ hw2 hw2f).1
      rw [get_next_token_back _ ht1s ht2] at h47
      rw [get_next_token_extend sep u s wq hws hwle ht1 (by omega)]
      simp only
      rw [if_neg h2, if_neg h3, get_next_token_extend sep u s _ ht1s ht1le ht2 h47]
      simp only
      exact parse_array_loop_extend sep u s value value' hv hve hva hvt fuel f' _ _ v q (by omega)
        ht2s (by omega) ht2le h hq

theorem parse_object_loop_extend (sep : Nat) (u : List Nat) (s : JsonParse)
    (value value' : JsonParser → Option (Json × JsonParser))
    (hv : ValueExtends sep u s value value') (hve : ValueExt value) (hva : ValueAdv value) :
    ∀ (fuel fuel' : Nat) (data : List (List Nat × Json)) (ch : Nat) (p : JsonParser) (v : Json)
      (q : JsonParser),
      fuel ≤ fuel' → p.strategy = JsonParse.STANDARD → p.i ≤ p.str.length →
      parse_object_loop value fuel data ch p = some (v, q) → q.failed = false →
      parse_object_loop value' fuel' data ch (p.extend sep u s) = some (v, q.extend sep u s)
  | 0, _, _, _, _, _, _, _, _, _, h, _ => by simp [parse_object_loop] at h
  | _ + 1, 0, _, _, _, _, _, hff, _, _, _, _ => by omega
  | fuel + 1, f' + 1, data, ch, p, v, q, hff, hs, hle, h, hq => by
    rw [parse_object_loop_succ] at h ⊢
    by_cases h1 : ch ≠ 34
    · rw [if_pos h1] at h
      cases h
      simp at hq
    rw [if_neg h1] at h ⊢
    by_cases h2 : (parse_string p).2.failed = true
    · rw [if_pos h2] at h
      cases h
      rw [h2] at hq
      cases hq
    rw [if_neg h2] at h
    have hpf : (parse_string p).2.failed = false := by simpa using h2
    have hps := parse_string_ext p
    have hpss : (parse_string p).2.strategy = JsonParse.STANDARD := by
      rw [hps.strategy]
      exact hs
    have hpsi := parse_string_i p hle hpf
    have hpsle : (parse_string p).2.i ≤ (parse_string p).2.str.length := by
      rw [hps.str]
      exact hpsi.2
    rw [parse_string_extend sep u s p hle hpf]
    simp only [extend_failed]
    rw [if_neg h2]
    by_cases h3 : (get_next_token (parse_string p).2).1 ≠ 58
    · rw [if_pos h3] at h
      cases h
      simp at hq
    rw [if_neg h3] at h
    have h58 : (get_next_token (parse_string p).2).1 = 58 := by simpa using h3
    have ht0 : (get_next_token (parse_string p).2).2.failed = false :=
      get_next_token_not_failed_of_ne _ (by omega)
    have ht0s : (get_next_token (parse_string p).2).2.strategy = JsonParse.STANDARD := by
      rw [(get_next_token_ext _).strategy]
      exact hpss
    have ht0i := get_next_token_i _ hpsle ht0
    have ht0le : (get_next_token (parse_string p).2).2.i ≤
        (get_next_token (parse_string p).2).2.str.length := by
      rw [(get_next_token_ext _).str]
      exact ht0i.2.1
    rw [get_next_token_extend sep u s _ hpss hpsle ht0 (by omega)]
    simp only
    rw [if_neg h3]
    cases hval : value (get_next_token (parse_string p).2).2 with
    | none => simp [hval] at h
    | some w =>
      obtain ⟨wv, wq⟩ := w
      simp only [hval] at h
      by_cases h4 : wq.failed = true
      · rw [if_pos h4] at h
        cases h
        rw [h4] at hq
        cases hq
      rw [if_neg h4] at h
      have hwf : wq.failed = false := by simpa using h4
      have hval' := hv _ wv wq ht0s ht0le hval hwf
      have hwe := hve _ (wv, wq) hval
      have hws : wq.strategy = JsonParse.STANDARD := by
        rw [hwe.strategy]
        exact ht0s
      have hwi := hva _ (wv, wq) hval hwf ht0le
      have hwle : wq.i ≤ wq.str.length := by
        rw [hwe.str]
        exact hwi.2
      rw [hval']
      simp only [extend_failed]
      rw [if_neg h4]
      by_cases h5 : (get_next_token wq).1 = 125
      · rw [if_pos h5] at h
        cases h
        rw [get_next_token_extend sep u s wq hws hwle hq (by omega)]
        simp only
        rw [if_pos h5]
      rw [if_neg h5] at h
      by_cases h6 : (get_next_token wq).1 ≠ 44
      · rw [if_pos h6] at h
        cases h
        simp at hq
      rw [if_neg h6] at h
      have h44 : (get_next_token wq).1 = 44 := by simpa using h6
      have ht1 : (get_next_token wq).2.failed = false :=
        get_next_token_not_failed_of_ne wq (by omega)
      have ht1s : (get_next_token wq).2.strategy = JsonParse.STANDARD := by
        rw [(get_next_token_ext wq).strategy]
        exact hws
      have ht1i := get_next_token_i wq hwle ht1
      have ht1le : (get_next_token wq).2.i ≤ (get_next_token wq).2.str.length := by
        rw [(get_next_token_ext wq).str]
        exact ht1i.2.1
      have hloop := parse_object_loop_ext value hve fuel _ _ _ _ h
      have ht2 : (get_next_token (get_next_token wq).2).2.failed = false :=
        hloop.not_failed hq
      have ht2s : (get_next_token (get_next_token wq).2).2.strategy = JsonParse.STANDARD := by
        rw [(get_next_token_ext _).strategy]
        exact ht1s
      have ht2i := get_next_token_i _ ht1le ht2
      have ht2le : (get_next_token (get_next_token wq).2).2.i ≤
          (get_next_token (get_next_token wq).2).2.str.length := by
        rw [(get_next_token_ext _).str]
        exact ht2i.2.1
      have h34 := parse_object_loop_first value fuel _ _ _ _ h hq
      rw [get_next_token_extend sep u s wq hws hwle ht1 (by omega)]
      simp only
      rw [if_neg h5, if_neg h6, get_next_token_extend sep u s _ ht1s ht1le ht2 (by omega)]
      simp only
      exact parse_object_loop_extend sep u s value value' hv hve hva fuel f' _ _ _ v q (by omega)
        ht2s ht2le h hq

/-- A value read in a text under the standard dialect is read the same way in
the extension of the text, under either dialect and with any larger fuel. -/
theorem parse_json_extend (L : Libc) (sep : Nat) (hsep : sep = 32 ∨ sep = 44)
    (hL : StrtodLocalAt sep L) (u : List Nat) (s : JsonParse) :
    ∀ (fuel fuel' depth : Nat), fuel ≤ fuel' →
      ValueExtends sep u s (parse_json L fuel depth) (parse_json L fuel' depth)
  | 0, _, _, _ => by
    intro p v q _ _ h _
    simp [parse_json] at h
  | _ + 1, 0, _, hff => by omega
  | fuel + 1, f' + 1, depth, hff => by
    intro p v q hs hle h hq
    have htok := parse_json_token L (fuel + 1) depth p (v, q) h hq
    have ht := htok.2
    have hts : (get_next_token p).2.strategy = JsonParse.STANDARD := by
      rw [(get_next_token_ext p).strategy]
      exact hs
    have hti := get_next_token_i p hle ht
    have htle : (get_next_token p).2.i ≤ (get_next_token p).2.str.length := by
      rw [(get_next_token_ext p).str]
      exact hti.2.1
    rw [parse_json_succ] at h ⊢
    by_cases h0 : depth > max_depth
    · rw [if_pos h0] at h
      cases h
      simp at hq
    rw [if_neg h0] at h ⊢
    rw [get_next_token_extend sep u s p hs hle ht htok.1]
    simp only [extend_failed]
    rw [if_neg (by rw [ht]; simp)] at h ⊢
    by_cases h2 : (get_next_token p).1 = 45 ∨
        ((get_next_token p).1 ≥ 48 ∧ (get_next_token p).1 ≤ 57)
    · rw [if_pos h2] at h ⊢
      have e := Option.some.inj h
      have hf : (parse_number L (get_next_token p).2.back).2.failed = false := by
        rw [e]
        exact hq
      rw [extend_back, parse_number_extend L sep hsep hL u s _
        (by simp only [back_i, back_str]; omega) hf, e]
    rw [if_neg h2] at h ⊢
    by_cases h3 : (get_next_token p).1 = 110
    · rw [if_pos h3] at h ⊢
      have e := Option.some.inj h
      have hf : (expect (bytes "null") Json.null (get_next_token p).2).2.failed = false := by
        rw [e]
        exact hq
      rw [expect_extend sep u s _ _ _ htle (by omega) hf, e]
    rw [if_neg h3] at h ⊢
    by_cases h4 : (get_next_token p).1 = 116
    · rw [if_pos h4] at h ⊢
      have e := Option.some.inj h
      have hf : (expect (bytes "true") (Json.bool true) (get_next_token p).2).2.failed =
          false := by
        rw [e]
        exact hq
      rw [expect_extend sep u s _ _ _ htle (by omega) hf, e]
    rw [if_neg h4] at h ⊢
    by_cases h5 : (get_next_token p).1 = 102
    · rw [if_pos h5] at h ⊢
      have e := Option.some.inj h
      have hf : (expect (bytes "false") (Json.bool false) (get_next_token p).2).2.failed =
          false := by
        rw [e]
        exact hq
      rw [expect_extend sep u s _ _ _ htle (by omega) hf, e]
    rw [if_neg h5] at h ⊢
    by_cases h6 : (get_next_token p).1 = 34
    · rw [if_pos h6] at h ⊢
      have e := Option.some.inj h
      have hf : (parse_string (get_next_token p).2).2.failed = false := by
        have := congrArg Prod.snd e
        simp only at this
        rw [this]
        exact hq
      rw [parse_string_extend sep u s _ htle hf]
      simp only
      have e1 := congrArg Prod.fst e
      have e2 := congrArg Prod.snd e
      simp only at e1 e2
      rw [e1, e2]
    rw [if_neg h6] at h ⊢
    by_cases h7 : (get_next_token p).1 = 123
    · rw [if_pos h7] at h ⊢
      by_cases h8 : (get_next_token (get_next_token p).2).1 = 125
      · rw [if_pos h8] at h
        cases h
        rw [get_next_token_extend sep u s _ hts htle hq (by omega)]
        simp only
        rw [if_pos h8]
      rw [if_neg h8] at h
      have hloop := parse_object_loop_ext _ (parse_json_ext L fuel (depth + 1)) fuel _ _ _ _ h
      have ht2 : (get_next_token (get_next_token p).2).2.failed = false := hloop.not_failed hq
      have ht2s : (get_next_token (get_next_token p).2).2.strategy = JsonParse.STANDARD := by
        rw [(get_next_token_ext _).strategy]
        exact hts
      have ht2i := get_next_token_i _ htle ht2
      have ht2le : (get_next_token (get_next_token p).2).2.i ≤
          (get_next_token (get_next_token p).2).2.str.length := by
        rw [(get_next_token_ext _).str]
        exact ht2i.2.1
      have h34 := parse_object_loop_first _ fuel _ _ _ _ h hq
      rw [get_next_token_extend sep u s _ hts htle ht2 (by omega)]
      simp only
      rw [if_neg h8]
      exact parse_object_loop_extend sep u s _ _
        (parse_json_extend L sep hsep hL u s fuel f' (depth + 1) (by omega))
        (parse_json_ext L fuel (depth + 1)) (parse_json_adv L fuel (depth + 1))
        fuel f' _ _ _ v q (by omega) ht2s ht2le h hq
    rw [if_neg h7] at h ⊢
    by_cases h9 : (get_next_token p).1 = 91
    · rw [if_pos h9] at h ⊢
      by_cases h10 : (get_next_token (get_next_token p).2).1 = 93
      · rw [if_pos h10] at h
        cases h
        rw [get_next_token_extend sep u s _ hts htle hq (by omega)]
        simp only
        rw [if_pos h10]
      rw [if_neg h10] at h
      have hloop := parse_array_loop_ext _ (parse_json_ext L fuel (depth + 1)) fuel _ _ _ h
      have ht2 : (get_next_token (get_next_token p).2).2.failed = false := hloop.not_failed hq
      have ht2s : (get_next_token (get_next_token p).2).2.strategy = JsonParse.STANDARD := by
        rw [(get_next_token_ext _).strategy]
        exact hts
      have ht2i := get_next_token_i _ htle ht2
      have ht2le : (get_next_token (get_next_token p).2).2.i ≤
          (get_next_token (get_next_token p).2).2.str.length := by
        rw [(get_next_token_ext _).str]
        exact ht2i.2.1
      obtain ⟨w2, hw2, hw2f⟩ := parse_array_loop_first _ fuel _ _ _ h hq
      have h47 := (parse_json_token L fuel (depth + 1) _ _ hw2 hw2f).1
      rw [get_next_token_back _ hts ht2] at h47
      rw [get_next_token_extend sep u s _ hts htle ht2 h47]
      simp only
      rw [if_neg h10]
      exact parse_array_loop_extend sep u s _ _
        (parse_json_extend L sep hsep hL u s fuel f' (depth + 1) (by omega))
        (parse_json_ext L fuel (depth + 1)) (parse_json_adv L fuel (depth + 1))
        (parse_json_token L fuel (depth + 1))
        fuel f' _ _ v q (by omega) ht2s (by omega) ht2le h hq
    rw [if_neg h9] at h
    cases h
    simp at hq

/-! ### The text after the value -/

theorem extend_at_succ (p : JsonParser) (c : Nat) (u : List Nat) (s : JsonParse) :
    (p.extend 32 (c :: u) s).at (p.str.length + 1) = c := by
  simp only [JsonParser.at, extend_str, List.getD_eq_getElem?_getD]
  rw [List.getElem?_append_right (by omega)]
  simp

theorem consume_whitespace_loop_at_end (c : Nat) (u : List Nat) (s : JsonParse) (fuel : Nat)
    (p : JsonParser) (hc : ¬ (c = 32 ∨ c = 9 ∨ c = 10 ∨ c = 13)) (hi : p.i = p.str.length) :
    consume_whitespace_loop (fuel + 2) (p.extend 32 (c :: u) s) = (p.extend 32 (c :: u) s).adv 1 := by
  have h1 := (extend_cur_end p 32 (c :: u) s hi).2
  have h2 : ((p.extend 32 (c :: u) s).adv 1).cur = c := by
    rw [adv_cur, extend_i, hi]
    exact extend_at_succ p c u s
  simp only [consume_whitespace_loop]
  rw [h1, if_pos (Or.inl rfl), h2, if_neg hc]

theorem consume_whitespace_loop_extend_end (c : Nat) (u : List Nat) (s : JsonParse)
    (hc : ¬ (c = 32 ∨ c = 9 ∨ c = 10 ∨ c = 13)) :
    ∀ (fuel fuel' : Nat) (p : JsonParser), p.i ≤ p.str.length → p.str.length - p.i ≤ fuel →
      p.str.length - p.i + 2 ≤ fuel' → (consume_whitespace_loop fuel p).i = p.str.length →
      consume_whitespace_loop fuel' (p.extend 32 (c :: u) s) =
        ((consume_whitespace_loop fuel p).extend 32 (c :: u) s).adv 1
  | 0, fuel', p, hle, h, h', _ => by
    obtain ⟨f, rfl⟩ : ∃ f, fuel' = f + 2 := ⟨fuel' - 2, by omega⟩
    exact consume_whitespace_loop_at_end c u s f p hc (by omega)
  | fuel + 1, fuel', p, hle, h, h', hend => by
    simp only [consume_whitespace_loop] at hend ⊢
    by_cases hws : p.cur = 32 ∨ p.cur = 9 ∨ p.cur = 10 ∨ p.cur = 13
    · rw [if_pos hws] at hend ⊢
      have hi : p.i < p.str.length := cur_ne_zero_lt p (by omega)
      obtain ⟨f, rfl⟩ : ∃ f, fuel' = f + 1 := ⟨fuel' - 1, by omega⟩
      simp only [consume_whitespace_loop]
      rw [extend_cur_lt p 32 (c :: u) s hi, if_pos hws, extend_adv]
      exact consume_whitespace_loop_extend_end c u s hc fuel f (p.adv 1)
        (by simp only [adv_str, adv_i]; omega) (by simp only [adv_str, adv_i]; omega)
        (by simp only [adv_str, adv_i]; omega) hend
    · rw [if_neg hws] at hend ⊢
      obtain ⟨f, rfl⟩ : ∃ f, fuel' = f + 2 := ⟨fuel' - 2, by omega⟩
      exact consume_whitespace_loop_at_end c u s f p hc hend

theorem consume_whitespace_extend_end (c : Nat) (u : List Nat) (s : JsonParse)
    (hc : ¬ (c = 32 ∨ c = 9 ∨ c = 10 ∨ c = 13)) (p : JsonParser) (hle : p.i ≤ p.str.length)
    (hend : (consume_whitespace p).i = p.str.length) :
    consume_whitespace (p.extend 32 (c :: u) s) = ((consume_whitespace p).extend 32 (c :: u) s).adv 1 := by
  simp only [consume_whitespace] at hend ⊢
  exact consume_whitespace_loop_extend_end c u s hc _ _ p hle (le_refl _)
    (by rw [extend_length]; simp only [extend_i, List.length_cons]; omega) hend

theorem line_comment_loop_dump : ∀ (c : List Nat) (fuel : Nat) (p : JsonParser),
    (∀ x ∈ c, x ≠ 10) → c.length ≤ fuel → p.str.drop p.i = c →
    line_comment_loop fuel p = p.adv c.length
  | [], 0, p, _, _, _ => rfl
  | [], fuel + 1, p, _, _, h => by
    have hl := length_of_drop p _ h
    simp only [line_comment_loop]
    rw [if_neg (by simp only [List.length_nil] at hl; omega)]
    rfl
  | x :: c, 0, _, _, hf, _ => by simp at hf
  | x :: c, fuel + 1, p, hc, hf, h => by
    have hlt := lt_of_drop p x c h
    have hcur := cur_of_drop p x c h
    have h1 : (p.adv 1).str.drop (p.adv 1).i = c := by
      rw [drop_adv, h]
      rfl
    simp only [line_comment_loop]
    rw [if_pos ⟨hlt, by rw [hcur]; exact hc x (by simp)⟩,
      line_comment_loop_dump c fuel (p.adv 1) (fun y hy => hc y (by simp [hy]))
        (by simpa using hf) h1, adv_adv, List.length_cons, Nat.add_comm]

/-- An inline comment that runs to the end of the text is garbage under the
dialect with comments. -/
theorem consume_garbage_loop_comment (c : List Nat) (fuel : Nat) (p : JsonParser)
    (hc : ∀ x ∈ c, x ≠ 10) (hp : p.failed = false) (h : p.str.drop p.i = 47 :: 47 :: c) :
    consume_garbage_loop (fuel + 2) p = p.adv (c.length + 2) := by
  have hcur := cur_of_drop p 47 _ h
  have h1 : (p.adv 1).str.drop (p.adv 1).i = 47 :: c := by
    rw [drop_adv, h]
    rfl
  have hcur1 := cur_of_drop (p.adv 1) 47 _ h1
  have hlt1 := lt_of_drop (p.adv 1) 47 _ h1
  have h2 : ((p.adv 1).adv 1).str.drop ((p.adv 1).adv 1).i = c := by
    rw [drop_adv, h1]
    rfl
  have hl2 := length_of_drop _ _ h2
  have hcom : consume_comment p = (true, p.adv (c.length + 2)) := by
    simp only [consume_comment]
    rw [if_pos hcur, if_neg (by omega), if_pos hcur1,
      line_comment_loop_dump c _ _ hc (by rw [hl2]) h2, adv_adv, adv_adv]
    congr 2
    omega
  have h3 : (p.adv (c.length + 2)).str.drop (p.adv (c.length + 2)).i = [] := by
    rw [drop_adv, h]
    simp
  have hws := consume_whitespace_end _ h3
  have hcur3 : (p.adv (c.length + 2)).cur ≠ 47 := by
    rw [cur_of_suffix _ _ h3]
    decide
  rw [consume_garbage_loop, hcom]
  simp only [adv_failed, hp, Bool.false_eq_true, if_false, if_true, hws]
  rw [consume_garbage_loop, consume_comment_of_ne _ hcur3]
  simp only [adv_failed, hp, Bool.false_eq_true, if_false, hws]

theorem Json.parse_state_success (L : Libc) (inp err : List Nat) (strategy : JsonParse)
    (v : Json) (q : JsonParser)
    (h : Json.parse_state L inp err strategy = some (v, q)) (hq : q.failed = false) :
    ∃ r, parse_json L (parse_json_fuel inp) 0 ⟨inp, 0, err, false, strategy⟩ = some (v, r) ∧
      r.failed = false ∧ q = consume_garbage r ∧ q.i = inp.length := by
  obtain ⟨r, hr⟩ := parse_json_fuel_some L 0 ⟨inp, 0, err, false, strategy⟩ (Nat.zero_le _)
  rw [Json.parse_state_eq L inp err strategy r hr] at h
  by_cases h1 : (consume_garbage r.2).failed = true
  · rw [if_pos h1] at h
    cases h
    rw [h1] at hq
    cases hq
  rw [if_neg h1] at h
  by_cases h2 : (consume_garbage r.2).i ≠ inp.length
  · rw [if_pos h2] at h
    cases h
    simp at hq
  rw [if_neg h2] at h
  obtain ⟨rv, rq⟩ := r
  cases h
  exact ⟨rq, hr, (consume_garbage_ext rq).not_failed hq, rfl, by simpa using h2⟩

/-! ### A parsed text followed by an inline comment -/

theorem Json.parse_success (L : Libc) (t : List Nat) (strategy : JsonParse) (v : Json)
    (h : Json.parse L t [] strategy = some (v, [])) :
    ∃ q, Json.parse_state L t [] strategy = some (v, q) ∧ q.failed = false := by
  simp only [Json.parse] at h
  cases hs : Json.parse_state L t [] strategy with
  | none => simp [hs] at h
  | some r =>
    rw [hs] at h
    obtain ⟨rv, rq⟩ := r
    simp only [Option.map_some', Option.some.injEq, Prod.mk.injEq] at h
    refine ⟨rq, by rw [h.1], ?_⟩
    have e := Json.parse_state_ext L t [] strategy rv rq hs
    cases hf : rq.failed
    · rfl
    · exact absurd h.2 (e.msg rfl hf)

/-- The value and the state `parse_json(0)` returns on the text `t` followed by a
space and `u`, when `parse` accepted `t` under the standard dialect, and what
the white space after the value is then. -/
theorem Json.parse_extend (L : Libc) (hL : StrtodLocal L) (t : List Nat) (c : Nat)
    (u : List Nat) (s : JsonParse) (v : Json)
    (hc : ¬ (c = 32 ∨ c = 9 ∨ c = 10 ∨ c = 13))
    (ht : Json.parse L t [] JsonParse.STANDARD = some (v, [])) :
    ∃ r, parse_json L (parse_json_fuel (t ++ 32 :: c :: u)) 0
        ⟨t ++ 32 :: c :: u, 0, [], false, s⟩ = some (v, r) ∧
      consume_whitespace r = ⟨t ++ 32 :: c :: u, t.length + 1, [], false, s⟩ := by
  obtain ⟨q, hq, hqf⟩ := Json.parse_success L t _ v ht
  obtain ⟨r, hr, hrf, hcg, hqi⟩ := Json.parse_state_success L t [] _ v q hq hqf
  have hre := parse_json_ext L _ 0 _ _ hr
  have hri := parse_json_adv L _ 0 _ _ hr hrf (Nat.zero_le _)
  simp only at hre hri
  have hrs : r.strategy = JsonParse.STANDARD := hre.strategy
  have hrstr : r.str = t := hre.str
  have hrerr : r.err = [] := hre.keep hrf
  rw [consume_garbage_standard r hrs] at hcg
  have hx := parse_json_extend L 32 (Or.inl rfl) hL (c :: u) s (parse_json_fuel t)
    (parse_json_fuel (t ++ 32 :: c :: u)) 0
    (by simp only [parse_json_fuel, List.length_append, List.length_cons]; omega)
    ⟨t, 0, [], false, JsonParse.STANDARD⟩ v r rfl (Nat.zero_le _) hr hrf
  refine ⟨r.extend 32 (c :: u) s, hx, ?_⟩
  have hend : (consume_whitespace r).i = r.str.length := by
    rw [← hcg, hrstr]
    exact hqi
  rw [consume_whitespace_extend_end c u s hc r (by rw [hrstr]; exact hri.2) hend]
  have hw := consume_whitespace_ext r
  have hwf : (consume_whitespace r).failed = false := by
    rw [← hcg]
    exact hqf
  simp only [JsonParser.extend, JsonParser.adv]
  rw [hw.str, hrstr, hend, hrstr, hw.keep hwf, hrerr, hwf]

theorem Json.parse_comment_standard (L : Libc) (hL : StrtodLocal L) (t c : List Nat) (v : Json)
    (ht : Json.parse L t [] JsonParse.STANDARD = some (v, [])) :
    Json.parse L (t ++ 32 :: 47 :: 47 :: c) [] JsonParse.STANDARD =
      some (Json.null, bytes "unexpected trailing " ++ esc 47) := by
  obtain ⟨r, hr, hw⟩ := Json.parse_extend L hL t 47 (47 :: c) JsonParse.STANDARD v (by decide) ht
  have hrs : r.strategy = JsonParse.STANDARD := (parse_json_ext L _ 0 _ _ hr).strategy
  simp only [Json.parse]
  rw [Json.parse_state_eq L _ _ _ _ hr]
  simp only [consume_garbage_standard r hrs, hw]
  rw [if_neg (by simp), if_pos (by simp)]
  have hat : (JsonParser.mk (t ++ 32 :: 47 :: 47 :: c) (t.length + 1) [] false
      JsonParse.STANDARD).at (t.length + 1) = 47 := by
    simp only [JsonParser.at, List.getD_eq_getElem?_getD]
    rw [List.getElem?_append_right (by omega)]
    simp
  rw [hat]
  rfl

theorem Json.parse_comment_comments (L : Libc) (hL : StrtodLocal L) (t c : List Nat) (v : Json)
    (hc : ∀ x ∈ c, x ≠ 10)
    (ht : Json.parse L t [] JsonParse.STANDARD = some (v, [])) :
    Json.parse L (t ++ 32 :: 47 :: 47 :: c) [] JsonParse.COMMENTS = some (v, []) := by
  obtain ⟨r, hr, hw⟩ := Json.parse_extend L hL t 47 (47 :: c) JsonParse.COMMENTS v (by decide) ht
  have hdrop : (JsonParser.mk (t ++ 32 :: 47 :: 47 :: c) (t.length + 1) [] false
      JsonParse.COMMENTS).str.drop (JsonParser.mk (t ++ 32 :: 47 :: 47 :: c) (t.length + 1) []
      false JsonParse.COMMENTS).i = 47 :: 47 :: c := by
    simp only
    rw [List.drop_append_eq_append_drop, List.drop_of_length_le (by omega)]
    simp
  have hg : consume_garbage r = (JsonParser.mk (t ++ 32 :: 47 :: 47 :: c) (t.length + 1) [] false
      JsonParse.COMMENTS).adv (c.length + 2) := by
    simp only [consume_garbage, hw]
    rw [if_pos trivial]
    have hfuel : (t ++ 32 :: 47 :: 47 :: c).length - (t.length + 1) + 1 = (c.length + 1) + 2 := by
      simp only [List.length_append, List.length_cons]
      omega
    rw [hfuel]
    exact consume_garbage_loop_comment c _ _ hc rfl hdrop
  simp only [Json.parse]
  rw [Json.parse_state_eq L _ _ _ _ hr]
  simp only [hg]
  rw [if_neg (by simp [JsonParser.adv]),
    if_neg (by simp [JsonParser.adv]; omega)]
  rfl

theorem strtodLocal_sample : StrtodLocal sample_libc := by
  intro d s u hd
  simp only [sample_libc]
  rw [atoi_space 32 (Or.inl rfl) d s u hd]

/-! ## The serialized string and its specification -/

theorem spec_escape_string_three (c d e : Nat) (r : List Nat) :
    spec_escape_string (c :: d :: e :: r) =
      if c = 0xe2 ∧ d = 0x80 ∧ e = 0xa8 then bytes "\\u2028" ++ spec_escape_string r
      else if c = 0xe2 ∧ d = 0x80 ∧ e = 0xa9 then bytes "\\u2029" ++ spec_escape_string r
      else spec_escape_byte c ++ spec_escape_string (d :: e :: r) := by
  rw [spec_escape_string]

theorem spec_escape_string_two (c d : Nat) :
    spec_escape_string [c, d] = spec_escape_byte c ++ spec_escape_string [d] := by
  simp only [spec_escape_string]

theorem spec_escape_string_one (c : Nat) : spec_escape_string [c] = spec_escape_byte c := by
  rw [spec_escape_string]

theorem dump_item_eq (value : List Nat) (i : Nat) :
    dump_item value i =
      if value.getD i 0 = 0xe2 ∧ value.getD (i + 1) 0 = 0x80 ∧ value.getD (i + 2) 0 = 0xa8 then
        (3, bytes "\\u2028")
      else if value.getD i 0 = 0xe2 ∧ value.getD (i + 1) 0 = 0x80 ∧
          value.getD (i + 2) 0 = 0xa9 then (3, bytes "\\u2029")
      else (1, spec_escape_byte (value.getD i 0)) := by
  simp only [dump_item, spec_escape_byte]
  by_cases h1 : value.getD i 0 = 0xe2 ∧ value.getD (i + 1) 0 = 0x80 ∧ value.getD (i + 2) 0 = 0xa8
  · rw [if_pos h1, if_neg (by omega), if_neg (by omega), if_neg (by omega),
      if_neg (by rw [h1.1]; decide), if_neg (by omega), if_neg (by omega), if_neg (by omega),
      if_neg (by rw [h1.1]; decide), if_pos h1]
  · simp only [if_neg h1]
    by_cases h2 : value.getD i 0 = 0xe2 ∧ value.getD (i + 1) 0 = 0x80 ∧
        value.getD (i + 2) 0 = 0xa9
    · rw [if_pos h2, if_neg (by omega), if_neg (by omega), if_neg (by omega),
        if_neg (by rw [h2.1]; decide), if_neg (by omega), if_neg (by omega), if_neg (by omega),
        if_neg (by rw [h2.1]; decide), if_pos h2]
    · simp only [if_neg h2]
      by_cases a1 : value.getD i 0 = 92
      · rw [if_pos a1, if_pos a1]
      rw [if_neg a1, if_neg a1]
      by_cases a2 : value.getD i 0 = 34
      · rw [if_pos a2, if_pos a2]
      rw [if_neg a2, if_neg a2]
      by_cases a3 : value.getD i 0 = 8
      · rw [if_pos a3, if_pos a3]
      rw [if_neg a3, if_neg a3]
      by_cases a4 : value.getD i 0 = 12
      · rw [if_pos a4, if_pos a4]
      rw [if_neg a4, if_neg a4]
      by_cases a5 : value.getD i 0 = 10
      · rw [if_pos a5, if_pos a5]
      rw [if_neg a5, if_neg a5]
      by_cases a6 : value.getD i 0 = 13
      · rw [if_pos a6, if_pos a6]
      rw [if_neg a6, if_neg a6]
      by_cases a7 : value.getD i 0 = 9
      · rw [if_pos a7, if_pos a7]
      rw [if_neg a7, if_neg a7]
      by_cases a8 : value.getD i 0 ≤ 0x1f
      · rw [if_pos a8, if_pos (by omega)]
      rw [if_neg a8, if_neg (by omega)]

theorem getD_append_length (pre r : List Nat) (k : Nat) :
    (pre ++ r).getD (pre.length + k) 0 = r.getD k 0 := by
  simp only [List.getD_eq_getElem?_getD]
  rw [List.getElem?_append_right (by omega)]
  simp

theorem dump_string_body_end (value : List Nat) (i : Nat) (h : value.length ≤ i) :
    dump_string_body value i = [] := by
  rw [dump_string_body_eq, if_neg (by omega)]

/-- The body written by the loop of `dump(const string &)` is the body of the
specification. -/
theorem dump_string_body_spec (s : List Nat) : ∀ (pre : List Nat),
    dump_string_body (pre ++ s) pre.length = spec_escape_string s := by
  induction s using spec_escape_string.induct with
  | case1 =>
    intro pre
    exact dump_string_body_end _ _ (by simp)
  | case2 c =>
    intro pre
    have g0 := getD_append_length pre [c] 0
    have g1 := getD_append_length pre [c] 1
    simp only [Nat.add_zero, List.getD_cons_zero] at g0
    rw [dump_string_body_eq, if_pos (by simp), dump_item_eq, g0, g1]
    rw [if_neg (by simp), if_neg (by simp)]
    simp only
    rw [dump_string_body_end _ _ (by simp), spec_escape_string_one, List.append_nil]
  | case3 c d ih =>
    intro pre
    have g0 := getD_append_length pre [c, d] 0
    have g2 := getD_append_length pre [c, d] 2
    simp only [Nat.add_zero, List.getD_cons_zero] at g0
    rw [dump_string_body_eq, if_pos (by simp), dump_item_eq, g0, g2]
    rw [if_neg (by simp), if_neg (by simp)]
    simp only
    have e : pre ++ [c, d] = (pre ++ [c]) ++ [d] := by simp
    have el : pre.length + 1 = (pre ++ [c]).length := by simp
    rw [e, el, ih (pre ++ [c]), spec_escape_string_two]
  | case4 c d e rest h ih =>
    intro pre
    have g0 := getD_append_length pre (c :: d :: e :: rest) 0
    have g1 := getD_append_length pre (c :: d :: e :: rest) 1
    have g2 := getD_append_length pre (c :: d :: e :: rest) 2
    simp only [Nat.add_zero, List.getD_cons_zero, List.getD_cons_succ] at g0 g1 g2
    rw [dump_string_body_eq, if_pos (by simp), dump_item_eq, g0, g1, g2, if_pos h]
    simp only
    have e1 : pre ++ c :: d :: e :: rest = (pre ++ [c, d, e]) ++ rest := by simp
    have el : pre.length + 3 = (pre ++ [c, d, e]).length := by simp
    rw [e1, el, ih (pre ++ [c, d, e]), spec_escape_string_three, if_pos h]
  | case5 c d e rest h1 h ih =>
    intro pre
    have g0 := getD_append_length pre (c :: d :: e :: rest) 0
    have g1 := getD_append_length pre (c :: d :: e :: rest) 1
    have g2 := getD_append_length pre (c :: d :: e :: rest) 2
    simp only [Nat.add_zero, List.getD_cons_zero, List.getD_cons_succ] at g0 g1 g2
    rw [dump_string_body_eq, if_pos (by simp), dump_item_eq, g0, g1, g2, if_neg h1, if_pos h]
    simp only
    have e1 : pre ++ c :: d :: e :: rest = (pre ++ [c, d, e]) ++ rest := by simp
    have el : pre.length + 3 = (pre ++ [c, d, e]).length := by simp
    rw [e1, el, ih (pre ++ [c, d, e]), spec_escape_string_three, if_neg h1, if_pos h]
  | case6 c d e rest h1 h2 ih =>
    intro pre
    have g0 := getD_append_length pre (c :: d :: e :: rest) 0
    have g1 := getD_append_length pre (c :: d :: e :: rest) 1
    have g2 := getD_append_length pre (c :: d :: e :: rest) 2
    simp only [Nat.add_zero, List.getD_cons_zero, List.getD_cons_succ] at g0 g1 g2
    rw [dump_string_body_eq, if_pos (by simp), dump_item_eq, g0, g1, g2, if_neg h1, if_neg h2]
    simp only
    have e1 : pre ++ c :: d :: e :: rest = (pre ++ [c]) ++ d :: e :: rest := by simp
    have el : pre.length + 1 = (pre ++ [c]).length := by simp
    rw [e1, el, ih (pre ++ [c]), spec_escape_string_three, if_neg h1, if_neg h2]

theorem dump_string_spec (s out : List Nat) :
    dump_string s out = out ++ 34 :: (spec_escape_string s ++ [34]) := by
  rw [dump_string_eq]
  have := dump_string_body_spec s []
  simp only [List.nil_append, List.length_nil] at this
  rw [this]

/-- The two ways the body of the specification begins: with the escape of a line
separator, or with the escape of the first byte. -/
theorem spec_escape_string_cons (c : Nat) (r : List Nat) :
    (∃ x y r2, c = 0xe2 ∧ r = 0x80 :: x :: r2 ∧ ((x = 0xa8 ∧ y = 56) ∨ (x = 0xa9 ∧ y = 57)) ∧
      spec_escape_string (c :: r) = [92, 117, 50, 48, 50, y] ++ spec_escape_string r2) ∨
    ((∀ x r2, c = 0xe2 → r = 0x80 :: x :: r2 → ¬ (x = 0xa8 ∨ x = 0xa9)) ∧
      spec_escape_string (c :: r) = spec_escape_byte c ++ spec_escape_string r) := by
  cases r with
  | nil =>
    right
    refine ⟨fun x r2 _ h => (by cases h), ?_⟩
    rw [spec_escape_string_one]
    simp [spec_escape_string]
  | cons d r1 =>
    cases r1 with
    | nil =>
      right
      refine ⟨fun x r2 _ h => (by cases h), ?_⟩
      rw [spec_escape_string_two]
    | cons e r2 =>
      rw [spec_escape_string_three]
      by_cases h1 : c = 0xe2 ∧ d = 0x80 ∧ e = 0xa8
      · left
        obtain ⟨rfl, rfl, rfl⟩ := h1
        exact ⟨0xa8, 56, r2, rfl, rfl, Or.inl ⟨rfl, rfl⟩, by simp; rfl⟩
      rw [if_neg h1]
      by_cases h2 : c = 0xe2 ∧ d = 0x80 ∧ e = 0xa9
      · left
        obtain ⟨rfl, rfl, rfl⟩ := h2
        exact ⟨0xa9, 57, r2, rfl, rfl, Or.inr ⟨rfl, rfl⟩, by simp; rfl⟩
      rw [if_neg h2]
      right
      refine ⟨?_, rfl⟩
      intro x r3 hc hr hx
      cases hr
      rcases hx with rfl | rfl
      · exact h1 ⟨hc, rfl, rfl⟩
      · exact h2 ⟨hc, rfl, rfl⟩

theorem hexDigit_ascii (d : Nat) (h : d < 16) : 48 ≤ hexDigit d ∧ hexDigit d ≤ 102 := by
  simp only [hexDigit]
  split <;> omega

theorem hex4_ascii (c : Nat) : ∀ b ∈ hex4 c, 48 ≤ b ∧ b ≤ 102 := by
  intro b hb
  simp only [hex4, List.mem_cons, List.mem_singleton, List.not_mem_nil, or_false] at hb
  rcases hb with rfl | rfl | rfl | rfl
  all_goals exact hexDigit_ascii _ (Nat.mod_lt _ (by decide))

/-- The escape of a byte is the byte itself, from 0x20 on, or printable ASCII. -/
theorem spec_escape_byte_cases (c : Nat) :
    (spec_escape_byte c = [c] ∧ 0x20 ≤ c ∧ c ≠ 92 ∧ c ≠ 34) ∨
    (∃ t, spec_escape_byte c = 92 :: t ∧ ∀ b ∈ t, 0x20 ≤ b ∧ b < 0x80) := by
  simp only [spec_escape_byte]
  by_cases a1 : c = 92
  · rw [if_pos a1]
    exact Or.inr ⟨_, rfl, by simp⟩
  rw [if_neg a1]
  by_cases a2 : c = 34
  · rw [if_pos a2]
    exact Or.inr ⟨_, rfl, by simp⟩
  rw [if_neg a2]
  by_cases a3 : c = 8
  · rw [if_pos a3]
    exact Or.inr ⟨_, rfl, by simp⟩
  rw [if_neg a3]
  by_cases a4 : c = 12
  · rw [if_pos a4]
    exact Or.inr ⟨_, rfl, by simp⟩
  rw [if_neg a4]
  by_cases a5 : c = 10
  · rw [if_pos a5]
    exact Or.inr ⟨_, rfl, by simp⟩
  rw [if_neg a5]
  by_cases a6 : c = 13
  · rw [if_pos a6]
    exact Or.inr ⟨_, rfl, by simp⟩
  rw [if_neg a6]
  by_cases a7 : c = 9
  · rw [if_pos a7]
    exact Or.inr ⟨_, rfl, by simp⟩
  rw [if_neg a7]
  by_cases a8 : c < 0x20
  · rw [if_pos a8]
    refine Or.inr ⟨117 :: hex4 c, rfl, ?_⟩
    intro b hb
    rcases List.mem_cons.1 hb with rfl | hb
    · decide
    · have := hex4_ascii c b hb
      omega
  rw [if_neg a8]
  exact Or.inl ⟨rfl, by omega, a1, a2⟩

/-- A text that holds neither of the sequences E2 80 A8 and E2 80 A9. -/
theorem no_separator_append (item l : List Nat) (hi : ∀ b ∈ item, b ≠ 0xe2)
    (hl : ∀ pre post x, (x = 0xa8 ∨ x = 0xa9) → l ≠ pre ++ 0xe2 :: 0x80 :: x :: post) :
    ∀ pre post x, (x = 0xa8 ∨ x = 0xa9) → item ++ l ≠ pre ++ 0xe2 :: 0x80 :: x :: post := by
  induction item with
  | nil => exact hl
  | cons a item ih =>
    intro pre post x hx h
    cases pre with
    | nil =>
      simp only [List.cons_append, List.nil_append, List.cons.injEq] at h
      exact hi a (by simp) h.1
    | cons p pre =>
      simp only [List.cons_append, List.cons.injEq] at h
      exact ih (fun b hb => hi b (by simp [hb])) pre post x hx h.2

theorem spec_escape_string_head (r : List Nat) (h : Nat) (t : List Nat)
    (e : spec_escape_string r = h :: t) (h92 : h ≠ 92) :
    ∃ r', r = h :: r' ∧ (h ≠ 0xe2 → t = spec_escape_string r') := by
  cases r with
  | nil => simp [spec_escape_string] at e
  | cons c r' =>
    rcases spec_escape_string_cons c r' with ⟨x, y, r2, _, _, _, hs⟩ | ⟨hn, hs⟩
    · rw [hs] at e
      simp only [List.cons_append, List.cons.injEq] at e
      exact absurd e.1.symm h92
    · rw [hs] at e
      rcases spec_escape_byte_cases c with ⟨hb, _, _, _⟩ | ⟨u, hb, _⟩
      · rw [hb] at e
        simp only [List.singleton_append, List.cons.injEq] at e
        refine ⟨r', by rw [e.1], fun _ => e.2.symm⟩
      · rw [hb] at e
        simp only [List.cons_append, List.cons.injEq] at e
        exact absurd e.1.symm h92

theorem spec_escape_string_bytes (n : Nat) : ∀ (s : List Nat), s.length ≤ n →
    ∀ b ∈ spec_escape_string s, 0x20 ≤ b := by
  induction n with
  | zero =>
    intro s hs b hb
    cases s with
    | nil => simp [spec_escape_string] at hb
    | cons c r => simp at hs
  | succ n ih =>
    intro s hs b hb
    cases s with
    | nil => simp [spec_escape_string] at hb
    | cons c r =>
      simp only [List.length_cons] at hs
      rcases spec_escape_string_cons c r with ⟨x, y, r2, _, hr, hy, hsp⟩ | ⟨_, hsp⟩
      · rw [hsp] at hb
        rcases List.mem_append.1 hb with hb | hb
        · simp only [List.mem_cons, List.mem_singleton, List.not_mem_nil, or_false] at hb
          omega
        · exact ih r2 (by rw [hr] at hs; simp only [List.length_cons] at hs; omega) b hb
      · rw [hsp] at hb
        rcases List.mem_append.1 hb with hb | hb
        · rcases spec_escape_byte_cases c with ⟨he, hc, _, _⟩ | ⟨u, he, hu⟩
          · rw [he] at hb
            simp only [List.mem_singleton] at hb
            omega
          · rw [he] at hb
            rcases List.mem_cons.1 hb with rfl | hb
            · decide
            · exact (hu b hb).1
        · exact ih r (by omega) b hb

theorem spec_escape_string_separator (n : Nat) : ∀ (s : List Nat), s.length ≤ n →
    ∀ pre post x, (x = 0xa8 ∨ x = 0xa9) →
      spec_escape_string s ≠ pre ++ 0xe2 :: 0x80 :: x :: post := by
  induction n with
  | zero =>
    intro s hs pre post x _ h
    cases s with
    | nil => simp [spec_escape_string] at h
    | cons c r => simp at hs
  | succ n ih =>
    intro s hs
    cases s with
    | nil =>
      intro pre post x _ h
      simp [spec_escape_string] at h
    | cons c r =>
      simp only [List.length_cons] at hs
      rcases spec_escape_string_cons c r with ⟨x, y, r2, _, hr, hy, hsp⟩ | ⟨hn, hsp⟩
      · rw [hsp]
        refine no_separator_append _ _ ?_
          (ih r2 (by rw [hr] at hs; simp only [List.length_cons] at hs; omega))
        intro b hb
        simp only [List.mem_cons, List.mem_singleton, List.not_mem_nil, or_false] at hb
        omega
      · rw [hsp]
        by_cases hc : c = 0xe2
        · subst hc
          have hb : spec_escape_byte 0xe2 = [0xe2] := by decide
          rw [hb]
          intro pre post x hx h
          cases pre with
          | nil =>
            simp only [List.singleton_append, List.nil_append, List.cons.injEq, true_and] at h
            obtain ⟨r1, hr1, ht1⟩ := spec_escape_string_head r 0x80 _ h (by decide)
            have h2 := ht1 (by decide)
            have hx92 : x ≠ 92 := by omega
            obtain ⟨r2, hr2, _⟩ := spec_escape_string_head r1 x _ h2.symm hx92
            exact hn x r2 rfl (by rw [hr1, hr2]) hx
          | cons p pre =>
            simp only [List.singleton_append, List.cons_append, List.cons.injEq] at h
            exact ih r (by omega) pre post x hx h.2
        · refine no_separator_append _ _ ?_ (ih r (by omega))
          intro b hb
          rcases spec_escape_byte_cases c with ⟨he, _, _, _⟩ | ⟨u, he, hu⟩
          · rw [he] at hb
            simp only [List.mem_singleton] at hb
            omega
          · rw [he] at hb
            rcases List.mem_cons.1 hb with rfl | hb
            · decide
            · have := (hu b hb).2
              omega

/-! ## Serialized arrays and objects -/

theorem spec_join_cons (sep a b : List Nat) (rest : List (List Nat)) :
    spec_join sep (a :: b :: rest) = a ++ sep ++ spec_join sep (b :: rest) := rfl

theorem arr_tail_join (L : Libc) : ∀ (xs : List Json) (x : Json),
    Json.dumps L x ++ arr_tail L xs =
      spec_join (bytes ", ") ((x :: xs).map (Json.dumps L)) ++ [93]
  | [], x => rfl
  | y :: ys, x => by
    simp only [arr_tail, List.map_cons]
    rw [spec_join_cons, ← List.map_cons, List.append_assoc, List.append_assoc,
      ← arr_tail_join L ys y]
    rfl

theorem dumps_array_join (L : Libc) (xs : List Json) :
    Json.dumps L (Json.array xs) =
      [91] ++ spec_join (bytes ", ") (xs.map (Json.dumps L)) ++ [93] := by
  cases xs with
  | nil => rfl
  | cons x xs =>
    rw [dumps_array_cons, arr_tail_join]
    rfl

theorem member_text_entry (L : Libc) (kv : List Nat × Json) :
    member_text L kv = spec_entry L kv := by
  simp only [member_text, spec_entry]
  rw [dumps_string]
  simp
  rfl

theorem obj_tail_join (L : Libc) : ∀ (m : List (List Nat × Json)) (kv : List Nat × Json),
    member_text L kv ++ obj_tail L m =
      spec_join (bytes ", ") ((kv :: m).map (spec_entry L)) ++ [125]
  | [], kv => by
    rw [member_text_entry]
    rfl
  | e :: m, kv => by
    simp only [obj_tail, List.map_cons]
    rw [spec_join_cons, ← List.map_cons, List.append_assoc, List.append_assoc,
      ← obj_tail_join L m e, member_text_entry L kv]
    rfl

theorem dumps_object_join (L : Libc) (m : List (List Nat × Json)) :
    Json.dumps L (Json.object m) =
      [123] ++ spec_join (bytes ", ") (m.map (spec_entry L)) ++ [125] := by
  cases m with
  | nil => rfl
  | cons kv m =>
    rw [dumps_object_cons, obj_tail_join]
    rfl

/-! ### The order of the members -/

theorem map_assign_perm (k : List Nat) (v : Json) : ∀ (data : List (List Nat × Json)),
    k ∉ data.map Prod.fst → (map_assign k v data).Perm ((k, v) :: data)
  | [], _ => List.Perm.refl _
  | (a, w) :: rest, h => by
    simp only [List.map_cons, List.mem_cons, not_or] at h
    simp only [map_assign]
    by_cases h1 : string_lt k a = true
    · rw [if_pos h1]
    rw [if_neg h1]
    by_cases h2 : string_lt a k = true
    · rw [if_pos h2]
      exact ((map_assign_perm k v rest h.2).cons (a, w)).trans (List.Perm.swap _ _ _)
    · exact absurd (string_lt_connex k a (by simpa using h1) (by simpa using h2)) h.1

theorem assign_all_perm : ∀ (ms data : List (List Nat × Json)),
    ((data ++ ms).map Prod.fst).Nodup → (assign_all data ms).Perm (data ++ ms)
  | [], data, _ => by simp [assign_all]
  | (k, v) :: ms, data, h => by
    have hk : k ∉ data.map Prod.fst := by
      intro hk
      rw [List.map_append, List.nodup_append] at h
      exact h.2.2 hk (by simp)
    have hp := map_assign_perm k v data hk
    have h' : ((map_assign k v data ++ ms).map Prod.fst).Nodup := by
      have e : ((map_assign k v data ++ ms).map Prod.fst).Perm ((data ++ (k, v) :: ms).map Prod.fst) := by
        refine List.Perm.map _ ?_
        refine (hp.append_right ms).trans ?_
        simp only [List.cons_append]
        exact List.perm_middle.symm
      exact e.nodup_iff.2 h
    rw [assign_all_cons]
    refine (assign_all_perm ms _ h').trans ?_
    refine (hp.append_right ms).trans ?_
    simp only [List.cons_append]
    exact List.perm_middle.symm

theorem sorted_perm_eq (l₁ l₂ : List (List Nat × Json))
    (h₁ : List.Pairwise (fun a b => string_lt a.1 b.1 = true) l₁)
    (h₂ : List.Pairwise (fun a b => string_lt a.1 b.1 = true) l₂) (hp : l₁.Perm l₂) :
    l₁ = l₂ := by
  haveI : IsAntisymm (List Nat × Json) (fun a b => string_lt a.1 b.1 = true) :=
    ⟨fun a b hab hba => by
      rw [string_lt_asymm _ _ hab] at hba
      cases hba⟩
  exact List.eq_of_perm_of_sorted hp h₁ h₂

/-- Members with distinct keys give the same map in whatever order they are
assigned. -/
theorem assign_all_order (ms ms' : List (List Nat × Json)) (hp : ms.Perm ms')
    (hn : (ms.map Prod.fst).Nodup) : assign_all [] ms = assign_all [] ms' := by
  have hn' : (ms'.map Prod.fst).Nodup := (hp.map Prod.fst).nodup_iff.1 hn
  refine sorted_perm_eq _ _ (assign_all_sorted_keys ms [] List.Pairwise.nil)
    (assign_all_sorted_keys ms' [] List.Pairwise.nil) ?_
  have a := assign_all_perm ms [] (by simpa using hn)
  have b := assign_all_perm ms' [] (by simpa using hn')
  simp only [List.nil_append] at a b
  exact a.trans (hp.trans b.symm)

/-! ## Equality and order -/

theorem Json.eq_of_type_ne (a b : Json) (h : a.type ≠ b.type) : Json.eq a b = false := by
  cases a <;> cases b <;> first | rfl | exact absurd rfl h

theorem Json.eq_number (a b : Json) (ha : a.type = JsonType.NUMBER)
    (hb : b.type = JsonType.NUMBER) :
    Json.eq a b = Double.eq a.number_value b.number_value := by
  cases a <;> cases b <;>
    first | rfl | (exfalso; revert ha; simp [Json.type]; done) |
      (exfalso; revert hb; simp [Json.type])

theorem Double.eq_ofInt_iff (m n : Int) :
    Double.eq (Double.ofInt m) (Double.ofInt n) = true ↔ m = n := by
  simp [Double.eq, Double.ofInt]

theorem Json.eq_array_iff : ∀ (xs ys : List Json),
    Json.eq_array xs ys = true ↔
      xs.length = ys.length ∧
        ∀ i, i < xs.length → Json.eq (xs.getD i Json.null) (ys.getD i Json.null) = true
  | [], [] => by simp [Json.eq_array]
  | [], _ :: _ => by simp [Json.eq_array]
  | _ :: _, [] => by simp [Json.eq_array]
  | x :: xs, y :: ys => by
    simp only [Json.eq_array, Bool.and_eq_true, List.length_cons, Nat.add_right_cancel_iff]
    rw [Json.eq_array_iff xs ys]
    constructor
    · rintro ⟨h0, hl, hi⟩
      refine ⟨hl, ?_⟩
      intro i hlt
      cases i with
      | zero => exact h0
      | succ i => exact hi i (by omega)
    · rintro ⟨hl, hi⟩
      exact ⟨hi 0 (by omega), hl, fun i hlt => hi (i + 1) (by omega)⟩

theorem Json.eq_object_iff : ∀ (m m' : List (List Nat × Json)),
    Json.eq_object m m' = true ↔
      List.Forall₂ (fun a b => a.1 = b.1 ∧ Json.eq a.2 b.2 = true) m m'
  | [], [] => by simp [Json.eq_object]
  | [], _ :: _ => by simp [Json.eq_object]
  | _ :: _, [] => by simp [Json.eq_object]
  | a :: as, b :: bs => by
    simp only [Json.eq_object, Bool.and_eq_true, decide_eq_true_eq, List.forall₂_cons]
    rw [Json.eq_object_iff as bs]

theorem map_find_mem (k : List Nat) (v : Json) : ∀ (m : List (List Nat × Json)),
    map_find k m = some v → k ∈ m.map Prod.fst
  | [], h => by simp [map_find] at h
  | (a, w) :: rest, h => by
    simp only [map_find] at h
    by_cases ha : a = k
    · simp [ha]
    · rw [if_neg ha] at h
      simp [map_find_mem k v rest h]

theorem forall₂_keys : ∀ (m m' : List (List Nat × Json)),
    List.Forall₂ (fun a b => a.1 = b.1 ∧ Json.eq a.2 b.2 = true) m m' →
    m.map Prod.fst = m'.map Prod.fst ∧
      ∀ k v v', map_find k m = some v → map_find k m' = some v' → Json.eq v v' = true
  | [], [], _ => ⟨rfl, fun k v v' h => by simp [map_find] at h⟩
  | [], _ :: _, h => by cases h
  | _ :: _, [], h => by cases h
  | (a1, a2) :: as, (b1, b2) :: bs, h => by
    rw [List.forall₂_cons] at h
    obtain ⟨⟨hk, hv⟩, ht⟩ := h
    simp only at hk hv
    subst hk
    have ih := forall₂_keys as bs ht
    refine ⟨by simp [ih.1], ?_⟩
    intro k v v' h1 h2
    simp only [map_find] at h1 h2
    by_cases hk : a1 = k
    · rw [if_pos hk] at h1 h2
      cases h1
      cases h2
      exact hv
    · rw [if_neg hk] at h1 h2
      exact ih.2 k v v' h1 h2

theorem sorted_keys_eq (l₁ l₂ : List (List Nat))
    (h₁ : List.Pairwise (fun a b => string_lt a b = true) l₁)
    (h₂ : List.Pairwise (fun a b => string_lt a b = true) l₂)
    (h : ∀ k, k ∈ l₁ ↔ k ∈ l₂) : l₁ = l₂ := by
  haveI : IsAntisymm (List Nat) (fun a b => string_lt a b = true) :=
    ⟨fun a b hab hba => by
      rw [string_lt_asymm _ _ hab] at hba
      cases hba⟩
  have n₁ : l₁.Nodup := h₁.imp (fun hab e => by
    rw [e, string_lt_irrefl] at hab
    cases hab)
  have n₂ : l₂.Nodup := h₂.imp (fun hab e => by
    rw [e, string_lt_irrefl] at hab
    cases hab)
  exact List.eq_of_perm_of_sorted ((List.perm_ext_iff_of_nodup n₁ n₂).2 h) h₁ h₂

theorem forall₂_of_keys : ∀ (m m' : List (List Nat × Json)),
    (m.map Prod.fst).Nodup → m.map Prod.fst = m'.map Prod.fst →
    (∀ k v v', map_find k m = some v → map_find k m' = some v' → Json.eq v v' = true) →
    List.Forall₂ (fun a b => a.1 = b.1 ∧ Json.eq a.2 b.2 = true) m m'
  | [], [], _, _, _ => List.Forall₂.nil
  | [], _ :: _, _, h, _ => by simp at h
  | _ :: _, [], _, h, _ => by simp at h
  | (a1, a2) :: as, (b1, b2) :: bs, hn, hk, hv => by
    simp only [List.map_cons, List.cons.injEq] at hk
    obtain ⟨rfl, hk⟩ := hk
    simp only [List.map_cons, List.nodup_cons] at hn
    refine List.Forall₂.cons ⟨rfl, hv a1 a2 b2 (by simp [map_find]) (by simp [map_find])⟩
      (forall₂_of_keys as bs hn.2 hk ?_)
    intro k v v' h1 h2
    have hne : a1 ≠ k := by
      intro e
      rw [e] at hn
      exact hn.1 (map_find_mem k v as h1)
    exact hv k v v' (by simp [map_find, hne, h1]) (by simp [map_find, hne, h2])

/-- Two objects are equal when they have the same keys and equal values for
every key. -/
theorem Json.eq_object_spec (m m' : List (List Nat × Json))
    (h₁ : List.Pairwise (fun a b => string_lt a.1 b.1 = true) m)
    (h₂ : List.Pairwise (fun a b => string_lt a.1 b.1 = true) m') :
    Json.eq_object m m' = true ↔
      (∀ k, k ∈ m.map Prod.fst ↔ k ∈ m'.map Prod.fst) ∧
        ∀ k v v', map_find k m = some v → map_find k m' = some v' → Json.eq v v' = true := by
  rw [Json.eq_object_iff]
  constructor
  · intro h
    have := forall₂_keys m m' h
    exact ⟨fun k => by rw [this.1], this.2⟩
  · rintro ⟨hk, hv⟩
    have hkeys := sorted_keys_eq (m.map Prod.fst) (m'.map Prod.fst)
      (List.pairwise_map.2 h₁) (List.pairwise_map.2 h₂) hk
    exact forall₂_of_keys m m' (sorted_keys_nodup m h₁) hkeys hv

mutual
theorem Json.eq_self : ∀ (a : Json), a.nan_free = true → Json.eq a a = true
  | .null, _ => rfl
  | .bool b, _ => by simp [Json.eq]
  | .int n, _ => by simp [Json.eq, Double.eq, Double.ofInt]
  | .double d, h => by
    simp only [Json.nan_free, decide_eq_true_eq] at h
    cases d <;> simp [Json.eq, Double.eq] at h ⊢
  | .string s, _ => by simp [Json.eq]
  | .array xs, h => by
    simp only [Json.eq]
    exact Json.eq_array_self xs h
  | .object m, h => by
    simp only [Json.eq]
    exact Json.eq_object_self m h
theorem Json.eq_array_self : ∀ (xs : List Json), Json.nan_free_array xs = true →
    Json.eq_array xs xs = true
  | [], _ => rfl
  | x :: xs, h => by
    simp only [Json.nan_free_array, Bool.and_eq_true] at h
    simp only [Json.eq_array, Bool.and_eq_true]
    exact ⟨Json.eq_self x h.1, Json.eq_array_self xs h.2⟩
theorem Json.eq_object_self : ∀ (m : List (List Nat × Json)), Json.nan_free_object m = true →
    Json.eq_object m m = true
  | [], _ => rfl
  | (k, v) :: m, h => by
    simp only [Json.nan_free_object, Bool.and_eq_true] at h
    simp only [Json.eq_object, Bool.and_eq_true, decide_eq_true_eq]
    exact ⟨⟨trivial, Json.eq_self v h.1⟩, Json.eq_object_self m h.2⟩
end

theorem Json.lt_of_type_ne (a b : Json) (h : a.type ≠ b.type) :
    Json.lt a b = decide (a.type.rank < b.type.rank) := by
  cases a <;> cases b <;> first | rfl | exact absurd rfl h

/-! ### What `parse_number` has read when it does not fail -/

theorem drop_of_cur_ne_zero (p : JsonParser) (h : p.cur ≠ 0) :
    p.str.drop p.i = p.cur :: p.str.drop (p.i + 1) := by
  have hlt := lt_length_of_cur_ne_zero p h
  rw [List.drop_eq_getElem_cons hlt]
  simp only [JsonParser.cur, List.getD_eq_getElem _ _ hlt]

theorem digit_of_in_range (c : Nat) (lo : Int) (hlo : 48 ≤ lo)
    (h : in_range (toLong c) lo 57 = true) : 48 ≤ c ∧ c ≤ 57 ∧ lo ≤ (c : Int) := by
  rw [in_range_toLong _ _ _ (by omega)] at h
  omega

/-- The digit loop reads a run of digits and stops before a byte that is not a digit. -/
theorem digits_loop_split : ∀ (fuel : Nat) (p : JsonParser), p.str.length - p.i ≤ fuel →
    ∃ ds, AllDigits ds ∧ p.str.drop p.i = ds ++ p.str.drop (p.i + ds.length) ∧
      digits_loop fuel p = p.adv ds.length ∧
      in_range (toLong (p.adv ds.length).cur) 48 57 = false := by
  intro fuel
  induction fuel with
  | zero =>
    intro p hf
    refine ⟨[], fun c hc => absurd hc (List.not_mem_nil c), rfl, rfl, ?_⟩
    have hc : p.cur = 0 := by
      simp only [JsonParser.cur]
      rw [List.getD_eq_default _ _ (by omega)]
    show in_range (toLong p.cur) 48 57 = false
    rw [hc]
    rfl
  | succ n ih =>
    intro p hf
    simp only [digits_loop]
    by_cases hd : in_range (toLong p.cur) 48 57 = true
    · rw [if_pos hd]
      have hdig := digit_of_in_range _ 48 (le_refl _) hd
      have hdrop := drop_of_cur_ne_zero p (by omega)
      have hlt := lt_length_of_cur_ne_zero p (by omega)
      obtain ⟨ds, h1, h2, h3, h4⟩ := ih (p.adv 1) (by simp only [adv_str, adv_i]; omega)
      refine ⟨p.cur :: ds, ?_, ?_, ?_, ?_⟩
      · intro c hc
        rcases List.mem_cons.1 hc with rfl | hc
        · exact ⟨hdig.1, hdig.2.1⟩
        · exact h1 c hc
      · rw [hdrop]
        simp only [adv_str, adv_i] at h2
        rw [h2]
        simp only [List.cons_append, List.length_cons, List.cons.injEq, true_and]
        congr 2
        omega
      · rw [h3, adv_adv]
        simp only [List.length_cons]
        congr 1
        omega
      · rw [adv_adv] at h4
        simp only [List.length_cons]
        rw [Nat.add_comm ds.length 1]
        exact h4
    · rw [if_neg hd]
      exact ⟨[], fun c hc => absurd hc (List.not_mem_nil c), rfl, rfl,
        by simpa using hd⟩

/-- A run of digits read from a state whose byte is a digit is not empty. -/
theorem digits_loop_split_ne : ∀ (fuel : Nat) (p : JsonParser), p.str.length - p.i ≤ fuel →
    in_range (toLong p.cur) 48 57 = true →
    ∃ ds, ds ≠ [] ∧ AllDigits ds ∧ p.str.drop p.i = ds ++ p.str.drop (p.i + ds.length) ∧
      digits_loop fuel p = p.adv ds.length := by
  intro fuel p hf hd
  obtain ⟨ds, h1, h2, h3, h4⟩ := digits_loop_split fuel p hf
  refine ⟨ds, ?_, h1, h2, h3⟩
  rintro rfl
  rw [show p.adv ([] : List Nat).length = p from rfl, hd] at h4
  cases h4

theorem parse_number_exp_inv (L : Libc) (s0 : Nat) (p : JsonParser) (v : Json)
    (q : JsonParser) (h : parse_number_exp L s0 p = (v, q)) (hq : q.failed = false) :
    ∃ ep, ExpPart ep ∧ p.str.drop p.i = ep ++ p.str.drop (p.i + ep.length) ∧
      q = p.adv ep.length ∧ v = Json.double (L.strtod (c_str p.str s0)) := by
  simp only [parse_number_exp] at h
  by_cases he : p.cur = 101 ∨ p.cur = 69
  · rw [if_pos he] at h
    have hdrop := drop_of_cur_ne_zero p (by omega)
    by_cases hs : (p.adv 1).cur = 43 ∨ (p.adv 1).cur = 45
    · simp only [if_pos hs] at h
      have hdrop1 := drop_of_cur_ne_zero (p.adv 1) (by omega)
      simp only [adv_str, adv_i] at hdrop1
      by_cases hd : in_range (toLong ((p.adv 1).adv 1).cur) 48 57 = true
      · simp only [hd, Bool.not_true, Bool.false_eq_true, if_false] at h
        obtain ⟨ds, hne, h1, h2, h3⟩ := digits_loop_split_ne
          (((p.adv 1).adv 1).str.length - ((p.adv 1).adv 1).i) ((p.adv 1).adv 1) (le_refl _) hd
        rw [h3] at h
        simp only [adv_str, adv_i, adv_adv, Prod.mk.injEq] at h h2
        refine ⟨p.cur :: ([(p.adv 1).cur] ++ ds),
          Or.inr ⟨p.cur, [(p.adv 1).cur], ds, he, ?_, hne, h1, rfl⟩, ?_, ?_, h.1.symm⟩
        · rcases hs with hs | hs
          · exact Or.inr (Or.inl (by rw [hs]))
          · exact Or.inr (Or.inr (by rw [hs]))
        · rw [hdrop, hdrop1, h2]
          simp only [List.cons_append, List.nil_append, List.length_cons, List.cons.injEq,
            true_and]
          congr 2
          omega
        · rw [← h.2]
          simp only [List.cons_append, List.nil_append, List.length_cons]
          congr 1
          omega
      · simp only [hd, Bool.not_false, if_true, Prod.mk.injEq] at h
        rw [← h.2] at hq
        cases hq
    · simp only [if_neg hs] at h
      by_cases hd : in_range (toLong (p.adv 1).cur) 48 57 = true
      · simp only [hd, Bool.not_true, Bool.false_eq_true, if_false] at h
        obtain ⟨ds, hne, h1, h2, h3⟩ := digits_loop_split_ne
          ((p.adv 1).str.length - (p.adv 1).i) (p.adv 1) (le_refl _) hd
        rw [h3] at h
        simp only [adv_str, adv_i, adv_adv, Prod.mk.injEq] at h h2
        refine ⟨p.cur :: ([] ++ ds),
          Or.inr ⟨p.cur, [], ds, he, Or.inl rfl, hne, h1, rfl⟩, ?_, ?_, h.1.symm⟩
        · rw [hdrop, h2]
          simp only [List.cons_append, List.nil_append, List.length_cons, List.cons.injEq,
            true_and]
          congr 2
          omega
        · rw [← h.2]
          simp only [List.nil_append, List.length_cons]
          congr 1
          omega
      · simp only [hd, Bool.not_false, if_true, Prod.mk.injEq] at h
        rw [← h.2] at hq
        cases hq
  · rw [if_neg he] at h
    simp only [Prod.mk.injEq] at h
    exact ⟨[], Or.inl rfl, rfl, h.2.symm, h.1.symm⟩

theorem parse_number_tail_inv (L : Libc) (s0 : Nat) (p : JsonParser) (v : Json)
    (q : JsonParser) (h : parse_number_tail L s0 p = (v, q)) (hq : q.failed = false) :
    ∃ fp ep, FracPart fp ∧ ExpPart ep ∧
      p.str.drop p.i = fp ++ (ep ++ p.str.drop (p.i + (fp.length + ep.length))) ∧
      q = p.adv (fp.length + ep.length) ∧ v.type = JsonType.NUMBER := by
  simp only [parse_number_tail] at h
  by_cases h1 : p.cur ≠ 46 ∧ p.cur ≠ 101 ∧ p.cur ≠ 69 ∧ p.i - s0 ≤ 9
  · rw [if_pos h1] at h
    simp only [Prod.mk.injEq] at h
    exact ⟨[], [], Or.inl rfl, Or.inl rfl, rfl, h.2.symm, by rw [← h.1]; rfl⟩
  rw [if_neg h1] at h
  by_cases h2 : p.cur = 46
  · rw [if_pos h2] at h
    have hdrop := drop_of_cur_ne_zero p (by omega)
    by_cases hd : in_range (toLong (p.adv 1).cur) 48 57 = true
    · simp only [hd, Bool.not_true, Bool.false_eq_true, if_false] at h
      obtain ⟨ds, hne, h3, h4, h5⟩ := digits_loop_split_ne
        ((p.adv 1).str.length - (p.adv 1).i) (p.adv 1) (le_refl _) hd
      rw [h5] at h
      obtain ⟨ep, hep, h6, h7, h8⟩ := parse_number_exp_inv L s0 _ v q h hq
      simp only [adv_str, adv_i, adv_adv, Nat.add_assoc] at h4 h6 h7
      refine ⟨46 :: ds, ep, Or.inr ⟨ds, hne, h3, rfl⟩, hep, ?_, ?_, by rw [h8]; rfl⟩
      · rw [hdrop, h4, h6, h2]
        simp only [List.cons_append, List.length_cons, List.cons.injEq, true_and,
          List.append_cancel_left_eq]
        congr 2
        omega
      · rw [h7]
        simp only [List.length_cons]
        congr 1
        omega
    · simp only [hd, Bool.not_false, if_true, Prod.mk.injEq] at h
      rw [← h.2] at hq
      cases hq
  · rw [if_neg h2] at h
    obtain ⟨ep, hep, h6, h7, h8⟩ := parse_number_exp_inv L s0 p v q h hq
    refine ⟨[], ep, Or.inl rfl, hep, ?_, ?_, by rw [h8]; rfl⟩
    · simpa using h6
    · simpa using h7

/-- A call of `parse_number` that does not fail has read a text of the number
grammar and returns a Number. -/
theorem parse_number_inv (L : Libc) (p : JsonParser) (v : Json) (q : JsonParser)
    (h : parse_number L p = (v, q)) (hq : q.failed = false) :
    ∃ g, NumberGrammar g ∧ p.str.drop p.i = g ++ p.str.drop (p.i + g.length) ∧
      q = p.adv g.length ∧ v.type = JsonType.NUMBER := by
  have key : ∀ (r : JsonParser), r.str = p.str → parse_number_body L p.i r = (v, q) →
      ∃ ip fp ep, IntPart ip ∧ FracPart fp ∧ ExpPart ep ∧
        r.str.drop r.i =
          ip ++ (fp ++ (ep ++ r.str.drop (r.i + (ip.length + (fp.length + ep.length))))) ∧
        q = r.adv (ip.length + (fp.length + ep.length)) ∧ v.type = JsonType.NUMBER := by
    intro r _ hb
    simp only [parse_number_body] at hb
    by_cases h0 : r.cur = 48
    · rw [if_pos h0] at hb
      have hdrop := drop_of_cur_ne_zero r (by omega)
      by_cases hd : in_range (toLong (r.adv 1).cur) 48 57 = true
      · simp only [hd, if_true, Prod.mk.injEq] at hb
        rw [← hb.2] at hq
        cases hq
      · simp only [hd, Bool.false_eq_true, if_false] at hb
        obtain ⟨fp, ep, hfp, hep, h1, h2, h3⟩ := parse_number_tail_inv L p.i _ v q hb hq
        simp only [adv_str, adv_i, adv_adv] at h1 h2
        refine ⟨[48], fp, ep, Or.inl rfl, hfp, hep, ?_, ?_, h3⟩
        · rw [hdrop, h1, h0]
          simp only [List.cons_append, List.nil_append, List.length_singleton, List.cons.injEq,
            true_and, List.append_cancel_left_eq]
          congr 1
          omega
        · rw [h2]
          simp only [List.length_singleton]
    · rw [if_neg h0] at hb
      by_cases hd : in_range (toLong r.cur) 49 57 = true
      · simp only [hd, if_true] at hb
        have hdig := digit_of_in_range _ 49 (by omega) hd
        have hdrop := drop_of_cur_ne_zero r (by omega)
        obtain ⟨ds, h4, h5, h6, _⟩ := digits_loop_split
          ((r.adv 1).str.length - (r.adv 1).i) (r.adv 1) (le_refl _)
        rw [h6] at hb
        obtain ⟨fp, ep, hfp, hep, h1, h2, h3⟩ := parse_number_tail_inv L p.i _ v q hb hq
        simp only [adv_str, adv_i, adv_adv, Nat.add_assoc] at h1 h2 h5
        refine ⟨r.cur :: ds, fp, ep, Or.inr ⟨r.cur, ds, by omega, hdig.2.1, h4, rfl⟩, hfp, hep,
          ?_, ?_, h3⟩
        · rw [hdrop, h5, h1]
          simp only [List.cons_append, List.length_cons, List.cons.injEq, true_and,
            List.append_cancel_left_eq]
          congr 2
          omega
        · rw [h2]
          simp only [List.length_cons]
          congr 1
          omega
      · simp only [hd, Bool.false_eq_true, if_false, Prod.mk.injEq] at hb
        rw [← hb.2] at hq
        cases hq
  rw [parse_number_eq_body] at h
  by_cases hm : p.cur = 45
  · rw [if_pos hm] at h
    have hdrop := drop_of_cur_ne_zero p (by omega)
    obtain ⟨ip, fp, ep, hip, hfp, hep, h1, h2, h3⟩ := key (p.adv 1) rfl h
    simp only [adv_str, adv_i, adv_adv] at h1 h2
    refine ⟨[45] ++ (ip ++ (fp ++ ep)), ⟨[45], ip, fp, ep, Or.inr rfl, hip, hfp, hep, rfl⟩,
      ?_, ?_, h3⟩
    · rw [hdrop, h1, hm]
      simp only [List.cons_append, List.nil_append, List.length_cons, List.length_append,
        List.cons.injEq, true_and, List.append_assoc, List.append_cancel_left_eq]
      congr 1
      omega
    · rw [h2]
      simp only [List.cons_append, List.nil_append, List.length_cons, List.length_append]
      congr 1
      omega
  · rw [if_neg hm] at h
    obtain ⟨ip, fp, ep, hip, hfp, hep, h1, h2, h3⟩ := key p rfl h
    refine ⟨[] ++ (ip ++ (fp ++ ep)), ⟨[], ip, fp, ep, Or.inl rfl, hip, hfp, hep, rfl⟩,
      ?_, ?_, h3⟩
    · rw [h1]
      simp only [List.nil_append, List.length_append, List.append_assoc]
    · rw [h2]
      simp only [List.nil_append, List.length_append]

/-! ### Number literals at the top level -/

theorem endsNumber_nil : EndsNumber [] := by
  simp [EndsNumber]

theorem IntPart.head_digit {ip : List Nat} (h : IntPart ip) (post : List Nat) :
    48 ≤ (ip ++ post).getD 0 0 ∧ (ip ++ post).getD 0 0 ≤ 57 := by
  rcases h with rfl | ⟨d, ds, h1, h2, _, rfl⟩
  · simp
  · simp only [List.cons_append, List.getD_cons_zero]
    omega

theorem IntPart.ne_nil {ip : List Nat} (h : IntPart ip) : ip ≠ [] := by
  rcases h with rfl | ⟨d, ds, _, _, _, rfl⟩ <;> simp

/-- A text that begins with `-` or a digit is read by `parse_number` from its
first byte. -/
theorem parse_json_number_head (L : Libc) (t : List Nat)
    (hhead : t.getD 0 0 = 45 ∨ (48 ≤ t.getD 0 0 ∧ t.getD 0 0 ≤ 57)) :
    parse_json L (parse_json_fuel t) 0 ⟨t, 0, [], false, JsonParse.STANDARD⟩ =
      some (parse_number L ⟨t, 0, [], false, JsonParse.STANDARD⟩) := by
  cases t with
  | nil => simp at hhead
  | cons c rest =>
    simp only [List.getD_cons_zero] at hhead
    have hfuel : parse_json_fuel (c :: rest) = (2 * (c :: rest).length + 3) + 1 := rfl
    have htok := get_next_token_head ⟨c :: rest, 0, [], false, JsonParse.STANDARD⟩ c rest
      rfl rfl rfl (by omega)
    rw [hfuel, parse_json_succ, if_neg (by decide), htok]
    simp only [adv_failed, Bool.false_eq_true, if_false]
    rw [if_pos (by omega)]
    rfl

/-- A failure of the value is what `parse` reports under the standard dialect. -/
theorem Json.parse_failed_standard (L : Libc) (t : List Nat) (v : Json) (q : JsonParser)
    (h : parse_json L (parse_json_fuel t) 0 ⟨t, 0, [], false, JsonParse.STANDARD⟩ = some (v, q))
    (hq : q.failed = true) :
    Json.parse L t [] JsonParse.STANDARD = some (Json.null, q.err) := by
  have e := (consume_garbage_ext q).latch hq
  simp only [Json.parse, Json.parse_state_eq L t [] JsonParse.STANDARD (v, q) h]
  rw [if_pos e.1]
  simp only [Option.map_some', e.2]

/-- A value that ends the text is what `parse` returns under the standard dialect. -/
theorem Json.parse_whole_standard (L : Libc) (t : List Nat) (v : Json) (q : JsonParser)
    (h : parse_json L (parse_json_fuel t) 0 ⟨t, 0, [], false, JsonParse.STANDARD⟩ = some (v, q))
    (hq : q.failed = false) (hi : q.i = t.length) :
    Json.parse L t [] JsonParse.STANDARD = some (v, []) := by
  have e := parse_json_ext L _ _ _ _ h
  have hstr : q.str = t := e.str
  have hd : q.str.drop q.i = [] := by
    rw [hi, hstr]
    exact List.drop_length t
  have hcg := get_next_token_end q (by rw [e.strategy]) hd (by rw [hi, hstr])
  simp only [Json.parse, Json.parse_state_eq L t [] JsonParse.STANDARD (v, q) h]
  have hk : q.err = [] := e.keep hq
  rw [hcg.1, hq, if_neg (by simp), if_neg (by simp [hi])]
  simp only [Option.map_some', hk]

/-- The sign of a number literal. -/
theorem parse_number_sign (L : Libc) (p : JsonParser) (sg post : List Nat)
    (hsg : sg = [] ∨ sg = [45]) (hpost : post.getD 0 0 ≠ 45)
    (h : p.str.drop p.i = sg ++ post) :
    parse_number L p = parse_number_body L p.i (p.adv sg.length) := by
  rw [parse_number_eq_body]
  have hc := cur_of_suffix p _ h
  rcases hsg with rfl | rfl
  · rw [if_neg (by rw [hc]; exact hpost)]
    rfl
  · rw [if_pos (by rw [hc]; rfl)]
    rfl

/-- The integer part of a number literal, before a byte that is not a digit. -/
theorem parse_number_body_int (L : Libc) (s0 : Nat) (p : JsonParser) (ip post : List Nat)
    (hip : IntPart ip) (hpost : ¬ (48 ≤ post.getD 0 0 ∧ post.getD 0 0 ≤ 57))
    (h : p.str.drop p.i = ip ++ post) :
    parse_number_body L s0 p = parse_number_tail L s0 (p.adv ip.length) := by
  have hc := cur_of_suffix p _ h
  have hend : in_range (toLong (post.getD 0 0)) 48 57 = false :=
    not_digit_in_range _ 48 (le_refl _) hpost
  rcases hip with rfl | ⟨d, ds, hd1, hd2, hds, rfl⟩
  · simp only [List.cons_append, List.nil_append, List.getD_cons_zero] at hc h
    have h1 : (p.adv 1).str.drop (p.adv 1).i = post := by
      rw [drop_adv, h]
      rfl
    simp only [parse_number_body]
    rw [if_pos hc, cur_of_suffix _ _ h1, hend]
    simp only [Bool.false_eq_true, if_false, List.length_singleton]
  · simp only [List.cons_append, List.getD_cons_zero] at hc h
    have h1 : (p.adv 1).str.drop (p.adv 1).i = ds ++ post := by
      rw [drop_adv, h]
      rfl
    have hl := length_of_drop _ _ h1
    have hdl := digits_loop_dump ds ((p.adv 1).str.length - (p.adv 1).i) (p.adv 1)
      post hds hend (by rw [hl]; simp) h1
    have hin : in_range (toLong d) 49 57 = true := by
      rw [in_range_toLong _ _ _ (by omega)]
      omega
    simp only [parse_number_body]
    rw [if_neg (by rw [hc]; omega), hc, hin]
    simp only [if_true]
    rw [hdl, adv_adv, List.length_cons, Nat.add_comm]

/-- The fraction of a number literal, before an exponent marker. -/
theorem parse_number_tail_frac (L : Libc) (s0 : Nat) (p : JsonParser) (fp post : List Nat)
    (hfp : FracPart fp) (hpost : post.getD 0 0 = 101 ∨ post.getD 0 0 = 69)
    (h : p.str.drop p.i = fp ++ post) :
    parse_number_tail L s0 p = parse_number_exp L s0 (p.adv fp.length) := by
  have hc := cur_of_suffix p _ h
  rcases hfp with rfl | ⟨ds, hne, hds, rfl⟩
  · simp only [List.nil_append] at hc
    simp only [parse_number_tail]
    rw [if_neg (by rw [hc]; omega), if_neg (by rw [hc]; omega)]
    rfl
  · simp only [List.cons_append, List.getD_cons_zero] at hc h
    have h1 : (p.adv 1).str.drop (p.adv 1).i = ds ++ post := by
      rw [drop_adv, h]
      rfl
    have hl := length_of_drop _ _ h1
    have hend : in_range (toLong (post.getD 0 0)) 48 57 = false :=
      not_digit_in_range _ 48 (le_refl _) (by omega)
    have hdl := digits_loop_dump ds ((p.adv 1).str.length - (p.adv 1).i) (p.adv 1)
      post hds hend (by rw [hl]; simp) h1
    have hc1 := cur_of_suffix (p.adv 1) _ h1
    rw [getD_append_ne_nil ds post hne] at hc1
    have hd : 48 ≤ ds.getD 0 0 ∧ ds.getD 0 0 ≤ 57 := by
      cases ds with
      | nil => exact absurd rfl hne
      | cons d ds' => exact hds d (by simp)
    simp only [parse_number_tail]
    rw [if_neg (by rw [hc]; simp), if_pos hc, hc1]
    simp only [digit_in_range _ hd, Bool.not_true, Bool.false_eq_true, if_false]
    rw [hdl, adv_adv, List.length_cons, Nat.add_comm]

/-- A `0` followed by a digit is refused. -/
theorem parse_number_leading_zero (L : Libc) (p : JsonParser) (sg : List Nat) (d : Nat)
    (rest : List Nat) (hsg : sg = [] ∨ sg = [45]) (hd : 48 ≤ d ∧ d ≤ 57)
    (h : p.str.drop p.i = sg ++ 48 :: d :: rest) :
    parse_number L p = (Json.null,
      (p.adv (sg.length + 1)).fail (bytes "leading 0s not permitted in numbers")) := by
  rw [parse_number_sign L p sg _ hsg (by simp) h]
  have h1 := drop_adv_append p sg _ h
  have hc := cur_of_suffix _ _ h1
  have h2 : ((p.adv sg.length).adv 1).str.drop ((p.adv sg.length).adv 1).i = d :: rest := by
    rw [drop_adv, h1]
    rfl
  have hc2 := cur_of_suffix _ _ h2
  simp only [List.getD_cons_zero] at hc hc2
  simp only [parse_number_body]
  rw [if_pos hc, hc2, digit_in_range d hd, if_pos rfl, adv_adv]

/-- A `.` that no digit follows is refused. -/
theorem parse_number_no_fraction (L : Libc) (p : JsonParser) (sg ip rest : List Nat)
    (hsg : sg = [] ∨ sg = [45]) (hip : IntPart ip)
    (hrest : ¬ (48 ≤ rest.getD 0 0 ∧ rest.getD 0 0 ≤ 57))
    (h : p.str.drop p.i = sg ++ (ip ++ 46 :: rest)) :
    parse_number L p = (Json.null,
      (p.adv (sg.length + (ip.length + 1))).fail
        (bytes "at least one digit required in fractional part")) := by
  have hh := hip.head_digit (46 :: rest)
  rw [parse_number_sign L p sg _ hsg (by omega) h]
  have h1 := drop_adv_append p sg _ h
  rw [parse_number_body_int L p.i _ ip (46 :: rest) hip (by simp) h1]
  have h2 := drop_adv_append _ ip _ h1
  have hc := cur_of_suffix _ _ h2
  have h3 : (((p.adv sg.length).adv ip.length).adv 1).str.drop
      (((p.adv sg.length).adv ip.length).adv 1).i = rest := by
    rw [drop_adv, h2]
    rfl
  have hc3 := cur_of_suffix _ _ h3
  simp only [List.getD_cons_zero] at hc
  simp only [parse_number_tail]
  rw [if_neg (by rw [hc]; simp), if_pos hc, hc3,
    not_digit_in_range _ 48 (le_refl _) hrest]
  simp only [Bool.not_false, if_true, adv_adv, Nat.add_assoc]

/-- An exponent marker that no digit follows, after an optional sign, makes the
exponent part fail. -/
theorem parse_number_exp_no_digit (L : Libc) (s0 : Nat) (r : JsonParser) (sn rest : List Nat)
    (e : Nat) (he : e = 101 ∨ e = 69) (hsn : sn = [] ∨ sn = [43] ∨ sn = [45])
    (hrest : ¬ (48 ≤ rest.getD 0 0 ∧ rest.getD 0 0 ≤ 57))
    (hsign : sn = [] → rest.getD 0 0 ≠ 43 ∧ rest.getD 0 0 ≠ 45)
    (h : r.str.drop r.i = e :: (sn ++ rest)) :
    parse_number_exp L s0 r = (Json.null,
      (r.adv (1 + sn.length)).fail (bytes "at least one digit required in exponent")) := by
  have hc := cur_of_suffix _ _ h
  simp only [List.getD_cons_zero] at hc
  have h5 : (r.adv 1).str.drop (r.adv 1).i = sn ++ rest := by
    rw [drop_adv, h]
    rfl
  have hc5 := cur_of_suffix _ _ h5
  have hnd := not_digit_in_range _ 48 (le_refl _) hrest
  simp only [parse_number_exp]
  rw [if_pos (by rw [hc]; exact he)]
  rcases hsn with rfl | rfl | rfl
  · simp only [List.nil_append] at h5 hc5
    have hs := hsign rfl
    have hif : (if (r.adv 1).cur = 43 ∨ (r.adv 1).cur = 45 then (r.adv 1).adv 1
        else r.adv 1) = r.adv 1 := if_neg (by rw [hc5]; omega)
    rw [hif, hc5, hnd]
    simp only [Bool.not_false, if_true, List.length_nil, Nat.add_zero]
  · have h6 := drop_adv_append _ [43] rest h5
    have hc6 := cur_of_suffix _ _ h6
    simp only [List.length_singleton] at h6 hc6
    have hif : (if (r.adv 1).cur = 43 ∨ (r.adv 1).cur = 45 then (r.adv 1).adv 1
        else r.adv 1) = (r.adv 1).adv 1 := if_pos (by rw [hc5]; simp)
    rw [hif, hc6, hnd]
    simp only [Bool.not_false, if_true, List.length_singleton, adv_adv]
  · have h6 := drop_adv_append _ [45] rest h5
    have hc6 := cur_of_suffix _ _ h6
    simp only [List.length_singleton] at h6 hc6
    have hif : (if (r.adv 1).cur = 43 ∨ (r.adv 1).cur = 45 then (r.adv 1).adv 1
        else r.adv 1) = (r.adv 1).adv 1 := if_pos (by rw [hc5]; simp)
    rw [hif, hc6, hnd]
    simp only [Bool.not_false, if_true, List.length_singleton, adv_adv]

/-- An exponent marker that no digit follows, after an optional sign, is refused. -/
theorem parse_number_no_exponent (L : Libc) (p : JsonParser) (sg ip fp sn rest : List Nat)
    (e : Nat) (hsg : sg = [] ∨ sg = [45]) (hip : IntPart ip) (hfp : FracPart fp)
    (he : e = 101 ∨ e = 69) (hsn : sn = [] ∨ sn = [43] ∨ sn = [45])
    (hrest : ¬ (48 ≤ rest.getD 0 0 ∧ rest.getD 0 0 ≤ 57))
    (hsign : sn = [] → rest.getD 0 0 ≠ 43 ∧ rest.getD 0 0 ≠ 45)
    (h : p.str.drop p.i = sg ++ (ip ++ (fp ++ e :: (sn ++ rest)))) :
    parse_number L p = (Json.null,
      (p.adv (sg.length + (ip.length + (fp.length + (1 + sn.length))))).fail
        (bytes "at least one digit required in exponent")) := by
  have hh := hip.head_digit (fp ++ e :: (sn ++ rest))
  rw [parse_number_sign L p sg _ hsg (by omega) h]
  have h1 := drop_adv_append p sg _ h
  have hfh : ¬ (48 ≤ (fp ++ e :: (sn ++ rest)).getD 0 0 ∧
      (fp ++ e :: (sn ++ rest)).getD 0 0 ≤ 57) := by
    rcases hfp with rfl | ⟨ds, _, _, rfl⟩
    · simp only [List.nil_append, List.getD_cons_zero]
      omega
    · simp
  rw [parse_number_body_int L p.i _ ip _ hip hfh h1]
  have h2 := drop_adv_append _ ip _ h1
  rw [parse_number_tail_frac L p.i _ fp (e :: (sn ++ rest)) hfp (by simpa using he) h2]
  have h3 := drop_adv_append _ fp _ h2
  rw [parse_number_exp_no_digit L p.i _ sn rest e he hsn hrest hsign h3]
  simp only [adv_adv, Nat.add_assoc]

/-! ### The number grammar and `parse` -/

/-- The two outcomes of `parse` called with an empty message: a value and no
message, or Null and a message. -/
theorem Json.parse_outcome (L : Libc) (t : List Nat) (strategy : JsonParse) :
    (∃ v, Json.parse L t [] strategy = some (v, [])) ∨
      (∃ m, m ≠ [] ∧ Json.parse L t [] strategy = some (Json.null, m)) := by
  obtain ⟨⟨v, p⟩, h⟩ := Json.parse_state_some L t [] strategy
  have e := Json.parse_state_ext L t [] strategy v p h
  cases hf : p.failed
  · exact Or.inl ⟨v, by simp [Json.parse, h, e.keep hf]⟩
  · refine Or.inr ⟨p.err, e.msg rfl hf, ?_⟩
    simp [Json.parse, h, Json.parse_state_failed L t [] strategy v p h hf]

/-- A text without white space that begins with `-` or a digit and that `parse`
accepts is a text of the number grammar, and the value is a Number. -/
theorem Json.parse_number_accepts (L : Libc) (t : List Nat) (v : Json)
    (hws : ∀ c ∈ t, ¬ (c = 32 ∨ c = 9 ∨ c = 10 ∨ c = 13))
    (hhead : t.getD 0 0 = 45 ∨ (48 ≤ t.getD 0 0 ∧ t.getD 0 0 ≤ 57))
    (h : Json.parse L t [] JsonParse.STANDARD = some (v, [])) :
    NumberGrammar t ∧ v.type = JsonType.NUMBER := by
  obtain ⟨q, hq1, hq2⟩ := Json.parse_success L t JsonParse.STANDARD v h
  obtain ⟨r, hr, hrf, hqr, hqi⟩ := Json.parse_state_success L t [] JsonParse.STANDARD v q hq1 hq2
  rw [parse_json_number_head L t hhead] at hr
  simp only [Option.some.injEq] at hr
  obtain ⟨g, hg, hdrop, hrg, hty⟩ :=
    parse_number_inv L ⟨t, 0, [], false, JsonParse.STANDARD⟩ v r hr hrf
  simp only [List.drop_zero, Nat.zero_add] at hdrop
  cases hrest : t.drop g.length with
  | nil =>
    rw [hrest, List.append_nil] at hdrop
    rw [hdrop]
    exact ⟨hg, hty⟩
  | cons c rest =>
    exfalso
    have hc : c ∈ t := List.mem_of_mem_drop (by rw [hrest]; exact List.mem_cons_self c rest)
    have hrd : r.str.drop r.i = c :: rest := by
      rw [hrg]
      simp only [adv_str, adv_i, Nat.zero_add]
      exact hrest
    have hcg : consume_garbage r = r := by
      rw [consume_garbage_standard r (by rw [hrg]; rfl)]
      exact consume_whitespace_stay r c rest hrd (hws c hc)
    have hlen := congrArg List.length hrest
    rw [List.length_drop, List.length_cons] at hlen
    rw [hqr, hcg, hrg] at hqi
    simp only [adv_i, Nat.zero_add] at hqi
    omega

/-- What `parse` returns on a text of the number grammar. -/
theorem Json.parse_number_literal (L : Libc) (sg ip fp ep : List Nat)
    (hsg : sg = [] ∨ sg = [45]) (hip : IntPart ip) (hfp : FracPart fp) (hep : ExpPart ep) :
    Json.parse L (sg ++ (ip ++ (fp ++ ep))) [] JsonParse.STANDARD =
      some (if fp = [] ∧ ep = [] ∧ sg.length + ip.length ≤ 9 then
          Json.int (atoi (c_str (sg ++ (ip ++ (fp ++ ep))) 0))
        else Json.double (L.strtod (c_str (sg ++ (ip ++ (fp ++ ep))) 0)), []) := by
  have hhead : (sg ++ (ip ++ (fp ++ ep))).getD 0 0 = 45 ∨
      (48 ≤ (sg ++ (ip ++ (fp ++ ep))).getD 0 0 ∧ (sg ++ (ip ++ (fp ++ ep))).getD 0 0 ≤ 57) := by
    rcases hsg with rfl | rfl
    · exact Or.inr (hip.head_digit _)
    · exact Or.inl rfl
  have hj := parse_json_number_head L _ hhead
  have hn := parse_number_grammar L ⟨sg ++ (ip ++ (fp ++ ep)), 0, [], false, JsonParse.STANDARD⟩
    sg ip fp ep [] hsg hip hfp hep endsNumber_nil (by simp)
  rw [hn] at hj
  refine Json.parse_whole_standard L _ _ _ hj rfl ?_
  simp only [adv_i, List.length_append]
  omega

theorem Json.parse_leading_zero (L : Libc) (sg : List Nat) (d : Nat) (rest : List Nat)
    (hsg : sg = [] ∨ sg = [45]) (hd : 48 ≤ d ∧ d ≤ 57) :
    Json.parse L (sg ++ 48 :: d :: rest) [] JsonParse.STANDARD =
      some (Json.null, bytes "leading 0s not permitted in numbers") := by
  have hhead : (sg ++ 48 :: d :: rest).getD 0 0 = 45 ∨
      (48 ≤ (sg ++ 48 :: d :: rest).getD 0 0 ∧ (sg ++ 48 :: d :: rest).getD 0 0 ≤ 57) := by
    rcases hsg with rfl | rfl
    · exact Or.inr (by simp)
    · exact Or.inl rfl
  have hj := parse_json_number_head L _ hhead
  rw [parse_number_leading_zero L ⟨sg ++ 48 :: d :: rest, 0, [], false, JsonParse.STANDARD⟩
    sg d rest hsg hd rfl] at hj
  exact Json.parse_failed_standard L _ _ _ hj rfl

theorem Json.parse_no_fraction (L : Libc) (sg ip rest : List Nat)
    (hsg : sg = [] ∨ sg = [45]) (hip : IntPart ip)
    (hrest : ¬ (48 ≤ rest.getD 0 0 ∧ rest.getD 0 0 ≤ 57)) :
    Json.parse L (sg ++ (ip ++ 46 :: rest)) [] JsonParse.STANDARD =
      some (Json.null, bytes "at least one digit required in fractional part") := by
  have hhead : (sg ++ (ip ++ 46 :: rest)).getD 0 0 = 45 ∨
      (48 ≤ (sg ++ (ip ++ 46 :: rest)).getD 0 0 ∧ (sg ++ (ip ++ 46 :: rest)).getD 0 0 ≤ 57) := by
    rcases hsg with rfl | rfl
    · exact Or.inr (hip.head_digit _)
    · exact Or.inl rfl
  have hj := parse_json_number_head L _ hhead
  rw [parse_number_no_fraction L ⟨sg ++ (ip ++ 46 :: rest), 0, [], false, JsonParse.STANDARD⟩
    sg ip rest hsg hip hrest rfl] at hj
  exact Json.parse_failed_standard L _ _ _ hj rfl

theorem Json.parse_no_exponent (L : Libc) (sg ip fp sn rest : List Nat) (e : Nat)
    (hsg : sg = [] ∨ sg = [45]) (hip : IntPart ip) (hfp : FracPart fp)
    (he : e = 101 ∨ e = 69) (hsn : sn = [] ∨ sn = [43] ∨ sn = [45])
    (hrest : ¬ (48 ≤ rest.getD 0 0 ∧ rest.getD 0 0 ≤ 57))
    (hsign : sn = [] → rest.getD 0 0 ≠ 43 ∧ rest.getD 0 0 ≠ 45) :
    Json.parse L (sg ++ (ip ++ (fp ++ e :: (sn ++ rest)))) [] JsonParse.STANDARD =
      some (Json.null, bytes "at least one digit required in exponent") := by
  have hhead : (sg ++ (ip ++ (fp ++ e :: (sn ++ rest)))).getD 0 0 = 45 ∨
      (48 ≤ (sg ++ (ip ++ (fp ++ e :: (sn ++ rest)))).getD 0 0 ∧
        (sg ++ (ip ++ (fp ++ e :: (sn ++ rest)))).getD 0 0 ≤ 57) := by
    rcases hsg with rfl | rfl
    · exact Or.inr (hip.head_digit _)
    · exact Or.inl rfl
  have hj := parse_json_number_head L _ hhead
  rw [parse_number_no_exponent L
    ⟨sg ++ (ip ++ (fp ++ e :: (sn ++ rest))), 0, [], false, JsonParse.STANDARD⟩
    sg ip fp sn rest e hsg hip hfp he hsn hrest hsign rfl] at hj
  exact Json.parse_failed_standard L _ _ _ hj rfl

/-! ### A parsed text followed by a comma -/

/-- White space is skipped in the extension of a text as in the text when the
separator is no white space: the skipping stops at the separator at the latest. -/
theorem consume_whitespace_loop_extend_stop (sep : Nat)
    (hsep : ¬ (sep = 32 ∨ sep = 9 ∨ sep = 10 ∨ sep = 13)) (u : List Nat) (s : JsonParse) :
    ∀ (fuel fuel' : Nat) (p : JsonParser), p.i ≤ p.str.length → p.str.length - p.i ≤ fuel →
      p.str.length - p.i ≤ fuel' →
      consume_whitespace_loop fuel' (p.extend sep u s) =
        (consume_whitespace_loop fuel p).extend sep u s
  | 0, fuel', p, hle, h, _ => by
    have hc := extend_cur_end p sep u s (by omega)
    simp only [consume_whitespace_loop]
    cases fuel' with
    | zero => rfl
    | succ f' =>
      simp only [consume_whitespace_loop]
      rw [hc.2, if_neg hsep]
  | fuel + 1, fuel', p, hle, h, h' => by
    simp only [consume_whitespace_loop]
    by_cases hws : p.cur = 32 ∨ p.cur = 9 ∨ p.cur = 10 ∨ p.cur = 13
    · rw [if_pos hws]
      have hi : p.i < p.str.length := cur_ne_zero_lt p (by omega)
      cases fuel' with
      | zero => omega
      | succ f' =>
        simp only [consume_whitespace_loop]
        rw [extend_cur_lt p sep u s hi, if_pos hws, extend_adv]
        exact consume_whitespace_loop_extend_stop sep hsep u s fuel f' (p.adv 1)
          (by simp only [adv_str, adv_i]; omega) (by simp only [adv_str, adv_i]; omega)
          (by simp only [adv_str, adv_i]; omega)
    · rw [if_neg hws]
      cases fuel' with
      | zero => rfl
      | succ f' =>
        simp only [consume_whitespace_loop]
        rcases extend_cur_cases p sep u s hle with e | ⟨_, e⟩
        · rw [e, if_neg hws]
        · rw [e, if_neg hsep]

theorem consume_whitespace_extend_stop (sep : Nat)
    (hsep : ¬ (sep = 32 ∨ sep = 9 ∨ sep = 10 ∨ sep = 13)) (u : List Nat) (s : JsonParse)
    (p : JsonParser) (hle : p.i ≤ p.str.length) :
    consume_whitespace (p.extend sep u s) = (consume_whitespace p).extend sep u s := by
  simp only [consume_whitespace]
  exact consume_whitespace_loop_extend_stop sep hsep u s _ _ p hle (le_refl _)
    (by rw [extend_length]; simp only [extend_i]; omega)

/-- A text that `parse` accepts with one C library it accepts with every other. -/
theorem Json.parse_accepts_libc (L L' : Libc) (t : List Nat) (strategy : JsonParse) (v : Json)
    (h : Json.parse L t [] strategy = some (v, [])) :
    ∃ w, Json.parse L' t [] strategy = some (w, []) := by
  obtain ⟨q, hq, hqf⟩ := Json.parse_success L t strategy v h
  have e := Json.parse_state_erase L L' t [] strategy
  have hk := (Json.parse_state_ext L t [] strategy v q hq).keep hqf
  rw [hq] at e
  cases hs : Json.parse_state L' t [] strategy with
  | none => simp [hs] at e
  | some r =>
    obtain ⟨w, r2⟩ := r
    simp only [hs, Option.map_some', Option.some.injEq, erase_result, Prod.mk.injEq] at e
    refine ⟨w, ?_⟩
    simp only [Json.parse, hs, Option.map_some', ← e.2, hk]

/-- A text that `parse` accepts under the standard dialect, followed by a comma
and any text, is refused for the comma. -/
theorem Json.parse_trailing (L : Libc) (t u : List Nat) (v : Json)
    (ht : Json.parse L t [] JsonParse.STANDARD = some (v, [])) :
    Json.parse L (t ++ 44 :: u) [] JsonParse.STANDARD =
      some (Json.null, bytes "unexpected trailing " ++ esc 44) := by
  obtain ⟨w, hw⟩ := Json.parse_accepts_libc L ⟨fun _ => Double.nan, fun _ => []⟩ t _ v ht
  refine Json.parse_libc ⟨fun _ => Double.nan, fun _ => []⟩ L _ _ _ _ _ ?_ rfl
  obtain ⟨q, hq, hqf⟩ := Json.parse_success _ t _ w hw
  obtain ⟨r, hr, hrf, hcg, hqi⟩ := Json.parse_state_success _ t [] _ w q hq hqf
  have hre := parse_json_ext _ _ 0 _ _ hr
  have hri := parse_json_adv _ _ 0 _ _ hr hrf (Nat.zero_le _)
  simp only at hre hri
  have hrs : r.strategy = JsonParse.STANDARD := hre.strategy
  have hrstr : r.str = t := hre.str
  have hrerr : r.err = [] := hre.keep hrf
  rw [consume_garbage_standard r hrs] at hcg
  have hx := parse_json_extend ⟨fun _ => Double.nan, fun _ => []⟩ 44 (Or.inr rfl)
    (fun _ _ _ _ => rfl) u JsonParse.STANDARD (parse_json_fuel t)
    (parse_json_fuel (t ++ 44 :: u)) 0
    (by simp only [parse_json_fuel, List.length_append, List.length_cons]; omega)
    ⟨t, 0, [], false, JsonParse.STANDARD⟩ w r rfl (Nat.zero_le _) hr hrf
  have hg : consume_garbage (r.extend 44 u JsonParse.STANDARD) =
      (consume_whitespace r).extend 44 u JsonParse.STANDARD := by
    rw [consume_garbage_standard _ rfl]
    exact consume_whitespace_extend_stop 44 (by decide) u _ r (by rw [hrstr]; exact hri.2)
  have hx' : parse_json ⟨fun _ => Double.nan, fun _ => []⟩ (parse_json_fuel (t ++ 44 :: u)) 0
      ⟨t ++ 44 :: u, 0, [], false, JsonParse.STANDARD⟩ =
      some (w, r.extend 44 u JsonParse.STANDARD) := hx
  have hwi : (consume_whitespace r).i = t.length := by
    rw [← hcg]
    exact hqi
  have hat : ((consume_whitespace r).extend 44 u JsonParse.STANDARD).at
      ((consume_whitespace r).extend 44 u JsonParse.STANDARD).i = 44 := by
    have := (extend_cur_end (consume_whitespace r) 44 u JsonParse.STANDARD
      (by rw [hwi, consume_whitespace_str, hrstr])).2
    exact this
  simp only [Json.parse, Json.parse_state_eq _ _ [] JsonParse.STANDARD _ hx', hg]
  rw [if_neg (by simp [hrf]),
    if_pos (by simp only [extend_i, hwi, List.length_append, List.length_cons]; omega), hat]
  simp only [Option.map_some', JsonParser.fail, extend_failed, consume_whitespace_failed, hrf,
    extend_err, consume_whitespace_err, hrerr]
  rfl

/-! ### The items of a string literal -/

theorem is_hex_iff (c : Nat) : is_hex c = true ↔ IsHexDigit c := by
  simp only [is_hex, Bool.or_eq_true, in_range_toLong c 97 102 (by decide),
    in_range_toLong c 65 70 (by decide), in_range_toLong c 48 57 (by decide), IsHexDigit]
  omega

theorem HexQuad.all_hex {h : List Nat} (hq : HexQuad h) : h.all is_hex = true := by
  rw [List.all_eq_true]
  intro c hc
  exact (is_hex_iff c).2 (hq.2 c hc)

theorem hexQuad_of_all (h : List Nat) (h1 : ¬ h.length < 4) (h2 : h.length ≤ 4)
    (h3 : ¬ (!h.all is_hex) = true) : HexQuad h := by
  refine ⟨by omega, fun c hc => (is_hex_iff c).1 ?_⟩
  simp only [Bool.not_eq_true', Bool.not_eq_false] at h3
  exact (List.all_eq_true.1 h3) c hc

/-- One item of the body of a string literal. -/
theorem StringBody.item_raw (c : Nat) (h1 : c ≠ 34) (h2 : c ≠ 92) (h3 : 0x1f < c) :
    StringBody [c] := StringBody.raw c [] h1 h2 h3 StringBody.nil

theorem StringBody.append {a b : List Nat} (ha : StringBody a) (hb : StringBody b) :
    StringBody (a ++ b) := by
  induction ha with
  | nil => exact hb
  | raw c rest h1 h2 h3 _ ih => exact StringBody.raw c _ h1 h2 h3 ih
  | escape e rest he _ ih => exact StringBody.escape e _ he ih
  | unicode h rest hh _ ih =>
    rw [List.cons_append, List.cons_append, List.append_assoc]
    exact StringBody.unicode h _ hh ih

theorem not_ctrl_of_in_range (c : Nat) (h : ¬ in_range (toLong c) 0 0x1f = true) : 0x1f < c := by
  rw [in_range_toLong _ _ _ (by decide)] at h
  omega

theorem in_range_of_not_ctrl (c : Nat) (h : 0x1f < c) : in_range (toLong c) 0 0x1f = false := by
  rw [← Bool.not_eq_true, in_range_toLong _ _ _ (by decide)]
  omega

theorem in_range_of_ctrl (c : Nat) (h : c ≤ 0x1f) : in_range (toLong c) 0 0x1f = true := by
  rw [in_range_toLong _ _ _ (by decide)]
  omega

theorem drop_two_of_cur (p : JsonParser) (h1 : p.cur ≠ 0) (h2 : (p.adv 1).cur ≠ 0) :
    p.str.drop p.i = p.cur :: (p.adv 1).cur :: p.str.drop (p.i + 2) := by
  rw [drop_of_cur_ne_zero p h1]
  have := drop_of_cur_ne_zero (p.adv 1) h2
  simp only [adv_str, adv_i] at this
  rw [this]

/-- One round of the loop of `parse_string` that neither fails nor ends the
literal has read one item of the grammar. -/
theorem parse_string_loop_item (fuel : Nat) (out : List Nat) (last : Int) (p : JsonParser) :
    (∃ m k, parse_string_loop (fuel + 1) out last p = ([], (p.adv k).fail m)) ∨
    (p.cur = 34 ∧ parse_string_loop (fuel + 1) out last p = (encode_utf8 last out, p.adv 1)) ∨
    (∃ item out' last', StringBody item ∧ 1 ≤ item.length ∧ p.i + item.length ≤ p.str.length ∧
      p.str.drop p.i = item ++ p.str.drop (p.i + item.length) ∧
      parse_string_loop (fuel + 1) out last p =
        parse_string_loop fuel out' last' (p.adv item.length)) := by
  have adv2 : (p.adv 1).adv 1 = p.adv 2 := rfl
  have adv6 : ((p.adv 1).adv 1).adv 4 = p.adv 6 := rfl
  rw [parse_string_loop_succ]
  by_cases h1 : p.i = p.str.length
  · rw [if_pos h1]
    exact Or.inl ⟨_, 0, rfl⟩
  rw [if_neg h1]
  by_cases h2 : p.cur = 34
  · rw [if_pos h2]
    exact Or.inr (Or.inl ⟨h2, rfl⟩)
  rw [if_neg h2]
  by_cases h3 : in_range (toLong p.cur) 0 0x1f = true
  · rw [if_pos h3]
    exact Or.inl ⟨_, 1, rfl⟩
  rw [if_neg h3]
  have hc := not_ctrl_of_in_range _ h3
  have hlt := lt_length_of_cur_ne_zero p (by omega)
  by_cases h4 : p.cur ≠ 92
  · rw [if_pos h4]
    exact Or.inr (Or.inr ⟨[p.cur], _, _, StringBody.item_raw _ h2 h4 hc, le_refl _,
      by simp only [List.length_singleton]; omega,
      by rw [List.length_singleton, List.singleton_append]; exact drop_of_cur_ne_zero p (by omega),
      rfl⟩)
  rw [if_neg h4]
  have h92 : p.cur = 92 := by simpa using h4
  by_cases h5 : (p.adv 1).i = (p.adv 1).str.length
  · rw [if_pos h5]
    exact Or.inl ⟨_, 1, rfl⟩
  rw [if_neg h5]
  have esc_item : ∀ (x : Nat), IsEscapeChar (p.adv 1).cur →
      ∃ item out' last', StringBody item ∧ 1 ≤ item.length ∧
        p.i + item.length ≤ p.str.length ∧
        p.str.drop p.i = item ++ p.str.drop (p.i + item.length) ∧
        parse_string_loop fuel (encode_utf8 last out ++ [x]) (-1) ((p.adv 1).adv 1) =
          parse_string_loop fuel out' last' (p.adv item.length) := by
    intro x he
    have hne : (p.adv 1).cur ≠ 0 := by
      unfold IsEscapeChar at he
      omega
    have hlt2 := lt_length_of_cur_ne_zero (p.adv 1) hne
    simp only [adv_str, adv_i] at hlt2
    refine ⟨[92, (p.adv 1).cur], _, _, StringBody.escape _ [] he StringBody.nil, by simp,
      by simp only [List.length_cons, List.length_nil]; omega, ?_, rfl⟩
    rw [drop_two_of_cur p (by omega) hne, h92]
    rfl
  by_cases h6 : (p.adv 1).cur = 117
  · rw [if_pos h6]
    by_cases h7 : ((((p.adv 1).adv 1).str.drop ((p.adv 1).adv 1).i).take 4).length < 4
    · rw [if_pos h7]
      exact Or.inl ⟨_, 2, rfl⟩
    rw [if_neg h7]
    by_cases h8 : (!((((p.adv 1).adv 1).str.drop ((p.adv 1).adv 1).i).take 4).all is_hex) = true
    · rw [if_pos h8]
      exact Or.inl ⟨_, 2, rfl⟩
    rw [if_neg h8]
    have hq := hexQuad_of_all _ h7 (List.length_take_le _ _) h8
    have hlen : p.i + 6 ≤ p.str.length := by
      simp only [adv_i, adv_str, List.length_take, List.length_drop, not_lt] at h7
      omega
    have hdrop : p.str.drop p.i =
        (92 :: 117 :: (((p.adv 1).adv 1).str.drop ((p.adv 1).adv 1).i).take 4) ++
          p.str.drop (p.i + 6) := by
      rw [drop_two_of_cur p (by omega) (by omega), h92, h6]
      simp only [adv_str, adv_i, List.cons_append, List.cons.injEq, true_and]
      have := List.take_append_drop 4 (p.str.drop (p.i + 2))
      rw [List.drop_drop, show p.i + 2 + 4 = p.i + 6 by omega] at this
      exact this.symm
    have hil : (92 :: 117 :: (((p.adv 1).adv 1).str.drop ((p.adv 1).adv 1).i).take 4).length =
        6 := by
      simp only [List.length_cons, hq.1]
    have hitem : StringBody
        (92 :: 117 :: (((p.adv 1).adv 1).str.drop ((p.adv 1).adv 1).i).take 4) := by
      have := StringBody.unicode _ [] hq StringBody.nil
      rw [List.append_nil] at this
      exact this
    by_cases h9 : in_range last 0xD800 0xDBFF ∧
        in_range (strtol16 ((((p.adv 1).adv 1).str.drop ((p.adv 1).adv 1).i).take 4) : Int)
          0xDC00 0xDFFF
    · rw [if_pos h9]
      exact Or.inr (Or.inr ⟨_, _, _, hitem, by rw [hil]; decide, by rw [hil]; exact hlen,
        by rw [hil]; exact hdrop, by rw [hil, adv6]⟩)
    · rw [if_neg h9]
      exact Or.inr (Or.inr ⟨_, _, _, hitem, by rw [hil]; decide, by rw [hil]; exact hlen,
        by rw [hil]; exact hdrop, by rw [hil, adv6]⟩)
  rw [if_neg h6]
  by_cases h7 : (p.adv 1).cur = 98
  · rw [if_pos h7]
    exact Or.inr (Or.inr (esc_item 8 (by unfold IsEscapeChar; omega)))
  rw [if_neg h7]
  by_cases h8 : (p.adv 1).cur = 102
  · rw [if_pos h8]
    exact Or.inr (Or.inr (esc_item 12 (by unfold IsEscapeChar; omega)))
  rw [if_neg h8]
  by_cases h9 : (p.adv 1).cur = 110
  · rw [if_pos h9]
    exact Or.inr (Or.inr (esc_item 10 (by unfold IsEscapeChar; omega)))
  rw [if_neg h9]
  by_cases h10 : (p.adv 1).cur = 114
  · rw [if_pos h10]
    exact Or.inr (Or.inr (esc_item 13 (by unfold IsEscapeChar; omega)))
  rw [if_neg h10]
  by_cases h11 : (p.adv 1).cur = 116
  · rw [if_pos h11]
    exact Or.inr (Or.inr (esc_item 9 (by unfold IsEscapeChar; omega)))
  rw [if_neg h11]
  by_cases h12 : (p.adv 1).cur = 34 ∨ (p.adv 1).cur = 92 ∨ (p.adv 1).cur = 47
  · rw [if_pos h12]
    exact Or.inr (Or.inr (esc_item _ (by unfold IsEscapeChar; omega)))
  rw [if_neg h12]
  exact Or.inl ⟨_, 2, rfl⟩

/-- A call of the loop of `parse_string` that does not fail has read the body of
a string literal and its closing quote. -/
theorem parse_string_loop_inv : ∀ (fuel : Nat) (out : List Nat) (last : Int) (p : JsonParser)
    (o : List Nat) (q : JsonParser), p.str.length - p.i + 1 ≤ fuel →
    parse_string_loop fuel out last p = (o, q) → q.failed = false →
    ∃ body, StringBody body ∧
      p.str.drop p.i = body ++ 34 :: p.str.drop (p.i + (body.length + 1)) ∧
      q = p.adv (body.length + 1)
  | 0, _, _, _, _, _, hf, _, _ => by omega
  | fuel + 1, out, last, p, o, q, hf, h, hq => by
    rcases parse_string_loop_item fuel out last p with ⟨m, k, e⟩ | ⟨hc, e⟩ |
      ⟨item, out', last', hitem, h1, hle, hdrop, e⟩
    · rw [e] at h
      simp only [Prod.mk.injEq] at h
      rw [← h.2] at hq
      cases hq
    · rw [e] at h
      simp only [Prod.mk.injEq] at h
      refine ⟨[], StringBody.nil, ?_, h.2.symm⟩
      rw [drop_of_cur_ne_zero p (by omega), hc]
      rfl
    · rw [e] at h
      obtain ⟨body, hb, hd, hqe⟩ := parse_string_loop_inv fuel out' last' (p.adv item.length) o q
        (by simp only [adv_str, adv_i]; omega) h hq
      simp only [adv_str, adv_i] at hd
      refine ⟨item ++ body, hitem.append hb, ?_, ?_⟩
      · rw [hdrop, hd, List.append_assoc, List.length_append,
          show p.i + item.length + (body.length + 1) =
            p.i + (item.length + body.length + 1) by omega]
      · rw [hqe, adv_adv, List.length_append,
          show item.length + (body.length + 1) = item.length + body.length + 1 by omega]

/-! ### String literals read forward -/

theorem parse_string_loop_escape (fuel : Nat) (out : List Nat) (last : Int) (p : JsonParser)
    (e : Nat) (h1 : p.cur = 92) (h2 : p.at (p.i + 1) = e) (he : IsEscapeChar e) :
    ∃ x, x < 0x80 ∧ parse_string_loop (fuel + 1) out last p =
      parse_string_loop fuel (encode_utf8 last out ++ [x]) (-1) (p.adv 2) := by
  unfold IsEscapeChar at he
  rcases he with he | he | he | he | he | he | he | he
  · exact ⟨e, by omega, parse_string_loop_self fuel out last p e h1 h2 (by omega)⟩
  · exact ⟨e, by omega, parse_string_loop_self fuel out last p e h1 h2 (by omega)⟩
  · exact ⟨e, by omega, parse_string_loop_self fuel out last p e h1 h2 (by omega)⟩
  · exact ⟨8, by omega, parse_string_loop_ctrl fuel out last p e 8 h1 h2 (by omega)⟩
  · exact ⟨12, by omega, parse_string_loop_ctrl fuel out last p e 12 h1 h2 (by omega)⟩
  · exact ⟨10, by omega, parse_string_loop_ctrl fuel out last p e 10 h1 h2 (by omega)⟩
  · exact ⟨13, by omega, parse_string_loop_ctrl fuel out last p e 13 h1 h2 (by omega)⟩
  · exact ⟨9, by omega, parse_string_loop_ctrl fuel out last p e 9 h1 h2 (by omega)⟩

/-- The loop of `parse_string` reads a body of the grammar item by item. -/
theorem parse_string_loop_body {body : List Nat} (hb : StringBody body) :
    ∀ (fuel : Nat) (out : List Nat) (last : Int) (p : JsonParser) (post : List Nat),
      p.str.drop p.i = body ++ post → body.length ≤ fuel →
      ∃ fuel' out' last', fuel - body.length ≤ fuel' ∧
        parse_string_loop fuel out last p =
          parse_string_loop fuel' out' last' (p.adv body.length) := by
  induction hb with
  | nil =>
    intro fuel out last p post _ _
    exact ⟨fuel, out, last, by simp, rfl⟩
  | raw c rest h1 h2 h3 _ ih =>
    intro fuel out last p post hd hf
    rw [List.cons_append] at hd
    have hcur := cur_of_drop p c _ hd
    have hlt := lt_of_drop p c _ hd
    cases fuel with
    | zero => simp at hf
    | succ f =>
      have hd1 : (p.adv 1).str.drop (p.adv 1).i = rest ++ post := by
        rw [drop_adv, hd]
        rfl
      obtain ⟨fuel', out', last', hfl, e⟩ := ih f (encode_utf8 last out ++ [c]) (-1) (p.adv 1)
        post hd1 (by simp only [List.length_cons] at hf; omega)
      refine ⟨fuel', out', last', by simp only [List.length_cons]; omega, ?_⟩
      rw [parse_string_loop_plain f out last p hlt (by rw [hcur]; exact h1)
        (by rw [hcur]; exact h2) (by rw [hcur]; exact in_range_of_not_ctrl c h3), hcur, e,
        adv_adv, List.length_cons, Nat.add_comm]
  | escape e rest he _ ih =>
    intro fuel out last p post hd hf
    rw [List.cons_append, List.cons_append] at hd
    have hcur := cur_of_drop p 92 _ hd
    have hat := at1_of_drop p 92 e _ hd
    cases fuel with
    | zero => simp at hf
    | succ f =>
      have hd2 : (p.adv 2).str.drop (p.adv 2).i = rest ++ post := by
        rw [drop_adv, hd]
        rfl
      obtain ⟨x, _, ex⟩ := parse_string_loop_escape f out last p e hcur hat he
      obtain ⟨fuel', out', last', hfl, e'⟩ := ih f (encode_utf8 last out ++ [x]) (-1) (p.adv 2)
        post hd2 (by simp only [List.length_cons] at hf; omega)
      refine ⟨fuel', out', last', by simp only [List.length_cons]; omega, ?_⟩
      rw [ex, e', adv_adv, List.length_cons, List.length_cons]
      congr 2
      omega
  | unicode h rest hh _ ih =>
    intro fuel out last p post hd hf
    rw [List.cons_append, List.cons_append, List.append_assoc] at hd
    have hcur := cur_of_drop p 92 _ hd
    have hat := at1_of_drop p 92 117 _ hd
    have hlen : (92 :: 117 :: (h ++ rest)).length = rest.length + 6 := by
      simp only [List.length_cons, List.length_append, hh.1]
      omega
    cases fuel with
    | zero => simp at hf
    | succ f =>
      have hd2 : p.str.drop (p.i + 2) = h ++ (rest ++ post) := by
        have := drop_adv p 2
        simp only [adv_str, adv_i] at this
        rw [this, hd]
        rfl
      have htake : (p.str.drop (p.i + 2)).take 4 = h := by
        rw [hd2, ← hh.1, List.take_left]
      have hd6 : (p.adv 6).str.drop (p.adv 6).i = rest ++ post := by
        have := drop_adv_append (p.adv 2) h (rest ++ post) hd2
        rw [hh.1, adv_adv] at this
        exact this
      rw [hlen] at hf ⊢
      rw [parse_string_loop_u f out last p h hcur hat htake hh.1 hh.all_hex]
      by_cases hc : in_range last 0xD800 0xDBFF ∧ in_range (strtol16 h : Int) 0xDC00 0xDFFF
      · rw [if_pos hc]
        obtain ⟨fuel', out', last', hfl, e'⟩ := ih f _ (-1) (p.adv 6) post hd6 (by omega)
        refine ⟨fuel', out', last', by omega, ?_⟩
        rw [e', adv_adv, Nat.add_comm]
      · rw [if_neg hc]
        obtain ⟨fuel', out', last', hfl, e'⟩ := ih f _ _ (p.adv 6) post hd6 (by omega)
        refine ⟨fuel', out', last', by omega, ?_⟩
        rw [e', adv_adv, Nat.add_comm]

/-- The method `parse_string` has read the body `pre` and is at what follows it. -/
theorem parse_string_prefix (p : JsonParser) (pre post : List Nat) (hb : StringBody pre)
    (hpost : post ≠ []) (h : p.str.drop p.i = pre ++ post) :
    ∃ f out' last', parse_string p = parse_string_loop (f + 1) out' last' (p.adv pre.length) := by
  have hl := length_of_drop p _ h
  have hp : 1 ≤ post.length := by
    cases post with
    | nil => exact absurd rfl hpost
    | cons c cs => simp
  obtain ⟨fuel', out', last', hfl, e⟩ := parse_string_loop_body hb (p.str.length - p.i + 1) []
    (-1) p post h (by rw [hl, List.length_append]; omega)
  rw [hl, List.length_append] at hfl e
  cases fuel' with
  | zero => omega
  | succ f =>
    refine ⟨f, out', last', ?_⟩
    simp only [parse_string, hl, List.length_append]
    exact e

/-- A literal of the string grammar is read by `parse_string` up to its closing quote. -/
theorem parse_string_literal (p : JsonParser) (body post : List Nat) (hb : StringBody body)
    (h : p.str.drop p.i = body ++ 34 :: post) :
    ∃ o, parse_string p = (o, p.adv (body.length + 1)) := by
  obtain ⟨f, out', last', e⟩ := parse_string_prefix p body (34 :: post) hb (by simp) h
  have hc := cur_of_suffix _ _ (drop_adv_append p body _ h)
  simp only [List.getD_cons_zero] at hc
  rw [e, parse_string_loop_quote f out' last' _ hc, adv_adv]
  exact ⟨_, rfl⟩

/-- A raw byte below 0x20 after the body `pre` makes `parse_string` fail. -/
theorem parse_string_unescaped (p : JsonParser) (pre rest : List Nat) (c : Nat)
    (hb : StringBody pre) (hc : c ≤ 0x1f) (h : p.str.drop p.i = pre ++ c :: rest) :
    parse_string p = ([], (p.adv (pre.length + 1)).fail
      (bytes "unescaped " ++ esc c ++ bytes " in string")) := by
  obtain ⟨f, out', last', e⟩ := parse_string_prefix p pre (c :: rest) hb (by simp) h
  have hd := drop_adv_append p pre _ h
  have hcur := cur_of_drop _ c rest hd
  have hlt := lt_of_drop _ c rest hd
  rw [e, parse_string_loop_succ, if_neg (by omega), if_neg (by rw [hcur]; omega),
    if_pos (by rw [hcur]; exact in_range_of_ctrl c hc), hcur, adv_adv]

/-- A backslash and `u` that four hexadecimal digits do not follow make
`parse_string` fail. -/
theorem parse_string_bad_u (p : JsonParser) (pre rest : List Nat) (hb : StringBody pre)
    (hbad : (rest.take 4).length < 4 ∨ (rest.take 4).all is_hex = false)
    (h : p.str.drop p.i = pre ++ 92 :: 117 :: rest) :
    parse_string p = ([], (p.adv (pre.length + 2)).fail
      (bytes "bad \\u escape: " ++ rest.take 4)) := by
  obtain ⟨f, out', last', e⟩ := parse_string_prefix p pre _ hb (by simp) h
  have hd := drop_adv_append p pre _ h
  have hcur := cur_of_drop _ 92 _ hd
  have hlt := lt_of_drop _ 92 _ hd
  have hd1 : ((p.adv pre.length).adv 1).str.drop ((p.adv pre.length).adv 1).i = 117 :: rest := by
    rw [drop_adv, hd]
    rfl
  have hcur1 := cur_of_drop _ 117 _ hd1
  have hlt1 := lt_of_drop _ 117 _ hd1
  have hd2 : (((p.adv pre.length).adv 1).adv 1).str.drop
      (((p.adv pre.length).adv 1).adv 1).i = rest := by
    rw [drop_adv, hd1]
    rfl
  rw [e, parse_string_loop_succ, if_neg (by omega), if_neg (by rw [hcur]; decide),
    if_neg (by rw [hcur]; decide), if_neg (by simp [hcur]), if_neg (by omega), if_pos hcur1, hd2]
  rcases hbad with hbad | hbad
  · rw [if_pos hbad, adv_adv, adv_adv]
  · by_cases hl : (rest.take 4).length < 4
    · rw [if_pos hl, adv_adv, adv_adv]
    · rw [if_neg hl, if_pos (by simp [hbad]), adv_adv, adv_adv]

/-- A backslash and a character that makes no escape make `parse_string` fail. -/
theorem parse_string_bad_escape (p : JsonParser) (pre rest : List Nat) (e : Nat)
    (hb : StringBody pre) (he : ¬ IsEscapeChar e) (hu : e ≠ 117)
    (h : p.str.drop p.i = pre ++ 92 :: e :: rest) :
    parse_string p = ([], (p.adv (pre.length + 2)).fail
      (bytes "invalid escape character " ++ esc e)) := by
  obtain ⟨f, out', last', e'⟩ := parse_string_prefix p pre _ hb (by simp) h
  have hd := drop_adv_append p pre _ h
  have hcur := cur_of_drop _ 92 _ hd
  have hlt := lt_of_drop _ 92 _ hd
  have hd1 : ((p.adv pre.length).adv 1).str.drop ((p.adv pre.length).adv 1).i = e :: rest := by
    rw [drop_adv, hd]
    rfl
  have hcur1 := cur_of_drop _ e _ hd1
  have hlt1 := lt_of_drop _ e _ hd1
  unfold IsEscapeChar at he
  rw [e', parse_string_loop_succ, if_neg (by omega), if_neg (by rw [hcur]; decide),
    if_neg (by rw [hcur]; decide), if_neg (by simp [hcur]), if_neg (by omega),
    if_neg (by rw [hcur1]; exact hu), if_neg (by rw [hcur1]; omega),
    if_neg (by rw [hcur1]; omega), if_neg (by rw [hcur1]; omega), if_neg (by rw [hcur1]; omega),
    if_neg (by rw [hcur1]; omega), if_neg (by rw [hcur1]; omega), hcur1, adv_adv, adv_adv]

/-! ### The string grammar and `parse` -/

theorem consume_whitespace_loop_all : ∀ (ws : List Nat) (fuel : Nat) (p : JsonParser),
    (∀ c ∈ ws, IsJsonSpace c) → p.str.drop p.i = ws → ws.length ≤ fuel →
    consume_whitespace_loop fuel p = p.adv ws.length
  | [], fuel, p, _, h, _ => by
    have hl := length_of_drop p _ h
    have hc : p.cur = 0 := by
      simp only [JsonParser.cur]
      rw [List.getD_eq_default _ _ (by simp only [List.length_nil] at hl; omega)]
    cases fuel with
    | zero => rfl
    | succ f =>
      simp only [consume_whitespace_loop]
      rw [if_neg (by rw [hc]; decide)]
      rfl
  | c :: cs, fuel, p, hws, h, hf => by
    have hc := cur_of_drop p c cs h
    have hd1 : (p.adv 1).str.drop (p.adv 1).i = cs := by
      rw [drop_adv, h]
      rfl
    cases fuel with
    | zero => simp at hf
    | succ f =>
      simp only [consume_whitespace_loop]
      rw [if_pos (by rw [hc]; exact hws c (List.mem_cons_self c cs)),
        consume_whitespace_loop_all cs f (p.adv 1)
          (fun x hx => hws x (List.mem_cons_of_mem c hx)) hd1
          (by simp only [List.length_cons] at hf; omega), adv_adv, List.length_cons,
        Nat.add_comm]

theorem consume_whitespace_all (p : JsonParser) (ws : List Nat)
    (hws : ∀ c ∈ ws, IsJsonSpace c) (h : p.str.drop p.i = ws) :
    consume_whitespace p = p.adv ws.length := by
  have hl := length_of_drop p _ h
  simp only [consume_whitespace]
  exact consume_whitespace_loop_all ws _ p hws h (by omega)

/-- When the skipping of white space reaches the end of the text, the rest of
the text was white space. -/
theorem consume_whitespace_loop_reach : ∀ (fuel : Nat) (p : JsonParser),
    p.i ≤ p.str.length → (consume_whitespace_loop fuel p).i = p.str.length →
    ∀ c ∈ p.str.drop p.i, IsJsonSpace c
  | 0, p, hle, h => by
    simp only [consume_whitespace_loop] at h
    rw [h, List.drop_length]
    intro c hc
    cases hc
  | fuel + 1, p, hle, h => by
    simp only [consume_whitespace_loop] at h
    by_cases hws : p.cur = 32 ∨ p.cur = 9 ∨ p.cur = 10 ∨ p.cur = 13
    · rw [if_pos hws] at h
      have hlt := lt_length_of_cur_ne_zero p (by omega)
      have ih := consume_whitespace_loop_reach fuel (p.adv 1)
        (by simp only [adv_str, adv_i]; omega) h
      rw [drop_of_cur_ne_zero p (by omega)]
      intro c hc
      rcases List.mem_cons.1 hc with rfl | hc
      · exact hws
      · exact ih c hc
    · rw [if_neg hws] at h
      rw [h, List.drop_length]
      intro c hc
      cases hc

theorem consume_whitespace_reach (p : JsonParser) (hle : p.i ≤ p.str.length)
    (h : (consume_whitespace p).i = p.str.length) : ∀ c ∈ p.str.drop p.i, IsJsonSpace c :=
  consume_whitespace_loop_reach _ p hle h

/-- A value followed by white space only is what `parse` returns under the
standard dialect. -/
theorem Json.parse_value_standard (L : Libc) (t : List Nat) (v : Json) (q : JsonParser)
    (h : parse_json L (parse_json_fuel t) 0 ⟨t, 0, [], false, JsonParse.STANDARD⟩ = some (v, q))
    (hq : q.failed = false) (hws : ∀ c ∈ t.drop q.i, IsJsonSpace c) :
    Json.parse L t [] JsonParse.STANDARD = some (v, []) := by
  have e := parse_json_ext L _ _ _ _ h
  have hstr : q.str = t := e.str
  have hk : q.err = [] := e.keep hq
  have hl : t.length - q.i = (t.drop q.i).length := by rw [List.length_drop]
  have hi := (parse_json_adv L _ 0 _ _ h hq (Nat.zero_le _)).2
  simp only at hi
  have hcw := consume_whitespace_all q (t.drop q.i) hws (by rw [hstr])
  simp only [Json.parse, Json.parse_state_eq L t [] JsonParse.STANDARD (v, q) h]
  rw [consume_garbage_standard q e.strategy, hcw]
  simp only [adv_failed, hq, adv_i, Bool.false_eq_true, if_false]
  rw [if_neg (by simp only [List.length_drop, ne_eq, Decidable.not_not]; omega)]
  simp only [Option.map_some', adv_err, hk]

/-- A text that begins with a double quote is read by `parse_string` after the quote. -/
theorem parse_json_string_head (L : Libc) (t : List Nat) (hhead : t.getD 0 0 = 34) :
    parse_json L (parse_json_fuel t) 0 ⟨t, 0, [], false, JsonParse.STANDARD⟩ =
      some (Json.string (parse_string ⟨t, 1, [], false, JsonParse.STANDARD⟩).1,
        (parse_string ⟨t, 1, [], false, JsonParse.STANDARD⟩).2) := by
  cases t with
  | nil => simp at hhead
  | cons c rest =>
    simp only [List.getD_cons_zero] at hhead
    subst hhead
    have hfuel : parse_json_fuel (34 :: rest) = (2 * (34 :: rest).length + 3) + 1 := rfl
    have htok := get_next_token_head ⟨34 :: rest, 0, [], false, JsonParse.STANDARD⟩ 34 rest
      rfl rfl rfl (by decide)
    rw [hfuel, parse_json_succ, if_neg (by decide), htok]
    simp only [adv_failed, Bool.false_eq_true, if_false]
    rw [if_neg (by decide), if_neg (by decide), if_neg (by decide), if_neg (by decide),
      if_pos trivial]
    rfl

/-- A text that begins with a double quote and that `parse` accepts is a literal
of the string grammar followed by white space, and the value is a String. -/
theorem Json.parse_string_accepts (L : Libc) (t : List Nat) (v : Json)
    (hhead : t.getD 0 0 = 34)
    (h : Json.parse L t [] JsonParse.STANDARD = some (v, [])) :
    v.type = JsonType.STRING ∧
      ∃ g ws, StringGrammar g ∧ (∀ c ∈ ws, IsJsonSpace c) ∧ t = g ++ ws := by
  obtain ⟨q, hq1, hq2⟩ := Json.parse_success L t JsonParse.STANDARD v h
  obtain ⟨r, hr, hrf, hqr, hqi⟩ := Json.parse_state_success L t [] JsonParse.STANDARD v q hq1 hq2
  have hre := parse_json_ext L _ 0 _ _ hr
  have hri := (parse_json_adv L _ 0 _ _ hr hrf (Nat.zero_le _)).2
  simp only at hri
  rw [parse_json_string_head L t hhead] at hr
  simp only [Option.some.injEq, Prod.mk.injEq] at hr
  obtain ⟨body, hb, hd, hrq⟩ := parse_string_loop_inv _ [] (-1)
    ⟨t, 1, [], false, JsonParse.STANDARD⟩ _ r (le_refl _)
    (show parse_string ⟨t, 1, [], false, JsonParse.STANDARD⟩ = (_, r) by rw [← hr.2])
    hrf
  simp only at hd
  have ht : t = 34 :: t.drop 1 := by
    cases t with
    | nil => simp at hhead
    | cons c rest =>
      simp only [List.getD_cons_zero] at hhead
      rw [hhead]
      rfl
  have hws : ∀ c ∈ t.drop (1 + (body.length + 1)), IsJsonSpace c := by
    have hrs : r.str = t := hre.str
    have := consume_whitespace_reach r (by rw [hrs]; exact hri)
      (by rw [← consume_garbage_standard r hre.strategy, ← hqr, hrs]; exact hqi)
    rw [hrs, hrq] at this
    exact this
  refine ⟨by rw [← hr.1]; rfl, 34 :: (body ++ [34]), t.drop (1 + (body.length + 1)),
    ⟨body, hb, rfl⟩, hws, ?_⟩
  rw [List.cons_append, List.append_assoc, List.singleton_append, ← hd]
  exact ht

/-- A literal of the string grammar followed by white space is accepted, with a
String as the value. -/
theorem Json.parse_string_grammar (L : Libc) (g ws : List Nat) (hg : StringGrammar g)
    (hws : ∀ c ∈ ws, IsJsonSpace c) :
    ∃ s, Json.parse L (g ++ ws) [] JsonParse.STANDARD = some (Json.string s, []) := by
  obtain ⟨body, hb, rfl⟩ := hg
  have hj := parse_json_string_head L (34 :: (body ++ [34]) ++ ws) (by simp)
  obtain ⟨o, ho⟩ := parse_string_literal
    ⟨34 :: (body ++ [34]) ++ ws, 1, [], false, JsonParse.STANDARD⟩ body ws hb
    (by simp)
  rw [ho] at hj
  refine ⟨o, Json.parse_value_standard L _ _ _ hj rfl ?_⟩
  have : (34 :: (body ++ [34]) ++ ws).drop (1 + (body.length + 1)) = ws := by
    have e : 34 :: (body ++ [34]) ++ ws = (34 :: (body ++ [34])) ++ ws := rfl
    rw [e, show 1 + (body.length + 1) = (34 :: (body ++ [34])).length by
      simp only [List.length_cons, List.length_append, List.length_nil]; omega, List.drop_left]
  simp only [adv_i]
  rw [this]
  exact hws

/-- The failure of `parse_string` on a text that begins with a double quote is
what `parse` reports. -/
theorem Json.parse_string_failure (L : Libc) (t m : List Nat) (k : Nat)
    (hhead : t.getD 0 0 = 34)
    (h : parse_string ⟨t, 1, [], false, JsonParse.STANDARD⟩ =
      ([], (JsonParser.mk t 1 [] false JsonParse.STANDARD).adv k |>.fail m)) :
    Json.parse L t [] JsonParse.STANDARD = some (Json.null, m) := by
  have hj := parse_json_string_head L t hhead
  rw [h] at hj
  exact Json.parse_failed_standard L t _ _ hj rfl

/-! ### Well-formed UTF-8 -/

theorem utf8_step_cont (lo hi : Nat) (rest : List (Nat × Nat)) (c : Nat)
    (h : lo ≤ c ∧ c ≤ hi) : utf8_step ((lo, hi) :: rest) c = some rest := by
  simp only [utf8_step]
  rw [if_pos h]

theorem utf8_step_one (c : Nat) (h : c < 0x80) : utf8_step [] c = some [] := by
  simp only [utf8_step]
  rw [if_pos h]

theorem utf8_step_lead2 (a : Nat) (ha : 0xC2 ≤ a ∧ a ≤ 0xDF) :
    utf8_step [] a = some [(0x80, 0xBF)] := by
  simp only [utf8_step]
  rw [if_neg (by omega), if_pos ha]

theorem utf8_step_lead3 (a : Nat) (ha : 0xE0 ≤ a ∧ a ≤ 0xEF) :
    utf8_step [] a =
      some [(if a = 0xE0 then 0xA0 else 0x80, if a = 0xED then 0x9F else 0xBF), (0x80, 0xBF)] := by
  simp only [utf8_step]
  rw [if_neg (by omega), if_neg (by omega)]
  by_cases h0 : a = 0xE0
  · rw [if_pos h0, if_pos h0, if_neg (by omega)]
  rw [if_neg h0, if_neg h0]
  by_cases hd : a = 0xED
  · rw [if_neg (by omega), if_pos hd, if_pos hd]
  rw [if_pos (by omega), if_neg hd]

theorem utf8_step_lead4 (a : Nat) (ha : 0xF0 ≤ a ∧ a ≤ 0xF4) :
    utf8_step [] a =
      some [(if a = 0xF0 then 0x90 else 0x80, if a = 0xF4 then 0x8F else 0xBF), (0x80, 0xBF),
        (0x80, 0xBF)] := by
  simp only [utf8_step]
  rw [if_neg (by omega), if_neg (by omega), if_neg (by omega), if_neg (by omega),
    if_neg (by omega)]
  by_cases h0 : a = 0xF0
  · rw [if_pos h0, if_pos h0, if_neg (by omega)]
  rw [if_neg h0, if_neg h0]
  by_cases h4 : a = 0xF4
  · rw [if_neg (by omega), if_pos h4, if_pos h4]
  rw [if_pos (by omega), if_neg h4]

/-- The ranges of a state reached from a state above the ASCII bytes are above
the ASCII bytes. -/
theorem utf8_step_good (st st' : List (Nat × Nat)) (c : Nat) (hg : ∀ r ∈ st, 0x80 ≤ r.1)
    (h : utf8_step st c = some st') : ∀ r ∈ st', 0x80 ≤ r.1 := by
  cases st with
  | cons r rest =>
    obtain ⟨lo, hi⟩ := r
    simp only [utf8_step] at h
    split at h
    · simp only [Option.some.injEq] at h
      subst h
      exact fun r hr => hg r (List.mem_cons_of_mem _ hr)
    · cases h
  | nil =>
    simp only [utf8_step] at h
    split at h
    · cases h
      exact fun r hr => absurd hr (List.not_mem_nil r)
    split at h
    · cases h
      simp
    split at h
    · cases h
      simp
    split at h
    · cases h
      simp
    split at h
    · cases h
      simp
    split at h
    · cases h
      simp
    split at h
    · cases h
      simp
    split at h
    · cases h
      simp
    cases h

theorem utf8_run_good : ∀ (s : List Nat) (st st' : List (Nat × Nat)),
    (∀ r ∈ st, 0x80 ≤ r.1) → utf8_run s st = some st' → ∀ r ∈ st', 0x80 ≤ r.1
  | [], st, st', hg, h => by
    simp only [utf8_run, Option.some.injEq] at h
    rw [← h]
    exact hg
  | c :: cs, st, st', hg, h => by
    simp only [utf8_run] at h
    cases hs : utf8_step st c with
    | none => simp [hs] at h
    | some st1 =>
      rw [hs] at h
      exact utf8_run_good cs st1 st' (utf8_step_good st st1 c hg hs) h

theorem utf8_run_append : ∀ (a b : List Nat) (st : List (Nat × Nat)),
    utf8_run (a ++ b) st = (utf8_run a st).bind (utf8_run b)
  | [], b, st => rfl
  | c :: cs, b, st => by
    simp only [List.cons_append, utf8_run]
    cases utf8_step st c with
    | none => rfl
    | some st1 => exact utf8_run_append cs b st1

theorem utf8_run_cons (c : Nat) (rest : List Nat) (st st' : List (Nat × Nat))
    (h : utf8_run (c :: rest) st = some st') :
    ∃ st1, utf8_step st c = some st1 ∧ utf8_run rest st1 = some st' := by
  simp only [utf8_run] at h
  cases hs : utf8_step st c with
  | none => simp [hs] at h
  | some st1 =>
    rw [hs] at h
    exact ⟨st1, rfl, h⟩

/-- An ASCII byte stands between two sequences. -/
theorem utf8_step_ascii (st st' : List (Nat × Nat)) (c : Nat) (hg : ∀ r ∈ st, 0x80 ≤ r.1)
    (hc : c < 0x80) (h : utf8_step st c = some st') : st = [] ∧ st' = [] := by
  cases st with
  | cons r rest =>
    obtain ⟨lo, hi⟩ := r
    have := hg (lo, hi) (List.mem_cons_self _ _)
    simp only [utf8_step] at h
    rw [if_neg (by simp only at this; omega)] at h
    cases h
  | nil =>
    rw [utf8_step_one c hc] at h
    cases h
    exact ⟨rfl, rfl⟩

/-- ASCII bytes in a well-formed text begin after a complete sequence, and what
follows them is well-formed. -/
theorem utf8_run_ascii : ∀ (a rest : List Nat) (st : List (Nat × Nat)), a ≠ [] →
    (∀ c ∈ a, c < 0x80) → (∀ r ∈ st, 0x80 ≤ r.1) → utf8_run (a ++ rest) st = some [] →
    st = [] ∧ utf8_run rest [] = some []
  | [], _, _, hne, _, _, _ => absurd rfl hne
  | c :: cs, rest, st, _, ha, hg, h => by
    rw [List.cons_append] at h
    obtain ⟨st1, h1, h2⟩ := utf8_run_cons c _ st [] h
    obtain ⟨e1, e2⟩ := utf8_step_ascii st st1 c hg (ha c (List.mem_cons_self _ _)) h1
    subst e2
    refine ⟨e1, ?_⟩
    cases cs with
    | nil => exact h2
    | cons d ds =>
      exact (utf8_run_ascii (d :: ds) rest [] (by simp)
        (fun x hx => ha x (List.mem_cons_of_mem _ hx))
        (fun r hr => absurd hr (List.not_mem_nil r)) h2).2

/-- ASCII bytes after a complete sequence are well-formed. -/
theorem utf8_run_ascii_valid : ∀ (a : List Nat), (∀ c ∈ a, c < 0x80) → utf8_run a [] = some []
  | [], _ => rfl
  | c :: cs, ha => by
    simp only [utf8_run]
    rw [utf8_step_one c (ha c (List.mem_cons_self _ _))]
    exact utf8_run_ascii_valid cs (fun x hx => ha x (List.mem_cons_of_mem _ hx))

/-! ### The sequences `encode_utf8` appends -/

theorem or_192 : ∀ y < 32, (y ||| 0xC0) % 256 = 0xC0 + y := by decide

theorem or_224 : ∀ y < 16, (y ||| 0xE0) % 256 = 0xE0 + y := by decide

theorem encode_utf8_two (n : Nat) (out : List Nat) (h1 : 0x80 ≤ n) (h2 : n < 0x800) :
    encode_utf8 (n : Int) out = out ++ [0xC0 + n / 64, 0x80 + n % 64] := by
  have e1 : ¬ ((n : Int) < 0) := by omega
  have e2 : ¬ ((n : Int) < 0x80) := by omega
  have e3 : (n : Int) < 0x800 := by omega
  simp only [encode_utf8, if_neg e1, if_neg e2, if_pos e3, Int.toNat_ofNat, and_63,
    Nat.shiftRight_eq_div_pow]
  rw [or_192 _ (by omega), or_128 _ (Nat.mod_lt _ (by decide))]

theorem encode_utf8_three (n : Nat) (out : List Nat) (h1 : 0x800 ≤ n) (h2 : n < 0x10000) :
    encode_utf8 (n : Int) out = out ++ [0xE0 + n / 4096, 0x80 + n / 64 % 64, 0x80 + n % 64] := by
  have e1 : ¬ ((n : Int) < 0) := by omega
  have e2 : ¬ ((n : Int) < 0x80) := by omega
  have e3 : ¬ ((n : Int) < 0x800) := by omega
  have e4 : (n : Int) < 0x10000 := by omega
  simp only [encode_utf8, if_neg e1, if_neg e2, if_neg e3, if_pos e4, Int.toNat_ofNat, and_63,
    Nat.shiftRight_eq_div_pow]
  rw [or_224 _ (by omega), or_128 _ (Nat.mod_lt _ (by decide)),
    or_128 _ (Nat.mod_lt _ (by decide))]

/-- The bytes `encode_utf8` appends for a code point: their number goes by the
magnitude of the code point. -/
theorem encode_utf8_length (n : Nat) (out : List Nat) (hn : n < 0x200000) :
    ∃ bs, encode_utf8 (n : Int) out = out ++ bs ∧ bs.length = spec_utf8_length n := by
  simp only [spec_utf8_length]
  by_cases h1 : n < 0x80
  · exact ⟨_, encode_utf8_ascii n out h1, by rw [if_pos h1]; rfl⟩
  by_cases h2 : n < 0x800
  · exact ⟨_, encode_utf8_two n out (by omega) h2, by rw [if_neg h1, if_pos h2]; rfl⟩
  by_cases h3 : n < 0x10000
  · exact ⟨_, encode_utf8_three n out (by omega) h3,
      by rw [if_neg h1, if_neg h2, if_pos h3]; rfl⟩
  · exact ⟨_, encode_utf8_four n out (by omega) hn,
      by rw [if_neg h1, if_neg h2, if_neg h3]; rfl⟩

/-- The sequence `encode_utf8` appends for a code point up to U+10FFFF that is
no surrogate is well-formed. -/
theorem encode_utf8_valid (n : Nat) (out : List Nat) (hn : n < 0x110000)
    (hs : ¬ (0xD800 ≤ n ∧ n ≤ 0xDFFF)) :
    ∃ bs, encode_utf8 (n : Int) out = out ++ bs ∧ utf8_run bs [] = some [] := by
  by_cases h1 : n < 0x80
  · refine ⟨_, encode_utf8_ascii n out h1, ?_⟩
    simp only [utf8_run]
    rw [utf8_step_one n h1]
  by_cases h2 : n < 0x800
  · refine ⟨_, encode_utf8_two n out (by omega) h2, ?_⟩
    simp only [utf8_run]
    rw [utf8_step_lead2 _ (by omega)]
    simp only
    rw [utf8_step_cont _ _ _ _ (by omega)]
  by_cases h3 : n < 0x10000
  · refine ⟨_, encode_utf8_three n out (by omega) h3, ?_⟩
    simp only [utf8_run]
    rw [utf8_step_lead3 _ (by omega)]
    simp only
    rw [utf8_step_cont _ _ _ _ (by
      constructor
      · split <;> omega
      · split <;> omega)]
    simp only
    rw [utf8_step_cont _ _ _ _ (by omega)]
  · refine ⟨_, encode_utf8_four n out (by omega) (by omega), ?_⟩
    simp only [utf8_four, utf8_run]
    rw [utf8_step_lead4 _ (by omega)]
    simp only
    rw [utf8_step_cont _ _ _ _ (by
      constructor
      · split <;> omega
      · split <;> omega)]
    simp only
    rw [utf8_step_cont _ _ _ _ (by omega)]
    simp only
    rw [utf8_step_cont _ _ _ _ (by omega)]

/-! ### The code point of four hexadecimal digits -/

theorem hexVal_lt (c : Nat) (h : IsHexDigit c) : ∃ d, d < 16 ∧ hexVal c = some d := by
  unfold IsHexDigit at h
  simp only [hexVal]
  by_cases h1 : 48 ≤ c ∧ c ≤ 57
  · rw [if_pos h1]
    exact ⟨_, by omega, rfl⟩
  rw [if_neg h1]
  by_cases h2 : 97 ≤ c ∧ c ≤ 102
  · rw [if_pos h2]
    exact ⟨_, by omega, rfl⟩
  rw [if_neg h2, if_pos (by omega)]
  exact ⟨_, by omega, rfl⟩

theorem HexQuad.strtol16_lt {h : List Nat} (hq : HexQuad h) : strtol16 h < 0x10000 := by
  obtain ⟨hl, hd⟩ := hq
  match h, hl with
  | [a, b, c, d], _ =>
    obtain ⟨x1, h1, e1⟩ := hexVal_lt a (hd a (by simp))
    obtain ⟨x2, h2, e2⟩ := hexVal_lt b (hd b (by simp))
    obtain ⟨x3, h3, e3⟩ := hexVal_lt c (hd c (by simp))
    obtain ⟨x4, h4, e4⟩ := hexVal_lt d (hd d (by simp))
    simp only [strtol16, strtol16_loop, e1, e2, e3, e4]
    omega

theorem HexQuad.ascii {h : List Nat} (hq : HexQuad h) : ∀ c ∈ h, c < 0x80 := by
  intro c hc
  have := hq.2 c hc
  unfold IsHexDigit at this
  omega

/-! ### The bytes of a parsed string -/

theorem utf8_run_snoc (a : List Nat) (c : Nat) (st st1 : List (Nat × Nat))
    (ha : utf8_run a [] = some st) (hc : utf8_step st c = some st1) :
    utf8_run (a ++ [c]) [] = some st1 := by
  rw [utf8_run_append, ha]
  simp only [Option.some_bind, utf8_run, hc]

theorem in_range_nat (n : Nat) (lo hi : Nat) :
    in_range (n : Int) lo hi = true ↔ lo ≤ n ∧ n ≤ hi := by
  simp only [in_range, Bool.and_eq_true, decide_eq_true_eq]
  omega

theorem in_range_pending (last : Int)
    (h : last = -1 ∨ ∃ n : Nat, last = n ∧ n < 0x10000 ∧ ¬ (0xD800 ≤ n ∧ n ≤ 0xDFFF)) :
    ¬ in_range last 0xD800 0xDBFF = true := by
  rcases h with rfl | ⟨n, rfl, _, hs⟩
  · decide
  · rw [show ((0xD800 : Int)) = ((0xD800 : Nat) : Int) from rfl,
      show ((0xDBFF : Int)) = ((0xDBFF : Nat) : Int) from rfl, in_range_nat]
    omega

/-- The escape of a code point that is no surrogate: the code point is kept back
and the bytes read so far stay well-formed. -/
theorem parse_string_loop_unicode (fuel : Nat) (out : List Nat) (last : Int) (p : JsonParser)
    (h rest : List Nat) (hh : HexQuad h) (hd : p.str.drop p.i = 92 :: 117 :: (h ++ rest))
    (hc : ¬ (in_range last 0xD800 0xDBFF ∧ in_range (strtol16 h : Int) 0xDC00 0xDFFF)) :
    parse_string_loop (fuel + 1) out last p =
        parse_string_loop fuel (encode_utf8 last out) (strtol16 h : Int) (p.adv 6) ∧
      (p.adv 6).str.drop (p.adv 6).i = rest := by
  have hcur := cur_of_drop p 92 _ hd
  have hat := at1_of_drop p 92 117 _ hd
  have hd2 : p.str.drop (p.i + 2) = h ++ rest := by
    have := drop_adv p 2
    simp only [adv_str, adv_i] at this
    rw [this, hd]
    rfl
  have htake : (p.str.drop (p.i + 2)).take 4 = h := by
    rw [hd2, ← hh.1, List.take_left]
  have hd6 : (p.adv 6).str.drop (p.adv 6).i = rest := by
    have := drop_adv_append (p.adv 2) h rest hd2
    rw [hh.1, adv_adv] at this
    exact this
  rw [parse_string_loop_u fuel out last p h hcur hat htake hh.1 hh.all_hex, if_neg hc]
  exact ⟨rfl, hd6⟩

/-- The escapes of a high and of a low surrogate, one right after the other. -/
theorem parse_string_loop_pair (fuel : Nat) (out : List Nat) (last : Int) (p : JsonParser)
    (h l rest : List Nat) (hh : HexQuad h) (hl : HexQuad l)
    (hhi : 0xD800 ≤ strtol16 h ∧ strtol16 h ≤ 0xDBFF)
    (hlo : 0xDC00 ≤ strtol16 l ∧ strtol16 l ≤ 0xDFFF)
    (hd : p.str.drop p.i = 92 :: 117 :: (h ++ 92 :: 117 :: (l ++ rest)))
    (hlast : ¬ in_range last 0xD800 0xDBFF = true) :
    parse_string_loop (fuel + 2) out last p =
        parse_string_loop fuel
          (encode_utf8 ((0x10000 + ((strtol16 h - 0xD800) <<< 10 ||| (strtol16 l - 0xDC00)) : Nat) :
            Int) (encode_utf8 last out)) (-1) (p.adv 12) ∧
      (p.adv 12).str.drop (p.adv 12).i = rest := by
  obtain ⟨e1, d1⟩ := parse_string_loop_unicode (fuel + 1) out last p h _ hh hd
    (fun x => hlast x.1)
  have hcur := cur_of_drop (p.adv 6) 92 _ d1
  have hat := at1_of_drop (p.adv 6) 92 117 _ d1
  have hd2 : (p.adv 6).str.drop ((p.adv 6).i + 2) = l ++ rest := by
    have := drop_adv (p.adv 6) 2
    simp only [adv_str, adv_i] at this
    simp only [adv_str, adv_i]
    rw [this]
    simp only [adv_str, adv_i] at d1
    rw [d1]
    rfl
  have htake : ((p.adv 6).str.drop ((p.adv 6).i + 2)).take 4 = l := by
    rw [hd2, ← hl.1, List.take_left]
  have hd12 : (p.adv 12).str.drop (p.adv 12).i = rest := by
    have := drop_adv_append ((p.adv 6).adv 2) l rest hd2
    rw [hl.1, adv_adv, adv_adv] at this
    exact this
  have hc2 : in_range (strtol16 h : Int) 0xD800 0xDBFF = true ∧
      in_range (strtol16 l : Int) 0xDC00 0xDFFF = true := by
    simp only [in_range, Bool.and_eq_true, decide_eq_true_eq]
    omega
  have hcomb : ((((((strtol16 h : Int) - 0xD800).toNat <<< 10) |||
      ((strtol16 l : Int) - 0xDC00).toNat : Nat) : Int) + (0x10000 : Int)) =
      ((0x10000 + ((strtol16 h - 0xD800) <<< 10 ||| (strtol16 l - 0xDC00)) : Nat) : Int) := by
    have e1 : ((strtol16 h : Int) - 0xD800).toNat = strtol16 h - 0xD800 := by omega
    have e2 : ((strtol16 l : Int) - 0xDC00).toNat = strtol16 l - 0xDC00 := by omega
    rw [e1, e2]
    push_cast
    omega
  refine ⟨?_, hd12⟩
  rw [e1, parse_string_loop_u fuel _ _ (p.adv 6) l hcur hat htake hl.1 hl.all_hex, if_pos hc2,
    hcomb, adv_adv]

/-- The loop of `parse_string` on a body whose surrogates come in pairs keeps the
bytes read so far, together with the text still to read, well-formed UTF-8. -/
theorem parse_string_loop_paired {body : List Nat} (hb : PairedBody body) :
    ∀ (fuel : Nat) (out : List Nat) (last : Int) (p : JsonParser) (post : List Nat)
      (st : List (Nat × Nat)),
      p.str.drop p.i = body ++ post → body.length ≤ fuel →
      (last = -1 ∨ ∃ n : Nat, last = n ∧ n < 0x10000 ∧ ¬ (0xD800 ≤ n ∧ n ≤ 0xDFFF)) →
      utf8_run (encode_utf8 last out) [] = some st → utf8_run (body ++ post) st = some [] →
      ∃ fuel' out' last' st', fuel - body.length ≤ fuel' ∧
        parse_string_loop fuel out last p =
          parse_string_loop fuel' out' last' (p.adv body.length) ∧
        (last' = -1 ∨ ∃ n : Nat, last' = n ∧ n < 0x10000 ∧ ¬ (0xD800 ≤ n ∧ n ≤ 0xDFFF)) ∧
        utf8_run (encode_utf8 last' out') [] = some st' ∧ utf8_run post st' = some [] := by
  induction hb with
  | nil =>
    intro fuel out last p post st _ _ hl hr hp
    exact ⟨fuel, out, last, st, by simp, rfl, hl, hr, hp⟩
  | raw c rest h1 h2 h3 _ ih =>
    intro fuel out last p post st hd hf hl hr hp
    rw [List.cons_append] at hd hp
    have hcur := cur_of_drop p c _ hd
    have hlt := lt_of_drop p c _ hd
    obtain ⟨st1, hs1, hp1⟩ := utf8_run_cons c _ st [] hp
    cases fuel with
    | zero => simp at hf
    | succ f =>
      have hd1 : (p.adv 1).str.drop (p.adv 1).i = rest ++ post := by
        rw [drop_adv, hd]
        rfl
      obtain ⟨fuel', out', last', st', hfl, e, hl', hr', hp'⟩ :=
        ih f (encode_utf8 last out ++ [c]) (-1) (p.adv 1) post st1 hd1
          (by simp only [List.length_cons] at hf; omega) (Or.inl rfl)
          (by rw [encode_utf8_neg]; exact utf8_run_snoc _ c st st1 hr hs1) hp1
      refine ⟨fuel', out', last', st', by simp only [List.length_cons]; omega, ?_, hl', hr', hp'⟩
      rw [parse_string_loop_plain f out last p hlt (by rw [hcur]; exact h1)
        (by rw [hcur]; exact h2) (by rw [hcur]; exact in_range_of_not_ctrl c h3), hcur, e,
        adv_adv, List.length_cons, Nat.add_comm]
  | escape e rest he _ ih =>
    intro fuel out last p post st hd hf hl hr hp
    rw [List.cons_append, List.cons_append] at hd hp
    have hcur := cur_of_drop p 92 _ hd
    have hat := at1_of_drop p 92 e _ hd
    have hg := utf8_run_good _ [] st (fun r hr => absurd hr (List.not_mem_nil r)) hr
    have he80 : e < 0x80 := by
      unfold IsEscapeChar at he
      omega
    obtain ⟨hst, hp1⟩ := utf8_run_ascii [92, e] (rest ++ post) st (by simp)
      (by
        intro c hc
        simp only [List.mem_cons, List.mem_singleton, List.not_mem_nil, or_false] at hc
        omega) hg hp
    subst hst
    cases fuel with
    | zero => simp at hf
    | succ f =>
      have hd2 : (p.adv 2).str.drop (p.adv 2).i = rest ++ post := by
        rw [drop_adv, hd]
        rfl
      obtain ⟨x, hx, ex⟩ := parse_string_loop_escape f out last p e hcur hat he
      obtain ⟨fuel', out', last', st', hfl, e', hl', hr', hp'⟩ :=
        ih f (encode_utf8 last out ++ [x]) (-1) (p.adv 2) post [] hd2
          (by simp only [List.length_cons] at hf; omega) (Or.inl rfl)
          (by rw [encode_utf8_neg]; exact utf8_run_snoc _ x [] [] hr (utf8_step_one x hx)) hp1
      refine ⟨fuel', out', last', st', by simp only [List.length_cons]; omega, ?_, hl', hr', hp'⟩
      rw [ex, e', adv_adv, List.length_cons, List.length_cons]
      congr 2
      omega
  | unicode h rest hh hns _ ih =>
    intro fuel out last p post st hd hf hl hr hp
    rw [List.cons_append, List.cons_append, List.append_assoc] at hd hp
    have hg := utf8_run_good _ [] st (fun r hr => absurd hr (List.not_mem_nil r)) hr
    have hlen : (92 :: 117 :: (h ++ rest)).length = rest.length + 6 := by
      simp only [List.length_cons, List.length_append, hh.1]
      omega
    have ha : ∀ c ∈ 92 :: 117 :: h, c < 0x80 := by
      intro c hc
      rcases List.mem_cons.1 hc with rfl | hc
      · decide
      rcases List.mem_cons.1 hc with rfl | hc
      · decide
      exact hh.ascii c hc
    obtain ⟨hst, hp1⟩ := utf8_run_ascii (92 :: 117 :: h) (rest ++ post) st (by simp) ha hg
      (by simpa using hp)
    subst hst
    have hlt := hh.strtol16_lt
    obtain ⟨bs, hbs, hbv⟩ := encode_utf8_valid (strtol16 h) (encode_utf8 last out) (by omega) hns
    cases fuel with
    | zero => simp at hf
    | succ f =>
      obtain ⟨e1, d1⟩ := parse_string_loop_unicode f out last p h (rest ++ post) hh hd
        (by
          intro x
          have := (in_range_nat (strtol16 h) 0xDC00 0xDFFF).1 x.2
          omega)
      rw [hlen] at hf ⊢
      obtain ⟨fuel', out', last', st', hfl, e', hl', hr', hp'⟩ :=
        ih f (encode_utf8 last out) (strtol16 h : Int) (p.adv 6) post [] d1 (by omega)
          (Or.inr ⟨strtol16 h, rfl, hlt, hns⟩)
          (by rw [hbs, utf8_run_append, hr]; exact hbv) hp1
      refine ⟨fuel', out', last', st', by omega, ?_, hl', hr', hp'⟩
      rw [e1, e', adv_adv, Nat.add_comm]
  | pair h l rest hh hl2 hhi hlo _ ih =>
    intro fuel out last p post st hd hf hl hr hp
    have hd' : p.str.drop p.i = 92 :: 117 :: (h ++ 92 :: 117 :: (l ++ (rest ++ post))) := by
      rw [hd]
      simp
    have hg := utf8_run_good _ [] st (fun r hr => absurd hr (List.not_mem_nil r)) hr
    have hlen : (92 :: 117 :: (h ++ 92 :: 117 :: (l ++ rest))).length = rest.length + 12 := by
      simp only [List.length_cons, List.length_append, hh.1, hl2.1]
      omega
    have ha : ∀ c ∈ 92 :: 117 :: (h ++ 92 :: 117 :: l), c < 0x80 := by
      intro c hc
      simp only [List.mem_cons, List.mem_append] at hc
      rcases hc with rfl | rfl | hc | rfl | rfl | hc
      · decide
      · decide
      · exact hh.ascii c hc
      · decide
      · decide
      · exact hl2.ascii c hc
    obtain ⟨hst, hp1⟩ := utf8_run_ascii (92 :: 117 :: (h ++ 92 :: 117 :: l)) (rest ++ post) st
      (by simp) ha hg (by simpa using hp)
    subst hst
    have hb := surrogate_bound (strtol16 h) (strtol16 l) hhi hlo
    obtain ⟨bs, hbs, hbv⟩ := encode_utf8_valid
      (0x10000 + ((strtol16 h - 0xD800) <<< 10 ||| (strtol16 l - 0xDC00)))
      (encode_utf8 last out) (by omega) (by omega)
    rw [hlen] at hf ⊢
    obtain ⟨f, rfl⟩ : ∃ f, fuel = f + 2 := ⟨fuel - 2, by omega⟩
    obtain ⟨e1, d1⟩ := parse_string_loop_pair f out last p h l (rest ++ post) hh hl2 hhi hlo hd'
      (in_range_pending last hl)
    obtain ⟨fuel', out', last', st', hfl, e', hl', hr', hp'⟩ :=
      ih f (encode_utf8
          ((0x10000 + ((strtol16 h - 0xD800) <<< 10 ||| (strtol16 l - 0xDC00)) : Nat) : Int)
          (encode_utf8 last out)) (-1) (p.adv 12) post [] d1 (by omega) (Or.inl rfl)
        (by rw [encode_utf8_neg, hbs, utf8_run_append, hr]; exact hbv) hp1
    refine ⟨fuel', out', last', st', by omega, ?_, hl', hr', hp'⟩
    rw [e1, e', adv_adv, Nat.add_comm]

/-- A string literal whose surrogates come in pairs and whose text is well-formed
UTF-8 is read by `parse_string` as a well-formed text. -/
theorem parse_string_valid (p : JsonParser) (body post : List Nat) (hb : PairedBody body)
    (h : p.str.drop p.i = body ++ 34 :: post) (hv : utf8_run (body ++ 34 :: post) [] = some []) :
    ∃ o, parse_string p = (o, p.adv (body.length + 1)) ∧ utf8_run o [] = some [] ∧
      utf8_run post [] = some [] := by
  have hl := length_of_drop p _ h
  obtain ⟨fuel', out', last', st', hfl, e, _, hr', hp'⟩ :=
    parse_string_loop_paired hb (p.str.length - p.i + 1) [] (-1) p (34 :: post) [] h
      (by rw [hl, List.length_append]; omega) (Or.inl rfl) rfl hv
  rw [hl, List.length_append, List.length_cons] at hfl e
  have hg := utf8_run_good _ [] st' (fun r hr => absurd hr (List.not_mem_nil r)) hr'
  obtain ⟨hst, hp1⟩ := utf8_run_ascii [34] post st' (by simp)
    (by
      intro c hc
      simp only [List.mem_singleton] at hc
      omega) hg hp'
  subst hst
  have hc := cur_of_suffix _ _ (drop_adv_append p body _ h)
  simp only [List.getD_cons_zero] at hc
  cases fuel' with
  | zero => omega
  | succ f =>
    refine ⟨encode_utf8 last' out', ?_, hr', hp1⟩
    simp only [parse_string, hl, List.length_append, List.length_cons]
    rw [e, parse_string_loop_quote f out' last' _ hc, adv_adv]

/-! ### Nesting depth -/

theorem bracketed_succ (n : Nat) (t : List Nat) :
    bracketed (n + 1) t = 91 :: (bracketed n t ++ [93]) := by
  simp only [bracketed, List.replicate_succ, List.cons_append, List.append_assoc]
  congr 3
  rw [← List.replicate_succ, List.replicate_succ']

theorem dumps_nested (L : Libc) (v : Json) : ∀ n : Nat,
    Json.dumps L (nested_value n v) = bracketed n (Json.dumps L v)
  | 0 => by simp [nested_value, bracketed]
  | n + 1 => by
    rw [nested_value, dumps_array_cons, dumps_nested L v n, bracketed_succ]
    rfl

theorem plain_nested (v : Json) : ∀ (n d : Nat), Json.Plain (d + n) v →
    Json.Plain d (nested_value n v)
  | 0, d, h => h
  | n + 1, d, h => by
    have hd := h.depth
    refine Json.Plain.array d _ (by omega) ?_
    intro x hx
    simp only [List.mem_singleton] at hx
    rw [hx]
    exact plain_nested v n (d + 1) (by rw [Nat.add_assoc, Nat.add_comm 1 n]; exact h)

theorem reparsed_nested (L : Libc) (v : Json) (hv : Json.reparsed L v = v) : ∀ n : Nat,
    Json.reparsed L (nested_value n v) = nested_value n v
  | 0 => hv
  | n + 1 => by
    simp only [nested_value, Json.reparsed, Json.reparsed_array, reparsed_nested L v hv n]

theorem double_free_nested (v : Json) (hv : v.double_free = true) : ∀ n : Nat,
    (nested_value n v).double_free = true
  | 0 => hv
  | n + 1 => by
    simp only [nested_value, Json.double_free, Json.double_free_array,
      double_free_nested v hv n, Bool.and_self]

/-- A value under more than `max_depth` arrays is refused when the parser
reaches it: `k` opening brackets read from depth `d` lead to the call of
`parse_json` at depth `d + k`. -/
theorem parse_json_too_deep (L : Libc) : ∀ (k d fuel : Nat) (p : JsonParser) (c : Nat)
    (rest : List Nat), d + k = max_depth + 1 → k + 1 ≤ fuel → p.failed = false →
    p.strategy = JsonParse.STANDARD → p.str.drop p.i = List.replicate k 91 ++ c :: rest →
    (c = 91 ∨ c = 48) →
    ∃ q, parse_json L fuel d p = some (Json.null, q) ∧ q.failed = true ∧
      q.err = (if p.failed then p.err else bytes "exceeded maximum nesting depth")
  | 0, d, fuel, p, c, rest, hd, hf, hpf, _, _, _ => by
    obtain ⟨f, rfl⟩ : ∃ f, fuel = f + 1 := ⟨fuel - 1, by omega⟩
    rw [parse_json_succ, if_pos (by omega)]
    exact ⟨_, rfl, rfl, by simp [JsonParser.fail, hpf]⟩
  | k + 1, d, fuel, p, c, rest, hd, hf, hpf, hs, hdrop, hc => by
    obtain ⟨f, rfl⟩ : ∃ f, fuel = f + 1 := ⟨fuel - 1, by omega⟩
    obtain ⟨g, rfl⟩ : ∃ g, f = g + 1 := ⟨f - 1, by omega⟩
    rw [List.replicate_succ, List.cons_append] at hdrop
    have htok := get_next_token_head p 91 _ hpf hs hdrop (by decide)
    have hd1 : (p.adv 1).str.drop (p.adv 1).i = List.replicate k 91 ++ c :: rest := by
      rw [drop_adv, hdrop]
      rfl
    obtain ⟨c', rest', hcr, hc'⟩ : ∃ c' rest', List.replicate k 91 ++ c :: rest = c' :: rest' ∧
        (c' = 91 ∨ c' = 48) := by
      cases k with
      | zero => exact ⟨c, rest, rfl, hc⟩
      | succ j => exact ⟨91, _, rfl, Or.inl rfl⟩
    rw [hcr] at hd1
    have htok2 := get_next_token_head (p.adv 1) c' rest' hpf hs hd1 (by omega)
    obtain ⟨q, hq, hqf, hqe⟩ := parse_json_too_deep L k (d + 1) (g + 1) (p.adv 1) c rest
      (by omega) (by omega) hpf hs (by rw [hcr]; exact hd1) hc
    refine ⟨q, ?_, hqf, by simpa [hpf] using hqe⟩
    rw [parse_json_succ, if_neg (by unfold max_depth at hd ⊢; omega), htok]
    simp only [adv_failed, hpf, Bool.false_eq_true, if_false]
    rw [if_neg (by decide), if_neg (by decide), if_neg (by decide), if_neg (by decide),
      if_neg (by decide), if_neg (by decide), if_pos trivial, htok2]
    simp only
    rw [if_neg (by omega), parse_array_loop_succ, adv_adv, back_adv, hq]
    simp only [hqf, if_true]

/-- The text of `n` opening brackets, a text that begins with `0`, and `n` closing
brackets is refused for its depth when `n` exceeds `max_depth`. -/
theorem Json.parse_too_deep (L : Libc) (n : Nat) (hn : max_depth < n) :
    Json.parse L (bracketed n (bytes "0")) [] JsonParse.STANDARD =
      some (Json.null, bytes "exceeded maximum nesting depth") := by
  obtain ⟨m, rfl⟩ : ∃ m, n = (max_depth + 1) + m := ⟨n - (max_depth + 1), by omega⟩
  have ht : bracketed (max_depth + 1 + m) (bytes "0") =
      List.replicate (max_depth + 1) 91 ++
        (List.replicate m 91 ++ (bytes "0" ++ List.replicate (max_depth + 1 + m) 93)) := by
    simp only [bracketed, List.replicate_add, List.append_assoc]
  obtain ⟨c, rest, hcr, hc⟩ : ∃ c rest,
      List.replicate m 91 ++ (bytes "0" ++ List.replicate (max_depth + 1 + m) 93) = c :: rest ∧
        (c = 91 ∨ c = 48) := by
    cases m with
    | zero => exact ⟨48, _, rfl, Or.inr rfl⟩
    | succ j => exact ⟨91, _, rfl, Or.inl rfl⟩
  obtain ⟨q, hq, hqf, hqe⟩ := parse_json_too_deep L (max_depth + 1) 0
    (parse_json_fuel (bracketed (max_depth + 1 + m) (bytes "0")))
    ⟨bracketed (max_depth + 1 + m) (bytes "0"), 0, [], false, JsonParse.STANDARD⟩ c rest
    (by omega)
    (by
      simp only [parse_json_fuel, bracketed, List.length_append, List.length_replicate]
      omega)
    rfl rfl (by rw [← hcr, ← ht]; rfl) hc
  have := Json.parse_failed_standard L _ _ q hq hqf
  rw [hqe] at this
  exact this

/-- The same text is accepted when `n` does not exceed `max_depth`. -/
theorem Json.parse_nested_zero (L : Libc) (n : Nat) (hn : n ≤ max_depth) :
    Json.parse L (bracketed n (bytes "0")) [] JsonParse.STANDARD =
      some (nested_value n (Json.int 0), []) := by
  have hp : Json.Plain 0 (nested_value n (Json.int 0)) :=
    plain_nested _ n 0 (Json.Plain.int _ 0 (by omega) (by unfold IsInt32; decide))
  have h := Json.parse_dump sample_libc strtodInt_sample _ hp []
  rw [dumps_nested, reparsed_nested sample_libc _ rfl] at h
  exact Json.parse_libc sample_libc L _ _ _ _ _ h (double_free_nested (Json.int 0) rfl n)

/-! ### Nesting in arrays and objects -/

theorem framed_append (a b : List (Option (List Nat))) (t : List Nat) :
    framed (a ++ b) t = framed a (framed b t) := by
  induction a with
  | nil => rfl
  | cons f a ih =>
    cases f with
    | none =>
      rw [List.cons_append, framed, framed, ih]
    | some k =>
      rw [List.cons_append, framed, framed, ih]

theorem framed_opens (fs : List (Option (List Nat))) (u : List Nat) (hu : Opens u) :
    Opens (framed fs u) := by
  cases fs with
  | nil => exact hu
  | cons f fs =>
    cases f with
    | none => exact ⟨91, _, rfl, Or.inl rfl⟩
    | some k => exact ⟨123, _, rfl, Or.inr (Or.inl rfl)⟩

theorem framed_length (fs : List (Option (List Nat))) (u : List Nat) :
    fs.length ≤ (framed fs u).length := by
  induction fs with
  | nil => exact Nat.zero_le _
  | cons f fs ih =>
    cases f with
    | none =>
      simp only [framed, List.length_cons, List.length_append, List.length_nil]
      omega
    | some k =>
      simp only [framed, List.length_cons, List.length_append, List.length_nil]
      omega

/-- The dump of a value inside frames is the dump of the value inside the text of
the frames. -/
theorem dumps_framed (L : Libc) (v : Json) : ∀ fs : List (Option (List Nat)),
    Json.dumps L (framed_value fs v) = framed fs (Json.dumps L v)
  | [] => rfl
  | none :: fs => by
    rw [framed_value, dumps_array_cons, dumps_framed L v fs]
    rfl
  | some k :: fs => by
    rw [framed_value, dumps_object_cons]
    simp only [member_text, obj_tail, framed, dump_string_eq, List.nil_append,
      List.cons_append, List.append_assoc, dumps_framed L v fs]

theorem plain_framed (v : Json) : ∀ (fs : List (Option (List Nat))) (d : Nat),
    Json.Plain (d + fs.length) v → Json.Plain d (framed_value fs v)
  | [], d, h => h
  | none :: fs, d, h => by
    have hd := h.depth
    simp only [List.length_cons] at h hd
    refine Json.Plain.array d _ (by omega) ?_
    intro x hx
    simp only [List.mem_singleton] at hx
    rw [hx]
    exact plain_framed v fs (d + 1) (by rw [Nat.add_assoc, Nat.add_comm 1]; exact h)
  | some k :: fs, d, h => by
    have hd := h.depth
    simp only [List.length_cons] at h hd
    refine Json.Plain.object d _ (by omega) ?_ (List.pairwise_singleton _ _)
    intro kv hkv
    simp only [List.mem_singleton] at hkv
    rw [hkv]
    exact plain_framed v fs (d + 1) (by rw [Nat.add_assoc, Nat.add_comm 1]; exact h)

theorem reparsed_framed (L : Libc) (v : Json) (hv : Json.reparsed L v = v) :
    ∀ fs : List (Option (List Nat)), Json.reparsed L (framed_value fs v) = framed_value fs v
  | [] => hv
  | none :: fs => by
    simp only [framed_value, Json.reparsed, Json.reparsed_array, reparsed_framed L v hv fs]
  | some k :: fs => by
    simp only [framed_value, Json.reparsed, Json.reparsed_object, reparsed_framed L v hv fs]

theorem double_free_framed (v : Json) (hv : v.double_free = true) :
    ∀ fs : List (Option (List Nat)), (framed_value fs v).double_free = true
  | [] => hv
  | none :: fs => by
    simp only [framed_value, Json.double_free, Json.double_free_array,
      double_free_framed v hv fs, Bool.and_self]
  | some k :: fs => by
    simp only [framed_value, Json.double_free, Json.double_free_object,
      double_free_framed v hv fs, Bool.and_self]

/-- A value under more than `max_depth` arrays and objects is refused when the
parser reaches it: the frames `fs` read from depth `d` lead to the call of
`parse_json` at depth `d + fs.length`, one more for each array and for each
object.  The state `r` is where the text of the frames begins, after the white
space that `p` skips. -/
theorem parse_json_too_deep_framed (L : Libc) : ∀ (fs : List (Option (List Nat)))
    (d fuel : Nat) (p r : JsonParser) (u rest : List Nat), d + fs.length = max_depth + 1 →
    fs.length + 1 ≤ fuel → r.failed = false → r.strategy = JsonParse.STANDARD → Opens u →
    r.str.drop r.i = framed fs u ++ rest →
    get_next_token p = ((framed fs u).getD 0 0, r.adv 1) →
    ∃ q, parse_json L fuel d p = some (Json.null, q) ∧ q.failed = true ∧
      q.err = (if p.failed then p.err else bytes "exceeded maximum nesting depth")
  | [], d, fuel, p, r, u, rest, hd, hf, _, _, _, _, _ => by
    obtain ⟨f, rfl⟩ : ∃ f, fuel = f + 1 := ⟨fuel - 1, by omega⟩
    simp only [List.length_nil, Nat.add_zero] at hd
    rw [parse_json_succ, if_pos (by omega)]
    refine ⟨_, rfl, rfl, ?_⟩
    cases hp : p.failed <;> simp [JsonParser.fail, hp]
  | none :: fs, d, fuel, p, r, u, rest, hd, hf, hrf, hs, hu, hdrop, htok => by
    obtain ⟨f, rfl⟩ : ∃ f, fuel = f + 1 := ⟨fuel - 1, by omega⟩
    obtain ⟨g, rfl⟩ : ∃ g, f = g + 1 := ⟨f - 1, by simp only [List.length_cons] at hf; omega⟩
    simp only [List.length_cons] at hd hf
    have hpf : p.failed = false := by
      have e := get_next_token_ext p
      rw [htok] at e
      exact e.not_failed hrf
    obtain ⟨c, rest', hcr, hc⟩ := framed_opens fs u hu
    have hd1 : (r.adv 1).str.drop (r.adv 1).i = framed fs u ++ (93 :: rest) := by
      rw [drop_adv, hdrop]
      simp only [framed, List.cons_append, List.append_assoc, List.drop_succ_cons,
        List.drop_zero, List.nil_append]
    have hd1' : (r.adv 1).str.drop (r.adv 1).i = c :: (rest' ++ 93 :: rest) := by
      rw [hd1, hcr]
      rfl
    have htok2 := get_next_token_head (r.adv 1) c _ hrf hs hd1' (by omega)
    have htok2' : get_next_token (r.adv 1) = ((framed fs u).getD 0 0, (r.adv 1).adv 1) := by
      rw [htok2, hcr]
      rfl
    obtain ⟨q, hq, hqf, hqe⟩ := parse_json_too_deep_framed L fs (d + 1) (g + 1) (r.adv 1)
      (r.adv 1) u (93 :: rest) (by omega) (by omega) hrf hs hu hd1 htok2'
    refine ⟨q, ?_, hqf, ?_⟩
    · simp only [framed, List.getD_cons_zero] at htok
      rw [parse_json_succ, if_neg (by unfold max_depth at hd ⊢; omega), htok]
      simp only [adv_failed, hrf, Bool.false_eq_true, if_false]
      rw [if_neg (by decide), if_neg (by decide), if_neg (by decide), if_neg (by decide),
        if_neg (by decide), if_neg (by decide), if_pos trivial, htok2]
      simp only
      rw [if_neg (by omega), parse_array_loop_succ, adv_adv, back_adv, hq]
      simp only [hqf, if_true]
    · rw [hqe]
      simp [hrf, hpf]
  | some k :: fs, d, fuel, p, r, u, rest, hd, hf, hrf, hs, hu, hdrop, htok => by
    obtain ⟨f, rfl⟩ : ∃ f, fuel = f + 1 := ⟨fuel - 1, by omega⟩
    obtain ⟨g, rfl⟩ : ∃ g, f = g + 1 := ⟨f - 1, by simp only [List.length_cons] at hf; omega⟩
    simp only [List.length_cons] at hd hf
    have hpf : p.failed = false := by
      have e := get_next_token_ext p
      rw [htok] at e
      exact e.not_failed hrf
    obtain ⟨c, rest', hcr, hc⟩ := framed_opens fs u hu
    have hdrop' : r.str.drop r.i = 123 :: 34 :: (dump_string_body k 0 ++
        34 :: 58 :: 32 :: (framed fs u ++ 125 :: rest)) := by
      rw [hdrop]
      simp only [framed, dump_string_eq, List.nil_append, List.cons_append, List.append_assoc]
    have hd1 : (r.adv 1).str.drop (r.adv 1).i = 34 :: (dump_string_body k 0 ++
        34 :: 58 :: 32 :: (framed fs u ++ 125 :: rest)) := by
      rw [drop_adv, hdrop']
      rfl
    have htok2 := get_next_token_head (r.adv 1) 34 _ hrf hs hd1 (by decide)
    have hd2 : ((r.adv 1).adv 1).str.drop ((r.adv 1).adv 1).i = dump_string_body k 0 ++
        34 :: (58 :: 32 :: (framed fs u ++ 125 :: rest)) := by
      rw [drop_adv, hd1]
      rfl
    have hstr := parse_string_dump k ((r.adv 1).adv 1) _ hd2
    have hd3 : (((r.adv 1).adv 1).adv ((dump_string_body k 0).length + 1)).str.drop
        (((r.adv 1).adv 1).adv ((dump_string_body k 0).length + 1)).i =
        58 :: 32 :: (framed fs u ++ 125 :: rest) := by
      rw [drop_adv, hd2, List.drop_append_eq_append_drop]
      simp
    have htok3 := get_next_token_head _ 58 _ (by simpa using hrf) (by simpa using hs) hd3
      (by decide)
    have hd4 : ((((r.adv 1).adv 1).adv ((dump_string_body k 0).length + 1)).adv 1).str.drop
        ((((r.adv 1).adv 1).adv ((dump_string_body k 0).length + 1)).adv 1).i =
        32 :: c :: (rest' ++ 125 :: rest) := by
      rw [drop_adv, hd3, hcr]
      rfl
    have htok4 := get_next_token_space _ c _ (by simpa using hrf) (by simpa using hs) hd4
      (by omega)
    have hd5 : (((((r.adv 1).adv 1).adv ((dump_string_body k 0).length + 1)).adv 1).adv 1).str.drop
        (((((r.adv 1).adv 1).adv ((dump_string_body k 0).length + 1)).adv 1).adv 1).i =
        framed fs u ++ (125 :: rest) := by
      rw [drop_adv, hd4, hcr]
      rfl
    have htok4' : get_next_token
        ((((r.adv 1).adv 1).adv ((dump_string_body k 0).length + 1)).adv 1) =
        ((framed fs u).getD 0 0,
          (((((r.adv 1).adv 1).adv ((dump_string_body k 0).length + 1)).adv 1).adv 1).adv 1) := by
      rw [htok4, hcr, adv_adv]
      rfl
    obtain ⟨q, hq, hqf, hqe⟩ := parse_json_too_deep_framed L fs (d + 1) (g + 1)
      ((((r.adv 1).adv 1).adv ((dump_string_body k 0).length + 1)).adv 1)
      (((((r.adv 1).adv 1).adv ((dump_string_body k 0).length + 1)).adv 1).adv 1)
      u (125 :: rest) (by omega) (by omega) (by simpa using hrf) (by simpa using hs) hu hd5
      htok4'
    refine ⟨q, ?_, hqf, ?_⟩
    · simp only [framed, List.getD_cons_zero] at htok
      rw [parse_json_succ, if_neg (by unfold max_depth at hd ⊢; omega), htok]
      simp only [adv_failed, hrf, Bool.false_eq_true, if_false]
      rw [if_neg (by decide), if_neg (by decide), if_neg (by decide), if_neg (by decide),
        if_neg (by decide), if_pos trivial, htok2]
      simp only
      rw [if_neg (by decide), parse_object_loop_succ, if_neg (by decide), hstr]
      simp only [adv_failed, hrf, Bool.false_eq_true, if_false]
      rw [htok3]
      simp only
      rw [if_neg (by decide), hq]
      simp only [hqf, if_true]
    · rw [hqe]
      simp [hrf, hpf]

/-- The text of more than `max_depth` frames around a text that begins with `0`
is refused for its depth. -/
theorem Json.parse_too_deep_framed (L : Libc) (fs : List (Option (List Nat))) (t : List Nat)
    (hn : max_depth < fs.length) :
    Json.parse L (framed fs (48 :: t)) [] JsonParse.STANDARD =
      some (Json.null, bytes "exceeded maximum nesting depth") := by
  have hsplit : fs = fs.take (max_depth + 1) ++ fs.drop (max_depth + 1) :=
    (List.take_append_drop _ _).symm
  have hlen : (fs.take (max_depth + 1)).length = max_depth + 1 := by
    rw [List.length_take]
    omega
  have hu : Opens (framed (fs.drop (max_depth + 1)) (48 :: t)) :=
    framed_opens _ _ ⟨48, t, rfl, Or.inr (Or.inr rfl)⟩
  have ht : framed fs (48 :: t) =
      framed (fs.take (max_depth + 1)) (framed (fs.drop (max_depth + 1)) (48 :: t)) := by
    rw [← framed_append, ← hsplit]
  obtain ⟨c, rest, hcr, hc⟩ := framed_opens fs (48 :: t) ⟨48, t, rfl, Or.inr (Or.inr rfl)⟩
  have hd0 : (JsonParser.mk (framed fs (48 :: t)) 0 [] false JsonParse.STANDARD).str.drop
      (JsonParser.mk (framed fs (48 :: t)) 0 [] false JsonParse.STANDARD).i = c :: rest := by
    simp [hcr]
  have htok := get_next_token_head _ c rest rfl rfl hd0 (by omega)
  have hfl := framed_length fs (48 :: t)
  obtain ⟨q, hq, hqf, hqe⟩ := parse_json_too_deep_framed L (fs.take (max_depth + 1)) 0
    (parse_json_fuel (framed fs (48 :: t)))
    ⟨framed fs (48 :: t), 0, [], false, JsonParse.STANDARD⟩
    ⟨framed fs (48 :: t), 0, [], false, JsonParse.STANDARD⟩
    (framed (fs.drop (max_depth + 1)) (48 :: t)) []
    (by rw [hlen]; omega)
    (by rw [hlen]; simp only [parse_json_fuel]; omega)
    rfl rfl hu (by rw [← ht]; simp)
    (by rw [← ht, htok, hcr]; rfl)
  have := Json.parse_failed_standard L _ _ q hq hqf
  rw [hqe] at this
  exact this

/-- The same text around `0` is accepted when there are at most `max_depth` frames. -/
theorem Json.parse_framed_zero (L : Libc) (fs : List (Option (List Nat)))
    (hn : fs.length ≤ max_depth) :
    Json.parse L (framed fs (bytes "0")) [] JsonParse.STANDARD =
      some (framed_value fs (Json.int 0), []) := by
  have hp : Json.Plain 0 (framed_value fs (Json.int 0)) :=
    plain_framed _ fs 0 (Json.Plain.int _ 0 (by omega) (by unfold IsInt32; decide))
  have h := Json.parse_dump sample_libc strtodInt_sample _ hp []
  rw [dumps_framed, reparsed_framed sample_libc _ rfl] at h
  exact Json.parse_libc sample_libc L _ _ _ _ _ h (double_free_framed (Json.int 0) rfl fs)

/-! ## `parse` against `parse_multi` -/

/-- What a successful `parse` went through: one document from offset 0, and the
garbage after it up to the end of the text. -/
theorem Json.parse_state_ok (L : Libc) (inp err : List Nat) (strategy : JsonParse)
    (v : Json) (p : JsonParser) (h : Json.parse_state L inp err strategy = some (v, p))
    (hf : p.failed = false) :
    ∃ r, parse_json L (parse_json_fuel inp) 0 ⟨inp, 0, err, false, strategy⟩ = some (v, r) ∧
      r.failed = false ∧ p = consume_garbage r ∧ (consume_garbage r).i = inp.length := by
  obtain ⟨⟨w, r⟩, hr⟩ := parse_json_fuel_some L 0 ⟨inp, 0, err, false, strategy⟩ (Nat.zero_le _)
  simp only at hr
  rw [Json.parse_state_eq L inp err strategy _ hr] at h
  simp only at h
  by_cases h1 : (consume_garbage r).failed = true
  · rw [if_pos h1] at h
    cases h
    rw [h1] at hf
    cases hf
  rw [if_neg h1] at h
  by_cases h2 : (consume_garbage r).i ≠ inp.length
  · rw [if_pos h2] at h
    cases h
    simp [JsonParser.fail] at hf
  rw [if_neg h2] at h
  cases h
  simp only [Bool.not_eq_true] at h1
  exact ⟨r, hr, (consume_garbage_ext r).not_failed h1, rfl, not_not.mp h2⟩

/-- One document followed by garbage up to the end of the text: what `parse` returns. -/
theorem Json.parse_state_of_doc (L : Libc) (inp err : List Nat) (strategy : JsonParse)
    (v : Json) (r : JsonParser)
    (hr : parse_json L (parse_json_fuel inp) 0 ⟨inp, 0, err, false, strategy⟩ = some (v, r))
    (hg : (consume_garbage r).failed = false) (hi : (consume_garbage r).i = inp.length) :
    Json.parse_state L inp err strategy = some (v, consume_garbage r) := by
  rw [Json.parse_state_eq L inp err strategy _ hr]
  simp only
  rw [if_neg (by simp [hg]), if_neg (by simp [hi])]

/-- One document followed by garbage that stops before the end: what `parse` returns. -/
theorem Json.parse_state_trailing (L : Libc) (inp err : List Nat) (strategy : JsonParse)
    (v : Json) (r : JsonParser)
    (hr : parse_json L (parse_json_fuel inp) 0 ⟨inp, 0, err, false, strategy⟩ = some (v, r))
    (hg : (consume_garbage r).failed = false) (hi : (consume_garbage r).i ≠ inp.length) :
    Json.parse_state L inp err strategy = some (Json.null, (consume_garbage r).fail
      (bytes "unexpected trailing " ++ esc ((consume_garbage r).at (consume_garbage r).i))) := by
  rw [Json.parse_state_eq L inp err strategy _ hr]
  simp only
  rw [if_neg (by simp [hg]), if_pos hi]

/-- A successful `parse` is a run of `parse_multi` with one document. -/
theorem Json.parse_multi_of_parse (L : Libc) (inp err : List Nat) (strategy : JsonParse)
    (v : Json) (p : JsonParser) (h : Json.parse_state L inp err strategy = some (v, p))
    (hf : p.failed = false) :
    Json.parse_multi_state L inp err strategy = some ([v], inp.length, p) := by
  obtain ⟨r, hr, hrf, hp, hi⟩ := Json.parse_state_ok L inp err strategy v p h hf
  have hg : (consume_garbage r).failed = false := by rw [← hp]; exact hf
  have a1 := parse_json_adv L _ _ _ _ hr hrf (Nat.zero_le _)
  simp only at a1
  have e1 := parse_json_ext L _ _ _ _ hr
  simp only at e1
  have e2 := consume_garbage_ext r
  have hlen : (consume_garbage r).str.length = inp.length := (e1.trans e2).length
  obtain ⟨n, hn⟩ : ∃ n, inp.length = n + 1 := ⟨inp.length - 1, by omega⟩
  simp only [Json.parse_multi_state]
  rw [hn, parse_multi_loop_succ]
  rw [if_pos (by simp; omega)]
  simp only [hr]
  rw [if_neg (by simp [hrf]), if_neg (by simp [hg]), parse_multi_loop_succ,
    if_neg (by simp [hi, hlen]), hi, hp, hn]
  rfl

/-- The documents `parse_multi` read when it did not fail. -/
theorem Json.parse_multi_docs (L : Libc) (inp err : List Nat) (strategy : JsonParse)
    (vs : List Json) (stop : Nat) (q : JsonParser)
    (h : Json.parse_multi_state L inp err strategy = some (vs, stop, q))
    (hf : q.failed = false) :
    stop = inp.length ∧ Docs L inp err strategy 0 vs inp.length := by
  obtain ⟨vs', stop', q', h1, _, h3⟩ := Json.parse_multi_state_spec L inp err strategy
  rw [h] at h1
  cases h1
  rcases h3 with ⟨_, h32, _, h34⟩ | ⟨h31, _⟩
  · exact ⟨h32, h34⟩
  · rw [hf] at h31
    cases h31

/-- A run of `parse_multi` with one document and no failure is a successful `parse`. -/
theorem Json.parse_of_parse_multi (L : Libc) (inp err : List Nat) (strategy : JsonParse)
    (v : Json) (stop : Nat) (q : JsonParser)
    (h : Json.parse_multi_state L inp err strategy = some ([v], stop, q))
    (hf : q.failed = false) :
    stop = inp.length ∧ Json.parse_state L inp err strategy = some (v, q) := by
  obtain ⟨hs, hd⟩ := Json.parse_multi_docs L inp err strategy _ _ _ h hf
  obtain ⟨_, r, hr, hrf, hg, hrest⟩ := hd.cons_inv
  have hi := hrest.nil_inv
  have hp := Json.parse_state_of_doc L inp err strategy v r hr hg hi
  have hm := Json.parse_multi_of_parse L inp err strategy v _ hp hg
  rw [h] at hm
  cases hm
  exact ⟨rfl, hp⟩

/-- When `parse_multi` read two documents or more without a failure, `parse` fails
on the text after the first one. -/
theorem Json.parse_of_two_docs (L : Libc) (inp err : List Nat) (strategy : JsonParse)
    (vs : List Json) (stop : Nat) (q : JsonParser)
    (h : Json.parse_multi_state L inp err strategy = some (vs, stop, q))
    (hf : q.failed = false) (h2 : 2 ≤ vs.length) :
    ∃ p c, Json.parse_state L inp err strategy = some (Json.null, p) ∧ p.failed = true ∧
      p.err = bytes "unexpected trailing " ++ esc c := by
  obtain ⟨_, hd⟩ := Json.parse_multi_docs L inp err strategy _ _ _ h hf
  match vs, h2, hd with
  | v :: w :: rest, _, hd =>
    obtain ⟨_, r, hr, hrf, hg, hrest⟩ := hd.cons_inv
    obtain ⟨h0, _⟩ := hrest.cons_inv
    refine ⟨_, (consume_garbage r).at (consume_garbage r).i,
      Json.parse_state_trailing L inp err strategy v r hr hg h0, rfl, ?_⟩
    simp [JsonParser.fail, hg]

/-- The two documents of "1 2", read one after the other. -/
theorem parse_multi_two_example (L : Libc) :
    Json.parse_multi L (bytes "1 2") [] JsonParse.STANDARD =
      some ([Json.int 1, Json.int 2], 3, []) := by
  have hb : bytes "1 2" = [49, 32, 50] := by decide
  have s1 : parse_json L 10 0 ⟨[49, 32, 50], 0, [], false, JsonParse.STANDARD⟩ =
      some (Json.int 1, ⟨[49, 32, 50], 1, [], false, JsonParse.STANDARD⟩) := rfl
  have g1 : consume_garbage ⟨[49, 32, 50], 1, [], false, JsonParse.STANDARD⟩ =
      ⟨[49, 32, 50], 2, [], false, JsonParse.STANDARD⟩ := rfl
  have s2 : parse_json L 10 0 ⟨[49, 32, 50], 2, [], false, JsonParse.STANDARD⟩ =
      some (Json.int 2, ⟨[49, 32, 50], 3, [], false, JsonParse.STANDARD⟩) := rfl
  have g2 : consume_garbage ⟨[49, 32, 50], 3, [], false, JsonParse.STANDARD⟩ =
      ⟨[49, 32, 50], 3, [], false, JsonParse.STANDARD⟩ := rfl
  have hf : parse_json_fuel [49, 32, 50] = 10 := rfl
  rw [hb]
  simp only [Json.parse_multi, Json.parse_multi_state, List.length_cons, List.length_nil]
  rw [parse_multi_loop_succ, if_pos (by decide)]
  simp only [hf, s1]
  rw [if_neg (by decide), g1, if_neg (by decide)]
  rw [parse_multi_loop_succ, if_pos (by decide)]
  simp only [hf, s2]
  rw [if_neg (by decide), g2, if_neg (by decide)]
  rw [parse_multi_loop_succ, if_neg (by decide)]
  rfl

/-! ## The cursor stays inside the text, also when the parser fails -/

theorem block_comment_loop_bound (fuel : Nat) (p : JsonParser) (h : p.i + 2 ≤ p.str.length) :
    p.i ≤ (block_comment_loop fuel p).2.i ∧
      (block_comment_loop fuel p).2.i ≤ p.str.length := by
  induction fuel generalizing p with
  | zero => simp [block_comment_loop]; omega
  | succ n ih =>
    simp only [block_comment_loop]
    by_cases hc : ¬ (p.cur = 42 ∧ p.at (p.i + 1) = 47)
    · rw [if_pos hc]
      by_cases hgt : (p.adv 1).i > (p.adv 1).str.length - 2
      · rw [if_pos hgt]
        simp
        omega
      · rw [if_neg hgt]
        simp only [adv_i, adv_str, gt_iff_lt, not_lt] at hgt
        have := ih (p.adv 1) (by simp only [adv_i, adv_str]; omega)
        simp only [adv_i, adv_str] at this
        omega
    · rw [if_neg hc]
      simp
      omega

theorem consume_comment_bound (p : JsonParser) (h : p.i ≤ p.str.length) :
    p.i ≤ (consume_comment p).2.i ∧ (consume_comment p).2.i ≤ p.str.length := by
  simp only [consume_comment]
  by_cases h47 : p.cur = 47
  · have hlt : p.i < p.str.length := lt_length_of_cur_ne_zero p (by omega)
    rw [if_pos h47]
    by_cases hend : (p.adv 1).i = (p.adv 1).str.length
    · rw [if_pos hend]
      simp
      omega
    rw [if_neg hend]
    by_cases h2 : (p.adv 1).cur = 47
    · rw [if_pos h2]
      have h2' : (p.adv 1).i < (p.adv 1).str.length :=
        lt_length_of_cur_ne_zero (p.adv 1) (by omega)
      have := line_comment_loop_i (((p.adv 1).adv 1).str.length - ((p.adv 1).adv 1).i)
        ((p.adv 1).adv 1) (by simp at h2' ⊢; omega)
      simp at this ⊢
      omega
    rw [if_neg h2]
    by_cases h3 : (p.adv 1).cur = 42
    · rw [if_pos h3]
      have h3' : (p.adv 1).i < (p.adv 1).str.length :=
        lt_length_of_cur_ne_zero (p.adv 1) (by omega)
      simp only [adv_i, adv_str] at h3'
      by_cases h4 : ((p.adv 1).adv 1).i > ((p.adv 1).adv 1).str.length - 2
      · rw [if_pos h4]
        simp
        omega
      · rw [if_neg h4]
        simp at h4
        have := block_comment_loop_bound (((p.adv 1).adv 1).str.length - ((p.adv 1).adv 1).i)
          ((p.adv 1).adv 1) (by simp; omega)
        simp at this ⊢
        omega
    · rw [if_neg h3]
      simp
      omega
  · rw [if_neg h47]
    exact ⟨le_refl _, h⟩

theorem consume_garbage_loop_bound (fuel : Nat) (p : JsonParser) (h : p.i ≤ p.str.length) :
    p.i ≤ (consume_garbage_loop fuel p).i ∧ (consume_garbage_loop fuel p).i ≤ p.str.length := by
  induction fuel generalizing p with
  | zero => exact ⟨le_refl _, h⟩
  | succ n ih =>
    simp only [consume_garbage_loop]
    have h1 := consume_comment_bound p h
    have hs := (consume_comment_ext p).str
    have h2 := consume_whitespace_i (consume_comment p).2 (by rw [hs]; exact h1.2)
    rw [hs] at h2
    by_cases hc : (consume_comment p).2.failed = true
    · rw [if_pos hc]
      exact h1
    rw [if_neg hc]
    by_cases hb : (consume_comment p).1 = true
    · rw [if_pos hb]
      have := ih (consume_whitespace (consume_comment p).2) (by simp [hs]; exact h2.2)
      simp [hs] at this
      omega
    · rw [if_neg hb]
      omega

/-- The method `consume_garbage` moves the cursor forward, inside the text. -/
theorem consume_garbage_bound (p : JsonParser) (h : p.i ≤ p.str.length) :
    p.i ≤ (consume_garbage p).i ∧ (consume_garbage p).i ≤ p.str.length := by
  have h1 := consume_whitespace_i p h
  simp only [consume_garbage]
  by_cases hc : (consume_whitespace p).strategy = JsonParse.COMMENTS
  · rw [if_pos hc]
    have := consume_garbage_loop_bound
      ((consume_whitespace p).str.length - (consume_whitespace p).i + 1) (consume_whitespace p)
      (by simp; exact h1.2)
    simp at this ⊢
    omega
  · rw [if_neg hc]
    exact h1

/-- The method `get_next_token` moves the cursor forward, inside the text. -/
theorem get_next_token_bound (p : JsonParser) (h : p.i ≤ p.str.length) :
    p.i ≤ (get_next_token p).2.i ∧ (get_next_token p).2.i ≤ p.str.length := by
  have h1 := consume_garbage_bound p h
  have hs := (consume_garbage_ext p).str
  simp only [get_next_token]
  by_cases hf : (consume_garbage p).failed = true
  · rw [if_pos hf]
    exact h1
  rw [if_neg hf]
  by_cases he : (consume_garbage p).i = (consume_garbage p).str.length
  · rw [if_pos he]
    exact h1
  · rw [if_neg he]
    rw [hs] at he
    simp only [adv_i]
    omega

/-- A token that was read left the cursor after its byte: the step `i--` that
follows has a byte to go back over. -/
theorem get_next_token_pos (p : JsonParser) (h : p.i ≤ p.str.length)
    (hf : (get_next_token p).2.failed = false) : 1 ≤ (get_next_token p).2.i := by
  have := get_next_token_i p h hf
  omega

theorem parse_number_exp_bound (L : Libc) (s : Nat) (p : JsonParser) (h : p.i ≤ p.str.length) :
    p.i ≤ (parse_number_exp L s p).2.i ∧ (parse_number_exp L s p).2.i ≤ p.str.length := by
  simp only [parse_number_exp]
  by_cases hc : p.cur = 101 ∨ p.cur = 69
  · rw [if_pos hc]
    have h1 : p.i < p.str.length := lt_length_of_cur_ne_zero p (by omega)
    have h2 : (p.adv 1).i ≤ (if (p.adv 1).cur = 43 ∨ (p.adv 1).cur = 45 then (p.adv 1).adv 1
          else p.adv 1).i ∧
        (if (p.adv 1).cur = 43 ∨ (p.adv 1).cur = 45 then (p.adv 1).adv 1 else p.adv 1).i
          ≤ p.str.length ∧
        (if (p.adv 1).cur = 43 ∨ (p.adv 1).cur = 45 then (p.adv 1).adv 1 else p.adv 1).str
          = p.str := by
      split
      · rename_i hs
        have := lt_length_of_cur_ne_zero (p.adv 1) (by omega)
        simp at this ⊢
        omega
      · simp
        omega
    generalize (if (p.adv 1).cur = 43 ∨ (p.adv 1).cur = 45 then (p.adv 1).adv 1 else p.adv 1) = q
      at h2 ⊢
    simp only [adv_i] at h2
    by_cases hd : (!in_range (toLong q.cur) 48 57) = true
    · rw [if_pos hd]
      simp only [fail_i]
      omega
    · rw [if_neg hd]
      have := digits_loop_i (q.str.length - q.i) q (by rw [h2.2.2]; exact h2.2.1)
      simp only [h2.2.2] at this ⊢
      omega
  · rw [if_neg hc]
    exact ⟨le_refl _, h⟩

theorem parse_number_tail_bound (L : Libc) (s : Nat) (p : JsonParser)
    (h : p.i ≤ p.str.length) :
    p.i ≤ (parse_number_tail L s p).2.i ∧ (parse_number_tail L s p).2.i ≤ p.str.length := by
  simp only [parse_number_tail]
  by_cases hc : p.cur ≠ 46 ∧ p.cur ≠ 101 ∧ p.cur ≠ 69 ∧ p.i - s ≤ 9
  · rw [if_pos hc]
    exact ⟨le_refl _, h⟩
  rw [if_neg hc]
  by_cases hdot : p.cur = 46
  · rw [if_pos hdot]
    have h1 : p.i < p.str.length := lt_length_of_cur_ne_zero p (by omega)
    by_cases hd : (!in_range (toLong (p.adv 1).cur) 48 57) = true
    · rw [if_pos hd]
      simp only [fail_i, fail_str, adv_i, adv_str]
      omega
    · rw [if_neg hd]
      have h2 := digits_loop_i ((p.adv 1).str.length - (p.adv 1).i) (p.adv 1)
        (by simp; omega)
      have h3 := parse_number_exp_bound L s
        (digits_loop ((p.adv 1).str.length - (p.adv 1).i) (p.adv 1))
        (by simp at h2 ⊢; exact h2.2)
      simp at h2 h3 ⊢
      omega
  · rw [if_neg hdot]
    exact parse_number_exp_bound L s p h

/-- The method `parse_number` moves the cursor forward, inside the text. -/
theorem parse_number_bound (L : Libc) (p : JsonParser) (h : p.i ≤ p.str.length) :
    p.i ≤ (parse_number L p).2.i ∧ (parse_number L p).2.i ≤ p.str.length := by
  have h0 : p.i ≤ (if p.cur = 45 then p.adv 1 else p).i ∧
      (if p.cur = 45 then p.adv 1 else p).i ≤ p.str.length ∧
      (if p.cur = 45 then p.adv 1 else p).str = p.str := by
    split
    · rename_i hs
      have := lt_length_of_cur_ne_zero p (by omega)
      simp
      omega
    · simp
      omega
  simp only [parse_number]
  generalize (if p.cur = 45 then p.adv 1 else p) = q at h0 ⊢
  by_cases hz : q.cur = 48
  · rw [if_pos hz]
    have h1 : q.i < q.str.length := lt_length_of_cur_ne_zero q (by omega)
    by_cases hd : in_range (toLong (q.adv 1).cur) 48 57 = true
    · rw [if_pos hd]
      simp only [fail_i, adv_i]
      rw [h0.2.2] at h1
      omega
    · rw [if_neg hd]
      have := parse_number_tail_bound L p.i (q.adv 1) (by simp; omega)
      simp only [adv_i, adv_str, h0.2.2] at this h1 ⊢
      omega
  · rw [if_neg hz]
    by_cases hd : in_range (toLong q.cur) 49 57 = true
    · rw [if_pos hd]
      have h1 : q.i < q.str.length :=
        lt_length_of_cur_ne_zero q (in_range_digit _ _ hd (by decide)).1
      have h2 := digits_loop_i ((q.adv 1).str.length - (q.adv 1).i) (q.adv 1) (by simp; omega)
      have := parse_number_tail_bound L p.i
        (digits_loop ((q.adv 1).str.length - (q.adv 1).i) (q.adv 1))
        (by simp at h2 ⊢; exact h2.2)
      simp only [adv_i, adv_str, digits_loop_str, h0.2.2] at this h1 h2 ⊢
      omega
    · rw [if_neg hd]
      simp only [fail_i]
      omega

/-- The method `expect`, called after a token, leaves the cursor inside the text. -/
theorem expect_bound (e : List Nat) (res : Json) (p : JsonParser) (hi : 1 ≤ p.i)
    (h : p.i ≤ p.str.length) :
    p.i - 1 ≤ (expect e res p).2.i ∧ (expect e res p).2.i ≤ p.str.length := by
  simp only [expect]
  by_cases hc : (p.back.str.drop p.back.i).take e.length = e
  · rw [if_pos hc]
    have hl := congrArg List.length hc
    simp only [back_str, back_i, List.length_take, List.length_drop] at hl
    simp
    omega
  · rw [if_neg hc]
    simp
    omega

/-! ### The loop of `parse_string`, round by round -/

/-- One round of the loop of `parse_string`, whatever the fuel left: it fails with
a message at a cursor inside the text, or it returns after the closing quote, or
it goes on after consuming `k` bytes of the text, one at least. -/
theorem parse_string_loop_round (out : List Nat) (last : Int) (p : JsonParser)
    (h : p.i ≤ p.str.length) :
    (∃ m k, m ≠ [] ∧ p.i + k ≤ p.str.length ∧
      ∀ fuel, parse_string_loop (fuel + 1) out last p = ([], (p.adv k).fail m)) ∨
    (p.i < p.str.length ∧ ∃ o, ∀ fuel, parse_string_loop (fuel + 1) out last p = (o, p.adv 1)) ∨
    (∃ out' last' k, 1 ≤ k ∧ p.i + k ≤ p.str.length ∧
      ∀ fuel, parse_string_loop (fuel + 1) out last p =
        parse_string_loop fuel out' last' (p.adv k)) := by
  have adv0 : p.adv 0 = p := rfl
  have adv2 : (p.adv 1).adv 1 = p.adv 2 := rfl
  have adv6 : ((p.adv 1).adv 1).adv 4 = p.adv 6 := rfl
  have e0 := fun fuel => parse_string_loop_succ fuel out last p
  rw [adv6, adv2] at e0
  by_cases h1 : p.i = p.str.length
  · simp only [if_pos h1] at e0
    exact Or.inl ⟨_, 0, by decide, by omega, e0⟩
  simp only [if_neg h1] at e0
  have hlt : p.i < p.str.length := by omega
  by_cases h2 : p.cur = 34
  · simp only [if_pos h2] at e0
    exact Or.inr (Or.inl ⟨hlt, _, e0⟩)
  simp only [if_neg h2] at e0
  by_cases h3 : in_range (toLong p.cur) 0 0x1f = true
  · simp only [if_pos h3] at e0
    exact Or.inl ⟨_, 1, bytes_ne_nil_append _ _ (bytes_ne_nil_append _ _ (by decide)),
      by omega, e0⟩
  simp only [if_neg h3] at e0
  by_cases h4 : p.cur ≠ 92
  · simp only [if_pos h4] at e0
    exact Or.inr (Or.inr ⟨_, _, 1, le_refl _, by omega, e0⟩)
  simp only [if_neg h4] at e0
  by_cases h5 : (p.adv 1).i = (p.adv 1).str.length
  · simp only [if_pos h5] at e0
    exact Or.inl ⟨_, 1, by decide, by omega, e0⟩
  simp only [if_neg h5] at e0
  simp only [adv_i, adv_str] at h5
  by_cases h6 : (p.adv 1).cur = 117
  · simp only [if_pos h6] at e0
    by_cases h7 : (((p.adv 2).str.drop (p.adv 2).i).take 4).length < 4
    · simp only [if_pos h7] at e0
      exact Or.inl ⟨_, 2, bytes_ne_nil_append _ _ (by decide), by omega, e0⟩
    simp only [if_neg h7] at e0
    by_cases h8 : (!(((p.adv 2).str.drop (p.adv 2).i).take 4).all is_hex) = true
    · simp only [if_pos h8] at e0
      exact Or.inl ⟨_, 2, bytes_ne_nil_append _ _ (by decide), by omega, e0⟩
    simp only [if_neg h8] at e0
    simp only [adv_i, adv_str, List.length_take, List.length_drop, not_lt] at h7
    by_cases h9 : in_range last 0xD800 0xDBFF ∧
        in_range (strtol16 (((p.adv 2).str.drop (p.adv 2).i).take 4) : Int) 0xDC00 0xDFFF
    · simp only [if_pos h9] at e0
      exact Or.inr (Or.inr ⟨_, _, 6, by omega, by omega, e0⟩)
    · simp only [if_neg h9] at e0
      exact Or.inr (Or.inr ⟨_, _, 6, by omega, by omega, e0⟩)
  simp only [if_neg h6] at e0
  by_cases h7 : (p.adv 1).cur = 98
  · simp only [if_pos h7] at e0
    exact Or.inr (Or.inr ⟨_, _, 2, by omega, by omega, e0⟩)
  simp only [if_neg h7] at e0
  by_cases h8 : (p.adv 1).cur = 102
  · simp only [if_pos h8] at e0
    exact Or.inr (Or.inr ⟨_, _, 2, by omega, by omega, e0⟩)
  simp only [if_neg h8] at e0
  by_cases h9 : (p.adv 1).cur = 110
  · simp only [if_pos h9] at e0
    exact Or.inr (Or.inr ⟨_, _, 2, by omega, by omega, e0⟩)
  simp only [if_neg h9] at e0
  by_cases h10 : (p.adv 1).cur = 114
  · simp only [if_pos h10] at e0
    exact Or.inr (Or.inr ⟨_, _, 2, by omega, by omega, e0⟩)
  simp only [if_neg h10] at e0
  by_cases h11 : (p.adv 1).cur = 116
  · simp only [if_pos h11] at e0
    exact Or.inr (Or.inr ⟨_, _, 2, by omega, by omega, e0⟩)
  simp only [if_neg h11] at e0
  by_cases h12 : (p.adv 1).cur = 34 ∨ (p.adv 1).cur = 92 ∨ (p.adv 1).cur = 47
  · simp only [if_pos h12] at e0
    exact Or.inr (Or.inr ⟨_, _, 2, by omega, by omega, e0⟩)
  simp only [if_neg h12] at e0
  exact Or.inl ⟨_, 2, bytes_ne_nil_append _ _ (by decide), by omega, e0⟩

/-- The loop of `parse_string` moves the cursor forward, inside the text. -/
theorem parse_string_loop_bound (fuel : Nat) (out : List Nat) (last : Int) (p : JsonParser)
    (h : p.i ≤ p.str.length) :
    p.i ≤ (parse_string_loop fuel out last p).2.i ∧
      (parse_string_loop fuel out last p).2.i ≤ p.str.length := by
  induction fuel generalizing out last p with
  | zero => exact ⟨le_refl _, h⟩
  | succ n ih =>
    rcases parse_string_loop_round out last p h with ⟨m, k, _, hk, e⟩ | ⟨hlt, o, e⟩ |
      ⟨o, l, k, hk, hle, e⟩
    · rw [e]
      simp only [fail_i, adv_i]
      omega
    · rw [e]
      simp only [adv_i]
      omega
    · rw [e]
      have := ih o l (p.adv k) (by simp only [adv_i, adv_str]; omega)
      simp only [adv_i, adv_str] at this
      omega

/-- The method `parse_string` moves the cursor forward, inside the text. -/
theorem parse_string_bound (p : JsonParser) (h : p.i ≤ p.str.length) :
    p.i ≤ (parse_string p).2.i ∧ (parse_string p).2.i ≤ p.str.length :=
  parse_string_loop_bound _ _ _ p h

/-- The loop of `parse_string` never runs out of the fuel `parse_string` gives it:
with any fuel above the number of bytes left it returns the same. -/
theorem parse_string_loop_fuel (fuel fuel' : Nat) (out : List Nat) (last : Int)
    (p : JsonParser) (h : p.i ≤ p.str.length) (hf : p.str.length - p.i + 1 ≤ fuel)
    (hf' : p.str.length - p.i + 1 ≤ fuel') :
    parse_string_loop fuel out last p = parse_string_loop fuel' out last p := by
  induction fuel generalizing fuel' out last p with
  | zero => omega
  | succ n ih =>
    obtain ⟨n', rfl⟩ : ∃ n', fuel' = n' + 1 := ⟨fuel' - 1, by omega⟩
    rcases parse_string_loop_round out last p h with ⟨m, k, _, hk, e⟩ | ⟨hlt, o, e⟩ |
      ⟨o, l, k, hk, hle, e⟩
    · rw [e, e]
    · rw [e, e]
    · rw [e, e]
      exact ih n' o l (p.adv k) (by simp only [adv_i, adv_str]; omega)
        (by simp only [adv_i, adv_str]; omega) (by simp only [adv_i, adv_str]; omega)

/-! ### The cursor of `parse_json` -/

theorem parse_array_loop_bound (value : JsonParser → Option (Json × JsonParser))
    (hv : ValueExt value) (hb : ValueBound value) (fuel : Nat) (data : List Json)
    (p : JsonParser) (r : Json × JsonParser)
    (h : parse_array_loop value fuel data p = some r)
    (h1 : 1 ≤ p.i) (hle : p.i ≤ p.str.length) : r.2.i ≤ p.str.length := by
  induction fuel generalizing data p with
  | zero => simp [parse_array_loop] at h
  | succ n ih =>
    rw [parse_array_loop_succ] at h
    cases hval : value p.back with
    | none => simp [hval] at h
    | some v =>
      simp only [hval] at h
      have l1 : v.2.str.length = p.str.length := (hv _ _ hval).length
      have b1 := hb _ _ hval (by simp only [back_i, back_str]; omega)
      simp only [back_str] at b1
      by_cases hf1 : v.2.failed = true
      · rw [if_pos hf1] at h
        cases h
        exact b1
      rw [if_neg hf1] at h
      have l2 := (get_next_token_ext v.2).length
      have b2 := get_next_token_bound v.2 (by omega)
      by_cases h2 : (get_next_token v.2).1 = 93
      · rw [if_pos h2] at h
        cases h
        simp only
        omega
      rw [if_neg h2] at h
      by_cases h3 : (get_next_token v.2).1 ≠ 44
      · rw [if_pos h3] at h
        cases h
        simp only [fail_i]
        omega
      rw [if_neg h3] at h
      have f2 : (get_next_token v.2).2.failed = false :=
        get_next_token_not_failed_of_ne v.2 (by omega)
      have a2 := get_next_token_pos v.2 (by omega) f2
      have l3 := (get_next_token_ext (get_next_token v.2).2).length
      have b3 := get_next_token_bound (get_next_token v.2).2 (by omega)
      have := ih _ _ h (by omega) (by omega)
      omega

theorem parse_object_loop_bound (value : JsonParser → Option (Json × JsonParser))
    (hv : ValueExt value) (hb : ValueBound value) (fuel : Nat)
    (data : List (List Nat × Json)) (ch : Nat) (p : JsonParser) (r : Json × JsonParser)
    (h : parse_object_loop value fuel data ch p = some r)
    (hle : p.i ≤ p.str.length) : r.2.i ≤ p.str.length := by
  induction fuel generalizing data ch p with
  | zero => simp [parse_object_loop] at h
  | succ n ih =>
    rw [parse_object_loop_succ] at h
    by_cases h0 : ch ≠ 34
    · rw [if_pos h0] at h
      cases h
      exact hle
    rw [if_neg h0] at h
    have l0 := (parse_string_ext p).length
    have b0 := parse_string_bound p hle
    by_cases hf0 : (parse_string p).2.failed = true
    · rw [if_pos hf0] at h
      cases h
      exact b0.2
    rw [if_neg hf0] at h
    have l1 := (get_next_token_ext (parse_string p).2).length
    have b1 := get_next_token_bound (parse_string p).2 (by omega)
    by_cases h58 : (get_next_token (parse_string p).2).1 ≠ 58
    · rw [if_pos h58] at h
      cases h
      simp only [fail_i]
      omega
    rw [if_neg h58] at h
    cases hval : value (get_next_token (parse_string p).2).2 with
    | none => simp [hval] at h
    | some v =>
      simp only [hval] at h
      have l2 : v.2.str.length = _ := (hv _ _ hval).length
      have b2 := hb _ _ hval (by omega)
      by_cases hf1 : v.2.failed = true
      · rw [if_pos hf1] at h
        cases h
        simp only
        omega
      rw [if_neg hf1] at h
      have l3 := (get_next_token_ext v.2).length
      have b3 := get_next_token_bound v.2 (by omega)
      by_cases h2 : (get_next_token v.2).1 = 125
      · rw [if_pos h2] at h
        cases h
        simp only
        omega
      rw [if_neg h2] at h
      by_cases h3 : (get_next_token v.2).1 ≠ 44
      · rw [if_pos h3] at h
        cases h
        simp only [fail_i]
        omega
      rw [if_neg h3] at h
      have l4 := (get_next_token_ext (get_next_token v.2).2).length
      have b4 := get_next_token_bound (get_next_token v.2).2 (by omega)
      have := ih _ _ _ h (by omega)
      omega

/-- The method `parse_json` leaves the cursor inside the text, whether it fails
or not. -/
theorem parse_json_bound (L : Libc) (fuel depth : Nat) :
    ValueBound (parse_json L fuel depth) := by
  induction fuel generalizing depth with
  | zero =>
    intro p r h
    simp [parse_json] at h
  | succ n ih =>
    intro p r h hle
    rw [parse_json_succ] at h
    by_cases h0 : depth > max_depth
    · rw [if_pos h0] at h
      cases h
      exact hle
    rw [if_neg h0] at h
    have l0 := (get_next_token_ext p).length
    have b0 := get_next_token_bound p hle
    by_cases hf0 : (get_next_token p).2.failed = true
    · rw [if_pos hf0] at h
      cases h
      exact b0.2
    rw [if_neg hf0] at h
    simp only [Bool.not_eq_true] at hf0
    have a0 := get_next_token_pos p hle hf0
    have l1 := (get_next_token_ext (get_next_token p).2).length
    have b1 := get_next_token_bound (get_next_token p).2 (by omega)
    by_cases h2 : (get_next_token p).1 = 45 ∨
        ((get_next_token p).1 ≥ 48 ∧ (get_next_token p).1 ≤ 57)
    · rw [if_pos h2] at h
      cases h
      have := parse_number_bound L (get_next_token p).2.back
        (by simp only [back_i, back_str]; omega)
      simp only [back_i, back_str] at this
      omega
    rw [if_neg h2] at h
    by_cases h3 : (get_next_token p).1 = 110
    · rw [if_pos h3] at h
      cases h
      have := expect_bound (bytes "null") Json.null (get_next_token p).2 a0 (by omega)
      omega
    rw [if_neg h3] at h
    by_cases h4 : (get_next_token p).1 = 116
    · rw [if_pos h4] at h
      cases h
      have := expect_bound (bytes "true") (Json.bool true) (get_next_token p).2 a0 (by omega)
      omega
    rw [if_neg h4] at h
    by_cases h5 : (get_next_token p).1 = 102
    · rw [if_pos h5] at h
      cases h
      have := expect_bound (bytes "false") (Json.bool false) (get_next_token p).2 a0 (by omega)
      omega
    rw [if_neg h5] at h
    by_cases h6 : (get_next_token p).1 = 34
    · rw [if_pos h6] at h
      cases h
      have := parse_string_bound (get_next_token p).2 (by omega)
      simp only
      omega
    rw [if_neg h6] at h
    by_cases h7 : (get_next_token p).1 = 123
    · rw [if_pos h7] at h
      by_cases h8 : (get_next_token (get_next_token p).2).1 = 125
      · rw [if_pos h8] at h
        cases h
        simp only
        omega
      rw [if_neg h8] at h
      have := parse_object_loop_bound _ (parse_json_ext L n (depth + 1)) (ih _) _ _ _ _ _ h
        (by omega)
      omega
    rw [if_neg h7] at h
    by_cases h9 : (get_next_token p).1 = 91
    · rw [if_pos h9] at h
      by_cases h8 : (get_next_token (get_next_token p).2).1 = 93
      · rw [if_pos h8] at h
        cases h
        simp only
        omega
      rw [if_neg h8] at h
      have := parse_array_loop_bound _ (parse_json_ext L n (depth + 1)) (ih _) _ _ _ _ h
        (by omega) (by omega)
      omega
    rw [if_neg h9] at h
    cases h
    simp only [fail_i]
    omega

/-! ### The fuel of the loops is enough -/

/-- One round of the loop of `consume_whitespace`: it stops where it is, or it
goes on one byte further, inside the text. -/
theorem consume_whitespace_loop_round (fuel : Nat) (p : JsonParser) :
    consume_whitespace_loop (fuel + 1) p = p ∨
      (p.i < p.str.length ∧
        consume_whitespace_loop (fuel + 1) p = consume_whitespace_loop fuel (p.adv 1)) := by
  simp only [consume_whitespace_loop]
  by_cases hc : p.cur = 32 ∨ p.cur = 9 ∨ p.cur = 10 ∨ p.cur = 13
  · rw [if_pos hc]
    exact Or.inr ⟨lt_length_of_cur_ne_zero p (by omega), rfl⟩
  · rw [if_neg hc]
    exact Or.inl rfl

/-- The loop of `consume_whitespace` returns the same with any fuel above the
number of bytes left. -/
theorem consume_whitespace_loop_fuel (fuel fuel' : Nat) (p : JsonParser)
    (hf : p.str.length - p.i ≤ fuel) (hf' : p.str.length - p.i ≤ fuel') :
    consume_whitespace_loop fuel p = consume_whitespace_loop fuel' p := by
  induction fuel generalizing fuel' p with
  | zero =>
    cases fuel' with
    | zero => rfl
    | succ n' =>
      rcases consume_whitespace_loop_round n' p with e | ⟨hlt, _⟩
      · rw [e]
        rfl
      · omega
  | succ n ih =>
    cases fuel' with
    | zero =>
      rcases consume_whitespace_loop_round n p with e | ⟨hlt, _⟩
      · rw [e]
        rfl
      · omega
    | succ n' =>
      simp only [consume_whitespace_loop]
      by_cases hc : p.cur = 32 ∨ p.cur = 9 ∨ p.cur = 10 ∨ p.cur = 13
      · rw [if_pos hc, if_pos hc]
        exact ih n' (p.adv 1) (by simp only [adv_i, adv_str]; omega)
          (by simp only [adv_i, adv_str]; omega)
      · rw [if_neg hc, if_neg hc]

/-- One round of the loop of an inline comment. -/
theorem line_comment_loop_round (fuel : Nat) (p : JsonParser) :
    line_comment_loop (fuel + 1) p = p ∨
      (p.i < p.str.length ∧
        line_comment_loop (fuel + 1) p = line_comment_loop fuel (p.adv 1)) := by
  simp only [line_comment_loop]
  by_cases hc : p.i < p.str.length ∧ p.cur ≠ 10
  · rw [if_pos hc]
    exact Or.inr ⟨hc.1, rfl⟩
  · rw [if_neg hc]
    exact Or.inl rfl

theorem line_comment_loop_fuel (fuel fuel' : Nat) (p : JsonParser)
    (hf : p.str.length - p.i ≤ fuel) (hf' : p.str.length - p.i ≤ fuel') :
    line_comment_loop fuel p = line_comment_loop fuel' p := by
  induction fuel generalizing fuel' p with
  | zero =>
    cases fuel' with
    | zero => rfl
    | succ n' =>
      rcases line_comment_loop_round n' p with e | ⟨hlt, _⟩
      · rw [e]
        rfl
      · omega
  | succ n ih =>
    cases fuel' with
    | zero =>
      rcases line_comment_loop_round n p with e | ⟨hlt, _⟩
      · rw [e]
        rfl
      · omega
    | succ n' =>
      simp only [line_comment_loop]
      by_cases hc : p.i < p.str.length ∧ p.cur ≠ 10
      · rw [if_pos hc, if_pos hc]
        exact ih n' (p.adv 1) (by simp only [adv_i, adv_str]; omega)
          (by simp only [adv_i, adv_str]; omega)
      · rw [if_neg hc, if_neg hc]

/-- One round of a loop over digits of `parse_number`. -/
theorem digits_loop_round (fuel : Nat) (p : JsonParser) :
    digits_loop (fuel + 1) p = p ∨
      (p.i < p.str.length ∧ digits_loop (fuel + 1) p = digits_loop fuel (p.adv 1)) := by
  simp only [digits_loop]
  by_cases hc : in_range (toLong p.cur) 48 57 = true
  · rw [if_pos hc]
    exact Or.inr ⟨lt_length_of_cur_ne_zero p (in_range_digit _ _ hc (by decide)).1, rfl⟩
  · rw [if_neg hc]
    exact Or.inl rfl

theorem digits_loop_fuel (fuel fuel' : Nat) (p : JsonParser)
    (hf : p.str.length - p.i ≤ fuel) (hf' : p.str.length - p.i ≤ fuel') :
    digits_loop fuel p = digits_loop fuel' p := by
  induction fuel generalizing fuel' p with
  | zero =>
    cases fuel' with
    | zero => rfl
    | succ n' =>
      rcases digits_loop_round n' p with e | ⟨hlt, _⟩
      · rw [e]
        rfl
      · omega
  | succ n ih =>
    cases fuel' with
    | zero =>
      rcases digits_loop_round n p with e | ⟨hlt, _⟩
      · rw [e]
        rfl
      · omega
    | succ n' =>
      simp only [digits_loop]
      by_cases hc : in_range (toLong p.cur) 48 57 = true
      · rw [if_pos hc, if_pos hc]
        exact ih n' (p.adv 1) (by simp only [adv_i, adv_str]; omega)
          (by simp only [adv_i, adv_str]; omega)
      · rw [if_neg hc, if_neg hc]

/-- One round of the loop of a multi-line comment, from a cursor with two bytes
ahead: it ends after the closing tokens, or it fails one byte further, or it goes on one
byte further with two bytes ahead. -/
theorem block_comment_loop_round (fuel : Nat) (p : JsonParser) (h : p.i + 2 ≤ p.str.length) :
    block_comment_loop (fuel + 1) p = (true, p.adv 2) ∨
      block_comment_loop (fuel + 1) p = (false, (p.adv 1).fail
        (bytes "unexpected end of input inside multi-line comment")) ∨
      (p.i + 3 ≤ p.str.length ∧
        block_comment_loop (fuel + 1) p = block_comment_loop fuel (p.adv 1)) := by
  simp only [block_comment_loop]
  by_cases hc : ¬ (p.cur = 42 ∧ p.at (p.i + 1) = 47)
  · rw [if_pos hc]
    by_cases hgt : (p.adv 1).i > (p.adv 1).str.length - 2
    · rw [if_pos hgt]
      exact Or.inr (Or.inl rfl)
    · rw [if_neg hgt]
      simp only [adv_i, adv_str, gt_iff_lt, not_lt] at hgt
      exact Or.inr (Or.inr ⟨by omega, rfl⟩)
  · rw [if_neg hc]
    exact Or.inl rfl

theorem block_comment_loop_fuel (fuel fuel' : Nat) (p : JsonParser)
    (h : p.i + 2 ≤ p.str.length)
    (hf : p.str.length - p.i ≤ fuel + 1) (hf' : p.str.length - p.i ≤ fuel' + 1) :
    block_comment_loop fuel p = block_comment_loop fuel' p := by
  induction fuel generalizing fuel' p with
  | zero => omega
  | succ n ih =>
    obtain ⟨n', rfl⟩ : ∃ n', fuel' = n' + 1 := ⟨fuel' - 1, by omega⟩
    simp only [block_comment_loop]
    by_cases hc : ¬ (p.cur = 42 ∧ p.at (p.i + 1) = 47)
    · rw [if_pos hc, if_pos hc]
      by_cases hgt : (p.adv 1).i > (p.adv 1).str.length - 2
      · rw [if_pos hgt, if_pos hgt]
      · rw [if_neg hgt, if_neg hgt]
        simp only [adv_i, adv_str, gt_iff_lt, not_lt] at hgt
        exact ih n' (p.adv 1) (by simp only [adv_i, adv_str]; omega)
          (by simp only [adv_i, adv_str]; omega) (by simp only [adv_i, adv_str]; omega)
    · rw [if_neg hc, if_neg hc]

/-- One round of the do-while loop of `consume_garbage`: it returns a failed state,
or it returns where no comment begins, or it goes on after a comment, two bytes
further at least. -/
theorem consume_garbage_loop_round (fuel : Nat) (p : JsonParser) (h : p.i ≤ p.str.length) :
    ((consume_comment p).2.failed = true ∧
        consume_garbage_loop (fuel + 1) p = (consume_comment p).2) ∨
      ((consume_comment p).1 = false ∧
        consume_garbage_loop (fuel + 1) p = consume_whitespace (consume_comment p).2) ∨
      (p.i + 2 ≤ (consume_whitespace (consume_comment p).2).i ∧
        (consume_whitespace (consume_comment p).2).i ≤ p.str.length ∧
        consume_garbage_loop (fuel + 1) p =
          consume_garbage_loop fuel (consume_whitespace (consume_comment p).2)) := by
  simp only [consume_garbage_loop]
  by_cases hc : (consume_comment p).2.failed = true
  · rw [if_pos hc]
    exact Or.inl ⟨hc, rfl⟩
  rw [if_neg hc]
  by_cases hb : (consume_comment p).1 = true
  · rw [if_pos hb]
    have h1 := consume_comment_i p h (by simpa using hc)
    have hs := (consume_comment_ext p).str
    have h2 := consume_whitespace_i (consume_comment p).2 (by rw [hs]; exact h1.2.1)
    rw [hs] at h2
    have := h1.2.2 hb
    exact Or.inr (Or.inr ⟨by omega, h2.2, rfl⟩)
  · rw [if_neg hb]
    exact Or.inr (Or.inl ⟨by simpa using hb, rfl⟩)

/-- The do-while loop of `consume_garbage` returns the same with any fuel above
the number of bytes left. -/
theorem consume_garbage_loop_fuel (fuel fuel' : Nat) (p : JsonParser)
    (h : p.i ≤ p.str.length)
    (hf : p.str.length - p.i + 1 ≤ fuel) (hf' : p.str.length - p.i + 1 ≤ fuel') :
    consume_garbage_loop fuel p = consume_garbage_loop fuel' p := by
  induction fuel generalizing fuel' p with
  | zero => omega
  | succ n ih =>
    obtain ⟨n', rfl⟩ : ∃ n', fuel' = n' + 1 := ⟨fuel' - 1, by omega⟩
    rcases consume_garbage_loop_round n p h with ⟨hc, _⟩ | ⟨hb, _⟩ | ⟨h1, h2, _⟩
    · simp only [consume_garbage_loop]
      rw [if_pos hc, if_pos hc]
    · simp only [consume_garbage_loop]
      rw [hb]
      simp
    · simp only [consume_garbage_loop]
      by_cases hc : (consume_comment p).2.failed = true
      · rw [if_pos hc, if_pos hc]
      rw [if_neg hc, if_neg hc]
      by_cases hb : (consume_comment p).1 = true
      · rw [if_pos hb, if_pos hb]
        have hs : (consume_whitespace (consume_comment p).2).str = p.str := by
          rw [consume_whitespace_str, (consume_comment_ext p).str]
        exact ih n' _ (by rw [hs]; exact h2) (by rw [hs]; omega) (by rw [hs]; omega)
      · rw [if_neg hb, if_neg hb]

/-! ### More fuel for `parse_json` -/

theorem parse_array_loop_mono (value value' : JsonParser → Option (Json × JsonParser))
    (hv : ∀ p r, value p = some r → value' p = some r) (fuel fuel' : Nat) (data : List Json)
    (p : JsonParser) (r : Json × JsonParser) (hff : fuel ≤ fuel')
    (h : parse_array_loop value fuel data p = some r) :
    parse_array_loop value' fuel' data p = some r := by
  induction fuel generalizing fuel' data p with
  | zero => simp [parse_array_loop] at h
  | succ n ih =>
    obtain ⟨n', rfl⟩ : ∃ n', fuel' = n' + 1 := ⟨fuel' - 1, by omega⟩
    rw [parse_array_loop_succ] at h ⊢
    cases hval : value p.back with
    | none => simp [hval] at h
    | some v =>
      simp only [hval] at h
      simp only [hv _ _ hval]
      by_cases hf1 : v.2.failed = true
      · rw [if_pos hf1] at h ⊢
        exact h
      rw [if_neg hf1] at h ⊢
      by_cases h2 : (get_next_token v.2).1 = 93
      · rw [if_pos h2] at h ⊢
        exact h
      rw [if_neg h2] at h ⊢
      by_cases h3 : (get_next_token v.2).1 ≠ 44
      · rw [if_pos h3] at h ⊢
        exact h
      rw [if_neg h3] at h ⊢
      exact ih n' _ _ (by omega) h

theorem parse_object_loop_mono (value value' : JsonParser → Option (Json × JsonParser))
    (hv : ∀ p r, value p = some r → value' p = some r) (fuel fuel' : Nat)
    (data : List (List Nat × Json)) (ch : Nat) (p : JsonParser) (r : Json × JsonParser)
    (hff : fuel ≤ fuel') (h : parse_object_loop value fuel data ch p = some r) :
    parse_object_loop value' fuel' data ch p = some r := by
  induction fuel generalizing fuel' data ch p with
  | zero => simp [parse_object_loop] at h
  | succ n ih =>
    obtain ⟨n', rfl⟩ : ∃ n', fuel' = n' + 1 := ⟨fuel' - 1, by omega⟩
    rw [parse_object_loop_succ] at h ⊢
    by_cases h0 : ch ≠ 34
    · rw [if_pos h0] at h ⊢
      exact h
    rw [if_neg h0] at h ⊢
    by_cases hf0 : (parse_string p).2.failed = true
    · rw [if_pos hf0] at h ⊢
      exact h
    rw [if_neg hf0] at h ⊢
    by_cases h58 : (get_next_token (parse_string p).2).1 ≠ 58
    · rw [if_pos h58] at h ⊢
      exact h
    rw [if_neg h58] at h ⊢
    cases hval : value (get_next_token (parse_string p).2).2 with
    | none => simp [hval] at h
    | some v =>
      simp only [hval] at h
      simp only [hv _ _ hval]
      by_cases hf1 : v.2.failed = true
      · rw [if_pos hf1] at h ⊢
        exact h
      rw [if_neg hf1] at h ⊢
      by_cases h2 : (get_next_token v.2).1 = 125
      · rw [if_pos h2] at h ⊢
        exact h
      rw [if_neg h2] at h ⊢
      by_cases h3 : (get_next_token v.2).1 ≠ 44
      · rw [if_pos h3] at h ⊢
        exact h
      rw [if_neg h3] at h ⊢
      exact ih n' _ _ _ (by omega) h

/-- What `parse_json` returns with some fuel it returns with any more. -/
theorem parse_json_mono (L : Libc) (fuel fuel' depth : Nat) (p : JsonParser)
    (r : Json × JsonParser) (hff : fuel ≤ fuel') (h : parse_json L fuel depth p = some r) :
    parse_json L fuel' depth p = some r := by
  induction fuel generalizing fuel' depth p r with
  | zero => simp [parse_json] at h
  | succ n ih =>
    obtain ⟨n', rfl⟩ : ∃ n', fuel' = n' + 1 := ⟨fuel' - 1, by omega⟩
    rw [parse_json_succ] at h ⊢
    by_cases h0 : depth > max_depth
    · rw [if_pos h0] at h ⊢
      exact h
    rw [if_neg h0] at h ⊢
    by_cases hf0 : (get_next_token p).2.failed = true
    · rw [if_pos hf0] at h ⊢
      exact h
    rw [if_neg hf0] at h ⊢
    by_cases h2 : (get_next_token p).1 = 45 ∨
        ((get_next_token p).1 ≥ 48 ∧ (get_next_token p).1 ≤ 57)
    · rw [if_pos h2] at h ⊢
      exact h
    rw [if_neg h2] at h ⊢
    by_cases h3 : (get_next_token p).1 = 110
    · rw [if_pos h3] at h ⊢
      exact h
    rw [if_neg h3] at h ⊢
    by_cases h4 : (get_next_token p).1 = 116
    · rw [if_pos h4] at h ⊢
      exact h
    rw [if_neg h4] at h ⊢
    by_cases h5 : (get_next_token p).1 = 102
    · rw [if_pos h5] at h ⊢
      exact h
    rw [if_neg h5] at h ⊢
    by_cases h6 : (get_next_token p).1 = 34
    · rw [if_pos h6] at h ⊢
      exact h
    rw [if_neg h6] at h ⊢
    by_cases h7 : (get_next_token p).1 = 123
    · rw [if_pos h7] at h ⊢
      by_cases h8 : (get_next_token (get_next_token p).2).1 = 125
      · rw [if_pos h8] at h ⊢
        exact h
      rw [if_neg h8] at h ⊢
      exact parse_object_loop_mono _ _ (fun q w hq => ih n' (depth + 1) q w (by omega) hq)
        n n' _ _ _ _ (by omega) h
    rw [if_neg h7] at h ⊢
    by_cases h9 : (get_next_token p).1 = 91
    · rw [if_pos h9] at h ⊢
      by_cases h8 : (get_next_token (get_next_token p).2).1 = 93
      · rw [if_pos h8] at h ⊢
        exact h
      rw [if_neg h8] at h ⊢
      exact parse_array_loop_mono _ _ (fun q w hq => ih n' (depth + 1) q w (by omega) hq)
        n n' _ _ _ (by omega) h
    rw [if_neg h9] at h ⊢
    exact h

/-- The fuel `parse` and `parse_multi` give `parse_json` is enough: any more
gives the same result. -/
theorem parse_json_fuel_enough (L : Libc) (fuel depth : Nat) (p : JsonParser)
    (h : p.i ≤ p.str.length) (hf : parse_json_fuel p.str ≤ fuel) :
    parse_json L fuel depth p = parse_json L (parse_json_fuel p.str) depth p := by
  obtain ⟨r, hr⟩ := parse_json_fuel_some L depth p h
  rw [hr]
  exact parse_json_mono L _ _ depth p r hf hr

/-- One round of the loop of `parse_multi`: the loop returns, with the cursor
inside the text, or it goes on from a cursor further in the text. -/
theorem parse_multi_loop_round (L : Libc) (fuel : Nat) (vec : List Json) (stop : Nat)
    (p : JsonParser) (h : p.i ≤ p.str.length) :
    (∃ vs q, parse_multi_loop L (fuel + 1) vec stop p = some (vs, stop, q) ∧
        q.i ≤ p.str.length ∧ (q.failed = true ∨ p.i = p.str.length)) ∨
      (∃ v q, p.i < q.i ∧ q.i ≤ p.str.length ∧ q.str = p.str ∧ q.failed = false ∧
        parse_multi_loop L (fuel + 1) vec stop p = parse_multi_loop L fuel (vec ++ [v]) q.i q) := by
  rw [parse_multi_loop_succ]
  by_cases hc : p.i ≠ p.str.length ∧ (!p.failed) = true
  · rw [if_pos hc]
    obtain ⟨⟨v, r⟩, hr⟩ := parse_json_fuel_some L 0 p h
    simp only [hr]
    have e1 := parse_json_ext L _ _ _ _ hr
    simp only at e1
    have b1 := parse_json_bound L _ _ _ _ hr h
    simp only at b1
    have b2 := consume_garbage_bound r (by rw [e1.str]; exact b1)
    rw [e1.str] at b2
    by_cases hf : r.failed = true
    · rw [if_pos hf]
      exact Or.inl ⟨_, _, rfl, b1, Or.inl hf⟩
    rw [if_neg hf]
    by_cases hg : (consume_garbage r).failed = true
    · rw [if_pos hg]
      exact Or.inl ⟨_, _, rfl, b2.2, Or.inl hg⟩
    rw [if_neg hg]
    simp only [Bool.not_eq_true] at hf hg
    have a1 := parse_json_adv L _ _ _ _ hr hf h
    simp only at a1
    exact Or.inr ⟨v, consume_garbage r, by omega, b2.2,
      by rw [(consume_garbage_ext r).str, e1.str], hg, rfl⟩
  · rw [if_neg hc]
    refine Or.inl ⟨vec, p, rfl, h, ?_⟩
    by_cases he : p.i = p.str.length
    · exact Or.inr he
    · left
      simpa [he] using hc

/-- The loop of `parse_multi` returns with the cursor and the stop offset inside
the text. -/
theorem parse_multi_loop_bound (L : Libc) (fuel : Nat) (vec : List Json) (stop : Nat)
    (p : JsonParser) (h : p.i ≤ p.str.length) (hs : stop ≤ p.str.length)
    (r : List Json × Nat × JsonParser) (hr : parse_multi_loop L fuel vec stop p = some r) :
    r.2.1 ≤ p.str.length ∧ r.2.2.i ≤ p.str.length := by
  induction fuel generalizing vec stop p with
  | zero => simp [parse_multi_loop] at hr
  | succ n ih =>
    rcases parse_multi_loop_round L n vec stop p h with ⟨vs, q, e, hq, _⟩ |
      ⟨v, q, _, hq, hstr, _, e⟩
    · rw [e] at hr
      cases hr
      exact ⟨hs, hq⟩
    · rw [e] at hr
      have := ih _ _ q (by rw [hstr]; exact hq) (by rw [hstr]; exact hq) hr
      rw [hstr] at this
      exact this

/-- The cursor `parse` ends on is inside the text. -/
theorem Json.parse_state_bound (L : Libc) (inp err : List Nat) (strategy : JsonParse)
    (v : Json) (p : JsonParser) (h : Json.parse_state L inp err strategy = some (v, p)) :
    p.i ≤ inp.length := by
  obtain ⟨r, hr⟩ := parse_json_fuel_some L 0 ⟨inp, 0, err, false, strategy⟩ (Nat.zero_le _)
  simp only at hr
  have e1 := parse_json_ext L _ _ _ _ hr
  have b1 := parse_json_bound L _ _ _ _ hr (Nat.zero_le _)
  simp only at e1 b1
  have b2 := consume_garbage_bound r.2 (by rw [e1.str]; exact b1)
  rw [e1.str] at b2
  simp only at b2
  rw [Json.parse_state_eq L inp err strategy r hr] at h
  by_cases h1 : (consume_garbage r.2).failed = true
  · rw [if_pos h1] at h
    cases h
    exact b2.2
  rw [if_neg h1] at h
  by_cases h2 : (consume_garbage r.2).i ≠ inp.length
  · rw [if_pos h2] at h
    cases h
    exact b2.2
  · rw [if_neg h2] at h
    cases h
    exact b2.2

/-! ## The order `operator<` on values without doubles -/

mutual
/-- The auxiliary comparison `Json.gt` is `operator<` with its operands swapped. -/
theorem Json.gt_lt : ∀ (a b : Json),
    Json.gt a b = Json.lt b a ∧ Json.gt b a = Json.lt a b
  | .null, b => by cases b <;> exact ⟨rfl, rfl⟩
  | .bool x, b => by cases b <;> exact ⟨rfl, rfl⟩
  | .int n, b => by cases b <;> exact ⟨rfl, rfl⟩
  | .double d, b => by cases b <;> exact ⟨rfl, rfl⟩
  | .string s, b => by cases b <;> exact ⟨rfl, rfl⟩
  | .array xs, b => by
    cases b with
    | array ys =>
      simp only [Json.gt, Json.lt]
      exact Json.gt_lt_array xs ys
    | _ => exact ⟨rfl, rfl⟩
  | .object m, b => by
    cases b with
    | object m' =>
      simp only [Json.gt, Json.lt]
      exact Json.gt_lt_object m m'
    | _ => exact ⟨rfl, rfl⟩
theorem Json.gt_lt_array : ∀ (xs ys : List Json),
    Json.gt_array xs ys = Json.lt_array ys xs ∧ Json.gt_array ys xs = Json.lt_array xs ys
  | [], [] => ⟨rfl, rfl⟩
  | [], _ :: _ => ⟨rfl, rfl⟩
  | _ :: _, [] => ⟨rfl, rfl⟩
  | x :: xs, y :: ys => by
    have h := Json.gt_lt x y
    have ih := Json.gt_lt_array xs ys
    simp only [Json.gt_array, Json.lt_array, h.1, h.2, ih.1, ih.2, and_self]
theorem Json.gt_lt_object : ∀ (m m' : List (List Nat × Json)),
    Json.gt_object m m' = Json.lt_object m' m ∧ Json.gt_object m' m = Json.lt_object m m'
  | [], [] => ⟨rfl, rfl⟩
  | [], _ :: _ => ⟨rfl, rfl⟩
  | _ :: _, [] => ⟨rfl, rfl⟩
  | (k, v) :: m, (k', v') :: m' => by
    have h := Json.gt_lt v v'
    have ih := Json.gt_lt_object m m'
    simp only [Json.gt_object, Json.lt_object, h.1, h.2, ih.1, ih.2, and_self]
end

mutual
/-- On values without doubles `operator==` is the equality of the values. -/
theorem Json.eq_iff_same : ∀ (a b : Json), a.double_free = true → b.double_free = true →
    (Json.eq a b = true ↔ a = b)
  | .null, b, _, _ => by cases b <;> simp [Json.eq]
  | .bool x, b, _, _ => by cases b <;> simp [Json.eq]
  | .int n, b, _, hb => by
    cases b with
    | int n' => simp [Json.eq, Double.eq_ofInt_iff]
    | double d => simp [Json.double_free] at hb
    | _ => simp [Json.eq]
  | .double d, _, ha, _ => by simp [Json.double_free] at ha
  | .string s, b, _, _ => by cases b <;> simp [Json.eq]
  | .array xs, b, ha, hb => by
    cases b with
    | array ys =>
      simp only [Json.double_free] at ha hb
      simp only [Json.eq, Json.array.injEq]
      exact Json.eq_array_iff_same xs ys ha hb
    | _ => simp [Json.eq]
  | .object m, b, ha, hb => by
    cases b with
    | object m' =>
      simp only [Json.double_free] at ha hb
      simp only [Json.eq, Json.object.injEq]
      exact Json.eq_object_iff_same m m' ha hb
    | _ => simp [Json.eq]
theorem Json.eq_array_iff_same : ∀ (xs ys : List Json), Json.double_free_array xs = true →
    Json.double_free_array ys = true → (Json.eq_array xs ys = true ↔ xs = ys)
  | [], [], _, _ => by simp [Json.eq_array]
  | [], _ :: _, _, _ => by simp [Json.eq_array]
  | _ :: _, [], _, _ => by simp [Json.eq_array]
  | x :: xs, y :: ys, ha, hb => by
    simp only [Json.double_free_array, Bool.and_eq_true] at ha hb
    simp only [Json.eq_array, Bool.and_eq_true, List.cons.injEq]
    rw [Json.eq_iff_same x y ha.1 hb.1, Json.eq_array_iff_same xs ys ha.2 hb.2]
theorem Json.eq_object_iff_same : ∀ (m m' : List (List Nat × Json)),
    Json.double_free_object m = true → Json.double_free_object m' = true →
    (Json.eq_object m m' = true ↔ m = m')
  | [], [], _, _ => by simp [Json.eq_object]
  | [], _ :: _, _, _ => by simp [Json.eq_object]
  | _ :: _, [], _, _ => by simp [Json.eq_object]
  | (k, v) :: m, (k', v') :: m', ha, hb => by
    simp only [Json.double_free_object, Bool.and_eq_true] at ha hb
    simp only [Json.eq_object, Bool.and_eq_true, decide_eq_true_eq, List.cons.injEq,
      Prod.mk.injEq]
    rw [Json.eq_iff_same v v' ha.1 hb.1, Json.eq_object_iff_same m m' ha.2 hb.2]
end

/-! ### Exactly one of `a < b`, `a = b`, `b < a` -/

theorem string_lt_tri (a b : List Nat) : ExactlyOne (string_lt a b) (a = b) (string_lt b a) := by
  by_cases h1 : string_lt a b = true
  · refine Or.inl ⟨h1, ?_, string_lt_asymm a b h1⟩
    intro e
    rw [e, string_lt_irrefl] at h1
    cases h1
  · simp only [Bool.not_eq_true] at h1
    by_cases h2 : string_lt b a = true
    · refine Or.inr (Or.inr ⟨h1, ?_, h2⟩)
      intro e
      rw [e, string_lt_irrefl] at h2
      cases h2
    · simp only [Bool.not_eq_true] at h2
      exact Or.inr (Or.inl ⟨h1, string_lt_connex a b h1 h2, h2⟩)

theorem int_lt_tri (m n : Int) :
    ExactlyOne (Double.lt (Double.ofInt m) (Double.ofInt n)) (Json.int m = Json.int n)
      (Double.lt (Double.ofInt n) (Double.ofInt m)) := by
  simp only [Double.lt, Double.ofInt, Int.cast_lt, Json.int.injEq, ExactlyOne,
    decide_eq_true_eq, decide_eq_false_iff_not]
  omega

mutual
theorem Json.lt_tri : ∀ (a b : Json), a.double_free = true → b.double_free = true →
    ExactlyOne (Json.lt a b) (a = b) (Json.gt a b)
  | .null, b, _, hb => by
    cases b with
    | null => exact Or.inr (Or.inl ⟨rfl, rfl, rfl⟩)
    | double d => simp [Json.double_free] at hb
    | _ => exact Or.inl ⟨rfl, by simp, rfl⟩
  | .bool x, b, _, hb => by
    cases b with
    | null => exact Or.inr (Or.inr ⟨rfl, by simp, rfl⟩)
    | int n => exact Or.inr (Or.inr ⟨rfl, by simp, rfl⟩)
    | double d => simp [Json.double_free] at hb
    | bool y =>
      cases x <;> cases y <;>
        first | exact Or.inr (Or.inl ⟨rfl, rfl, rfl⟩) | exact Or.inl ⟨rfl, by simp, rfl⟩ |
          exact Or.inr (Or.inr ⟨rfl, by simp, rfl⟩)
    | _ => exact Or.inl ⟨rfl, by simp, rfl⟩
  | .int n, b, _, hb => by
    cases b with
    | null => exact Or.inr (Or.inr ⟨rfl, by simp, rfl⟩)
    | int n' =>
      simp only [Json.lt, Json.gt]
      exact int_lt_tri n n'
    | double d => simp [Json.double_free] at hb
    | _ => exact Or.inl ⟨rfl, by simp, rfl⟩
  | .double d, _, ha, _ => by simp [Json.double_free] at ha
  | .string s, b, _, hb => by
    cases b with
    | string s' =>
      simp only [Json.lt, Json.gt, Json.string.injEq]
      exact string_lt_tri s s'
    | double d => simp [Json.double_free] at hb
    | array ys => exact Or.inl ⟨rfl, by simp, rfl⟩
    | object m' => exact Or.inl ⟨rfl, by simp, rfl⟩
    | _ => exact Or.inr (Or.inr ⟨rfl, by simp, rfl⟩)
  | .array xs, b, ha, hb => by
    cases b with
    | array ys =>
      simp only [Json.double_free] at ha hb
      simp only [Json.lt, Json.gt, Json.array.injEq]
      exact Json.lt_array_tri xs ys ha hb
    | double d => simp [Json.double_free] at hb
    | object m' => exact Or.inl ⟨rfl, by simp, rfl⟩
    | _ => exact Or.inr (Or.inr ⟨rfl, by simp, rfl⟩)
  | .object m, b, ha, hb => by
    cases b with
    | object m' =>
      simp only [Json.double_free] at ha hb
      simp only [Json.lt, Json.gt, Json.object.injEq]
      exact Json.lt_object_tri m m' ha hb
    | double d => simp [Json.double_free] at hb
    | _ => exact Or.inr (Or.inr ⟨rfl, by simp, rfl⟩)
theorem Json.lt_array_tri : ∀ (xs ys : List Json), Json.double_free_array xs = true →
    Json.double_free_array ys = true →
    ExactlyOne (Json.lt_array xs ys) (xs = ys) (Json.gt_array xs ys)
  | [], [], _, _ => Or.inr (Or.inl ⟨rfl, rfl, rfl⟩)
  | [], _ :: _, _, _ => Or.inl ⟨rfl, by simp, rfl⟩
  | _ :: _, [], _, _ => Or.inr (Or.inr ⟨rfl, by simp, rfl⟩)
  | x :: xs, y :: ys, ha, hb => by
    simp only [Json.double_free_array, Bool.and_eq_true] at ha hb
    have h := Json.lt_tri x y ha.1 hb.1
    have ih := Json.lt_array_tri xs ys ha.2 hb.2
    simp only [Json.lt_array, Json.gt_array, List.cons.injEq]
    rcases h with ⟨h1, h2, h3⟩ | ⟨h1, h2, h3⟩ | ⟨h1, h2, h3⟩
    · exact Or.inl ⟨by simp [h1], fun e => h2 e.1, by simp [h1, h3]⟩
    · rcases ih with ⟨i1, i2, i3⟩ | ⟨i1, i2, i3⟩ | ⟨i1, i2, i3⟩
      · exact Or.inl ⟨by simp [h1, h3, i1], fun e => i2 e.2, by simp [h1, h3, i3]⟩
      · exact Or.inr (Or.inl ⟨by simp [h1, h3, i1], ⟨h2, i2⟩, by simp [h1, h3, i3]⟩)
      · exact Or.inr (Or.inr ⟨by simp [h1, h3, i1], fun e => i2 e.2, by simp [h1, h3, i3]⟩)
    · exact Or.inr (Or.inr ⟨by simp [h1, h3], fun e => h2 e.1, by simp [h3]⟩)
theorem Json.lt_object_tri : ∀ (m m' : List (List Nat × Json)),
    Json.double_free_object m = true → Json.double_free_object m' = true →
    ExactlyOne (Json.lt_object m m') (m = m') (Json.gt_object m m')
  | [], [], _, _ => Or.inr (Or.inl ⟨rfl, rfl, rfl⟩)
  | [], _ :: _, _, _ => Or.inl ⟨rfl, by simp, rfl⟩
  | _ :: _, [], _, _ => Or.inr (Or.inr ⟨rfl, by simp, rfl⟩)
  | (k, v) :: m, (k', v') :: m', ha, hb => by
    simp only [Json.double_free_object, Bool.and_eq_true] at ha hb
    have hk := string_lt_tri k k'
    have h := Json.lt_tri v v' ha.1 hb.1
    have ih := Json.lt_object_tri m m' ha.2 hb.2
    simp only [Json.lt_object, Json.gt_object, List.cons.injEq, Prod.mk.injEq]
    rcases hk with ⟨k1, k2, k3⟩ | ⟨k1, k2, k3⟩ | ⟨k1, k2, k3⟩
    · exact Or.inl ⟨by simp [k1], fun e => k2 e.1.1, by simp [k1, k3]⟩
    · rcases h with ⟨h1, h2, h3⟩ | ⟨h1, h2, h3⟩ | ⟨h1, h2, h3⟩
      · exact Or.inl ⟨by simp [k1, k3, h1], fun e => h2 e.1.2, by simp [k1, k3, h1, h3]⟩
      · rcases ih with ⟨i1, i2, i3⟩ | ⟨i1, i2, i3⟩ | ⟨i1, i2, i3⟩
        · exact Or.inl ⟨by simp [k1, k3, h1, h3, i1], fun e => i2 e.2,
            by simp [k1, k3, h1, h3, i3]⟩
        · exact Or.inr (Or.inl ⟨by simp [k1, k3, h1, h3, i1], ⟨⟨k2, h2⟩, i2⟩,
            by simp [k1, k3, h1, h3, i3]⟩)
        · exact Or.inr (Or.inr ⟨by simp [k1, k3, h1, h3, i1], fun e => i2 e.2,
            by simp [k1, k3, h1, h3, i3]⟩)
      · exact Or.inr (Or.inr ⟨by simp [k1, k3, h1, h3], fun e => h2 e.1.2,
          by simp [k1, k3, h3]⟩)
    · exact Or.inr (Or.inr ⟨by simp [k1, k3], fun e => k2 e.1.1, by simp [k3]⟩)
end

/-! ### The order `operator<` is transitive -/

theorem Json.lt_rank (a b : Json) (h : Json.lt a b = true) : a.type.rank ≤ b.type.rank := by
  by_cases ht : a.type = b.type
  · rw [ht]
  · rw [Json.lt_of_type_ne a b ht] at h
    simp only [decide_eq_true_eq] at h
    omega

theorem Json.lt_trans_mixed (a b c : Json) (ht : ¬ (a.type = b.type ∧ b.type = c.type))
    (h1 : Json.lt a b = true) (h2 : Json.lt b c = true) : Json.lt a c = true := by
  have r1 := Json.lt_rank a b h1
  have r2 := Json.lt_rank b c h2
  have hlt : a.type.rank < c.type.rank := by
    by_cases hab : a.type = b.type
    · have hbc : b.type ≠ c.type := fun e => ht ⟨hab, e⟩
      rw [Json.lt_of_type_ne b c hbc] at h2
      simp only [decide_eq_true_eq] at h2
      omega
    · rw [Json.lt_of_type_ne a b hab] at h1
      simp only [decide_eq_true_eq] at h1
      omega
  have hne : a.type ≠ c.type := by
    intro e
    rw [e] at hlt
    omega
  rw [Json.lt_of_type_ne a c hne]
  simpa using hlt

theorem int_lt_trans (l m n : Int)
    (h1 : Double.lt (Double.ofInt l) (Double.ofInt m) = true)
    (h2 : Double.lt (Double.ofInt m) (Double.ofInt n) = true) :
    Double.lt (Double.ofInt l) (Double.ofInt n) = true := by
  simp only [Double.lt, Double.ofInt, Int.cast_lt, decide_eq_true_eq] at h1 h2 ⊢
  omega

mutual
theorem Json.lt_trans : ∀ (a b c : Json), a.double_free = true → b.double_free = true →
    c.double_free = true → Json.lt a b = true → Json.lt b c = true → Json.lt a c = true
  | .null, b, c, _, _, _, h1, h2 => by
    by_cases ht : (Json.null).type = b.type ∧ b.type = c.type
    · cases b <;> cases c <;> simp [Json.type] at ht
      simp [Json.lt] at h1
    · exact Json.lt_trans_mixed _ _ _ ht h1 h2
  | .bool x, b, c, _, _, _, h1, h2 => by
    by_cases ht : (Json.bool x).type = b.type ∧ b.type = c.type
    · cases b <;> cases c <;> simp [Json.type] at ht
      rename_i y z
      cases x <;> cases y <;> cases z <;> simp [Json.lt] at h1 h2 ⊢
    · exact Json.lt_trans_mixed _ _ _ ht h1 h2
  | .int n, b, c, _, hb, hc, h1, h2 => by
    by_cases ht : (Json.int n).type = b.type ∧ b.type = c.type
    · cases b <;> cases c <;> simp [Json.type] at ht <;>
        first | (simp [Json.double_free] at hb; done) | (simp [Json.double_free] at hc; done) |
          skip
      simp only [Json.lt] at h1 h2 ⊢
      exact int_lt_trans _ _ _ h1 h2
    · exact Json.lt_trans_mixed _ _ _ ht h1 h2
  | .double d, _, _, ha, _, _, _, _ => by simp [Json.double_free] at ha
  | .string s, b, c, _, _, _, h1, h2 => by
    by_cases ht : (Json.string s).type = b.type ∧ b.type = c.type
    · cases b <;> cases c <;> simp [Json.type] at ht
      simp only [Json.lt] at h1 h2 ⊢
      exact string_lt_trans _ _ _ h1 h2
    · exact Json.lt_trans_mixed _ _ _ ht h1 h2
  | .array xs, b, c, ha, hb, hc, h1, h2 => by
    by_cases ht : (Json.array xs).type = b.type ∧ b.type = c.type
    · cases b <;> cases c <;> simp [Json.type] at ht
      rename_i ys zs
      simp only [Json.lt] at h1 h2 ⊢
      simp only [Json.double_free] at ha hb hc
      exact Json.lt_array_trans xs ys zs ha hb hc h1 h2
    · exact Json.lt_trans_mixed _ _ _ ht h1 h2
  | .object m, b, c, ha, hb, hc, h1, h2 => by
    by_cases ht : (Json.object m).type = b.type ∧ b.type = c.type
    · cases b <;> cases c <;> simp [Json.type] at ht
      rename_i m' m''
      simp only [Json.lt] at h1 h2 ⊢
      simp only [Json.double_free] at ha hb hc
      exact Json.lt_object_trans m m' m'' ha hb hc h1 h2
    · exact Json.lt_trans_mixed _ _ _ ht h1 h2
theorem Json.lt_array_trans : ∀ (xs ys zs : List Json), Json.double_free_array xs = true →
    Json.double_free_array ys = true → Json.double_free_array zs = true →
    Json.lt_array xs ys = true → Json.lt_array ys zs = true → Json.lt_array xs zs = true
  | [], [], _, _, _, _, h1, _ => by simp [Json.lt_array] at h1
  | [], _ :: _, [], _, _, _, _, h2 => by simp [Json.lt_array] at h2
  | [], _ :: _, _ :: _, _, _, _, _, _ => rfl
  | _ :: _, [], _, _, _, _, h1, _ => by simp [Json.lt_array] at h1
  | _ :: _, _ :: _, [], _, _, _, _, h2 => by simp [Json.lt_array] at h2
  | x :: xs, y :: ys, z :: zs, ha, hb, hc, h1, h2 => by
    simp only [Json.double_free_array, Bool.and_eq_true] at ha hb hc
    simp only [Json.lt_array] at h1 h2 ⊢
    rcases Json.lt_tri x y ha.1 hb.1 with ⟨a1, a2, a3⟩ | ⟨a1, a2, a3⟩ | ⟨a1, a2, a3⟩
    · rcases Json.lt_tri y z hb.1 hc.1 with ⟨b1, b2, b3⟩ | ⟨b1, b2, b3⟩ | ⟨b1, b2, b3⟩
      · rw [Json.lt_trans x y z ha.1 hb.1 hc.1 a1 b1]
        rfl
      · subst b2
        rw [a1]
        rfl
      · rw [b1, b3] at h2
        simp at h2
    · subst a2
      rw [a1, a3] at h1
      simp only [Bool.false_eq_true, if_false] at h1
      rcases Json.lt_tri x z hb.1 hc.1 with ⟨b1, b2, b3⟩ | ⟨b1, b2, b3⟩ | ⟨b1, b2, b3⟩
      · rw [b1]
        rfl
      · rw [b1, b3] at h2 ⊢
        simp only [Bool.false_eq_true, if_false] at h2 ⊢
        exact Json.lt_array_trans xs ys zs ha.2 hb.2 hc.2 h1 h2
      · rw [b1, b3] at h2
        simp at h2
    · rw [a1, a3] at h1
      simp at h1
theorem Json.lt_object_trans : ∀ (m m' m'' : List (List Nat × Json)),
    Json.double_free_object m = true → Json.double_free_object m' = true →
    Json.double_free_object m'' = true →
    Json.lt_object m m' = true → Json.lt_object m' m'' = true → Json.lt_object m m'' = true
  | [], [], _, _, _, _, h1, _ => by simp [Json.lt_object] at h1
  | [], _ :: _, [], _, _, _, _, h2 => by simp [Json.lt_object] at h2
  | [], _ :: _, _ :: _, _, _, _, _, _ => rfl
  | _ :: _, [], _, _, _, _, h1, _ => by simp [Json.lt_object] at h1
  | _ :: _, _ :: _, [], _, _, _, _, h2 => by simp [Json.lt_object] at h2
  | (k, x) :: xs, (k', y) :: ys, (k'', z) :: zs, ha, hb, hc, h1, h2 => by
    simp only [Json.double_free_object, Bool.and_eq_true] at ha hb hc
    simp only [Json.lt_object] at h1 h2 ⊢
    rcases string_lt_tri k k' with ⟨s1, s2, s3⟩ | ⟨s1, s2, s3⟩ | ⟨s1, s2, s3⟩
    · rcases string_lt_tri k' k'' with ⟨t1, t2, t3⟩ | ⟨t1, t2, t3⟩ | ⟨t1, t2, t3⟩
      · simp [string_lt_trans k k' k'' s1 t1]
      · subst t2
        simp [s1]
      · simp [t1, t3] at h2
    · subst s2
      rcases string_lt_tri k k'' with ⟨t1, t2, t3⟩ | ⟨t1, t2, t3⟩ | ⟨t1, t2, t3⟩
      · simp [t1]
      · subst t2
        simp only [s1, Bool.false_or, Bool.not_false, Bool.true_and] at h1 h2 ⊢
        rcases Json.lt_tri x y ha.1 hb.1 with ⟨a1, a2, a3⟩ | ⟨a1, a2, a3⟩ | ⟨a1, a2, a3⟩
        · rcases Json.lt_tri y z hb.1 hc.1 with ⟨b1, b2, b3⟩ | ⟨b1, b2, b3⟩ | ⟨b1, b2, b3⟩
          · rw [Json.lt_trans x y z ha.1 hb.1 hc.1 a1 b1]
            rfl
          · subst b2
            rw [a1]
            rfl
          · rw [b1, b3] at h2
            simp at h2
        · subst a2
          rw [a1, a3] at h1
          simp only [Bool.false_eq_true, if_false] at h1
          rcases Json.lt_tri x z hb.1 hc.1 with ⟨b1, b2, b3⟩ | ⟨b1, b2, b3⟩ | ⟨b1, b2, b3⟩
          · rw [b1]
            rfl
          · rw [b1, b3] at h2 ⊢
            simp only [Bool.false_eq_true, if_false] at h2 ⊢
            exact Json.lt_object_trans xs ys zs ha.2 hb.2 hc.2 h1 h2
          · rw [b1, b3] at h2
            simp at h2
        · rw [a1, a3] at h1
          simp at h1
      · simp [t1, t3] at h2
    · simp [s1, s3] at h1
end

/-! ## The same text under the other dialect -/

@[simp] theorem under_str (p : JsonParser) (s : JsonParse) : (p.under s).str = p.str := rfl
@[simp] theorem under_i (p : JsonParser) (s : JsonParse) : (p.under s).i = p.i := rfl
@[simp] theorem under_err (p : JsonParser) (s : JsonParse) : (p.under s).err = p.err := rfl
@[simp] theorem under_failed (p : JsonParser) (s : JsonParse) :
    (p.under s).failed = p.failed := rfl
@[simp] theorem under_strategy (p : JsonParser) (s : JsonParse) :
    (p.under s).strategy = s := rfl
@[simp] theorem under_cur (p : JsonParser) (s : JsonParse) : (p.under s).cur = p.cur := rfl
@[simp] theorem under_at (p : JsonParser) (s : JsonParse) (k : Nat) :
    (p.under s).at k = p.at k := rfl

theorem under_adv (p : JsonParser) (s : JsonParse) (n : Nat) :
    (p.under s).adv n = (p.adv n).under s := rfl
theorem under_back (p : JsonParser) (s : JsonParse) : (p.under s).back = p.back.under s := rfl
theorem under_fail (p : JsonParser) (s : JsonParse) (m : List Nat) :
    (p.under s).fail m = (p.fail m).under s := rfl

theorem under_self (p : JsonParser) : p.under p.strategy = p := rfl

theorem consume_whitespace_loop_under (s : JsonParse) (fuel : Nat) (p : JsonParser) :
    consume_whitespace_loop fuel (p.under s) = (consume_whitespace_loop fuel p).under s := by
  induction fuel generalizing p with
  | zero => rfl
  | succ n ih =>
    simp only [consume_whitespace_loop, under_cur]
    by_cases hws : p.cur = 32 ∨ p.cur = 9 ∨ p.cur = 10 ∨ p.cur = 13
    · rw [if_pos hws, if_pos hws, under_adv]
      exact ih (p.adv 1)
    · rw [if_neg hws, if_neg hws]

theorem consume_whitespace_under (s : JsonParse) (p : JsonParser) :
    consume_whitespace (p.under s) = (consume_whitespace p).under s :=
  consume_whitespace_loop_under s _ p

theorem digits_loop_under (s : JsonParse) (fuel : Nat) (p : JsonParser) :
    digits_loop fuel (p.under s) = (digits_loop fuel p).under s := by
  induction fuel generalizing p with
  | zero => rfl
  | succ n ih =>
    simp only [digits_loop, under_cur]
    by_cases hc : in_range (toLong p.cur) 48 57 = true
    · rw [if_pos hc, if_pos hc, under_adv]
      exact ih (p.adv 1)
    · rw [if_neg hc, if_neg hc]

theorem parse_number_exp_under (L : Libc) (s : JsonParse) (k : Nat) (p : JsonParser) :
    parse_number_exp L k (p.under s) =
      ((parse_number_exp L k p).1, (parse_number_exp L k p).2.under s) := by
  have e : (if (p.adv 1).cur = 43 ∨ (p.adv 1).cur = 45 then ((p.adv 1).adv 1).under s
      else (p.adv 1).under s) =
      (if (p.adv 1).cur = 43 ∨ (p.adv 1).cur = 45 then (p.adv 1).adv 1 else p.adv 1).under s := by
    split_ifs <;> rfl
  simp only [parse_number_exp, under_cur, under_adv]
  rw [e]
  generalize (if (p.adv 1).cur = 43 ∨ (p.adv 1).cur = 45 then (p.adv 1).adv 1 else p.adv 1) = q
  simp only [under_cur, under_str, under_i, under_fail, digits_loop_under]
  split_ifs <;> rfl

theorem parse_number_tail_under (L : Libc) (s : JsonParse) (k : Nat) (p : JsonParser) :
    parse_number_tail L k (p.under s) =
      ((parse_number_tail L k p).1, (parse_number_tail L k p).2.under s) := by
  simp only [parse_number_tail, under_cur, under_adv, under_str, under_i, under_fail,
    digits_loop_under, parse_number_exp_under]
  split_ifs <;> rfl

/-- The method `parse_number` does not look at the dialect. -/
theorem parse_number_under (L : Libc) (s : JsonParse) (p : JsonParser) :
    parse_number L (p.under s) = ((parse_number L p).1, (parse_number L p).2.under s) := by
  have e : (if p.cur = 45 then (p.adv 1).under s else p.under s) =
      (if p.cur = 45 then p.adv 1 else p).under s := by
    split_ifs <;> rfl
  simp only [parse_number, under_cur, under_adv, under_i]
  rw [e]
  generalize (if p.cur = 45 then p.adv 1 else p) = q
  simp only [under_cur, under_adv, under_str, under_i, under_fail, digits_loop_under,
    parse_number_tail_under]
  split_ifs <;> rfl

/-- The method `expect` does not look at the dialect. -/
theorem expect_under (s : JsonParse) (e : List Nat) (res : Json) (p : JsonParser) :
    expect e res (p.under s) = ((expect e res p).1, (expect e res p).2.under s) := by
  simp only [expect, under_back, under_str, under_i, under_adv, under_fail]
  split_ifs <;> rfl

theorem parse_string_loop_under (s : JsonParse) (fuel : Nat) (out : List Nat) (last : Int)
    (p : JsonParser) :
    parse_string_loop fuel out last (p.under s) =
      ((parse_string_loop fuel out last p).1, (parse_string_loop fuel out last p).2.under s) := by
  induction fuel generalizing out last p with
  | zero => rfl
  | succ n ih =>
    have hm : ∀ r : List Nat × JsonParser,
        (r.1, r.2.under s) = Prod.map id (fun q => JsonParser.under q s) r := fun _ => rfl
    rw [parse_string_loop_succ, parse_string_loop_succ]
    simp only [under_i, under_str, under_cur, under_adv, under_fail, ih]
    simp only [hm, apply_ite (Prod.map id (fun q => JsonParser.under q s)), Prod.map_apply, id]

/-- The method `parse_string` does not look at the dialect. -/
theorem parse_string_under (s : JsonParse) (p : JsonParser) :
    parse_string (p.under s) = ((parse_string p).1, (parse_string p).2.under s) :=
  parse_string_loop_under s _ _ _ p

/-- Where no comment begins the two dialects skip the same garbage. -/
theorem consume_garbage_under (s : JsonParse) (p : JsonParser)
    (hs : p.strategy = JsonParse.STANDARD) (hf : p.failed = false)
    (h47 : (consume_garbage p).cur ≠ 47) :
    consume_garbage (p.under s) = (consume_garbage p).under s := by
  have hstop := consume_whitespace_stop p
  rw [consume_garbage_standard p hs] at h47 ⊢
  simp only [consume_garbage]
  rw [consume_whitespace_under]
  cases s with
  | STANDARD => rw [if_neg (by simp)]
  | COMMENTS =>
    rw [if_pos (by simp)]
    simp only [consume_garbage_loop, under_str, under_i]
    rw [consume_comment_of_ne _ (by rw [under_cur]; exact h47)]
    simp only [under_failed, consume_whitespace_failed]
    rw [if_neg (by rw [hf]; simp),
      consume_whitespace_of_not_ws ((consume_whitespace p).under JsonParse.COMMENTS)
        (by rw [under_cur]; exact hstop)]
    simp

/-- A token read under the standard dialect that is no slash is read the same
way under either dialect. -/
theorem get_next_token_under (s : JsonParse) (p : JsonParser)
    (hs : p.strategy = JsonParse.STANDARD)
    (hf : (get_next_token p).2.failed = false) (h47 : (get_next_token p).1 ≠ 47) :
    get_next_token (p.under s) = ((get_next_token p).1, (get_next_token p).2.under s) := by
  have hpf : p.failed = false := (get_next_token_ext p).not_failed hf
  simp only [get_next_token] at hf h47 ⊢
  by_cases h1 : (consume_garbage p).failed = true
  · rw [if_pos h1] at hf
    rw [h1] at hf
    cases hf
  rw [if_neg h1] at hf h47
  by_cases h2 : (consume_garbage p).i = (consume_garbage p).str.length
  · rw [if_pos h2] at hf
    simp at hf
  rw [if_neg h2] at hf h47
  simp only at h47
  rw [consume_garbage_under s p hs hpf h47]
  simp only [under_failed, under_i, under_str, under_cur, under_adv]
  rw [if_neg h1, if_neg h2, if_neg h1, if_neg h2]

/-! ### Values under the other dialect -/

theorem parse_array_loop_under (s : JsonParse)
    (value value' : JsonParser → Option (Json × JsonParser))
    (hv : ValueUnder s value value') (hve : ValueExt value) (hva : ValueAdv value)
    (hvt : ValueToken value) :
    ∀ (fuel fuel' : Nat) (data : List Json) (p : JsonParser) (v : Json) (q : JsonParser),
      fuel ≤ fuel' → p.strategy = JsonParse.STANDARD → 1 ≤ p.i → p.i ≤ p.str.length →
      parse_array_loop value fuel data p = some (v, q) → q.failed = false →
      parse_array_loop value' fuel' data (p.under s) = some (v, q.under s)
  | 0, _, _, _, _, _, _, _, _, _, h, _ => by simp [parse_array_loop] at h
  | _ + 1, 0, _, _, _, _, hff, _, _, _, _, _ => by omega
  | fuel + 1, f' + 1, data, p, v, q, hff, hs, h1i, hle, h, hq => by
    rw [parse_array_loop_succ] at h ⊢
    cases hval : value p.back with
    | none => simp [hval] at h
    | some w =>
      obtain ⟨wv, wq⟩ := w
      simp only [hval] at h
      by_cases h1 : wq.failed = true
      · rw [if_pos h1] at h
        cases h
        rw [h1] at hq
        cases hq
      rw [if_neg h1] at h
      have hwf : wq.failed = false := by simpa using h1
      have hback : p.back.i ≤ p.back.str.length := by
        simp only [back_i, back_str]
        omega
      have hval' := hv p.back wv wq hs hback hval hwf
      have hwe := hve p.back (wv, wq) hval
      have hws : wq.strategy = JsonParse.STANDARD := by
        rw [hwe.strategy]
        exact hs
      have hwi := hva p.back (wv, wq) hval hwf hback
      simp only [back_i, back_str] at hwi
      have hwle : wq.i ≤ wq.str.length := by
        rw [hwe.str]
        exact hwi.2
      rw [under_back, hval']
      simp only [under_failed]
      rw [if_neg h1]
      by_cases h2 : (get_next_token wq).1 = 93
      · rw [if_pos h2] at h
        cases h
        rw [get_next_token_under s wq hws hq (by omega)]
        simp only
        rw [if_pos h2]
      rw [if_neg h2] at h
      by_cases h3 : (get_next_token wq).1 ≠ 44
      · rw [if_pos h3] at h
        cases h
        simp at hq
      rw [if_neg h3] at h
      have h44 : (get_next_token wq).1 = 44 := by simpa using h3
      have ht1 : (get_next_token wq).2.failed = false :=
        get_next_token_not_failed_of_ne wq (by omega)
      have ht1s : (get_next_token wq).2.strategy = JsonParse.STANDARD := by
        rw [(get_next_token_ext wq).strategy]
        exact hws
      have ht1i := get_next_token_i wq hwle ht1
      have ht1le : (get_next_token wq).2.i ≤ (get_next_token wq).2.str.length := by
        rw [(get_next_token_ext wq).str]
        exact ht1i.2.1
      have hloop := parse_array_loop_ext value hve fuel _ _ _ h
      have ht2 : (get_next_token (get_next_token wq).2).2.failed = false :=
        hloop.not_failed hq
      have ht2s : (get_next_token (get_next_token wq).2).2.strategy = JsonParse.STANDARD := by
        rw [(get_next_token_ext _).strategy]
        exact ht1s
      have ht2i := get_next_token_i _ ht1le ht2
      have ht2le : (get_next_token (get_next_token wq).2).2.i ≤
          (get_next_token (get_next_token wq).2).2.str.length := by
        rw [(get_next_token_ext _).str]
        exact ht2i.2.1
      obtain ⟨w2, hw2, hw2f⟩ := parse_array_loop_first value fuel _ _ _ h hq
      have h47 := (hvt _ _ hw2 hw2f).1
      rw [get_next_token_back _ ht1s ht2] at h47
      rw [get_next_token_under s wq hws ht1 (by omega)]
      simp only
      rw [if_neg h2, if_neg h3, get_next_token_under s _ ht1s ht2 h47]
      simp only
      exact parse_array_loop_under s value value' hv hve hva hvt fuel f' _ _ v q (by omega)
        ht2s (by omega) ht2le h hq


theorem parse_object_loop_under (s : JsonParse)
    (value value' : JsonParser → Option (Json × JsonParser))
    (hv : ValueUnder s value value') (hve : ValueExt value) (hva : ValueAdv value) :
    ∀ (fuel fuel' : Nat) (data : List (List Nat × Json)) (ch : Nat) (p : JsonParser) (v : Json)
      (q : JsonParser),
      fuel ≤ fuel' → p.strategy = JsonParse.STANDARD → p.i ≤ p.str.length →
      parse_object_loop value fuel data ch p = some (v, q) → q.failed = false →
      parse_object_loop value' fuel' data ch (p.under s) = some (v, q.under s)
  | 0, _, _, _, _, _, _, _, _, _, h, _ => by simp [parse_object_loop] at h
  | _ + 1, 0, _, _, _, _, _, hff, _, _, _, _ => by omega
  | fuel + 1, f' + 1, data, ch, p, v, q, hff, hs, hle, h, hq => by
    rw [parse_object_loop_succ] at h ⊢
    by_cases h1 : ch ≠ 34
    · rw [if_pos h1] at h
      cases h
      simp at hq
    rw [if_neg h1] at h ⊢
    by_cases h2 : (parse_string p).2.failed = true
    · rw [if_pos h2] at h
      cases h
      rw [h2] at hq
      cases hq
    rw [if_neg h2] at h
    have hpf : (parse_string p).2.failed = false := by simpa using h2
    have hps := parse_string_ext p
    have hpss : (parse_string p).2.strategy = JsonParse.STANDARD := by
      rw [hps.strategy]
      exact hs
    have hpsi := parse_string_i p hle hpf
    have hpsle : (parse_string p).2.i ≤ (parse_string p).2.str.length := by
      rw [hps.str]
      exact hpsi.2
    rw [parse_string_under s p]
    simp only [under_failed]
    rw [if_neg h2]
    by_cases h3 : (get_next_token (parse_string p).2).1 ≠ 58
    · rw [if_pos h3] at h
      cases h
      simp at hq
    rw [if_neg h3] at h
    have h58 : (get_next_token (parse_string p).2).1 = 58 := by simpa using h3
    have ht0 : (get_next_token (parse_string p).2).2.failed = false :=
      get_next_token_not_failed_of_ne _ (by omega)
    have ht0s : (get_next_token (parse_string p).2).2.strategy = JsonParse.STANDARD := by
      rw [(get_next_token_ext _).strategy]
      exact hpss
    have ht0i := get_next_token_i _ hpsle ht0
    have ht0le : (get_next_token (parse_string p).2).2.i ≤
        (get_next_token (parse_string p).2).2.str.length := by
      rw [(get_next_token_ext _).str]
      exact ht0i.2.1
    rw [get_next_token_under s _ hpss ht0 (by omega)]
    simp only
    rw [if_neg h3]
    cases hval : value (get_next_token (parse_string p).2).2 with
    | none => simp [hval] at h
    | some w =>
      obtain ⟨wv, wq⟩ := w
      simp only [hval] at h
      by_cases h4 : wq.failed = true
      · rw [if_pos h4] at h
        cases h
        rw [h4] at hq
        cases hq
      rw [if_neg h4] at h
      have hwf : wq.failed = false := by simpa using h4
      have hval' := hv _ wv wq ht0s ht0le hval hwf
      have hwe := hve _ (wv, wq) hval
      have hws : wq.strategy = JsonParse.STANDARD := by
        rw [hwe.strategy]
        exact ht0s
      have hwi := hva _ (wv, wq) hval hwf ht0le
      have hwle : wq.i ≤ wq.str.length := by
        rw [hwe.str]
        exact hwi.2
      rw [hval']
      simp only [under_failed]
      rw [if_neg h4]
      by_cases h5 : (get_next_token wq).1 = 125
      · rw [if_pos h5] at h
        cases h
        rw [get_next_token_under s wq hws hq (by omega)]
        simp only
        rw [if_pos h5]
      rw [if_neg h5] at h
      by_cases h6 : (get_next_token wq).1 ≠ 44
      · rw [if_pos h6] at h
        cases h
        simp at hq
      rw [if_neg h6] at h
      have h44 : (get_next_token wq).1 = 44 := by simpa using h6
      have ht1 : (get_next_token wq).2.failed = false :=
        get_next_token_not_failed_of_ne wq (by omega)
      have ht1s : (get_next_token wq).2.strategy = JsonParse.STANDARD := by
        rw [(get_next_token_ext wq).strategy]
        exact hws
      have ht1i := get_next_token_i wq hwle ht1
      have ht1le : (get_next_token wq).2.i ≤ (get_next_token wq).2.str.length := by
        rw [(get_next_token_ext wq).str]
        exact ht1i.2.1
      have hloop := parse_object_loop_ext value hve fuel _ _ _ _ h
      have ht2 : (get_next_token (get_next_token wq).2).2.failed = false :=
        hloop.not_failed hq
      have ht2s : (get_next_token (get_next_token wq).2).2.strategy = JsonParse.STANDARD := by
        rw [(get_next_token_ext _).strategy]
        exact ht1s
      have ht2i := get_next_token_i _ ht1le ht2
      have ht2le : (get_next_token (get_next_token wq).2).2.i ≤
          (get_next_token (get_next_token wq).2).2.str.length := by
        rw [(get_next_token_ext _).str]
        exact ht2i.2.1
      have h34 := parse_object_loop_first value fuel _ _ _ _ h hq
      rw [get_next_token_under s wq hws ht1 (by omega)]
      simp only
      rw [if_neg h5, if_neg h6, get_next_token_under s _ ht1s ht2 (by omega)]
      simp only
      exact parse_object_loop_under s value value' hv hve hva fuel f' _ _ _ v q (by omega)
        ht2s ht2le h hq

/-- A value read under the standard dialect is read the same way under either
dialect, with any larger fuel. -/
theorem parse_json_under (L : Libc) (s : JsonParse) :
    ∀ (fuel fuel' depth : Nat), fuel ≤ fuel' →
      ValueUnder s (parse_json L fuel depth) (parse_json L fuel' depth)
  | 0, _, _, _ => by
    intro p v q _ _ h _
    simp [parse_json] at h
  | _ + 1, 0, _, hff => by omega
  | fuel + 1, f' + 1, depth, hff => by
    intro p v q hs hle h hq
    have htok := parse_json_token L (fuel + 1) depth p (v, q) h hq
    have ht := htok.2
    have hts : (get_next_token p).2.strategy = JsonParse.STANDARD := by
      rw [(get_next_token_ext p).strategy]
      exact hs
    have hti := get_next_token_i p hle ht
    have htle : (get_next_token p).2.i ≤ (get_next_token p).2.str.length := by
      rw [(get_next_token_ext p).str]
      exact hti.2.1
    rw [parse_json_succ] at h ⊢
    by_cases h0 : depth > max_depth
    · rw [if_pos h0] at h
      cases h
      simp at hq
    rw [if_neg h0] at h ⊢
    rw [get_next_token_under s p hs ht htok.1]
    simp only [under_failed]
    rw [if_neg (by rw [ht]; simp)] at h ⊢
    by_cases h2 : (get_next_token p).1 = 45 ∨
        ((get_next_token p).1 ≥ 48 ∧ (get_next_token p).1 ≤ 57)
    · rw [if_pos h2] at h ⊢
      have e := Option.some.inj h
      have hf : (parse_number L (get_next_token p).2.back).2.failed = false := by
        rw [e]
        exact hq
      rw [under_back, parse_number_under L s _, e]
    rw [if_neg h2] at h ⊢
    by_cases h3 : (get_next_token p).1 = 110
    · rw [if_pos h3] at h ⊢
      have e := Option.some.inj h
      have hf : (expect (bytes "null") Json.null (get_next_token p).2).2.failed = false := by
        rw [e]
        exact hq
      rw [expect_under s _ _ _, e]
    rw [if_neg h3] at h ⊢
    by_cases h4 : (get_next_token p).1 = 116
    · rw [if_pos h4] at h ⊢
      have e := Option.some.inj h
      have hf : (expect (bytes "true") (Json.bool true) (get_next_token p).2).2.failed =
          false := by
        rw [e]
        exact hq
      rw [expect_under s _ _ _, e]
    rw [if_neg h4] at h ⊢
    by_cases h5 : (get_next_token p).1 = 102
    · rw [if_pos h5] at h ⊢
      have e := Option.some.inj h
      have hf : (expect (bytes "false") (Json.bool false) (get_next_token p).2).2.failed =
          false := by
        rw [e]
        exact hq
      rw [expect_under s _ _ _, e]
    rw [if_neg h5] at h ⊢
    by_cases h6 : (get_next_token p).1 = 34
    · rw [if_pos h6] at h ⊢
      have e := Option.some.inj h
      have hf : (parse_string (get_next_token p).2).2.failed = false := by
        have := congrArg Prod.snd e
        simp only at this
        rw [this]
        exact hq
      rw [parse_string_under s _]
      simp only
      have e1 := congrArg Prod.fst e
      have e2 := congrArg Prod.snd e
      simp only at e1 e2
      rw [e1, e2]
    rw [if_neg h6] at h ⊢
    by_cases h7 : (get_next_token p).1 = 123
    · rw [if_pos h7] at h ⊢
      by_cases h8 : (get_next_token (get_next_token p).2).1 = 125
      · rw [if_pos h8] at h
        cases h
        rw [get_next_token_under s _ hts hq (by omega)]
        simp only
        rw [if_pos h8]
      rw [if_neg h8] at h
      have hloop := parse_object_loop_ext _ (parse_json_ext L fuel (depth + 1)) fuel _ _ _ _ h
      have ht2 : (get_next_token (get_next_token p).2).2.failed = false := hloop.not_failed hq
      have ht2s : (get_next_token (get_next_token p).2).2.strategy = JsonParse.STANDARD := by
        rw [(get_next_token_ext _).strategy]
        exact hts
      have ht2i := get_next_token_i _ htle ht2
      have ht2le : (get_next_token (get_next_token p).2).2.i ≤
          (get_next_token (get_next_token p).2).2.str.length := by
        rw [(get_next_token_ext _).str]
        exact ht2i.2.1
      have h34 := parse_object_loop_first _ fuel _ _ _ _ h hq
      rw [get_next_token_under s _ hts ht2 (by omega)]
      simp only
      rw [if_neg h8]
      exact parse_object_loop_under s _ _
        (parse_json_under L s fuel f' (depth + 1) (by omega))
        (parse_json_ext L fuel (depth + 1)) (parse_json_adv L fuel (depth + 1))
        fuel f' _ _ _ v q (by omega) ht2s ht2le h hq
    rw [if_neg h7] at h ⊢
    by_cases h9 : (get_next_token p).1 = 91
    · rw [if_pos h9] at h ⊢
      by_cases h10 : (get_next_token (get_next_token p).2).1 = 93
      · rw [if_pos h10] at h
        cases h
        rw [get_next_token_under s _ hts hq (by omega)]
        simp only
        rw [if_pos h10]
      rw [if_neg h10] at h
      have hloop := parse_array_loop_ext _ (parse_json_ext L fuel (depth + 1)) fuel _ _ _ h
      have ht2 : (get_next_token (get_next_token p).2).2.failed = false := hloop.not_failed hq
      have ht2s : (get_next_token (get_next_token p).2).2.strategy = JsonParse.STANDARD := by
        rw [(get_next_token_ext _).strategy]
        exact hts
      have ht2i := get_next_token_i _ htle ht2
      have ht2le : (get_next_token (get_next_token p).2).2.i ≤
          (get_next_token (get_next_token p).2).2.str.length := by
        rw [(get_next_token_ext _).str]
        exact ht2i.2.1
      obtain ⟨w2, hw2, hw2f⟩ := parse_array_loop_first _ fuel _ _ _ h hq
      have h47 := (parse_json_token L fuel (depth + 1) _ _ hw2 hw2f).1
      rw [get_next_token_back _ hts ht2] at h47
      rw [get_next_token_under s _ hts ht2 h47]
      simp only
      rw [if_neg h10]
      exact parse_array_loop_under s _ _
        (parse_json_under L s fuel f' (depth + 1) (by omega))
        (parse_json_ext L fuel (depth + 1)) (parse_json_adv L fuel (depth + 1))
        (parse_json_token L fuel (depth + 1))
        fuel f' _ _ v q (by omega) ht2s (by omega) ht2le h hq
    rw [if_neg h9] at h
    cases h
    simp at hq

/-- A text that `parse` accepts under the standard dialect it accepts under either
dialect, with the same value and in the same state. -/
theorem Json.parse_state_under (L : Libc) (s : JsonParse) (t err : List Nat) (v : Json)
    (p : JsonParser) (h : Json.parse_state L t err JsonParse.STANDARD = some (v, p))
    (hf : p.failed = false) :
    Json.parse_state L t err s = some (v, p.under s) := by
  obtain ⟨r, hr, hrf, hp, hi⟩ := Json.parse_state_ok L t err JsonParse.STANDARD v p h hf
  have hg : (consume_garbage r).failed = false := by rw [← hp]; exact hf
  have e1 := parse_json_ext L _ _ _ _ hr
  simp only at e1
  have hrs : r.strategy = JsonParse.STANDARD := e1.strategy
  have hlen : (consume_garbage r).str.length = t.length :=
    (e1.trans (consume_garbage_ext r)).length
  have hcur : (consume_garbage r).cur ≠ 47 := by
    have : (consume_garbage r).cur = 0 :=
      List.getD_eq_default _ _ (by rw [hlen, hi])
    rw [this]
    decide
  have hr' := parse_json_under L s _ _ 0 (le_refl _) ⟨t, 0, err, false, JsonParse.STANDARD⟩ v r
    rfl (Nat.zero_le _) hr hrf
  have hgu := consume_garbage_under s r hrs hrf hcur
  have hd := Json.parse_state_of_doc L t err s v (r.under s) hr'
    (by rw [hgu]; exact hg) (by rw [hgu]; exact hi)
  rw [hd, hgu, hp]

/-! ## A text written after another text -/

@[simp] theorem shift_str (pre : List Nat) (p : JsonParser) :
    (p.shift pre).str = pre ++ p.str := rfl
@[simp] theorem shift_i (pre : List Nat) (p : JsonParser) :
    (p.shift pre).i = pre.length + p.i := rfl
@[simp] theorem shift_err (pre : List Nat) (p : JsonParser) : (p.shift pre).err = p.err := rfl
@[simp] theorem shift_failed (pre : List Nat) (p : JsonParser) :
    (p.shift pre).failed = p.failed := rfl
@[simp] theorem shift_strategy (pre : List Nat) (p : JsonParser) :
    (p.shift pre).strategy = p.strategy := rfl

theorem shift_at (pre : List Nat) (p : JsonParser) (k : Nat) :
    (p.shift pre).at (pre.length + k) = p.at k := by
  simp only [JsonParser.at, shift_str, List.getD_eq_getElem?_getD]
  rw [List.getElem?_append_right (by omega)]
  simp

@[simp] theorem shift_cur (pre : List Nat) (p : JsonParser) : (p.shift pre).cur = p.cur :=
  shift_at pre p p.i

theorem shift_at_succ (pre : List Nat) (p : JsonParser) :
    (p.shift pre).at (pre.length + p.i + 1) = p.at (p.i + 1) := by
  rw [Nat.add_assoc]
  exact shift_at pre p (p.i + 1)

theorem shift_adv (pre : List Nat) (p : JsonParser) (n : Nat) :
    (p.shift pre).adv n = (p.adv n).shift pre := by
  simp only [JsonParser.shift, JsonParser.adv, Nat.add_assoc]

theorem shift_fail (pre : List Nat) (p : JsonParser) (m : List Nat) :
    (p.shift pre).fail m = (p.fail m).shift pre := rfl

theorem shift_back (pre : List Nat) (p : JsonParser) (h : 1 ≤ p.i) :
    (p.shift pre).back = p.back.shift pre := by
  simp only [JsonParser.shift, JsonParser.back]
  congr 1
  omega

@[simp] theorem shift_left (pre : List Nat) (p : JsonParser) :
    (pre ++ p.str).length - (pre.length + p.i) = p.str.length - p.i := by
  rw [List.length_append]
  omega

@[simp] theorem shift_end (pre : List Nat) (p : JsonParser) :
    (pre.length + p.i = (pre ++ p.str).length) = (p.i = p.str.length) := by
  rw [List.length_append]
  simp

@[simp] theorem shift_lt (pre : List Nat) (p : JsonParser) :
    (pre.length + p.i < (pre ++ p.str).length) = (p.i < p.str.length) := by
  rw [List.length_append]
  simp

@[simp] theorem shift_drop (pre : List Nat) (p : JsonParser) :
    (pre ++ p.str).drop (pre.length + p.i) = p.str.drop p.i := by
  rw [List.drop_append]

theorem c_str_shift (pre s : List Nat) (k : Nat) : c_str (pre ++ s) (pre.length + k) = c_str s k := by
  simp only [c_str]
  rw [List.drop_append]

theorem consume_whitespace_loop_shift (pre : List Nat) (fuel : Nat) (p : JsonParser) :
    consume_whitespace_loop fuel (p.shift pre) = (consume_whitespace_loop fuel p).shift pre := by
  induction fuel generalizing p with
  | zero => rfl
  | succ n ih =>
    simp only [consume_whitespace_loop, shift_cur]
    by_cases hws : p.cur = 32 ∨ p.cur = 9 ∨ p.cur = 10 ∨ p.cur = 13
    · rw [if_pos hws, if_pos hws, shift_adv]
      exact ih (p.adv 1)
    · rw [if_neg hws, if_neg hws]

theorem consume_whitespace_shift (pre : List Nat) (p : JsonParser) :
    consume_whitespace (p.shift pre) = (consume_whitespace p).shift pre := by
  simp only [consume_whitespace, shift_str, shift_i, shift_left]
  exact consume_whitespace_loop_shift pre _ p

theorem line_comment_loop_shift (pre : List Nat) (fuel : Nat) (p : JsonParser) :
    line_comment_loop fuel (p.shift pre) = (line_comment_loop fuel p).shift pre := by
  induction fuel generalizing p with
  | zero => rfl
  | succ n ih =>
    simp only [line_comment_loop, shift_cur, shift_str, shift_i, shift_lt]
    by_cases hc : p.i < p.str.length ∧ p.cur ≠ 10
    · rw [if_pos hc, if_pos hc, shift_adv]
      exact ih (p.adv 1)
    · rw [if_neg hc, if_neg hc]

theorem block_comment_loop_shift (pre : List Nat) (fuel : Nat) (p : JsonParser)
    (h : p.i + 2 ≤ p.str.length) :
    block_comment_loop fuel (p.shift pre) =
      ((block_comment_loop fuel p).1, (block_comment_loop fuel p).2.shift pre) := by
  induction fuel generalizing p with
  | zero => rfl
  | succ n ih =>
    simp only [block_comment_loop, shift_cur, shift_i, shift_at_succ]
    by_cases hc : ¬ (p.cur = 42 ∧ p.at (p.i + 1) = 47)
    · rw [if_pos hc, if_pos hc]
      have e : ((p.shift pre).adv 1).i > ((p.shift pre).adv 1).str.length - 2 ↔
          (p.adv 1).i > (p.adv 1).str.length - 2 := by
        simp only [adv_i, adv_str, shift_i, shift_str, List.length_append]
        omega
      by_cases hgt : (p.adv 1).i > (p.adv 1).str.length - 2
      · rw [if_pos hgt, if_pos (e.mpr hgt), shift_adv, shift_fail]
      · rw [if_neg hgt, if_neg (fun x => hgt (e.mp x)), shift_adv]
        simp only [adv_i, adv_str, gt_iff_lt, not_lt] at hgt
        exact ih (p.adv 1) (by simp only [adv_i, adv_str]; omega)
    · rw [if_neg hc, if_neg hc, shift_adv]

/-- The method `consume_comment` reads the same after a text written before. -/
theorem consume_comment_shift (pre : List Nat) (p : JsonParser) :
    consume_comment (p.shift pre) =
      ((consume_comment p).1, (consume_comment p).2.shift pre) := by
  simp only [consume_comment, shift_cur]
  by_cases h47 : p.cur = 47
  · have hlt : p.i < p.str.length := lt_length_of_cur_ne_zero p (by omega)
    rw [if_pos h47, if_pos h47, shift_adv]
    simp only [shift_i, shift_str, shift_end, shift_cur]
    by_cases hend : (p.adv 1).i = (p.adv 1).str.length
    · rw [if_pos hend, if_pos hend, shift_fail]
    rw [if_neg hend, if_neg hend]
    by_cases h2 : (p.adv 1).cur = 47
    · rw [if_pos h2, if_pos h2, shift_adv]
      simp only [shift_i, shift_str, shift_left]
      rw [line_comment_loop_shift]
    rw [if_neg h2, if_neg h2]
    by_cases h3 : (p.adv 1).cur = 42
    · rw [if_pos h3, if_pos h3, shift_adv]
      have h3' : (p.adv 1).i < (p.adv 1).str.length :=
        lt_length_of_cur_ne_zero (p.adv 1) (by omega)
      simp only [adv_i, adv_str] at h3'
      have e : (((p.adv 1).adv 1).shift pre).i > (((p.adv 1).adv 1).shift pre).str.length - 2 ↔
          ((p.adv 1).adv 1).i > ((p.adv 1).adv 1).str.length - 2 := by
        simp only [adv_i, adv_str, shift_i, shift_str, List.length_append]
        omega
      by_cases h4 : ((p.adv 1).adv 1).i > ((p.adv 1).adv 1).str.length - 2
      · rw [if_pos h4, if_pos (e.mpr h4), shift_fail]
      · rw [if_neg h4, if_neg (fun x => h4 (e.mp x))]
        simp only [shift_i, shift_str, shift_left]
        simp only [adv_i, adv_str, gt_iff_lt, not_lt] at h4
        exact block_comment_loop_shift pre _ _ (by simp only [adv_i, adv_str]; omega)
    · rw [if_neg h3, if_neg h3, shift_fail]
  · rw [if_neg h47, if_neg h47]

theorem consume_garbage_loop_shift (pre : List Nat) (fuel : Nat) (p : JsonParser) :
    consume_garbage_loop fuel (p.shift pre) = (consume_garbage_loop fuel p).shift pre := by
  induction fuel generalizing p with
  | zero => rfl
  | succ n ih =>
    simp only [consume_garbage_loop, consume_comment_shift, shift_failed,
      consume_whitespace_shift, ih]
    split_ifs <;> rfl

/-- The method `consume_garbage` reads the same after a text written before. -/
theorem consume_garbage_shift (pre : List Nat) (p : JsonParser) :
    consume_garbage (p.shift pre) = (consume_garbage p).shift pre := by
  simp only [consume_garbage, consume_whitespace_shift, shift_strategy, shift_str, shift_i,
    shift_left, consume_garbage_loop_shift]
  split_ifs <;> rfl

/-- The method `get_next_token` reads the same after a text written before. -/
theorem get_next_token_shift (pre : List Nat) (p : JsonParser) :
    get_next_token (p.shift pre) = ((get_next_token p).1, (get_next_token p).2.shift pre) := by
  simp only [get_next_token, consume_garbage_shift, shift_failed, shift_i, shift_str,
    shift_end, shift_cur, shift_fail, shift_adv]
  split_ifs <;> rfl

/-! ### Numbers, literals and strings after a text written before -/

theorem digits_loop_shift (pre : List Nat) (fuel : Nat) (p : JsonParser) :
    digits_loop fuel (p.shift pre) = (digits_loop fuel p).shift pre := by
  induction fuel generalizing p with
  | zero => rfl
  | succ n ih =>
    simp only [digits_loop, shift_cur]
    by_cases hc : in_range (toLong p.cur) 48 57 = true
    · rw [if_pos hc, if_pos hc, shift_adv]
      exact ih (p.adv 1)
    · rw [if_neg hc, if_neg hc]

theorem parse_number_exp_shift (L : Libc) (pre : List Nat) (k : Nat) (p : JsonParser) :
    parse_number_exp L (pre.length + k) (p.shift pre) =
      ((parse_number_exp L k p).1, (parse_number_exp L k p).2.shift pre) := by
  have e : (if (p.adv 1).cur = 43 ∨ (p.adv 1).cur = 45 then ((p.adv 1).adv 1).shift pre
      else (p.adv 1).shift pre) =
      (if (p.adv 1).cur = 43 ∨ (p.adv 1).cur = 45 then (p.adv 1).adv 1 else p.adv 1).shift pre := by
    split_ifs <;> rfl
  simp only [parse_number_exp, shift_cur, shift_adv]
  rw [e]
  generalize (if (p.adv 1).cur = 43 ∨ (p.adv 1).cur = 45 then (p.adv 1).adv 1 else p.adv 1) = q
  simp only [shift_cur, shift_str, shift_i, shift_fail, shift_left, digits_loop_shift,
    c_str_shift]
  split_ifs <;> rfl

theorem parse_number_tail_shift (L : Libc) (pre : List Nat) (k : Nat) (p : JsonParser) :
    parse_number_tail L (pre.length + k) (p.shift pre) =
      ((parse_number_tail L k p).1, (parse_number_tail L k p).2.shift pre) := by
  simp only [parse_number_tail, shift_cur, shift_adv, shift_str, shift_i, shift_fail,
    shift_left, digits_loop_shift, parse_number_exp_shift, c_str_shift,
    Nat.add_sub_add_left]
  split_ifs <;> rfl

/-- The method `parse_number` reads the same after a text written before. -/
theorem parse_number_shift (L : Libc) (pre : List Nat) (p : JsonParser) :
    parse_number L (p.shift pre) = ((parse_number L p).1, (parse_number L p).2.shift pre) := by
  have e : (if p.cur = 45 then (p.adv 1).shift pre else p.shift pre) =
      (if p.cur = 45 then p.adv 1 else p).shift pre := by
    split_ifs <;> rfl
  simp only [parse_number, shift_cur, shift_adv, shift_i]
  rw [e]
  generalize (if p.cur = 45 then p.adv 1 else p) = q
  simp only [shift_cur, shift_adv, shift_str, shift_i, shift_fail, shift_left,
    digits_loop_shift, parse_number_tail_shift]
  split_ifs <;> rfl

/-- The method `expect`, called after a token, reads the same after a text
written before. -/
theorem expect_shift (pre : List Nat) (e : List Nat) (res : Json) (p : JsonParser)
    (h : 1 ≤ p.i) :
    expect e res (p.shift pre) = ((expect e res p).1, (expect e res p).2.shift pre) := by
  simp only [expect, shift_back pre p h, shift_str, shift_i, shift_drop, shift_adv, shift_fail]
  split_ifs <;> rfl

theorem parse_string_loop_shift (pre : List Nat) (fuel : Nat) (out : List Nat) (last : Int)
    (p : JsonParser) :
    parse_string_loop fuel out last (p.shift pre) =
      ((parse_string_loop fuel out last p).1,
        (parse_string_loop fuel out last p).2.shift pre) := by
  induction fuel generalizing out last p with
  | zero => rfl
  | succ n ih =>
    have hm : ∀ r : List Nat × JsonParser,
        (r.1, r.2.shift pre) = Prod.map id (fun q => JsonParser.shift pre q) r := fun _ => rfl
    rw [parse_string_loop_succ, parse_string_loop_succ]
    simp only [shift_i, shift_str, shift_cur, shift_adv, shift_fail, shift_end, shift_drop, ih]
    simp only [hm, apply_ite (Prod.map id (fun q => JsonParser.shift pre q)), Prod.map_apply, id]

/-- The method `parse_string` reads the same after a text written before. -/
theorem parse_string_shift (pre : List Nat) (p : JsonParser) :
    parse_string (p.shift pre) = ((parse_string p).1, (parse_string p).2.shift pre) := by
  simp only [parse_string, shift_str, shift_i, shift_left]
  exact parse_string_loop_shift pre _ _ _ p

/-! ### Values after a text written before -/

theorem parse_array_loop_shift (pre : List Nat)
    (value value' : JsonParser → Option (Json × JsonParser))
    (hv : ValueShift pre value value') (hve : ValueExt value) (hb : ValueBound value)
    (fuel : Nat) (data : List Json) (p : JsonParser) (h1 : 1 ≤ p.i)
    (hle : p.i ≤ p.str.length) :
    parse_array_loop value' fuel data (p.shift pre) =
      (parse_array_loop value fuel data p).map (fun r => (r.1, r.2.shift pre)) := by
  induction fuel generalizing data p with
  | zero => rfl
  | succ n ih =>
    rw [parse_array_loop_succ, parse_array_loop_succ, shift_back pre p h1,
      hv p.back (by simp only [back_i, back_str]; omega)]
    cases hval : value p.back with
    | none => rfl
    | some v =>
      simp only [Option.map_some', shift_failed, get_next_token_shift, shift_fail]
      have l1 : v.2.str.length = p.str.length := (hve _ _ hval).length
      have b1 := hb _ _ hval (by simp only [back_i, back_str]; omega)
      simp only [back_str] at b1
      by_cases hf1 : v.2.failed = true
      · rw [if_pos hf1, if_pos hf1]
        rfl
      rw [if_neg hf1, if_neg hf1]
      by_cases h2 : (get_next_token v.2).1 = 93
      · rw [if_pos h2, if_pos h2]
        rfl
      rw [if_neg h2, if_neg h2]
      by_cases h3 : (get_next_token v.2).1 ≠ 44
      · rw [if_pos h3, if_pos h3]
        rfl
      rw [if_neg h3, if_neg h3]
      have l2 := (get_next_token_ext v.2).length
      have b2 := get_next_token_bound v.2 (by omega)
      have f2 : (get_next_token v.2).2.failed = false :=
        get_next_token_not_failed_of_ne v.2 (by omega)
      have a2 := get_next_token_pos v.2 (by omega) f2
      have l3 := (get_next_token_ext (get_next_token v.2).2).length
      have b3 := get_next_token_bound (get_next_token v.2).2 (by omega)
      exact ih _ _ (by omega) (by omega)

theorem parse_object_loop_shift (pre : List Nat)
    (value value' : JsonParser → Option (Json × JsonParser))
    (hv : ValueShift pre value value') (hve : ValueExt value) (hb : ValueBound value)
    (fuel : Nat) (data : List (List Nat × Json)) (ch : Nat) (p : JsonParser)
    (hle : p.i ≤ p.str.length) :
    parse_object_loop value' fuel data ch (p.shift pre) =
      (parse_object_loop value fuel data ch p).map (fun r => (r.1, r.2.shift pre)) := by
  induction fuel generalizing data ch p with
  | zero => rfl
  | succ n ih =>
    rw [parse_object_loop_succ, parse_object_loop_succ]
    simp only [parse_string_shift, shift_failed, get_next_token_shift, shift_fail]
    by_cases h0 : ch ≠ 34
    · rw [if_pos h0, if_pos h0]
      rfl
    rw [if_neg h0, if_neg h0]
    have l0 := (parse_string_ext p).length
    have b0 := parse_string_bound p hle
    by_cases hf0 : (parse_string p).2.failed = true
    · rw [if_pos hf0, if_pos hf0]
      rfl
    rw [if_neg hf0, if_neg hf0]
    have l1 := (get_next_token_ext (parse_string p).2).length
    have b1 := get_next_token_bound (parse_string p).2 (by omega)
    by_cases h58 : (get_next_token (parse_string p).2).1 ≠ 58
    · rw [if_pos h58, if_pos h58]
      rfl
    rw [if_neg h58, if_neg h58, hv _ (by omega)]
    cases hval : value (get_next_token (parse_string p).2).2 with
    | none => rfl
    | some v =>
      simp only [Option.map_some', shift_failed, get_next_token_shift, shift_fail]
      have l2 : v.2.str.length = _ := (hve _ _ hval).length
      have b2 := hb _ _ hval (by omega)
      by_cases hf1 : v.2.failed = true
      · rw [if_pos hf1, if_pos hf1]
        rfl
      rw [if_neg hf1, if_neg hf1]
      by_cases h2 : (get_next_token v.2).1 = 125
      · rw [if_pos h2, if_pos h2]
        rfl
      rw [if_neg h2, if_neg h2]
      by_cases h3 : (get_next_token v.2).1 ≠ 44
      · rw [if_pos h3, if_pos h3]
        rfl
      rw [if_neg h3, if_neg h3]
      have l3 := (get_next_token_ext v.2).length
      have b3 := get_next_token_bound v.2 (by omega)
      have l4 := (get_next_token_ext (get_next_token v.2).2).length
      have b4 := get_next_token_bound (get_next_token v.2).2 (by omega)
      exact ih _ _ _ (by omega)

/-- The method `parse_json` reads the same after a text written before: the same
value, and the same state moved by the length of that text. -/
theorem parse_json_shift (L : Libc) (pre : List Nat) (fuel depth : Nat) :
    ValueShift pre (parse_json L fuel depth) (parse_json L fuel depth) := by
  induction fuel generalizing depth with
  | zero =>
    intro p _
    rfl
  | succ n ih =>
    intro p hle
    rw [parse_json_succ, parse_json_succ]
    simp only [get_next_token_shift, shift_failed, shift_fail]
    by_cases h0 : depth > max_depth
    · rw [if_pos h0, if_pos h0]
      rfl
    rw [if_neg h0, if_neg h0]
    have l0 := (get_next_token_ext p).length
    have b0 := get_next_token_bound p hle
    by_cases hf0 : (get_next_token p).2.failed = true
    · rw [if_pos hf0, if_pos hf0]
      rfl
    rw [if_neg hf0, if_neg hf0]
    have a0 := get_next_token_pos p hle (by simpa using hf0)
    have l1 := (get_next_token_ext (get_next_token p).2).length
    have b1 := get_next_token_bound (get_next_token p).2 (by omega)
    by_cases h2 : (get_next_token p).1 = 45 ∨
        ((get_next_token p).1 ≥ 48 ∧ (get_next_token p).1 ≤ 57)
    · rw [if_pos h2, if_pos h2, shift_back pre _ a0, parse_number_shift]
      rfl
    rw [if_neg h2, if_neg h2]
    by_cases h3 : (get_next_token p).1 = 110
    · rw [if_pos h3, if_pos h3, expect_shift pre _ _ _ a0]
      rfl
    rw [if_neg h3, if_neg h3]
    by_cases h4 : (get_next_token p).1 = 116
    · rw [if_pos h4, if_pos h4, expect_shift pre _ _ _ a0]
      rfl
    rw [if_neg h4, if_neg h4]
    by_cases h5 : (get_next_token p).1 = 102
    · rw [if_pos h5, if_pos h5, expect_shift pre _ _ _ a0]
      rfl
    rw [if_neg h5, if_neg h5]
    by_cases h6 : (get_next_token p).1 = 34
    · rw [if_pos h6, if_pos h6, parse_string_shift]
      rfl
    rw [if_neg h6, if_neg h6]
    by_cases h7 : (get_next_token p).1 = 123
    · rw [if_pos h7, if_pos h7]
      by_cases h8 : (get_next_token (get_next_token p).2).1 = 125
      · rw [if_pos h8, if_pos h8]
        rfl
      rw [if_neg h8, if_neg h8]
      exact parse_object_loop_shift pre _ _ (ih (depth + 1)) (parse_json_ext L n (depth + 1))
        (parse_json_bound L n (depth + 1)) n _ _ _ (by omega)
    rw [if_neg h7, if_neg h7]
    by_cases h9 : (get_next_token p).1 = 91
    · rw [if_pos h9, if_pos h9]
      by_cases h8 : (get_next_token (get_next_token p).2).1 = 93
      · rw [if_pos h8, if_pos h8]
        rfl
      rw [if_neg h8, if_neg h8]
      exact parse_array_loop_shift pre _ _ (ih (depth + 1)) (parse_json_ext L n (depth + 1))
        (parse_json_bound L n (depth + 1)) n _ _ (by omega) (by omega)
    rw [if_neg h9, if_neg h9]
    rfl

/-! ### A multi-line comment before the text -/

/-- The loop of a multi-line comment runs over a text without the closing tokens
up to the closing tokens after it. -/
theorem block_comment_loop_skip : ∀ (c : List Nat) (fuel : Nat) (q : JsonParser)
    (rest : List Nat), ¬ ([42, 47] <:+: c) → q.str.drop q.i = c ++ 42 :: 47 :: rest →
    c.length + 1 ≤ fuel → block_comment_loop fuel q = (true, q.adv (c.length + 2))
  | _, 0, _, _, _, _, hf => by omega
  | [], fuel + 1, q, rest, _, h, _ => by
    have hcur := cur_of_drop q 42 _ h
    have h1 : (q.adv 1).str.drop (q.adv 1).i = 47 :: rest := by
      rw [drop_adv, h]
      rfl
    have hat : q.at (q.i + 1) = 47 := cur_of_drop (q.adv 1) 47 _ h1
    simp only [block_comment_loop]
    rw [if_neg (by simp [hcur, hat])]
    rfl
  | x :: c, fuel + 1, q, rest, hc, h, hf => by
    have hcur := cur_of_drop q x _ h
    have h1 : (q.adv 1).str.drop (q.adv 1).i = c ++ 42 :: 47 :: rest := by
      rw [drop_adv, h]
      rfl
    have hlen := length_of_drop q _ h
    have hne : ¬ (q.cur = 42 ∧ q.at (q.i + 1) = 47) := by
      rintro ⟨e1, e2⟩
      have e2' : (q.adv 1).cur = 47 := e2
      rw [cur_of_suffix _ _ h1] at e2'
      rw [hcur] at e1
      cases c with
      | nil => simp at e2'
      | cons y c' =>
        simp only [List.cons_append, List.getD_cons_zero] at e2'
        subst e1 e2'
        exact hc ⟨[], c', rfl⟩
    have hc' : ¬ ([42, 47] <:+: c) := fun hi => hc (hi.trans (List.infix_cons List.infix_rfl))
    simp only [block_comment_loop]
    rw [if_pos hne, if_neg (by
      simp only [adv_i, adv_str, List.length_append, List.length_cons] at hlen ⊢
      omega)]
    rw [block_comment_loop_skip c fuel (q.adv 1) rest hc' h1 (by simpa using hf), adv_adv]
    congr 2
    simp only [List.length_cons]
    omega

/-- The method `consume_comment` on a multi-line comment that is closed. -/
theorem consume_comment_block (c rest : List Nat) (q : JsonParser) (hc : ¬ ([42, 47] <:+: c))
    (h : q.str.drop q.i = 47 :: 42 :: (c ++ 42 :: 47 :: rest)) :
    consume_comment q = (true, q.adv (c.length + 4)) := by
  have hcur := cur_of_drop q 47 _ h
  have h1 : (q.adv 1).str.drop (q.adv 1).i = 42 :: (c ++ 42 :: 47 :: rest) := by
    rw [drop_adv, h]
    rfl
  have hcur1 := cur_of_drop (q.adv 1) 42 _ h1
  have hlt1 := lt_of_drop (q.adv 1) 42 _ h1
  have h2 : ((q.adv 1).adv 1).str.drop ((q.adv 1).adv 1).i = c ++ 42 :: 47 :: rest := by
    rw [drop_adv, h1]
    rfl
  have hl2 := length_of_drop _ _ h2
  simp only [List.length_append, List.length_cons] at hl2
  simp only [consume_comment]
  rw [if_pos hcur, if_neg (by omega), if_neg (by rw [hcur1]; decide), if_pos hcur1,
    if_neg (by omega),
    block_comment_loop_skip c _ _ rest hc h2 (by rw [hl2]; omega), adv_adv, adv_adv]
  congr 2
  omega

/-- The garbage at the start of a text that begins with a multi-line comment is
the comment and the garbage at the start of the text after it. -/
theorem consume_garbage_block (c t err : List Nat) (hc : ¬ ([42, 47] <:+: c)) :
    consume_garbage ⟨47 :: 42 :: (c ++ [42, 47]) ++ t, 0, err, false, JsonParse.COMMENTS⟩ =
      (consume_garbage ⟨t, 0, err, false, JsonParse.COMMENTS⟩).shift
        (47 :: 42 :: (c ++ [42, 47])) := by
  have hd : (JsonParser.mk (47 :: 42 :: (c ++ [42, 47]) ++ t) 0 err false
      JsonParse.COMMENTS).str.drop (JsonParser.mk (47 :: 42 :: (c ++ [42, 47]) ++ t) 0 err false
      JsonParse.COMMENTS).i = 47 :: 42 :: (c ++ 42 :: 47 :: t) := by
    simp
  have hcom := consume_comment_block c t (JsonParser.mk (47 :: 42 :: (c ++ [42, 47]) ++ t) 0 err
    false JsonParse.COMMENTS) hc hd
  have hadv : (JsonParser.mk (47 :: 42 :: (c ++ [42, 47]) ++ t) 0 err false
      JsonParse.COMMENTS).adv (c.length + 4) =
      (JsonParser.mk t 0 err false JsonParse.COMMENTS).shift (47 :: 42 :: (c ++ [42, 47])) := by
    simp only [JsonParser.adv, JsonParser.shift, List.length_cons, List.length_append,
      List.length_nil]
    congr 1
    omega
  rw [hadv] at hcom
  have hws : consume_whitespace (JsonParser.mk (47 :: 42 :: (c ++ [42, 47]) ++ t) 0 err false
      JsonParse.COMMENTS) = JsonParser.mk (47 :: 42 :: (c ++ [42, 47]) ++ t) 0 err false
      JsonParse.COMMENTS :=
    consume_whitespace_of_not_ws _ (by rw [cur_of_drop _ 47 _ hd]; decide)
  rw [← consume_garbage_shift]
  have hw := consume_whitespace_i ((JsonParser.mk t 0 err false JsonParse.COMMENTS).shift
    (47 :: 42 :: (c ++ [42, 47]))) (by simp)
  simp only [consume_whitespace_str] at hw
  simp only [shift_i, shift_str, List.length_cons, List.length_append, List.length_nil] at hw
  simp only [consume_garbage]
  rw [hws, if_pos rfl, if_pos (by simp)]
  simp only [List.length_cons, List.length_append, List.length_nil, Nat.sub_zero]
  rw [consume_garbage_loop, hcom]
  simp only [shift_failed, Bool.false_eq_true, if_false, if_true]
  exact consume_garbage_loop_fuel _ _ _
    (by simp only [consume_whitespace_str, shift_str, List.length_cons, List.length_append,
      List.length_nil]; omega)
    (by simp only [consume_whitespace_str, shift_str, List.length_cons, List.length_append,
      List.length_nil]; omega)
    (by simp only [consume_whitespace_str, shift_str, List.length_cons, List.length_append,
      List.length_nil]; omega)

theorem parse_json_block (L : Libc) (c t err : List Nat) (hc : ¬ ([42, 47] <:+: c))
    (fuel : Nat) :
    parse_json L (fuel + 1) 0
        ⟨47 :: 42 :: (c ++ [42, 47]) ++ t, 0, err, false, JsonParse.COMMENTS⟩ =
      parse_json L (fuel + 1) 0
        ((JsonParser.mk t 0 err false JsonParse.COMMENTS).shift (47 :: 42 :: (c ++ [42, 47]))) := by
  have ht : get_next_token
      ⟨47 :: 42 :: (c ++ [42, 47]) ++ t, 0, err, false, JsonParse.COMMENTS⟩ =
      get_next_token ((JsonParser.mk t 0 err false JsonParse.COMMENTS).shift
        (47 :: 42 :: (c ++ [42, 47]))) := by
    simp only [get_next_token]
    rw [consume_garbage_block c t err hc, consume_garbage_shift]
  have h0 : ¬ (0 > max_depth) := by decide
  rw [parse_json_succ, parse_json_succ, if_neg h0, if_neg h0, ht]

/-- What `parse` returns on a text after a multi-line comment: what it returns on
the text, in the state moved by the length of the comment. -/
theorem Json.parse_state_block (L : Libc) (c t err : List Nat) (hc : ¬ ([42, 47] <:+: c)) :
    Json.parse_state L (47 :: 42 :: (c ++ [42, 47]) ++ t) err JsonParse.COMMENTS =
      (Json.parse_state L t err JsonParse.COMMENTS).map
        (fun r => (r.1, r.2.shift (47 :: 42 :: (c ++ [42, 47])))) := by
  obtain ⟨r, hr⟩ := parse_json_fuel_some L 0 ⟨t, 0, err, false, JsonParse.COMMENTS⟩
    (Nat.zero_le _)
  simp only at hr
  have hm := parse_json_mono L _ (parse_json_fuel (47 :: 42 :: (c ++ [42, 47]) ++ t)) 0 _ r
    (by simp only [parse_json_fuel, List.length_append, List.length_cons]; omega) hr
  have hs := parse_json_shift L (47 :: 42 :: (c ++ [42, 47]))
    (parse_json_fuel (47 :: 42 :: (c ++ [42, 47]) ++ t)) 0
    ⟨t, 0, err, false, JsonParse.COMMENTS⟩ (Nat.zero_le _)
  rw [hm] at hs
  have hb : parse_json L (parse_json_fuel (47 :: 42 :: (c ++ [42, 47]) ++ t)) 0
      ⟨47 :: 42 :: (c ++ [42, 47]) ++ t, 0, err, false, JsonParse.COMMENTS⟩ =
      some (r.1, r.2.shift (47 :: 42 :: (c ++ [42, 47]))) := by
    have hf : parse_json_fuel (47 :: 42 :: (c ++ [42, 47]) ++ t) =
        (2 * (47 :: 42 :: (c ++ [42, 47]) ++ t).length + 3) + 1 := rfl
    rw [hf, parse_json_block L c t err hc, ← hf, hs]
    rfl
  have e1 := parse_json_ext L _ _ _ _ hr
  have hlen : (consume_garbage r.2).str.length = t.length :=
    (e1.trans (consume_garbage_ext r.2)).length
  rw [Json.parse_state_eq L _ err JsonParse.COMMENTS _ hb,
    Json.parse_state_eq L t err JsonParse.COMMENTS r hr]
  simp only [consume_garbage_shift, shift_failed]
  by_cases h1 : (consume_garbage r.2).failed = true
  · rw [if_pos h1, if_pos h1]
    rfl
  rw [if_neg h1, if_neg h1]
  have e : ((consume_garbage r.2).shift (47 :: 42 :: (c ++ [42, 47]))).i ≠
      (47 :: 42 :: (c ++ [42, 47]) ++ t).length ↔ (consume_garbage r.2).i ≠ t.length := by
    simp only [shift_i, List.length_append, List.length_cons, List.length_nil]
    omega
  by_cases h2 : (consume_garbage r.2).i ≠ t.length
  · rw [if_pos h2, if_pos (e.mpr h2)]
    simp only [Option.map_some', Option.some.injEq, Prod.mk.injEq, true_and]
    rw [shift_fail]
    congr 4
    exact shift_at _ _ _
  · rw [if_neg h2, if_neg (fun x => h2 (e.mp x))]
    rfl

/-! ## Shape check -/

theorem has_shape_loop_true (L : Libc) (j : Json) (types : List (List Nat × JsonType))
    (err : List Nat) :
    (has_shape_loop L j types err).1 = true ↔ ∀ item ∈ types, MemberOk j item := by
  induction types with
  | nil => simp [has_shape_loop]
  | cons item rest ih =>
    simp only [has_shape_loop, List.mem_cons, forall_eq_or_imp]
    cases hfind : map_find item.1 j.object_items with
    | none => simp [MemberOk, hfind]
    | some v =>
      by_cases hty : v.type = item.2
      · simp [MemberOk, hfind, hty, ih]
      · simp [MemberOk, hfind, hty]

theorem has_shape_loop_err (L : Libc) (j : Json) (types : List (List Nat × JsonType))
    (err : List Nat) (h : (has_shape_loop L j types err).1 = true) :
    (has_shape_loop L j types err).2 = err := by
  induction types with
  | nil => rfl
  | cons item rest ih =>
    simp only [has_shape_loop] at h ⊢
    cases hfind : map_find item.1 j.object_items with
    | none => simp [hfind] at h
    | some v =>
      by_cases hty : v.type = item.2
      · simp only [hfind, hty, ne_eq, not_true_eq_false, if_false] at h ⊢
        exact ih h
      · simp [hfind, hty] at h

theorem has_shape_loop_first (L : Libc) (j : Json) (pre : List (List Nat × JsonType))
    (item : List Nat × JsonType) (post : List (List Nat × JsonType)) (err : List Nat)
    (hpre : ∀ x ∈ pre, MemberOk j x) (hitem : ¬ MemberOk j item) :
    has_shape_loop L j (pre ++ item :: post) err =
      (false, bytes "bad type for " ++ item.1 ++ bytes "in" ++ j.dumps L) := by
  induction pre with
  | nil =>
    simp only [List.nil_append, has_shape_loop]
    cases hfind : map_find item.1 j.object_items with
    | none => rfl
    | some v =>
      have hty : v.type ≠ item.2 := fun hty => hitem ⟨v, hfind, hty⟩
      simp [hty]
  | cons x xs ih =>
    obtain ⟨v, hfind, hty⟩ := hpre x (List.mem_cons_self _ _)
    simp only [List.cons_append, has_shape_loop, hfind, hty, ne_eq, not_true_eq_false, if_false]
    exact ih (fun y hy => hpre y (List.mem_cons_of_mem _ hy))

/-- C10: `has_shape` returns true exactly when the value is an Object and every
listed name is a member of the expected kind, and then leaves `err` alone; on an
Object it stops at the first listed pair that is missing or of another kind and
reports "bad type for ", the name, "in" and the dump of the value; on a value
that is not an Object it returns false whatever the list.  For the expectation
("name", String) against the object with "name" bound to 1 it returns false and
the message names "name". -/
theorem has_shape_spec (L : Libc) (V : Json) (types : List (List Nat × JsonType))
    (err : List Nat) :
    ((V.has_shape L types err).1 = true ↔
      (V.type = JsonType.OBJECT ∧ ∀ item ∈ types, MemberOk V item)) ∧
    ((V.has_shape L types err).1 = true → (V.has_shape L types err).2 = err) ∧
    (V.type = JsonType.OBJECT → ∀ pre item post, types = pre ++ item :: post →
      (∀ x ∈ pre, MemberOk V x) → ¬ MemberOk V item →
      V.has_shape L types err =
        (false, bytes "bad type for " ++ item.1 ++ bytes "in" ++ V.dumps L)) ∧
    (V.type ≠ JsonType.OBJECT →
      V.has_shape L types err = (false, bytes "expected JSON object, got " ++ V.dumps L)) ∧
    Json.has_shape L (Json.object [(bytes "name", Json.int 1)])
        [(bytes "name", JsonType.STRING)] err =
      (false, bytes "bad type for " ++ bytes "name" ++ bytes "in" ++
        bytes "\x7b\"name\": 1\x7d") := by
  refine ⟨?_, ?_, ?_, ?_, ?_⟩
  · by_cases hobj : V.type = JsonType.OBJECT
    · simp [Json.has_shape, Json.is_object, hobj, has_shape_loop_true]
    · simp [Json.has_shape, Json.is_object, hobj]
  · by_cases hobj : V.type = JsonType.OBJECT
    · simp only [Json.has_shape, Json.is_object, hobj, decide_True, Bool.not_true,
        Bool.false_eq_true, if_false]
      exact has_shape_loop_err L V types err
    · simp [Json.has_shape, Json.is_object, hobj]
  · intro hobj pre item post ht hpre hitem
    simp only [Json.has_shape, Json.is_object, hobj, decide_True, Bool.not_true,
      Bool.false_eq_true, if_false, ht]
    exact has_shape_loop_first L V pre item post err hpre hitem
  · intro hobj
    simp [Json.has_shape, Json.is_object, hobj]
  · rfl

/-- The three documents of the test, read one after the other. -/
theorem parse_multi_example (L : Libc) :
    Json.parse_multi L (bytes "\"20\" 3 32.4") [] JsonParse.STANDARD =
      some ([Json.string (bytes "20"), Json.int 3, Json.double (L.strtod (bytes "32.4"))],
        11, []) := by
  have hb : bytes "\"20\" 3 32.4" = [34, 50, 48, 34, 32, 51, 32, 51, 50, 46, 52] := by decide
  have h20 : bytes "20" = [50, 48] := by decide
  have h324 : bytes "32.4" = [51, 50, 46, 52] := by decide
  have s1 : parse_json L 26 0 ⟨[34, 50, 48, 34, 32, 51, 32, 51, 50, 46, 52], 0, [], false,
      JsonParse.STANDARD⟩ = some (Json.string [50, 48],
        ⟨[34, 50, 48, 34, 32, 51, 32, 51, 50, 46, 52], 4, [], false, JsonParse.STANDARD⟩) := rfl
  have g1 : consume_garbage ⟨[34, 50, 48, 34, 32, 51, 32, 51, 50, 46, 52], 4, [], false,
      JsonParse.STANDARD⟩ =
        ⟨[34, 50, 48, 34, 32, 51, 32, 51, 50, 46, 52], 5, [], false, JsonParse.STANDARD⟩ := rfl
  have s2 : parse_json L 26 0 ⟨[34, 50, 48, 34, 32, 51, 32, 51, 50, 46, 52], 5, [], false,
      JsonParse.STANDARD⟩ = some (Json.int 3,
        ⟨[34, 50, 48, 34, 32, 51, 32, 51, 50, 46, 52], 6, [], false, JsonParse.STANDARD⟩) := rfl
  have g2 : consume_garbage ⟨[34, 50, 48, 34, 32, 51, 32, 51, 50, 46, 52], 6, [], false,
      JsonParse.STANDARD⟩ =
        ⟨[34, 50, 48, 34, 32, 51, 32, 51, 50, 46, 52], 7, [], false, JsonParse.STANDARD⟩ := rfl
  have s3 : parse_json L 26 0 ⟨[34, 50, 48, 34, 32, 51, 32, 51, 50, 46, 52], 7, [], false,
      JsonParse.STANDARD⟩ = some (Json.double (L.strtod [51, 50, 46, 52]),
        ⟨[34, 50, 48, 34, 32, 51, 32, 51, 50, 46, 52], 11, [], false, JsonParse.STANDARD⟩) := rfl
  have g3 : consume_garbage ⟨[34, 50, 48, 34, 32, 51, 32, 51, 50, 46, 52], 11, [], false,
      JsonParse.STANDARD⟩ =
        ⟨[34, 50, 48, 34, 32, 51, 32, 51, 50, 46, 52], 11, [], false, JsonParse.STANDARD⟩ := rfl
  have hf : parse_json_fuel [34, 50, 48, 34, 32, 51, 32, 51, 50, 46, 52] = 26 := rfl
  rw [hb, h20, h324]
  simp only [Json.parse_multi, Json.parse_multi_state, List.length_cons, List.length_nil]
  rw [parse_multi_loop_succ, if_pos (by decide)]
  simp only [hf, s1]
  rw [if_neg (by decide), g1, if_neg (by decide)]
  rw [parse_multi_loop_succ, if_pos (by decide)]
  simp only [hf, s2]
  rw [if_neg (by decide), g2, if_neg (by decide)]
  rw [parse_multi_loop_succ, if_pos (by decide)]
  simp only [hf, s3]
  rw [if_neg (by decide), g3, if_neg (by decide)]
  rw [parse_multi_loop_succ, if_neg (by decide)]
  rfl

/-- C8: `parse_multi` returns on every input and dialect; when the parser has not
failed at the return, `parser_stop_pos` is the length of the input, `err` is as
the caller passed it, and the vector holds, in input order, the values of the
documents read by `parse_json(0)` from offset 0 to the end, each followed by its
garbage.  On the three documents of the test the vector is String "20", the
integer Number 3 and the double `strtod` reads from "32.4", with stop offset 11;
on the empty input it is empty, with stop offset 0 and `err` untouched. -/
theorem parse_multi_success (L : Libc) (inp err : List Nat) (strategy : JsonParse) :
    ∃ vs stop p, Json.parse_multi_state L inp err strategy = some (vs, stop, p) ∧
      Json.parse_multi L inp err strategy = some (vs, stop, p.err) ∧
      (p.failed = false →
        stop = inp.length ∧ p.err = err ∧ Docs L inp err strategy 0 vs inp.length) ∧
      Json.parse_multi L (bytes "\"20\" 3 32.4") [] JsonParse.STANDARD =
        some ([Json.string (bytes "20"), Json.int 3, Json.double (L.strtod (bytes "32.4"))],
          11, []) ∧
      Json.parse_multi L [] err strategy = some ([], 0, err) := by
  obtain ⟨vs, stop, q, h1, h2, h3⟩ := Json.parse_multi_state_spec L inp err strategy
  refine ⟨vs, stop, q, h1, by simp [Json.parse_multi, h1], ?_, ?_, ?_⟩
  · intro hf
    rcases h3 with ⟨_, h32, _, h34⟩ | ⟨h31, _⟩
    · exact ⟨h32, h2.keep hf, h34⟩
    · rw [hf] at h31
      cases h31
  · exact parse_multi_example L
  · rfl

/-- C9, as the code has it: on "1 x" the parser fails in the second document, and
the vector returned holds a Null for it after the 1 of the first document, so it
is not the list of the documents that were read without a failure. -/
theorem parse_multi_failure_counterexample :
    ∃ p, Json.parse_multi_state sample_libc (bytes "1 x") [] JsonParse.STANDARD =
        some ([Json.int 1, Json.null], 2, p) ∧ p.failed = true ∧
      ¬ ∃ j, Docs sample_libc (bytes "1 x") [] JsonParse.STANDARD 0 [Json.int 1, Json.null] j := by
  refine ⟨⟨bytes "1 x", 3, bytes "expected value, got 'x' (120)", true, JsonParse.STANDARD⟩,
    by decide!, rfl, ?_⟩
  rintro ⟨j, h⟩
  have c1 : parse_json sample_libc (parse_json_fuel (bytes "1 x")) 0
      ⟨bytes "1 x", 0, [], false, JsonParse.STANDARD⟩ =
      some (Json.int 1, ⟨bytes "1 x", 1, [], false, JsonParse.STANDARD⟩) := by decide!
  have g1 : consume_garbage ⟨bytes "1 x", 1, [], false, JsonParse.STANDARD⟩ =
      ⟨bytes "1 x", 2, [], false, JsonParse.STANDARD⟩ := by decide!
  have c2 : parse_json sample_libc (parse_json_fuel (bytes "1 x")) 0
      ⟨bytes "1 x", 2, [], false, JsonParse.STANDARD⟩ =
      some (Json.null, ⟨bytes "1 x", 3, bytes "expected value, got 'x' (120)", true,
        JsonParse.STANDARD⟩) := by decide!
  cases h with
  | cons _ _ p _ _ _ hp _ _ hrest =>
    rw [c1] at hp
    cases hp
    rw [g1] at hrest
    cases hrest with
    | cons _ _ p2 _ _ _ hp2 hf2 _ _ =>
      rw [c2] at hp2
      cases hp2
      cases hf2

/-- C9, amended: when the parser has failed at the return of `parse_multi`, `err`
holds a message and the vector is the values of the documents read without a
failure, in order, followed by one more element, the value `parse_json(0)`
returned for the document at which the parser stopped: either that document
failed, and the element is Null (or the empty String, for a failure inside a
string literal at its top), or it was read and the garbage after it failed, and
the element is its value.  `parser_stop_pos` is the offset of that document. -/
theorem parse_multi_failure (L : Libc) (inp err : List Nat) (strategy : JsonParse) :
    ∃ vs stop p, Json.parse_multi_state L inp err strategy = some (vs, stop, p) ∧
      Json.parse_multi L inp err strategy = some (vs, stop, p.err) ∧
      (p.failed = true → p.err ≠ [] ∧
        ∃ ok j v r, Docs L inp err strategy 0 ok j ∧ stop = j ∧ j ≠ inp.length ∧
          parse_json L (parse_json_fuel inp) 0 ⟨inp, j, err, false, strategy⟩ = some (v, r) ∧
          vs = ok ++ [v] ∧
          ((r.failed = true ∧ p = r ∧ (v = Json.null ∨ v = Json.string [])) ∨
            (r.failed = false ∧ (consume_garbage r).failed = true ∧
              p = consume_garbage r))) := by
  obtain ⟨vs, stop, q, h1, h2, h3⟩ := Json.parse_multi_state_spec L inp err strategy
  refine ⟨vs, stop, q, h1, by simp [Json.parse_multi, h1], ?_⟩
  intro hf
  refine ⟨h2.msg rfl hf, ?_⟩
  rcases h3 with ⟨h31, _⟩ | ⟨_, ok, j, v, r, h32, h33, h34, h35, h36, h37⟩
  · rw [hf] at h31
    cases h31
  · refine ⟨ok, j, v, r, h32, h33, h34, h35, h36, ?_⟩
    rcases h37 with ⟨h371, h372⟩ | h37
    · exact Or.inl ⟨h371, h372, parse_json_failed_value L _ _ _ _ h35 h371⟩
    · exact Or.inr h37

/-- C4, as the code has it at 201: arrays nested to 201 levels parse without an
error under STANDARD, so the claim's failure at n = 201 does not hold. -/
theorem depth_201_counterexample :
    Json.parse sample_libc (brackets 201) [] JsonParse.STANDARD =
      some (nested_array 200, []) := by
  decide!

/-- C4, amended: under STANDARD the text of n opening and n closing brackets
parses without an error for n = 200 and for n = 201, to the arrays nested that
deep, and for n = 202 it fails with "exceeded maximum nesting depth" and Null. -/
theorem depth_boundary (L : Libc) :
    Json.parse L (brackets 200) [] JsonParse.STANDARD = some (nested_array 199, []) ∧
    Json.parse L (brackets 201) [] JsonParse.STANDARD = some (nested_array 200, []) ∧
    Json.parse L (brackets 202) [] JsonParse.STANDARD =
      some (Json.null, bytes "exceeded maximum nesting depth") :=
  ⟨Json.parse_libc sample_libc L _ _ _ _ _ (by decide!) (by decide!),
   Json.parse_libc sample_libc L _ _ _ _ _ (by decide!) (by decide!),
   Json.parse_libc sample_libc L _ _ _ _ _ (by decide!) (by decide!)⟩

/-- The string literal of two adjacent escapes, a high and a low surrogate. -/
theorem parse_surrogate_pair (L : Libc) (th tl : List Nat) (h l : Nat) (err : List Nat)
    (hth : th.length = 4) (hthx : th.all is_hex = true) (hthv : strtol16 th = h)
    (htl : tl.length = 4) (htlx : tl.all is_hex = true) (htlv : strtol16 tl = l)
    (hh : 0xD800 ≤ h ∧ h ≤ 0xDBFF) (hl : 0xDC00 ≤ l ∧ l ≤ 0xDFFF) :
    Json.parse L ([34, 92, 117] ++ th ++ [92, 117] ++ tl ++ [34]) err JsonParse.STANDARD =
      some (Json.string (utf8_four (0x10000 + ((h - 0xD800) <<< 10 ||| (l - 0xDC00)))), err) := by
  obtain ⟨a, b, c, d, rfl⟩ : ∃ a b c d, th = [a, b, c, d] := by
    match th, hth with
    | [a, b, c, d], _ => exact ⟨a, b, c, d, rfl⟩
  obtain ⟨e, f, g, k, rfl⟩ : ∃ e f g k, tl = [e, f, g, k] := by
    match tl, htl with
    | [e, f, g, k], _ => exact ⟨e, f, g, k, rfl⟩
  have hb := surrogate_bound h l hh hl
  have hc1 : ¬ (in_range (-1) 0xD800 0xDBFF = true ∧
      in_range (strtol16 [a, b, c, d] : Int) 0xDC00 0xDFFF = true) := by
    intro hc
    exact absurd hc.1 (by decide)
  have hc2 : in_range (strtol16 [a, b, c, d] : Int) 0xD800 0xDBFF = true ∧
      in_range (strtol16 [e, f, g, k] : Int) 0xDC00 0xDFFF = true := by
    rw [hthv, htlv]
    simp only [in_range, Bool.and_eq_true, decide_eq_true_eq]
    omega
  have hcomb : ((((((strtol16 [a, b, c, d] : Int) - 0xD800).toNat <<< 10) |||
      ((strtol16 [e, f, g, k] : Int) - 0xDC00).toNat : Nat) : Int) + (0x10000 : Int)) =
      ((0x10000 + ((h - 0xD800) <<< 10 ||| (l - 0xDC00)) : Nat) : Int) := by
    rw [hthv, htlv]
    have e1 : ((h : Int) - 0xD800).toNat = h - 0xD800 := by omega
    have e2 : ((l : Int) - 0xDC00).toNat = l - 0xDC00 := by omega
    rw [e1, e2]
    push_cast
    omega
  have hs : parse_string ⟨[34, 92, 117, a, b, c, d, 92, 117, e, f, g, k, 34], 1, err, false,
      JsonParse.STANDARD⟩ =
      (utf8_four (0x10000 + ((h - 0xD800) <<< 10 ||| (l - 0xDC00))),
        ⟨[34, 92, 117, a, b, c, d, 92, 117, e, f, g, k, 34], 14, err, false,
          JsonParse.STANDARD⟩) := by
    simp only [parse_string]
    rw [show [34, 92, 117, a, b, c, d, 92, 117, e, f, g, k, 34].length - 1 + 1 = 11 + 1 + 1 + 1
      from rfl]
    rw [parse_string_loop_u _ _ _ _ [a, b, c, d] (by rfl) (by rfl) (by rfl) (by rfl) hthx,
      if_neg hc1,
      parse_string_loop_u _ _ _ _ [e, f, g, k] (by rfl) (by rfl) (by rfl) (by rfl) htlx,
      if_pos hc2, parse_string_loop_quote _ _ _ _ (by rfl), hcomb, encode_utf8_neg, encode_utf8_neg,
      encode_utf8_four _ _ (by omega) (by omega)]
    rfl
  have ht : get_next_token ⟨[34, 92, 117, a, b, c, d, 92, 117, e, f, g, k, 34], 0, err, false,
      JsonParse.STANDARD⟩ =
      (34, ⟨[34, 92, 117, a, b, c, d, 92, 117, e, f, g, k, 34], 1, err, false,
        JsonParse.STANDARD⟩) := rfl
  have hg : consume_garbage ⟨[34, 92, 117, a, b, c, d, 92, 117, e, f, g, k, 34], 14, err, false,
      JsonParse.STANDARD⟩ =
      ⟨[34, 92, 117, a, b, c, d, 92, 117, e, f, g, k, 34], 14, err, false,
        JsonParse.STANDARD⟩ := rfl
  have hj : parse_json L (parse_json_fuel [34, 92, 117, a, b, c, d, 92, 117, e, f, g, k, 34]) 0
      ⟨[34, 92, 117, a, b, c, d, 92, 117, e, f, g, k, 34], 0, err, false, JsonParse.STANDARD⟩ =
      some (Json.string (utf8_four (0x10000 + ((h - 0xD800) <<< 10 ||| (l - 0xDC00)))),
        ⟨[34, 92, 117, a, b, c, d, 92, 117, e, f, g, k, 34], 14, err, false,
          JsonParse.STANDARD⟩) := by
    rw [show parse_json_fuel [34, 92, 117, a, b, c, d, 92, 117, e, f, g, k, 34] = 31 + 1
      from rfl, parse_json_succ, ht]
    simp only [hs]
    rw [if_neg (by decide), if_neg (by decide), if_neg (by decide), if_neg (by decide),
      if_neg (by decide), if_neg (by decide), if_pos (by decide)]
  show Json.parse L [34, 92, 117, a, b, c, d, 92, 117, e, f, g, k, 34] err JsonParse.STANDARD = _
  simp only [Json.parse, Json.parse_state_eq L _ _ _ _ hj, hg]
  rw [if_neg (by decide), if_neg (by simp)]
  rfl

/-- C6: the string literal made of the escapes of a high surrogate h and of a low
surrogate l, four hexadecimal digits of either case each, parses under STANDARD
to the String whose bytes are the four-byte UTF-8 sequence of the code point
0x10000 + (((h - 0xD800) << 10) | (l - 0xDC00)), and the dump of that String is
those four bytes between quotes. -/
theorem surrogate_pair (L : Libc) (th tl : List Nat) (h l : Nat) (err : List Nat)
    (hth : th.length = 4) (hthx : th.all is_hex = true) (hthv : strtol16 th = h)
    (htl : tl.length = 4) (htlx : tl.all is_hex = true) (htlv : strtol16 tl = l)
    (hh : 0xD800 ≤ h ∧ h ≤ 0xDBFF) (hl : 0xDC00 ≤ l ∧ l ≤ 0xDFFF) :
    Json.parse L ([34, 92, 117] ++ th ++ [92, 117] ++ tl ++ [34]) err JsonParse.STANDARD =
      some (Json.string (utf8_four (0x10000 + ((h - 0xD800) <<< 10 ||| (l - 0xDC00)))), err) ∧
    Json.dumps L (Json.string (utf8_four (0x10000 + ((h - 0xD800) <<< 10 ||| (l - 0xDC00))))) =
      [34] ++ utf8_four (0x10000 + ((h - 0xD800) <<< 10 ||| (l - 0xDC00))) ++ [34] := by
  refine ⟨parse_surrogate_pair L th tl h l err hth hthx hthv htl htlx htlv hh hl, ?_⟩
  have hb := surrogate_bound h l hh hl
  simp only [Json.dumps, Json.dump]
  rw [dump_string_utf8_four _ _ (by omega)]
  rfl

/-- C6 at U+1F600: the literal with the escapes D83D and DE00 parses to the bytes
F0 9F 98 80, and they are dumped unchanged between quotes. -/
theorem surrogate_pair_witness :
    Json.parse sample_libc (bytes "\"\\uD83D\\uDE00\"") [] JsonParse.STANDARD =
      some (Json.string [0xF0, 0x9F, 0x98, 0x80], []) ∧
    Json.dumps sample_libc (Json.string [0xF0, 0x9F, 0x98, 0x80]) =
      [34, 0xF0, 0x9F, 0x98, 0x80, 34] :=
  surrogate_pair sample_libc (bytes "D83D") (bytes "DE00") 0xD83D 0xDE00 [] (by decide)
    (by decide) (by decide) (by decide) (by decide) (by decide) (by decide) (by decide)

/-! ## Round trip through `dump` and `parse` -/

/-- C1, as the code has it outside the two restrictions of the amended claim.
A double that is not finite (an infinity, a NaN): `dump` writes `null` for it,
which `parse` reads without an error as Null, and Null is not equal to the
Number.  A value nested too deep (202 arrays): `parse` rejects its dump with the
message of the depth check. -/
theorem round_trip_counterexample :
    (Json.parse sample_libc (Json.dumps sample_libc (Json.double Double.posInf)) []
        JsonParse.STANDARD = some (Json.null, []) ∧
      Json.eq Json.null (Json.double Double.posInf) = false) ∧
    (Json.parse sample_libc (Json.dumps sample_libc (Json.double Double.nan)) []
        JsonParse.STANDARD = some (Json.null, []) ∧
      Json.eq Json.null (Json.double Double.nan) = false) ∧
    Json.parse sample_libc (Json.dumps sample_libc (nested_array 201)) []
        JsonParse.STANDARD = some (Json.null, bytes "exceeded maximum nesting depth") := by
  decide!

/-- C1, amended: for every value V built from the native constructors (Null,
Bool, 32-bit integer, double, String, Array, Object with its members in key
order, nested) whose doubles are all finite and that has no node under more
than 200 arrays and objects, `parse(dump(V), STANDARD)` reports no error and
returns the value `reparsed L V`, and that value is equal (`operator==`) to V.
The value returned is V with every integer of more than nine characters held as
a double and every double whose text is an integer of at most nine characters
held as an integer.  The C library is assumed to read the decimal text of a
32-bit integer exactly (`StrtodInt`) and to print each double of V as a number
literal that is read back to it (`PrintsBack`). -/
theorem round_trip (L : Libc) (hL : StrtodInt L) (V : Json) (hV : Json.Native 0 V)
    (hfin : ∀ x ∈ V.doubles, x.isfinite = true) (hP : ∀ x ∈ V.doubles, PrintsBack L x) :
    Json.parse L (Json.dumps L V) [] JsonParse.STANDARD = some (Json.reparsed L V, []) ∧
      Json.eq (Json.reparsed L V) V = true :=
  ⟨Json.parse_printed L hL V (hV.printable_of L (fun x hx _ => hP x hx)) [],
    Json.eq_reprinted L (hV.printable_of L (fun x hx _ => hP x hx)) hfin⟩

/-- C1 at an object that holds an array with the doubles 0.5, 5.0, 2147483647.0
and -0.0 and an integer of eleven characters, and a string with an escape. -/
theorem round_trip_witness :
    StrtodInt decimal_libc ∧ Json.Native 0 sample_finite ∧
    (∀ x ∈ sample_finite.doubles, x.isfinite = true) ∧
    (∀ x ∈ sample_finite.doubles, PrintsBack decimal_libc x) ∧
    (Json.parse decimal_libc (Json.dumps decimal_libc sample_finite) [] JsonParse.STANDARD =
        some (Json.reparsed decimal_libc sample_finite, []) ∧
      Json.eq (Json.reparsed decimal_libc sample_finite) sample_finite = true) :=
  ⟨strtodInt_decimal, native_sample_finite, finite_sample_finite, printsBack_sample_finite,
    round_trip decimal_libc strtodInt_decimal sample_finite native_sample_finite
      finite_sample_finite printsBack_sample_finite⟩

/-- C2, as the code has it outside the two restrictions of the amended claim.
A value nested too deep (202 arrays): `parse` rejects the dump for its depth and
returns Null, whose dump is `null`.  Negative zero, which `%.17g` prints as
`-0`: the text has two characters and no `.`, `e` or `E`, so `parse` reads it
through `atoi` as the integer 0, whose dump is `0`. -/
theorem dump_parse_dump_counterexample :
    (Json.parse sample_libc (Json.dumps sample_libc (nested_array 201)) []
        JsonParse.STANDARD = some (Json.null, bytes "exceeded maximum nesting depth") ∧
      Json.dumps sample_libc Json.null ≠ Json.dumps sample_libc (nested_array 201)) ∧
    (Json.dumps decimal_libc (Json.double Double.negZero) = bytes "-0" ∧
      Json.parse decimal_libc (bytes "-0") [] JsonParse.STANDARD = some (Json.int 0, []) ∧
      Json.dumps decimal_libc (Json.int 0) = bytes "0") := by
  decide!

/-- C2, amended: for every value V built from the native constructors (Null,
Bool, 32-bit integer, double, String, Array, Object with its members in key
order, nested) that holds no negative zero and has no node under more than 200
arrays and objects, `parse(dump(V), STANDARD)` reports no error and the dump of
the value it returns is byte for byte the dump of V; the doubles of V may be
infinite or NaN.  The C library is assumed to read the decimal text of a 32-bit
integer exactly (`StrtodInt`), to print a double holding such an integer by its
digits (`FmtInt`), and to print each finite double of V as a number literal that
is read back to it (`PrintsBack`). -/
theorem dump_parse_dump (L : Libc) (hL : StrtodInt L) (hF : FmtInt L) (V : Json)
    (hV : Json.Native 0 V) (hz : Double.negZero ∉ V.doubles)
    (hP : ∀ x ∈ V.doubles, x.isfinite = true → PrintsBack L x) :
    ∃ W, Json.parse L (Json.dumps L V) [] JsonParse.STANDARD = some (W, []) ∧
      Json.dumps L W = Json.dumps L V :=
  ⟨Json.reparsed L V, Json.parse_printed L hL V (hV.printable_of L hP) [],
    Json.dumps_reprinted L hF (hV.printable_of L hP) hz⟩

/-- C2 at an array that holds a NaN, an infinity, the doubles 0.5, 5.0 and
2147483647.0, the largest `int` and a string with an escape. -/
theorem dump_parse_dump_witness :
    StrtodInt decimal_libc ∧ FmtInt decimal_libc ∧ Json.Native 0 sample_mixed ∧
    Double.negZero ∉ sample_mixed.doubles ∧
    (∀ x ∈ sample_mixed.doubles, x.isfinite = true → PrintsBack decimal_libc x) ∧
    ∃ W, Json.parse decimal_libc (Json.dumps decimal_libc sample_mixed) []
        JsonParse.STANDARD = some (W, []) ∧
      Json.dumps decimal_libc W = Json.dumps decimal_libc sample_mixed :=
  ⟨strtodInt_decimal, fmtInt_decimal, native_sample_mixed, negZero_sample_mixed,
    printsBack_sample_mixed,
    dump_parse_dump decimal_libc strtodInt_decimal fmtInt_decimal sample_mixed
      native_sample_mixed negZero_sample_mixed printsBack_sample_mixed⟩

/-! ## Duplicate keys -/

/-- C5: whenever `parse` returns an object, under either dialect, the lookup of
every key in it gives the value parsed for the last member with that key in the
text, `at(key)` is that value or Null for a key that does not occur, the object
has one member per key that occurs and no other, and the text
`{"a":1,"a":2}`, whose members are read as ("a", 1) and ("a", 2), gives the
object with the one member ("a", 2), so that `at("a")` is the Number 2. -/
theorem duplicate_keys (L : Libc) :
    (∀ (inp err : List Nat) (strategy : JsonParse) (m : List (List Nat × Json)) (e : List Nat),
      Json.parse L inp err strategy = some (Json.object m, e) →
      (∀ key, map_find key m = last_value key (Json.parse_members L inp err strategy)) ∧
      (∀ key, (Json.object m).at_key key =
        (last_value key (Json.parse_members L inp err strategy)).getD Json.null) ∧
      (m.map Prod.fst).Nodup ∧
      (∀ key, key ∈ m.map Prod.fst ↔
        key ∈ (Json.parse_members L inp err strategy).map Prod.fst)) ∧
    Json.parse L (bytes "\x7b\"a\":1,\"a\":2\x7d") [] JsonParse.STANDARD =
      some (Json.object [(bytes "a", Json.int 2)], []) ∧
    Json.parse_members sample_libc (bytes "\x7b\"a\":1,\"a\":2\x7d") [] JsonParse.STANDARD =
      [(bytes "a", Json.int 1), (bytes "a", Json.int 2)] ∧
    (Json.object [(bytes "a", Json.int 2)]).at_key (bytes "a") = Json.int 2 := by
  refine ⟨?_, Json.parse_libc sample_libc L _ _ _ _ _ (by decide!) (by decide!), by decide!,
    by decide!⟩
  intro inp err strategy m e h
  have hm := Json.parse_members_eq L inp err strategy m e h
  have hfind : ∀ key, map_find key m =
      last_value key (Json.parse_members L inp err strategy) := by
    intro key
    rw [hm, map_find_assign_all_nil]
  refine ⟨hfind, ?_, ?_, ?_⟩
  · intro key
    simp only [Json.at_key]
    rw [hfind key]
  · rw [hm]
    exact sorted_keys_nodup _ (assign_all_sorted_keys _ [] List.Pairwise.nil)
  · intro key
    rw [hm, assign_all_keys]
    simp

/-- C5 at the text `{"a":1,"a":2}`: the lookup of "a" in the object returned is
the value of the last member read with that key. -/
theorem duplicate_keys_witness :
    Json.parse sample_libc (bytes "\x7b\"a\":1,\"a\":2\x7d") [] JsonParse.STANDARD =
      some (Json.object [(bytes "a", Json.int 2)], []) ∧
    ((∀ key, map_find key [(bytes "a", Json.int 2)] =
      last_value key (Json.parse_members sample_libc (bytes "\x7b\"a\":1,\"a\":2\x7d") []
        JsonParse.STANDARD)) ∧
    (∀ key, (Json.object [(bytes "a", Json.int 2)]).at_key key =
      (last_value key (Json.parse_members sample_libc (bytes "\x7b\"a\":1,\"a\":2\x7d") []
        JsonParse.STANDARD)).getD Json.null) ∧
    ([(bytes "a", Json.int 2)].map Prod.fst).Nodup ∧
    (∀ key, key ∈ [(bytes "a", Json.int 2)].map Prod.fst ↔
      key ∈ (Json.parse_members sample_libc (bytes "\x7b\"a\":1,\"a\":2\x7d") []
        JsonParse.STANDARD).map Prod.fst)) :=
  ⟨by decide!, (duplicate_keys sample_libc).1 _ [] JsonParse.STANDARD _ [] (by decide!)⟩

/-! ## The dialect with comments -/

theorem bytes_comment_text : bytes "true" ++ bytes " //" ++ bytes " hi" = bytes "true // hi" := by
  decide

theorem bytes_comment_append (t c : List Nat) :
    t ++ bytes " //" ++ c = t ++ 32 :: 47 :: 47 :: c := by
  rw [List.append_assoc]
  rfl

/-- C7: for a `strtod` on which a space ends the number, every text t that
`parse` accepts under STANDARD with the value v and every text c without a line
feed, the input t ++ " //" ++ c fails under STANDARD with Null and the error
"unexpected trailing '/' (47)", and is accepted under COMMENTS with the value
v; so it is with "true // hi" and the value Bool(true). -/
theorem comment_dialect (L : Libc) (hL : StrtodLocal L) :
    (∀ (t c : List Nat) (v : Json), (∀ x ∈ c, x ≠ 10) →
      Json.parse L t [] JsonParse.STANDARD = some (v, []) →
      Json.parse L (t ++ bytes " //" ++ c) [] JsonParse.STANDARD =
        some (Json.null, bytes "unexpected trailing " ++ esc 47) ∧
      Json.parse L (t ++ bytes " //" ++ c) [] JsonParse.COMMENTS = some (v, [])) ∧
    Json.parse L (bytes "true // hi") [] JsonParse.STANDARD =
      some (Json.null, bytes "unexpected trailing " ++ esc 47) ∧
    Json.parse L (bytes "true // hi") [] JsonParse.COMMENTS = some (Json.bool true, []) := by
  have hgen : ∀ (t c : List Nat) (v : Json), (∀ x ∈ c, x ≠ 10) →
      Json.parse L t [] JsonParse.STANDARD = some (v, []) →
      Json.parse L (t ++ bytes " //" ++ c) [] JsonParse.STANDARD =
        some (Json.null, bytes "unexpected trailing " ++ esc 47) ∧
      Json.parse L (t ++ bytes " //" ++ c) [] JsonParse.COMMENTS = some (v, []) := by
    intro t c v hc ht
    rw [bytes_comment_append]
    exact ⟨Json.parse_comment_standard L hL t c v ht, Json.parse_comment_comments L hL t c v hc ht⟩
  have htrue : Json.parse L (bytes "true") [] JsonParse.STANDARD = some (Json.bool true, []) :=
    Json.parse_libc sample_libc L _ _ _ _ _ (by decide!) (by decide!)
  have hex := hgen (bytes "true") (bytes " hi") (Json.bool true) (by decide) htrue
  rw [bytes_comment_text] at hex
  exact ⟨hgen, hex⟩

/-- C7 at the text "true" and the comment " hi", for a C library whose `strtod`
reads decimal integers. -/
theorem comment_dialect_witness :
    StrtodLocal sample_libc ∧ (∀ x ∈ bytes " hi", x ≠ 10) ∧
    Json.parse sample_libc (bytes "true") [] JsonParse.STANDARD = some (Json.bool true, []) ∧
    Json.parse sample_libc (bytes "true" ++ bytes " //" ++ bytes " hi") [] JsonParse.STANDARD =
      some (Json.null, bytes "unexpected trailing " ++ esc 47) ∧
    Json.parse sample_libc (bytes "true" ++ bytes " //" ++ bytes " hi") [] JsonParse.COMMENTS =
      some (Json.bool true, []) :=
  ⟨strtodLocal_sample, by decide, by decide!,
    (comment_dialect sample_libc strtodLocal_sample).1 (bytes "true") (bytes " hi")
      (Json.bool true) (by decide) (by decide!)⟩

/-! ## The latched error -/

theorem fail_of_failed (p : JsonParser) (m : List Nat) (h : p.failed = true) : p.fail m = p := by
  cases p
  simp only [JsonParser.fail] at h ⊢
  simp [h]

/-- C11: on a parser whose flag is set `fail` changes nothing, so a second
failure keeps the message of the first and the flag; every call of the parser
entered with the flag set returns with the flag set and the same message; and on
the input `{` the parser fails twice, with "unexpected end of input" in
`get_next_token` and then with "expected '"' in object, got (0)", and `parse`
reports the first message. -/
theorem latched_error (L : Libc) :
    (∀ (p : JsonParser) (m : List Nat), p.failed = true → p.fail m = p) ∧
    (∀ (p : JsonParser) (m₁ m₂ : List Nat), (p.fail m₁).fail m₂ = p.fail m₁) ∧
    (∀ (p : JsonParser) (m : List Nat), p.failed = false →
      (p.fail m).failed = true ∧ (p.fail m).err = m) ∧
    (∀ (fuel depth : Nat) (p : JsonParser) (r : Json × JsonParser), p.failed = true →
      parse_json L fuel depth p = some r → r.2.failed = true ∧ r.2.err = p.err) ∧
    (∀ (p : JsonParser), p.failed = true →
      (get_next_token p).2.failed = true ∧ (get_next_token p).2.err = p.err) ∧
    Json.parse_state L (bytes "\x7b") [] JsonParse.STANDARD =
      some (Json.null,
        ((JsonParser.mk (bytes "\x7b") 1 [] false JsonParse.STANDARD).fail
          (bytes "unexpected end of input")).fail
          (bytes "expected '\"' in object, got " ++ esc 0)) ∧
    Json.parse L (bytes "\x7b") [] JsonParse.STANDARD =
      some (Json.null, bytes "unexpected end of input") := by
  refine ⟨fail_of_failed, fun p m₁ m₂ => fail_of_failed _ _ rfl, ?_, ?_, ?_, ?_,
    Json.parse_libc sample_libc L _ _ _ _ _ (by decide!) (by decide!)⟩
  · intro p m h
    simp [JsonParser.fail, h]
  · intro fuel depth p r hp h
    exact (parse_json_ext L fuel depth p r h).latch hp
  · intro p hp
    exact (get_next_token_ext p).latch hp
  · exact some_of_erase_result _ _ (Json.parse_state_erase sample_libc L _ _ _) _ _
      (by decide!) (by decide!)

/-! ## Serialized strings -/

theorem no_separator_quoted (l : List Nat)
    (hl : ∀ pre post x, (x = 0xa8 ∨ x = 0xa9) → l ≠ pre ++ 0xe2 :: 0x80 :: x :: post) :
    ∀ pre post x, (x = 0xa8 ∨ x = 0xa9) →
      34 :: (l ++ [34]) ≠ pre ++ 0xe2 :: 0x80 :: x :: post := by
  have h1 : ∀ pre post x, (x = 0xa8 ∨ x = 0xa9) →
      l ++ [34] ≠ pre ++ 0xe2 :: 0x80 :: x :: post := by
    intro pre post x hx h
    rcases List.eq_nil_or_concat post with rfl | ⟨post', a, rfl⟩
    · have e : l ++ [34] = (pre ++ [0xe2, 0x80]) ++ [x] := by
        rw [h]
        simp
      have := List.append_inj_right' e rfl
      simp only [List.cons.injEq, and_true] at this
      omega
    · have e : l ++ [34] = (pre ++ 0xe2 :: 0x80 :: x :: post') ++ [a] := by
        rw [h]
        simp
      exact hl pre post' x hx (List.append_inj_left' e rfl)
  exact no_separator_append [34] _ (by simp) h1

/-- C17: for every byte string s the dump of String s is a double quote, the
body the specification words (position by position the two-character escapes,
`\u00XX` for the other bytes below 0x20, `\u2028` and `\u2029` for the sequences
E2 80 A8 and E2 80 A9 consumed whole, the byte itself otherwise) and a double
quote; no byte of it is below 0x20, neither sequence E2 80 A8 nor E2 80 A9
occurs in it, and `parse_string` reads the body back to s, ending at the closing
quote, so that no quote inside ends the literal. -/
theorem string_serialization (L : Libc) (s : List Nat) :
    Json.dumps L (Json.string s) = 34 :: (spec_escape_string s ++ [34]) ∧
    (∀ out, dump_string s out = out ++ 34 :: (spec_escape_string s ++ [34])) ∧
    (∀ b ∈ Json.dumps L (Json.string s), 0x20 ≤ b) ∧
    (∀ pre post x, (x = 0xa8 ∨ x = 0xa9) →
      Json.dumps L (Json.string s) ≠ pre ++ 0xe2 :: 0x80 :: x :: post) ∧
    (∀ (p : JsonParser) (post : List Nat),
      p.str.drop p.i = spec_escape_string s ++ 34 :: post →
      parse_string p = (s, p.adv ((spec_escape_string s).length + 1))) := by
  have hb := dump_string_body_spec s []
  simp only [List.nil_append, List.length_nil] at hb
  have hd : Json.dumps L (Json.string s) = 34 :: (spec_escape_string s ++ [34]) := by
    rw [dumps_string, hb]
  refine ⟨hd, dump_string_spec s, ?_, ?_, ?_⟩
  · intro b h
    rw [hd] at h
    simp only [List.mem_cons, List.mem_append, List.mem_singleton, List.not_mem_nil,
      or_false] at h
    rcases h with rfl | h | rfl
    · decide
    · exact spec_escape_string_bytes s.length s (le_refl _) b h
    · decide
  · rw [hd]
    exact no_separator_quoted _ (spec_escape_string_separator s.length s (le_refl _))
  · intro p post h
    rw [← hb] at h ⊢
    exact parse_string_dump s p post h

/-- C18: the dump of an Array is "[", the dumps of its elements in order joined
by ", ", and "]"; the dump of an Object is "{", the entries dump(key) ++ ": " ++
dump(value) of its members in stored order joined by ", ", and "}"; the stored
order is strictly ascending in the keys for every object made by assignments
from the empty map and for every object `parse` returns, and members with
distinct keys give the same object in whatever order they are assigned.  The
array 1,2,3,4 dumps as "[1, 2, 3, 4]", the empty array as "[]", and the value
parsed from {"b":1,"a":2} as {"a": 2, "b": 1}. -/
theorem composite_serialization (L : Libc) :
    (∀ xs, Json.dumps L (Json.array xs) =
      [91] ++ spec_join (bytes ", ") (xs.map (Json.dumps L)) ++ [93]) ∧
    (∀ m, Json.dumps L (Json.object m) =
      [123] ++ spec_join (bytes ", ") (m.map (spec_entry L)) ++ [125]) ∧
    (∀ ms, List.Pairwise (fun a b => string_lt a.1 b.1 = true) (assign_all [] ms)) ∧
    (∀ inp err strategy m e, Json.parse L inp err strategy = some (Json.object m, e) →
      List.Pairwise (fun a b => string_lt a.1 b.1 = true) m) ∧
    (∀ ms ms' : List (List Nat × Json), ms.Perm ms' → (ms.map Prod.fst).Nodup →
      assign_all [] ms = assign_all [] ms') ∧
    Json.dumps L (Json.array [Json.int 1, Json.int 2, Json.int 3, Json.int 4]) =
      bytes "[1, 2, 3, 4]" ∧
    Json.dumps L (Json.array []) = bytes "[]" ∧
    Json.parse L (bytes "\x7b\"b\":1,\"a\":2\x7d") [] JsonParse.STANDARD =
      some (Json.object [(bytes "a", Json.int 2), (bytes "b", Json.int 1)], []) ∧
    Json.dumps L (Json.object [(bytes "a", Json.int 2), (bytes "b", Json.int 1)]) =
      bytes "\x7b\"a\": 2, \"b\": 1\x7d" := by
  refine ⟨dumps_array_join L, dumps_object_join L,
    fun ms => assign_all_sorted_keys ms [] List.Pairwise.nil, ?_, assign_all_order, ?_, rfl,
    Json.parse_libc sample_libc L _ _ _ _ _ (by decide!) (by decide!), ?_⟩
  · intro inp err strategy m e h
    rw [Json.parse_members_eq L inp err strategy m e h]
    exact assign_all_sorted_keys _ [] List.Pairwise.nil
  · rw [dumps_array_join]
    simp only [List.map_cons, List.map_nil, dumps_int]
    decide
  · rw [dumps_object_join]
    simp only [List.map_cons, List.map_nil, spec_entry, dumps_string, dumps_int]
    decide

/-! ## Equality and order of values -/

/-- C19, as the code has it for a Number holding a NaN: compared with itself
(`m_ptr == other.m_ptr`) it is equal, compared with another Number holding a NaN
it is not, so the outcome is not a function of the two numeric values. -/
theorem equality_counterexample :
    Json.op_eq true (Json.double Double.nan) (Json.double Double.nan) = true ∧
    Json.op_eq false (Json.double Double.nan) (Json.double Double.nan) = false ∧
    Double.eq Double.nan Double.nan = false := by
  decide

/-- C19, amended: for values that hold no NaN the test of the pointers does not
change the outcome of `operator==`; values of different kinds are unequal; two
Numbers are equal when their numeric values are (`==` on doubles), whatever
their representation, two integer Numbers when the integers are equal, and
Json(int n) is equal to Json(double n); two Bools and two Strings are equal when
they are the same; two Arrays when they have the same length and equal elements
at every index; two Objects when they have the same keys and equal values for
every key. -/
theorem equality_spec :
    (∀ (same_ptr : Bool) (a b : Json), (same_ptr = true → a = b) → a.nan_free = true →
      Json.op_eq same_ptr a b = Json.eq a b) ∧
    (∀ a b : Json, a.type ≠ b.type → Json.eq a b = false) ∧
    (∀ a b : Json, a.type = JsonType.NUMBER → b.type = JsonType.NUMBER →
      Json.eq a b = Double.eq a.number_value b.number_value) ∧
    (∀ m n : Int, Json.eq (Json.int m) (Json.int n) = true ↔ m = n) ∧
    (∀ n : Int, Json.eq (Json.int n) (Json.double (Double.ofInt n)) = true) ∧
    Json.eq Json.null Json.null = true ∧
    (∀ a b : Bool, Json.eq (Json.bool a) (Json.bool b) = true ↔ a = b) ∧
    (∀ s t : List Nat, Json.eq (Json.string s) (Json.string t) = true ↔ s = t) ∧
    (∀ xs ys : List Json, Json.eq (Json.array xs) (Json.array ys) = true ↔
      xs.length = ys.length ∧
        ∀ i, i < xs.length → Json.eq (xs.getD i Json.null) (ys.getD i Json.null) = true) ∧
    (∀ m m' : List (List Nat × Json),
      List.Pairwise (fun a b => string_lt a.1 b.1 = true) m →
      List.Pairwise (fun a b => string_lt a.1 b.1 = true) m' →
      (Json.eq (Json.object m) (Json.object m') = true ↔
        (∀ k, k ∈ m.map Prod.fst ↔ k ∈ m'.map Prod.fst) ∧
          ∀ k v v', map_find k m = some v → map_find k m' = some v' →
            Json.eq v v' = true)) := by
  refine ⟨?_, Json.eq_of_type_ne, Json.eq_number, ?_, ?_, rfl, ?_, ?_, ?_, ?_⟩
  · intro same_ptr a b hs ha
    cases same_ptr with
    | false => rfl
    | true =>
      rw [← hs rfl]
      simp only [Json.op_eq, if_true]
      exact (Json.eq_self a ha).symm
  · intro m n
    simp only [Json.eq]
    exact Double.eq_ofInt_iff m n
  · intro n
    simp only [Json.eq]
    exact (Double.eq_ofInt_iff n n).2 rfl
  · intro a b
    simp [Json.eq]
  · intro s t
    simp [Json.eq]
  · intro xs ys
    simp only [Json.eq]
    exact Json.eq_array_iff xs ys
  · intro m m' h₁ h₂
    simp only [Json.eq]
    exact Json.eq_object_spec m m' h₁ h₂

/-- C20: for values a and b of different kinds, a < b holds exactly when the
kind of a comes before the kind of b in the enumeration Null, Number, Bool,
String, Array, Object, whatever the test of the pointers gave; so every Null is
less than every Number, and Json(nullptr) < Json(1.0). -/
theorem order_across_kinds :
    (∀ (same_ptr : Bool) (a b : Json), (same_ptr = true → a = b) → a.type ≠ b.type →
      (Json.op_lt same_ptr a b = true ↔ a.type.rank < b.type.rank)) ∧
    JsonType.NUL.rank < JsonType.NUMBER.rank ∧ JsonType.NUMBER.rank < JsonType.BOOL.rank ∧
    JsonType.BOOL.rank < JsonType.STRING.rank ∧ JsonType.STRING.rank < JsonType.ARRAY.rank ∧
    JsonType.ARRAY.rank < JsonType.OBJECT.rank ∧
    (∀ n : Int, Json.op_lt false Json.null (Json.int n) = true) ∧
    (∀ d : Double, Json.op_lt false Json.null (Json.double d) = true) ∧
    Json.op_lt false Json.null (Json.double (Double.finite 1)) = true := by
  refine ⟨?_, by decide, by decide, by decide, by decide, by decide, fun _ => rfl,
    fun _ => rfl, rfl⟩
  intro same_ptr a b hs ht
  cases same_ptr with
  | true => exact absurd (congrArg Json.type (hs rfl)) ht
  | false =>
    simp only [Json.op_lt, Bool.false_eq_true, if_false]
    rw [Json.lt_of_type_ne a b ht]
    simp

/-! ## Number literals -/

/-- C13: under the standard dialect a text without white space that begins with
`-` or a digit is accepted, with a Number as the value, exactly when it is a
text of the number grammar, and otherwise `parse` returns Null and a message;
a `0` followed by a digit, a `.` that no digit follows and an exponent marker
that no digit follows after its optional sign are refused with the three
messages of `parse_number`, whatever comes after. -/
theorem number_grammar (L : Libc) :
    (∀ t : List Nat, (∀ c ∈ t, ¬ (c = 32 ∨ c = 9 ∨ c = 10 ∨ c = 13)) →
      (t.getD 0 0 = 45 ∨ (48 ≤ t.getD 0 0 ∧ t.getD 0 0 ≤ 57)) →
      ((∃ v, Json.parse L t [] JsonParse.STANDARD = some (v, []) ∧
          v.type = JsonType.NUMBER) ↔ NumberGrammar t) ∧
      (¬ NumberGrammar t →
        ∃ m, m ≠ [] ∧ Json.parse L t [] JsonParse.STANDARD = some (Json.null, m))) ∧
    (∀ (sg rest : List Nat) (d : Nat), (sg = [] ∨ sg = [45]) → 48 ≤ d ∧ d ≤ 57 →
      Json.parse L (sg ++ 48 :: d :: rest) [] JsonParse.STANDARD =
        some (Json.null, bytes "leading 0s not permitted in numbers")) ∧
    (∀ sg ip rest : List Nat, (sg = [] ∨ sg = [45]) → IntPart ip →
      ¬ (48 ≤ rest.getD 0 0 ∧ rest.getD 0 0 ≤ 57) →
      Json.parse L (sg ++ (ip ++ 46 :: rest)) [] JsonParse.STANDARD =
        some (Json.null, bytes "at least one digit required in fractional part")) ∧
    (∀ (sg ip fp sn rest : List Nat) (e : Nat), (sg = [] ∨ sg = [45]) → IntPart ip →
      FracPart fp → (e = 101 ∨ e = 69) → (sn = [] ∨ sn = [43] ∨ sn = [45]) →
      ¬ (48 ≤ rest.getD 0 0 ∧ rest.getD 0 0 ≤ 57) →
      (sn = [] → rest.getD 0 0 ≠ 43 ∧ rest.getD 0 0 ≠ 45) →
      Json.parse L (sg ++ (ip ++ (fp ++ e :: (sn ++ rest)))) [] JsonParse.STANDARD =
        some (Json.null, bytes "at least one digit required in exponent")) ∧
    NumberGrammar (bytes "-12.5e+3") ∧
    Json.parse L (bytes "-12.5e+3") [] JsonParse.STANDARD =
      some (Json.double (L.strtod (bytes "-12.5e+3")), []) ∧
    Json.parse L (bytes "012") [] JsonParse.STANDARD =
      some (Json.null, bytes "leading 0s not permitted in numbers") ∧
    Json.parse L (bytes "1.e5") [] JsonParse.STANDARD =
      some (Json.null, bytes "at least one digit required in fractional part") ∧
    Json.parse L (bytes "1e+") [] JsonParse.STANDARD =
      some (Json.null, bytes "at least one digit required in exponent") := by
  have hi : IntPart (bytes "12") := Or.inr ⟨49, [50], by decide, by decide, by unfold AllDigits; decide, rfl⟩
  have hf : FracPart (bytes ".5") := Or.inr ⟨[53], by decide, by unfold AllDigits; decide, rfl⟩
  have he : ExpPart (bytes "e+3") :=
    Or.inr ⟨101, [43], [51], Or.inl rfl, Or.inr (Or.inl rfl), by decide, by unfold AllDigits; decide, rfl⟩
  have h1 : IntPart (bytes "1") := Or.inr ⟨49, [], by decide, by decide, by unfold AllDigits; decide, rfl⟩
  refine ⟨?_, fun sg rest d hsg hd => Json.parse_leading_zero L sg d rest hsg hd,
    fun sg ip rest hsg hip hr => Json.parse_no_fraction L sg ip rest hsg hip hr,
    fun sg ip fp sn rest e hsg hip hfp he hsn hr hs =>
      Json.parse_no_exponent L sg ip fp sn rest e hsg hip hfp he hsn hr hs,
    ⟨[45], bytes "12", bytes ".5", bytes "e+3", Or.inr rfl, hi, hf, he, rfl⟩, ?_,
    Json.parse_leading_zero L [] 49 [50] (Or.inl rfl) (by decide),
    Json.parse_no_fraction L [] (bytes "1") (bytes "e5") (Or.inl rfl) h1 (by decide),
    Json.parse_no_exponent L [] (bytes "1") [] [43] [] 101 (Or.inl rfl) h1 (Or.inl rfl)
      (Or.inl rfl) (Or.inr (Or.inl rfl)) (by decide) (by decide)⟩
  · intro t hws hhead
    have hfwd : NumberGrammar t →
        ∃ v, Json.parse L t [] JsonParse.STANDARD = some (v, []) ∧
          v.type = JsonType.NUMBER := by
      rintro ⟨sg, ip, fp, ep, hsg, hip, hfp, hep, rfl⟩
      refine ⟨_, Json.parse_number_literal L sg ip fp ep hsg hip hfp hep, ?_⟩
      split <;> rfl
    refine ⟨⟨?_, hfwd⟩, ?_⟩
    · rintro ⟨v, hv, _⟩
      exact (Json.parse_number_accepts L t v hws hhead hv).1
    · intro hn
      rcases Json.parse_outcome L t JsonParse.STANDARD with ⟨v, hv⟩ | hm
      · exact absurd (Json.parse_number_accepts L t v hws hhead hv).1 hn
      · exact hm
  · have h := Json.parse_number_literal L [45] (bytes "12") (bytes ".5") (bytes "e+3")
      (Or.inr rfl) hi hf he
    rw [if_neg (by decide)] at h
    exact h

/-- C14, on the literal the claim is false for: `-` and nine digits are ten
characters, and `parse_number` compares the number of characters read, the sign
included, with 9; the value is the double `strtod` returns, not the integer
representation. -/
theorem integer_fast_path_counterexample :
    IntPart (bytes "123456789") ∧ (bytes "123456789").length ≤ 9 ∧
      Json.parse sample_libc (bytes "-123456789") [] JsonParse.STANDARD =
        some (Json.double (Double.ofInt (-123456789)), []) ∧
      Json.double (Double.ofInt (-123456789)) ≠ Json.int (-123456789) := by
  refine ⟨Or.inr ⟨49, bytes "23456789", by decide, by decide, by unfold AllDigits; decide, rfl⟩, by decide,
    by decide!, by simp⟩

/-- C14 (amended): a literal of an optional `-` and an integer part is read as
the integer representation of the integer it denotes when it has at most nine
characters, the sign included, and as the double `strtod` returns when it has
more; `int_value` of the integer representation returns the integer and `dump`
prints it with `%d`; inside a text the fast path is taken in the same way when
no digit, `.`, `e` or `E` follows the literal. -/
theorem integer_fast_path (L : Libc) (sg ip : List Nat) (hsg : sg = [] ∨ sg = [45])
    (hip : IntPart ip) :
    Json.parse L (sg ++ ip) [] JsonParse.STANDARD =
      some (if sg.length + ip.length ≤ 9 then
          Json.int (if sg = [] then (spec_decimal ip : Int) else - (spec_decimal ip : Int))
        else Json.double (L.strtod (sg ++ ip)), []) ∧
    Json.int_value
      (Json.int (if sg = [] then (spec_decimal ip : Int) else - (spec_decimal ip : Int))) =
        (if sg = [] then (spec_decimal ip : Int) else - (spec_decimal ip : Int)) ∧
    Json.dumps L
      (Json.int (if sg = [] then (spec_decimal ip : Int) else - (spec_decimal ip : Int))) =
        intToDec (if sg = [] then (spec_decimal ip : Int) else - (spec_decimal ip : Int)) ∧
    (∀ (p : JsonParser) (post : List Nat), EndsNumber post →
      p.str.drop p.i = sg ++ (ip ++ post) → sg.length + ip.length ≤ 9 →
      parse_number L p =
        (Json.int (if sg = [] then (spec_decimal ip : Int) else - (spec_decimal ip : Int)),
          p.adv (sg.length + ip.length))) := by
  refine ⟨?_, rfl, dumps_int L _, ?_⟩
  · have h := Json.parse_number_literal L sg ip [] [] hsg hip (Or.inl rfl) (Or.inl rfl)
    have ha := atoi_literal ⟨sg ++ ip, 0, [], false, JsonParse.STANDARD⟩ sg ip [] hsg hip
      (by simp) (by simp)
    simp only [List.append_nil] at h
    rw [h, c_str_literal sg ip hsg hip]
    rw [c_str_literal sg ip hsg hip] at ha
    rw [ha]
    simp only [true_and]
  · intro p post hpost hdrop hlen
    have h := parse_number_grammar L p sg ip [] [] post hsg hip (Or.inl rfl) (Or.inl rfl) hpost
      (by simpa using hdrop)
    rw [h, if_pos ⟨rfl, rfl, hlen⟩, atoi_literal p sg ip post hsg hip hpost.1 hdrop]
    simp only [List.length_nil, Nat.add_zero]

/-- The amended C14 on the literal `-12345678`, which has nine characters. -/
theorem integer_fast_path_witness :
    Json.parse sample_libc (bytes "-12345678") [] JsonParse.STANDARD =
      some (Json.int (-12345678), []) := by
  have h := (integer_fast_path sample_libc [45] (bytes "12345678") (Or.inr rfl)
    (Or.inr ⟨49, bytes "2345678", by decide, by decide, by unfold AllDigits; decide, rfl⟩)).1
  rw [if_pos (by decide), if_neg (by decide)] at h
  exact h

/-! ## Trailing content -/

/-- C12: when `parse` accepts the text `t` under the standard dialect, it refuses
`t` followed by a comma and any text `u`: it returns Null and the message
"unexpected trailing ',' (44)"; so it does on `2200012,null`. -/
theorem trailing_comma (L : Libc) (t u : List Nat) (v : Json)
    (ht : Json.parse L t [] JsonParse.STANDARD = some (v, [])) :
    Json.parse L (t ++ bytes "," ++ u) [] JsonParse.STANDARD =
        some (Json.null, bytes "unexpected trailing ',' (44)") ∧
      Json.parse L (bytes "2200012,null") [] JsonParse.STANDARD =
        some (Json.null, bytes "unexpected trailing ',' (44)") := by
  have hm : bytes "unexpected trailing " ++ esc 44 = bytes "unexpected trailing ',' (44)" := by
    decide
  have h := Json.parse_trailing L t u v ht
  rw [hm] at h
  refine ⟨by simpa [bytes] using h, ?_⟩
  have h2 := Json.parse_trailing L (bytes "2200012") (bytes "null") (Json.int 2200012)
    (Json.parse_libc sample_libc L _ _ _ _ _ (by decide!) rfl)
  rw [hm] at h2
  exact h2

/-- C12 on the text `2200012`, which `parse` reads as the integer 2200012, and
the text `null` after the comma. -/
theorem trailing_comma_witness :
    Json.parse sample_libc (bytes "2200012") [] JsonParse.STANDARD =
        some (Json.int 2200012, []) ∧
      Json.parse sample_libc (bytes "2200012" ++ bytes "," ++ bytes "null") []
        JsonParse.STANDARD = some (Json.null, bytes "unexpected trailing ',' (44)") :=
  ⟨by decide!, (trailing_comma sample_libc (bytes "2200012") (bytes "null") (Json.int 2200012)
    (by decide!)).1⟩

/-! ## String literals -/

theorem getLast_space (g ws : List Nat) (hne : ws ≠ []) (hws : ∀ c ∈ ws, IsJsonSpace c) :
    ∃ c, (g ++ ws).getLast? = some c ∧ IsJsonSpace c := by
  refine ⟨ws.getLast hne, ?_, hws _ (List.getLast_mem hne)⟩
  rw [List.getLast?_append_of_ne_nil _ hne, List.getLast?_eq_getLast _ hne]

/-- C15: under the standard dialect a text that begins with a double quote is
accepted, with a String as the value, exactly when it is a literal of the string
grammar followed by white space only, and otherwise `parse` returns Null and a
message; so a text with no white space after a literal, such as a text whose last
byte is no white space, is accepted exactly when it is a literal of the grammar.
After a body of the grammar, a raw byte below 0x20, a backslash and `u` that four
hexadecimal digits do not follow, and a backslash with any other character that
makes no escape are refused with the three messages of `parse_string`. -/
theorem string_grammar (L : Libc) :
    (∀ t : List Nat, t.getD 0 0 = 34 →
      ((∃ v, Json.parse L t [] JsonParse.STANDARD = some (v, []) ∧
          v.type = JsonType.STRING) ↔
        ∃ g ws, StringGrammar g ∧ (∀ c ∈ ws, IsJsonSpace c) ∧ t = g ++ ws) ∧
      ((∀ g ws, StringGrammar g → (∀ c ∈ ws, IsJsonSpace c) → t = g ++ ws → ws = []) →
        ((∃ v, Json.parse L t [] JsonParse.STANDARD = some (v, []) ∧
          v.type = JsonType.STRING) ↔ StringGrammar t)) ∧
      ((∀ c, t.getLast? = some c → ¬ IsJsonSpace c) →
        ((∃ v, Json.parse L t [] JsonParse.STANDARD = some (v, []) ∧
          v.type = JsonType.STRING) ↔ StringGrammar t)) ∧
      ((¬ ∃ g ws, StringGrammar g ∧ (∀ c ∈ ws, IsJsonSpace c) ∧ t = g ++ ws) →
        ∃ m, m ≠ [] ∧ Json.parse L t [] JsonParse.STANDARD = some (Json.null, m))) ∧
    (∀ (pre rest : List Nat) (c : Nat), StringBody pre → c ≤ 0x1f →
      Json.parse L (34 :: (pre ++ c :: rest)) [] JsonParse.STANDARD =
        some (Json.null, bytes "unescaped " ++ esc c ++ bytes " in string")) ∧
    (∀ pre rest : List Nat, StringBody pre →
      (rest.take 4).length < 4 ∨ (rest.take 4).all is_hex = false →
      Json.parse L (34 :: (pre ++ 92 :: 117 :: rest)) [] JsonParse.STANDARD =
        some (Json.null, bytes "bad \\u escape: " ++ rest.take 4)) ∧
    (∀ (pre rest : List Nat) (e : Nat), StringBody pre → ¬ IsEscapeChar e → e ≠ 117 →
      Json.parse L (34 :: (pre ++ 92 :: e :: rest)) [] JsonParse.STANDARD =
        some (Json.null, bytes "invalid escape character " ++ esc e)) ∧
    StringGrammar (bytes "\"a\\n\\u00e9\"") ∧
    Json.parse L (bytes "\"a\\n\\u00e9\"") [] JsonParse.STANDARD =
      some (Json.string [97, 10, 0xC3, 0xA9], []) ∧
    Json.parse L (bytes "\"a\tb\"") [] JsonParse.STANDARD =
      some (Json.null, bytes "unescaped (9) in string") ∧
    Json.parse L (bytes "\"\\u12G4\"") [] JsonParse.STANDARD =
      some (Json.null, bytes "bad \\u escape: 12G4") ∧
    Json.parse L (bytes "\"\\u12\"") [] JsonParse.STANDARD =
      some (Json.null, bytes "bad \\u escape: 12\"") ∧
    Json.parse L (bytes "\"\\q\"") [] JsonParse.STANDARD =
      some (Json.null, bytes "invalid escape character 'q' (113)") := by
  have main : ∀ t : List Nat, t.getD 0 0 = 34 →
      ((∃ v, Json.parse L t [] JsonParse.STANDARD = some (v, []) ∧
          v.type = JsonType.STRING) ↔
        ∃ g ws, StringGrammar g ∧ (∀ c ∈ ws, IsJsonSpace c) ∧ t = g ++ ws) := by
    intro t hhead
    constructor
    · rintro ⟨v, hv, _⟩
      exact (Json.parse_string_accepts L t v hhead hv).2
    · rintro ⟨g, ws, hg, hws, rfl⟩
      obtain ⟨s, hs⟩ := Json.parse_string_grammar L g ws hg hws
      exact ⟨_, hs, rfl⟩
  have tight : ∀ t : List Nat, t.getD 0 0 = 34 →
      (∀ g ws, StringGrammar g → (∀ c ∈ ws, IsJsonSpace c) → t = g ++ ws → ws = []) →
      ((∃ v, Json.parse L t [] JsonParse.STANDARD = some (v, []) ∧
        v.type = JsonType.STRING) ↔ StringGrammar t) := by
    intro t hhead hno
    rw [main t hhead]
    constructor
    · rintro ⟨g, ws, hg, hws, ht⟩
      have := hno g ws hg hws ht
      rw [this, List.append_nil] at ht
      rw [ht]
      exact hg
    · intro hg
      exact ⟨t, [], hg, fun c hc => absurd hc (List.not_mem_nil c), (List.append_nil t).symm⟩
  refine ⟨fun t hhead => ⟨main t hhead, tight t hhead, ?_, ?_⟩, ?_, ?_, ?_,
    ⟨bytes "a\\n\\u00e9", ?_, rfl⟩,
    Json.parse_libc sample_libc L _ _ _ _ _ (by decide!) rfl,
    Json.parse_libc sample_libc L _ _ _ _ _ (by decide!) rfl,
    Json.parse_libc sample_libc L _ _ _ _ _ (by decide!) rfl,
    Json.parse_libc sample_libc L _ _ _ _ _ (by decide!) rfl,
    Json.parse_libc sample_libc L _ _ _ _ _ (by decide!) rfl⟩
  · intro hlast
    refine tight t hhead ?_
    intro g ws _ hws ht
    by_contra hne
    obtain ⟨c, hc1, hc2⟩ := getLast_space g ws hne hws
    rw [← ht] at hc1
    exact hlast c hc1 hc2
  · intro hn
    rcases Json.parse_outcome L t JsonParse.STANDARD with ⟨v, hv⟩ | hm
    · exact absurd (Json.parse_string_accepts L t v hhead hv).2 hn
    · exact hm
  · intro pre rest c hb hc
    exact Json.parse_string_failure L _ _ (pre.length + 1) rfl
      (parse_string_unescaped ⟨34 :: (pre ++ c :: rest), 1, [], false, JsonParse.STANDARD⟩
        pre rest c hb hc rfl)
  · intro pre rest hb hbad
    exact Json.parse_string_failure L _ _ (pre.length + 2) rfl
      (parse_string_bad_u ⟨34 :: (pre ++ 92 :: 117 :: rest), 1, [], false, JsonParse.STANDARD⟩
        pre rest hb hbad rfl)
  · intro pre rest e hb he hu
    exact Json.parse_string_failure L _ _ (pre.length + 2) rfl
      (parse_string_bad_escape ⟨34 :: (pre ++ 92 :: e :: rest), 1, [], false, JsonParse.STANDARD⟩
        pre rest e hb he hu rfl)
  · exact StringBody.raw 97 _ (by decide) (by decide) (by decide)
      (StringBody.escape 110 _ (by unfold IsEscapeChar; decide)
        (StringBody.unicode (bytes "00e9") [] (by decide) StringBody.nil))

/-! ## The bytes of parsed strings -/

theorem valid_utf8_iff (s : List Nat) : valid_utf8 s = true ↔ utf8_run s [] = some [] := by
  simp [valid_utf8]

/-- The literal of one `\u` escape is read as the bytes `encode_utf8` gives for
its code point. -/
theorem parse_one_escape (L : Libc) (h : List Nat) (hh : HexQuad h) :
    Json.parse L (34 :: 92 :: 117 :: (h ++ [34])) [] JsonParse.STANDARD =
      some (Json.string (encode_utf8 (strtol16 h : Int) []), []) := by
  have hj := parse_json_string_head L (34 :: 92 :: 117 :: (h ++ [34])) rfl
  obtain ⟨e1, d1⟩ := parse_string_loop_unicode 7 [] (-1)
    ⟨34 :: 92 :: 117 :: (h ++ [34]), 1, [], false, JsonParse.STANDARD⟩ h [34] hh rfl
    (fun x => absurd x.1 (by decide))
  have hc := cur_of_suffix _ _ d1
  have hs : parse_string ⟨34 :: 92 :: 117 :: (h ++ [34]), 1, [], false, JsonParse.STANDARD⟩ =
      (encode_utf8 (strtol16 h : Int) [],
        (JsonParser.mk (34 :: 92 :: 117 :: (h ++ [34])) 1 [] false JsonParse.STANDARD).adv 7) := by
    have hl : (34 :: 92 :: 117 :: (h ++ [34])).length - 1 + 1 = 7 + 1 := by
      simp only [List.length_cons, List.length_append, hh.1, List.length_nil]
    simp only [parse_string, hl]
    rw [e1, parse_string_loop_quote 6 _ _ _ hc, adv_adv]
    rfl
  rw [hs] at hj
  simp only at hj
  have hq : ((JsonParser.mk (34 :: 92 :: 117 :: (h ++ [34])) 1 [] false
      JsonParse.STANDARD).adv 7).failed = false := rfl
  have hd : (34 :: 92 :: 117 :: (h ++ [34])).drop 8 = [] := by
    apply List.drop_of_length_le
    simp only [List.length_cons, List.length_append, hh.1, List.length_nil]
    omega
  have hw : ∀ c ∈ (34 :: 92 :: 117 :: (h ++ [34])).drop
      ((JsonParser.mk (34 :: 92 :: 117 :: (h ++ [34])) 1 [] false
        JsonParse.STANDARD).adv 7).i, IsJsonSpace c := by
    intro c hc
    simp only [adv_i] at hc
    rw [hd] at hc
    cases hc
  exact Json.parse_value_standard L _ _ _ hj hq hw

/-- C16, on a literal the claim is false for: the text `"\ud800"` is ASCII, so
valid UTF-8, and it is accepted; the String returned holds the bytes ED A0 80,
the three-byte form of the surrogate U+D800, which is no well-formed UTF-8. -/
theorem parsed_utf8_counterexample :
    valid_utf8 (bytes "\"\\ud800\"") = true ∧
      Json.parse sample_libc (bytes "\"\\ud800\"") [] JsonParse.STANDARD =
        some (Json.string [0xED, 0xA0, 0x80], []) ∧
      valid_utf8 [0xED, 0xA0, 0x80] = false := by
  refine ⟨by decide, by decide!, by decide⟩

/-- C16 (amended): a string literal, followed by white space at most, whose text
is valid UTF-8 and whose `\u` escapes denote surrogates only in pairs, a high one
with a low one right after it, is accepted, and the bytes of the String returned
are valid UTF-8.  The literal of one `\u` escape gives the bytes of
`encode_utf8`, whose number is 1, 2, 3 or 4 by the magnitude of the code point
(below 0x80, below 0x800, below 0x10000, else), and which are a well-formed
sequence for every code point up to U+10FFFF that is no surrogate. -/
theorem parsed_utf8 (L : Libc) (body ws : List Nat) (hb : PairedBody body)
    (hws : ∀ c ∈ ws, IsJsonSpace c) (hv : valid_utf8 (34 :: (body ++ 34 :: ws)) = true) :
    (∃ s, Json.parse L (34 :: (body ++ 34 :: ws)) [] JsonParse.STANDARD =
        some (Json.string s, []) ∧ valid_utf8 s = true) ∧
    (∀ h : List Nat, HexQuad h →
      Json.parse L (34 :: 92 :: 117 :: (h ++ [34])) [] JsonParse.STANDARD =
        some (Json.string (encode_utf8 (strtol16 h : Int) []), [])) ∧
    (∀ (n : Nat) (out : List Nat), n < 0x200000 →
      ∃ bs, encode_utf8 (n : Int) out = out ++ bs ∧ bs.length = spec_utf8_length n) ∧
    (∀ (n : Nat) (out : List Nat), n < 0x110000 → ¬ (0xD800 ≤ n ∧ n ≤ 0xDFFF) →
      ∃ bs, encode_utf8 (n : Int) out = out ++ bs ∧ valid_utf8 bs = true) := by
  refine ⟨?_, fun h hh => parse_one_escape L h hh,
    fun n out hn => encode_utf8_length n out hn, ?_⟩
  · rw [valid_utf8_iff] at hv
    have hv1 := (utf8_run_ascii [34] (body ++ 34 :: ws) [] (by simp)
      (by
        intro c hc
        simp only [List.mem_singleton] at hc
        omega)
      (fun r hr => absurd hr (List.not_mem_nil r)) hv).2
    have hj := parse_json_string_head L (34 :: (body ++ 34 :: ws)) rfl
    obtain ⟨o, ho, hov, _⟩ := parse_string_valid
      ⟨34 :: (body ++ 34 :: ws), 1, [], false, JsonParse.STANDARD⟩ body ws hb rfl hv1
    rw [ho] at hj
    refine ⟨o, Json.parse_value_standard L _ _ _ hj rfl ?_, (valid_utf8_iff o).2 hov⟩
    have : (34 :: (body ++ 34 :: ws)).drop (1 + (body.length + 1)) = ws := by
      have e : 34 :: (body ++ 34 :: ws) = (34 :: (body ++ [34])) ++ ws := by simp
      rw [e, show 1 + (body.length + 1) = (34 :: (body ++ [34])).length by
        simp only [List.length_cons, List.length_append, List.length_nil]; omega, List.drop_left]
    simp only [adv_i]
    rw [this]
    exact hws
  · intro n out hn hs
    obtain ⟨bs, h1, h2⟩ := encode_utf8_valid n out hn hs
    exact ⟨bs, h1, (valid_utf8_iff bs).2 h2⟩

/-- The amended C16 on the literal of the two bytes of U+00E9, the escapes of
the surrogates D83D and DE00, and the escape of a line feed. -/
theorem parsed_utf8_witness :
    PairedBody ([0xC3, 0xA9] ++ bytes "\\ud83d\\ude00\\n") ∧
      valid_utf8 (34 :: (([0xC3, 0xA9] ++ bytes "\\ud83d\\ude00\\n") ++ 34 :: [])) = true ∧
      ∃ s, Json.parse sample_libc (34 :: (([0xC3, 0xA9] ++ bytes "\\ud83d\\ude00\\n") ++ 34 :: []))
          [] JsonParse.STANDARD = some (Json.string s, []) ∧ valid_utf8 s = true :=
  have hb : PairedBody ([0xC3, 0xA9] ++ bytes "\\ud83d\\ude00\\n") :=
    PairedBody.raw 0xC3 _ (by decide) (by decide) (by decide)
      (PairedBody.raw 0xA9 _ (by decide) (by decide) (by decide)
        (PairedBody.pair (bytes "d83d") (bytes "de00") (bytes "\\n")
          (by decide) (by decide) (by decide) (by decide)
          (PairedBody.escape 110 [] (by unfold IsEscapeChar; decide) PairedBody.nil)))
  ⟨hb, by decide, (parsed_utf8 sample_libc _ [] hb
    (fun c hc => absurd hc (List.not_mem_nil c)) (by decide)).1⟩

/-! ## Accessors and indexing -/

theorem map_find_of_mem (k : List Nat) (v : Json) : ∀ (m : List (List Nat × Json)),
    List.Pairwise (fun a b => string_lt a.1 b.1 = true) m → (k, v) ∈ m →
    map_find k m = some v
  | [], _, h => absurd h (List.not_mem_nil _)
  | (a, w) :: rest, hs, h => by
    rw [List.pairwise_cons] at hs
    simp only [map_find]
    rcases List.mem_cons.1 h with e | h'
    · cases e
      rw [if_pos rfl]
    · have hlt := hs.1 (k, v) h'
      have hne : a ≠ k := by
        intro e
        rw [e, string_lt_irrefl] at hlt
        cases hlt
      rw [if_neg hne]
      exact map_find_of_mem k v rest hs.2 h'

theorem map_find_none (k : List Nat) : ∀ (m : List (List Nat × Json)),
    k ∉ m.map Prod.fst → map_find k m = none
  | [], _ => rfl
  | (a, w) :: rest, h => by
    simp only [List.map_cons, List.mem_cons, not_or] at h
    simp only [map_find]
    rw [if_neg (fun e => h.1 e.symm)]
    exact map_find_none k rest h.2

/-- C21: indexing and the typed accessors are total.  `at(i)` is element `i` of
an Array of more than `i` elements and Null on an Array that is too short and on
a value of any other kind; `at(key)` is the member of an Object that has the key
and Null on an Object without the key and on a value of any other kind; a typed
accessor on a value of another kind gives its neutral default: the number 0, the
integer 0, false, the empty string, the empty sequence, the empty mapping. -/
theorem total_accessors :
    (∀ (xs : List Json) (i : Nat) (h : i < xs.length),
      (Json.array xs).at_index i = xs.get ⟨i, h⟩) ∧
    (∀ (xs : List Json) (i : Nat), xs.length ≤ i → (Json.array xs).at_index i = Json.null) ∧
    (∀ (v : Json) (i : Nat), v.type ≠ JsonType.ARRAY → v.at_index i = Json.null) ∧
    (∀ (m : List (List Nat × Json)) (key : List Nat) (v : Json),
      map_find key m = some v → (Json.object m).at_key key = v) ∧
    (∀ (m : List (List Nat × Json)) (key : List Nat) (v : Json),
      List.Pairwise (fun a b => string_lt a.1 b.1 = true) m → (key, v) ∈ m →
      (Json.object m).at_key key = v) ∧
    (∀ (m : List (List Nat × Json)) (key : List Nat),
      key ∉ m.map Prod.fst → (Json.object m).at_key key = Json.null) ∧
    (∀ (v : Json) (key : List Nat), v.type ≠ JsonType.OBJECT → v.at_key key = Json.null) ∧
    (∀ v : Json, v.type ≠ JsonType.NUMBER →
      v.number_value = Double.finite 0 ∧ v.int_value = 0) ∧
    (∀ v : Json, v.type ≠ JsonType.BOOL → v.bool_value = false) ∧
    (∀ v : Json, v.type ≠ JsonType.STRING → v.string_value = []) ∧
    (∀ v : Json, v.type ≠ JsonType.ARRAY → v.array_items = []) ∧
    (∀ v : Json, v.type ≠ JsonType.OBJECT → v.object_items = []) ∧
    (∀ (n : Int), (Json.int n).int_value = n ∧ (Json.int n).number_value = Double.ofInt n) ∧
    (∀ (b : Bool) (s : List Nat) (xs : List Json) (m : List (List Nat × Json)),
      (Json.bool b).bool_value = b ∧ (Json.string s).string_value = s ∧
        (Json.array xs).array_items = xs ∧ (Json.object m).object_items = m) := by
  refine ⟨?_, ?_, ?_, ?_, ?_, ?_, ?_, ?_, ?_, ?_, ?_, ?_, fun n => ⟨rfl, rfl⟩,
    fun b s xs m => ⟨rfl, rfl, rfl, rfl⟩⟩
  · intro xs i h
    simp only [Json.at_index]
    rw [if_neg (by omega), List.getD_eq_getElem _ _ h]
    rfl
  · intro xs i h
    simp only [Json.at_index]
    rw [if_pos h]
  · intro v i h
    cases v <;> first | rfl | exact absurd rfl h
  · intro m key v h
    simp only [Json.at_key, h, Option.getD_some]
  · intro m key v hs h
    simp only [Json.at_key, map_find_of_mem key v m hs h, Option.getD_some]
  · intro m key h
    simp only [Json.at_key, map_find_none key m h, Option.getD_none]
  · intro v key h
    cases v <;> first | rfl | exact absurd rfl h
  · intro v h
    cases v <;> first | exact ⟨rfl, rfl⟩ | exact absurd rfl h
  · intro v h
    cases v <;> first | rfl | exact absurd rfl h
  · intro v h
    cases v <;> first | rfl | exact absurd rfl h
  · intro v h
    cases v <;> first | rfl | exact absurd rfl h
  · intro v h
    cases v <;> first | rfl | exact absurd rfl h

/-! ## The round trip under its preconditions -/

theorem plain_string_member (k s : List Nat) :
    Json.Plain 0 (Json.object [(k, Json.string s)]) := by
  refine Json.Plain.object 0 _ (by decide) ?_ (List.pairwise_singleton _ _)
  intro kv hkv
  simp only [List.mem_singleton] at hkv
  rw [hkv]
  exact Json.Plain.string 1 s (by decide)

/-- C24: for every value V that holds no double Number and has no node under
more than 200 arrays and objects (integers are 32-bit and the members of an
object are in key order, as in the C++ value), and a `strtod` that reads the
decimal text of a 32-bit integer exactly, `parse(dump(V), STANDARD)` reports no
error and returns a value equal (`operator==`) to V; the bytes of a String and of
a key are arbitrary, and a String or an object of one String member is returned
as it was. -/
theorem round_trip_preconditions (L : Libc) (hL : StrtodInt L) (V : Json)
    (hV : Json.Plain 0 V) :
    (∃ W, Json.parse L (Json.dumps L V) [] JsonParse.STANDARD = some (W, []) ∧
      Json.eq W V = true ∧ ∀ same_ptr : Bool, Json.op_eq same_ptr W V = true) ∧
    (∀ s : List Nat,
      Json.parse L (Json.dumps L (Json.string s)) [] JsonParse.STANDARD =
        some (Json.string s, [])) ∧
    (∀ k s : List Nat,
      Json.parse L (Json.dumps L (Json.object [(k, Json.string s)])) [] JsonParse.STANDARD =
        some (Json.object [(k, Json.string s)], [])) := by
  refine ⟨⟨Json.reparsed L V, Json.parse_dump L hL V hV [], Json.eq_reparsed L hV, ?_⟩, ?_, ?_⟩
  · intro same_ptr
    cases same_ptr with
    | true => rfl
    | false => exact Json.eq_reparsed L hV
  · intro s
    exact Json.parse_dump L hL (Json.string s) (Json.Plain.string 0 s (by decide)) []
  · intro k s
    exact Json.parse_dump L hL _ (plain_string_member k s) []

/-- C24 at an object whose key holds the bytes FF and 00 and whose String holds
the line separator U+2028, a quote, a backslash and a control byte. -/
theorem round_trip_preconditions_witness :
    StrtodInt sample_libc ∧
    Json.Plain 0 (Json.object [([0xFF, 0], Json.string [0xE2, 0x80, 0xA8, 34, 92, 7])]) ∧
    ∃ W, Json.parse sample_libc
        (Json.dumps sample_libc
          (Json.object [([0xFF, 0], Json.string [0xE2, 0x80, 0xA8, 34, 92, 7])])) []
        JsonParse.STANDARD = some (W, []) ∧
      Json.eq W (Json.object [([0xFF, 0], Json.string [0xE2, 0x80, 0xA8, 34, 92, 7])]) = true ∧
      ∀ same_ptr : Bool, Json.op_eq same_ptr W
        (Json.object [([0xFF, 0], Json.string [0xE2, 0x80, 0xA8, 34, 92, 7])]) = true :=
  ⟨strtodInt_sample, plain_string_member _ _,
    (round_trip_preconditions sample_libc strtodInt_sample _ (plain_string_member _ _)).1⟩

/-! ## The depth counter -/

/-- C23: the parser is called at depth 0 for the value of the text and at depth
d + 1 for an element of an array and for the value of a member of an object read
at depth d, and a call at a depth above 200 fails at once, before a byte is read.
So the text `0` inside any frames, each an array of one element or an object of
one member with any key, is accepted under the standard dialect exactly when
there are at most 200 frames; it then gives the integer 0 inside these arrays and
objects, and with more frames `parse` returns Null and the message "exceeded
maximum nesting depth".  In particular the text of n opening brackets, `0` and n
closing brackets is accepted exactly when n is at most 200, and so is the text of
n times `{"a": `, `0` and n closing braces. -/
theorem depth_threshold (L : Libc) :
    max_depth = 200 ∧
    (∀ n : Nat, (∃ v, Json.parse L (bracketed n (bytes "0")) [] JsonParse.STANDARD =
      some (v, [])) ↔ n ≤ 200) ∧
    (∀ n : Nat, n ≤ 200 →
      Json.parse L (List.replicate n 91 ++ (bytes "0" ++ List.replicate n 93)) []
        JsonParse.STANDARD = some (nested_value n (Json.int 0), [])) ∧
    (∀ n : Nat, 200 < n →
      Json.parse L (List.replicate n 91 ++ (bytes "0" ++ List.replicate n 93)) []
        JsonParse.STANDARD = some (Json.null, bytes "exceeded maximum nesting depth")) ∧
    (∀ (fuel depth : Nat) (p : JsonParser), 200 < depth →
      parse_json L (fuel + 1) depth p =
        some (Json.null, p.fail (bytes "exceeded maximum nesting depth"))) ∧
    (∀ (k d fuel : Nat) (p : JsonParser) (c : Nat) (rest : List Nat), d + k = 201 →
      k + 1 ≤ fuel → p.failed = false → p.strategy = JsonParse.STANDARD →
      p.str.drop p.i = List.replicate k 91 ++ c :: rest → (c = 91 ∨ c = 48) →
      ∃ q, parse_json L fuel d p = some (Json.null, q) ∧ q.failed = true ∧
        q.err = bytes "exceeded maximum nesting depth") ∧
    (∀ fs : List (Option (List Nat)),
      (∃ v, Json.parse L (framed fs (bytes "0")) [] JsonParse.STANDARD = some (v, [])) ↔
        fs.length ≤ 200) ∧
    (∀ fs : List (Option (List Nat)), fs.length ≤ 200 →
      Json.parse L (framed fs (bytes "0")) [] JsonParse.STANDARD =
        some (framed_value fs (Json.int 0), [])) ∧
    (∀ fs : List (Option (List Nat)), 200 < fs.length →
      Json.parse L (framed fs (bytes "0")) [] JsonParse.STANDARD =
        some (Json.null, bytes "exceeded maximum nesting depth")) ∧
    (∀ (fs : List (Option (List Nat))) (d fuel : Nat) (p r : JsonParser) (u rest : List Nat),
      d + fs.length = 201 → fs.length + 1 ≤ fuel → r.failed = false →
      r.strategy = JsonParse.STANDARD → Opens u → r.str.drop r.i = framed fs u ++ rest →
      get_next_token p = ((framed fs u).getD 0 0, r.adv 1) →
      ∃ q, parse_json L fuel d p = some (Json.null, q) ∧ q.failed = true ∧
        q.err = bytes "exceeded maximum nesting depth") ∧
    (∀ (n : Nat) (t : List Nat),
      framed (List.replicate n none) t = List.replicate n 91 ++ (t ++ List.replicate n 93)) ∧
    (∀ (n : Nat) (t : List Nat),
      framed (List.replicate (n + 1) (some (bytes "a"))) t =
        bytes "\x7b\"a\": " ++ (framed (List.replicate n (some (bytes "a"))) t ++ bytes "\x7d")) ∧
    framed [some (bytes "k"), none, some []] (bytes "0") = bytes "\x7b\"k\": [\x7b\"\": 0\x7d]\x7d" := by
  have h0 : bytes "0" = [48] := by decide
  refine ⟨rfl, ?_, fun n hn => Json.parse_nested_zero L n hn,
    fun n hn => Json.parse_too_deep L n hn, ?_, ?_, ?_,
    fun fs hn => Json.parse_framed_zero L fs hn, ?_, ?_, ?_, ?_, by decide⟩
  · intro n
    constructor
    · rintro ⟨v, hv⟩
      by_contra hn
      rw [Json.parse_too_deep L n (by unfold max_depth; omega)] at hv
      cases hv
    · intro hn
      exact ⟨_, Json.parse_nested_zero L n hn⟩
  · intro fuel depth p hd
    rw [parse_json_succ, if_pos (show depth > max_depth from hd)]
  · intro k d fuel p c rest hd hf hpf hs hdrop hc
    obtain ⟨q, h1, h2, h3⟩ := parse_json_too_deep L k d fuel p c rest hd hf hpf hs hdrop hc
    refine ⟨q, h1, h2, ?_⟩
    rw [h3, hpf]
    rfl
  · intro fs
    constructor
    · rintro ⟨v, hv⟩
      by_contra hn
      rw [h0, Json.parse_too_deep_framed L fs [] (by unfold max_depth; omega)] at hv
      cases hv
    · intro hn
      exact ⟨_, Json.parse_framed_zero L fs hn⟩
  · intro fs hn
    rw [h0]
    exact Json.parse_too_deep_framed L fs [] hn
  · intro fs d fuel p r u rest hd hf hrf hs hu hdrop htok
    have hpf : p.failed = false := by
      have e := get_next_token_ext p
      rw [htok] at e
      exact e.not_failed hrf
    obtain ⟨q, h1, h2, h3⟩ :=
      parse_json_too_deep_framed L fs d fuel p r u rest hd hf hrf hs hu hdrop htok
    refine ⟨q, h1, h2, ?_⟩
    rw [h3, hpf]
    rfl
  · intro n t
    induction n with
    | zero => simp [framed]
    | succ n ih =>
      rw [List.replicate_succ, framed, ih, ← bracketed, ← bracketed, bracketed_succ]
  · intro n t
    have hb : bytes "\x7b\"a\": " = [123, 34, 97, 34, 58, 32] := by decide
    have hd : dump_string (bytes "a") [] = [34, 97, 34] := by decide
    have hc : bytes "\x7d" = [125] := by decide
    rw [List.replicate_succ, framed, hb, hd, hc]
    rfl

/-- C26: `parse` agrees with `parse_multi`.  For every text and dialect, `parse`
ends without a failure on the value `v` exactly when `parse_multi` ends without a
failure on the one-element vector `[v]` with the stop offset at the length of the
text, and then in the same parser state; a run of `parse_multi` without a failure
on `[v]` always has that stop offset.  With `err` empty at the call the same reads
on what the caller sees: `parse` returns `v` and leaves `err` empty exactly when
`parse_multi` returns `[v]`, the length of the text, and leaves `err` empty.
Whenever `parse_multi` reads two documents or more without a failure, `parse` on
the same input returns Null with the message "unexpected trailing " followed by
the escaped character; so it is on the text "1 2", where `parse_multi` returns
the Numbers 1 and 2. -/
theorem parse_agrees_with_parse_multi (L : Libc) (t err : List Nat) (d : JsonParse) :
    (∀ v p, (Json.parse_state L t err d = some (v, p) ∧ p.failed = false) ↔
      (Json.parse_multi_state L t err d = some ([v], t.length, p) ∧ p.failed = false)) ∧
    (∀ v stop q, Json.parse_multi_state L t err d = some ([v], stop, q) → q.failed = false →
      stop = t.length) ∧
    (∀ v, Json.parse L t [] d = some (v, []) ↔
      Json.parse_multi L t [] d = some ([v], t.length, [])) ∧
    (∀ vs stop q, Json.parse_multi_state L t err d = some (vs, stop, q) → q.failed = false →
      2 ≤ vs.length →
      ∃ p c, Json.parse_state L t err d = some (Json.null, p) ∧ p.failed = true ∧
        p.err = bytes "unexpected trailing " ++ esc c) ∧
    (∀ vs stop, Json.parse_multi L t [] d = some (vs, stop, []) → 2 ≤ vs.length →
      ∃ c, Json.parse L t [] d = some (Json.null, bytes "unexpected trailing " ++ esc c)) ∧
    Json.parse_multi L (bytes "1 2") [] JsonParse.STANDARD =
      some ([Json.int 1, Json.int 2], 3, []) ∧
    Json.parse L (bytes "1 2") [] JsonParse.STANDARD =
      some (Json.null, bytes "unexpected trailing " ++ esc 50) := by
  have multi_ok : ∀ vs stop q, Json.parse_multi_state L t [] d = some (vs, stop, q) →
      q.err = [] → q.failed = false := by
    intro vs stop q h he
    obtain ⟨vs', stop', q', h1, e, _⟩ := Json.parse_multi_state_spec L t [] d
    rw [h] at h1
    cases h1
    cases hf : q.failed
    · rfl
    · exact absurd he (e.msg rfl hf)
  refine ⟨?_, ?_, ?_, ?_, ?_, ?_, ?_⟩
  · intro v p
    constructor
    · rintro ⟨h, hf⟩
      exact ⟨Json.parse_multi_of_parse L t err d v p h hf, hf⟩
    · rintro ⟨h, hf⟩
      exact ⟨(Json.parse_of_parse_multi L t err d v _ p h hf).2, hf⟩
  · intro v stop q h hf
    exact (Json.parse_of_parse_multi L t err d v stop q h hf).1
  · intro v
    constructor
    · intro h
      obtain ⟨⟨w, p⟩, hp⟩ := Json.parse_state_some L t [] d
      simp only [Json.parse, hp, Option.map_some', Option.some.injEq, Prod.mk.injEq] at h
      obtain ⟨hw, he⟩ := h
      subst hw
      have e := Json.parse_state_ext L t [] d w p hp
      have hf : p.failed = false := by
        cases hf : p.failed
        · rfl
        · exact absurd he (e.msg rfl hf)
      rw [Json.parse_multi, Json.parse_multi_of_parse L t [] d w p hp hf]
      simp [he]
    · intro h
      obtain ⟨vs, stop, q, hq, _, _⟩ := Json.parse_multi_state_spec L t [] d
      simp only [Json.parse_multi, hq, Option.map_some', Option.some.injEq, Prod.mk.injEq] at h
      obtain ⟨hv, hs, he⟩ := h
      subst hv
      have hf := multi_ok _ _ _ hq he
      rw [Json.parse, (Json.parse_of_parse_multi L t [] d v stop q hq hf).2]
      simp [he]
  · intro vs stop q h hf h2
    exact Json.parse_of_two_docs L t err d vs stop q h hf h2
  · intro vs stop h h2
    obtain ⟨vs', stop', q, hq, _, _⟩ := Json.parse_multi_state_spec L t [] d
    simp only [Json.parse_multi, hq, Option.map_some', Option.some.injEq, Prod.mk.injEq] at h
    obtain ⟨hv, hs, he⟩ := h
    subst hv
    have hf := multi_ok _ _ _ hq he
    obtain ⟨p, c, hp, _, hpe⟩ := Json.parse_of_two_docs L t [] d vs' stop' q hq hf h2
    exact ⟨c, by simp [Json.parse, hp, hpe]⟩
  · exact parse_multi_two_example L
  · exact Json.parse_libc sample_libc L _ _ _ _ _ (by decide!) rfl

/-- C28: the parser is total.  For every input text and either dialect `parse` and
`parse_multi` return, and the cursor they end on is inside the text, as is the
stop offset of `parse_multi`.  From a cursor inside the text every method of the
parser returns with the cursor inside the text, whether it failed or not:
`consume_whitespace`, `consume_comment`, `consume_garbage`, `get_next_token`,
`parse_number` and `parse_string` move it forward, and `parse_json` leaves it at
most at the end.  The steps `i--` have a byte to go back over: a token that was
read leaves the cursor at 1 at least, and `get_next_token` never moves it back.
One round of each scanning loop (white space, the two kinds of comment, the
comments of `consume_garbage`, digits, the bytes of a string) ends the loop, fails,
or goes on from a cursor further in the text and inside it; one round of the
loop of `parse_multi` returns or goes on from a cursor further in the text.  The
fuel the embedding gives those loops and `parse_json` never runs out: any more
fuel gives the same result. -/
theorem parser_total (L : Libc) :
    (∀ t err d, ∃ v p, Json.parse_state L t err d = some (v, p) ∧ p.i ≤ t.length) ∧
    (∀ t err d, ∃ vs stop p, Json.parse_multi_state L t err d = some (vs, stop, p) ∧
      stop ≤ t.length ∧ p.i ≤ t.length) ∧
    (∀ p : JsonParser, p.i ≤ p.str.length →
      (p.i ≤ (consume_whitespace p).i ∧ (consume_whitespace p).i ≤ p.str.length) ∧
      (p.i ≤ (consume_comment p).2.i ∧ (consume_comment p).2.i ≤ p.str.length) ∧
      (p.i ≤ (consume_garbage p).i ∧ (consume_garbage p).i ≤ p.str.length) ∧
      (p.i ≤ (get_next_token p).2.i ∧ (get_next_token p).2.i ≤ p.str.length) ∧
      (p.i ≤ (parse_number L p).2.i ∧ (parse_number L p).2.i ≤ p.str.length) ∧
      (p.i ≤ (parse_string p).2.i ∧ (parse_string p).2.i ≤ p.str.length) ∧
      (∀ depth, ∃ r, parse_json L (parse_json_fuel p.str) depth p = some r ∧
        r.2.i ≤ p.str.length) ∧
      ((get_next_token p).2.failed = false → 1 ≤ (get_next_token p).2.i)) ∧
    (∀ (fuel : Nat) (p : JsonParser),
      (consume_whitespace_loop (fuel + 1) p = p ∨
        (p.i < p.str.length ∧
          consume_whitespace_loop (fuel + 1) p = consume_whitespace_loop fuel (p.adv 1))) ∧
      (line_comment_loop (fuel + 1) p = p ∨
        (p.i < p.str.length ∧
          line_comment_loop (fuel + 1) p = line_comment_loop fuel (p.adv 1))) ∧
      (digits_loop (fuel + 1) p = p ∨
        (p.i < p.str.length ∧ digits_loop (fuel + 1) p = digits_loop fuel (p.adv 1))) ∧
      (p.i + 2 ≤ p.str.length →
        block_comment_loop (fuel + 1) p = (true, p.adv 2) ∨
        block_comment_loop (fuel + 1) p = (false, (p.adv 1).fail
          (bytes "unexpected end of input inside multi-line comment")) ∨
        (p.i + 3 ≤ p.str.length ∧
          block_comment_loop (fuel + 1) p = block_comment_loop fuel (p.adv 1))) ∧
      (p.i ≤ p.str.length →
        ((consume_comment p).2.failed = true ∧
          consume_garbage_loop (fuel + 1) p = (consume_comment p).2) ∨
        ((consume_comment p).1 = false ∧
          consume_garbage_loop (fuel + 1) p = consume_whitespace (consume_comment p).2) ∨
        (p.i + 2 ≤ (consume_whitespace (consume_comment p).2).i ∧
          (consume_whitespace (consume_comment p).2).i ≤ p.str.length ∧
          consume_garbage_loop (fuel + 1) p =
            consume_garbage_loop fuel (consume_whitespace (consume_comment p).2)))) ∧
    (∀ (out : List Nat) (last : Int) (p : JsonParser), p.i ≤ p.str.length →
      (∃ m k, m ≠ [] ∧ p.i + k ≤ p.str.length ∧
        ∀ fuel, parse_string_loop (fuel + 1) out last p = ([], (p.adv k).fail m)) ∨
      (p.i < p.str.length ∧
        ∃ o, ∀ fuel, parse_string_loop (fuel + 1) out last p = (o, p.adv 1)) ∨
      (∃ out' last' k, 1 ≤ k ∧ p.i + k ≤ p.str.length ∧
        ∀ fuel, parse_string_loop (fuel + 1) out last p =
          parse_string_loop fuel out' last' (p.adv k))) ∧
    (∀ (fuel : Nat) (vec : List Json) (stop : Nat) (p : JsonParser), p.i ≤ p.str.length →
      (∃ vs q, parse_multi_loop L (fuel + 1) vec stop p = some (vs, stop, q) ∧
        q.i ≤ p.str.length ∧ (q.failed = true ∨ p.i = p.str.length)) ∨
      (∃ v q, p.i < q.i ∧ q.i ≤ p.str.length ∧ q.str = p.str ∧ q.failed = false ∧
        parse_multi_loop L (fuel + 1) vec stop p =
          parse_multi_loop L fuel (vec ++ [v]) q.i q)) ∧
    (∀ (fuel : Nat) (p : JsonParser), p.i ≤ p.str.length →
      (p.str.length - p.i ≤ fuel → consume_whitespace_loop fuel p = consume_whitespace p) ∧
      (p.str.length - p.i ≤ fuel →
        line_comment_loop fuel p = line_comment_loop (p.str.length - p.i) p) ∧
      (p.str.length - p.i ≤ fuel →
        digits_loop fuel p = digits_loop (p.str.length - p.i) p) ∧
      (p.i + 2 ≤ p.str.length → p.str.length - p.i ≤ fuel →
        block_comment_loop fuel p = block_comment_loop (p.str.length - p.i) p) ∧
      (p.str.length - p.i + 1 ≤ fuel →
        consume_garbage_loop fuel p = consume_garbage_loop (p.str.length - p.i + 1) p) ∧
      (p.str.length - p.i + 1 ≤ fuel → parse_string_loop fuel [] (-1) p = parse_string p) ∧
      (∀ depth, parse_json_fuel p.str ≤ fuel →
        parse_json L fuel depth p = parse_json L (parse_json_fuel p.str) depth p)) := by
  refine ⟨?_, ?_, ?_, ?_, ?_, ?_, ?_⟩
  · intro t err d
    obtain ⟨⟨v, p⟩, h⟩ := Json.parse_state_some L t err d
    exact ⟨v, p, h, Json.parse_state_bound L t err d v p h⟩
  · intro t err d
    obtain ⟨vs, stop, q, h, _, _⟩ := Json.parse_multi_state_spec L t err d
    have := parse_multi_loop_bound L (t.length + 1) [] 0 ⟨t, 0, err, false, d⟩
      (Nat.zero_le _) (Nat.zero_le _) _ h
    exact ⟨vs, stop, q, h, this.1, this.2⟩
  · intro p h
    refine ⟨consume_whitespace_i p h, consume_comment_bound p h, consume_garbage_bound p h,
      get_next_token_bound p h, parse_number_bound L p h, parse_string_bound p h, ?_,
      get_next_token_pos p h⟩
    intro depth
    obtain ⟨r, hr⟩ := parse_json_fuel_some L depth p h
    exact ⟨r, hr, parse_json_bound L _ _ _ _ hr h⟩
  · intro fuel p
    exact ⟨consume_whitespace_loop_round fuel p, line_comment_loop_round fuel p,
      digits_loop_round fuel p, block_comment_loop_round fuel p,
      consume_garbage_loop_round fuel p⟩
  · intro out last p h
    exact parse_string_loop_round out last p h
  · intro fuel vec stop p h
    exact parse_multi_loop_round L fuel vec stop p h
  · intro fuel p h
    refine ⟨fun hf => consume_whitespace_loop_fuel _ _ p hf (le_refl _),
      fun hf => line_comment_loop_fuel _ _ p hf (le_refl _),
      fun hf => digits_loop_fuel _ _ p hf (le_refl _),
      fun h2 hf => block_comment_loop_fuel _ _ p h2 (by omega) (by omega),
      fun hf => consume_garbage_loop_fuel _ _ p h hf (le_refl _),
      fun hf => parse_string_loop_fuel _ _ _ _ p h hf (le_refl _),
      fun depth hf => parse_json_fuel_enough L fuel depth p h hf⟩

/-- C27: on values that hold no Number in the double representation `operator<`
is a strict total order consistent with `operator==`.  For such values `a`, `b`
and `c`, exactly one of `a < b`, `a == b` and `b < a` holds, also with the test of
the pointers that both operators begin with (the pointers are the same only for
one value); `a < b` and `b < c` give `a < c`; `a < a` does not hold, and `a == b`
holds exactly when the two values are the same.  Arrays are compared
lexicographically, element by element, and objects lexicographically over their
entries in key order, an entry being less than another when its key is, or when
the keys are the same and its value is less. -/
theorem lt_strict_total_order (a b c : Json) (ha : a.double_free = true)
    (hb : b.double_free = true) (hc : c.double_free = true) :
    ((Json.lt a b = true ∧ Json.eq a b = false ∧ Json.lt b a = false) ∨
      (Json.lt a b = false ∧ Json.eq a b = true ∧ Json.lt b a = false) ∨
      (Json.lt a b = false ∧ Json.eq a b = false ∧ Json.lt b a = true)) ∧
    (Json.lt a b = true → Json.lt b c = true → Json.lt a c = true) ∧
    Json.lt a a = false ∧
    (Json.eq a b = true ↔ a = b) ∧
    (∀ same_ptr : Bool, (same_ptr = true → a = b) →
      (Json.op_lt same_ptr a b = true ∧ Json.op_eq same_ptr a b = false ∧
          Json.op_lt same_ptr b a = false) ∨
        (Json.op_lt same_ptr a b = false ∧ Json.op_eq same_ptr a b = true ∧
          Json.op_lt same_ptr b a = false) ∨
        (Json.op_lt same_ptr a b = false ∧ Json.op_eq same_ptr a b = false ∧
          Json.op_lt same_ptr b a = true)) ∧
    (∀ (x y : Json) (xs ys : List Json),
      Json.lt (.array []) (.array (y :: ys)) = true ∧
      Json.lt (.array xs) (.array []) = false ∧
      Json.lt (.array (x :: xs)) (.array (y :: ys)) =
        (Json.lt x y || (!Json.lt y x && Json.lt (.array xs) (.array ys)))) ∧
    (∀ (k k' : List Nat) (x y : Json) (m m' : List (List Nat × Json)),
      Json.lt (.object []) (.object ((k', y) :: m')) = true ∧
      Json.lt (.object m) (.object []) = false ∧
      Json.lt (.object ((k, x) :: m)) (.object ((k', y) :: m')) =
        ((string_lt k k' || (!string_lt k' k && Json.lt x y)) ||
          (!(string_lt k' k || (!string_lt k k' && Json.lt y x)) &&
            Json.lt (.object m) (.object m')))) := by
  have tri : ∀ u v : Json, u.double_free = true → v.double_free = true →
      (Json.lt u v = true ∧ Json.eq u v = false ∧ Json.lt v u = false) ∨
      (Json.lt u v = false ∧ Json.eq u v = true ∧ Json.lt v u = false) ∨
      (Json.lt u v = false ∧ Json.eq u v = false ∧ Json.lt v u = true) := by
    intro u v hu hv
    have e := Json.eq_iff_same u v hu hv
    rw [← (Json.gt_lt u v).1]
    rcases Json.lt_tri u v hu hv with ⟨h1, h2, h3⟩ | ⟨h1, h2, h3⟩ | ⟨h1, h2, h3⟩
    · refine Or.inl ⟨h1, ?_, h3⟩
      cases he : Json.eq u v
      · rfl
      · exact absurd (e.mp he) h2
    · exact Or.inr (Or.inl ⟨h1, e.mpr h2, h3⟩)
    · refine Or.inr (Or.inr ⟨h1, ?_, h3⟩)
      cases he : Json.eq u v
      · rfl
      · exact absurd (e.mp he) h2
  have irr : Json.lt a a = false := by
    rcases Json.lt_tri a a ha ha with ⟨_, h2, _⟩ | ⟨h1, _, _⟩ | ⟨h1, _, _⟩
    · exact absurd rfl h2
    · exact h1
    · exact h1
  refine ⟨tri a b ha hb, Json.lt_trans a b c ha hb hc, irr, Json.eq_iff_same a b ha hb,
    ?_, ?_, ?_⟩
  · intro s hs
    cases s with
    | false => exact tri a b ha hb
    | true =>
      have e := hs rfl
      subst e
      exact Or.inr (Or.inl ⟨rfl, rfl, rfl⟩)
  · intro x y xs ys
    refine ⟨rfl, ?_, ?_⟩
    · cases xs <;> rfl
    · simp only [Json.lt, Json.lt_array, (Json.gt_lt x y).1]
      cases Json.lt x y <;> cases Json.lt y x <;> rfl
  · intro k k' x y m m'
    refine ⟨rfl, ?_, ?_⟩
    · cases m <;> rfl
    · simp only [Json.lt, Json.lt_object, (Json.gt_lt x y).1]
      cases string_lt k k' || (!string_lt k' k && Json.lt x y) <;>
        cases string_lt k' k || (!string_lt k k' && Json.lt y x) <;> rfl

/-- The order on three arrays of booleans: the first is below the third. -/
theorem lt_strict_total_order_witness :
    Json.lt (.array [.bool false]) (.array [.bool true, .null]) = true :=
  (lt_strict_total_order (.array [.bool false]) (.array [.bool true])
    (.array [.bool true, .null]) rfl rfl rfl).2.1 rfl rfl

/-- C25: COMMENTS is a conservative extension of STANDARD.  A text that `parse`
accepts under the standard dialect with the value `v`, it accepts under the
dialect with comments with the same value `v`; the parser then ends in the same
state but for the dialect, whatever `err` held at the call. -/
theorem comments_conservative (L : Libc) (t : List Nat) (v : Json)
    (h : Json.parse L t [] JsonParse.STANDARD = some (v, [])) :
    Json.parse L t [] JsonParse.COMMENTS = some (v, []) ∧
    (∀ (err : List Nat) (w : Json) (p : JsonParser),
      Json.parse_state L t err JsonParse.STANDARD = some (w, p) → p.failed = false →
      Json.parse_state L t err JsonParse.COMMENTS = some (w, p.under JsonParse.COMMENTS)) := by
  refine ⟨?_, fun err w p hp hf => Json.parse_state_under L _ t err w p hp hf⟩
  obtain ⟨q, hq, hqf⟩ := Json.parse_success L t JsonParse.STANDARD v h
  have hk := (Json.parse_state_ext L t [] JsonParse.STANDARD v q hq).keep hqf
  simp only at hk
  rw [Json.parse, Json.parse_state_under L JsonParse.COMMENTS t [] v q hq hqf]
  simp [hk]

/-- A string literal with a slash in it, and a space after it: the slash begins
no comment. -/
theorem comments_conservative_witness :
    Json.parse sample_libc (bytes "\"a/b\" ") [] JsonParse.COMMENTS =
      some (Json.string (bytes "a/b"), []) :=
  (comments_conservative sample_libc (bytes "\"a/b\" ") (Json.string (bytes "a/b"))
    (by decide!)).1

/-- C22: block comments end at the first `*/`.  Under the dialect with comments,
for every text `c` that does not contain `*/` and every text `t`, `parse` on the
text `/*` `c` `*/` `t` returns what it returns on `t`: the same value and the same
content of `err`, so the same error message when it fails; the parser ends in
the state it ends in on `t`, moved by the length of the comment. -/
theorem block_comment_before_text (L : Libc) (c t : List Nat) (hc : ¬ (bytes "*/" <:+: c))
    (err : List Nat) :
    Json.parse L (bytes "/*" ++ c ++ bytes "*/" ++ t) err JsonParse.COMMENTS =
      Json.parse L t err JsonParse.COMMENTS ∧
    Json.parse_state L (bytes "/*" ++ c ++ bytes "*/" ++ t) err JsonParse.COMMENTS =
      (Json.parse_state L t err JsonParse.COMMENTS).map
        (fun r => (r.1, r.2.shift (bytes "/*" ++ c ++ bytes "*/"))) := by
  have h1 : bytes "/*" = [47, 42] := by decide
  have h2 : bytes "*/" = [42, 47] := by decide
  rw [h2] at hc
  have e : bytes "/*" ++ c ++ bytes "*/" = 47 :: 42 :: (c ++ [42, 47]) := by
    rw [h1, h2]
    simp
  have hs := Json.parse_state_block L c t err hc
  rw [e]
  refine ⟨?_, hs⟩
  simp only [Json.parse]
  rw [hs, Option.map_map]
  rfl

/-- A comment with a star and a slash apart in it, before an array. -/
theorem block_comment_before_text_witness :
    Json.parse sample_libc (bytes "/*" ++ bytes " a * b / " ++ bytes "*/" ++ bytes " [1]") []
        JsonParse.COMMENTS = some (Json.array [Json.int 1], []) :=
  (block_comment_before_text sample_libc (bytes " a * b / ") (bytes " [1]") (by decide) []).1.trans
    (by decide!)

end jsonL
